import Mathlib
-- BEGIN
/-!
# ffrsa: a shallow embedding of the bigint engine (`src/internal/ffbi.cpp`)

Conventions of the embedding.

* A C array is a `List Nat`; its allocated size is the length of the list.  Reading or
  writing outside the array makes the operation return `none`.
* Bigints live in a `Heap`; a pointer is an index into `Heap.obj`.  Two pointer
  arguments alias exactly when they are the same index.
* A machine word of `w` bits is a `Nat` reduced modulo `2 ^ w` at every operation that
  can overflow (`wadd`, `wsub`, `wmul`, `wshl`).
* `new T[n]` returns indeterminate storage: its contents come from the oracle
  `Heap.fresh`, indexed by the running allocation counter.
* Lengths, indices and bit counts (`uint32_t`, `int`) are natural numbers.  Where the
  source computes one of them in a 32-bit type that it can leave, the definition says so:
  the bit count of `ffbi_get_significant_bits` and of `ffbi_deserialize`, the element count
  of the flag array of `ffbi_get_sieve`, the sizes kept in an RSA key.
* `rand()` returns the successive values of the sequence `Heap.rand`; `srand` has no effect
  on the model (the sequence is arbitrary).
* `ffbi_destroy`, `ffmem_free` and the logging calls have no effect on the model.
-/

namespace FFRSA

/-! ## Build configurations (`ffbi.h`, lines 17-25; `ffbi.cpp`, lines 30-50) -/

/-- The two configurations selected by the preprocessor. -/
inductive Platform where
  | gnu128
  | generic64
deriving DecidableEq, Repr

/-- Width of `ffbi_word_t`. -/
def FFBI_WORD_SIZE : Platform → Nat
  | .gnu128 => 128
  | .generic64 => 64

/-- Significant bits stored per digit. -/
def FFBI_BITS_PER_DIGIT : Platform → Nat
  | .gnu128 => 61
  | .generic64 => 29

/-- Width of `ffbi_cache_word_t`. -/
def FFBI_CACHE_WORD_SIZE : Platform → Nat
  | .gnu128 => 128
  | .generic64 => 64

/-- Bits per cache digit used by the division cache. -/
def FFBI_CACHE_DIV_BITS_PER_DIGIT : Platform → Nat
  | .gnu128 => 32
  | .generic64 => 16

/-- Smallest digit allocation made by the library. -/
def FFBI_MIN_ALLOC_DIGITS : Nat := 3

/-- Number of scratch values used by `ffbi_mod_pow`. -/
def FFBI_MOD_POW_NUM_SCRATCHES : Nat := 6

/-- Value of `_digit_max_plus_1` after `ffbi_init`. -/
def digit_max_plus_1 (P : Platform) : Nat := (1 <<< FFBI_BITS_PER_DIGIT P) % 2 ^ FFBI_WORD_SIZE P

/-- Value of `_digit_max` after `ffbi_init`. -/
def digit_max (P : Platform) : Nat := digit_max_plus_1 P - 1

/-- Value of `_cache_div_digit_max_plus_1` after `ffbi_init`. -/
def cache_div_digit_max_plus_1 (P : Platform) : Nat :=
  (1 <<< FFBI_CACHE_DIV_BITS_PER_DIGIT P) % 2 ^ FFBI_CACHE_WORD_SIZE P

/-- Value of `_cache_div_digit_max` after `ffbi_init`. -/
def cache_div_digit_max (P : Platform) : Nat := cache_div_digit_max_plus_1 P - 1

/-! ## Machine words -/

/-- Unsigned addition in a `w`-bit word. -/
def wadd (w a b : Nat) : Nat := (a + b) % 2 ^ w

/-- Unsigned subtraction in a `w`-bit word (wraps around). -/
def wsub (w a b : Nat) : Nat := (a % 2 ^ w + (2 ^ w - b % 2 ^ w)) % 2 ^ w

/-- Unsigned multiplication in a `w`-bit word. -/
def wmul (w a b : Nat) : Nat := (a * b) % 2 ^ w

/-- Left shift in a `w`-bit word. -/
def wshl (w a s : Nat) : Nat := (a <<< s) % 2 ^ w

/-! ## Data model (`ffbi.cpp`, lines 66-85) -/

/-- The record `struct FFBI`. -/
structure FFBI where
  num_allocated_digits : Nat
  num_used_digits : Nat
  digits : List Nat
  reallocation_allowed : Bool
  cache : Option (List Nat)
  cache_num_allocated_digits : Nat
  cache_num_used_digits : Nat
  cache_valid : Bool
  cache_bits_per_digit : Nat
deriving Repr

/-- The record `struct FFBI_SCRATCH`: `val` holds bigint pointers (`num_vals` is its length),
`child` points to the first child arena. -/
structure FFBI_SCRATCH where
  val : List Nat
  child : Option Nat
  num_children : Nat
deriving Repr

/-- The store of bigint records and scratch arenas, with the oracle for the contents of
fresh arrays and the sequence of values that `rand()` returns (`nrand` counts the calls). -/
structure Heap where
  obj : List FFBI
  scr : List FFBI_SCRATCH
  fresh : Nat → Nat → Nat
  nalloc : Nat
  rand : Nat → Nat
  nrand : Nat

/-- Dereference a bigint pointer. -/
def Heap.get (h : Heap) (p : Nat) : Option FFBI := h.obj[p]?

/-- Store a record through a bigint pointer. -/
def Heap.put (h : Heap) (p : Nat) (x : FFBI) : Option Heap :=
  if p < h.obj.length then some { h with obj := h.obj.set p x } else none

/-- Result of `new T[n]` for a `w`-bit element type: `n` indeterminate words. -/
def Heap.newArr (h : Heap) (w n : Nat) : List Nat × Heap :=
  ((List.range n).map (fun i => h.fresh h.nalloc i % 2 ^ w), { h with nalloc := h.nalloc + 1 })

/-- Sequencing of fallible steps: run `x`, stop on a fault, otherwise continue with `f`. -/
@[noinline] def obind {α β : Type} (x : Option α) (f : α → Option β) : Option β :=
  match x with
  | none => none
  | some a => f a

/-- Read `arr[i]`. -/
def rd (arr : List Nat) (i : Nat) : Option Nat := arr[i]?

/-- Write `arr[i] = v`. -/
def wr (arr : List Nat) (i v : Nat) : Option (List Nat) :=
  if i < arr.length then some (arr.set i v) else none

/-- Read `p->digits[i]`. -/
def rdDigit (h : Heap) (p i : Nat) : Option Nat :=
  obind (h.get p) fun x => rd x.digits i

/-- Write `p->digits[i] = v`. -/
def wrDigit (h : Heap) (p i v : Nat) : Option Heap :=
  obind (h.get p) fun x =>
  obind (wr x.digits i v) fun ds =>
  h.put p { x with digits := ds }

/-- Read `p->cache[i]`. -/
def rdCache (h : Heap) (p i : Nat) : Option Nat :=
  obind (h.get p) fun x =>
  obind x.cache fun c => rd c i

/-- Write `p->cache[i] = v`. -/
def wrCache (h : Heap) (p i v : Nat) : Option Heap :=
  obind (h.get p) fun x =>
  obind x.cache fun c =>
  obind (wr c i v) fun c' =>
  h.put p { x with cache := some c' }

/-- Update the scalar fields of `*p`. -/
def modify (h : Heap) (p : Nat) (f : FFBI → FFBI) : Option Heap :=
  obind (h.get p) fun x => h.put p (f x)

/-! ## Loops -/

/-- The loop `for (i = k; i < k + n; i++) body(i)`. -/
def forUp {σ : Type} (body : Nat → σ → Option σ) : Nat → Nat → σ → Option σ
  | 0, _, s => some s
  | n + 1, k, s => obind (body k s) fun s' => forUp body n (k + 1) s'

/-- The loop `for (i = n; i > 0; i--) body(i - 1)`: indices `n - 1` down to `0`. -/
def forDown {σ : Type} (body : Nat → σ → Option σ) : Nat → σ → Option σ
  | 0, s => some s
  | n + 1, s => obind (body n s) fun s' => forDown body n s'

/-- The loop `while (cond) body`, cut off after `fuel` iterations (`none` when cut off). -/
def whileLoop {σ : Type} (cond : σ → Option Bool) (body : σ → Option σ) : Nat → σ → Option σ
  | 0, _ => none
  | fuel + 1, s =>
    obind (cond s) fun c =>
    if c then obind (body s) fun s' => whileLoop cond body fuel s' else some s

/-! ## Values and the representation invariant (spec section 3.1) -/

/-- The integer denoted by the first `n` digits of `ds`, `bits` bits per digit, least
significant digit first: the sum of `ds[i] * 2 ^ (bits * i)` over `i < n`. -/
def digitsVal (bits : Nat) (ds : List Nat) : Nat → Nat
  | 0 => 0
  | n + 1 => digitsVal bits ds n + ds.getD n 0 * 2 ^ (bits * n)

/-- The integer denoted by a bigint record. -/
def val (P : Platform) (x : FFBI) : Nat :=
  digitsVal (FFBI_BITS_PER_DIGIT P) x.digits x.num_used_digits

/-- The representation invariant on the first `n` digits of an array. -/
def canonicalDigits (bits : Nat) (ds : List Nat) (n : Nat) : Prop :=
  1 ≤ n ∧ n ≤ ds.length ∧ (∀ i, i < n → ds.getD i 0 < 2 ^ bits) ∧ (n = 1 ∨ ds.getD (n - 1) 0 ≠ 0)

instance (bits : Nat) (ds : List Nat) (n : Nat) : Decidable (canonicalDigits bits ds n) := by
  unfold canonicalDigits; infer_instance

/-- The representation invariant of a bigint: `length ≥ 1`, every digit below `2 ^ D`,
no leading zero digit unless the length is 1. -/
def canonical (P : Platform) (x : FFBI) : Prop :=
  canonicalDigits (FFBI_BITS_PER_DIGIT P) x.digits x.num_used_digits

instance (P : Platform) (x : FFBI) : Decidable (canonical P x) := by
  unfold canonical; infer_instance

/-- The cache, when marked valid, encodes the same integer as the digits. -/
def cacheCoherent (P : Platform) (x : FFBI) : Prop :=
  x.cache_valid = true →
    ∃ c, x.cache = some c ∧ canonicalDigits x.cache_bits_per_digit c x.cache_num_used_digits ∧
      x.cache_num_allocated_digits ≤ c.length ∧
      0 < x.cache_bits_per_digit ∧
      digitsVal x.cache_bits_per_digit c x.cache_num_used_digits = val P x

/-! ## Comparison (`ffbi.cpp`, lines 1003-1038) -/

/-- The digit loop of `ffbi_cmp`: `k` runs from `n - 1` down to `0`. -/
def cmp_loop (a b : List Nat) : Nat → Option Int
  | 0 => some 0
  | k + 1 =>
    obind (rd a k) fun x =>
    obind (rd b k) fun y =>
    if x > y then some 1 else if x < y then some (-1) else cmp_loop a b k

/-- Comparison of two digit arrays with their used lengths. -/
def cmp_arrays (a : List Nat) (an : Nat) (b : List Nat) (bn : Nat) : Option Int :=
  if an > bn then some 1
  else if an < bn then some (-1)
  else cmp_loop a b an

/-- The function `ffbi_cmp`. -/
def ffbi_cmp (h : Heap) (a b : Nat) : Option Int :=
  obind (h.get a) fun x =>
  obind (h.get b) fun y =>
  cmp_arrays x.digits x.num_used_digits y.digits y.num_used_digits

/-- The wide-digit comparison `ffbi_cmp_cache`. -/
def ffbi_cmp_cache (h : Heap) (a b : Nat) : Option Int :=
  obind (h.get a) fun x =>
  obind (h.get b) fun y =>
  obind x.cache fun ca =>
  obind y.cache fun cb =>
  cmp_arrays ca x.cache_num_used_digits cb y.cache_num_used_digits

/-- The function `ffbi_is_zero`. -/
def ffbi_is_zero (h : Heap) (p : Nat) : Option Bool :=
  obind (h.get p) fun x =>
  if x.num_used_digits = 1 then obind (rd x.digits 0) fun d0 => some (decide (d0 = 0))
  else some false

/-- The recorded capacities do not exceed the arrays actually allocated. -/
def validStorage (x : FFBI) : Prop :=
  x.num_allocated_digits ≤ x.digits.length ∧
    ∀ c, x.cache = some c → x.cache_num_allocated_digits ≤ c.length

/-! ## Storage (`ffbi.cpp`, lines 347-422, 748-806, 2169-2176) -/

/-- The call `memcpy(dst, src, n * sizeof(word))`. -/
def memcpy (dst src : List Nat) (n : Nat) : Option (List Nat) :=
  if n ≤ src.length ∧ n ≤ dst.length then some (src.take n ++ dst.drop n) else none

/-- The call `memset(dst, 0, n * sizeof(word))`. -/
def memset0 (dst : List Nat) (n : Nat) : Option (List Nat) :=
  if n ≤ dst.length then some (List.replicate n 0 ++ dst.drop n) else none

/-- The function `ffbi_reallocate_digits`. -/
def ffbi_reallocate_digits (P : Platform) (h : Heap) (p target_num_digits : Nat)
    (retain_value : Bool) : Option Heap :=
  obind (h.get p) fun x =>
  if x.reallocation_allowed = false then some h else
  let target := if retain_value then
      (if target_num_digits < x.num_used_digits then x.num_used_digits else target_num_digits)
    else target_num_digits
  let x1 := if retain_value then x else { x with num_used_digits := 1, cache_valid := false }
  if target = x1.num_allocated_digits then h.put p x1 else
  let target := if target < FFBI_MIN_ALLOC_DIGITS then FFBI_MIN_ALLOC_DIGITS else target
  let r := h.newArr (FFBI_WORD_SIZE P) target
  obind (if retain_value then memcpy r.1 x1.digits x1.num_used_digits else some r.1) fun arr =>
  r.2.put p { x1 with digits := arr, num_allocated_digits := target }

/-- The record produced by `memset(ret, 0, sizeof(ffbi_t))` followed by the field
assignments shared by the `ffbi_create*` functions. -/
def newRecord (arr : List Nat) (n : Nat) (growable : Bool) : FFBI :=
  { num_allocated_digits := n, num_used_digits := 1, digits := arr,
    reallocation_allowed := growable, cache := none, cache_num_allocated_digits := 0,
    cache_num_used_digits := 0, cache_valid := false, cache_bits_per_digit := 0 }

/-- The function `ffbi_create_reserved_digits`; returns the new pointer. -/
def ffbi_create_reserved_digits (P : Platform) (h : Heap) (digits : Nat) : Option (Nat × Heap) :=
  let digits := if digits < FFBI_MIN_ALLOC_DIGITS then FFBI_MIN_ALLOC_DIGITS else digits
  let r := h.newArr (FFBI_WORD_SIZE P) digits
  obind (wr r.1 0 0) fun arr =>
  some (r.2.obj.length, { r.2 with obj := r.2.obj ++ [newRecord arr digits true] })

/-- The function `ffbi_create`. -/
def ffbi_create (P : Platform) (h : Heap) : Option (Nat × Heap) :=
  let r := h.newArr (FFBI_WORD_SIZE P) FFBI_MIN_ALLOC_DIGITS
  obind (wr r.1 0 0) fun arr =>
  some (r.2.obj.length, { r.2 with obj := r.2.obj ++ [newRecord arr FFBI_MIN_ALLOC_DIGITS true] })

/-- The function `ffbi_copy`. -/
def ffbi_copy (P : Platform) (h : Heap) (dest src : Nat) : Option Heap :=
  obind (h.get dest) fun xd =>
  obind (h.get src) fun xs =>
  obind (if xd.num_allocated_digits < xs.num_used_digits then
      ffbi_reallocate_digits P h dest xs.num_used_digits false else some h) fun h =>
  obind (h.get src) fun xs =>
  obind (modify h dest (fun x => { x with num_used_digits := xs.num_used_digits })) fun h =>
  obind (h.get dest) fun xd =>
  obind (h.get src) fun xs =>
  obind (memcpy xd.digits xs.digits xs.num_used_digits) fun ds =>
  h.put dest { xd with digits := ds, cache_valid := false }

/-- The function `ffbi_create_from_bigint`. -/
def ffbi_create_from_bigint (P : Platform) (h : Heap) (p : Nat) : Option (Nat × Heap) :=
  obind (h.get p) fun x =>
  obind (ffbi_create_reserved_digits P h x.num_allocated_digits) fun r =>
  obind (ffbi_copy P r.2 r.1 p) fun h =>
  some (r.1, h)

/-- The function `ffbi_destroy`: deallocation is not observable in the model. -/
def ffbi_destroy (h : Heap) (_p : Nat) : Heap := h

/-! ## Significant bits (`ffbi.cpp`, lines 159-198, 919-929) -/

/-- The loop `while (num > 0) { num >>= 1; count += 1; }`; the first argument bounds the
number of iterations and is always chosen large enough. -/
def sigbits_loop : Nat → Nat → Nat → Nat
  | 0, _, count => count
  | fuel + 1, num, count => if num > 0 then sigbits_loop fuel (num >>> 1) (count + 1) else count

/-- The functions `ffbi_significant_bits`, `ffbi_significant_bits_cache_word` and
`ffbi_significant_bits_uint8` (the same body at three word types). -/
def ffbi_significant_bits (num : Nat) : Nat :=
  if num = 0 then 1 else sigbits_loop num num 0

/-- The function `ffbi_get_significant_bits`.  The index `num_used_digits - 1` and the count
are `uint32_t` values.  For `num_used_digits = 0` the index is `2^32 - 1`, outside the array
(a fault).  A count of `2^32` or more does not fit: the C function then returns the count
modulo `2^32` and its callers go on with a wrong size; the model does not follow such a run
(`none`), so that whatever it returns is the count that the code returns. -/
def ffbi_get_significant_bits (P : Platform) (h : Heap) (p : Nat) : Option Nat :=
  obind (h.get p) fun x =>
  if x.num_used_digits = 0 then none else
  obind (rd x.digits (x.num_used_digits - 1)) fun top =>
  let total_bits := (x.num_used_digits - 1) * FFBI_BITS_PER_DIGIT P + ffbi_significant_bits top
  if total_bits < 2 ^ 32 then some total_bits else none

/-- The function `ffbi_get_serialized_size`. -/
def ffbi_get_serialized_size (P : Platform) (h : Heap) (p : Nat) : Option Nat :=
  obind (ffbi_get_significant_bits P h p) fun total_bits =>
  some (total_bits / 8 + (if total_bits % 8 > 0 then 1 else 0))

/-! ## Base conversion (`ffbi.cpp`, lines 209-303) -/

/-- The record `struct FFBI_BASE_CONVERT` (the unused field `dst_digit_max` is omitted). -/
structure ffbi_base_convert_t where
  dst_bits_per_digit : Nat
  src_bits_per_digit : Nat
  total_used_bits : Nat
  dst_num_full_digits : Nat
  dst_remaining_bits : Nat
  dst_num_digits : Nat
  src_num_digits : Nat
deriving Repr

/-- The function `ffbi_base_convert_create`; a zero digit width is a division by zero. -/
def ffbi_base_convert_create (dst_bits_per_digit src_bits_per_digit total_used_bits : Nat) :
    Option ffbi_base_convert_t :=
  if dst_bits_per_digit = 0 ∨ src_bits_per_digit = 0 then none else
  some { dst_bits_per_digit := dst_bits_per_digit
         src_bits_per_digit := src_bits_per_digit
         total_used_bits := total_used_bits
         src_num_digits := total_used_bits / src_bits_per_digit +
           (if total_used_bits % src_bits_per_digit > 0 then 1 else 0)
         dst_num_full_digits := total_used_bits / dst_bits_per_digit
         dst_remaining_bits := total_used_bits % dst_bits_per_digit
         dst_num_digits := total_used_bits / dst_bits_per_digit +
           (if total_used_bits % dst_bits_per_digit > 0 then 1 else 0) }

/-- Local variables of `ffbi_base_convert_exec`. -/
structure ConvState where
  dst : List Nat
  src_bit_idx : Nat
  src_digit_idx : Nat
  dest_bit_idx : Nat
deriving Repr

/-- One iteration of the inner `while` of `ffbi_base_convert_exec` for destination digit `i`
that has `limit` bits to fill; `dstW` is the width of the destination word type. -/
def convert_pull (dstW : Nat) (ctx : ffbi_base_convert_t) (src : List Nat) (i limit dst_digit_max : Nat)
    (s : ConvState) : Option ConvState :=
  let pullable_bits := ctx.src_bits_per_digit - s.src_bit_idx
  let bits_to_pull := limit - s.dest_bit_idx
  obind (rd src s.src_digit_idx) fun sv =>
  let temp := wshl dstW ((sv >>> s.src_bit_idx) % 2 ^ dstW) s.dest_bit_idx
  obind (rd s.dst i) fun d =>
  if bits_to_pull ≥ pullable_bits then
    obind (wr s.dst i (d ||| temp)) fun dst =>
    some { dst := dst, dest_bit_idx := s.dest_bit_idx + pullable_bits, src_bit_idx := 0,
           src_digit_idx := s.src_digit_idx + 1 }
  else
    obind (wr s.dst i ((d ||| temp) &&& dst_digit_max)) fun dst =>
    some { dst := dst, dest_bit_idx := s.dest_bit_idx + bits_to_pull,
           src_bit_idx := s.src_bit_idx + bits_to_pull, src_digit_idx := s.src_digit_idx }

/-- The inner loop `while (dest_bit_idx < limit)` for destination digit `i`. -/
def convert_digit (dstW : Nat) (ctx : ffbi_base_convert_t) (src : List Nat) (limit dst_digit_max i : Nat)
    (s : ConvState) : Option ConvState :=
  whileLoop (fun t => some (decide (t.dest_bit_idx < limit)))
    (convert_pull dstW ctx src i limit dst_digit_max) (limit + 1)
    { s with dest_bit_idx := 0 }

/-- The template `ffbi_base_convert_exec<dst_t, src_t>`; `dstW` is the width of `dst_t`. -/
def ffbi_base_convert_exec (dstW : Nat) (ctx : ffbi_base_convert_t) (dst src : List Nat) :
    Option (List Nat) :=
  obind (memset0 dst ctx.dst_num_digits) fun dst =>
  let dst_digit_max := wsub dstW (wshl dstW 1 ctx.dst_bits_per_digit) 1
  obind (forUp (convert_digit dstW ctx src ctx.dst_bits_per_digit dst_digit_max)
    ctx.dst_num_full_digits 0
    { dst := dst, src_bit_idx := 0, src_digit_idx := 0, dest_bit_idx := 0 }) fun s =>
  obind (if ctx.dst_remaining_bits > 0 then
      convert_digit dstW ctx src ctx.dst_remaining_bits dst_digit_max ctx.dst_num_full_digits s
    else some s) fun s =>
  some s.dst

/-! ## Serialization (`ffbi.cpp`, lines 931-965) -/

/-- The function `ffbi_serialize_v2`: returns the `int` result and the buffer afterwards. -/
def ffbi_serialize_v2 (P : Platform) (h : Heap) (p : Nat) (buffer : List Nat) (size_bytes : Nat)
    (total_bits : Nat) : Option (Int × List Nat) :=
  obind (h.get p) fun x =>
  obind (ffbi_base_convert_create 8 (FFBI_BITS_PER_DIGIT P) total_bits) fun ctx =>
  let num_write_bytes := ctx.dst_num_digits
  if num_write_bytes < size_bytes then some (-1, buffer) else
  obind (ffbi_base_convert_exec 8 ctx buffer x.digits) fun buffer =>
  some ((num_write_bytes : Int), buffer)

/-- The function `ffbi_serialize`. -/
def ffbi_serialize (P : Platform) (h : Heap) (p : Nat) (buffer : List Nat) (size_bytes : Nat) :
    Option (Int × List Nat) :=
  obind (ffbi_get_significant_bits P h p) fun total_bits =>
  ffbi_serialize_v2 P h p buffer size_bytes total_bits

/-- The function `ffbi_deserialize`.  With `size_bytes = 0` the byte `buffer[-1]` is read (a
fault).  `total_bits` is a `uint32_t`: a block whose bit count reaches `2^32` makes the C
function go on with the count modulo `2^32`, a run that the model does not follow (`none`). -/
def ffbi_deserialize (P : Platform) (h : Heap) (p : Nat) (buffer : List Nat) (size_bytes : Nat) :
    Option Heap :=
  if size_bytes = 0 then none else
  obind (rd buffer (size_bytes - 1)) fun top =>
  let total_bits := (size_bytes - 1) * 8 + ffbi_significant_bits top
  if 2 ^ 32 ≤ total_bits then none else
  obind (ffbi_base_convert_create (FFBI_BITS_PER_DIGIT P) 8 total_bits) fun ctx =>
  obind (h.get p) fun x =>
  obind (if ctx.dst_num_digits > x.num_allocated_digits then
      ffbi_reallocate_digits P h p ctx.dst_num_digits false else some h) fun h =>
  obind (modify h p (fun x => { x with num_used_digits := ctx.dst_num_digits })) fun h =>
  obind (h.get p) fun x =>
  obind (ffbi_base_convert_exec (FFBI_WORD_SIZE P) ctx x.digits buffer) fun ds =>
  h.put p { x with digits := ds, cache_valid := false }

/-! ## Addition (`ffbi.cpp`, lines 1040-1136) -/

/-- Body of both digit loops of `ffbi_add`: `dest[k] = sum; dest[k-1] &= _digit_max`, where
`src2` is `some b` in the first loop and `none` in the carry-propagation loop. -/
def add_step (P : Platform) (dest src1 : Nat) (src2 : Option Nat) (k : Nat) (h : Heap) : Option Heap :=
  let w := FFBI_WORD_SIZE P
  obind (rdDigit h src1 k) fun x =>
  obind (match src2 with
    | some b => rdDigit h b k
    | none => some 0) fun y =>
  obind (rdDigit h dest (k - 1)) fun prev =>
  obind (wrDigit h dest k (wadd w (wadd w x y) (prev >>> FFBI_BITS_PER_DIGIT P))) fun h =>
  obind (rdDigit h dest (k - 1)) fun prev =>
  wrDigit h dest (k - 1) (prev &&& digit_max P)

/-- The tail of `ffbi_add` after the digit loops: append the final carry digit if needed. -/
def add_finish (P : Platform) (dest max_used_digits k : Nat) (h : Heap) : Option Heap :=
  obind (rdDigit h dest k) fun top =>
  if top >>> FFBI_BITS_PER_DIGIT P ≠ 0 then
    let max_used_digits := max_used_digits + 1
    obind (h.get dest) fun xd =>
    obind (if xd.num_allocated_digits < max_used_digits then
        ffbi_reallocate_digits P h dest (max_used_digits * 2 + 1) true else some h) fun h =>
    obind (rdDigit h dest k) fun top =>
    obind (wrDigit h dest k (top &&& digit_max P)) fun h =>
    obind (wrDigit h dest (k + 1) 1) fun h =>
    modify h dest (fun x => { x with num_used_digits := max_used_digits, cache_valid := false })
  else
    modify h dest (fun x => { x with num_used_digits := max_used_digits, cache_valid := false })

/-- The function `ffbi_add`. -/
def ffbi_add (P : Platform) (h : Heap) (dest a b : Nat) : Option Heap :=
  obind (h.get a) fun xa =>
  obind (h.get b) fun xb =>
  let larger := if xa.num_used_digits ≥ xb.num_used_digits then a else b
  let min_used_digits := if xa.num_used_digits ≥ xb.num_used_digits then xb.num_used_digits
    else xa.num_used_digits
  let max_used_digits := if xa.num_used_digits ≥ xb.num_used_digits then xa.num_used_digits
    else xb.num_used_digits
  obind (h.get dest) fun xd =>
  obind (if xd.num_allocated_digits < max_used_digits then
      (if dest ≠ a ∧ dest ≠ b then ffbi_reallocate_digits P h dest (max_used_digits * 2 + 1) false
       else ffbi_reallocate_digits P h dest (max_used_digits * 2 + 1) true)
    else some h) fun h =>
  obind (rdDigit h a 0) fun a0 =>
  obind (rdDigit h b 0) fun b0 =>
  obind (wrDigit h dest 0 (wadd (FFBI_WORD_SIZE P) a0 b0)) fun h =>
  obind (forUp (add_step P dest a (some b)) (min_used_digits - 1) 1 h) fun h =>
  let k := if min_used_digits > 1 then min_used_digits else 1
  obind (forUp (add_step P dest larger none) (max_used_digits - k) k h) fun h =>
  let k := (if max_used_digits > k then max_used_digits else k) - 1
  add_finish P dest max_used_digits k h

/-- Body of the carry loop `while (carry > 0)` of `ffbi_add_u`; the state is `(i, carry, heap)`. -/
def add_u_carry (P : Platform) (dest : Nat) (s : Nat × Nat × Heap) : Option (Nat × Nat × Heap) :=
  let i := s.1 + 1
  let h := s.2.2
  obind (h.get dest) fun xd =>
  obind (if i + 1 > xd.num_used_digits then
      obind (modify h dest (fun x => { x with num_used_digits := i + 1 })) fun h =>
      obind (h.get dest) fun xd =>
      obind (if xd.num_allocated_digits < xd.num_used_digits then
          ffbi_reallocate_digits P h dest (xd.num_used_digits + 2) true else some h) fun h =>
      wrDigit h dest i 0
    else some h) fun h =>
  obind (rdDigit h dest i) fun di =>
  obind (wrDigit h dest i (wadd (FFBI_WORD_SIZE P) di s.2.1)) fun h =>
  obind (rdDigit h dest i) fun di =>
  some (i, (di >>> FFBI_BITS_PER_DIGIT P) % 2 ^ 32, h)

/-- The first part of `ffbi_add_u`: digits 0 and 1 (up to the `#if`). -/
def add_u_low (P : Platform) (h : Heap) (dest a b : Nat) : Option Heap :=
  let w := FFBI_WORD_SIZE P
  obind (rdDigit h a 0) fun a0 =>
  obind (wrDigit h dest 0 (wadd w a0 (b &&& digit_max P))) fun h =>
  obind (h.get a) fun xa =>
  obind (if xa.num_used_digits = 1 then
      obind (rdDigit h dest 0) fun d0 =>
      obind (wrDigit h dest 1 (d0 >>> FFBI_BITS_PER_DIGIT P)) fun h =>
      obind (rdDigit h dest 1) fun d1 =>
      modify h dest (fun x => { x with num_used_digits := (x.num_used_digits + d1) % 2 ^ 32 })
    else
      obind (rdDigit h a 1) fun a1 =>
      obind (rdDigit h dest 0) fun d0 =>
      wrDigit h dest 1 (wadd w a1 (d0 >>> FFBI_BITS_PER_DIGIT P))) fun h =>
  obind (rdDigit h dest 0) fun d0 =>
  wrDigit h dest 0 (d0 &&& digit_max P)

/-- The block of `ffbi_add_u` under `#if FFBI_BITS_PER_DIGIT < 32`. -/
def add_u_hi (P : Platform) (h : Heap) (dest a b : Nat) : Option Heap :=
  if FFBI_BITS_PER_DIGIT P < 32 then
    let hi := b >>> FFBI_BITS_PER_DIGIT P
    if hi ≠ 0 then
      obind (rdDigit h a 1) fun a1 =>
      obind (wrDigit h dest 1 (wadd (FFBI_WORD_SIZE P) a1 hi)) fun h =>
      obind (h.get dest) fun xd =>
      if xd.num_used_digits = 1 then
        modify h dest (fun x => { x with num_used_digits := x.num_used_digits + 1 })
      else some h
    else some h
  else some h

/-- The function `ffbi_add_u`; `fuel` bounds the iterations of the carry loop. -/
def ffbi_add_u (P : Platform) (fuel : Nat) (h : Heap) (dest a : Nat) (b : Nat) : Option Heap :=
  let b := b % 2 ^ 32
  obind (if dest ≠ a then
      obind (h.get dest) fun xd =>
      obind (h.get a) fun xa =>
      obind (if xd.num_allocated_digits < xa.num_used_digits then
          ffbi_reallocate_digits P h dest (xa.num_used_digits + 2) false else some h) fun h =>
      obind (h.get a) fun xa =>
      modify h dest (fun x => { x with num_used_digits := xa.num_used_digits })
    else some h) fun h =>
  obind (add_u_low P h dest a b) fun h =>
  obind (add_u_hi P h dest a b) fun h =>
  obind (rdDigit h dest 1) fun d1 =>
  obind (whileLoop (fun s => some (decide (s.2.1 > 0))) (add_u_carry P dest) fuel
    (1, (d1 >>> FFBI_BITS_PER_DIGIT P) % 2 ^ 32, h)) fun s =>
  modify s.2.2 dest (fun x => { x with cache_valid := false })

/-! ## Subtraction (`ffbi.cpp`, lines 1199-1264) -/

/-- Body of the digit loops of `ffbi_sub`.  `useA` and `useB` say whether `a->digits[k]` and
`b->digits[k]` take part (the three loops differ only in that). -/
def sub_step (P : Platform) (dest a b : Nat) (useA useB : Bool) (k : Nat) (h : Heap) : Option Heap :=
  let w := FFBI_WORD_SIZE P
  obind (rdDigit h dest (k - 1)) fun prev =>
  let carry := wsub w 1 (prev >>> FFBI_BITS_PER_DIGIT P)
  obind (wrDigit h dest (k - 1) (prev &&& digit_max P)) fun h =>
  obind (if useA then
      obind (rdDigit h a k) fun ak =>
      if useB then
        obind (rdDigit h b k) fun bk =>
        some (wsub w (wsub w (wadd w ak (digit_max_plus_1 P)) bk) carry)
      else some (wsub w (wadd w ak (digit_max_plus_1 P)) carry)
    else
      obind (rdDigit h b k) fun bk =>
      some (wsub w (wsub w (digit_max_plus_1 P) bk) carry)) fun v =>
  wrDigit h dest k v

/-- The trimming loop `for (; k > 0; k--) if (digits[k] != 0) break;`: returns the final `k`. -/
def trim_loop (ds : List Nat) : Nat → Option Nat
  | 0 => some 0
  | k + 1 => obind (rd ds (k + 1)) fun d => if d ≠ 0 then some (k + 1) else trim_loop ds k

/-- The function `ffbi_sub`. -/
def ffbi_sub (P : Platform) (h : Heap) (dest a b : Nat) : Option Heap :=
  let w := FFBI_WORD_SIZE P
  obind (h.get a) fun xa =>
  obind (h.get b) fun xb =>
  let a_used_digits := xa.num_used_digits
  let b_used_digits := xb.num_used_digits
  let max_used_digits := if b_used_digits > a_used_digits then b_used_digits else a_used_digits
  let min_used_digits := if b_used_digits > a_used_digits then a_used_digits else b_used_digits
  obind (h.get dest) fun xd =>
  obind (if xd.num_allocated_digits < max_used_digits then
      (if dest ≠ a then ffbi_reallocate_digits P h dest (max_used_digits * 2 + 1) false
       else ffbi_reallocate_digits P h dest (max_used_digits * 2 + 1) true)
    else some h) fun h =>
  obind (rdDigit h a 0) fun a0 =>
  obind (rdDigit h b 0) fun b0 =>
  obind (wrDigit h dest 0 (wsub w (wadd w a0 (digit_max_plus_1 P)) b0)) fun h =>
  obind (forUp (sub_step P dest a b true true) (min_used_digits - 1) 1 h) fun h =>
  let k := if min_used_digits > 1 then min_used_digits else 1
  obind (if b_used_digits > a_used_digits then
      forUp (sub_step P dest a b false true) (max_used_digits - k) k h
    else
      forUp (sub_step P dest a b true false) (max_used_digits - k) k h) fun h =>
  let k := (if max_used_digits > k then max_used_digits else k) - 1
  obind (rdDigit h dest k) fun top =>
  obind (wrDigit h dest k (top &&& digit_max P)) fun h =>
  obind (h.get dest) fun xd =>
  obind (trim_loop xd.digits k) fun k =>
  modify h dest (fun x => { x with num_used_digits := k + 1, cache_valid := false })

/-! ## Multiplication (`ffbi.cpp`, lines 1345-1415; `FFBI_MUL_CACHE_ENABLED` is 0) -/

/-- The statement `product->digits[k+i] += a->digits[k] * b->digits[i]`. -/
def mul_inner (P : Platform) (product a b k i : Nat) (h : Heap) : Option Heap :=
  let w := FFBI_WORD_SIZE P
  obind (rdDigit h a k) fun ak =>
  obind (rdDigit h b i) fun bi =>
  obind (rdDigit h product (k + i)) fun d =>
  wrDigit h product (k + i) (wadd w d (wmul w ak bi))

/-- The carry pass body: `digits[i+1] += digits[i] >> D; digits[i] &= _digit_max`. -/
def mul_carry (P : Platform) (product i : Nat) (h : Heap) : Option Heap :=
  let w := FFBI_WORD_SIZE P
  obind (rdDigit h product i) fun di =>
  obind (rdDigit h product (i + 1)) fun dn =>
  obind (wrDigit h product (i + 1) (wadd w dn (di >>> FFBI_BITS_PER_DIGIT P))) fun h =>
  obind (rdDigit h product i) fun di =>
  wrDigit h product i (di &&& digit_max P)

/-- The schoolbook part of `ffbi_mul`, from `product->num_used_digits = product_len` to the
trimming of one leading zero.  For `product_len = 0` the unsigned bound `product_len - 1` of
the carry loop is `2^32 - 1` and the loop runs off the array: a fault. -/
def mul_core (P : Platform) (h : Heap) (product a b a_len b_len : Nat) : Option Heap :=
  let product_len := a_len + b_len
  obind (modify h product (fun x => { x with num_used_digits := product_len })) fun h =>
  obind (h.get product) fun xp =>
  obind (memset0 xp.digits product_len) fun ds =>
  obind (h.put product { xp with digits := ds }) fun h =>
  obind (forUp (fun k h => forUp (fun i h => mul_inner P product a b k i h) b_len 0 h) a_len 0 h) fun h =>
  obind (if product_len = 0 then none
    else forUp (mul_carry P product) (product_len - 1) 0 h) fun h =>
  obind (h.get product) fun xp =>
  if xp.num_used_digits > 1 then
    obind (rdDigit h product (product_len - 1)) fun top =>
    if top = 0 then modify h product (fun x => { x with num_used_digits := x.num_used_digits - 1 })
    else some h
  else some h

/-- The function `ffbi_mul`. -/
def ffbi_mul (P : Platform) (h : Heap) (dest a b : Nat) : Option Heap :=
  obind (ffbi_is_zero h a) fun za =>
  obind (if za then some true else ffbi_is_zero h b) fun zb =>
  if zb then
    obind (modify h dest (fun x => { x with num_used_digits := 1 })) fun h =>
    obind (wrDigit h dest 0 0) fun h =>
    modify h dest (fun x => { x with cache_valid := false })
  else
  obind (h.get a) fun xa =>
  obind (h.get b) fun xb =>
  let a_len := xa.num_used_digits
  let b_len := xb.num_used_digits
  let product_len := a_len + b_len
  obind (if dest = a ∨ dest = b then
      ffbi_create_reserved_digits P h (product_len + FFBI_MIN_ALLOC_DIGITS)
    else
      obind (h.get dest) fun xd =>
      obind (if xd.num_allocated_digits < product_len then
          ffbi_reallocate_digits P h dest (product_len + 1) false else some h) fun h =>
      some (dest, h)) fun r =>
  let product := r.1
  obind (mul_core P r.2 product a b a_len b_len) fun h =>
  obind (modify h dest (fun x => { x with cache_valid := false })) fun h =>
  if product ≠ dest then
    obind (ffbi_copy P h dest product) fun h =>
    some (ffbi_destroy h product)
  else some h

/-! ## Wide-digit cache (`ffbi.cpp`, lines 138-157, 305-345) -/

/-- The function `ffbi_cache_prepare`. -/
def ffbi_cache_prepare (P : Platform) (h : Heap) (p cache_num_digits : Nat) (retain_value : Bool) :
    Option Heap :=
  obind (h.get p) fun x =>
  match x.cache with
  | none =>
    let r := h.newArr (FFBI_CACHE_WORD_SIZE P) cache_num_digits
    r.2.put p { x with cache := some r.1, cache_num_allocated_digits := cache_num_digits }
  | some c =>
    if x.cache_num_allocated_digits < cache_num_digits then
      let r := h.newArr (FFBI_CACHE_WORD_SIZE P) cache_num_digits
      obind (if retain_value then memcpy r.1 c x.cache_num_used_digits else some r.1) fun arr =>
      r.2.put p { x with cache := some arr, cache_num_allocated_digits := cache_num_digits }
    else some h

/-- The function `ffbi_cache_retrieve`. -/
def ffbi_cache_retrieve (P : Platform) (h : Heap) (p : Nat) : Option Heap :=
  obind (h.get p) fun x =>
  obind x.cache fun c =>
  obind (rd c (x.cache_num_used_digits - 1)) fun top =>
  let sigbits := ffbi_significant_bits top
  let total_used_bits := (x.cache_num_used_digits - 1) * x.cache_bits_per_digit + sigbits
  obind (ffbi_base_convert_create (FFBI_BITS_PER_DIGIT P) x.cache_bits_per_digit total_used_bits)
    fun ctx =>
  obind (if ctx.dst_num_digits > x.num_allocated_digits then
      ffbi_reallocate_digits P h p ctx.dst_num_digits false else some h) fun h =>
  obind (modify h p (fun x => { x with num_used_digits := ctx.dst_num_digits })) fun h =>
  obind (h.get p) fun x =>
  obind x.cache fun c =>
  obind (ffbi_base_convert_exec (FFBI_WORD_SIZE P) ctx x.digits c) fun ds =>
  h.put p { x with digits := ds, cache_valid := true }

/-- The cache array used by `ffbi_cache_update`: the old one if large enough, else a new one.
Returns the array, its recorded capacity and the heap. -/
def cache_update_array (P : Platform) (h : Heap) (x : FFBI) (n : Nat) : List Nat × Nat × Heap :=
  match x.cache with
  | some c =>
    if n > x.cache_num_allocated_digits then
      let r := h.newArr (FFBI_CACHE_WORD_SIZE P) n
      (r.1, n, r.2)
    else (c, x.cache_num_allocated_digits, h)
  | none =>
    let r := h.newArr (FFBI_CACHE_WORD_SIZE P) n
    (r.1, n, r.2)

/-- The function `ffbi_cache_update` (its third parameter is unused by the body). -/
def ffbi_cache_update (P : Platform) (h : Heap) (p target_bits_per_digit : Nat) : Option Heap :=
  obind (h.get p) fun x =>
  if x.cache_valid = true ∧ target_bits_per_digit = x.cache_bits_per_digit then some h else
  obind (rd x.digits (x.num_used_digits - 1)) fun top =>
  let sigbits := ffbi_significant_bits top
  let total_used_bits := (x.num_used_digits - 1) * FFBI_BITS_PER_DIGIT P + sigbits
  obind (ffbi_base_convert_create target_bits_per_digit (FFBI_BITS_PER_DIGIT P) total_used_bits)
    fun ctx =>
  let n := ctx.dst_num_digits
  let r := cache_update_array P h x n
  obind (ffbi_base_convert_exec (FFBI_CACHE_WORD_SIZE P) ctx r.1 x.digits) fun c =>
  r.2.2.put p { x with cache_bits_per_digit := target_bits_per_digit, cache_num_used_digits := n,
                       cache := some c, cache_num_allocated_digits := r.2.1, cache_valid := true }

/-! ## Wide-digit subtraction and multiplication (`ffbi.cpp`, lines 1138-1198, 1305-1343) -/

/-- Body of the digit loops of `ffbi_sub_cache`. -/
def sub_cache_step (P : Platform) (dest a b : Nat) (useA useB : Bool) (k : Nat) (h : Heap) :
    Option Heap :=
  let w := FFBI_CACHE_WORD_SIZE P
  obind (h.get dest) fun xd =>
  obind (rdCache h dest (k - 1)) fun prev =>
  let carry := wsub w 1 (prev >>> xd.cache_bits_per_digit)
  obind (wrCache h dest (k - 1) (prev &&& cache_div_digit_max P)) fun h =>
  obind (if useA then
      obind (rdCache h a k) fun ak =>
      if useB then
        obind (rdCache h b k) fun bk =>
        some (wsub w (wsub w (wadd w ak (cache_div_digit_max_plus_1 P)) bk) carry)
      else some (wsub w (wadd w ak (cache_div_digit_max_plus_1 P)) carry)
    else
      obind (rdCache h b k) fun bk =>
      some (wsub w (wsub w (cache_div_digit_max_plus_1 P) bk) carry)) fun v =>
  wrCache h dest k v

/-- The function `ffbi_sub_cache`. -/
def ffbi_sub_cache (P : Platform) (h : Heap) (dest a b : Nat) : Option Heap :=
  let w := FFBI_CACHE_WORD_SIZE P
  obind (h.get a) fun xa =>
  obind (h.get b) fun xb =>
  let a_used_digits := xa.cache_num_used_digits
  let b_used_digits := xb.cache_num_used_digits
  let max_used_digits := if b_used_digits > a_used_digits then b_used_digits else a_used_digits
  let min_used_digits := if b_used_digits > a_used_digits then a_used_digits else b_used_digits
  obind (h.get dest) fun xd =>
  obind (if xd.cache_num_allocated_digits < max_used_digits then
      ffbi_cache_prepare P h dest max_used_digits false else some h) fun h =>
  obind (rdCache h a 0) fun a0 =>
  obind (rdCache h b 0) fun b0 =>
  obind (wrCache h dest 0 (wsub w (wadd w a0 (cache_div_digit_max_plus_1 P)) b0)) fun h =>
  obind (forUp (sub_cache_step P dest a b true true) (min_used_digits - 1) 1 h) fun h =>
  let k := if min_used_digits > 1 then min_used_digits else 1
  obind (if b_used_digits > a_used_digits then
      forUp (sub_cache_step P dest a b false true) (max_used_digits - k) k h
    else
      forUp (sub_cache_step P dest a b true false) (max_used_digits - k) k h) fun h =>
  let k := (if max_used_digits > k then max_used_digits else k) - 1
  obind (rdCache h dest k) fun top =>
  obind (wrCache h dest k (top &&& cache_div_digit_max P)) fun h =>
  obind (h.get dest) fun xd =>
  obind xd.cache fun c =>
  obind (trim_loop c k) fun k =>
  modify h dest (fun x => { x with cache_num_used_digits := k + 1 })

/-- The statement `dest->cache[k+i] += a->cache[k] * b->cache[i]`. -/
def div_cache_mul_inner (P : Platform) (dest a b k i : Nat) (h : Heap) : Option Heap :=
  let w := FFBI_CACHE_WORD_SIZE P
  obind (rdCache h a k) fun ak =>
  obind (rdCache h b i) fun bi =>
  obind (rdCache h dest (k + i)) fun d =>
  wrCache h dest (k + i) (wadd w d (wmul w ak bi))

/-- The carry pass body of `ffbi_div_cache_mul`. -/
def div_cache_mul_carry (P : Platform) (dest i : Nat) (h : Heap) : Option Heap :=
  let w := FFBI_CACHE_WORD_SIZE P
  obind (rdCache h dest i) fun di =>
  obind (rdCache h dest (i + 1)) fun dn =>
  obind (wrCache h dest (i + 1) (wadd w dn (di >>> FFBI_CACHE_DIV_BITS_PER_DIGIT P))) fun h =>
  obind (rdCache h dest i) fun di =>
  wrCache h dest i (di &&& cache_div_digit_max P)

/-- The function `ffbi_div_cache_mul`. -/
def ffbi_div_cache_mul (P : Platform) (h : Heap) (dest a b : Nat) : Option Heap :=
  obind (h.get a) fun xa =>
  obind (h.get b) fun xb =>
  let a_len := xa.cache_num_used_digits
  let b_len := xb.cache_num_used_digits
  let product_len := a_len + b_len
  obind (ffbi_cache_prepare P h dest product_len false) fun h =>
  let bits := FFBI_CACHE_DIV_BITS_PER_DIGIT P
  obind (modify h dest (fun x =>
    { x with cache_num_used_digits := product_len, cache_bits_per_digit := bits })) fun h =>
  obind (h.get dest) fun xd =>
  obind xd.cache fun c =>
  obind (memset0 c product_len) fun c =>
  obind (h.put dest { xd with cache := some c }) fun h =>
  obind (forUp (fun k h => forUp (fun i h => div_cache_mul_inner P dest a b k i h) b_len 0 h)
    a_len 0 h) fun h =>
  obind (if product_len = 0 then none
    else forUp (div_cache_mul_carry P dest) (product_len - 1) 0 h) fun h =>
  obind (h.get dest) fun xd =>
  if xd.cache_num_used_digits > 1 then
    obind (rdCache h dest (product_len - 1)) fun top =>
    if top = 0 then
      modify h dest (fun x => { x with cache_num_used_digits := x.cache_num_used_digits - 1 })
    else some h
  else some h

/-! ## Quotient digits (`ffbi.cpp`, lines 1543-1796) -/

/-- Read `p->cache[i]` for a signed index. -/
def rdCacheI (h : Heap) (p : Nat) (i : Int) : Option Nat :=
  if i < 0 then none else rdCache h p i.toNat

/-- Read `p->digits[i]` for a signed index. -/
def rdDigitI (h : Heap) (p : Nat) (i : Int) : Option Nat :=
  if i < 0 then none else rdDigit h p i.toNat

/-- The word `(d1 << s) + d0`. -/
def pack2 (w s d1 d0 : Nat) : Nat := wadd w (wshl w d1 s) d0

/-- The word `(d2 << 2s) + (d1 << s) + d0`. -/
def pack3 (w s d2 d1 d0 : Nat) : Nat := wadd w (wadd w (wshl w d2 (s * 2)) (wshl w d1 s)) d0

/-- The word `(d3 << 3s) + (d2 << 2s) + (d1 << s) + d0`. -/
def pack4 (w s d3 d2 d1 d0 : Nat) : Nat :=
  wadd w (wadd w (wadd w (wshl w d3 (s * 3)) (wshl w d2 (s * 2))) (wshl w d1 s)) d0

/-- The top two digits `p[n-1], p[n-2]` packed into a word; `rdI` reads a digit of `p`. -/
def top2 (rdI : Int → Option Nat) (w s : Nat) (n : Int) : Option Nat :=
  obind (rdI (n - 1)) fun d1 =>
  obind (rdI (n - 2)) fun d0 =>
  some (pack2 w s d1 d0)

/-- The top three digits packed into a word. -/
def top3 (rdI : Int → Option Nat) (w s : Nat) (n : Int) : Option Nat :=
  obind (rdI (n - 1)) fun d2 =>
  obind (rdI (n - 2)) fun d1 =>
  obind (rdI (n - 3)) fun d0 =>
  some (pack3 w s d2 d1 d0)

/-- The top four digits packed into a word. -/
def top4 (rdI : Int → Option Nat) (w s : Nat) (n : Int) : Option Nat :=
  obind (rdI (n - 1)) fun d3 =>
  obind (rdI (n - 2)) fun d2 =>
  obind (rdI (n - 3)) fun d1 =>
  obind (rdI (n - 4)) fun d0 =>
  some (pack4 w s d3 d2 d1 d0)

/-- The trial dividend of the quotient-digit routines for a running remainder of
`r_len ≥ 2` digits; `rdR` reads a digit of the remainder, `w` is the word width and `s` the
digit width. -/
def trial_dividend (rdR : Int → Option Nat) (w s r_len : Nat) : Option Nat :=
  if r_len = 2 then
    obind (rdR 1) fun r1 =>
    obind (rdR 0) fun r0 =>
    some (pack2 w s r1 r0)
  else if r_len = 3 then top3 rdR w s r_len
  else top4 rdR w s r_len

/-- The trial divisor `leftmost_b` of the quotient-digit routines; `rdB` reads a digit of
the divisor. -/
def trial_divisor (rdB : Int → Option Nat) (w s r_len b_len : Nat) : Option Nat :=
  if r_len = 2 then
    if b_len = 2 then
      obind (rdB 1) fun b1 =>
      obind (rdB 0) fun b0 =>
      some (pack2 w s b1 b0)
    else rdB 0
  else if r_len = 3 then
    if r_len > b_len then top2 rdB w s b_len else top3 rdB w s b_len
  else
    if r_len > b_len then top3 rdB w s b_len else top4 rdB w s b_len

/-- Condition of the correction loop of `ffbi_get_quotient_digit_cache`: the product exceeds
the remainder and `product->cache[0]` is not yet zero (the `break`). -/
def correct_cache_cond (rem product scratch : Nat) (h : Heap) : Option Bool :=
  obind (ffbi_cmp_cache h rem scratch) fun c =>
  if c = -1 then
    obind (rdCache h product 0) fun p0 => some (decide (p0 ≠ 0))
  else some false

/-- Body of the correction loop of `ffbi_get_quotient_digit_cache`. -/
def correct_cache_body (P : Platform) (q_index q b product scratch : Nat) (h : Heap) : Option Heap :=
  let w := FFBI_CACHE_WORD_SIZE P
  obind (rdCache h product 0) fun p0 =>
  obind (wrCache h product 0 (wsub w p0 1)) fun h =>
  obind (rdCache h q q_index) fun qd =>
  obind (wrCache h q q_index (wsub w qd 1)) fun h =>
  ffbi_div_cache_mul P h scratch product b

/-- The branch `r == b` of `ffbi_get_quotient_digit_cache`. -/
def qdc_equal (h : Heap) (q_index q rem a : Nat) : Option Heap :=
  obind (wrCache h q q_index 1) fun h =>
  obind (modify h rem (fun x => { x with cache_num_used_digits := 1 })) fun h =>
  if q_index > 0 then
    obind (rdCache h a (q_index - 1)) fun d => wrCache h rem 0 d
  else wrCache h rem 0 0

/-- The branch `r < b` of `ffbi_get_quotient_digit_cache`. -/
def qdc_less (P : Platform) (h : Heap) (q_index q rem a : Nat) : Option Heap :=
  obind (wrCache h q q_index 0) fun h =>
  if q_index > 0 then
    obind (h.get rem) fun xr =>
    obind (if xr.cache_num_used_digits > 1 then some true
      else obind (rdCache h rem 0) fun r0 => some (decide (r0 > 0))) fun nonzero =>
    obind (if nonzero then
        obind (modify h rem (fun x =>
          { x with cache_num_used_digits := x.cache_num_used_digits + 1 })) fun h =>
        obind (h.get rem) fun xr =>
        obind (if xr.cache_num_allocated_digits < xr.cache_num_used_digits then
            ffbi_cache_prepare P h rem xr.cache_num_used_digits true else some h) fun h =>
        forDown (fun k h => obind (rdCache h rem k) fun v => wrCache h rem (k + 1) v)
          (xr.cache_num_used_digits - 1) h
      else some h) fun h =>
    obind (rdCache h a (q_index - 1)) fun d => wrCache h rem 0 d
  else some h

/-- The estimate of `ffbi_get_quotient_digit_cache`: stores the trial quotient in
`q->cache[q_index]`. -/
def qdc_estimate (P : Platform) (h : Heap) (q_index q rem b b_len : Nat) : Option Heap :=
  obind (h.get rem) fun xr =>
  let r_len := xr.cache_num_used_digits
  if r_len = 1 then
    obind (rdCache h rem 0) fun r0 =>
    obind (rdCache h b 0) fun b0 =>
    if b0 = 0 then none else wrCache h q q_index (r0 / b0)
  else
    let w := FFBI_CACHE_WORD_SIZE P
    let s := FFBI_CACHE_DIV_BITS_PER_DIGIT P
    obind (trial_dividend (rdCacheI h rem) w s r_len) fun dividend =>
    obind (wrCache h q q_index dividend) fun h =>
    obind (trial_divisor (rdCacheI h b) w s r_len b_len) fun leftmost_b =>
    obind (rdCache h q q_index) fun qd =>
    if leftmost_b = 0 then none else wrCache h q q_index (qd / leftmost_b)

/-- The end of the branch `r > b` of `ffbi_get_quotient_digit_cache`: the new remainder held
in `product` replaces `rem`, shifted by one digit with the next dividend digit brought in. -/
def qdc_update (P : Platform) (h : Heap) (q_index rem a product is_not_last_digit : Nat) :
    Option Heap :=
  let w := FFBI_CACHE_WORD_SIZE P
  obind (h.get product) fun xp =>
  obind (if xp.cache_num_used_digits > 1 then some true
    else obind (rdCache h product 0) fun p0 => some (decide (p0 > 0))) fun nonzero =>
  if nonzero then
    obind (modify h rem (fun x => { x with cache_num_used_digits :=
      xp.cache_num_used_digits + is_not_last_digit })) fun h =>
    obind (h.get rem) fun xr =>
    obind (if xr.cache_num_allocated_digits < xr.cache_num_used_digits then
        ffbi_cache_prepare P h rem xr.cache_num_used_digits false else some h) fun h =>
    obind (wrCache h rem 0 0) fun h =>
    obind (h.get product) fun xp =>
    obind (forUp (fun k h => obind (rdCache h product k) fun v =>
        wrCache h rem (k + is_not_last_digit) v) xp.cache_num_used_digits 0 h) fun h =>
    obind (rdCacheI h a ((q_index : Int) - is_not_last_digit)) fun d =>
    obind (rdCache h rem 0) fun r0 =>
    wrCache h rem 0 (wadd w r0 (wmul w d is_not_last_digit))
  else
    obind (modify h rem (fun x => { x with cache_num_used_digits := xp.cache_num_used_digits }))
      fun h =>
    obind (rdCacheI h a ((q_index : Int) - is_not_last_digit)) fun d =>
    wrCache h rem 0 (wmul w d is_not_last_digit)

/-- The function `ffbi_get_quotient_digit_cache`. -/
def ffbi_get_quotient_digit_cache (P : Platform) (h : Heap) (q_index q rem a b b_len product
    is_not_last_digit scratch : Nat) : Option Heap :=
  obind (ffbi_cmp_cache h rem b) fun cmp =>
  if cmp = 0 then qdc_equal h q_index q rem a
  else if cmp = -1 then qdc_less P h q_index q rem a
  else
    obind (qdc_estimate P h q_index q rem b b_len) fun h =>
    obind (modify h product (fun x => { x with cache_num_used_digits := 1 })) fun h =>
    obind (rdCache h q q_index) fun qd =>
    obind (wrCache h product 0 qd) fun h =>
    obind (ffbi_div_cache_mul P h scratch product b) fun h =>
    obind (whileLoop (correct_cache_cond rem product scratch)
      (correct_cache_body P q_index q b product scratch) (qd + 2) h) fun h =>
    obind (ffbi_sub_cache P h product rem scratch) fun h =>
    obind (ffbi_cmp_cache h product b) fun _ =>
    qdc_update P h q_index rem a product is_not_last_digit

/-- Condition of the correction loop of `ffbi_get_quotient_digit`. -/
def correct_cond (r product scratch : Nat) (h : Heap) : Option Bool :=
  obind (ffbi_cmp h r scratch) fun c =>
  if c = -1 then
    obind (rdDigit h product 0) fun p0 => some (decide (p0 ≠ 0))
  else some false

/-- Body of the correction loop of `ffbi_get_quotient_digit`. -/
def correct_body (P : Platform) (q_index q b product scratch : Nat) (h : Heap) : Option Heap :=
  let w := FFBI_WORD_SIZE P
  obind (rdDigit h product 0) fun p0 =>
  obind (wrDigit h product 0 (wsub w p0 1)) fun h =>
  obind (rdDigit h q q_index) fun qd =>
  obind (wrDigit h q q_index (wsub w qd 1)) fun h =>
  ffbi_mul P h scratch product b

/-- The branch `r == b` of `ffbi_get_quotient_digit`. -/
def qd_equal (h : Heap) (q_index q r a : Nat) : Option Heap :=
  obind (wrDigit h q q_index 1) fun h =>
  obind (modify h r (fun x => { x with num_used_digits := 1 })) fun h =>
  if q_index > 0 then
    obind (rdDigit h a (q_index - 1)) fun d => wrDigit h r 0 d
  else wrDigit h r 0 0

/-- The branch `r < b` of `ffbi_get_quotient_digit`. -/
def qd_less (P : Platform) (h : Heap) (q_index q r a : Nat) : Option Heap :=
  obind (wrDigit h q q_index 0) fun h =>
  if q_index > 0 then
    obind (h.get r) fun xr =>
    obind (if xr.num_used_digits > 1 then some true
      else obind (rdDigit h r 0) fun r0 => some (decide (r0 > 0))) fun nonzero =>
    obind (if nonzero then
        obind (modify h r (fun x => { x with num_used_digits := x.num_used_digits + 1 })) fun h =>
        obind (h.get r) fun xr =>
        obind (if xr.num_allocated_digits < xr.num_used_digits then
            ffbi_reallocate_digits P h r xr.num_used_digits true else some h) fun h =>
        obind (h.get r) fun xr =>
        forDown (fun k h => obind (rdDigit h r k) fun v => wrDigit h r (k + 1) v)
          (xr.num_used_digits - 1) h
      else some h) fun h =>
    obind (rdDigit h a (q_index - 1)) fun d => wrDigit h r 0 d
  else some h

/-- The estimate of `ffbi_get_quotient_digit`: stores the trial quotient in
`q->digits[q_index]`. -/
def qd_estimate (P : Platform) (h : Heap) (q_index q r b b_len : Nat) : Option Heap :=
  obind (h.get r) fun xr =>
  let r_len := xr.num_used_digits
  if r_len = 1 then
    obind (rdDigit h r 0) fun r0 =>
    obind (rdDigit h b 0) fun b0 =>
    if b0 = 0 then none else wrDigit h q q_index (r0 / b0)
  else
    let w := FFBI_WORD_SIZE P
    let s := FFBI_BITS_PER_DIGIT P
    obind (trial_dividend (rdDigitI h r) w s r_len) fun dividend =>
    obind (wrDigit h q q_index dividend) fun h =>
    obind (trial_divisor (rdDigitI h b) w s r_len b_len) fun leftmost_b =>
    obind (rdDigit h q q_index) fun qd =>
    if leftmost_b = 0 then none else wrDigit h q q_index (qd / leftmost_b)

/-- The end of the branch `r > b` of `ffbi_get_quotient_digit`. -/
def qd_update (P : Platform) (h : Heap) (q_index r a product is_not_last_digit : Nat) :
    Option Heap :=
  let w := FFBI_WORD_SIZE P
  obind (h.get product) fun xp =>
  obind (if xp.num_used_digits > 1 then some true
    else obind (rdDigit h product 0) fun p0 => some (decide (p0 > 0))) fun nonzero =>
  if nonzero then
    obind (modify h r (fun x => { x with num_used_digits :=
      xp.num_used_digits + is_not_last_digit })) fun h =>
    obind (h.get r) fun xr =>
    obind (if xr.num_allocated_digits < xr.num_used_digits then
        ffbi_reallocate_digits P h r xr.num_used_digits false else some h) fun h =>
    obind (wrDigit h r 0 0) fun h =>
    obind (h.get product) fun xp =>
    obind (forUp (fun k h => obind (rdDigit h product k) fun v =>
        wrDigit h r (k + is_not_last_digit) v) xp.num_used_digits 0 h) fun h =>
    obind (rdDigitI h a ((q_index : Int) - is_not_last_digit)) fun d =>
    obind (rdDigit h r 0) fun r0 =>
    wrDigit h r 0 (wadd w r0 (wmul w d is_not_last_digit))
  else
    obind (modify h r (fun x => { x with num_used_digits := xp.num_used_digits })) fun h =>
    obind (rdDigitI h a ((q_index : Int) - is_not_last_digit)) fun d =>
    wrDigit h r 0 (wmul w d is_not_last_digit)

/-- The function `ffbi_get_quotient_digit`. -/
def ffbi_get_quotient_digit (P : Platform) (h : Heap) (q_index q r a b b_len product
    is_not_last_digit scratch : Nat) : Option Heap :=
  obind (ffbi_cmp h r b) fun cmp =>
  obind (modify h r (fun x => { x with cache_valid := false })) fun h =>
  obind (modify h q (fun x => { x with cache_valid := false })) fun h =>
  if cmp = 0 then qd_equal h q_index q r a
  else if cmp = -1 then qd_less P h q_index q r a
  else
    obind (qd_estimate P h q_index q r b b_len) fun h =>
    obind (modify h product (fun x => { x with num_used_digits := 1 })) fun h =>
    obind (rdDigit h q q_index) fun qd =>
    obind (wrDigit h product 0 qd) fun h =>
    obind (ffbi_mul P h scratch product b) fun h =>
    obind (whileLoop (correct_cond r product scratch)
      (correct_body P q_index q b product scratch) (qd + 2) h) fun h =>
    obind (ffbi_sub P h product r scratch) fun h =>
    obind (ffbi_cmp h product b) fun _ =>
    qd_update P h q_index r a product is_not_last_digit

/-! ## Division (`ffbi.cpp`, lines 1798-1977) -/

/-- The remainder bigint used by the division routines: `rem`, or a fresh bigint when `rem`
is `NULL`. -/
def div_remainder (P : Platform) (h : Heap) (rem : Option Nat) (reserve : Nat) : Option (Nat × Heap) :=
  match rem with
  | none => ffbi_create_reserved_digits P h reserve
  | some r => some (r, h)

/-- The function `ffbi_div_cache`. -/
def ffbi_div_cache (P : Platform) (h : Heap) (dest a b : Nat) (rem : Option Nat)
    (scratch1 scratch2 : Nat) : Option Heap :=
  let bits := FFBI_CACHE_DIV_BITS_PER_DIGIT P
  obind (ffbi_cache_update P h a bits) fun h =>
  obind (ffbi_cache_update P h b bits) fun h =>
  obind (modify h scratch1 (fun x => { x with cache_bits_per_digit := bits })) fun h =>
  obind (h.get b) fun xb =>
  obind (ffbi_cache_prepare P h scratch1 (xb.cache_num_used_digits + 1) false) fun h =>
  obind (h.get a) fun xa =>
  obind (h.get b) fun xb =>
  let a_len := xa.cache_num_used_digits
  let b_len := xb.cache_num_used_digits
  let q_index := a_len - b_len
  obind (ffbi_cache_prepare P h dest (q_index + 1) false) fun h =>
  obind (modify h dest (fun x =>
    { x with cache_num_used_digits := q_index + 1, cache_bits_per_digit := bits })) fun h =>
  obind (div_remainder P h rem (xb.num_used_digits + 1 + FFBI_MIN_ALLOC_DIGITS)) fun rh =>
  let r := rh.1
  obind (ffbi_cache_prepare P rh.2 r (b_len + 1) false) fun h =>
  obind (modify h r (fun x => { x with cache_bits_per_digit := bits })) fun h =>
  obind (forUp (fun k h => obind (rdCache h a (q_index + k)) fun v => wrCache h r k v) b_len 0 h)
    fun h =>
  obind (modify h r (fun x => { x with cache_num_used_digits := b_len })) fun h =>
  obind (forDown (fun k h =>
    ffbi_get_quotient_digit_cache P h (k + 1) dest r a b b_len scratch1 1 scratch2) q_index h)
    fun h =>
  obind (ffbi_get_quotient_digit_cache P h 0 dest r a b b_len scratch1 0 scratch2) fun h =>
  obind (h.get dest) fun xd =>
  obind (if xd.cache_num_used_digits > 1 then
      obind (rdCache h dest (xd.cache_num_used_digits - 1)) fun top =>
      if top = 0 then
        modify h dest (fun x => { x with cache_num_used_digits := x.cache_num_used_digits - 1 })
      else some h
    else some h) fun h =>
  obind (match rem with
    | none => some (ffbi_destroy h r)
    | some rp => ffbi_cache_retrieve P h rp) fun h =>
  obind (ffbi_cache_retrieve P h dest) fun h =>
  obind (modify h scratch1 (fun x => { x with cache_valid := false })) fun h =>
  modify h scratch2 (fun x => { x with cache_valid := false })

/-- The branch `b > a` of `ffbi_div_impl`: the remainder is `a`, the quotient is zero. -/
def div_small (P : Platform) (h : Heap) (dest a : Nat) (rem : Option Nat) : Option Heap :=
  obind (match rem with
    | some r =>
      if r ≠ a then
        obind (h.get a) fun xa =>
        obind (h.get r) fun xr =>
        obind (if xa.num_used_digits > xr.num_allocated_digits then
            ffbi_reallocate_digits P h r xa.num_used_digits false else some h) fun h =>
        obind (h.get a) fun xa =>
        obind (modify h r (fun x => { x with num_used_digits := xa.num_used_digits })) fun h =>
        obind (h.get r) fun xr =>
        obind (h.get a) fun xa =>
        obind (memcpy xr.digits xa.digits xa.num_used_digits) fun ds =>
        h.put r { xr with digits := ds, cache_valid := false }
      else some h
    | none => some h) fun h =>
  obind (modify h dest (fun x => { x with num_used_digits := 1 })) fun h =>
  obind (wrDigit h dest 0 0) fun h =>
  modify h dest (fun x => { x with cache_valid := false })

/-- The branch `b == a` of `ffbi_div_impl`: the quotient is one, the remainder is zero. -/
def div_equal (h : Heap) (dest : Nat) (rem : Option Nat) : Option Heap :=
  obind (modify h dest (fun x => { x with num_used_digits := 1 })) fun h =>
  obind (wrDigit h dest 0 1) fun h =>
  obind (modify h dest (fun x => { x with cache_valid := false })) fun h =>
  match rem with
  | some r =>
    obind (modify h r (fun x => { x with num_used_digits := 1 })) fun h =>
    obind (wrDigit h r 0 0) fun h =>
    modify h r (fun x => { x with cache_valid := false })
  | none => some h

/-- The single-digit path of `ffbi_div_impl` (both operands occupy one digit). -/
def div_digits (P : Platform) (h : Heap) (dest a b : Nat) (rem : Option Nat)
    (scratch1 scratch2 : Nat) : Option Heap :=
  obind (h.get a) fun xa =>
  obind (h.get b) fun xb =>
  let a_len := xa.num_used_digits
  let b_len := xb.num_used_digits
  let q_index := a_len - b_len
  obind (h.get dest) fun xd =>
  obind (if xd.num_allocated_digits ≤ q_index then
      ffbi_reallocate_digits P h dest (q_index + 2) false else some h) fun h =>
  obind (modify h dest (fun x => { x with num_used_digits := q_index + 1 })) fun h =>
  let product := scratch1
  obind (match rem with
    | none => ffbi_create_reserved_digits P h (b_len + 1 + FFBI_MIN_ALLOC_DIGITS)
    | some r =>
      obind (h.get r) fun xr =>
      obind (if xr.num_allocated_digits < b_len + 1 then
          ffbi_reallocate_digits P h r ((b_len + 1) * 2 + 1) false else some h) fun h =>
      some (r, h)) fun rh =>
  let r := rh.1
  obind (forUp (fun k h => obind (rdDigit h a (q_index + k)) fun v => wrDigit h r k v) b_len 0 rh.2)
    fun h =>
  obind (modify h r (fun x => { x with num_used_digits := b_len })) fun h =>
  obind (forDown (fun k h =>
    ffbi_get_quotient_digit P h (k + 1) dest r a b b_len product 1 scratch2) q_index h) fun h =>
  obind (ffbi_get_quotient_digit P h 0 dest r a b b_len product 0 scratch2) fun h =>
  obind (h.get dest) fun xd =>
  obind (if xd.num_used_digits > 1 then
      obind (rdDigit h dest (xd.num_used_digits - 1)) fun top =>
      if top = 0 then
        modify h dest (fun x => { x with num_used_digits := x.num_used_digits - 1 })
      else some h
    else some h) fun h =>
  let h := match rem with
    | none => ffbi_destroy h r
    | some _ => h
  obind (modify h dest (fun x => { x with cache_valid := false })) fun h =>
  obind (modify h scratch1 (fun x => { x with cache_valid := false })) fun h =>
  modify h scratch2 (fun x => { x with cache_valid := false })

/-- The function `ffbi_div_impl` (`FFBI_DIV_CACHE_ENABLED` is 1); returns the `int` result
and the heap afterwards. -/
def ffbi_div_impl (P : Platform) (h : Heap) (dest a b : Nat) (rem : Option Nat)
    (scratch1 scratch2 : Nat) : Option (Int × Heap) :=
  obind (ffbi_cmp h b a) fun cmp =>
  if cmp = 1 then obind (div_small P h dest a rem) fun h => some (0, h)
  else if cmp = 0 then obind (div_equal h dest rem) fun h => some (0, h)
  else
    obind (h.get a) fun xa =>
    obind (h.get b) fun xb =>
    if xa.num_used_digits > 1 ∨ xb.num_used_digits > 1 then
      obind (ffbi_div_cache P h dest a b rem scratch1 scratch2) fun h => some (0, h)
    else
      obind (div_digits P h dest a b rem scratch1 scratch2) fun h => some (0, h)

/-- The function `ffbi_div`. -/
def ffbi_div (P : Platform) (h : Heap) (dest a b : Nat) : Option Heap :=
  obind (h.get b) fun xb =>
  obind (ffbi_create_reserved_digits P h (xb.num_used_digits + 1)) fun s1 =>
  obind (ffbi_create_reserved_digits P s1.2 (xb.num_used_digits + 1)) fun s2 =>
  obind (ffbi_div_impl P s2.2 dest a b none s1.1 s2.1) fun r =>
  some (ffbi_destroy (ffbi_destroy r.2 s1.1) s2.1)

/-- The function `ffbi_mod`. -/
def ffbi_mod (P : Platform) (h : Heap) (dest a b : Nat) : Option Heap :=
  obind (h.get b) fun xb =>
  obind (ffbi_create_reserved_digits P h (xb.num_used_digits + 1)) fun s1 =>
  obind (ffbi_create_reserved_digits P s1.2 (xb.num_used_digits + 1)) fun s2 =>
  obind (s2.2.get a) fun xa =>
  obind (ffbi_create_reserved_digits P s2.2 xa.num_used_digits) fun q =>
  obind (ffbi_div_impl P q.2 q.1 a b (some dest) s1.1 s2.1) fun r =>
  some (ffbi_destroy (ffbi_destroy (ffbi_destroy r.2 s1.1) s2.1) q.1)

/-! ## Scratch arenas (`ffbi.cpp`, lines 424-491) -/

/-- The function `ffbi_scratch_create`; returns the new arena pointer. -/
def ffbi_scratch_create (h : Heap) : Nat × Heap :=
  (h.scr.length, { h with scr := h.scr ++ [{ val := [], child := none, num_children := 0 }] })

/-- The function `ffbi_scratch_destroy`: deallocation is not observable in the model. -/
def ffbi_scratch_destroy (h : Heap) (_scratch : Nat) : Heap := h

/-- The loop `for (; i < num_vals; i++) val[i] = ffbi_create_reserved_digits(val_digits)`:
appends `n` new bigints to `vals`. -/
def scratch_fill (P : Platform) (val_digits : Nat) : Nat → List Nat → Heap → Option (List Nat × Heap)
  | 0, vals, h => some (vals, h)
  | n + 1, vals, h =>
    obind (ffbi_create_reserved_digits P h val_digits) fun r =>
    scratch_fill P val_digits n (vals ++ [r.1]) r.2

/-- The function `ffbi_scratch_prepare`. -/
def ffbi_scratch_prepare (P : Platform) (h : Heap) (scratch num_vals val_digits : Nat) : Option Heap :=
  obind h.scr[scratch]? fun s =>
  let num_existing_vals := s.val.length
  if s.val.length = 0 then
    obind (scratch_fill P val_digits num_vals [] h) fun r =>
    some { r.2 with scr := r.2.scr.set scratch { s with val := r.1 } }
  else
    obind (if num_vals > s.val.length then
        obind (scratch_fill P val_digits (num_vals - s.val.length) s.val h) fun r =>
        some { r.2 with scr := r.2.scr.set scratch { s with val := r.1 } }
      else some h) fun h =>
    obind h.scr[scratch]? fun s =>
    forUp (fun i h =>
      obind s.val[i]? fun p =>
      obind (h.get p) fun x =>
      if x.num_allocated_digits < val_digits then ffbi_reallocate_digits P h p val_digits true
      else some h) num_existing_vals 0 h

/-- The idiom `if (scratch == NULL) scratch = ffbi_scratch_create();`: the arena to use and
the heap that holds it. -/
def scratch_or_create (h : Heap) (scratch : Option Nat) : Nat × Heap :=
  match scratch with
  | none => ffbi_scratch_create h
  | some s => (s, h)

/-! ## Modular exponentiation (`ffbi.cpp`, lines 1979-2028) -/

/-- Body of the halving loop of `ffbi_mod_pow`; the state is `(carry, heap)`. -/
def mod_pow_shift (P : Platform) (x i : Nat) (s : Nat × Heap) : Option (Nat × Heap) :=
  let w := FFBI_WORD_SIZE P
  obind (rdDigit s.2 x i) fun d =>
  obind (wrDigit s.2 x i (wadd w d (wshl w s.1 (FFBI_BITS_PER_DIGIT P)))) fun h =>
  obind (rdDigit h x i) fun d =>
  obind (wrDigit h x i (d >>> 1)) fun h =>
  some (d &&& 1, h)

/-- Condition of the main loop of `ffbi_mod_pow`: `x` is not zero. -/
def mod_pow_cond (x : Nat) (h : Heap) : Option Bool :=
  obind (h.get x) fun xx =>
  if xx.num_used_digits > 1 then some true
  else obind (rdDigit h x 0) fun d0 => some (decide (d0 > 0))

/-- Body of the main loop of `ffbi_mod_pow`; `v2 .. v5` are `scratch->val[2] .. val[5]`. -/
def mod_pow_body (P : Platform) (ret m x apow v2 v3 v4 v5 : Nat) (h : Heap) : Option Heap :=
  obind (rdDigit h x 0) fun x0 =>
  obind (if x0 &&& 1 ≠ 0 then
      obind (ffbi_mul P h v2 ret apow) fun h =>
      obind (ffbi_div_impl P h v5 v2 m (some ret) v3 v4) fun r => some r.2
    else some h) fun h =>
  obind (h.get x) fun xx =>
  obind (forDown (mod_pow_shift P x) xx.num_used_digits (0, h)) fun s =>
  let h := s.2
  obind (h.get x) fun xx =>
  obind (if xx.num_used_digits > 1 then
      obind (rdDigit h x (xx.num_used_digits - 1)) fun top =>
      if top = 0 then modify h x (fun y => { y with num_used_digits := y.num_used_digits - 1 })
      else some h
    else some h) fun h =>
  obind (ffbi_mul P h v2 apow apow) fun h =>
  obind (ffbi_div_impl P h v5 v2 m (some apow) v3 v4) fun r => some r.2

/-- The function `ffbi_mod_pow`; `fuel` bounds the iterations of the main loop. -/
def ffbi_mod_pow (P : Platform) (fuel : Nat) (h : Heap) (dest n e m : Nat) (scratch : Option Nat) :
    Option Heap :=
  obind (h.get m) fun xm =>
  obind (if xm.num_used_digits = 1 then obind (rdDigit h m 0) fun m0 => some (decide (m0 = 1))
    else some false) fun m_is_one =>
  if m_is_one then
    obind (modify h dest (fun x => { x with num_used_digits := 1 })) fun h =>
    wrDigit h dest 0 0
  else
  let sh := scratch_or_create h scratch
  let scratch := sh.1
  obind (sh.2.get n) fun xn =>
  let num_digits := xm.num_used_digits + xn.num_used_digits
  obind (ffbi_scratch_prepare P sh.2 scratch FFBI_MOD_POW_NUM_SCRATCHES num_digits) fun h =>
  let ret := dest
  obind (h.get ret) fun xr =>
  obind (if xr.num_allocated_digits < num_digits then
      ffbi_reallocate_digits P h ret num_digits false else some h) fun h =>
  obind (modify h ret (fun x => { x with num_used_digits := 1 })) fun h =>
  obind (wrDigit h ret 0 1) fun h =>
  obind (modify h ret (fun x => { x with cache_valid := false })) fun h =>
  obind h.scr[scratch]? fun s =>
  obind s.val[0]? fun x =>
  obind s.val[1]? fun apow =>
  obind s.val[2]? fun v2 =>
  obind s.val[3]? fun v3 =>
  obind s.val[4]? fun v4 =>
  obind s.val[5]? fun v5 =>
  obind (ffbi_copy P h x e) fun h =>
  obind (ffbi_copy P h apow n) fun h =>
  obind (whileLoop (mod_pow_cond x) (mod_pow_body P ret m x apow v2 v3 v4 v5) fuel h) fun h =>
  modify h x (fun y => { y with cache_valid := false })

/-! ## Modular inverse (`ffbi.cpp`, lines 2030-2167) -/

/-- The bigints and sign flags used by the loop of `ffbi_mod_inv`. -/
structure ModInvState where
  h : Heap
  y_is_negative : Bool
  x_is_negative : Bool

/-- The update `y := x - q * y` of `ffbi_mod_inv` by case analysis on the signs; `temp` holds
`q * y` and `cmp` is `ffbi_cmp(x, temp)`.  Returns the heap and the new sign of `y`. -/
def mod_inv_update (P : Platform) (h : Heap) (x y temp : Nat) (cmp : Int)
    (x_is_negative y_is_negative : Bool) : Option (Heap × Bool) :=
  let zero (h : Heap) : Option Heap :=
    obind (modify h y (fun v => { v with num_used_digits := 1 })) fun h =>
    obind (wrDigit h y 0 0) fun h =>
    modify h y (fun v => { v with cache_valid := false })
  if cmp = -1 then
    if x_is_negative then
      if y_is_negative then obind (ffbi_sub P h y temp x) fun h => some (h, false)
      else obind (ffbi_add P h y x temp) fun h => some (h, true)
    else
      if y_is_negative then obind (ffbi_add P h y temp x) fun h => some (h, false)
      else obind (ffbi_sub P h y temp x) fun h => some (h, true)
  else if cmp = 1 then
    if x_is_negative then
      if y_is_negative then obind (ffbi_sub P h y x temp) fun h => some (h, y_is_negative)
      else obind (ffbi_add P h y x temp) fun h => some (h, true)
    else
      if y_is_negative then obind (ffbi_add P h y x temp) fun h => some (h, false)
      else obind (ffbi_sub P h y x temp) fun h => some (h, y_is_negative)
  else
    if x_is_negative then
      if y_is_negative then obind (zero h) fun h => some (h, false)
      else obind (ffbi_add P h y x temp) fun h => some (h, true)
    else
      if y_is_negative then obind (ffbi_add P h y x temp) fun h => some (h, false)
      else obind (zero h) fun h => some (h, y_is_negative)

/-- Condition of the loop of `ffbi_mod_inv`: `a_temp > 1`. -/
def mod_inv_cond (a_temp : Nat) (s : ModInvState) : Option Bool :=
  obind (s.h.get a_temp) fun xa =>
  if xa.num_used_digits > 1 then some true
  else obind (rdDigit s.h a_temp 0) fun d0 => some (decide (d0 > 1))

/-- Body of the loop of `ffbi_mod_inv`. -/
def mod_inv_body (P : Platform) (m_temp a_temp t y x q scratch scratch2 temp : Nat)
    (s : ModInvState) : Option ModInvState :=
  obind (ffbi_div_impl P s.h q a_temp m_temp (some temp) scratch scratch2) fun r =>
  obind (ffbi_copy P r.2 a_temp m_temp) fun h =>
  obind (ffbi_copy P h m_temp temp) fun h =>
  obind (ffbi_copy P h t y) fun h =>
  let t_is_negative := s.y_is_negative
  obind (ffbi_mul P h temp q y) fun h =>
  obind (ffbi_cmp h x temp) fun cmp =>
  obind (mod_inv_update P h x y temp cmp s.x_is_negative s.y_is_negative) fun u =>
  let h := u.1
  obind (h.get y) fun xy =>
  obind (if xy.num_used_digits = 1 then obind (rdDigit h y 0) fun d0 => some (decide (d0 = 0))
    else some false) fun y_zero =>
  let y_is_negative := if y_zero then false else u.2
  obind (ffbi_copy P h x t) fun h =>
  some { h := h, y_is_negative := y_is_negative, x_is_negative := t_is_negative }

/-- The function `ffbi_mod_inv`; `fuel` bounds the iterations of the loop. -/
def ffbi_mod_inv (P : Platform) (fuel : Nat) (h : Heap) (dest a m : Nat) : Option Heap :=
  obind (h.get dest) fun xd =>
  obind (h.get m) fun xm =>
  obind (if xd.num_allocated_digits < xm.num_used_digits then
      ffbi_reallocate_digits P h dest xm.num_used_digits false else some h) fun h =>
  obind (h.get m) fun xm =>
  obind (if xm.num_used_digits = 1 then obind (rdDigit h m 0) fun m0 => some (decide (m0 = 1))
    else some false) fun m_is_one =>
  if m_is_one then
    obind (modify h dest (fun x => { x with num_used_digits := 1 })) fun h =>
    obind (wrDigit h dest 0 0) fun h =>
    modify h dest (fun x => { x with cache_valid := false })
  else
  let n := xm.num_used_digits
  obind (ffbi_create_from_bigint P h m) fun m_temp =>
  obind (ffbi_create_from_bigint P m_temp.2 a) fun a_temp =>
  obind (ffbi_create_reserved_digits P a_temp.2 n) fun t =>
  obind (ffbi_create_reserved_digits P t.2 n) fun y =>
  obind (ffbi_create_reserved_digits P y.2 n) fun x =>
  obind (modify x.2 x.1 (fun v => { v with num_used_digits := 1 })) fun h =>
  obind (wrDigit h x.1 0 1) fun h =>
  obind (ffbi_create_reserved_digits P h n) fun q =>
  obind (ffbi_create_reserved_digits P q.2 (n + 1)) fun scratch =>
  obind (ffbi_create_reserved_digits P scratch.2 (n + 1)) fun scratch2 =>
  obind (ffbi_create_reserved_digits P scratch2.2 n) fun temp =>
  obind (ffbi_create_reserved_digits P temp.2 n) fun temp2 =>
  obind (whileLoop (mod_inv_cond a_temp.1)
    (mod_inv_body P m_temp.1 a_temp.1 t.1 y.1 x.1 q.1 scratch.1 scratch2.1 temp.1) fuel
    { h := temp2.2, y_is_negative := false, x_is_negative := false }) fun s =>
  obind (if s.x_is_negative then ffbi_sub P s.h t.1 m x.1 else some s.h) fun h =>
  ffbi_copy P h dest t.1

/-! ## Preallocated bigints (`ffbi.cpp`, lines 398-422) -/

/-- The function `ffbi_create_preallocated`.  `buffer` is the caller's memory viewed as an
array of words (`none` is the null pointer); the inner `none` of the result is the `NULL`
the function returns on invalid arguments. -/
def ffbi_create_preallocated (P : Platform) (h : Heap) (buffer : Option (List Nat))
    (size_bytes : Nat) : Option (Option (Nat × Heap)) :=
  match buffer with
  | none => some none
  | some buf =>
    if size_bytes < FFBI_MIN_ALLOC_DIGITS * 4 then some none else
    obind (wr buf 0 0) fun arr =>
    some (some (h.obj.length,
      { h with obj := h.obj ++ [newRecord arr (size_bytes / (FFBI_WORD_SIZE P / 8)) false] }))

/-! ## Random bigints (`ffbi.cpp`, lines 21, 53-54, 566-716) -/

/-- Bits taken from one call of `rand()`. -/
def FFBI_RAND_BITS : Nat := 16

/-- Value of `_rand_max_plus_1`. -/
def rand_max_plus_1 : Nat := 2 ^ FFBI_RAND_BITS

/-- Value of `_rand_max`. -/
def rand_max : Nat := rand_max_plus_1 - 1

/-- The call `rand()`: the next value of the random sequence, a non-negative `int`. -/
def rand (h : Heap) : Nat × Heap := (h.rand h.nrand % 2 ^ 31, { h with nrand := h.nrand + 1 })

/-- Body of the loop `while (bits_left >= FFBI_RAND_BITS)` of `ffbi_random`; the state is
`(bits_left, heap)`. -/
def random_chunk (P : Platform) (p i : Nat) (s : Nat × Heap) : Option (Nat × Heap) :=
  let w := FFBI_WORD_SIZE P
  obind (rdDigit s.2 p i) fun d =>
  obind (wrDigit s.2 p i (wshl w d FFBI_RAND_BITS)) fun h =>
  let r := rand h
  obind (rdDigit r.2 p i) fun d =>
  obind (wrDigit r.2 p i (wadd w d (r.1 % rand_max_plus_1))) fun h =>
  some (s.1 - FFBI_RAND_BITS, h)

/-- The statements of `ffbi_random` that fill `p->digits[i]` with `bits` random bits.  The loop
runs `bits / 16` times, so the bound `bits + 1` on its iterations is never reached. -/
def random_digit (P : Platform) (h : Heap) (p i bits : Nat) : Option Heap :=
  let w := FFBI_WORD_SIZE P
  obind (wrDigit h p i 0) fun h =>
  obind (whileLoop (fun s => some (decide (s.1 ≥ FFBI_RAND_BITS))) (random_chunk P p i)
    (bits + 1) (bits, h)) fun s =>
  if s.1 > 0 then
    obind (rdDigit s.2 p i) fun d =>
    obind (wrDigit s.2 p i (wshl w d s.1)) fun h =>
    let r := rand h
    obind (rdDigit r.2 p i) fun d =>
    wrDigit r.2 p i (wadd w d (r.1 % 2 ^ s.1))
  else some s.2

/-- The function `ffbi_random`. -/
def ffbi_random (P : Platform) (h : Heap) (p num_bits : Nat) : Option Heap :=
  let w := FFBI_WORD_SIZE P
  let D := FFBI_BITS_PER_DIGIT P
  if num_bits < D then some h else
  let num_full_digits := num_bits / D
  let remaining_bits := num_bits % D
  let num_digits := if remaining_bits > 0 then num_full_digits + 1 else num_full_digits
  obind (h.get p) fun x =>
  obind (if x.num_allocated_digits < num_digits then
      ffbi_reallocate_digits P h p num_digits false else some h) fun h =>
  obind (modify h p (fun x => { x with num_used_digits := num_digits })) fun h =>
  obind (forUp (fun i h => random_digit P h p i D) num_full_digits 0 h) fun h =>
  obind (if remaining_bits > 0 then
      obind (random_digit P h p num_full_digits remaining_bits) fun h =>
      obind (rdDigit h p num_full_digits) fun d =>
      wrDigit h p num_full_digits (d ||| wshl w 1 (remaining_bits - 1))
    else
      obind (rdDigit h p (num_full_digits - 1)) fun d =>
      wrDigit h p (num_full_digits - 1) (d ||| wshl w 1 (D - 1))) fun h =>
  modify h p (fun x => { x with cache_valid := false })

/-- Body of the loop `while (bits_left >= FFBI_RAND_BITS)` of `ffbi_random_with_limit`; the
state is `(bits_left, p_is_less, heap)`. -/
def rwl_chunk (P : Platform) (p limit i : Nat) (s : Nat × Bool × Heap) :
    Option (Nat × Bool × Heap) :=
  let w := FFBI_WORD_SIZE P
  obind (rdDigit s.2.2 p i) fun d =>
  obind (wrDigit s.2.2 p i (wshl w d FFBI_RAND_BITS)) fun h =>
  let bits_left := s.1 - FFBI_RAND_BITS
  let r := rand h
  obind (if s.2.1 = false then
      obind (rdDigit r.2 limit i) fun l =>
      let lim := (l >>> bits_left) &&& rand_max
      let rand_val := r.1 % wadd w lim 1
      some (rand_val, decide (rand_val < lim))
    else some (r.1 % rand_max_plus_1, true)) fun rv =>
  obind (rdDigit r.2 p i) fun d =>
  obind (wrDigit r.2 p i (wadd w d rv.1)) fun h =>
  some (bits_left, rv.2, h)

/-- The block `if (bits_left > 0)` of `ffbi_random_with_limit`. -/
def rwl_tail (P : Platform) (p limit i : Nat) (s : Nat × Bool × Heap) : Option (Bool × Heap) :=
  let w := FFBI_WORD_SIZE P
  if s.1 > 0 then
    obind (rdDigit s.2.2 p i) fun d =>
    obind (wrDigit s.2.2 p i (wshl w d s.1)) fun h =>
    let r := rand h
    let shift_amount := FFBI_WORD_SIZE P - s.1
    obind (if s.2.1 = false then
        obind (rdDigit r.2 limit i) fun l =>
        let lim := wshl w l shift_amount >>> shift_amount
        let rand_val := r.1 % wadd w lim 1
        some (rand_val, decide (rand_val < lim))
      else some (r.1 % wadd w (digit_max P >>> shift_amount) 1, true)) fun rv =>
    obind (rdDigit r.2 p i) fun d =>
    obind (wrDigit r.2 p i (wadd w d rv.1)) fun h =>
    some (rv.2, h)
  else some (s.2.1, s.2.2)

/-- Body of the digit loop of `ffbi_random_with_limit`; the state is `(p_is_less, heap)`.  The
inner loop runs `D / 16` times, so the bound `D + 1` on its iterations is never reached. -/
def rwl_digit (P : Platform) (p limit i : Nat) (s : Bool × Heap) : Option (Bool × Heap) :=
  obind (wrDigit s.2 p i 0) fun h =>
  obind (whileLoop (fun s => some (decide (s.1 ≥ FFBI_RAND_BITS))) (rwl_chunk P p limit i)
    (FFBI_BITS_PER_DIGIT P + 1) (FFBI_BITS_PER_DIGIT P, s.1, h)) fun s =>
  rwl_tail P p limit i s

/-- The loop of `ffbi_random_with_limit` that decrements the lowest non-zero digit: `n` digits
remain to be inspected from index `i`. -/
def rwl_decrement (p : Nat) : Nat → Nat → Heap → Option Heap
  | 0, _, h => some h
  | n + 1, i, h =>
    obind (rdDigit h p i) fun d =>
    if d > 0 then wrDigit h p i (d - 1) else rwl_decrement p n (i + 1) h

/-- The final loop of `ffbi_random_with_limit`, `for (i = used - 1; i >= 0; i--) if
(digits[i] != 0) break;`: returns `i + 1`. -/
def rwl_trim (ds : List Nat) : Nat → Option Nat
  | 0 => some 0
  | k + 1 => obind (rd ds k) fun d => if d ≠ 0 then some (k + 1) else rwl_trim ds k

/-- The function `ffbi_random_with_limit`. -/
def ffbi_random_with_limit (P : Platform) (h : Heap) (p limit : Nat) : Option Heap :=
  obind (h.get p) fun xp =>
  obind (h.get limit) fun xl =>
  obind (if xp.num_allocated_digits < xl.num_used_digits then
      ffbi_reallocate_digits P h p xl.num_used_digits false else some h) fun h =>
  obind (h.get limit) fun xl =>
  obind (modify h p (fun x => { x with num_used_digits := xl.num_used_digits })) fun h =>
  obind (h.get p) fun xp =>
  obind (forDown (rwl_digit P p limit) xp.num_used_digits (false, h)) fun s =>
  obind (if s.1 = false then
      obind (s.2.get p) fun xp => rwl_decrement p xp.num_used_digits 0 s.2
    else some s.2) fun h =>
  obind (h.get p) fun xp =>
  obind (rwl_trim xp.digits xp.num_used_digits) fun n =>
  modify h p (fun x => { x with num_used_digits := n, cache_valid := false })

/-! ## The sieve (`ffbi.cpp`, lines 494-564) -/

/-- The scan `for (; k < k_end; k++) if (arr[k] == 1) break;`: `n` is `k_end - k`; returns the
final `k`. -/
def sieve_scan (arr : List Nat) : Nat → Nat → Option Nat
  | 0, k => some k
  | n + 1, k => obind (rd arr k) fun v => if v = 1 then some k else sieve_scan arr n (k + 1)

/-- The loop `for (i = k * 2; i < n; i += k) arr[i] = 0;`, cut off after `fuel` iterations. -/
def sieve_cross (k n : Nat) : Nat → Nat → List Nat → Option (List Nat)
  | 0, i, arr => if i < n then none else some arr
  | fuel + 1, i, arr =>
    if i < n then obind (wr arr i 0) fun arr => sieve_cross k n fuel (i + k) arr else some arr

/-- The loop `while (1)` of `ffbi_get_sieve`, cut off after `fuel` iterations. -/
def sieve_outer (n k_end : Nat) : Nat → Nat → List Nat → Option (List Nat)
  | 0, _, _ => none
  | fuel + 1, k, arr =>
    obind (sieve_scan arr (k_end - k) k) fun k =>
    if k = k_end then some arr else
    obind (sieve_cross k n n (k * 2) arr) fun arr =>
    sieve_outer n k_end fuel (k + 1) arr

/-- Body of the loop of `ffbi_get_sieve` that stores the primes; the state is `(i, heap)`. -/
def sieve_store (P : Platform) (vals arr : List Nat) (num_digits k : Nat) (s : Nat × Heap) :
    Option (Nat × Heap) :=
  obind (rd arr k) fun v =>
  if v = 1 then
    obind vals[s.1]? fun q =>
    obind (forUp (fun j h =>
      wrDigit h q j ((k >>> (j * FFBI_BITS_PER_DIGIT P)) &&& digit_max P)) num_digits 0 s.2) fun h =>
    obind (h.get q) fun x =>
    obind (trim_loop x.digits (num_digits - 1)) fun j =>
    obind (modify h q (fun x => { x with num_used_digits := j + 1 })) fun h =>
    some (s.1 + 1, h)
  else some s

/-- The function `ffbi_get_sieve`.  The flag array is allocated by `ffmem_alloc_arr`, whose
element count is an `int` (`ffmem.h`, lines 40-45): for `n >= 2^31` the converted count is
negative, `new (std::nothrow)` returns `NULL`, and `memset(arr, 1, n)` writes through the null
pointer (a fault).  The outer loop advances `k` at every iteration and stops at
`k_end = n / 2 + 1`, and the crossing loop advances `i` by `k >= 2`, so the bounds on their
iterations are never reached. -/
def ffbi_get_sieve (P : Platform) (h : Heap) (sieve n : Nat) : Option Heap :=
  if n < 3 then some h else
  if 2 ^ 31 ≤ n % 2 ^ 32 then none else
  let k_end := n / 2 + 1
  obind (sieve_outer n k_end (k_end + 1) 2 (List.replicate n 1)) fun arr =>
  obind (forUp (fun k c => obind (rd arr k) fun v => some (if v = 1 then c + 1 else c))
    (n - 3) 3 0) fun num_primes =>
  obind h.scr[sieve]? fun s =>
  let num_digits := 32 / FFBI_BITS_PER_DIGIT P + (if 32 % FFBI_BITS_PER_DIGIT P > 0 then 1 else 0)
  let alloc_digits := if num_digits < FFBI_MIN_ALLOC_DIGITS then FFBI_MIN_ALLOC_DIGITS
    else num_digits
  obind (scratch_fill P alloc_digits num_primes [] h) fun r =>
  let h := { r.2 with scr := r.2.scr.set sieve { s with val := r.1 } }
  obind (forUp (sieve_store P r.1 arr num_digits) (n - 3) 3 (0, h)) fun s2 =>
  some s2.2

/-! ## Primality test (`ffbi.cpp`, lines 25, 808-917) -/

/-- Number of scratch values used by `ffbi_is_large_prime`. -/
def FFBI_PRIME_TEST_NUM_SCRATCHES : Nat := 4

/-- The sieve loop of `ffbi_is_large_prime` over the remaining sieve entries; the flag of the
result says whether a divisor was found (`goto finish` with `ret = 0`). -/
def prime_sieve_loop (P : Platform) (p t1 t2 t3 c0 : Nat) : List Nat → Heap → Option (Bool × Heap)
  | [], h => some (false, h)
  | divisor :: rest, h =>
    obind (ffbi_cmp h divisor p) fun c =>
    if c = 1 then some (false, h) else
    obind (ffbi_div_impl P h t2 p divisor (some t1) t3 c0) fun r =>
    obind (r.2.get t1) fun x1 =>
    obind (if x1.num_used_digits = 1 then obind (rd x1.digits 0) fun d0 => some (decide (d0 = 0))
      else some false) fun z =>
    if z then some (true, r.2) else prime_sieve_loop P p t1 t2 t3 c0 rest r.2

/-- The Fermat loop of `ffbi_is_large_prime`, `k` tests remaining; returns `ret`. -/
def prime_fermat_loop (P : Platform) (fuel p p_minus_1 t1 a dest child : Nat) :
    Nat → Heap → Option (Nat × Heap)
  | 0, h => some (1, h)
  | k + 1, h =>
    obind (ffbi_random_with_limit P h a t1) fun h =>
    obind (ffbi_add_u P fuel h a a 2) fun h =>
    obind (ffbi_mod_pow P fuel h dest a p_minus_1 p (some child)) fun h =>
    obind (h.get dest) fun xd =>
    obind (if xd.num_used_digits > 1 then some true
      else obind (rd xd.digits 0) fun d0 => some (decide (d0 ≠ 1))) fun fail =>
    if fail then some (0, h) else prime_fermat_loop P fuel p p_minus_1 t1 a dest child k h

/-- The function `ffbi_is_large_prime` for a non-null `p`; returns `ret` and the heap.  `fuel`
bounds the iterations of the loops of `ffbi_add_u` and `ffbi_mod_pow`. -/
def ffbi_is_large_prime (P : Platform) (fuel : Nat) (h : Heap) (p num_tests : Nat)
    (sieve scratch : Option Nat) : Option (Nat × Heap) :=
  if num_tests < 1 then some (0, h) else
  let sh := scratch_or_create h scratch
  let free_scratch := scratch.isNone
  let scratch := sh.1
  obind (sh.2.get p) fun xp =>
  obind (ffbi_scratch_prepare P sh.2 scratch FFBI_PRIME_TEST_NUM_SCRATCHES xp.num_used_digits)
    fun h =>
  obind h.scr[scratch]? fun s =>
  let temp := s.val
  let free_child := decide (s.num_children = 0)
  let h := if s.num_children = 0 then
      let ch := ffbi_scratch_create h
      { ch.2 with scr := ch.2.scr.set scratch { s with child := some ch.1, num_children := 1 } }
    else h
  obind h.scr[scratch]? fun s =>
  obind s.child fun child =>
  obind (h.get p) fun xp =>
  obind (ffbi_scratch_prepare P h child FFBI_MOD_POW_NUM_SCRATCHES xp.num_used_digits) fun h =>
  obind h.scr[child]? fun sc =>
  let free_inner_child := decide (sc.num_children = 0)
  let h := if sc.num_children = 0 then
      let ch := ffbi_scratch_create h
      { ch.2 with scr := ch.2.scr.set child { sc with num_children := 1, child := some ch.1 } }
    else h
  obind temp[0]? fun t0 =>
  obind temp[1]? fun t1 =>
  obind temp[2]? fun t2 =>
  obind temp[3]? fun t3 =>
  obind (match sieve with
    | none => some (false, h)
    | some sv =>
      obind h.scr[sv]? fun ss =>
      if ss.val.length = 0 then some (false, h) else
      obind h.scr[child]? fun sc =>
      obind sc.val[0]? fun c0 =>
      prime_sieve_loop P p t1 t2 t3 c0 ss.val h) fun r =>
  obind (if r.1 then some (0, r.2) else
    let h := r.2
    let p_minus_1 := t0
    obind (modify h t1 (fun x => { x with num_used_digits := 1 })) fun h =>
    obind (wrDigit h t1 0 1) fun h =>
    obind (ffbi_sub P h p_minus_1 p t1) fun h =>
    obind (modify h t2 (fun x => { x with num_used_digits := 1 })) fun h =>
    obind (wrDigit h t2 0 2) fun h =>
    obind (ffbi_sub P h t1 p_minus_1 t2) fun h =>
    prime_fermat_loop P fuel p p_minus_1 t1 t2 t3 child num_tests h) fun r =>
  let h := r.2
  if free_scratch then some (r.1, ffbi_scratch_destroy h scratch)
  else if free_child then
    obind h.scr[scratch]? fun s =>
    some (r.1, { h with scr := h.scr.set scratch { s with child := none, num_children := 0 } })
  else if free_inner_child then
    obind h.scr[child]? fun sc =>
    some (r.1, { h with scr := h.scr.set child { sc with child := none, num_children := 0 } })
  else some (r.1, h)

/-! # The bit cursor and the RSA layer (`ffbit.cpp`, `ffrsa.cpp`)

Byte buffers are lists of natural numbers below 256; a pointer into a buffer is an offset.
`int` values are integers, and the conversions between `int` and `uint32_t` are explicit. -/

/-- Conversion of a `uint32_t` value to `int`. -/
def toInt32 (x : Nat) : Int :=
  if x % 2 ^ 32 < 2 ^ 31 then ((x % 2 ^ 32 : Nat) : Int) else ((x % 2 ^ 32 : Nat) : Int) - 2 ^ 32

/-- Conversion of an `int` value to `uint32_t`. -/
def toUInt32 (x : Int) : Nat := (x % 2 ^ 32).toNat

/-- The call `memcpy(dst + doff, src + soff, n)`. -/
def memcpy_at (dst : List Nat) (doff : Nat) (src : List Nat) (soff n : Nat) : Option (List Nat) :=
  if soff + n ≤ src.length ∧ doff + n ≤ dst.length then
    some (dst.take doff ++ (src.drop soff).take n ++ dst.drop (doff + n))
  else none

/-- Run `f` on the part of `buf` that starts at offset `off` (a call that receives the pointer
`buf + off`) and put the part back. -/
def atOffset {α : Type} (buf : List Nat) (off : Nat) (f : List Nat → Option (α × List Nat)) :
    Option (α × List Nat) :=
  if buf.length < off then none else
  obind (f (buf.drop off)) fun r => some (r.1, buf.take off ++ r.2)

/-- The function `ffbi_create_reserved_bits`; the inner `none` is the `NULL` returned when the
bits need fewer than `FFBI_MIN_ALLOC_DIGITS` digits. -/
def ffbi_create_reserved_bits (P : Platform) (h : Heap) (bits : Nat) :
    Option (Option Nat × Heap) :=
  let bits := bits % 2 ^ 32
  let num_digits := bits / FFBI_BITS_PER_DIGIT P +
    (if bits % FFBI_BITS_PER_DIGIT P ≠ 0 then 1 else 0)
  if num_digits < FFBI_MIN_ALLOC_DIGITS then some (none, h) else
  let r := h.newArr (FFBI_WORD_SIZE P) num_digits
  obind (wr r.1 0 0) fun arr =>
  some (some r.2.obj.length, { r.2 with obj := r.2.obj ++ [newRecord arr num_digits true] })

/-! ## Bit cursor (`ffbit.cpp`) -/

/-- The record `struct FFBIT`: the byte pointer `p`, as an offset into the buffer, and
`bit_index`. -/
structure FFBIT where
  p : Nat
  bit_index : Nat
deriving Repr, DecidableEq

/-- The function `ffbit_create`. -/
def ffbit_create (off : Nat) : FFBIT := { p := off, bit_index := 0 }

/-- The function `ffbit_set`. -/
def ffbit_set (off bit_offset : Nat) : FFBIT :=
  { p := off + bit_offset / 8, bit_index := bit_offset % 8 }

/-- The function `ffbit_skip`. -/
def ffbit_skip (bp : FFBIT) (num_bits : Nat) : FFBIT :=
  let r := num_bits % 8
  let bit_index := (bp.bit_index + r) % 256
  let r := bit_index / 8
  { p := bp.p + (num_bits / 8 + r), bit_index := (bit_index + 256 - (r * 8) % 256) % 256 }

/-- Body of the loop of `ffbit_read`; the state is `(ret, i, num_bits, bit_index)`.  A shift
by a negative count or by the width of the type is undefined: a fault. -/
def ffbit_read_step (buf : List Nat) (p : Nat) (s : Nat × Nat × Nat × Nat) :
    Option (Nat × Nat × Nat × Nat) :=
  let bits_left := wsub 32 8 s.2.2.2
  let bits_left := if s.2.2.1 < bits_left then s.2.2.1 else bits_left
  if bits_left ≥ 32 then none else
  let mask := wsub 32 (wshl 32 1 bits_left) 1
  obind (rd buf (p + s.2.1)) fun byte =>
  if 8 < s.2.2.2 + bits_left then none else
  if s.2.2.1 - bits_left ≥ 64 then none else
  let ret := s.1 ||| wshl 64 ((byte >>> (8 - s.2.2.2 - bits_left)) &&& mask) (s.2.2.1 - bits_left)
  let bit_index := (s.2.2.2 + bits_left) % 256
  some (ret, (if bit_index ≥ 8 then s.2.1 + 1 else s.2.1), s.2.2.1 - bits_left,
    (if bit_index ≥ 8 then bit_index - 8 else bit_index))

/-- The function `ffbit_read`: returns the value and the cursor afterwards.  Every iteration
consumes at least one bit, so the bound `num_bits + 1` on the iterations is never reached
while `bit_index < 8`. -/
def ffbit_read (buf : List Nat) (bp : FFBIT) (num_bits : Nat) : Option (Nat × FFBIT) :=
  obind (whileLoop (fun s => some (decide (s.2.2.1 > 0))) (ffbit_read_step buf bp.p)
    (num_bits + 1) (0, 0, num_bits % 2 ^ 32, bp.bit_index)) fun s =>
  some (s.1, { p := bp.p + s.2.1, bit_index := s.2.2.2 })

/-- The function `ffbit_write`: returns the buffer and the cursor afterwards.  `val >> (shift +
56)` is undefined for `shift >= 8`: a fault. -/
def ffbit_write (buf : List Nat) (bp : FFBIT) (num_bits val : Nat) : Option (List Nat × FFBIT) :=
  let num_bits := num_bits % 2 ^ 32
  let val := val % 2 ^ 64
  if num_bits > 64 then some (buf, bp) else
  let shift := (bp.bit_index + num_bits % 8) % 2 ^ 32
  if shift ≥ 8 then none else
  let tmp : List Nat :=
    [(val >>> (shift + 56)) &&& 255, (val >>> (shift + 48)) &&& 255,
     (val >>> (shift + 40)) &&& 255, (val >>> (shift + 32)) &&& 255,
     (val >>> (shift + 24)) &&& 255, (val >>> (shift + 16)) &&& 255,
     (val >>> (shift + 8)) &&& 255, (val >>> shift) &&& 255,
     (wshl 64 val (16 - shift) &&& 65280) >>> 8, wshl 64 val (16 - shift) &&& 255]
  obind (rd buf bp.p) fun b0 =>
  obind (wr buf bp.p ((b0 >>> (8 - bp.bit_index)) % 256)) fun buf =>
  obind (rd buf bp.p) fun b0 =>
  obind (wr buf bp.p ((b0 <<< (8 - bp.bit_index)) % 256)) fun buf =>
  obind (if shift ≥ num_bits then
      obind (rd buf bp.p) fun b0 =>
      obind (rd tmp 8) fun t8 =>
      obind (wr buf bp.p (b0 ||| t8)) fun buf =>
      if shift > 8 then obind (rd tmp 9) fun t9 => wr buf (bp.p + 1) t9 else some buf
    else
      let num_bytes := (num_bits - shift) / 8 + (if (num_bits - shift) % 8 ≠ 0 then 1 else 0)
      obind (rd buf bp.p) fun b0 =>
      obind (rd tmp (8 - num_bytes)) fun t =>
      obind (wr buf bp.p (b0 ||| t)) fun buf =>
      if shift > 8 then memcpy_at buf (bp.p + 1) tmp (8 - num_bytes + 1) (num_bytes - 1 + 2)
      else if shift ≠ 0 then memcpy_at buf (bp.p + 1) tmp (8 - num_bytes + 1) (num_bytes - 1 + 1)
      else memcpy_at buf (bp.p + 1) tmp (8 - num_bytes + 1) (num_bytes - 1)) fun buf =>
  some (buf, ffbit_skip bp num_bits)

/-! ## RSA keys (`ffrsa.cpp`) -/

/-- Value of `FFDIGEST_BUFLEN`. -/
def FFDIGEST_BUFLEN : Nat := 32

/-- Value of `FFRSA_DEFAULT_KEY_RESERVED_BITS`. -/
def FFRSA_DEFAULT_KEY_RESERVED_BITS : Nat := 2048

/-- The record `struct FFRSA`.  A bigint pointer is `none` when `NULL`; `result` and the five
vectors hold their contents. -/
structure ffrsa_t where
  p : Option Nat
  q : Option Nat
  n : Option Nat
  e : Option Nat
  dp : Option Nat
  dq : Option Nat
  qinv : Option Nat
  temp : Option Nat
  temp2 : Option Nat
  temp3 : Option Nat
  m1 : Option Nat
  m2 : Option Nat
  h : Option Nat
  m1_inc : Option Nat
  scratch : Option Nat
  result : Option (List Nat)
  result_alloc_size : Nat
  result_used_size : Nat
  max_msg_size : Nat
  rsa_usable_size : Nat
  is_private : Nat
  padding_scratch : Option (List Nat)
  padding_scratch2 : Option (List Nat)
  padding_scratch3 : Option (List Nat)
  padding_seed : Option (List Nat)
  padding_mask : Option (List Nat)
deriving Repr, DecidableEq

/-- The record after `memset(ret, 0, sizeof(ffrsa_t))`. -/
def ffrsa_zero : ffrsa_t :=
  { p := none, q := none, n := none, e := none, dp := none, dq := none, qinv := none,
    temp := none, temp2 := none, temp3 := none, m1 := none, m2 := none, h := none,
    m1_inc := none, scratch := none, result := none, result_alloc_size := 0,
    result_used_size := 0, max_msg_size := 0, rsa_usable_size := 0, is_private := 0,
    padding_scratch := none, padding_scratch2 := none, padding_scratch3 := none,
    padding_seed := none, padding_mask := none }

/-- The function `ffrsa_init`; `fuel` bounds the carry loop of `ffbi_add_u`. -/
def ffrsa_init (P : Platform) (fuel : Nat) (h : Heap) (ret : ffrsa_t) (bits is_private : Nat) :
    Option (Heap × ffrsa_t) :=
  obind (ffbi_create_reserved_bits P h bits) fun t =>
  obind ret.n fun n =>
  obind (ffbi_get_significant_bits P t.2 n) fun sig =>
  let usable := ((sig + (2 ^ 32 - 1)) % 2 ^ 32) / 8
  let padsize := (FFDIGEST_BUFLEN <<< 1) + 1
  let max_msg := if padsize > usable then 0 else usable - padsize
  obind (ffbi_create_reserved_bits P t.2 bits) fun t2 =>
  obind (ffbi_create_reserved_bits P t2.2 bits) fun t3 =>
  let sc := ffbi_scratch_create t3.2
  let ret := { ret with
    temp := t.1, rsa_usable_size := usable, max_msg_size := max_msg,
    temp2 := t2.1, temp3 := t3.1, scratch := some sc.1, is_private := is_private % 256,
    padding_scratch := some [], padding_scratch2 := some [], padding_scratch3 := some [],
    padding_seed := some [], padding_mask := some [] }
  if is_private % 256 ≠ 0 then
    obind (ffbi_create_reserved_bits P sc.2 bits) fun m1 =>
    obind (ffbi_create_reserved_bits P m1.2 bits) fun m2 =>
    obind (ffbi_create_reserved_bits P m2.2 bits) fun hh =>
    obind (ffbi_create_reserved_bits P hh.2 bits) fun m1_inc =>
    let ret := { ret with m1 := m1.1, m2 := m2.1, h := hh.1, m1_inc := m1_inc.1 }
    obind ret.m1_inc fun pinc =>
    obind ret.q fun pq =>
    obind ret.p fun pp =>
    obind ret.m1 fun pm1 =>
    obind ret.m2 fun pm2 =>
    obind (ffbi_div_impl P m1_inc.2 pinc pq pp ret.temp2 pm1 pm2) fun r =>
    obind (ffbi_add_u P fuel r.2 pinc pinc 1) fun h =>
    obind (ffbi_mul P h pinc pinc pp) fun h =>
    some (h, ret)
  else some (sc.2, ret)

/-- The function `ffrsa_create_from_public_key`; `key` is the memory at the pointer. -/
def ffrsa_create_from_public_key (P : Platform) (fuel : Nat) (h : Heap) (key : List Nat) :
    Option (Heap × ffrsa_t) :=
  obind (ffbi_create P h) fun e =>
  obind (ffbi_create_reserved_bits P e.2 FFRSA_DEFAULT_KEY_RESERVED_BITS) fun n =>
  let ret := { ffrsa_zero with e := some e.1, n := n.1 }
  obind (ffbit_read key (ffbit_create 0) 32) fun r =>
  let e_size := r.1 % 2 ^ 32
  if toInt32 e_size < 0 then none else
  if key.length < 4 then none else
  obind (ffbi_deserialize P n.2 e.1 (key.drop 4) e_size) fun h =>
  obind (ffbit_read key (ffbit_set (4 + e_size) 0) 32) fun r =>
  let n_size := r.1 % 2 ^ 32
  if toInt32 n_size < 0 then none else
  if key.length < 4 + e_size + 4 then none else
  obind ret.n fun pn =>
  obind (ffbi_deserialize P h pn (key.drop (4 + e_size + 4)) n_size) fun h =>
  obind (ffbi_get_significant_bits P h pn) fun bits =>
  ffrsa_init P fuel h ret bits 0

/-- The function `ffrsa_get_public_key_size`.  The sum is computed in `int`, where overflow
is undefined: a fault. -/
def ffrsa_get_public_key_size (P : Platform) (h : Heap) (rsa : ffrsa_t) : Option Int :=
  obind rsa.e fun pe =>
  obind rsa.n fun pn =>
  obind (ffbi_get_serialized_size P h pe) fun e_size =>
  obind (ffbi_get_serialized_size P h pn) fun n_size =>
  if e_size + n_size + 8 < 2 ^ 31 then some ((e_size : Int) + (n_size : Int) + 8) else none

/-- The function `ffrsa_get_public_key`: returns the `int` result and the memory at `key`
afterwards. -/
def ffrsa_get_public_key (P : Platform) (h : Heap) (rsa : ffrsa_t) (key : List Nat)
    (size_bytes : Int) : Option (Int × List Nat) :=
  obind rsa.e fun pe =>
  obind rsa.n fun pn =>
  obind (ffbi_get_serialized_size P h pe) fun e_size =>
  obind (ffbi_get_serialized_size P h pn) fun n_size =>
  let e_size := e_size % 2 ^ 32
  let n_size := n_size % 2 ^ 32
  let total_size := toInt32 (e_size + n_size + 8)
  if total_size > size_bytes then some (-1, key) else
  obind (ffbit_write key (ffbit_create 0) 32 e_size) fun w =>
  obind (atOffset w.1 4 fun b => ffbi_serialize P h pe b e_size) fun s =>
  obind (ffbit_write s.2 (ffbit_set (4 + e_size) 0) 32 n_size) fun w =>
  obind (atOffset w.1 (4 + e_size + 4) fun b => ffbi_serialize P h pn b n_size) fun s =>
  some (total_size, s.2)

/-- The function `ffrsa_get_max_msg_len`. -/
def ffrsa_get_max_msg_len (rsa : ffrsa_t) : Int := toInt32 rsa.max_msg_size

/-- The function `ffrsa_update_result`. -/
def ffrsa_update_result (P : Platform) (h : Heap) (rsa : ffrsa_t) (v : Nat) :
    Option (Heap × ffrsa_t) :=
  obind (ffbi_get_serialized_size P h v) fun serialized_size =>
  let st : Heap × ffrsa_t :=
    match rsa.result with
    | none =>
      let r := h.newArr 8 serialized_size
      (r.2, { rsa with result := some r.1, result_alloc_size := serialized_size % 2 ^ 32 })
    | some _ =>
      if (serialized_size : Int) > toInt32 rsa.result_alloc_size then
        let r := h.newArr 8 serialized_size
        (r.2, { rsa with result := some r.1, result_alloc_size := serialized_size % 2 ^ 32 })
      else (h, rsa)
  let rsa := { st.2 with result_used_size := serialized_size % 2 ^ 32 }
  obind rsa.result fun res =>
  obind (ffbi_serialize P st.1 v res rsa.result_used_size) fun s =>
  some (st.1, { rsa with result := some s.2 })

/-- The call `v->resize(n)` of a byte vector: new elements are 0. -/
def vresize (v : List Nat) (n : Nat) : List Nat := v.take n ++ List.replicate (n - v.length) 0

/-- The array that `ffdigest_buf` fills: `FFDIGEST_BUFLEN` bytes computed from the input by
the digest function, which is a parameter of the model. -/
def ffdigest_buf (digest : List Nat → List Nat) (input : List Nat) : List Nat :=
  (List.range FFDIGEST_BUFLEN).map fun i => (digest input).getD i 0 % 256

/-- Body of the loop of `ffrsa_mgf1`; the state is `(offset, i, mask, padding_scratch)`. -/
def ffrsa_mgf1_step (digest : List Nat → List Nat) (desired_len : Nat)
    (s : Nat × Nat × List Nat × List Nat) : Option (Nat × Nat × List Nat × List Nat) :=
  obind (wr s.2.2.2 0 ((s.2.1 >>> 24) % 256)) fun ps =>
  obind (wr ps 1 ((s.2.1 >>> 16) % 256)) fun ps =>
  obind (wr ps 2 ((s.2.1 >>> 8) % 256)) fun ps =>
  obind (wr ps 3 (s.2.1 % 256)) fun ps =>
  let remaining := if desired_len - s.1 > FFDIGEST_BUFLEN then FFDIGEST_BUFLEN
    else desired_len - s.1
  obind (memcpy_at s.2.2.1 s.1 (ffdigest_buf digest ps) 0 remaining) fun mask =>
  some (s.1 + FFDIGEST_BUFLEN, s.2.1 + 1, mask, ps)

/-- The function `ffrsa_mgf1`: returns the record (with `padding_scratch` updated) and the
mask vector.  The loop advances `offset` by 32, so the bound `desired_len + 1` is never
reached. -/
def ffrsa_mgf1 (digest : List Nat → List Nat) (rsa : ffrsa_t) (mask seed : List Nat)
    (seed_offset : Nat) (seed_len desired_len : Int) : Option (ffrsa_t × List Nat) :=
  if desired_len < 0 ∨ seed_len + 4 < 0 ∨ seed_len < 0 then none else
  let mask := vresize mask desired_len.toNat
  obind rsa.padding_scratch fun ps =>
  let ps := vresize ps (seed_len.toNat + 4)
  obind (memcpy_at ps 4 seed seed_offset seed_len.toNat) fun ps =>
  obind (whileLoop (fun s => some (decide (s.1 < desired_len.toNat)))
    (ffrsa_mgf1_step digest desired_len.toNat) (desired_len.toNat + 1) (0, 0, mask, ps)) fun s =>
  some ({ rsa with padding_scratch := some s.2.2.2 }, s.2.2.1)

/-- The loop `for (i = 0; i < n; i++) a[i] ^= b[i]`. -/
def xor_into (a b : List Nat) (n : Nat) : Option (List Nat) :=
  forUp (fun i a => obind (rd a i) fun x => obind (rd b i) fun y => wr a i (x ^^^ y)) n 0 a

/-- The loop of `ffrsa_pad` that fills the seed with `rand() % 0x100`. -/
def ffrsa_seed_fill (h : Heap) (seed : List Nat) : Option (Heap × List Nat) :=
  forUp (fun i s =>
    let r := rand s.1
    obind (wr s.2 i (r.1 % 256)) fun seed => some (r.2, seed)) seed.length 0 (h, seed)

/-- The function `ffrsa_pad`: returns the heap (whose random sequence has advanced), the
record and the vector `out`. -/
def ffrsa_pad (digest : List Nat → List Nat) (h : Heap) (rsa : ffrsa_t) (msg : List Nat)
    (msg_len desired_len : Int) : Option (Heap × ffrsa_t × List Nat) :=
  let hlen : Int := FFDIGEST_BUFLEN
  if msg_len > desired_len - hlen * 2 - 1 then some (h, rsa, []) else
  let zero_pad := desired_len - msg_len - hlen * 2 - 1
  if desired_len - hlen < 0 ∨ msg_len < 0 then none else
  obind rsa.padding_scratch2 fun ps2 =>
  let ps2 := vresize ps2 (desired_len - hlen).toNat
  if ps2.length < FFDIGEST_BUFLEN then none else
  let ps2 := List.replicate FFDIGEST_BUFLEN 8 ++ ps2.drop FFDIGEST_BUFLEN
  obind (memcpy_at ps2 (hlen + zero_pad + 1).toNat msg 0 msg_len.toNat) fun ps2 =>
  obind (wr ps2 (hlen + zero_pad).toNat 1) fun ps2 =>
  obind rsa.padding_seed fun seed =>
  let seed := vresize seed FFDIGEST_BUFLEN
  obind (ffrsa_seed_fill h seed) fun hs =>
  obind rsa.padding_mask fun mask =>
  obind (ffrsa_mgf1 digest rsa mask hs.2 0 hlen (desired_len - hlen)) fun m =>
  obind (xor_into ps2 m.2 (desired_len - hlen).toNat) fun ps2 =>
  obind (ffrsa_mgf1 digest m.1 m.2 ps2 0 (desired_len - hlen) hlen) fun m =>
  obind (xor_into hs.2 m.2 FFDIGEST_BUFLEN) fun seed =>
  let out := vresize [] desired_len.toNat
  obind (memcpy_at out 0 seed 0 FFDIGEST_BUFLEN) fun out =>
  obind (memcpy_at out FFDIGEST_BUFLEN ps2 0 (desired_len - hlen).toNat) fun out =>
  let rsa := { m.1 with
    padding_scratch2 := some ps2, padding_seed := some seed, padding_mask := some m.2 }
  some (hs.1, rsa, out)

/-- Body of the scanning loop of `ffrsa_unpad`; the state is `(padding_scratch2, index)`, and
the flag in the result tells whether the body executed the `return` in the loop. -/
def ffrsa_unpad_step (mask : List Nat) (msg_len : Nat) (i : Nat) (s : List Nat × Int) :
    Option (Bool × List Nat × Int) :=
  obind (rd s.1 i) fun x =>
  obind (rd mask (i - FFDIGEST_BUFLEN)) fun y =>
  obind (wr s.1 i (x ^^^ y)) fun ps2 =>
  if i < FFDIGEST_BUFLEN <<< 1 then
    if x ^^^ y ≠ 8 then some (true, ps2, s.2) else some (false, ps2, s.2)
  else if (i : Int) < (msg_len : Int) - FFDIGEST_BUFLEN then
    if x ^^^ y = 1 then some (false, ps2, (i : Int) + 1) else some (false, ps2, s.2)
  else some (false, ps2, s.2)

/-- The scanning loop of `ffrsa_unpad` from index `i`, `k` indices remaining. -/
def ffrsa_unpad_loop (mask : List Nat) (msg_len : Nat) :
    Nat → Nat → List Nat × Int → Option (Bool × List Nat × Int)
  | 0, _, s => some (false, s)
  | k + 1, i, s =>
    obind (ffrsa_unpad_step mask msg_len i s) fun r =>
    if r.1 then some r else ffrsa_unpad_loop mask msg_len k (i + 1) r.2

/-- The function `ffrsa_unpad`: returns the record and the vector `out`. -/
def ffrsa_unpad (digest : List Nat → List Nat) (rsa : ffrsa_t) (msg : List Nat) (msg_len : Int) :
    Option (ffrsa_t × List Nat) :=
  let hlen : Int := FFDIGEST_BUFLEN
  if msg_len < hlen * 2 + 1 then some (rsa, []) else
  obind rsa.padding_scratch2 fun ps2 =>
  let ps2 := vresize ps2 msg_len.toNat
  obind (memcpy_at ps2 0 msg 0 msg_len.toNat) fun ps2 =>
  obind rsa.padding_mask fun mask =>
  obind (ffrsa_mgf1 digest rsa mask ps2 FFDIGEST_BUFLEN (msg_len - hlen) hlen) fun m =>
  obind (xor_into ps2 m.2 FFDIGEST_BUFLEN) fun ps2 =>
  obind (ffrsa_mgf1 digest m.1 m.2 ps2 0 hlen (msg_len - hlen)) fun m =>
  obind (ffrsa_unpad_loop m.2 msg_len.toNat (msg_len.toNat - FFDIGEST_BUFLEN) FFDIGEST_BUFLEN
    (ps2, -1)) fun s =>
  let rsa := { m.1 with padding_scratch2 := some s.2.1, padding_mask := some m.2 }
  if s.1 then some (rsa, []) else
  if s.2.2 = -1 ∨ s.2.2 = msg_len then some (rsa, []) else
  let out := vresize [] (msg_len - s.2.2).toNat
  obind (memcpy_at out 0 s.2.1 s.2.2.toNat (msg_len - s.2.2).toNat) fun out =>
  some (rsa, out)

/-- The loop `while (1) { ffrsa_pad(...); if (last byte is odd) break; }` of `ffrsa_encrypt`,
cut off after `fuel` iterations. -/
def ffrsa_pad_loop (digest : List Nat → List Nat) (msg : List Nat) (msg_len : Int) :
    Nat → Heap → ffrsa_t → Option (Heap × ffrsa_t)
  | 0, _, _ => none
  | fuel + 1, h, rsa =>
    obind (ffrsa_pad digest h rsa msg msg_len (rsa.rsa_usable_size : Int)) fun r =>
    let rsa := { r.2.1 with padding_scratch3 := some r.2.2 }
    obind (rd r.2.2 ((rsa.rsa_usable_size + (2 ^ 32 - 1)) % 2 ^ 32)) fun last =>
    if last &&& 1 = 1 then some (r.1, rsa) else ffrsa_pad_loop digest msg msg_len fuel r.1 rsa

/-- The function `ffrsa_encrypt`: returns the `int` result, the heap and the record; `fuel`
bounds the padding loop and the loops of `ffbi_mod_pow`. -/
def ffrsa_encrypt (digest : List Nat → List Nat) (P : Platform) (fuel : Nat) (h : Heap)
    (rsa : ffrsa_t) (src : List Nat) (msg_len : Int) : Option (Int × Heap × ffrsa_t) :=
  if msg_len > toInt32 rsa.max_msg_size then some (1, h, rsa) else
  obind rsa.padding_scratch3 fun ps3 =>
  let rsa := { rsa with padding_scratch3 := some (vresize ps3 rsa.rsa_usable_size) }
  obind (ffrsa_pad_loop digest src msg_len fuel h rsa) fun r =>
  obind r.2.padding_scratch3 fun ps3 =>
  obind r.2.temp fun temp =>
  obind r.2.temp2 fun temp2 =>
  obind r.2.e fun e =>
  obind r.2.n fun n =>
  if toInt32 r.2.rsa_usable_size < 0 then none else
  obind (ffbi_deserialize P r.1 temp ps3 r.2.rsa_usable_size) fun h =>
  obind (ffbi_mod_pow P fuel h temp2 temp e n r.2.scratch) fun h =>
  obind (ffrsa_update_result P h r.2 temp2) fun u =>
  some (0, u.1, u.2)

/-- The function `ffrsa_decrypt`: returns the `int` result, the heap and the record. -/
def ffrsa_decrypt (digest : List Nat → List Nat) (P : Platform) (fuel : Nat) (h : Heap)
    (rsa : ffrsa_t) (src : List Nat) (msg_len : Int) : Option (Int × Heap × ffrsa_t) :=
  if msg_len > toInt32 rsa.rsa_usable_size + 1 then some (1, h, rsa) else
  if rsa.is_private = 0 then some (1, h, rsa) else
  obind rsa.temp fun temp =>
  obind rsa.temp2 fun temp2 =>
  obind rsa.temp3 fun temp3 =>
  obind rsa.m1 fun m1 =>
  obind rsa.m2 fun m2 =>
  obind rsa.m1_inc fun m1_inc =>
  obind rsa.p fun p =>
  obind rsa.q fun q =>
  obind rsa.dp fun dp =>
  obind rsa.dq fun dq =>
  obind rsa.qinv fun qinv =>
  obind rsa.h fun hh =>
  if msg_len < 0 then none else
  obind (ffbi_deserialize P h temp src msg_len.toNat) fun h =>
  obind (ffbi_mod_pow P fuel h m1 temp dp p rsa.scratch) fun h =>
  obind (ffbi_mod_pow P fuel h m2 temp dq q rsa.scratch) fun h =>
  obind (ffbi_cmp h m1 m2) fun c =>
  obind (if c = -1 then ffbi_add P h m1 m1 m1_inc else some h) fun h =>
  obind (ffbi_sub P h m1 m1 m2) fun h =>
  obind (ffbi_mul P h temp2 m1 qinv) fun h =>
  obind (ffbi_div_impl P h temp temp2 p (some hh) m1 temp3) fun r =>
  obind (ffbi_mul P r.2 temp2 hh q) fun h =>
  obind (ffbi_add P h temp2 temp2 m2) fun h =>
  obind (ffrsa_update_result P h rsa temp2) fun u =>
  obind u.2.result fun res =>
  obind (ffrsa_unpad digest u.2 res (toInt32 u.2.result_used_size)) fun up =>
  if up.2.length = 0 then some (1, u.1, { up.1 with padding_scratch3 := some up.2 }) else
  obind (memcpy_at res 0 up.2 0 up.2.length) fun res =>
  let rsa := { up.1 with
    padding_scratch3 := some up.2, result := some res,
    result_used_size := up.2.length % 2 ^ 32 }
  some (0, u.1, rsa)

/-! ## Random primes (`ffbi.cpp`, lines 725-746) -/

/-- The loop `do { ffbi_random(ret, bits); ret->digits[0] |= 1; } while
(!ffbi_is_large_prime(ret, num_tests, sieve, scratch))` of `ffbi_create_random_large_prime`,
cut off after the given number of candidates (`none` when cut off). -/
def random_prime_loop (P : Platform) (fuel ret bits num_tests : Nat) (sieve : Option Nat)
    (scratch : Nat) : Nat → Heap → Option Heap
  | 0, _ => none
  | k + 1, h =>
    obind (ffbi_random P h ret bits) fun h =>
    obind (rdDigit h ret 0) fun d0 =>
    obind (wrDigit h ret 0 (d0 ||| 1)) fun h =>
    obind (ffbi_is_large_prime P fuel h ret num_tests sieve (some scratch)) fun r =>
    if r.1 = 0 then random_prime_loop P fuel ret bits num_tests sieve scratch k r.2
    else some r.2

/-- The function `ffbi_create_random_large_prime`; the inner `none` is the `NULL` it returns
when `ffbi_create_reserved_bits` does.  `fuel` bounds the loops of the primality test and
`candidates` the number of candidates drawn.  The argument `(int)num_tests` of
`ffbi_is_large_prime` is passed as a natural number, 0 standing for every value below 1. -/
def ffbi_create_random_large_prime (P : Platform) (fuel candidates : Nat) (h : Heap)
    (bits num_tests : Nat) (sieve : Option Nat) : Option (Option Nat × Heap) :=
  obind (ffbi_create_reserved_bits P h bits) fun r =>
  match r.1 with
  | none => some (none, r.2)
  | some ret =>
    let s := ffbi_scratch_create r.2
    let scratch := s.1
    obind (s.2.get ret) fun xr =>
    obind (ffbi_scratch_prepare P s.2 scratch FFBI_PRIME_TEST_NUM_SCRATCHES
      xr.num_allocated_digits) fun h =>
    obind h.scr[scratch]? fun sc =>
    let c := ffbi_scratch_create
      { h with scr := h.scr.set scratch { sc with num_children := 1 } }
    obind c.2.scr[scratch]? fun sc =>
    let h := { c.2 with scr := c.2.scr.set scratch { sc with child := some c.1 } }
    obind (h.get ret) fun xr =>
    obind (ffbi_scratch_prepare P h scratch FFBI_MOD_POW_NUM_SCRATCHES
      xr.num_allocated_digits) fun h =>
    obind h.scr[scratch]? fun sc =>
    obind sc.child fun child =>
    let cc := ffbi_scratch_create h
    obind cc.2.scr[child]? fun scc =>
    let h := { cc.2 with
      scr := cc.2.scr.set child { scc with child := some cc.1, num_children := 1 } }
    obind (random_prime_loop P fuel ret (bits % 2 ^ 32) (toInt32 num_tests).toNat sieve scratch
      candidates h) fun h =>
    some (some ret, ffbi_scratch_destroy h scratch)

/-! ## Specification helpers -/

/-- The heap with the record at `p` replaced. -/
def Heap.upd (h : Heap) (p : Nat) (y : FFBI) : Heap := { h with obj := h.obj.set p y }

/-- The result of a three-way comparison of two integers, as `ffbi_cmp` reports it. -/
def cmpVal (m n : Nat) : Int := if m > n then 1 else if m < n then -1 else 0

/-! ## Concrete inputs used by the examples -/

/-- A growable bigint record with the given digit array and used length, and no cache. -/
def exBig (ds : List Nat) (used : Nat) : FFBI :=
  { num_allocated_digits := ds.length, num_used_digits := used, digits := ds,
    reallocation_allowed := true, cache := none, cache_num_allocated_digits := 0,
    cache_num_used_digits := 0, cache_valid := false, cache_bits_per_digit := 0 }

/-- A heap holding the given records; fresh arrays are filled with the word `junk`. -/
def exHeap (xs : List FFBI) (junk : Nat) : Heap :=
  { obj := xs, scr := [], fresh := fun _ _ => junk, nalloc := 0, rand := fun _ => 0, nrand := 0 }

/-- A heap holding the given records and scratch arenas, with the given random sequence. -/
def exHeapR (xs : List FFBI) (ss : List FFBI_SCRATCH) (junk : Nat) (rnd : Nat → Nat) : Heap :=
  { obj := xs, scr := ss, fresh := fun _ _ => junk, nalloc := 0, rand := rnd, nrand := 0 }

/-- A growable bigint record whose cache is marked valid and holds `c` (`cused` digits of
`cbits` bits). -/
def exCached (ds : List Nat) (used : Nat) (c : List Nat) (cused cbits : Nat) : FFBI :=
  { num_allocated_digits := ds.length, num_used_digits := used, digits := ds,
    reallocation_allowed := true, cache := some c, cache_num_allocated_digits := c.length,
    cache_num_used_digits := cused, cache_valid := true, cache_bits_per_digit := cbits }

/-- The bit field of `v` that starts at bit `lo` and is `len` bits wide. -/
def bitsOf (v lo len : Nat) : Nat := (v / 2 ^ lo) % 2 ^ len

/-- The heap in which the bigint at `p` is the record `x` with digit array `ds`. -/
def Heap.withDigits (h : Heap) (p : Nat) (x : FFBI) (ds : List Nat) : Heap :=
  h.upd p { x with digits := ds }

/-- The heap in which the bigint at `p` is the record `x` with cache array `c`. -/
def Heap.withCache (h : Heap) (p : Nat) (x : FFBI) (c : List Nat) : Heap :=
  h.upd p { x with cache := some c }

/-- A bigint record as the library maintains it: canonical digits within the recorded capacity,
which does not exceed the allocated arrays. -/
def wellFormed (P : Platform) (x : FFBI) : Prop :=
  canonical P x ∧ x.num_used_digits ≤ x.num_allocated_digits ∧ validStorage x

/-- An operation has changed at most the bigints listed in `S` (and may have allocated new
ones). -/
def Heap.frame (S : List Nat) (h h' : Heap) : Prop :=
  h.obj.length ≤ h'.obj.length ∧ ∀ q, q < h.obj.length → q ∉ S → h'.get q = h.get q

/-- The number of products that the schoolbook loop of `ffbi_mul` has added into column `j`
when it is at row `k`, inner index `i` (`bl` is the length of the second operand). -/
def mulCount (bl k i j : Nat) : Nat :=
  (min k (j + 1) - (j + 1 - bl)) + (if k ≤ j ∧ j < k + i then 1 else 0)

/-- The record `y` has the digit array, length, capacity and growth flag of `x`: only cache
fields and `cache_valid` may differ. -/
def sameMain (x y : FFBI) : Prop :=
  y.digits = x.digits ∧ y.num_used_digits = x.num_used_digits ∧
    y.num_allocated_digits = x.num_allocated_digits ∧
    y.reallocation_allowed = x.reallocation_allowed

/-- The record `x` holds the cache array `c`, whose recorded capacity is at least `cap` and
does not exceed the array. -/
def cacheHolds (x : FFBI) (c : List Nat) (cap : Nat) : Prop :=
  x.cache = some c ∧ cap ≤ x.cache_num_allocated_digits ∧ x.cache_num_allocated_digits ≤ c.length

/-- The integer denoted by the `k` digits of `ds` that start at index `m`. -/
def digitsFrom (bits : Nat) (ds : List Nat) (m : Nat) : Nat → Nat
  | 0 => 0
  | k + 1 => digitsFrom bits ds m k + ds.getD (m + k) 0 * 2 ^ (bits * k)

/-- A bigint record as a scratch arena holds it: growable, with its length within the recorded
capacity and the capacity within the allocated arrays.  Its value is immaterial. -/
def scratchVal (x : FFBI) : Prop :=
  x.reallocation_allowed = true ∧ validStorage x ∧ x.num_used_digits ≤ x.num_allocated_digits

/-- The pointers `vals` of a scratch arena are distinct, differ from the pointers in `avoid`,
and point to records as described by `scratchVal`. -/
def arenaVals (h : Heap) (vals avoid : List Nat) : Prop :=
  vals.Nodup ∧ ∀ q, q ∈ vals → q ∉ avoid ∧ ∃ x, h.get q = some x ∧ scratchVal x

/-- The heaps `h` and `h'` hold the same bigints except possibly at `p`, and the same arenas. -/
def Heap.sameBut (p : Nat) (h h' : Heap) : Prop :=
  (∀ q, q ≠ p → h'.get q = h.get q) ∧ h'.obj.length = h.obj.length ∧ h'.scr = h.scr

/-- The flag array of `ffbi_get_sieve` when every prime below `k` has been processed: the flags
are 0 or 1, and the flag of `m >= 2` is 0 exactly when `m` is a proper multiple of a prime
below `k`. -/
def sieveInv (n k : Nat) (arr : List Nat) : Prop :=
  arr.length = n ∧ (∀ m, m < n → arr.getD m 0 = 0 ∨ arr.getD m 0 = 1) ∧
    ∀ m, 2 ≤ m → m < n → (arr.getD m 0 = 0 ↔ ∃ q, Nat.Prime q ∧ q < k ∧ q ∣ m ∧ q < m)

/-- The odd primes below `n`, in ascending order. -/
def oddPrimesBelow (n : Nat) : List Nat :=
  (List.range' 3 (n - 3)).filter (fun k => decide (Nat.Prime k))

/-- A bigint that can receive a result: growable, with at least one allocated digit and the
recorded capacities within the arrays. -/
def outputReady (x : FFBI) : Prop :=
  x.reallocation_allowed = true ∧ validStorage x ∧ 1 ≤ x.num_allocated_digits

/-- A bigint that serves as a work buffer of `n` digits: it has at least one allocated digit,
the recorded capacities are within the arrays, and it is growable unless `n` digits are
allocated. -/
def bufferOf (x : FFBI) (n : Nat) : Prop :=
  validStorage x ∧ 1 ≤ x.num_allocated_digits ∧
    (x.num_allocated_digits < n → x.reallocation_allowed = true)

/-- The records agree except for the cache array, its recorded capacity and its used length. -/
def sameButCache (x y : FFBI) : Prop :=
  sameMain x y ∧ y.cache_valid = x.cache_valid ∧ y.cache_bits_per_digit = x.cache_bits_per_digit

/-- The four bytes of a 32-bit value, most significant byte first: the form in which
`ffbit_write` stores a 32-bit field at a byte boundary. -/
def be32 (v : Nat) : List Nat := [v / 2 ^ 24 % 256, v / 2 ^ 16 % 256, v / 2 ^ 8 % 256, v % 256]

/-- The `n` low bytes of `v`, least significant byte first: the serialized form of a bigint of
value `v` whose serialized size is `n`. -/
def leBytes (v n : Nat) : List Nat := (List.range n).map fun i => v / 256 ^ i % 256

/-- The key record that `ffrsa_create_from_public_key` returns for the public key with
`e = 5` and `n = 7` in an empty heap: `n` is too short for the work values, which are `NULL`,
and the size limits are 0. -/
def exPublicKey : ffrsa_t :=
  { ffrsa_zero with
    e := some 0, n := some 1, scratch := some 0, padding_scratch := some [],
    padding_scratch2 := some [], padding_scratch3 := some [], padding_seed := some [],
    padding_mask := some [] }

/-- The heap that goes with `exPublicKey` on the platform `gnu128`, when fresh arrays are
filled with the word 7. -/
def exPublicKeyHeap : Heap :=
  { obj := [exBig [5, 7, 7] 1, exBig (List.replicate 34 7) 1],
    scr := [{ val := [], child := none, num_children := 0 }],
    fresh := fun _ _ => 7, nalloc := 2, rand := fun _ => 0, nrand := 0 }

/-- A heap for one step of the wide-digit long division with 16-bit cache digits: the
quotient (pointer 0), the running remainder `5 + 7 * 2^16` (pointer 1), the divisor
`3 + 2 * 2^16` (pointer 2), and the two work values `product` (3) and `scratch` (4). -/
def exQuotientHeap : Heap :=
  exHeap [exCached [0, 0, 0] 1 [0, 0, 0] 1 16, exCached [0, 0, 0] 1 [5, 7, 0] 2 16,
    exCached [0, 0, 0] 1 [3, 2] 2 16, exCached [0, 0, 0] 1 [0, 0, 0, 0] 1 16,
    exCached [0, 0, 0] 1 [0, 0, 0, 0] 1 16] 0

/-- From `h` to `h'` no bigint is removed, the scratch arenas are the same, and every bigint
selected by `S` keeps its digit array, length, capacity and growth flag. -/
def Heap.keeps (S : Nat → Prop) (h h' : Heap) : Prop :=
  h.obj.length ≤ h'.obj.length ∧ h'.scr = h.scr ∧
    ∀ q x, S q → h.get q = some x → ∃ x', h'.get q = some x' ∧ sameMain x x'

/-- From `h` to `h'` no bigint is removed and every bigint selected by `S` keeps its digit
array, length, capacity and growth flag; the scratch arenas may change. -/
def Heap.keepsMain (S : Nat → Prop) (h h' : Heap) : Prop :=
  h.obj.length ≤ h'.obj.length ∧
    ∀ q x, S q → h.get q = some x → ∃ x', h'.get q = some x' ∧ sameMain x x'

/-- The scratch arena `s` of `h`, if there is one, holds no bigint selected by `S`. -/
def arenaAvoids (S : Nat → Prop) (h : Heap) (s : Nat) : Prop :=
  ∀ sr : FFBI_SCRATCH, h.scr[s]? = some sr → ∀ v, v ∈ sr.val → ¬ S v

/-- The arena `sv` holds a sieve for the bound `n` as `ffbi_get_sieve(sieve, n)` builds it: its
values point to well-formed bigints, with a coherent cache where one is marked valid, and the
value of entry `i` is the odd prime number `i` below `n`, in ascending order. -/
def holdsSieve (P : Platform) (h : Heap) (sv n : Nat) : Prop :=
  ∃ ss, h.scr[sv]? = some ss ∧ ss.val.length = (oddPrimesBelow n).length ∧
    ∀ i, i < ss.val.length → ∃ x, h.get (ss.val.getD i 0) = some x ∧ wellFormed P x ∧
      cacheCoherent P x ∧ val P x = (oddPrimesBelow n).getD i 0

@[simp] theorem obind_some {α β : Type} (a : α) (f : α → Option β) : obind (some a) f = f a := rfl

@[simp] theorem obind_none {α β : Type} (f : α → Option β) : obind none f = none := rfl

theorem obind_eq_some {α β : Type} {x : Option α} {f : α → Option β} {b : β} :
    obind x f = some b ↔ ∃ a, x = some a ∧ f a = some b := by
  cases x with
  | none => simp
  | some a => simp

theorem rd_of_lt {arr : List Nat} {i : Nat} (hi : i < arr.length) :
    rd arr i = some (arr.getD i 0) := by
  unfold rd
  rw [List.getD_eq_getElem?_getD, List.getElem?_eq_getElem hi]
  rfl

theorem rd_eq_some {arr : List Nat} {i v : Nat} (h : rd arr i = some v) :
    i < arr.length ∧ arr.getD i 0 = v := by
  unfold rd at h
  have hi : i < arr.length := by
    by_contra hc
    rw [List.getElem?_eq_none (by omega)] at h
    cases h
  refine ⟨hi, ?_⟩
  rw [List.getD_eq_getElem?_getD, h]
  rfl

theorem wr_of_lt {arr : List Nat} {i : Nat} (v : Nat) (hi : i < arr.length) :
    wr arr i v = some (arr.set i v) := by
  unfold wr
  rw [if_pos hi]

theorem wr_eq_some {arr arr' : List Nat} {i v : Nat} (h : wr arr i v = some arr') :
    i < arr.length ∧ arr' = arr.set i v := by
  unfold wr at h
  by_cases hi : i < arr.length
  · rw [if_pos hi] at h
    exact ⟨hi, (Option.some.inj h).symm⟩
  · rw [if_neg hi] at h
    cases h

theorem getD_set (arr : List Nat) (i j v : Nat) :
    (arr.set i v).getD j 0 = if j = i ∧ i < arr.length then v else arr.getD j 0 := by
  simp only [List.getD_eq_getElem?_getD, List.getElem?_set]
  by_cases hji : j = i
  · subst hji
    by_cases hl : j < arr.length
    · simp [hl]
    · simp [hl]
      rw [List.getElem?_eq_none (by omega)]
      rfl
  · have : ¬ i = j := fun h => hji h.symm
    simp [hji, this]

theorem getD_set_same {arr : List Nat} {i : Nat} (v : Nat) (hi : i < arr.length) :
    (arr.set i v).getD i 0 = v := by
  rw [getD_set]; simp [hi]

theorem getD_set_ne (arr : List Nat) {i j : Nat} (v : Nat) (hne : j ≠ i) :
    (arr.set i v).getD j 0 = arr.getD j 0 := by
  rw [getD_set]; simp [hne]

theorem getD_of_ge {arr : List Nat} {i : Nat} (hi : arr.length ≤ i) : arr.getD i 0 = 0 := by
  rw [List.getD_eq_getElem?_getD, List.getElem?_eq_none hi]
  rfl

/-! ## Heap -/

theorem Heap.get_lt {h : Heap} {p : Nat} {x : FFBI} (hg : h.get p = some x) : p < h.obj.length := by
  unfold Heap.get at hg
  by_contra hc
  rw [List.getElem?_eq_none (by omega)] at hg
  cases hg

theorem Heap.put_of_get {h : Heap} {p : Nat} {x : FFBI} (y : FFBI) (hg : h.get p = some x) :
    h.put p y = some (h.upd p y) := by
  unfold Heap.put Heap.upd
  rw [if_pos (Heap.get_lt hg)]

theorem Heap.get_upd_same {h : Heap} {p : Nat} {x : FFBI} (y : FFBI) (hg : h.get p = some x) :
    (h.upd p y).get p = some y := by
  have hp := Heap.get_lt hg
  unfold Heap.get Heap.upd
  simp [List.getElem?_set, hp]

theorem Heap.get_upd_ne (h : Heap) {p q : Nat} (y : FFBI) (hne : q ≠ p) :
    (h.upd p y).get q = h.get q := by
  unfold Heap.get Heap.upd
  simp only [List.getElem?_set]
  rw [if_neg (fun he => hne he.symm)]

theorem Heap.get_upd {h : Heap} {p : Nat} {x : FFBI} (y : FFBI) (q : Nat) (hg : h.get p = some x) :
    (h.upd p y).get q = if q = p then some y else h.get q := by
  by_cases hq : q = p
  · subst hq
    rw [if_pos rfl, Heap.get_upd_same y hg]
  · rw [if_neg hq, Heap.get_upd_ne h y hq]

@[simp] theorem Heap.upd_obj_length (h : Heap) (p : Nat) (y : FFBI) :
    (h.upd p y).obj.length = h.obj.length := by
  unfold Heap.upd; simp

@[simp] theorem Heap.upd_scr (h : Heap) (p : Nat) (y : FFBI) : (h.upd p y).scr = h.scr := rfl

@[simp] theorem Heap.upd_fresh (h : Heap) (p : Nat) (y : FFBI) : (h.upd p y).fresh = h.fresh := rfl

@[simp] theorem Heap.upd_nalloc (h : Heap) (p : Nat) (y : FFBI) : (h.upd p y).nalloc = h.nalloc := rfl

theorem rdDigit_eq {h : Heap} {p i : Nat} {x : FFBI} (hg : h.get p = some x)
    (hi : i < x.digits.length) : rdDigit h p i = some (x.digits.getD i 0) := by
  unfold rdDigit
  rw [hg, obind_some, rd_of_lt hi]

theorem wrDigit_eq {h : Heap} {p i : Nat} {x : FFBI} (v : Nat) (hg : h.get p = some x)
    (hi : i < x.digits.length) :
    wrDigit h p i v = some (h.upd p { x with digits := x.digits.set i v }) := by
  unfold wrDigit
  rw [hg, obind_some, wr_of_lt v hi, obind_some, Heap.put_of_get _ hg]

theorem rdCache_eq {h : Heap} {p i : Nat} {x : FFBI} {c : List Nat} (hg : h.get p = some x)
    (hc : x.cache = some c) (hi : i < c.length) : rdCache h p i = some (c.getD i 0) := by
  unfold rdCache
  rw [hg, obind_some, hc, obind_some, rd_of_lt hi]

theorem wrCache_eq {h : Heap} {p i : Nat} {x : FFBI} {c : List Nat} (v : Nat)
    (hg : h.get p = some x) (hc : x.cache = some c) (hi : i < c.length) :
    wrCache h p i v = some (h.upd p { x with cache := some (c.set i v) }) := by
  unfold wrCache
  rw [hg, obind_some, hc, obind_some, wr_of_lt v hi, obind_some, Heap.put_of_get _ hg]

theorem modify_eq {h : Heap} {p : Nat} {x : FFBI} (f : FFBI → FFBI) (hg : h.get p = some x) :
    modify h p f = some (h.upd p (f x)) := by
  unfold modify
  rw [hg, obind_some, Heap.put_of_get _ hg]

/-! ## Loops -/

theorem forUp_inv {σ : Type} (body : Nat → σ → Option σ) (Inv : Nat → σ → Prop) :
    ∀ (n k : Nat) (s : σ), Inv k s →
      (∀ i t, k ≤ i → i < k + n → Inv i t → ∃ t', body i t = some t' ∧ Inv (i + 1) t') →
      ∃ s', forUp body n k s = some s' ∧ Inv (k + n) s' := by
  intro n
  induction n with
  | zero =>
    intro k s h0 _
    exact ⟨s, rfl, h0⟩
  | succ n ih =>
    intro k s h0 step
    obtain ⟨t, ht, hinv⟩ := step k s (Nat.le_refl k) (by omega) h0
    obtain ⟨s', hs', hfin⟩ := ih (k + 1) t hinv (fun i u hki hik hu => step i u (by omega) (by omega) hu)
    refine ⟨s', ?_, ?_⟩
    · show obind (body k s) (fun s' => forUp body n (k + 1) s') = some s'
      rw [ht, obind_some, hs']
    · have : k + (n + 1) = k + 1 + n := by omega
      rw [this]
      exact hfin

theorem forDown_inv {σ : Type} (body : Nat → σ → Option σ) (Inv : Nat → σ → Prop) :
    ∀ (n : Nat) (s : σ), Inv n s →
      (∀ i t, i < n → Inv (i + 1) t → ∃ t', body i t = some t' ∧ Inv i t') →
      ∃ s', forDown body n s = some s' ∧ Inv 0 s' := by
  intro n
  induction n with
  | zero =>
    intro s h0 _
    exact ⟨s, rfl, h0⟩
  | succ n ih =>
    intro s h0 step
    obtain ⟨t, ht, hinv⟩ := step n s (by omega) h0
    obtain ⟨s', hs', hfin⟩ := ih t hinv (fun i u hi hu => step i u (by omega) hu)
    refine ⟨s', ?_, hfin⟩
    show obind (body n s) (fun s' => forDown body n s') = some s'
    rw [ht, obind_some, hs']

theorem whileLoop_inv {σ : Type} (cond : σ → Option Bool) (body : σ → Option σ)
    (Inv : σ → Prop) (μ : σ → Nat) :
    ∀ (fuel : Nat) (s : σ), Inv s → μ s < fuel →
      (∀ t, Inv t → ∃ c, cond t = some c) →
      (∀ t, Inv t → cond t = some true → ∃ t', body t = some t' ∧ Inv t' ∧ μ t' < μ t) →
      ∃ s', whileLoop cond body fuel s = some s' ∧ Inv s' ∧ cond s' = some false := by
  intro fuel
  induction fuel with
  | zero =>
    intro s _ hlt _ _
    omega
  | succ fuel ih =>
    intro s h0 hlt hc step
    obtain ⟨c, hcs⟩ := hc s h0
    cases c with
    | false =>
      refine ⟨s, ?_, h0, hcs⟩
      show obind (cond s) _ = some s
      rw [hcs, obind_some]
      rfl
    | true =>
      obtain ⟨t, ht, hinv, hμ⟩ := step s h0 hcs
      obtain ⟨s', hs', hfin⟩ := ih t hinv (by omega) hc step
      refine ⟨s', ?_, hfin⟩
      show obind (cond s) _ = some s'
      rw [hcs, obind_some]
      show obind (body s) _ = some s'
      rw [ht, obind_some, hs']


/-! # Digit arrays as integers -/

theorem digitsVal_succ (bits : Nat) (ds : List Nat) (n : Nat) :
    digitsVal bits ds (n + 1) = digitsVal bits ds n + ds.getD n 0 * 2 ^ (bits * n) := rfl

theorem digitsVal_congr (bits : Nat) (ds ds' : List Nat) :
    ∀ n, (∀ i, i < n → ds.getD i 0 = ds'.getD i 0) → digitsVal bits ds n = digitsVal bits ds' n := by
  intro n
  induction n with
  | zero => intro _; rfl
  | succ n ih =>
    intro h
    rw [digitsVal_succ, digitsVal_succ, ih (fun i hi => h i (by omega)), h n (by omega)]

theorem digitsVal_set_ge (bits : Nat) (ds : List Nat) (i v n : Nat) (h : n ≤ i) :
    digitsVal bits (ds.set i v) n = digitsVal bits ds n :=
  digitsVal_congr bits _ _ n (fun j hj => getD_set_ne ds v (by omega))

theorem digitsVal_lt (bits : Nat) (ds : List Nat) :
    ∀ n, (∀ i, i < n → ds.getD i 0 < 2 ^ bits) → digitsVal bits ds n < 2 ^ (bits * n) := by
  intro n
  induction n with
  | zero => intro _; simp [digitsVal]
  | succ n ih =>
    intro h
    have h1 := ih (fun i hi => h i (by omega))
    have h2 := h n (by omega)
    rw [digitsVal_succ]
    have h3 : ds.getD n 0 * 2 ^ (bits * n) ≤ (2 ^ bits - 1) * 2 ^ (bits * n) :=
      Nat.mul_le_mul_right _ (by omega)
    have h4 : 2 ^ (bits * (n + 1)) = 2 ^ bits * 2 ^ (bits * n) := by
      rw [← Nat.pow_add]; congr 1; ring
    have h5 : (2 ^ bits - 1) * 2 ^ (bits * n) + 2 ^ (bits * n) = 2 ^ bits * 2 ^ (bits * n) := by
      have : 1 ≤ 2 ^ bits := Nat.one_le_two_pow
      calc (2 ^ bits - 1) * 2 ^ (bits * n) + 2 ^ (bits * n)
          = (2 ^ bits - 1 + 1) * 2 ^ (bits * n) := by ring
        _ = 2 ^ bits * 2 ^ (bits * n) := by rw [Nat.sub_add_cancel this]
    omega

theorem digitsVal_ge_top (bits : Nat) (ds : List Nat) (n : Nat) :
    ds.getD n 0 * 2 ^ (bits * n) ≤ digitsVal bits ds (n + 1) := by
  rw [digitsVal_succ]; omega

theorem digitsVal_pos_of_top (bits : Nat) (ds : List Nat) (n : Nat) (h : ds.getD n 0 ≠ 0) :
    2 ^ (bits * n) ≤ digitsVal bits ds (n + 1) := by
  have h1 := digitsVal_ge_top bits ds n
  have h2 : 1 * 2 ^ (bits * n) ≤ ds.getD n 0 * 2 ^ (bits * n) :=
    Nat.mul_le_mul_right _ (by omega)
  omega

theorem pow_bits_mono (bits : Nat) {m n : Nat} (h : m ≤ n) : 2 ^ (bits * m) ≤ 2 ^ (bits * n) :=
  Nat.pow_le_pow_right (by decide) (Nat.mul_le_mul_left _ h)

/-- A canonical array with more digits denotes a larger integer. -/
theorem canonical_lt_of_length_lt (bits : Nat) (a b : List Nat) (an bn : Nat)
    (ca : canonicalDigits bits a an) (cb : canonicalDigits bits b bn) (h : an < bn) :
    digitsVal bits a an < digitsVal bits b bn := by
  obtain ⟨_, _, ha, _⟩ := ca
  obtain ⟨hb1, _, _, hbt⟩ := cb
  have h1 := digitsVal_lt bits a an ha
  have hbn : bn = (bn - 1) + 1 := by omega
  have h2 : 2 ^ (bits * (bn - 1)) ≤ digitsVal bits b bn := by
    rcases hbt with h1 | h1
    · omega
    · rw [hbn]; exact digitsVal_pos_of_top bits b (bn - 1) (by simpa using h1)
  have h3 := pow_bits_mono bits (show an ≤ bn - 1 by omega)
  omega

theorem cmp_loop_spec (bits : Nat) (a b : List Nat) :
    ∀ n, n ≤ a.length → n ≤ b.length →
      (∀ i, i < n → a.getD i 0 < 2 ^ bits) → (∀ i, i < n → b.getD i 0 < 2 ^ bits) →
      cmp_loop a b n = some (cmpVal (digitsVal bits a n) (digitsVal bits b n)) := by
  intro n
  induction n with
  | zero => intro _ _ _ _; rfl
  | succ n ih =>
    intro hla hlb ha hb
    have iha := ih (by omega) (by omega) (fun i hi => ha i (by omega)) (fun i hi => hb i (by omega))
    have h1 := digitsVal_lt bits a n (fun i hi => ha i (by omega))
    have h2 := digitsVal_lt bits b n (fun i hi => hb i (by omega))
    show obind (rd a n) _ = _
    rw [rd_of_lt (by omega), obind_some, rd_of_lt (by omega), obind_some]
    rw [digitsVal_succ, digitsVal_succ]
    generalize a.getD n 0 = x at *
    generalize b.getD n 0 = y at *
    generalize digitsVal bits a n = va at *
    generalize digitsVal bits b n = vb at *
    generalize 2 ^ (bits * n) = B at *
    by_cases hxy : x > y
    · rw [if_pos hxy]
      have : (y + 1) * B ≤ x * B := Nat.mul_le_mul_right _ hxy
      have h3 : (y + 1) * B = y * B + B := by ring
      unfold cmpVal
      rw [if_pos (by omega)]
    · rw [if_neg hxy]
      by_cases hyx : x < y
      · rw [if_pos hyx]
        have : (x + 1) * B ≤ y * B := Nat.mul_le_mul_right _ hyx
        have h3 : (x + 1) * B = x * B + B := by ring
        unfold cmpVal
        rw [if_neg (by omega), if_pos (by omega)]
      · rw [if_neg hyx, iha]
        have hxe : x = y := by omega
        subst hxe
        unfold cmpVal
        simp only [gt_iff_lt, Nat.add_lt_add_iff_right]

theorem cmp_arrays_spec (bits : Nat) (a b : List Nat) (an bn : Nat)
    (ca : canonicalDigits bits a an) (cb : canonicalDigits bits b bn) :
    cmp_arrays a an b bn = some (cmpVal (digitsVal bits a an) (digitsVal bits b bn)) := by
  unfold cmp_arrays
  by_cases h1 : an > bn
  · rw [if_pos h1]
    have := canonical_lt_of_length_lt bits b a bn an cb ca h1
    unfold cmpVal
    rw [if_pos this]
  · rw [if_neg h1]
    by_cases h2 : an < bn
    · rw [if_pos h2]
      have := canonical_lt_of_length_lt bits a b an bn ca cb h2
      unfold cmpVal
      rw [if_neg (by omega), if_pos this]
    · rw [if_neg h2]
      have he : an = bn := by omega
      subst he
      exact cmp_loop_spec bits a b an ca.2.1 cb.2.1 ca.2.2.1 cb.2.2.1

theorem ffbi_cmp_spec (P : Platform) {h : Heap} {a b : Nat} {x y : FFBI}
    (ha : h.get a = some x) (hb : h.get b = some y) (cx : canonical P x) (cy : canonical P y) :
    ffbi_cmp h a b = some (cmpVal (val P x) (val P y)) := by
  unfold ffbi_cmp
  rw [ha, obind_some, hb, obind_some]
  exact cmp_arrays_spec _ _ _ _ _ cx cy

/-- C7: for canonical bigints `a` and `b`, `ffbi_cmp(a, b)` returns 1 if `val a > val b`, 0 if
`val a = val b` and -1 if `val a < val b`; the function performs no store, so its embedding has
no heap result and both operands are left as they were. -/
theorem ffbi_cmp_correct (P : Platform) (h : Heap) (a b : Nat) (x y : FFBI)
    (ha : h.get a = some x) (hb : h.get b = some y) (cx : canonical P x) (cy : canonical P y) :
    (val P x > val P y → ffbi_cmp h a b = some 1) ∧
    (val P x = val P y → ffbi_cmp h a b = some 0) ∧
    (val P x < val P y → ffbi_cmp h a b = some (-1)) := by
  rw [ffbi_cmp_spec P ha hb cx cy]
  unfold cmpVal
  refine ⟨fun hgt => ?_, fun heq => ?_, fun hlt => ?_⟩
  · rw [if_pos hgt]
  · rw [if_neg (by omega), if_neg (by omega)]
  · rw [if_neg (by omega), if_pos hlt]

/-- Witness for C7: comparing 5 with 2^61 + 7 on the 61-bit configuration. -/
theorem ffbi_cmp_correct_witness :
    (canonical .gnu128 (exBig [5, 0, 0] 1) ∧ canonical .gnu128 (exBig [7, 1, 0] 2)) ∧
    ffbi_cmp (exHeap [exBig [5, 0, 0] 1, exBig [7, 1, 0] 2] 0) 0 1 = some (-1) :=
  ⟨⟨by decide, by decide⟩,
   (ffbi_cmp_correct .gnu128 (exHeap [exBig [5, 0, 0] 1, exBig [7, 1, 0] 2] 0) 0 1
      (exBig [5, 0, 0] 1) (exBig [7, 1, 0] 2) rfl rfl (by decide) (by decide)).2.2 (by decide)⟩


/-! # Bit fields -/

theorem bitsOf_lt (v lo len : Nat) : bitsOf v lo len < 2 ^ len :=
  Nat.mod_lt _ (Nat.two_pow_pos len)

theorem bitsOf_split (v lo m n : Nat) :
    bitsOf v lo (m + n) = bitsOf v lo m + bitsOf v (lo + m) n * 2 ^ m := by
  unfold bitsOf
  rw [Nat.pow_add, Nat.mod_mul, Nat.div_div_eq_div_mul, ← Nat.pow_add, Nat.mul_comm (2 ^ m)]

theorem bitsOf_div (v lo len k : Nat) (hk : k ≤ len) :
    bitsOf v lo len / 2 ^ k = bitsOf v (lo + k) (len - k) := by
  unfold bitsOf
  have h : 2 ^ len = 2 ^ k * 2 ^ (len - k) := by
    rw [← Nat.pow_add]; congr 1; omega
  rw [h, Nat.mod_mul_right_div_self, Nat.div_div_eq_div_mul, ← Nat.pow_add]

theorem bitsOf_eq_div (v lo len : Nat) (h : v < 2 ^ (lo + len)) : bitsOf v lo len = v / 2 ^ lo := by
  unfold bitsOf
  apply Nat.mod_eq_of_lt
  rw [Nat.div_lt_iff_lt_mul (Nat.two_pow_pos lo), ← Nat.pow_add, Nat.add_comm]
  exact h

theorem bitsOf_mod (v lo len len' : Nat) (h : len' ≤ len) :
    bitsOf v lo len % 2 ^ len' = bitsOf v lo len' := by
  unfold bitsOf
  exact Nat.mod_mod_of_dvd _ (Nat.pow_dvd_pow 2 h)

theorem bitsOf_zero_len (v lo : Nat) : bitsOf v lo 0 = 0 := by
  unfold bitsOf; simp [Nat.mod_one]

theorem digitsVal_mod (bits : Nat) (ds : List Nat) :
    ∀ n m, m ≤ n → (∀ i, i < n → ds.getD i 0 < 2 ^ bits) →
      digitsVal bits ds n % 2 ^ (bits * m) = digitsVal bits ds m := by
  intro n
  induction n with
  | zero =>
    intro m hm _
    have : m = 0 := by omega
    subst this
    simp [digitsVal]
  | succ n ih =>
    intro m hm hd
    by_cases hmn : m = n + 1
    · subst hmn
      exact Nat.mod_eq_of_lt (digitsVal_lt bits ds (n + 1) hd)
    · have hm' : m ≤ n := by omega
      rw [digitsVal_succ]
      have h1 : 2 ^ (bits * n) = 2 ^ (bits * m) * 2 ^ (bits * (n - m)) := by
        rw [← Nat.pow_add]; congr 1
        rw [← Nat.mul_add]; congr 1; omega
      rw [h1, ← Nat.mul_assoc, Nat.mul_comm (ds.getD n 0), Nat.mul_assoc, Nat.add_mul_mod_self_left]
      exact ih m hm' (fun i hi => hd i (by omega))

theorem digitsVal_div (bits : Nat) (ds : List Nat) (n j : Nat) (hj : j < n)
    (hd : ∀ i, i < n → ds.getD i 0 < 2 ^ bits) :
    bitsOf (digitsVal bits ds n) (bits * j) bits = ds.getD j 0 := by
  have h1 := digitsVal_mod bits ds n (j + 1) (by omega) hd
  have h2 := digitsVal_lt bits ds j (fun i hi => hd i (by omega))
  unfold bitsOf
  have h3 : digitsVal bits ds n / 2 ^ (bits * j) % 2 ^ bits
      = digitsVal bits ds n % (2 ^ (bits * j) * 2 ^ bits) / 2 ^ (bits * j) :=
    (Nat.mod_mul_right_div_self _ _ _).symm
  have h4 : 2 ^ (bits * j) * 2 ^ bits = 2 ^ (bits * (j + 1)) := by
    rw [← Nat.pow_add]; congr 1
  rw [h3, h4, h1, digitsVal_succ, Nat.add_mul_div_right _ _ (Nat.two_pow_pos _),
    Nat.div_eq_of_lt h2, Nat.zero_add]

theorem digitsVal_of_bits (bits v : Nat) (ds : List Nat) :
    ∀ n, (∀ i, i < n → ds.getD i 0 = bitsOf v (bits * i) bits) →
      digitsVal bits ds n = v % 2 ^ (bits * n) := by
  intro n
  induction n with
  | zero => intro _; simp [digitsVal, Nat.mod_one]
  | succ n ih =>
    intro h
    rw [digitsVal_succ, ih (fun i hi => h i (by omega)), h n (by omega)]
    have h1 : bits * (n + 1) = bits * n + bits := by ring
    have h2 := bitsOf_split v 0 (bits * n) bits
    unfold bitsOf at h2 ⊢
    simp only [Nat.pow_zero, Nat.div_one, Nat.zero_add] at h2
    rw [h1, h2]

theorem land_digit_max (w bits x : Nat) (hb : bits ≤ w) :
    x &&& (wsub w (wshl w 1 bits) 1) = x % 2 ^ bits := by
  have hw : 0 < 2 ^ w := Nat.two_pow_pos w
  have h1 : wsub w (wshl w 1 bits) 1 = 2 ^ bits - 1 := by
    unfold wsub wshl
    rw [Nat.shiftLeft_eq, Nat.one_mul]
    by_cases hlt : bits < w
    · have h2 : 2 ^ bits < 2 ^ w := Nat.pow_lt_pow_right (by decide) hlt
      have h3 : 1 ≤ 2 ^ bits := Nat.one_le_two_pow
      by_cases hw1 : w = 0
      · omega
      · have h4 : (1 : Nat) < 2 ^ w := Nat.one_lt_two_pow hw1
        rw [Nat.mod_eq_of_lt h2, Nat.mod_eq_of_lt h2, Nat.mod_eq_of_lt h4]
        have : 2 ^ bits + (2 ^ w - 1) = (2 ^ bits - 1) + 2 ^ w := by omega
        rw [this, Nat.add_mod_right, Nat.mod_eq_of_lt (by omega)]
    · have he : bits = w := by omega
      subst he
      rw [Nat.mod_self, Nat.zero_mod, Nat.zero_add]
      by_cases hw1 : bits = 0
      · subst hw1; simp
      · have h4 : (1 : Nat) < 2 ^ bits := Nat.one_lt_two_pow hw1
        rw [Nat.mod_eq_of_lt h4, Nat.mod_eq_of_lt (by omega)]
  rw [h1, Nat.and_pow_two_sub_one_eq_mod]

theorem lor_eq_add (a y k : Nat) (ha : a < 2 ^ k) : a ||| (y * 2 ^ k) = a + y * 2 ^ k := by
  rw [Nat.or_comm, Nat.mul_comm, ← Nat.mul_add_lt_is_or ha, Nat.add_comm]

theorem bitsOf_mod_min (v lo len len' : Nat) :
    bitsOf v lo len % 2 ^ len' = bitsOf v lo (min len len') := by
  by_cases h : len' ≤ len
  · rw [Nat.min_eq_right h]; exact bitsOf_mod v lo len len' h
  · have h1 : len ≤ len' := by omega
    rw [Nat.min_eq_left h1]
    exact Nat.mod_eq_of_lt (Nat.lt_of_lt_of_le (bitsOf_lt v lo len) (Nat.pow_le_pow_right (by decide) h1))

theorem bitsOf_eq_div_of_le (v lo len m : Nat) (h : v < 2 ^ (lo + len)) (hm : len ≤ m) :
    bitsOf v lo m = v / 2 ^ lo :=
  bitsOf_eq_div v lo m
    (Nat.lt_of_lt_of_le h (Nat.pow_le_pow_right (by decide) (by omega)))

/-! # Arrays: `memset` and `memcpy` -/

theorem memset0_spec {dst : List Nat} {n : Nat} (h : n ≤ dst.length) :
    ∃ dst', memset0 dst n = some dst' ∧ dst'.length = dst.length ∧
      ∀ j, dst'.getD j 0 = if j < n then 0 else dst.getD j 0 := by
  refine ⟨List.replicate n 0 ++ dst.drop n, ?_, ?_, ?_⟩
  · unfold memset0; rw [if_pos h]
  · simp; omega
  · intro j
    simp only [List.getD_eq_getElem?_getD]
    by_cases hj : j < n
    · rw [if_pos hj, List.getElem?_append_left (by simpa using hj)]
      simp [hj]
    · rw [if_neg hj, List.getElem?_append_right (by simp; omega)]
      simp only [List.length_replicate, List.getElem?_drop]
      congr 2
      omega

theorem memcpy_spec {dst src : List Nat} {n : Nat} (hs : n ≤ src.length) (hd : n ≤ dst.length) :
    ∃ dst', memcpy dst src n = some dst' ∧ dst'.length = dst.length ∧
      ∀ j, dst'.getD j 0 = if j < n then src.getD j 0 else dst.getD j 0 := by
  refine ⟨src.take n ++ dst.drop n, ?_, ?_, ?_⟩
  · unfold memcpy; rw [if_pos ⟨hs, hd⟩]
  · simp; omega
  · intro j
    simp only [List.getD_eq_getElem?_getD]
    by_cases hj : j < n
    · rw [if_pos hj, List.getElem?_append_left (by simp; omega)]
      simp [List.getElem?_take, hj]
    · rw [if_neg hj, List.getElem?_append_right (by simp; omega)]
      simp only [List.length_take, List.getElem?_drop]
      congr 2
      omega

/-! # Base conversion -/

theorem convert_pull_spec (dstW : Nat) (ctx : ffbi_base_convert_t) (src : List Nat)
    (i L T V : Nat) (t : ConvState)
    (hR : ctx.dst_bits_per_digit ≤ dstW) (hL : L ≤ ctx.dst_bits_per_digit)
    (hsrc : ∀ j, ctx.src_bits_per_digit * j < T →
      j < src.length ∧ src.getD j 0 = bitsOf V (ctx.src_bits_per_digit * j) ctx.src_bits_per_digit)
    (hcase : L = ctx.dst_bits_per_digit ∨ V < 2 ^ (ctx.dst_bits_per_digit * i + L))
    (hpos : ctx.dst_bits_per_digit * i + L ≤ T)
    (hi : i < t.dst.length)
    (h1 : t.src_bit_idx < ctx.src_bits_per_digit)
    (h2 : ctx.src_bits_per_digit * t.src_digit_idx + t.src_bit_idx
      = ctx.dst_bits_per_digit * i + t.dest_bit_idx)
    (h3 : t.dest_bit_idx < L)
    (h4 : t.dst.getD i 0 = bitsOf V (ctx.dst_bits_per_digit * i) t.dest_bit_idx) :
    ∃ t', convert_pull dstW ctx src i L (wsub dstW (wshl dstW 1 ctx.dst_bits_per_digit) 1) t = some t' ∧
      t'.src_bit_idx < ctx.src_bits_per_digit ∧
      ctx.src_bits_per_digit * t'.src_digit_idx + t'.src_bit_idx
        = ctx.dst_bits_per_digit * i + t'.dest_bit_idx ∧
      t.dest_bit_idx < t'.dest_bit_idx ∧ t'.dest_bit_idx ≤ L ∧
      t'.dst = t.dst.set i (bitsOf V (ctx.dst_bits_per_digit * i) t'.dest_bit_idx) := by
  obtain ⟨dst, sbi, sdi, dbi⟩ := t
  simp only at hi h1 h2 h3 h4 ⊢
  generalize hRdef : ctx.dst_bits_per_digit = R at *
  generalize hSdef : ctx.src_bits_per_digit = S at *
  have hSj : S * sdi < T := by omega
  obtain ⟨hsl, hsv⟩ := hsrc sdi hSj
  -- the bits still available in the current source digit
  have hX : src.getD sdi 0 >>> sbi = bitsOf V (R * i + dbi) (S - sbi) := by
    rw [Nat.shiftRight_eq_div_pow, hsv, bitsOf_div _ _ _ _ (by omega), h2]
  unfold convert_pull
  simp only [hSdef]
  rw [rd_of_lt hsl, obind_some, rd_of_lt hi, obind_some, hX, h4]
  by_cases hb : L - dbi ≥ S - sbi
  · -- the whole rest of the source digit fits
    rw [if_pos hb, wr_of_lt _ hi, obind_some]
    have hx1 : bitsOf V (R * i + dbi) (S - sbi) < 2 ^ (S - sbi) := bitsOf_lt _ _ _
    have hx2 : bitsOf V (R * i + dbi) (S - sbi) < 2 ^ dstW :=
      Nat.lt_of_lt_of_le hx1 (Nat.pow_le_pow_right (by decide) (by omega))
    have hx3 : bitsOf V (R * i + dbi) (S - sbi) * 2 ^ dbi < 2 ^ dstW := by
      have h5 : 2 ^ (S - sbi) * 2 ^ dbi ≤ 2 ^ dstW := by
        rw [← Nat.pow_add]; exact Nat.pow_le_pow_right (by decide) (by omega)
      have h6 : bitsOf V (R * i + dbi) (S - sbi) * 2 ^ dbi < 2 ^ (S - sbi) * 2 ^ dbi :=
        Nat.mul_lt_mul_of_pos_right hx1 (Nat.two_pow_pos _)
      omega
    have hms : S * (sdi + 1) = S * sdi + S := Nat.mul_succ S sdi
    refine ⟨_, rfl, by dsimp only; omega, by dsimp only; omega, by dsimp only; omega,
      by dsimp only; omega, ?_⟩
    dsimp only
    congr 1
    unfold wshl
    rw [Nat.mod_eq_of_lt hx2, Nat.shiftLeft_eq, Nat.mod_eq_of_lt hx3,
      lor_eq_add _ _ _ (bitsOf_lt _ _ _), ← bitsOf_split]
  · -- only part of the source digit is needed
    rw [if_neg hb, wr_of_lt _ hi, obind_some]
    refine ⟨_, rfl, by dsimp only; omega, by dsimp only; omega, by dsimp only; omega,
      by dsimp only; omega, ?_⟩
    dsimp only
    congr 1
    rw [land_digit_max dstW R _ hR]
    have hd : dbi + (L - dbi) = L := by omega
    rw [hd]
    unfold wshl
    rw [Nat.shiftLeft_eq]
    have he : 2 ^ dstW = 2 ^ dbi * 2 ^ (dstW - dbi) := by
      rw [← Nat.pow_add]; congr 1; omega
    have h7 : bitsOf V (R * i + dbi) (S - sbi) % 2 ^ dstW * 2 ^ dbi % 2 ^ dstW
        = bitsOf V (R * i + dbi) (min (S - sbi) (dstW - dbi)) * 2 ^ dbi := by
      rw [Nat.mul_comm _ (2 ^ dbi)]
      conv_lhs => rw [he]
      rw [Nat.mul_mod_mul_left, ← he, Nat.mod_mod_of_dvd _ (Nat.pow_dvd_pow 2 (Nat.sub_le _ _)),
        bitsOf_mod_min, Nat.mul_comm]
    rw [h7, lor_eq_add _ _ _ (bitsOf_lt _ _ _), ← bitsOf_split, bitsOf_mod_min]
    rcases hcase with hc | hc
    · have : min (dbi + min (S - sbi) (dstW - dbi)) R = L := by
        rw [hc]; omega
      rw [this]
    · rw [bitsOf_eq_div_of_le V (R * i) L _ hc (by omega), bitsOf_eq_div V (R * i) L hc]

theorem convert_digit_spec (dstW : Nat) (ctx : ffbi_base_convert_t) (src : List Nat)
    (i L T V : Nat) (s : ConvState)
    (hR : ctx.dst_bits_per_digit ≤ dstW) (hL : L ≤ ctx.dst_bits_per_digit)
    (hsrc : ∀ j, ctx.src_bits_per_digit * j < T →
      j < src.length ∧ src.getD j 0 = bitsOf V (ctx.src_bits_per_digit * j) ctx.src_bits_per_digit)
    (hcase : L = ctx.dst_bits_per_digit ∨ V < 2 ^ (ctx.dst_bits_per_digit * i + L))
    (hpos : ctx.dst_bits_per_digit * i + L ≤ T)
    (hi : i < s.dst.length)
    (h1 : s.src_bit_idx < ctx.src_bits_per_digit)
    (h2 : ctx.src_bits_per_digit * s.src_digit_idx + s.src_bit_idx = ctx.dst_bits_per_digit * i)
    (h4 : s.dst.getD i 0 = 0) :
    ∃ s', convert_digit dstW ctx src L (wsub dstW (wshl dstW 1 ctx.dst_bits_per_digit) 1) i s = some s' ∧
      s'.src_bit_idx < ctx.src_bits_per_digit ∧
      ctx.src_bits_per_digit * s'.src_digit_idx + s'.src_bit_idx = ctx.dst_bits_per_digit * i + L ∧
      s'.dst.length = s.dst.length ∧
      ∀ j, s'.dst.getD j 0 =
        if j = i then bitsOf V (ctx.dst_bits_per_digit * i) L else s.dst.getD j 0 := by
  unfold convert_digit
  have key := whileLoop_inv (fun t : ConvState => some (decide (t.dest_bit_idx < L)))
    (convert_pull dstW ctx src i L (wsub dstW (wshl dstW 1 ctx.dst_bits_per_digit) 1))
    (fun t => t.src_bit_idx < ctx.src_bits_per_digit ∧
      ctx.src_bits_per_digit * t.src_digit_idx + t.src_bit_idx
        = ctx.dst_bits_per_digit * i + t.dest_bit_idx ∧
      t.dest_bit_idx ≤ L ∧ t.dst.length = s.dst.length ∧
      ∀ j, t.dst.getD j 0 =
        if j = i then bitsOf V (ctx.dst_bits_per_digit * i) t.dest_bit_idx else s.dst.getD j 0)
    (fun t => L - t.dest_bit_idx) (L + 1) { s with dest_bit_idx := 0 }
    (by
      refine ⟨h1, by dsimp only; omega, Nat.zero_le _, rfl, ?_⟩
      intro j
      dsimp only
      by_cases hj : j = i
      · rw [if_pos hj, hj, h4, bitsOf_zero_len]
      · rw [if_neg hj])
    (by dsimp only; omega)
    (fun t _ => ⟨_, rfl⟩)
    (by
      intro t ⟨i1, i2, i3, i4, i5⟩ hc
      have hlt : t.dest_bit_idx < L := by simpa using hc
      have h5 := i5 i
      rw [if_pos rfl] at h5
      obtain ⟨t', e1, e2, e3, e4, e5, e6⟩ := convert_pull_spec dstW ctx src i L T V t hR hL hsrc hcase
        hpos (by omega) i1 i2 hlt h5
      refine ⟨t', e1, ⟨e2, e3, e5, ?_, ?_⟩, by dsimp only; omega⟩
      · rw [e6, List.length_set, i4]
      · intro j
        rw [e6, getD_set]
        by_cases hj : j = i
        · rw [if_pos ⟨hj, by omega⟩, if_pos hj]
        · rw [if_neg (fun h => hj h.1), if_neg hj, i5 j, if_neg hj])
  obtain ⟨s', hs', ⟨i1, i2, i3, i4, i5⟩, hc⟩ := key
  have hge : ¬ s'.dest_bit_idx < L := by simpa using hc
  have heq : s'.dest_bit_idx = L := by omega
  rw [heq] at i2 i5
  exact ⟨s', hs', i1, i2, i4, i5⟩

theorem base_convert_exec_spec (dstW R S T V : Nat) (dst src : List Nat) (ctx : ffbi_base_convert_t)
    (hctx : ffbi_base_convert_create R S T = some ctx) (hR : R ≤ dstW) (hV : V < 2 ^ T)
    (hsrc : ∀ j, S * j < T → j < src.length ∧ src.getD j 0 = bitsOf V (S * j) S)
    (hlen : ctx.dst_num_digits ≤ dst.length) :
    ∃ dst', ffbi_base_convert_exec dstW ctx dst src = some dst' ∧ dst'.length = dst.length ∧
      (∀ j, dst'.getD j 0 = if j < ctx.dst_num_digits then bitsOf V (R * j) R else dst.getD j 0) := by
  unfold ffbi_base_convert_create at hctx
  by_cases h0 : R = 0 ∨ S = 0
  · rw [if_pos h0] at hctx; cases hctx
  rw [if_neg h0] at hctx
  have hR0 : 0 < R := by omega
  have hS0 : 0 < S := by omega
  have hc := (Option.some.inj hctx).symm
  have c1 : ctx.dst_bits_per_digit = R := by rw [hc]
  have c2 : ctx.src_bits_per_digit = S := by rw [hc]
  have c3 : ctx.dst_num_full_digits = T / R := by rw [hc]
  have c4 : ctx.dst_remaining_bits = T % R := by rw [hc]
  have c5 : ctx.dst_num_digits = T / R + (if T % R > 0 then 1 else 0) := by rw [hc]
  clear hc hctx
  have hdm := Nat.div_add_mod T R
  obtain ⟨dst1, hm, hl1, hg1⟩ := memset0_spec hlen
  unfold ffbi_base_convert_exec
  rw [hm, obind_some]
  dsimp only
  -- the loop over the full destination digits
  have hsrc' : ∀ j, ctx.src_bits_per_digit * j < T →
      j < src.length ∧ src.getD j 0 = bitsOf V (ctx.src_bits_per_digit * j) ctx.src_bits_per_digit := by
    rw [c2]; exact hsrc
  have loop := forUp_inv
    (convert_digit dstW ctx src ctx.dst_bits_per_digit
      (wsub dstW (wshl dstW 1 ctx.dst_bits_per_digit) 1))
    (fun k (s : ConvState) => s.src_bit_idx < S ∧ S * s.src_digit_idx + s.src_bit_idx = R * k ∧
      s.dst.length = dst.length ∧
      ∀ j, s.dst.getD j 0 = if j < k then bitsOf V (R * j) R else dst1.getD j 0)
    ctx.dst_num_full_digits 0
    { dst := dst1, src_bit_idx := 0, src_digit_idx := 0, dest_bit_idx := 0 }
    ⟨hS0, by simp, hl1, fun j => by simp⟩
    (by
      intro i t _ hi ⟨i1, i2, i3, i4⟩
      rw [c3, Nat.zero_add] at hi
      have hRi : R * (i + 1) ≤ R * (T / R) := Nat.mul_le_mul_left _ hi
      have hRi' : R * (i + 1) = R * i + R := Nat.mul_succ R i
      have hin : i < ctx.dst_num_digits := by rw [c5]; omega
      have h4 := i4 i
      rw [if_neg (Nat.lt_irrefl i), hg1 i, if_pos hin] at h4
      obtain ⟨t', e1, e2, e3, e4, e5⟩ := convert_digit_spec dstW ctx src i ctx.dst_bits_per_digit T V t
        (by rw [c1]; exact hR) (Nat.le_refl _) hsrc' (Or.inl rfl) (by rw [c1]; omega) (by omega)
        (by rw [c2]; exact i1) (by rw [c1, c2]; exact i2) h4
      simp only [c1, c2] at e2 e3 e5
      refine ⟨t', e1, e2, by rw [e3, hRi'], by rw [e4, i3], ?_⟩
      intro j
      rw [e5 j]
      by_cases hj : j = i
      · rw [if_pos hj, if_pos (by omega), hj]
      · rw [if_neg hj, i4 j]
        by_cases hj2 : j < i
        · rw [if_pos hj2, if_pos (by omega)]
        · rw [if_neg hj2, if_neg (by omega)])
  obtain ⟨s1, hs1, i1, i2, i3, i4⟩ := loop
  rw [hs1, obind_some]
  rw [Nat.zero_add, c3] at i2 i4
  by_cases hrem : ctx.dst_remaining_bits > 0
  · -- a trailing partial digit
    rw [if_pos hrem]
    rw [c4] at hrem
    have hin : T / R < ctx.dst_num_digits := by rw [c5, if_pos hrem]; omega
    have h4 := i4 (T / R)
    rw [if_neg (Nat.lt_irrefl _), hg1, if_pos hin] at h4
    have hTV : V < 2 ^ (R * (T / R) + T % R) := by rw [hdm]; exact hV
    obtain ⟨t', e1, e2, e3, e4, e5⟩ := convert_digit_spec dstW ctx src (T / R) (T % R) T V s1
      (by rw [c1]; exact hR) (by rw [c1]; exact Nat.le_of_lt (Nat.mod_lt _ hR0)) hsrc'
      (Or.inr (by rw [c1]; exact hTV)) (by rw [c1]; omega) (by omega)
      (by rw [c2]; exact i1) (by rw [c1, c2]; exact i2) h4
    rw [c3, c4, e1, obind_some]
    simp only [c1] at e5
    refine ⟨t'.dst, rfl, by rw [e4, i3], ?_⟩
    intro j
    rw [e5 j, c5, if_pos hrem]
    by_cases hj : j = T / R
    · rw [if_pos hj, if_pos (by omega), hj,
        bitsOf_eq_div _ _ _ hTV, bitsOf_eq_div_of_le _ _ _ _ hTV (Nat.le_of_lt (Nat.mod_lt _ hR0))]
    · rw [if_neg hj, i4 j]
      by_cases hj2 : j < T / R
      · rw [if_pos hj2, if_pos (by omega)]
      · rw [if_neg hj2, if_neg (by omega), hg1 j, if_neg (by rw [c5, if_pos hrem]; omega)]
  · rw [if_neg hrem, obind_some]
    rw [c4] at hrem
    refine ⟨s1.dst, rfl, i3, ?_⟩
    intro j
    rw [i4 j, c5, if_neg hrem, Nat.add_zero]
    by_cases hj2 : j < T / R
    · rw [if_pos hj2, if_pos hj2]
    · rw [if_neg hj2, if_neg hj2, hg1 j, if_neg (by rw [c5, if_neg hrem]; omega)]


/-! # Platform constants -/

theorem bits_pos (P : Platform) : 0 < FFBI_BITS_PER_DIGIT P := by cases P <;> decide

theorem bits_lt_word (P : Platform) : FFBI_BITS_PER_DIGIT P < FFBI_WORD_SIZE P := by
  cases P <;> decide

theorem cache_bits_pos (P : Platform) : 0 < FFBI_CACHE_DIV_BITS_PER_DIGIT P := by
  cases P <;> decide

theorem cache_bits_lt_word (P : Platform) :
    FFBI_CACHE_DIV_BITS_PER_DIGIT P < FFBI_CACHE_WORD_SIZE P := by
  cases P <;> decide

theorem digit_max_plus_1_eq (P : Platform) : digit_max_plus_1 P = 2 ^ FFBI_BITS_PER_DIGIT P := by
  cases P <;> decide

theorem digit_max_eq (P : Platform) : digit_max P = 2 ^ FFBI_BITS_PER_DIGIT P - 1 := by
  unfold digit_max; rw [digit_max_plus_1_eq]

theorem land_digit_max_eq (P : Platform) (x : Nat) :
    x &&& digit_max P = x % 2 ^ FFBI_BITS_PER_DIGIT P := by
  rw [digit_max_eq, Nat.and_pow_two_sub_one_eq_mod]

theorem cache_div_digit_max_plus_1_eq (P : Platform) :
    cache_div_digit_max_plus_1 P = 2 ^ FFBI_CACHE_DIV_BITS_PER_DIGIT P := by
  cases P <;> decide

theorem land_cache_div_digit_max_eq (P : Platform) (x : Nat) :
    x &&& cache_div_digit_max P = x % 2 ^ FFBI_CACHE_DIV_BITS_PER_DIGIT P := by
  unfold cache_div_digit_max
  rw [cache_div_digit_max_plus_1_eq, Nat.and_pow_two_sub_one_eq_mod]

/-! # Significant bits -/

theorem sigbits_loop_spec :
    ∀ fuel num count, num < 2 ^ fuel →
      ∃ k, sigbits_loop fuel num count = count + k ∧ num < 2 ^ k ∧ (k = 0 ∨ 2 ^ (k - 1) ≤ num) := by
  intro fuel
  induction fuel with
  | zero =>
    intro num count h
    exact ⟨0, rfl, h, Or.inl rfl⟩
  | succ fuel ih =>
    intro num count h
    by_cases h0 : num > 0
    · have h1 : num >>> 1 < 2 ^ fuel := by
        rw [Nat.shiftRight_eq_div_pow, Nat.pow_one]
        rw [Nat.pow_succ] at h
        omega
      obtain ⟨k, e1, e2, e3⟩ := ih (num >>> 1) (count + 1) h1
      rw [Nat.shiftRight_eq_div_pow, Nat.pow_one] at e2 e3
      refine ⟨k + 1, ?_, ?_, Or.inr ?_⟩
      · show (if num > 0 then sigbits_loop fuel (num >>> 1) (count + 1) else count) = _
        rw [if_pos h0, e1]; omega
      · rw [Nat.pow_succ]; omega
      · rw [Nat.add_sub_cancel]
        by_cases hk : k = 0
        · subst hk; simp; omega
        · rcases e3 with e3 | e3
          · exact absurd e3 hk
          · have : 2 ^ k = 2 ^ (k - 1) * 2 := by
              rw [← Nat.pow_succ]; congr 1; omega
            omega
    · refine ⟨0, ?_, by simp; omega, Or.inl rfl⟩
      show (if num > 0 then sigbits_loop fuel (num >>> 1) (count + 1) else count) = _
      rw [if_neg h0]; rfl

/-- The result of `ffbi_significant_bits` is the bit length, and 1 for zero. -/
theorem ffbi_significant_bits_spec (num : Nat) :
    1 ≤ ffbi_significant_bits num ∧ num < 2 ^ ffbi_significant_bits num ∧
      (num ≠ 0 → 2 ^ (ffbi_significant_bits num - 1) ≤ num) := by
  unfold ffbi_significant_bits
  by_cases h0 : num = 0
  · rw [if_pos h0, h0]; simp
  · rw [if_neg h0]
    obtain ⟨k, e1, e2, e3⟩ := sigbits_loop_spec num num 0 (Nat.lt_two_pow num)
    rw [e1, Nat.zero_add]
    have hk : k ≠ 0 := by
      intro hk; subst hk; simp at e2; omega
    refine ⟨by omega, e2, fun _ => ?_⟩
    rcases e3 with e3 | e3
    · exact absurd e3 hk
    · exact e3

theorem ffbi_significant_bits_le (num bits : Nat) (hb : 0 < bits) (h : num < 2 ^ bits) :
    ffbi_significant_bits num ≤ bits := by
  obtain ⟨h1, _, h3⟩ := ffbi_significant_bits_spec num
  by_cases h0 : num = 0
  · subst h0
    unfold ffbi_significant_bits
    rw [if_pos rfl]; omega
  · have h4 := h3 h0
    by_contra hc
    have : 2 ^ bits ≤ 2 ^ (ffbi_significant_bits num - 1) :=
      Nat.pow_le_pow_right (by decide) (by omega)
    omega

/-- The total bit count `(n - 1) * bits + sigbits(top digit)` of a canonical array bounds its
value from above, and from below when the value is not zero. -/
theorem total_bits_spec (bits : Nat) (ds : List Nat) (n : Nat) (hb : 0 < bits)
    (c : canonicalDigits bits ds n) :
    digitsVal bits ds n < 2 ^ ((n - 1) * bits + ffbi_significant_bits (ds.getD (n - 1) 0)) ∧
    (digitsVal bits ds n ≠ 0 →
      2 ^ ((n - 1) * bits + ffbi_significant_bits (ds.getD (n - 1) 0) - 1) ≤ digitsVal bits ds n) ∧
    (n - 1) * bits + ffbi_significant_bits (ds.getD (n - 1) 0) ≤ n * bits ∧
    (n - 1) * bits < (n - 1) * bits + ffbi_significant_bits (ds.getD (n - 1) 0) := by
  obtain ⟨c1, c2, c3, c4⟩ := c
  obtain ⟨s1, s2, s3⟩ := ffbi_significant_bits_spec (ds.getD (n - 1) 0)
  have s4 := ffbi_significant_bits_le _ bits hb (c3 (n - 1) (by omega))
  generalize ffbi_significant_bits (ds.getD (n - 1) 0) = sig at *
  have hn : n = (n - 1) + 1 := by omega
  have hlow := digitsVal_lt bits ds (n - 1) (fun i hi => c3 i (by omega))
  have hv : digitsVal bits ds n
      = digitsVal bits ds (n - 1) + ds.getD (n - 1) 0 * 2 ^ (bits * (n - 1)) := by
    conv_lhs => rw [hn]
    rfl
  have hcomm : (n - 1) * bits = bits * (n - 1) := Nat.mul_comm _ _
  refine ⟨?_, ?_, ?_, by omega⟩
  · rw [hv, Nat.pow_add, hcomm]
    have : (ds.getD (n - 1) 0 + 1) * 2 ^ (bits * (n - 1)) ≤ 2 ^ sig * 2 ^ (bits * (n - 1)) :=
      Nat.mul_le_mul_right _ s2
    rw [Nat.mul_comm (2 ^ (bits * (n - 1)))]
    have h2 : (ds.getD (n - 1) 0 + 1) * 2 ^ (bits * (n - 1))
        = ds.getD (n - 1) 0 * 2 ^ (bits * (n - 1)) + 2 ^ (bits * (n - 1)) := by ring
    omega
  · intro hne
    have htop : ds.getD (n - 1) 0 ≠ 0 := by
      rcases c4 with c4 | c4
      · intro h0
        apply hne
        rw [hv, h0, c4]
        simp [digitsVal]
      · exact c4
    have h1 := s3 htop
    have h2 : (n - 1) * bits + sig - 1 = bits * (n - 1) + (sig - 1) := by omega
    rw [h2, Nat.pow_add, hv, Nat.mul_comm]
    have : 2 ^ (sig - 1) * 2 ^ (bits * (n - 1)) ≤ ds.getD (n - 1) 0 * 2 ^ (bits * (n - 1)) :=
      Nat.mul_le_mul_right _ h1
    omega
  · have : n * bits = (n - 1) * bits + bits := by
      conv_lhs => rw [hn]
      ring
    omega

/-! # Reallocation -/

theorem Heap.newArr_length (h : Heap) (w n : Nat) : (h.newArr w n).1.length = n := by
  unfold Heap.newArr; simp

theorem Heap.newArr_get (h : Heap) (w n p : Nat) : (h.newArr w n).2.get p = h.get p := rfl

theorem Heap.newArr_obj (h : Heap) (w n : Nat) : (h.newArr w n).2.obj = h.obj := rfl

/-- Growing a growable bigint without retaining its value: the record gets a fresh array of
`max target 3` words, its length is reset to 1 and its cache is invalidated. -/
theorem realloc_discard_spec (P : Platform) {h : Heap} {p : Nat} {x : FFBI} (target : Nat)
    (hg : h.get p = some x) (hr : x.reallocation_allowed = true)
    (ht : target ≠ x.num_allocated_digits) :
    ∃ h' arr, ffbi_reallocate_digits P h p target false = some h' ∧
      arr.length = max target FFBI_MIN_ALLOC_DIGITS ∧
      h'.get p = some { x with num_used_digits := 1, cache_valid := false, digits := arr,
                               num_allocated_digits := max target FFBI_MIN_ALLOC_DIGITS } ∧
      (∀ q, q ≠ p → h'.get q = h.get q) ∧ h'.obj.length = h.obj.length ∧ h'.scr = h.scr := by
  have hmax : (if target < FFBI_MIN_ALLOC_DIGITS then FFBI_MIN_ALLOC_DIGITS else target)
      = max target FFBI_MIN_ALLOC_DIGITS := by
    by_cases hlt : target < FFBI_MIN_ALLOC_DIGITS
    · rw [if_pos hlt, Nat.max_eq_right (Nat.le_of_lt hlt)]
    · rw [if_neg hlt, Nat.max_eq_left (by omega)]
  unfold ffbi_reallocate_digits
  rw [hg, obind_some, if_neg (by rw [hr]; simp)]
  simp only [Bool.false_eq_true, if_false]
  rw [if_neg ht, obind_some, hmax]
  have hg2 : (h.newArr (FFBI_WORD_SIZE P) (max target FFBI_MIN_ALLOC_DIGITS)).2.get p = some x := hg
  rw [Heap.put_of_get _ hg2]
  refine ⟨_, (h.newArr (FFBI_WORD_SIZE P) (max target FFBI_MIN_ALLOC_DIGITS)).1, rfl, ?_, ?_, ?_, ?_, rfl⟩
  · rw [Heap.newArr_length]
  · rw [Heap.get_upd_same _ hg2]
  · intro q hq
    rw [Heap.get_upd_ne _ _ hq]
    rfl
  · rw [Heap.upd_obj_length]
    rfl

/-! # Serialization -/

theorem base_convert_create_some (R S T : Nat) (hR : 0 < R) (hS : 0 < S) :
    ∃ ctx, ffbi_base_convert_create R S T = some ctx ∧
      ctx.dst_num_digits = T / R + (if T % R > 0 then 1 else 0) := by
  unfold ffbi_base_convert_create
  rw [if_neg (by omega)]
  exact ⟨_, rfl, rfl⟩

theorem ceil_div_eight (t : Nat) : t / 8 + (if t % 8 > 0 then 1 else 0) = (t + 7) / 8 := by
  by_cases h : t % 8 > 0
  · rw [if_pos h]; omega
  · rw [if_neg h]; omega

/-- The bit count of a canonical bigint as a natural number: `D` bits for every digit below
the top one, and the significant bits of the top digit. -/
theorem get_significant_bits_eq (P : Platform) {h : Heap} {p : Nat} {x : FFBI}
    (hg : h.get p = some x) (cx : canonical P x)
    (hb : (x.num_used_digits - 1) * FFBI_BITS_PER_DIGIT P +
      ffbi_significant_bits (x.digits.getD (x.num_used_digits - 1) 0) < 2 ^ 32) :
    ffbi_get_significant_bits P h p = some ((x.num_used_digits - 1) * FFBI_BITS_PER_DIGIT P +
      ffbi_significant_bits (x.digits.getD (x.num_used_digits - 1) 0)) := by
  unfold ffbi_get_significant_bits
  rw [hg, obind_some, if_neg (by have := cx.1; omega),
    rd_of_lt (by have := cx.1; have := cx.2.1; omega), obind_some]
  dsimp only
  rw [if_pos hb]

/-- A returned bit count is the count of the bigint, and it is below `2^32`. -/
theorem get_significant_bits_some (P : Platform) {h : Heap} {p : Nat} {x : FFBI} {T : Nat}
    (hg : h.get p = some x) (cx : canonical P x)
    (hT : ffbi_get_significant_bits P h p = some T) :
    T = (x.num_used_digits - 1) * FFBI_BITS_PER_DIGIT P +
      ffbi_significant_bits (x.digits.getD (x.num_used_digits - 1) 0) ∧ T < 2 ^ 32 := by
  unfold ffbi_get_significant_bits at hT
  rw [hg, obind_some, if_neg (by have := cx.1; omega),
    rd_of_lt (by have := cx.1; have := cx.2.1; omega), obind_some] at hT
  dsimp only at hT
  by_cases hb : (x.num_used_digits - 1) * FFBI_BITS_PER_DIGIT P +
      ffbi_significant_bits (x.digits.getD (x.num_used_digits - 1) 0) < 2 ^ 32
  · rw [if_pos hb] at hT
    have e := Option.some.inj hT
    rw [← e]
    exact ⟨rfl, hb⟩
  · rw [if_neg hb] at hT
    exact Option.noConfusion hT

/-- The bit count reported for a canonical bigint is determined by its value. -/
theorem significant_bits_unique (v t t' : Nat) (h1 : v < 2 ^ t) (h2 : v ≠ 0 → 2 ^ (t - 1) ≤ v)
    (h1' : v < 2 ^ t') (h2' : v ≠ 0 → 2 ^ (t' - 1) ≤ v) (ht : 1 ≤ t) (ht' : 1 ≤ t')
    (hz : v = 0 → t = 1 ∧ t' = 1) : t = t' := by
  by_cases hv : v = 0
  · obtain ⟨a, b⟩ := hz hv; omega
  · have a := h2 hv
    have b := h2' hv
    have c : t - 1 < t' := (Nat.pow_lt_pow_iff_right (by decide : 1 < 2)).mp (by omega)
    have d : t' - 1 < t := (Nat.pow_lt_pow_iff_right (by decide : 1 < 2)).mp (by omega)
    omega

theorem canonical_zero_length (bits : Nat) (ds : List Nat) (n : Nat) (c : canonicalDigits bits ds n)
    (h0 : digitsVal bits ds n = 0) : n = 1 ∧ ds.getD 0 0 = 0 := by
  obtain ⟨c1, _, _, c4⟩ := c
  have hn : n = (n - 1) + 1 := by omega
  have hv : digitsVal bits ds n
      = digitsVal bits ds (n - 1) + ds.getD (n - 1) 0 * 2 ^ (bits * (n - 1)) := by
    conv_lhs => rw [hn]
    rfl
  have htop : ds.getD (n - 1) 0 = 0 := by
    by_contra hne
    have := digitsVal_pos_of_top bits ds (n - 1) hne
    rw [← hn] at this
    have := Nat.two_pow_pos (bits * (n - 1))
    omega
  rcases c4 with c4 | c4
  · subst c4
    exact ⟨rfl, htop⟩
  · exact absurd htop c4

/-- Serialization into a buffer for which the size check of `ffbi_serialize_v2` passes
(`size_bytes` not above the required size) and that really has room for the bytes. -/
theorem serialize_spec (P : Platform) {h : Heap} {p : Nat} {x : FFBI} (buffer : List Nat)
    (size_bytes : Nat) (hg : h.get p = some x) (cx : canonical P x)
    (hb32 : (x.num_used_digits - 1) * FFBI_BITS_PER_DIGIT P +
      ffbi_significant_bits (x.digits.getD (x.num_used_digits - 1) 0) < 2 ^ 32)
    (hsize : size_bytes ≤ ((x.num_used_digits - 1) * FFBI_BITS_PER_DIGIT P +
      ffbi_significant_bits (x.digits.getD (x.num_used_digits - 1) 0) + 7) / 8)
    (hbuf : ((x.num_used_digits - 1) * FFBI_BITS_PER_DIGIT P +
      ffbi_significant_bits (x.digits.getD (x.num_used_digits - 1) 0) + 7) / 8 ≤ buffer.length) :
    ∃ bytes, ffbi_serialize P h p buffer size_bytes =
        some (((((x.num_used_digits - 1) * FFBI_BITS_PER_DIGIT P +
          ffbi_significant_bits (x.digits.getD (x.num_used_digits - 1) 0) + 7) / 8 : Nat) : Int),
          bytes) ∧
      bytes.length = buffer.length ∧
      ∀ i, bytes.getD i 0 =
        if i < ((x.num_used_digits - 1) * FFBI_BITS_PER_DIGIT P +
          ffbi_significant_bits (x.digits.getD (x.num_used_digits - 1) 0) + 7) / 8
        then bitsOf (val P x) (8 * i) 8 else buffer.getD i 0 := by
  obtain ⟨t1, t2, t3, t4⟩ := total_bits_spec (FFBI_BITS_PER_DIGIT P) x.digits x.num_used_digits
    (bits_pos P) cx
  generalize hT : (x.num_used_digits - 1) * FFBI_BITS_PER_DIGIT P +
      ffbi_significant_bits (x.digits.getD (x.num_used_digits - 1) 0) = T at *
  have hD := bits_pos P
  unfold ffbi_serialize
  rw [get_significant_bits_eq P hg cx (by rw [hT]; exact hb32), obind_some, hT]
  unfold ffbi_serialize_v2
  rw [hg, obind_some]
  obtain ⟨ctx, hc, hn⟩ := base_convert_create_some 8 (FFBI_BITS_PER_DIGIT P) T (by decide) hD
  rw [ceil_div_eight] at hn
  rw [hc, obind_some]
  dsimp only
  rw [hn, if_neg (by omega)]
  obtain ⟨bytes, e1, e2, e3⟩ := base_convert_exec_spec 8 8 (FFBI_BITS_PER_DIGIT P) T (val P x) buffer
    x.digits ctx hc (Nat.le_refl 8) t1
    (by
      intro j hj
      have hjn : j < x.num_used_digits := by
        by_contra hc2
        have : x.num_used_digits * FFBI_BITS_PER_DIGIT P ≤ j * FFBI_BITS_PER_DIGIT P :=
          Nat.mul_le_mul_right _ (by omega)
        rw [Nat.mul_comm j] at this
        omega
      refine ⟨by have := cx.2.1; omega, ?_⟩
      exact (digitsVal_div _ _ _ j hjn cx.2.2.1).symm)
    (by rw [hn]; exact hbuf)
  rw [e1, obind_some]
  refine ⟨bytes, rfl, e2, ?_⟩
  intro i
  rw [e3 i, hn]


theorem ceil_div_pos (t r : Nat) (ht : 0 < t) (hr : 0 < r) :
    1 ≤ t / r + (if t % r > 0 then 1 else 0) ∧
    t ≤ r * (t / r + (if t % r > 0 then 1 else 0)) ∧
    r * (t / r + (if t % r > 0 then 1 else 0) - 1) < t := by
  have h1 := Nat.div_add_mod t r
  have h2 := Nat.mod_lt t hr
  generalize t / r = q at *
  generalize t % r = m at *
  by_cases h : m > 0
  · rw [if_pos h]
    have h3 : r * (q + 1) = r * q + r := Nat.mul_succ _ _
    rw [h3, Nat.add_sub_cancel]
    omega
  · rw [if_neg h, Nat.add_zero]
    have h4 : 1 ≤ q := by
      by_contra hc
      have : q = 0 := by omega
      rw [this] at h1
      omega
    have h5 : r * q = r * (q - 1) + r := by
      conv_lhs => rw [show q = (q - 1) + 1 by omega]
      exact Nat.mul_succ _ _
    omega

/-- Deserialization of a byte block whose last byte is not zero (or that has one byte). -/
theorem deserialize_spec (P : Platform) {h : Heap} {p : Nat} {y : FFBI} (buffer : List Nat) (n : Nat)
    (hp : h.get p = some y) (hy : y.reallocation_allowed = true) (hys : validStorage y)
    (cb : canonicalDigits 8 buffer n)
    (hb32 : (n - 1) * 8 + ffbi_significant_bits (buffer.getD (n - 1) 0) < 2 ^ 32) :
    ∃ h' y', ffbi_deserialize P h p buffer n = some h' ∧ h'.get p = some y' ∧ canonical P y' ∧
      val P y' = digitsVal 8 buffer n ∧ y'.cache_valid = false ∧
      (∀ q, q ≠ p → h'.get q = h.get q) := by
  obtain ⟨t1, t2, t3, t4⟩ := total_bits_spec 8 buffer n (by decide) cb
  obtain ⟨b1, b2, b3, b4⟩ := cb
  generalize hT : (n - 1) * 8 + ffbi_significant_bits (buffer.getD (n - 1) 0) = T at *
  generalize hV : digitsVal 8 buffer n = V at *
  have hD := bits_pos P
  have hDW := bits_lt_word P
  obtain ⟨ctx, hc, hn⟩ := base_convert_create_some (FFBI_BITS_PER_DIGIT P) 8 T hD (by decide)
  obtain ⟨k1, k2, k3⟩ := ceil_div_pos T (FFBI_BITS_PER_DIGIT P) (by omega) hD
  rw [← hn] at k1 k2 k3
  unfold ffbi_deserialize
  rw [if_neg (by omega), rd_of_lt (by omega), obind_some]
  dsimp only
  rw [hT, if_neg (by omega), hc, obind_some, hp, obind_some]
  -- the state after the optional reallocation
  have hre : ∃ h1 y1, (if ctx.dst_num_digits > y.num_allocated_digits then
        ffbi_reallocate_digits P h p ctx.dst_num_digits false else some h) = some h1 ∧
      h1.get p = some y1 ∧ ctx.dst_num_digits ≤ y1.digits.length ∧
      (∀ q, q ≠ p → h1.get q = h.get q) := by
    by_cases hgt : ctx.dst_num_digits > y.num_allocated_digits
    · rw [if_pos hgt]
      obtain ⟨h1, arr, e1, e2, e3, e4, _, _⟩ := realloc_discard_spec P ctx.dst_num_digits hp hy
        (by omega)
      exact ⟨h1, _, e1, e3, by dsimp only; rw [e2]; exact Nat.le_max_left _ _, e4⟩
    · rw [if_neg hgt]
      exact ⟨h, y, rfl, hp, by have := hys.1; omega, fun _ _ => rfl⟩
  obtain ⟨h1, y1, e1, e2, e3, e4⟩ := hre
  rw [e1, obind_some, modify_eq _ e2, obind_some, Heap.get_upd_same _ e2, obind_some]
  dsimp only
  obtain ⟨ds, f1, f2, f3⟩ := base_convert_exec_spec (FFBI_WORD_SIZE P) (FFBI_BITS_PER_DIGIT P) 8 T V
    y1.digits buffer ctx hc (Nat.le_of_lt hDW) t1
    (by
      intro j hj
      have hjn : j < n := by omega
      refine ⟨by omega, ?_⟩
      rw [← hV]
      exact (digitsVal_div 8 buffer n j hjn b3).symm)
    e3
  have hg3 : (h1.upd p { y1 with num_used_digits := ctx.dst_num_digits }).get p
      = some { y1 with num_used_digits := ctx.dst_num_digits } := Heap.get_upd_same _ e2
  rw [f1, obind_some, Heap.put_of_get _ hg3]
  refine ⟨_, _, rfl, Heap.get_upd_same _ hg3, ?_, ?_, rfl, ?_⟩
  · -- canonical
    refine ⟨k1, by dsimp only; omega, ?_, ?_⟩
    · intro i hi
      dsimp only at hi ⊢
      rw [f3 i, if_pos hi]
      exact bitsOf_lt _ _ _
    · dsimp only
      by_cases h1d : ctx.dst_num_digits = 1
      · exact Or.inl h1d
      · right
        rw [f3, if_pos (by omega)]
        have hVT : V < 2 ^ (FFBI_BITS_PER_DIGIT P * (ctx.dst_num_digits - 1) + FFBI_BITS_PER_DIGIT P) := by
          have : FFBI_BITS_PER_DIGIT P * (ctx.dst_num_digits - 1) + FFBI_BITS_PER_DIGIT P
              = FFBI_BITS_PER_DIGIT P * ctx.dst_num_digits := by
            conv_rhs => rw [show ctx.dst_num_digits = (ctx.dst_num_digits - 1) + 1 by omega]
            exact (Nat.mul_succ _ _).symm
          rw [this]
          exact Nat.lt_of_lt_of_le t1 (Nat.pow_le_pow_right (by decide) k2)
        rw [bitsOf_eq_div _ _ _ hVT]
        have hVne : V ≠ 0 := by
          intro h0
          obtain ⟨z1, z2⟩ := canonical_zero_length 8 buffer n ⟨b1, b2, b3, b4⟩ (by rw [hV]; exact h0)
          subst z1
          have hs : ffbi_significant_bits (buffer.getD (1 - 1) 0) = 1 := by
            show ffbi_significant_bits (buffer.getD 0 0) = 1
            rw [z2]; rfl
          rw [hs] at hT
          have hT1 : T = 1 := by omega
          rw [hT1] at k3
          have : FFBI_BITS_PER_DIGIT P * 1 ≤ FFBI_BITS_PER_DIGIT P * (ctx.dst_num_digits - 1) :=
            Nat.mul_le_mul_left _ (by omega)
          omega
        have hge := t2 hVne
        have hle : 2 ^ (FFBI_BITS_PER_DIGIT P * (ctx.dst_num_digits - 1)) ≤ 2 ^ (T - 1) :=
          Nat.pow_le_pow_right (by decide) (by omega)
        have hpos : 0 < V / 2 ^ (FFBI_BITS_PER_DIGIT P * (ctx.dst_num_digits - 1)) :=
          Nat.div_pos (by omega) (Nat.two_pow_pos _)
        omega
  · -- value
    show digitsVal (FFBI_BITS_PER_DIGIT P) ds ctx.dst_num_digits = V
    rw [digitsVal_of_bits (FFBI_BITS_PER_DIGIT P) V ds ctx.dst_num_digits
      (fun i hi => by rw [f3 i, if_pos hi])]
    exact Nat.mod_eq_of_lt (Nat.lt_of_lt_of_le t1 (Nat.pow_le_pow_right (by decide) k2))
  · intro q hq
    rw [Heap.get_upd_ne _ _ hq, Heap.get_upd_ne _ _ hq]
    exact e4 q hq

/-- What `ffbi_get_significant_bits` returns on a canonical bigint: the bit length of its
value, and 1 for zero. -/
theorem significant_bits_canonical (P : Platform) {h : Heap} {p : Nat} {x : FFBI}
    (hg : h.get p = some x) (cx : canonical P x)
    (hb : (x.num_used_digits - 1) * FFBI_BITS_PER_DIGIT P +
      ffbi_significant_bits (x.digits.getD (x.num_used_digits - 1) 0) < 2 ^ 32) :
    ∃ T, ffbi_get_significant_bits P h p = some T ∧ 1 ≤ T ∧ val P x < 2 ^ T ∧
      (val P x ≠ 0 → 2 ^ (T - 1) ≤ val P x) ∧ (val P x = 0 → T = 1) ∧
      T = (x.num_used_digits - 1) * FFBI_BITS_PER_DIGIT P +
        ffbi_significant_bits (x.digits.getD (x.num_used_digits - 1) 0) := by
  obtain ⟨t1, t2, t3, t4⟩ := total_bits_spec (FFBI_BITS_PER_DIGIT P) x.digits x.num_used_digits
    (bits_pos P) cx
  refine ⟨_, get_significant_bits_eq P hg cx hb, by omega, t1, t2, ?_, rfl⟩
  intro h0
  obtain ⟨z1, z2⟩ := canonical_zero_length _ _ _ cx h0
  rw [z1]
  show (1 - 1) * FFBI_BITS_PER_DIGIT P + ffbi_significant_bits (x.digits.getD 0 0) = 1
  rw [z2]
  simp [ffbi_significant_bits]

/-- The bit count of a canonical digit array is at most `T` when the value is below `2 ^ T`. -/
theorem total_bits_le (bits : Nat) (ds : List Nat) (n T : Nat) (hb : 0 < bits)
    (c : canonicalDigits bits ds n) (hT : 1 ≤ T) (hv : digitsVal bits ds n < 2 ^ T) :
    (n - 1) * bits + ffbi_significant_bits (ds.getD (n - 1) 0) ≤ T := by
  obtain ⟨t1, t2, t3, t4⟩ := total_bits_spec bits ds n hb c
  by_cases h0 : digitsVal bits ds n = 0
  · obtain ⟨z1, z2⟩ := canonical_zero_length _ _ _ c h0
    rw [z1]
    show (1 - 1) * bits + ffbi_significant_bits (ds.getD 0 0) ≤ T
    rw [z2]
    simp only [ffbi_significant_bits, if_true, Nat.sub_self, Nat.zero_mul, Nat.zero_add]
    exact hT
  · have a := t2 h0
    generalize (n - 1) * bits + ffbi_significant_bits (ds.getD (n - 1) 0) = t at *
    have c2 : t - 1 < T := (Nat.pow_lt_pow_iff_right (by decide : 1 < 2)).mp (by omega)
    omega

/-- The bit count of a canonical bigint whose value is below `2 ^ T`. -/
theorem bit_count_le (P : Platform) {x : FFBI} {T : Nat} (cx : canonical P x) (hT : 1 ≤ T)
    (hv : val P x < 2 ^ T) :
    (x.num_used_digits - 1) * FFBI_BITS_PER_DIGIT P +
      ffbi_significant_bits (x.digits.getD (x.num_used_digits - 1) 0) ≤ T :=
  total_bits_le _ _ _ _ (bits_pos P) cx hT hv

/-- A returned bit count describes the value, and is the count of the digit array. -/
theorem significant_bits_of_some (P : Platform) {h : Heap} {p : Nat} {x : FFBI} {T : Nat}
    (hg : h.get p = some x) (cx : canonical P x)
    (hT : ffbi_get_significant_bits P h p = some T) :
    T < 2 ^ 32 ∧ 1 ≤ T ∧ val P x < 2 ^ T ∧
      (val P x ≠ 0 → 2 ^ (T - 1) ≤ val P x) ∧ (val P x = 0 → T = 1) ∧
      T = (x.num_used_digits - 1) * FFBI_BITS_PER_DIGIT P +
        ffbi_significant_bits (x.digits.getD (x.num_used_digits - 1) 0) := by
  obtain ⟨e, hb⟩ := get_significant_bits_some P hg cx hT
  obtain ⟨T', e1, e2, e3, e4, e5, e6⟩ := significant_bits_canonical P hg cx (by rw [← e]; exact hb)
  have hTT : T' = T := by rw [e6, e]
  subst hTT
  exact ⟨hb, e2, e3, e4, e5, e6⟩

/-- When the serialized size is returned, the bit count is below `2^32`. -/
theorem bit_count_of_size (P : Platform) {h : Heap} {p : Nat} {x : FFBI} {n : Nat}
    (hg : h.get p = some x) (cx : canonical P x)
    (hn : ffbi_get_serialized_size P h p = some n) :
    (x.num_used_digits - 1) * FFBI_BITS_PER_DIGIT P +
      ffbi_significant_bits (x.digits.getD (x.num_used_digits - 1) 0) < 2 ^ 32 := by
  unfold ffbi_get_serialized_size at hn
  obtain ⟨T, hT, _⟩ := obind_eq_some.1 hn
  obtain ⟨e, hb⟩ := get_significant_bits_some P hg cx hT
  rw [← e]
  exact hb

/-- The bit count of a canonical bigint is determined by its value. -/
theorem bit_count_eq_of_val_eq (P : Platform) {x y : FFBI} (cx : canonical P x)
    (cy : canonical P y) (hv : val P y = val P x) :
    (y.num_used_digits - 1) * FFBI_BITS_PER_DIGIT P +
      ffbi_significant_bits (y.digits.getD (y.num_used_digits - 1) 0) =
    (x.num_used_digits - 1) * FFBI_BITS_PER_DIGIT P +
      ffbi_significant_bits (x.digits.getD (x.num_used_digits - 1) 0) := by
  obtain ⟨a1, a2, _, a4⟩ := total_bits_spec (FFBI_BITS_PER_DIGIT P) x.digits x.num_used_digits
    (bits_pos P) cx
  obtain ⟨b1, b2, _, b4⟩ := total_bits_spec (FFBI_BITS_PER_DIGIT P) y.digits y.num_used_digits
    (bits_pos P) cy
  have hvv : digitsVal (FFBI_BITS_PER_DIGIT P) y.digits y.num_used_digits =
      digitsVal (FFBI_BITS_PER_DIGIT P) x.digits x.num_used_digits := hv
  rw [hvv] at b1 b2
  refine significant_bits_unique _ _ _ b1 b2 a1 a2 (by omega) (by omega) (fun h0 => ?_)
  have zx := canonical_zero_length _ _ _ cx h0
  have zy := canonical_zero_length _ _ _ cy (hvv.trans h0)
  rw [zx.1, zy.1]
  constructor
  · show (1 - 1) * FFBI_BITS_PER_DIGIT P + ffbi_significant_bits (y.digits.getD 0 0) = 1
    rw [zy.2]
    simp [ffbi_significant_bits]
  · show (1 - 1) * FFBI_BITS_PER_DIGIT P + ffbi_significant_bits (x.digits.getD 0 0) = 1
    rw [zx.2]
    simp [ffbi_significant_bits]

theorem significant_bits_eq_of_val_eq (P : Platform) {h h' : Heap} {p q : Nat} {x y : FFBI}
    (hg : h.get p = some x) (cx : canonical P x) (hg' : h'.get q = some y) (cy : canonical P y)
    (hv : val P y = val P x) :
    ffbi_get_significant_bits P h' q = ffbi_get_significant_bits P h p := by
  have hc := bit_count_eq_of_val_eq P cx cy hv
  have L : ∀ {k : Heap} {r : Nat} {z : FFBI}, k.get r = some z → canonical P z →
      ffbi_get_significant_bits P k r =
        if (z.num_used_digits - 1) * FFBI_BITS_PER_DIGIT P +
          ffbi_significant_bits (z.digits.getD (z.num_used_digits - 1) 0) < 2 ^ 32
        then some ((z.num_used_digits - 1) * FFBI_BITS_PER_DIGIT P +
          ffbi_significant_bits (z.digits.getD (z.num_used_digits - 1) 0)) else none := by
    intro k r z gz cz
    unfold ffbi_get_significant_bits
    rw [gz, obind_some, if_neg (by have := cz.1; omega),
      rd_of_lt (by have := cz.1; have := cz.2.1; omega), obind_some]
  rw [L hg cx, L hg' cy, hc]

theorem bitsOf_byte (v i : Nat) : bitsOf v (8 * i) 8 = v / 256 ^ i % 256 := by
  unfold bitsOf
  rw [Nat.pow_mul]
  rfl

/-- The layout of the serialized form while the bit count fits a `uint32_t`: for a canonical
bigint `v` of fewer than `2^32` bits, with `T = ffbi_get_significant_bits(v)` (the bit length of
`val v`, and 1 for zero), `ffbi_get_serialized_size(v)` is `ceil(T/8)` and serializing into a
buffer of that size writes the little-endian base-256 digits of `val v`: byte `i` is
`floor(val v / 256^i) mod 256`. -/
theorem ffbi_serialize_layout (P : Platform) (h : Heap) (p : Nat) (x : FFBI) (buffer : List Nat)
    (hg : h.get p = some x) (cx : canonical P x)
    (hb32 : (x.num_used_digits - 1) * FFBI_BITS_PER_DIGIT P +
      ffbi_significant_bits (x.digits.getD (x.num_used_digits - 1) 0) < 2 ^ 32) :
    ∃ T, ffbi_get_significant_bits P h p = some T ∧
      (val P x = 0 → T = 1) ∧ (val P x ≠ 0 → 2 ^ (T - 1) ≤ val P x ∧ val P x < 2 ^ T) ∧
      ffbi_get_serialized_size P h p = some ((T + 7) / 8) ∧
      (buffer.length = (T + 7) / 8 →
        ∃ bytes, ffbi_serialize P h p buffer ((T + 7) / 8) = some ((((T + 7) / 8 : Nat) : Int), bytes) ∧
          bytes.length = (T + 7) / 8 ∧
          ∀ i, i < (T + 7) / 8 → bytes.getD i 0 = val P x / 256 ^ i % 256) := by
  obtain ⟨T, e1, e2, e3, e4, e5, e6⟩ := significant_bits_canonical P hg cx hb32
  refine ⟨T, e1, e5, fun hne => ⟨e4 hne, e3⟩, ?_, ?_⟩
  · unfold ffbi_get_serialized_size
    rw [e1, obind_some, ceil_div_eight]
  · intro hb
    obtain ⟨bytes, f1, f2, f3⟩ := serialize_spec P buffer ((T + 7) / 8) hg cx hb32
      (by rw [← e6]) (by rw [← e6, hb])
    rw [← e6] at f1 f3
    refine ⟨bytes, f1, by rw [f2, hb], ?_⟩
    intro i hi
    rw [f3 i, if_pos hi, bitsOf_byte]

/-- Example of the layout: the value 258 = 0x0102 is written as the two bytes 2, 1. -/
theorem ffbi_serialize_layout_witness :
    canonical .gnu128 (exBig [258, 0, 0] 1) ∧
    ∃ T, ffbi_get_significant_bits .gnu128 (exHeap [exBig [258, 0, 0] 1] 0) 0 = some T ∧
      (val .gnu128 (exBig [258, 0, 0] 1) = 0 → T = 1) ∧
      (val .gnu128 (exBig [258, 0, 0] 1) ≠ 0 →
        2 ^ (T - 1) ≤ val .gnu128 (exBig [258, 0, 0] 1) ∧ val .gnu128 (exBig [258, 0, 0] 1) < 2 ^ T) ∧
      ffbi_get_serialized_size .gnu128 (exHeap [exBig [258, 0, 0] 1] 0) 0 = some ((T + 7) / 8) ∧
      ([9, 9].length = (T + 7) / 8 →
        ∃ bytes, ffbi_serialize .gnu128 (exHeap [exBig [258, 0, 0] 1] 0) 0 [9, 9] ((T + 7) / 8)
            = some ((((T + 7) / 8 : Nat) : Int), bytes) ∧
          bytes.length = (T + 7) / 8 ∧
          ∀ i, i < (T + 7) / 8 → bytes.getD i 0 = val .gnu128 (exBig [258, 0, 0] 1) / 256 ^ i % 256) :=
  ⟨by decide, ffbi_serialize_layout .gnu128 (exHeap [exBig [258, 0, 0] 1] 0) 0 (exBig [258, 0, 0] 1)
    [9, 9] rfl (by decide) (by decide)⟩

/-- The round trip while the bit count fits a `uint32_t` (the size function returns `n`):
serializing a canonical bigint `v` into a buffer of exactly `ffbi_get_serialized_size(v)` bytes
and deserializing those bytes into any growable bigint `p` yields a canonical `p` with the same
value and the same number of significant bits. -/
theorem serialize_deserialize_roundtrip (P : Platform) (h : Heap) (v p : Nat) (x y : FFBI)
    (buffer : List Nat) (n : Nat)
    (hv : h.get v = some x) (cx : canonical P x)
    (hp : h.get p = some y) (hy : y.reallocation_allowed = true) (hys : validStorage y)
    (hn : ffbi_get_serialized_size P h v = some n) (hb : buffer.length = n) :
    ∃ bytes h' y', ffbi_serialize P h v buffer n = some ((n : Int), bytes) ∧
      ffbi_deserialize P h p bytes n = some h' ∧ h'.get p = some y' ∧
      canonical P y' ∧ val P y' = val P x ∧
      ffbi_get_significant_bits P h' p = ffbi_get_significant_bits P h v := by
  have hb32 := bit_count_of_size P hv cx hn
  obtain ⟨T, e1, e2, e3, e4, e5, e6⟩ := significant_bits_canonical P hv cx hb32
  have hn' : n = (T + 7) / 8 := by
    unfold ffbi_get_serialized_size at hn
    rw [e1, obind_some, ceil_div_eight] at hn
    exact (Option.some.inj hn).symm
  obtain ⟨bytes, f1, f2, f3⟩ := serialize_spec P buffer n hv cx hb32
    (by rw [← e6, hn']) (by rw [← e6, hb, hn'])
  rw [← e6, ← hn'] at f1 f3
  -- the bytes form a canonical base-256 array holding the same value
  have hbits : ∀ i, i < n → bytes.getD i 0 = bitsOf (val P x) (8 * i) 8 := by
    intro i hi
    rw [f3 i, if_pos hi]
  have hn1 : 1 ≤ n := by omega
  have hT8 : T ≤ 8 * n := by omega
  have hval : digitsVal 8 bytes n = val P x := by
    rw [digitsVal_of_bits 8 (val P x) bytes n hbits]
    exact Nat.mod_eq_of_lt (Nat.lt_of_lt_of_le e3 (Nat.pow_le_pow_right (by decide) hT8))
  have cb : canonicalDigits 8 bytes n := by
    refine ⟨hn1, by omega, ?_, ?_⟩
    · intro i hi
      rw [hbits i hi]
      exact bitsOf_lt _ _ _
    · by_cases h1 : n = 1
      · exact Or.inl h1
      · right
        rw [hbits (n - 1) (by omega)]
        have hlt : val P x < 2 ^ (8 * (n - 1) + 8) :=
          Nat.lt_of_lt_of_le e3 (Nat.pow_le_pow_right (by decide) (by omega))
        rw [bitsOf_eq_div _ _ _ hlt]
        have hne : val P x ≠ 0 := by
          intro h0
          have := e5 h0
          omega
        have hge := e4 hne
        have hle : 2 ^ (8 * (n - 1)) ≤ 2 ^ (T - 1) := Nat.pow_le_pow_right (by decide) (by omega)
        have hpos : 0 < val P x / 2 ^ (8 * (n - 1)) := Nat.div_pos (by omega) (Nat.two_pow_pos _)
        omega
  have hT32 : T < 2 ^ 32 := by rw [e6]; exact hb32
  obtain ⟨h', y', g1, g2, g3, g4, _, _⟩ := deserialize_spec P bytes n hp hy hys cb
    (Nat.lt_of_le_of_lt (total_bits_le 8 bytes n T (by decide) cb e2 (by rw [hval]; exact e3))
      hT32)
  refine ⟨bytes, h', y', f1, g1, g2, g3, by rw [g4, hval], ?_⟩
  exact significant_bits_eq_of_val_eq P hv cx g2 g3 (by rw [g4, hval])

/-- Example of the round trip: 2^61 + 5 (two digits) goes through 8 bytes into a fresh bigint. -/
theorem serialize_deserialize_roundtrip_witness :
    (canonical .gnu128 (exBig [5, 1, 0] 2) ∧ (exBig [0, 0, 0] 1).reallocation_allowed = true ∧
      validStorage (exBig [0, 0, 0] 1)) ∧
    ∃ bytes h' y',
      ffbi_serialize .gnu128 (exHeap [exBig [5, 1, 0] 2, exBig [0, 0, 0] 1] 0) 0
        [0, 0, 0, 0, 0, 0, 0, 0] 8 = some (((8 : Nat) : Int), bytes) ∧
      ffbi_deserialize .gnu128 (exHeap [exBig [5, 1, 0] 2, exBig [0, 0, 0] 1] 0) 1 bytes 8 = some h' ∧
      h'.get 1 = some y' ∧ canonical .gnu128 y' ∧ val .gnu128 y' = val .gnu128 (exBig [5, 1, 0] 2) ∧
      ffbi_get_significant_bits .gnu128 h' 1 =
        ffbi_get_significant_bits .gnu128 (exHeap [exBig [5, 1, 0] 2, exBig [0, 0, 0] 1] 0) 0 :=
  ⟨⟨by decide, rfl, by unfold validStorage; exact ⟨by decide, fun c hc => by cases hc⟩⟩,
   serialize_deserialize_roundtrip .gnu128 (exHeap [exBig [5, 1, 0] 2, exBig [0, 0, 0] 1] 0) 0 1
     (exBig [5, 1, 0] 2) (exBig [0, 0, 0] 1) [0, 0, 0, 0, 0, 0, 0, 0] 8 rfl (by decide) rfl rfl
     (by unfold validStorage; exact ⟨by decide, fun c hc => by cases hc⟩) (by decide) rfl⟩

/-- C9 (the code departs from the claim): the size test of `ffbi_serialize_v2` is inverted.
For the value 258, which needs 2 bytes, a 3-byte buffer is rejected with -1, while a 1-byte
buffer passes the test and the second byte is written out of bounds (a fault in the model). -/
theorem ffbi_serialize_size_check_inverted :
    ffbi_get_serialized_size .gnu128 (exHeap [exBig [258, 0, 0] 1] 0) 0 = some 2 ∧
    ffbi_serialize .gnu128 (exHeap [exBig [258, 0, 0] 1] 0) 0 [9, 9, 9] 3 = some (-1, [9, 9, 9]) ∧
    ffbi_serialize .gnu128 (exHeap [exBig [258, 0, 0] 1] 0) 0 [9] 1 = none ∧
    ffbi_serialize .gnu128 (exHeap [exBig [258, 0, 0] 1] 0) 0 [9, 9] 2 = some (2, [2, 1]) := by
  decide


/-! # Word arithmetic without overflow -/

theorem wadd_eq {w a b : Nat} (h : a + b < 2 ^ w) : wadd w a b = a + b := by
  unfold wadd; exact Nat.mod_eq_of_lt h

theorem wmul_eq {w a b : Nat} (h : a * b < 2 ^ w) : wmul w a b = a * b := by
  unfold wmul; exact Nat.mod_eq_of_lt h

theorem wsub_eq {w a b : Nat} (ha : a < 2 ^ w) (hb : b ≤ a) : wsub w a b = a - b := by
  unfold wsub
  have hbw : b < 2 ^ w := by omega
  rw [Nat.mod_eq_of_lt ha, Nat.mod_eq_of_lt hbw]
  have : a + (2 ^ w - b) = (a - b) + 2 ^ w := by omega
  rw [this, Nat.add_mod_right, Nat.mod_eq_of_lt (by omega)]

theorem wshl_eq {w a s : Nat} (h : a * 2 ^ s < 2 ^ w) : wshl w a s = a * 2 ^ s := by
  unfold wshl; rw [Nat.shiftLeft_eq]; exact Nat.mod_eq_of_lt h

theorem wadd_lt (w a b : Nat) : wadd w a b < 2 ^ w := Nat.mod_lt _ (Nat.two_pow_pos w)

theorem wmul_lt (w a b : Nat) : wmul w a b < 2 ^ w := Nat.mod_lt _ (Nat.two_pow_pos w)

theorem wsub_lt (w a b : Nat) : wsub w a b < 2 ^ w := Nat.mod_lt _ (Nat.two_pow_pos w)

theorem two_pow_succ_le_word (P : Platform) :
    2 ^ (FFBI_BITS_PER_DIGIT P + 1) ≤ 2 ^ FFBI_WORD_SIZE P :=
  Nat.pow_le_pow_right (by decide) (bits_lt_word P)

/-! # Heaps that differ in one digit array -/

theorem Heap.upd_upd (h : Heap) (p : Nat) (x y : FFBI) : (h.upd p x).upd p y = h.upd p y := by
  unfold Heap.upd
  simp [List.set_set]

theorem Heap.withDigits_get {h : Heap} {p : Nat} {x : FFBI} (ds : List Nat)
    (hg : h.get p = some x) : (h.withDigits p x ds).get p = some { x with digits := ds } :=
  Heap.get_upd_same _ hg

theorem Heap.withDigits_get_ne (h : Heap) {p q : Nat} (x : FFBI) (ds : List Nat) (hq : q ≠ p) :
    (h.withDigits p x ds).get q = h.get q :=
  Heap.get_upd_ne _ _ hq

theorem Heap.withDigits_self {h : Heap} {p : Nat} {x : FFBI} (hg : h.get p = some x) :
    h.withDigits p x x.digits = h := by
  unfold Heap.withDigits Heap.upd
  unfold Heap.get at hg
  have : h.obj.set p x = h.obj := by
    apply List.ext_getElem?
    intro i
    rw [List.getElem?_set]
    by_cases hi : p = i
    · subst hi
      rw [if_pos rfl, hg]
      have := Heap.get_lt hg
      simp [this]
    · rw [if_neg hi]
  cases h
  simp only at this ⊢
  rw [this]

theorem rdDigit_withDigits {h : Heap} {p : Nat} {x : FFBI} {ds : List Nat} {j : Nat}
    (hg : h.get p = some x) (hj : j < ds.length) :
    rdDigit (h.withDigits p x ds) p j = some (ds.getD j 0) :=
  rdDigit_eq (Heap.withDigits_get ds hg) hj

theorem wrDigit_withDigits {h : Heap} {p : Nat} {x : FFBI} {ds : List Nat} {i : Nat} (v : Nat)
    (hg : h.get p = some x) (hi : i < ds.length) :
    wrDigit (h.withDigits p x ds) p i v = some (h.withDigits p x (ds.set i v)) := by
  rw [wrDigit_eq v (Heap.withDigits_get ds hg) hi]
  unfold Heap.withDigits
  rw [Heap.upd_upd]

/-- Reading a digit that the loop has not touched gives what the initial heap holds there,
also when the pointer read aliases the destination. -/
theorem rdDigit_withDigits_through {h : Heap} {p : Nat} {x : FFBI} {ds : List Nat} (q j : Nat)
    (hg : h.get p = some x) (hl : ds.length = x.digits.length)
    (hj : ds.getD j 0 = x.digits.getD j 0) :
    rdDigit (h.withDigits p x ds) q j = rdDigit h q j := by
  by_cases hq : q = p
  · subst hq
    unfold rdDigit
    rw [Heap.withDigits_get ds hg, hg, obind_some, obind_some]
    dsimp only
    by_cases hjl : j < ds.length
    · rw [rd_of_lt hjl, rd_of_lt (by omega), hj]
    · unfold rd
      rw [List.getElem?_eq_none (by omega), List.getElem?_eq_none (by omega)]
  · unfold rdDigit
    rw [Heap.withDigits_get_ne h x ds hq]

theorem trim_loop_spec (ds : List Nat) :
    ∀ k, k < ds.length →
      ∃ k', trim_loop ds k = some k' ∧ k' ≤ k ∧ (∀ j, k' < j → j ≤ k → ds.getD j 0 = 0) ∧
        (k' = 0 ∨ ds.getD k' 0 ≠ 0) := by
  intro k
  induction k with
  | zero =>
    intro _
    exact ⟨0, rfl, Nat.le_refl 0, fun j h1 h2 => by omega, Or.inl rfl⟩
  | succ k ih =>
    intro hk
    show ∃ k', obind (rd ds (k + 1)) _ = some k' ∧ _
    rw [rd_of_lt hk, obind_some]
    by_cases hd : ds.getD (k + 1) 0 ≠ 0
    · rw [if_pos hd]
      exact ⟨k + 1, rfl, Nat.le_refl _, fun j h1 h2 => by omega, Or.inr hd⟩
    · rw [if_neg hd]
      obtain ⟨k', e1, e2, e3, e4⟩ := ih (by omega)
      refine ⟨k', e1, by omega, ?_, e4⟩
      intro j h1 h2
      by_cases hj : j = k + 1
      · rw [hj]; simpa using hd
      · exact e3 j h1 (by omega)

theorem digitsVal_trim (bits : Nat) (ds : List Nat) (k' : Nat) :
    ∀ n, k' < n → (∀ j, k' < j → j < n → ds.getD j 0 = 0) →
      digitsVal bits ds n = digitsVal bits ds (k' + 1) := by
  intro n
  induction n with
  | zero => intro h; omega
  | succ n ih =>
    intro h hz
    by_cases hn : n = k'
    · rw [hn]
    · rw [digitsVal_succ, hz n (by omega) (by omega), Nat.zero_mul, Nat.add_zero]
      exact ih (by omega) (fun j h1 h2 => hz j h1 (by omega))


/-! # Subtraction -/

theorem shr_bits_le_one {bits raw : Nat} (h : raw < 2 ^ (bits + 1)) : raw / 2 ^ bits ≤ 1 := by
  have h1 : raw / 2 ^ bits < 2 := by
    rw [Nat.div_lt_iff_lt_mul (Nat.two_pow_pos bits), Nat.mul_comm, ← Nat.pow_succ]
    exact h
  omega

theorem sub_word_both {W B ak bk c : Nat} (hB : 2 * B ≤ 2 ^ W) (hak : ak < B) (hbk : bk < B)
    (hc : c ≤ 1) :
    wsub W (wsub W (wadd W ak B) bk) (wsub W 1 c) = ak + B - bk - (1 - c) := by
  have h1 : wsub W 1 c = 1 - c := wsub_eq (by omega) hc
  have h2 : wadd W ak B = ak + B := wadd_eq (by omega)
  have h3 : wsub W (ak + B) bk = ak + B - bk := wsub_eq (by omega) (by omega)
  rw [h1, h2, h3, wsub_eq (by omega) (by omega)]

theorem sub_word_a {W B ak c : Nat} (hB : 2 * B ≤ 2 ^ W) (hak : ak < B) (hc : c ≤ 1) :
    wsub W (wadd W ak B) (wsub W 1 c) = ak + B - (1 - c) := by
  have h1 : wsub W 1 c = 1 - c := wsub_eq (by omega) hc
  have h2 : wadd W ak B = ak + B := wadd_eq (by omega)
  rw [h1, h2, wsub_eq (by omega) (by omega)]

/-- One iteration of the digit loops of `ffbi_sub` at index `m + 1`.  Before it the digits
below `m` are final, digit `m` still carries its borrow bit, the digits from `m + 1` on are
untouched, and the partial difference on the low `m + 1` digits is `a - b + 2 ^ (D * (m + 1))`;
afterwards the same holds one digit further. -/
theorem sub_step_spec (P : Platform) (h0 : Heap) (dest a b : Nat) (xd0 : FFBI) (A Bd : List Nat)
    (na nb m : Nat) (ds : List Nat) (useB : Bool)
    (hg : h0.get dest = some xd0) (hna : na ≤ xd0.digits.length)
    (hA : ∀ j, j < na → rdDigit h0 a j = some (A.getD j 0))
    (hAlt : ∀ j, j < na → A.getD j 0 < 2 ^ FFBI_BITS_PER_DIGIT P)
    (hB : ∀ j, j < nb → rdDigit h0 b j = some (Bd.getD j 0))
    (hBlt : ∀ j, j < nb → Bd.getD j 0 < 2 ^ FFBI_BITS_PER_DIGIT P)
    (hk : m + 1 < na) (hub : useB = true ↔ m + 1 < nb)
    (i1 : ds.length = xd0.digits.length)
    (i2 : ∀ j, m + 1 ≤ j → ds.getD j 0 = xd0.digits.getD j 0)
    (i3 : ∀ j, j < m → ds.getD j 0 < 2 ^ FFBI_BITS_PER_DIGIT P)
    (i4 : ds.getD m 0 < 2 ^ (FFBI_BITS_PER_DIGIT P + 1))
    (i5 : digitsVal (FFBI_BITS_PER_DIGIT P) ds (m + 1)
        + digitsVal (FFBI_BITS_PER_DIGIT P) Bd (min (m + 1) nb)
      = digitsVal (FFBI_BITS_PER_DIGIT P) A (m + 1) + 2 ^ (FFBI_BITS_PER_DIGIT P * (m + 1))) :
    ∃ ds', sub_step P dest a b true useB (m + 1) (h0.withDigits dest xd0 ds)
        = some (h0.withDigits dest xd0 ds') ∧
      ds'.length = xd0.digits.length ∧
      (∀ j, m + 2 ≤ j → ds'.getD j 0 = xd0.digits.getD j 0) ∧
      (∀ j, j < m + 1 → ds'.getD j 0 < 2 ^ FFBI_BITS_PER_DIGIT P) ∧
      ds'.getD (m + 1) 0 < 2 ^ (FFBI_BITS_PER_DIGIT P + 1) ∧
      digitsVal (FFBI_BITS_PER_DIGIT P) ds' (m + 2)
          + digitsVal (FFBI_BITS_PER_DIGIT P) Bd (min (m + 2) nb)
        = digitsVal (FFBI_BITS_PER_DIGIT P) A (m + 2) + 2 ^ (FFBI_BITS_PER_DIGIT P * (m + 2)) := by
  have hW := two_pow_succ_le_word P
  have hD1 : 2 ^ (FFBI_BITS_PER_DIGIT P + 1) = 2 * 2 ^ FFBI_BITS_PER_DIGIT P := by
    rw [Nat.pow_succ]; ring
  generalize hDdef : FFBI_BITS_PER_DIGIT P = D at *
  generalize hWdef : FFBI_WORD_SIZE P = W at *
  generalize hraw : ds.getD m 0 = raw at *
  have hc := shr_bits_le_one i4
  have hsplit := Nat.div_add_mod raw (2 ^ D)
  have hout : raw % 2 ^ D < 2 ^ D := Nat.mod_lt _ (Nat.two_pow_pos D)
  have hAk := hAlt (m + 1) hk
  have hpowD : 0 < 2 ^ D := Nat.two_pow_pos D
  have hB2 : 2 * 2 ^ D ≤ 2 ^ W := by rw [← hD1]; exact hW
  have hthru : ∀ q, rdDigit (h0.withDigits dest xd0 (ds.set m (raw % 2 ^ D))) q (m + 1)
      = rdDigit h0 q (m + 1) := by
    intro q
    apply rdDigit_withDigits_through q (m + 1) hg (by rw [List.length_set, i1])
    rw [getD_set_ne _ _ (by omega)]
    exact i2 (m + 1) (Nat.le_refl _)
  -- the value written at digit m + 1
  have hv : ∃ v, (if true = true then
        obind (rdDigit (h0.withDigits dest xd0 (ds.set m (raw % 2 ^ D))) a (m + 1)) fun ak =>
        if useB = true then
          obind (rdDigit (h0.withDigits dest xd0 (ds.set m (raw % 2 ^ D))) b (m + 1)) fun bk =>
          some (wsub W (wsub W (wadd W ak (digit_max_plus_1 P)) bk) (wsub W 1 (raw >>> D)))
        else some (wsub W (wadd W ak (digit_max_plus_1 P)) (wsub W 1 (raw >>> D)))
      else
        obind (rdDigit (h0.withDigits dest xd0 (ds.set m (raw % 2 ^ D))) b (m + 1)) fun bk =>
        some (wsub W (wsub W (digit_max_plus_1 P) bk) (wsub W 1 (raw >>> D)))) = some v ∧
      v + (if m + 1 < nb then Bd.getD (m + 1) 0 else 0) + 1
        = A.getD (m + 1) 0 + 2 ^ D + raw / 2 ^ D := by
    rw [if_pos rfl, hthru a, hA (m + 1) hk, obind_some, digit_max_plus_1_eq, hDdef,
      Nat.shiftRight_eq_div_pow]
    by_cases hkb : m + 1 < nb
    · rw [if_pos (hub.mpr hkb), hthru b, hB (m + 1) hkb, obind_some,
        sub_word_both hB2 hAk (hBlt (m + 1) hkb) hc]
      have hBk := hBlt (m + 1) hkb
      refine ⟨_, rfl, ?_⟩
      rw [if_pos hkb]
      generalize raw / 2 ^ D = c at *
      generalize 2 ^ D = B at *
      omega
    · have hu : ¬ useB = true := fun h => hkb (hub.mp h)
      rw [if_neg hu, sub_word_a hB2 hAk hc]
      refine ⟨_, rfl, ?_⟩
      rw [if_neg hkb]
      generalize raw / 2 ^ D = c at *
      generalize 2 ^ D = B at *
      omega
  obtain ⟨v, hv1, hv2⟩ := hv
  refine ⟨(ds.set m (raw % 2 ^ D)).set (m + 1) v, ?_, ?_, ?_, ?_, ?_, ?_⟩
  · unfold sub_step
    dsimp only
    rw [Nat.add_sub_cancel, hWdef, hDdef, rdDigit_withDigits hg (by omega), obind_some, hraw,
      wrDigit_withDigits _ hg (by omega), obind_some, land_digit_max_eq, hDdef, hv1, obind_some,
      wrDigit_withDigits _ hg (by rw [List.length_set]; omega)]
  · rw [List.length_set, List.length_set, i1]
  · intro j hj
    rw [getD_set_ne _ _ (by omega), getD_set_ne _ _ (by omega)]
    exact i2 j (by omega)
  · intro j hj
    rw [getD_set_ne _ _ (by omega)]
    by_cases hjk : j = m
    · rw [hjk, getD_set_same _ (by omega)]
      exact hout
    · rw [getD_set_ne _ _ hjk]
      exact i3 j (by omega)
  · rw [getD_set_same _ (by rw [List.length_set]; omega), hD1]
    generalize (if m + 1 < nb then Bd.getD (m + 1) 0 else 0) = bk at *
    generalize raw / 2 ^ D = c at *
    generalize 2 ^ D = B at *
    omega
  · -- the arithmetic of one borrow step
    rw [digitsVal_succ, getD_set_same _ (by rw [List.length_set]; omega),
      digitsVal_set_ge _ _ _ _ _ (Nat.le_refl (m + 1)), digitsVal_succ,
      getD_set_same _ (by omega), digitsVal_set_ge _ _ _ _ _ (Nat.le_refl m)]
    rw [digitsVal_succ, hraw] at i5
    have e3 : 2 ^ (D * (m + 1)) = 2 ^ D * 2 ^ (D * m) := by
      rw [← Nat.pow_add]; congr 1
      rw [Nat.mul_succ]; omega
    have e4 : 2 ^ (D * (m + 2)) = 2 ^ D * 2 ^ (D * (m + 1)) := by
      rw [← Nat.pow_add]; congr 1
      rw [Nat.mul_succ]; omega
    have e5 : digitsVal D Bd (min (m + 2) nb)
        = digitsVal D Bd (min (m + 1) nb)
          + (if m + 1 < nb then Bd.getD (m + 1) 0 else 0) * 2 ^ (D * (m + 1)) := by
      by_cases hkb : m + 1 < nb
      · rw [if_pos hkb, Nat.min_eq_left (by omega), Nat.min_eq_left (by omega), digitsVal_succ]
      · rw [if_neg hkb, Nat.min_eq_right (by omega), Nat.min_eq_right (by omega)]
        simp
    rw [e5, digitsVal_succ D A, e4, e3]
    rw [e3] at i5
    generalize digitsVal D ds m = S at *
    generalize digitsVal D Bd (min (m + 1) nb) = VB at *
    generalize digitsVal D A (m + 1) = VA at *
    generalize (if m + 1 < nb then Bd.getD (m + 1) 0 else 0) = bk at *
    generalize A.getD (m + 1) 0 = ak at *
    generalize 2 ^ (D * m) = Y at *
    generalize raw / 2 ^ D = c at *
    generalize raw % 2 ^ D = out at *
    generalize 2 ^ D = B at *
    have hraw2 : raw = B * c + out := hsplit.symm
    subst hraw2
    have key : (v + bk + 1) * (B * Y) = (ak + B + c) * (B * Y) := by rw [hv2]
    linarith [key, i5]

/-! ## Frames -/

theorem Heap.frame_refl (S : List Nat) (h : Heap) : Heap.frame S h h :=
  ⟨Nat.le_refl _, fun _ _ _ => rfl⟩

theorem Heap.frame_trans {S S' : List Nat} {h h1 h2 : Heap} (f1 : Heap.frame S h h1)
    (f2 : Heap.frame S' h1 h2) (hS : ∀ q, q ∈ S → q ∈ S') : Heap.frame S' h h2 := by
  refine ⟨Nat.le_trans f1.1 f2.1, ?_⟩
  intro q hq hn
  rw [f2.2 q (Nat.lt_of_lt_of_le hq f1.1) hn, f1.2 q hq (fun hm => hn (hS q hm))]

theorem Heap.frame_mono {S S' : List Nat} {h h' : Heap} (f : Heap.frame S h h')
    (hS : ∀ q, q ∈ S → q ∈ S') : Heap.frame S' h h' :=
  ⟨f.1, fun q hq hn => f.2 q hq (fun hm => hn (hS q hm))⟩

theorem Heap.frame_upd (h : Heap) (p : Nat) (y : FFBI) : Heap.frame [p] h (h.upd p y) := by
  refine ⟨by rw [Heap.upd_obj_length], ?_⟩
  intro q _ hn
  exact Heap.get_upd_ne h y (by simpa using hn)

theorem Heap.frame_of_get_ne {h h' : Heap} {p : Nat} (hl : h'.obj.length = h.obj.length)
    (hq : ∀ q, q ≠ p → h'.get q = h.get q) : Heap.frame [p] h h' :=
  ⟨by omega, fun q _ hn => hq q (by simpa using hn)⟩

theorem Heap.frame_get {S : List Nat} {h h' : Heap} {q : Nat} {x : FFBI} (f : Heap.frame S h h')
    (hg : h.get q = some x) (hn : q ∉ S) : h'.get q = some x := by
  rw [f.2 q (Heap.get_lt hg) hn, hg]

/-- A run of iterations of a digit loop of `ffbi_sub`, from index `s + 1` to `s + n`. -/
theorem sub_loop_spec (P : Platform) (h0 : Heap) (dest a b : Nat) (xd0 : FFBI) (A Bd : List Nat)
    (na nb : Nat) (useB : Bool)
    (hg : h0.get dest = some xd0) (hna : na ≤ xd0.digits.length)
    (hA : ∀ j, j < na → rdDigit h0 a j = some (A.getD j 0))
    (hAlt : ∀ j, j < na → A.getD j 0 < 2 ^ FFBI_BITS_PER_DIGIT P)
    (hB : ∀ j, j < nb → rdDigit h0 b j = some (Bd.getD j 0))
    (hBlt : ∀ j, j < nb → Bd.getD j 0 < 2 ^ FFBI_BITS_PER_DIGIT P)
    (n s : Nat) (ds : List Nat) (hend' : n = 0 ∨ s + n < na)
    (hub : ∀ i, s + 1 ≤ i → i < s + 1 + n → (useB = true ↔ i < nb))
    (i1 : ds.length = xd0.digits.length)
    (i2 : ∀ j, s + 1 ≤ j → ds.getD j 0 = xd0.digits.getD j 0)
    (i3 : ∀ j, j < s → ds.getD j 0 < 2 ^ FFBI_BITS_PER_DIGIT P)
    (i4 : ds.getD s 0 < 2 ^ (FFBI_BITS_PER_DIGIT P + 1))
    (i5 : digitsVal (FFBI_BITS_PER_DIGIT P) ds (s + 1)
        + digitsVal (FFBI_BITS_PER_DIGIT P) Bd (min (s + 1) nb)
      = digitsVal (FFBI_BITS_PER_DIGIT P) A (s + 1) + 2 ^ (FFBI_BITS_PER_DIGIT P * (s + 1))) :
    ∃ ds', forUp (sub_step P dest a b true useB) n (s + 1) (h0.withDigits dest xd0 ds)
        = some (h0.withDigits dest xd0 ds') ∧
      ds'.length = xd0.digits.length ∧
      (∀ j, s + n + 1 ≤ j → ds'.getD j 0 = xd0.digits.getD j 0) ∧
      (∀ j, j < s + n → ds'.getD j 0 < 2 ^ FFBI_BITS_PER_DIGIT P) ∧
      ds'.getD (s + n) 0 < 2 ^ (FFBI_BITS_PER_DIGIT P + 1) ∧
      digitsVal (FFBI_BITS_PER_DIGIT P) ds' (s + n + 1)
          + digitsVal (FFBI_BITS_PER_DIGIT P) Bd (min (s + n + 1) nb)
        = digitsVal (FFBI_BITS_PER_DIGIT P) A (s + n + 1)
          + 2 ^ (FFBI_BITS_PER_DIGIT P * (s + n + 1)) := by
  have key := forUp_inv (sub_step P dest a b true useB)
    (fun i (h : Heap) => ∃ m ds', i = m + 1 ∧ h = h0.withDigits dest xd0 ds' ∧
      ds'.length = xd0.digits.length ∧
      (∀ j, m + 1 ≤ j → ds'.getD j 0 = xd0.digits.getD j 0) ∧
      (∀ j, j < m → ds'.getD j 0 < 2 ^ FFBI_BITS_PER_DIGIT P) ∧
      ds'.getD m 0 < 2 ^ (FFBI_BITS_PER_DIGIT P + 1) ∧
      digitsVal (FFBI_BITS_PER_DIGIT P) ds' (m + 1)
          + digitsVal (FFBI_BITS_PER_DIGIT P) Bd (min (m + 1) nb)
        = digitsVal (FFBI_BITS_PER_DIGIT P) A (m + 1) + 2 ^ (FFBI_BITS_PER_DIGIT P * (m + 1)))
    n (s + 1) (h0.withDigits dest xd0 ds)
    ⟨s, ds, rfl, rfl, i1, i2, i3, i4, i5⟩
    (by
      intro i t hi1 hi2 ⟨m, ds1, e0, e1, e2, e3, e4, e5, e6⟩
      subst e0 e1
      obtain ⟨ds2, f1, f2, f3, f4, f5, f6⟩ := sub_step_spec P h0 dest a b xd0 A Bd na nb m ds1 useB
        hg hna hA hAlt hB hBlt (by omega) (hub (m + 1) hi1 hi2) e2 e3 e4 e5 e6
      exact ⟨_, f1, m + 1, ds2, rfl, rfl, f2, f3, f4, f5, f6⟩)
  obtain ⟨h', hh, m, ds', e0, e1, e2, e3, e4, e5, e6⟩ := key
  have hm : m = s + n := by omega
  subst hm
  subst e1
  exact ⟨ds', hh, e2, e3, e4, e5, e6⟩

/-- The state of the destination after the optional reallocation at the start of `ffbi_sub`
and `ffbi_add` when the destination does not alias an operand. -/
theorem realloc_fresh_dest (P : Platform) {h : Heap} {dest : Nat} {xd : FFBI} (need target : Nat)
    (hgd : h.get dest = some xd) (hr : xd.reallocation_allowed = true) (hvs : validStorage xd)
    (hnt : need ≤ target) :
    ∃ h0 xd0, (if xd.num_allocated_digits < need then
          ffbi_reallocate_digits P h dest target false else some h) = some h0 ∧
      h0.get dest = some xd0 ∧ need ≤ xd0.num_allocated_digits ∧
      xd0.num_allocated_digits ≤ xd0.digits.length ∧
      xd.num_allocated_digits ≤ xd0.num_allocated_digits ∧
      xd0.reallocation_allowed = true ∧ xd0.cache = xd.cache ∧
      xd0.cache_num_allocated_digits = xd.cache_num_allocated_digits ∧
      xd0.cache_num_used_digits = xd.cache_num_used_digits ∧
      xd0.cache_bits_per_digit = xd.cache_bits_per_digit ∧
      Heap.frame [dest] h h0 ∧ h0.obj.length = h.obj.length ∧ h0.scr = h.scr := by
  by_cases hlt : xd.num_allocated_digits < need
  · rw [if_pos hlt]
    obtain ⟨h0, arr, e1, e2, e3, e4, e5, e6⟩ := realloc_discard_spec P target hgd hr (by omega)
    refine ⟨h0, _, e1, e3, ?_, ?_, ?_, hr, rfl, rfl, rfl, rfl, Heap.frame_of_get_ne e5 e4, e5, e6⟩
    · dsimp only
      have := Nat.le_max_left target FFBI_MIN_ALLOC_DIGITS
      omega
    · dsimp only; omega
    · dsimp only
      have := Nat.le_max_left target FFBI_MIN_ALLOC_DIGITS
      omega
  · rw [if_neg hlt]
    exact ⟨h, xd, rfl, hgd, by omega, hvs.1, Nat.le_refl _, hr, rfl, rfl, rfl, rfl,
      Heap.frame_refl _ _, rfl, rfl⟩

/-- The optional reallocation of a destination whose old value is not needed. -/
theorem realloc_if_small (P : Platform) {h : Heap} {dest : Nat} {xd : FFBI} (need target : Nat)
    (hgd : h.get dest = some xd)
    (hr : xd.num_allocated_digits < need → xd.reallocation_allowed = true)
    (hvs : validStorage xd) (hnt : need ≤ target) :
    ∃ h0 xd0, (if xd.num_allocated_digits < need then
          ffbi_reallocate_digits P h dest target false else some h) = some h0 ∧
      h0.get dest = some xd0 ∧ need ≤ xd0.num_allocated_digits ∧
      xd0.num_allocated_digits ≤ xd0.digits.length ∧
      xd.num_allocated_digits ≤ xd0.num_allocated_digits ∧
      xd0.reallocation_allowed = xd.reallocation_allowed ∧ xd0.cache = xd.cache ∧
      xd0.cache_num_allocated_digits = xd.cache_num_allocated_digits ∧
      xd0.cache_num_used_digits = xd.cache_num_used_digits ∧
      xd0.cache_bits_per_digit = xd.cache_bits_per_digit ∧
      Heap.frame [dest] h h0 ∧ h0.obj.length = h.obj.length ∧ h0.scr = h.scr := by
  by_cases hlt : xd.num_allocated_digits < need
  · obtain ⟨h0, xd0, e⟩ := realloc_fresh_dest P need target hgd (hr hlt) hvs hnt
    obtain ⟨e1, e2, e3, e4, e5, e6, e7⟩ := e
    exact ⟨h0, xd0, e1, e2, e3, e4, e5, e6.trans (hr hlt).symm, e7⟩
  · rw [if_neg hlt]
    exact ⟨h, xd, rfl, hgd, by omega, hvs.1, Nat.le_refl _, rfl, rfl, rfl, rfl, rfl,
      Heap.frame_refl _ _, rfl, rfl⟩

theorem nb_le_na_of_val_le (bits : Nat) (a b : List Nat) (na nb : Nat)
    (ca : canonicalDigits bits a na) (cb : canonicalDigits bits b nb)
    (hle : digitsVal bits b nb ≤ digitsVal bits a na) : nb ≤ na := by
  by_contra hc
  have := canonical_lt_of_length_lt bits a b na nb ca cb (by omega)
  omega

/-- The body of `ffbi_sub` after the optional reallocation. -/
theorem sub_core_spec (P : Platform) (h0 : Heap) (dest a b : Nat) (xd0 : FFBI) (A Bd : List Nat)
    (na nb : Nat)
    (hg : h0.get dest = some xd0) (hna : na ≤ xd0.digits.length)
    (hA : ∀ j, j < na → rdDigit h0 a j = some (A.getD j 0))
    (hAlt : ∀ j, j < na → A.getD j 0 < 2 ^ FFBI_BITS_PER_DIGIT P)
    (hB : ∀ j, j < nb → rdDigit h0 b j = some (Bd.getD j 0))
    (hBlt : ∀ j, j < nb → Bd.getD j 0 < 2 ^ FFBI_BITS_PER_DIGIT P)
    (hnb1 : 1 ≤ nb) (hnba : nb ≤ na)
    (hle : digitsVal (FFBI_BITS_PER_DIGIT P) Bd nb ≤ digitsVal (FFBI_BITS_PER_DIGIT P) A na) :
    ∃ ds n',
      (obind (rdDigit h0 a 0) fun a0 =>
        obind (rdDigit h0 b 0) fun b0 =>
        obind (wrDigit h0 dest 0
          (wsub (FFBI_WORD_SIZE P) (wadd (FFBI_WORD_SIZE P) a0 (digit_max_plus_1 P)) b0)) fun h =>
        obind (forUp (sub_step P dest a b true true) (nb - 1) 1 h) fun h =>
        obind (if nb > na then
            forUp (sub_step P dest a b false true) (na - (if nb > 1 then nb else 1))
              (if nb > 1 then nb else 1) h
          else
            forUp (sub_step P dest a b true false) (na - (if nb > 1 then nb else 1))
              (if nb > 1 then nb else 1) h) fun h =>
        obind (rdDigit h dest ((if na > (if nb > 1 then nb else 1) then na
            else (if nb > 1 then nb else 1)) - 1)) fun top =>
        obind (wrDigit h dest ((if na > (if nb > 1 then nb else 1) then na
            else (if nb > 1 then nb else 1)) - 1) (top &&& digit_max P)) fun h =>
        obind (h.get dest) fun xd =>
        obind (trim_loop xd.digits ((if na > (if nb > 1 then nb else 1) then na
            else (if nb > 1 then nb else 1)) - 1)) fun k =>
        modify h dest (fun x => { x with num_used_digits := k + 1, cache_valid := false }))
      = some (h0.upd dest { xd0 with digits := ds, num_used_digits := n', cache_valid := false }) ∧
      ds.length = xd0.digits.length ∧
      canonicalDigits (FFBI_BITS_PER_DIGIT P) ds n' ∧ n' ≤ na ∧
      digitsVal (FFBI_BITS_PER_DIGIT P) ds n'
        = digitsVal (FFBI_BITS_PER_DIGIT P) A na - digitsVal (FFBI_BITS_PER_DIGIT P) Bd nb := by
  have hW := two_pow_succ_le_word P
  have hD1 : 2 ^ (FFBI_BITS_PER_DIGIT P + 1) = 2 * 2 ^ FFBI_BITS_PER_DIGIT P := by
    rw [Nat.pow_succ]; ring
  have hk1 : (if nb > 1 then nb else 1) = nb := by
    by_cases h : nb > 1
    · rw [if_pos h]
    · rw [if_neg h]; omega
  have hk2 : (if na > nb then na else nb) = na := by
    by_cases h : na > nb
    · rw [if_pos h]
    · rw [if_neg h]; omega
  have hngt : ¬ nb > na := by omega
  rw [hk1, hk2]
  simp only [if_neg hngt]
  rw [hA 0 (by omega), obind_some, hB 0 (by omega), obind_some, digit_max_plus_1_eq]
  have ha0 := hAlt 0 (by omega)
  have hb0 := hBlt 0 (by omega)
  have hraw0 : wsub (FFBI_WORD_SIZE P)
      (wadd (FFBI_WORD_SIZE P) (A.getD 0 0) (2 ^ FFBI_BITS_PER_DIGIT P)) (Bd.getD 0 0)
      = A.getD 0 0 + 2 ^ FFBI_BITS_PER_DIGIT P - Bd.getD 0 0 := by
    rw [wadd_eq (by omega), wsub_eq (by omega) (by omega)]
  rw [hraw0, wrDigit_eq _ hg (by omega), obind_some]
  -- first loop: digits of both operands
  obtain ⟨ds1, l1, e1, e2, e3, e4, e5⟩ := sub_loop_spec P h0 dest a b xd0 A Bd na nb true hg hna
    hA hAlt hB hBlt (nb - 1) 0
    (xd0.digits.set 0 (A.getD 0 0 + 2 ^ FFBI_BITS_PER_DIGIT P - Bd.getD 0 0))
    (by omega) (fun i h1 h2 => ⟨fun _ => by omega, fun _ => rfl⟩)
    (by rw [List.length_set])
    (fun j hj => getD_set_ne _ _ (by omega))
    (fun j hj => by omega)
    (by rw [getD_set_same _ (by omega)]; omega)
    (by
      rw [Nat.min_eq_left (by omega)]
      simp only [digitsVal, Nat.zero_add, Nat.mul_zero, Nat.pow_zero, Nat.mul_one]
      rw [getD_set_same _ (by omega)]
      omega)
  have hh1 : ∀ v, h0.upd dest { xd0 with digits := v } = h0.withDigits dest xd0 v := fun _ => rfl
  rw [hh1]
  rw [Nat.zero_add] at l1 e2 e3 e4 e5
  rw [l1, obind_some]
  have hnb' : nb - 1 + 1 = nb := by omega
  rw [hnb'] at e2 e5
  -- second loop: the remaining digits of a
  obtain ⟨ds2, l2, f1, f2, f3, f4, f5⟩ := sub_loop_spec P h0 dest a b xd0 A Bd na nb false hg hna
    hA hAlt hB hBlt (na - nb) (nb - 1) ds1
    (by omega) (fun i h1 h2 => ⟨fun h => Bool.noConfusion h, fun h => absurd h (by omega)⟩)
    e1 (by rw [hnb']; exact e2) e3 e4 (by rw [hnb']; exact e5)
  rw [hnb'] at l2
  rw [l2, obind_some]
  have hna' : nb - 1 + (na - nb) = na - 1 := by omega
  have hna'' : na - 1 + 1 = na := by omega
  rw [hna'] at f2 f3 f4 f5
  rw [hna''] at f2 f5
  rw [Nat.min_eq_right hnba] at f5
  -- the final mask and the trimming
  rw [rdDigit_withDigits hg (by omega), obind_some, wrDigit_withDigits _ hg (by omega), obind_some,
    Heap.withDigits_get _ hg, obind_some, land_digit_max_eq]
  dsimp only
  generalize hraw : ds2.getD (na - 1) 0 = raw at *
  have hlen3 : (ds2.set (na - 1) (raw % 2 ^ FFBI_BITS_PER_DIGIT P)).length = xd0.digits.length := by
    rw [List.length_set, f1]
  obtain ⟨k', t1, t2, t3, t4⟩ := trim_loop_spec (ds2.set (na - 1) (raw % 2 ^ FFBI_BITS_PER_DIGIT P))
    (na - 1) (by omega)
  rw [t1, obind_some, modify_eq _ (Heap.withDigits_get _ hg)]
  unfold Heap.withDigits
  rw [Heap.upd_upd]
  have hnorm : ∀ j, j < na →
      (ds2.set (na - 1) (raw % 2 ^ FFBI_BITS_PER_DIGIT P)).getD j 0 < 2 ^ FFBI_BITS_PER_DIGIT P := by
    intro j hj
    by_cases hjk : j = na - 1
    · rw [hjk, getD_set_same _ (by omega)]
      exact Nat.mod_lt _ (Nat.two_pow_pos _)
    · rw [getD_set_ne _ _ hjk]
      exact f3 j (by omega)
  have hval : digitsVal (FFBI_BITS_PER_DIGIT P)
      (ds2.set (na - 1) (raw % 2 ^ FFBI_BITS_PER_DIGIT P)) na
      = digitsVal (FFBI_BITS_PER_DIGIT P) A na - digitsVal (FFBI_BITS_PER_DIGIT P) Bd nb := by
    have hlt := digitsVal_lt _ _ na hnorm
    have hc := shr_bits_le_one f4
    have hsplit := Nat.div_add_mod raw (2 ^ FFBI_BITS_PER_DIGIT P)
    have e6 : 2 ^ (FFBI_BITS_PER_DIGIT P * (na - 1 + 1))
        = 2 ^ FFBI_BITS_PER_DIGIT P * 2 ^ (FFBI_BITS_PER_DIGIT P * (na - 1)) := by
      rw [← Nat.pow_add]; congr 1
      rw [Nat.mul_succ]; omega
    have e7 : digitsVal (FFBI_BITS_PER_DIGIT P)
        (ds2.set (na - 1) (raw % 2 ^ FFBI_BITS_PER_DIGIT P)) (na - 1 + 1)
        = digitsVal (FFBI_BITS_PER_DIGIT P) ds2 (na - 1)
          + raw % 2 ^ FFBI_BITS_PER_DIGIT P * 2 ^ (FFBI_BITS_PER_DIGIT P * (na - 1)) := by
      rw [digitsVal_succ, getD_set_same _ (by omega), digitsVal_set_ge _ _ _ _ _ (Nat.le_refl _)]
    have e8 : digitsVal (FFBI_BITS_PER_DIGIT P) ds2 (na - 1 + 1)
        = digitsVal (FFBI_BITS_PER_DIGIT P) ds2 (na - 1)
          + raw * 2 ^ (FFBI_BITS_PER_DIGIT P * (na - 1)) := by
      rw [digitsVal_succ, hraw]
    rw [hna''] at e6 e7 e8
    rw [e7] at hlt ⊢
    rw [e8, e6] at f5
    rw [e6] at hlt
    generalize digitsVal (FFBI_BITS_PER_DIGIT P) ds2 (na - 1) = S at *
    generalize digitsVal (FFBI_BITS_PER_DIGIT P) Bd nb = VB at *
    generalize digitsVal (FFBI_BITS_PER_DIGIT P) A na = VA at *
    generalize 2 ^ (FFBI_BITS_PER_DIGIT P * (na - 1)) = Y at *
    generalize raw / 2 ^ FFBI_BITS_PER_DIGIT P = c at *
    generalize raw % 2 ^ FFBI_BITS_PER_DIGIT P = out at *
    generalize 2 ^ FFBI_BITS_PER_DIGIT P = B at *
    have hraw2 : raw = B * c + out := hsplit.symm
    subst hraw2
    have hc1 : c = 1 := by
      by_contra hne
      have hc0 : c = 0 := by omega
      subst hc0
      have : S + out * Y + VB = VA + B * Y := by linarith [f5]
      omega
    subst hc1
    have : S + out * Y + VB = VA := by linarith [f5]
    omega
  refine ⟨_, k' + 1, rfl, hlen3, ⟨by omega, by rw [hlen3]; omega, fun i hi => hnorm i (by omega), ?_⟩,
    by omega, ?_⟩
  · rcases t4 with t4 | t4
    · left; omega
    · right; rw [Nat.add_sub_cancel]; exact t4
  · rw [← hval]
    by_cases hkn : k' + 1 = na
    · rw [hkn]
    · exact (digitsVal_trim _ _ k' na (by omega) (fun j h1 h2 => t3 j h1 (by omega))).symm


/-- Correctness of `ffbi_sub`: with `val a ≥ val b` and a destination that is `a` itself or a
growable bigint distinct from both operands, the call succeeds and leaves the difference,
in canonical form, in the destination; no other bigint changes. -/
theorem ffbi_sub_spec (P : Platform) (h : Heap) (dest a b : Nat) (xa xb xd : FFBI)
    (hga : h.get a = some xa) (hgb : h.get b = some xb) (hgd : h.get dest = some xd)
    (wa : wellFormed P xa) (wb : wellFormed P xb) (hle : val P xb ≤ val P xa)
    (hd : dest = a ∨ (dest ≠ a ∧ dest ≠ b ∧ validStorage xd ∧
      (xd.num_allocated_digits < xa.num_used_digits → xd.reallocation_allowed = true))) :
    ∃ h' xd', ffbi_sub P h dest a b = some h' ∧ h'.get dest = some xd' ∧
      canonical P xd' ∧ val P xd' = val P xa - val P xb ∧ xd'.cache_valid = false ∧
      Heap.frame [dest] h h' ∧ h'.obj.length = h.obj.length ∧ h'.scr = h.scr ∧
      xd'.num_used_digits ≤ xa.num_used_digits ∧
      xd.num_allocated_digits ≤ xd'.num_allocated_digits ∧
      xd'.num_used_digits ≤ xd'.num_allocated_digits ∧ validStorage xd' ∧
      xd'.reallocation_allowed = xd.reallocation_allowed := by
  obtain ⟨ca, hua, hsa⟩ := wa
  obtain ⟨cb, hub, hsb⟩ := wb
  have hnba : xb.num_used_digits ≤ xa.num_used_digits :=
    nb_le_na_of_val_le _ _ _ _ _ ca cb hle
  have hmax : (if xb.num_used_digits > xa.num_used_digits then xb.num_used_digits
      else xa.num_used_digits) = xa.num_used_digits := if_neg (by omega)
  have hmin : (if xb.num_used_digits > xa.num_used_digits then xa.num_used_digits
      else xb.num_used_digits) = xb.num_used_digits := if_neg (by omega)
  have hla := hsa.1
  have hlb := hsb.1
  unfold ffbi_sub
  rw [hga, obind_some, hgb, obind_some]
  dsimp only
  rw [hgd, obind_some, hmax, hmin]
  clear hmax hmin
  rcases hd with hd | ⟨hda, hdb, hvs, hr⟩
  · subst hd
    have hxd : xd = xa := by rw [hga] at hgd; exact (Option.some.inj hgd).symm
    subst hxd
    rw [if_neg (by omega), obind_some]
    obtain ⟨ds, n', e1, e2, e3, e4, e5⟩ := sub_core_spec P h dest dest b xd xd.digits xb.digits
      xd.num_used_digits xb.num_used_digits hga (by omega)
      (fun j hj => rdDigit_eq hga (by omega)) ca.2.2.1
      (fun j hj => rdDigit_eq hgb (by omega)) cb.2.2.1 cb.1 hnba hle
    refine ⟨_, _, e1, Heap.get_upd_same _ hga, e3, e5, rfl, Heap.frame_upd _ _ _,
      Heap.upd_obj_length _ _ _, Heap.upd_scr _ _ _, e4, Nat.le_refl _, ?_, ?_, rfl⟩
    · dsimp only; omega
    · exact ⟨by dsimp only; omega, hsa.2⟩
  · rw [if_pos hda]
    obtain ⟨h0, xd0, r1, r2, r3, r4, r5, r6, r7, r8, r9, r10, r11, r12, r13⟩ :=
      realloc_if_small P xa.num_used_digits (xa.num_used_digits * 2 + 1) hgd hr hvs (by omega)
    rw [r1, obind_some]
    have hga0 : h0.get a = some xa :=
      Heap.frame_get r11 hga (by simpa using fun he => hda he.symm)
    have hgb0 : h0.get b = some xb :=
      Heap.frame_get r11 hgb (by simpa using fun he => hdb he.symm)
    obtain ⟨ds, n', e1, e2, e3, e4, e5⟩ := sub_core_spec P h0 dest a b xd0 xa.digits xb.digits
      xa.num_used_digits xb.num_used_digits r2 (by omega)
      (fun j hj => rdDigit_eq hga0 (by omega)) ca.2.2.1
      (fun j hj => rdDigit_eq hgb0 (by omega)) cb.2.2.1 cb.1 hnba hle
    refine ⟨_, _, e1, Heap.get_upd_same _ r2, e3, e5, rfl,
      Heap.frame_trans r11 (Heap.frame_upd _ _ _) (fun _ hq => hq),
      by rw [Heap.upd_obj_length, r12], by rw [Heap.upd_scr, r13], e4, r5, ?_, ?_, r6⟩
    · dsimp only; omega
    · refine ⟨by dsimp only; omega, ?_⟩
      dsimp only
      rw [r7, r8]
      exact hvs.2

theorem digitsVal_set_add (bits : Nat) (ds : List Nat) (i v : Nat) (hi : i < ds.length) :
    ∀ n, i < n → digitsVal bits (ds.set i v) n + ds.getD i 0 * 2 ^ (bits * i)
      = digitsVal bits ds n + v * 2 ^ (bits * i) := by
  intro n
  induction n with
  | zero => intro h; omega
  | succ n ih =>
    intro h
    rw [digitsVal_succ, digitsVal_succ]
    by_cases hn : i = n
    · subst hn
      rw [digitsVal_set_ge _ _ _ _ _ (Nat.le_refl _), getD_set_same _ hi]
      omega
    · have := ih (by omega)
      rw [getD_set_ne _ _ (fun h => hn h.symm)]
      omega

theorem rdDigit_withDigits_ne (h : Heap) {p q : Nat} (x : FFBI) (ds : List Nat) (j : Nat)
    (hq : q ≠ p) : rdDigit (h.withDigits p x ds) q j = rdDigit h q j := by
  unfold rdDigit
  rw [Heap.withDigits_get_ne h x ds hq]

/-- Sixty-four column terms and the incoming carry fit in a machine word. -/
theorem mul_word_bound (P : Platform) :
    64 * ((2 ^ FFBI_BITS_PER_DIGIT P - 1) * 2 ^ FFBI_BITS_PER_DIGIT P) < 2 ^ FFBI_WORD_SIZE P := by
  cases P <;> decide

theorem mulCount_zero (bl j : Nat) : mulCount bl 0 0 j = 0 := by
  unfold mulCount
  rw [if_neg (by omega)]
  omega

theorem mulCount_step (bl k i j : Nat) :
    mulCount bl k (i + 1) j = mulCount bl k i j + (if j = k + i then 1 else 0) := by
  unfold mulCount
  by_cases h1 : k ≤ j ∧ j < k + i
  · rw [if_pos h1, if_pos (by omega), if_neg (by omega)]
  · rw [if_neg h1]
    by_cases h2 : j = k + i
    · rw [if_pos h2, if_pos (by omega)]
    · rw [if_neg h2, if_neg (by omega)]

theorem mulCount_row (bl k j : Nat) : mulCount bl k bl j = mulCount bl (k + 1) 0 j := by
  unfold mulCount
  rw [if_neg (show ¬ (k + 1 ≤ j ∧ j < k + 1 + 0) by omega)]
  by_cases h1 : k ≤ j ∧ j < k + bl
  · rw [if_pos h1]; omega
  · rw [if_neg h1]; omega

theorem mulCount_le (bl k i j : Nat) (hi : i ≤ bl) :
    mulCount bl k i j ≤ min (k + 1) bl ∧ mulCount bl k 0 j ≤ min k bl := by
  unfold mulCount
  rw [if_neg (show ¬ (k ≤ j ∧ j < k + 0) by omega)]
  by_cases h1 : k ≤ j ∧ j < k + i
  · rw [if_pos h1]; omega
  · rw [if_neg h1]; omega

theorem mul_acc_bound {B W c d ak bi M : Nat} (hw : 64 * ((B - 1) * B) < 2 ^ W)
    (hak : ak < B) (hbi : bi < B) (hd : d ≤ c * ((B - 1) * (B - 1))) (hc : c + 1 ≤ M)
    (hM : M ≤ 64) :
    ak * bi < 2 ^ W ∧ d + ak * bi < 2 ^ W ∧ d + ak * bi ≤ (c + 1) * ((B - 1) * (B - 1)) := by
  have h1 : ak * bi ≤ (B - 1) * (B - 1) := Nat.mul_le_mul (by omega) (by omega)
  have h2 : (B - 1) * (B - 1) ≤ (B - 1) * B := Nat.mul_le_mul_left _ (by omega)
  have h3 : (c + 1) * ((B - 1) * (B - 1)) ≤ 64 * ((B - 1) * (B - 1)) :=
    Nat.mul_le_mul_right _ (by omega)
  have h4 : (c + 1) * ((B - 1) * (B - 1)) = c * ((B - 1) * (B - 1)) + (B - 1) * (B - 1) := by ring
  generalize (B - 1) * (B - 1) = Q at *
  generalize (B - 1) * B = T at *
  generalize (c + 1) * Q = cQ at *
  generalize c * Q = cQ0 at *
  omega

/-- One execution of `product->digits[k+i] += a->digits[k] * b->digits[i]`. -/
theorem mul_inner_spec (P : Platform) (h1 : Heap) (product a b : Nat) (xp1 : FFBI)
    (A Bd : List Nat) (al bl : Nat)
    (hg : h1.get product = some xp1) (hpa : a ≠ product) (hpb : b ≠ product)
    (hA : ∀ j, j < al → rdDigit h1 a j = some (A.getD j 0))
    (hAlt : ∀ j, j < al → A.getD j 0 < 2 ^ FFBI_BITS_PER_DIGIT P)
    (hB : ∀ j, j < bl → rdDigit h1 b j = some (Bd.getD j 0))
    (hBlt : ∀ j, j < bl → Bd.getD j 0 < 2 ^ FFBI_BITS_PER_DIGIT P)
    (hn : al + bl ≤ xp1.digits.length) (hM : min al bl ≤ 64)
    (k i : Nat) (hk : k < al) (hi : i < bl) (ds : List Nat)
    (i1 : ds.length = xp1.digits.length)
    (i2 : digitsVal (FFBI_BITS_PER_DIGIT P) ds (al + bl)
      = digitsVal (FFBI_BITS_PER_DIGIT P) A k * digitsVal (FFBI_BITS_PER_DIGIT P) Bd bl
        + A.getD k 0 * 2 ^ (FFBI_BITS_PER_DIGIT P * k) * digitsVal (FFBI_BITS_PER_DIGIT P) Bd i)
    (i3 : ∀ j, j < al + bl → ds.getD j 0 ≤ mulCount bl k i j
        * ((2 ^ FFBI_BITS_PER_DIGIT P - 1) * (2 ^ FFBI_BITS_PER_DIGIT P - 1))) :
    ∃ ds', mul_inner P product a b k i (h1.withDigits product xp1 ds)
        = some (h1.withDigits product xp1 ds') ∧
      ds'.length = xp1.digits.length ∧
      digitsVal (FFBI_BITS_PER_DIGIT P) ds' (al + bl)
        = digitsVal (FFBI_BITS_PER_DIGIT P) A k * digitsVal (FFBI_BITS_PER_DIGIT P) Bd bl
          + A.getD k 0 * 2 ^ (FFBI_BITS_PER_DIGIT P * k)
            * digitsVal (FFBI_BITS_PER_DIGIT P) Bd (i + 1) ∧
      (∀ j, j < al + bl → ds'.getD j 0 ≤ mulCount bl k (i + 1) j
        * ((2 ^ FFBI_BITS_PER_DIGIT P - 1) * (2 ^ FFBI_BITS_PER_DIGIT P - 1))) := by
  have hcs := mulCount_step bl k i (k + i)
  rw [if_pos rfl] at hcs
  have hcl := (mulCount_le bl k (i + 1) (k + i) (by omega)).1
  obtain ⟨w1, w2, w3⟩ := mul_acc_bound (mul_word_bound P) (hAlt k hk) (hBlt i hi)
    (i3 (k + i) (by omega)) (show mulCount bl k i (k + i) + 1 ≤ min al bl by omega) hM
  unfold mul_inner
  dsimp only
  rw [rdDigit_withDigits_ne _ _ _ _ hpa, hA k hk, obind_some,
    rdDigit_withDigits_ne _ _ _ _ hpb, hB i hi, obind_some,
    rdDigit_withDigits hg (by omega), obind_some, wmul_eq w1, wadd_eq w2,
    wrDigit_withDigits _ hg (by omega)]
  refine ⟨_, rfl, by rw [List.length_set, i1], ?_, ?_⟩
  · have hs := digitsVal_set_add (FFBI_BITS_PER_DIGIT P) ds (k + i)
      (ds.getD (k + i) 0 + A.getD k 0 * Bd.getD i 0) (by omega) (al + bl) (by omega)
    have hpw : 2 ^ (FFBI_BITS_PER_DIGIT P * (k + i))
        = 2 ^ (FFBI_BITS_PER_DIGIT P * k) * 2 ^ (FFBI_BITS_PER_DIGIT P * i) := by
      rw [← Nat.pow_add, Nat.mul_add]
    rw [digitsVal_succ]
    rw [hpw, Nat.add_mul] at hs
    have key : digitsVal (FFBI_BITS_PER_DIGIT P)
        (ds.set (k + i) (ds.getD (k + i) 0 + A.getD k 0 * Bd.getD i 0)) (al + bl)
        = digitsVal (FFBI_BITS_PER_DIGIT P) ds (al + bl) + A.getD k 0 * Bd.getD i 0
          * (2 ^ (FFBI_BITS_PER_DIGIT P * k) * 2 ^ (FFBI_BITS_PER_DIGIT P * i)) := by
      omega
    rw [key, i2]
    ring
  · intro j hj
    by_cases hjk : j = k + i
    · rw [hjk, getD_set_same _ (by omega), hcs]
      exact w3
    · rw [getD_set_ne _ _ hjk, mulCount_step bl k i j, if_neg hjk]
      exact i3 j hj

theorem digitsVal_zeros (bits : Nat) (ds : List Nat) :
    ∀ n, (∀ j, j < n → ds.getD j 0 = 0) → digitsVal bits ds n = 0 := by
  intro n
  induction n with
  | zero => intro _; rfl
  | succ n ih =>
    intro h
    rw [digitsVal_succ, ih (fun j hj => h j (by omega)), h n (by omega)]
    simp

/-- The inner loop of `ffbi_mul` for one digit `a->digits[k]`. -/
theorem mul_row_spec (P : Platform) (h1 : Heap) (product a b : Nat) (xp1 : FFBI)
    (A Bd : List Nat) (al bl : Nat)
    (hg : h1.get product = some xp1) (hpa : a ≠ product) (hpb : b ≠ product)
    (hA : ∀ j, j < al → rdDigit h1 a j = some (A.getD j 0))
    (hAlt : ∀ j, j < al → A.getD j 0 < 2 ^ FFBI_BITS_PER_DIGIT P)
    (hB : ∀ j, j < bl → rdDigit h1 b j = some (Bd.getD j 0))
    (hBlt : ∀ j, j < bl → Bd.getD j 0 < 2 ^ FFBI_BITS_PER_DIGIT P)
    (hn : al + bl ≤ xp1.digits.length) (hM : min al bl ≤ 64)
    (k : Nat) (hk : k < al) (ds : List Nat)
    (i1 : ds.length = xp1.digits.length)
    (i2 : digitsVal (FFBI_BITS_PER_DIGIT P) ds (al + bl)
      = digitsVal (FFBI_BITS_PER_DIGIT P) A k * digitsVal (FFBI_BITS_PER_DIGIT P) Bd bl)
    (i3 : ∀ j, j < al + bl → ds.getD j 0 ≤ mulCount bl k 0 j
        * ((2 ^ FFBI_BITS_PER_DIGIT P - 1) * (2 ^ FFBI_BITS_PER_DIGIT P - 1))) :
    ∃ ds', forUp (fun i h => mul_inner P product a b k i h) bl 0 (h1.withDigits product xp1 ds)
        = some (h1.withDigits product xp1 ds') ∧
      ds'.length = xp1.digits.length ∧
      digitsVal (FFBI_BITS_PER_DIGIT P) ds' (al + bl)
        = digitsVal (FFBI_BITS_PER_DIGIT P) A (k + 1) * digitsVal (FFBI_BITS_PER_DIGIT P) Bd bl ∧
      (∀ j, j < al + bl → ds'.getD j 0 ≤ mulCount bl (k + 1) 0 j
        * ((2 ^ FFBI_BITS_PER_DIGIT P - 1) * (2 ^ FFBI_BITS_PER_DIGIT P - 1))) := by
  obtain ⟨s', e1, ds', e2, e3, e4, e5⟩ := forUp_inv (fun i h => mul_inner P product a b k i h)
    (fun i s => ∃ ds', s = h1.withDigits product xp1 ds' ∧
      ds'.length = xp1.digits.length ∧
      digitsVal (FFBI_BITS_PER_DIGIT P) ds' (al + bl)
        = digitsVal (FFBI_BITS_PER_DIGIT P) A k * digitsVal (FFBI_BITS_PER_DIGIT P) Bd bl
          + A.getD k 0 * 2 ^ (FFBI_BITS_PER_DIGIT P * k)
            * digitsVal (FFBI_BITS_PER_DIGIT P) Bd i ∧
      (∀ j, j < al + bl → ds'.getD j 0 ≤ mulCount bl k i j
        * ((2 ^ FFBI_BITS_PER_DIGIT P - 1) * (2 ^ FFBI_BITS_PER_DIGIT P - 1))))
    bl 0 (h1.withDigits product xp1 ds)
    ⟨ds, rfl, i1, by rw [i2]; simp [digitsVal], i3⟩
    (by
      intro i t _ hi ⟨ds1, t1, t2, t3, t4⟩
      subst t1
      obtain ⟨ds2, u1, u2, u3, u4⟩ := mul_inner_spec P h1 product a b xp1 A Bd al bl hg hpa hpb
        hA hAlt hB hBlt hn hM k i hk (by omega) ds1 t2 t3 t4
      exact ⟨_, u1, ds2, rfl, u2, u3, u4⟩)
  subst e2
  rw [Nat.zero_add] at e4 e5
  refine ⟨ds', e1, e3, ?_, ?_⟩
  · rw [e4, digitsVal_succ]; ring
  · intro j hj
    rw [← mulCount_row]
    exact e5 j hj

/-- The schoolbook double loop of `ffbi_mul` on a zeroed product array. -/
theorem mul_rows_spec (P : Platform) (h1 : Heap) (product a b : Nat) (xp1 : FFBI)
    (A Bd : List Nat) (al bl : Nat)
    (hg : h1.get product = some xp1) (hpa : a ≠ product) (hpb : b ≠ product)
    (hA : ∀ j, j < al → rdDigit h1 a j = some (A.getD j 0))
    (hAlt : ∀ j, j < al → A.getD j 0 < 2 ^ FFBI_BITS_PER_DIGIT P)
    (hB : ∀ j, j < bl → rdDigit h1 b j = some (Bd.getD j 0))
    (hBlt : ∀ j, j < bl → Bd.getD j 0 < 2 ^ FFBI_BITS_PER_DIGIT P)
    (hn : al + bl ≤ xp1.digits.length) (hM : min al bl ≤ 64)
    (ds : List Nat) (i1 : ds.length = xp1.digits.length)
    (i2 : ∀ j, j < al + bl → ds.getD j 0 = 0) :
    ∃ ds', forUp (fun k h => forUp (fun i h => mul_inner P product a b k i h) bl 0 h) al 0
        (h1.withDigits product xp1 ds) = some (h1.withDigits product xp1 ds') ∧
      ds'.length = xp1.digits.length ∧
      digitsVal (FFBI_BITS_PER_DIGIT P) ds' (al + bl)
        = digitsVal (FFBI_BITS_PER_DIGIT P) A al * digitsVal (FFBI_BITS_PER_DIGIT P) Bd bl ∧
      (∀ j, j < al + bl → ds'.getD j 0
        ≤ 64 * ((2 ^ FFBI_BITS_PER_DIGIT P - 1) * (2 ^ FFBI_BITS_PER_DIGIT P - 1))) := by
  obtain ⟨s', e1, ds', e2, e3, e4, e5⟩ := forUp_inv
    (fun k h => forUp (fun i h => mul_inner P product a b k i h) bl 0 h)
    (fun k s => ∃ ds', s = h1.withDigits product xp1 ds' ∧
      ds'.length = xp1.digits.length ∧
      digitsVal (FFBI_BITS_PER_DIGIT P) ds' (al + bl)
        = digitsVal (FFBI_BITS_PER_DIGIT P) A k * digitsVal (FFBI_BITS_PER_DIGIT P) Bd bl ∧
      (∀ j, j < al + bl → ds'.getD j 0 ≤ mulCount bl k 0 j
        * ((2 ^ FFBI_BITS_PER_DIGIT P - 1) * (2 ^ FFBI_BITS_PER_DIGIT P - 1))))
    al 0 (h1.withDigits product xp1 ds)
    ⟨ds, rfl, i1, by rw [digitsVal_zeros _ _ _ i2]; simp [digitsVal],
      fun j hj => by rw [i2 j hj]; exact Nat.zero_le _⟩
    (by
      intro k t _ hk ⟨ds1, t1, t2, t3, t4⟩
      subst t1
      obtain ⟨ds2, u1, u2, u3, u4⟩ := mul_row_spec P h1 product a b xp1 A Bd al bl hg hpa hpb
        hA hAlt hB hBlt hn hM k (by omega) ds1 t2 t3 t4
      exact ⟨_, u1, ds2, rfl, u2, u3, u4⟩)
  subst e2
  rw [Nat.zero_add] at e4 e5
  refine ⟨ds', e1, e3, e4, ?_⟩
  intro j hj
  have h1 := (mulCount_le bl al 0 j (Nat.zero_le _)).2
  exact Nat.le_trans (e5 j hj) (Nat.mul_le_mul_right _ (by omega))

theorem mul_carry_bound {B W di dn : Nat} (hB : 0 < B) (hw : 64 * ((B - 1) * B) < 2 ^ W)
    (hdi : di ≤ 64 * ((B - 1) * B)) (hdn : dn ≤ 64 * ((B - 1) * (B - 1))) :
    dn + di / B < 2 ^ W ∧ dn + di / B ≤ 64 * ((B - 1) * B) := by
  have h1 : di / B ≤ 64 * (B - 1) := by
    apply Nat.div_le_of_le_mul
    calc di ≤ 64 * ((B - 1) * B) := hdi
      _ = B * (64 * (B - 1)) := by ring
  have h2 : 64 * ((B - 1) * B) = 64 * ((B - 1) * (B - 1)) + 64 * (B - 1) := by
    have : (B - 1) * B = (B - 1) * (B - 1) + (B - 1) := by
      obtain ⟨b, rfl⟩ : ∃ b, B = b + 1 := ⟨B - 1, by omega⟩
      rw [Nat.add_sub_cancel, Nat.mul_succ]
    rw [this, Nat.mul_add]
  generalize (B - 1) * (B - 1) = Q at *
  generalize (B - 1) * B = T at *
  generalize di / B = c at *
  omega

/-- One iteration of the carry pass of `ffbi_mul`. -/
theorem mul_carry_spec (P : Platform) (h1 : Heap) (product : Nat) (xp1 : FFBI) (n i : Nat)
    (hg : h1.get product = some xp1) (hn : n ≤ xp1.digits.length) (hi : i + 1 < n)
    (ds : List Nat) (i1 : ds.length = xp1.digits.length)
    (i2 : ∀ j, j < i → ds.getD j 0 < 2 ^ FFBI_BITS_PER_DIGIT P)
    (i3 : ds.getD i 0 ≤ 64 * ((2 ^ FFBI_BITS_PER_DIGIT P - 1) * 2 ^ FFBI_BITS_PER_DIGIT P))
    (i4 : ∀ j, i < j → j < n → ds.getD j 0
        ≤ 64 * ((2 ^ FFBI_BITS_PER_DIGIT P - 1) * (2 ^ FFBI_BITS_PER_DIGIT P - 1))) :
    ∃ ds', mul_carry P product i (h1.withDigits product xp1 ds)
        = some (h1.withDigits product xp1 ds') ∧
      ds'.length = xp1.digits.length ∧
      (∀ j, j < i + 1 → ds'.getD j 0 < 2 ^ FFBI_BITS_PER_DIGIT P) ∧
      ds'.getD (i + 1) 0 ≤ 64 * ((2 ^ FFBI_BITS_PER_DIGIT P - 1) * 2 ^ FFBI_BITS_PER_DIGIT P) ∧
      (∀ j, i + 1 < j → j < n → ds'.getD j 0
        ≤ 64 * ((2 ^ FFBI_BITS_PER_DIGIT P - 1) * (2 ^ FFBI_BITS_PER_DIGIT P - 1))) ∧
      digitsVal (FFBI_BITS_PER_DIGIT P) ds' n = digitsVal (FFBI_BITS_PER_DIGIT P) ds n := by
  obtain ⟨w1, w2⟩ := mul_carry_bound (Nat.two_pow_pos _) (mul_word_bound P) i3
    (i4 (i + 1) (by omega) hi)
  unfold mul_carry
  dsimp only
  rw [rdDigit_withDigits hg (by omega), obind_some, rdDigit_withDigits hg (by omega), obind_some,
    Nat.shiftRight_eq_div_pow, wadd_eq w1, wrDigit_withDigits _ hg (by omega), obind_some,
    rdDigit_withDigits hg (by rw [List.length_set]; omega), obind_some,
    getD_set_ne _ _ (show i ≠ i + 1 by omega), land_digit_max_eq,
    wrDigit_withDigits _ hg (by rw [List.length_set]; omega)]
  refine ⟨_, rfl, by rw [List.length_set, List.length_set, i1], ?_, ?_, ?_, ?_⟩
  · intro j hj
    by_cases hji : j = i
    · rw [hji, getD_set_same _ (by rw [List.length_set]; omega)]
      exact Nat.mod_lt _ (Nat.two_pow_pos _)
    · rw [getD_set_ne _ _ hji, getD_set_ne _ _ (show j ≠ i + 1 by omega)]
      exact i2 j (by omega)
  · rw [getD_set_ne _ _ (show i + 1 ≠ i by omega), getD_set_same _ (by omega)]
    exact w2
  · intro j h1 h2
    rw [getD_set_ne _ _ (show j ≠ i by omega), getD_set_ne _ _ (show j ≠ i + 1 by omega)]
    exact i4 j (by omega) h2
  · have s1 := digitsVal_set_add (FFBI_BITS_PER_DIGIT P) ds (i + 1)
      (ds.getD (i + 1) 0 + ds.getD i 0 / 2 ^ FFBI_BITS_PER_DIGIT P) (by omega) n hi
    have s2 := digitsVal_set_add (FFBI_BITS_PER_DIGIT P)
      (ds.set (i + 1) (ds.getD (i + 1) 0 + ds.getD i 0 / 2 ^ FFBI_BITS_PER_DIGIT P)) i
      (ds.getD i 0 % 2 ^ FFBI_BITS_PER_DIGIT P) (by rw [List.length_set]; omega) n (by omega)
    rw [getD_set_ne _ _ (show i ≠ i + 1 by omega)] at s2
    have hpw : 2 ^ (FFBI_BITS_PER_DIGIT P * (i + 1))
        = 2 ^ FFBI_BITS_PER_DIGIT P * 2 ^ (FFBI_BITS_PER_DIGIT P * i) := by
      rw [← Nat.pow_add]; congr 1; rw [Nat.mul_succ]; omega
    rw [hpw] at s1
    have hsplit := Nat.div_add_mod (ds.getD i 0) (2 ^ FFBI_BITS_PER_DIGIT P)
    generalize digitsVal (FFBI_BITS_PER_DIGIT P) ((ds.set (i + 1)
      (ds.getD (i + 1) 0 + ds.getD i 0 / 2 ^ FFBI_BITS_PER_DIGIT P)).set i
        (ds.getD i 0 % 2 ^ FFBI_BITS_PER_DIGIT P)) n = V2 at *
    generalize digitsVal (FFBI_BITS_PER_DIGIT P) (ds.set (i + 1)
      (ds.getD (i + 1) 0 + ds.getD i 0 / 2 ^ FFBI_BITS_PER_DIGIT P)) n = V1 at *
    generalize digitsVal (FFBI_BITS_PER_DIGIT P) ds n = V at *
    generalize ds.getD i 0 / 2 ^ FFBI_BITS_PER_DIGIT P = c at *
    generalize ds.getD i 0 % 2 ^ FFBI_BITS_PER_DIGIT P = r at *
    generalize ds.getD (i + 1) 0 = dn at *
    generalize 2 ^ (FFBI_BITS_PER_DIGIT P * i) = Y at *
    generalize 2 ^ FFBI_BITS_PER_DIGIT P = B at *
    rw [← hsplit] at s2
    have e1 : (B * c + r) * Y = c * (B * Y) + r * Y := by ring
    have e2 : (dn + c) * (B * Y) = dn * (B * Y) + c * (B * Y) := by ring
    rw [e1] at s2
    rw [e2] at s1
    omega

/-- The carry pass of `ffbi_mul`. -/
theorem mul_carries_spec (P : Platform) (h1 : Heap) (product : Nat) (xp1 : FFBI) (n : Nat)
    (hg : h1.get product = some xp1) (hn : n ≤ xp1.digits.length) (hn1 : 1 ≤ n)
    (ds : List Nat) (i1 : ds.length = xp1.digits.length)
    (i4 : ∀ j, j < n → ds.getD j 0
        ≤ 64 * ((2 ^ FFBI_BITS_PER_DIGIT P - 1) * (2 ^ FFBI_BITS_PER_DIGIT P - 1))) :
    ∃ ds', forUp (mul_carry P product) (n - 1) 0 (h1.withDigits product xp1 ds)
        = some (h1.withDigits product xp1 ds') ∧
      ds'.length = xp1.digits.length ∧
      (∀ j, j < n - 1 → ds'.getD j 0 < 2 ^ FFBI_BITS_PER_DIGIT P) ∧
      digitsVal (FFBI_BITS_PER_DIGIT P) ds' n = digitsVal (FFBI_BITS_PER_DIGIT P) ds n := by
  have hQT : 64 * ((2 ^ FFBI_BITS_PER_DIGIT P - 1) * (2 ^ FFBI_BITS_PER_DIGIT P - 1))
      ≤ 64 * ((2 ^ FFBI_BITS_PER_DIGIT P - 1) * 2 ^ FFBI_BITS_PER_DIGIT P) :=
    Nat.mul_le_mul_left _ (Nat.mul_le_mul_left _ (Nat.sub_le _ _))
  obtain ⟨s', e1, ds', e2, e3, e4, _, _, e7⟩ := forUp_inv (mul_carry P product)
    (fun i s => ∃ ds', s = h1.withDigits product xp1 ds' ∧
      ds'.length = xp1.digits.length ∧
      (∀ j, j < i → ds'.getD j 0 < 2 ^ FFBI_BITS_PER_DIGIT P) ∧
      ds'.getD i 0 ≤ 64 * ((2 ^ FFBI_BITS_PER_DIGIT P - 1) * 2 ^ FFBI_BITS_PER_DIGIT P) ∧
      (∀ j, i < j → j < n → ds'.getD j 0
        ≤ 64 * ((2 ^ FFBI_BITS_PER_DIGIT P - 1) * (2 ^ FFBI_BITS_PER_DIGIT P - 1))) ∧
      digitsVal (FFBI_BITS_PER_DIGIT P) ds' n = digitsVal (FFBI_BITS_PER_DIGIT P) ds n)
    (n - 1) 0 (h1.withDigits product xp1 ds)
    ⟨ds, rfl, i1, fun j hj => absurd hj (Nat.not_lt_zero j), Nat.le_trans (i4 0 (by omega)) hQT,
      fun j _ hj => i4 j hj, rfl⟩
    (by
      intro i t _ hi ⟨ds1, t1, t2, t3, t4, t5, t6⟩
      subst t1
      obtain ⟨ds2, u1, u2, u3, u4, u5, u6⟩ := mul_carry_spec P h1 product xp1 n i hg hn
        (by omega) ds1 t2 t3 t4 t5
      exact ⟨_, u1, ds2, rfl, u2, u3, u4, u5, by rw [u6, t6]⟩)
  subst e2
  rw [Nat.zero_add] at e4
  exact ⟨ds', e1, e3, e4, e7⟩

theorem rdDigit_upd_ne (h : Heap) {p q : Nat} (y : FFBI) (j : Nat) (hq : q ≠ p) :
    rdDigit (h.upd p y) q j = rdDigit h q j := by
  unfold rdDigit
  rw [Heap.get_upd_ne h y hq]

theorem canonical_ge_pow (bits : Nat) (ds : List Nat) (n : Nat) (hn : 1 ≤ n)
    (htop : ds.getD (n - 1) 0 ≠ 0) : 2 ^ (bits * (n - 1)) ≤ digitsVal bits ds n := by
  have := digitsVal_pos_of_top bits ds (n - 1) htop
  rwa [Nat.sub_add_cancel hn] at this

/-- The schoolbook part of `ffbi_mul`, for non-zero operands that do not alias the product. -/
theorem mul_core_spec (P : Platform) (h : Heap) (product a b : Nat) (xp : FFBI)
    (A Bd : List Nat) (al bl : Nat)
    (hg : h.get product = some xp) (hpa : a ≠ product) (hpb : b ≠ product)
    (hA : ∀ j, j < al → rdDigit h a j = some (A.getD j 0))
    (hAlt : ∀ j, j < al → A.getD j 0 < 2 ^ FFBI_BITS_PER_DIGIT P)
    (hB : ∀ j, j < bl → rdDigit h b j = some (Bd.getD j 0))
    (hBlt : ∀ j, j < bl → Bd.getD j 0 < 2 ^ FFBI_BITS_PER_DIGIT P)
    (hal : 1 ≤ al) (hbl : 1 ≤ bl)
    (hAtop : A.getD (al - 1) 0 ≠ 0) (hBtop : Bd.getD (bl - 1) 0 ≠ 0)
    (hn : al + bl ≤ xp.digits.length) (hM : min al bl ≤ 64) :
    ∃ ds n', mul_core P h product a b al bl
        = some (h.upd product { xp with digits := ds, num_used_digits := n' }) ∧
      ds.length = xp.digits.length ∧
      canonicalDigits (FFBI_BITS_PER_DIGIT P) ds n' ∧ n' ≤ al + bl ∧
      digitsVal (FFBI_BITS_PER_DIGIT P) ds n'
        = digitsVal (FFBI_BITS_PER_DIGIT P) A al * digitsVal (FFBI_BITS_PER_DIGIT P) Bd bl := by
  have hg1 : (h.upd product { xp with num_used_digits := al + bl }).get product
      = some { xp with num_used_digits := al + bl } := Heap.get_upd_same _ hg
  obtain ⟨ds0, m1, m2, m3⟩ := memset0_spec hn
  obtain ⟨ds1, r1, r2, r3, r4⟩ := mul_rows_spec P (h.upd product { xp with num_used_digits := al + bl })
    product a b { xp with num_used_digits := al + bl } A Bd al bl hg1 hpa hpb
    (fun j hj => by rw [rdDigit_upd_ne _ _ _ hpa]; exact hA j hj) hAlt
    (fun j hj => by rw [rdDigit_upd_ne _ _ _ hpb]; exact hB j hj) hBlt hn hM ds0 m2
    (fun j hj => by rw [m3 j, if_pos hj])
  obtain ⟨ds2, c1, c2, c3, c4⟩ := mul_carries_spec P
    (h.upd product { xp with num_used_digits := al + bl }) product
    { xp with num_used_digits := al + bl } (al + bl) hg1 hn (by omega) ds1 r2 r4
  rw [r3] at c4
  have c2 : ds2.length = xp.digits.length := c2
  have hVA := digitsVal_lt (FFBI_BITS_PER_DIGIT P) A al hAlt
  have hVB := digitsVal_lt (FFBI_BITS_PER_DIGIT P) Bd bl hBlt
  have hLA := canonical_ge_pow (FFBI_BITS_PER_DIGIT P) A al hal hAtop
  have hLB := canonical_ge_pow (FFBI_BITS_PER_DIGIT P) Bd bl hbl hBtop
  have hn1 : al + bl - 1 + 1 = al + bl := by omega
  have hn2 : al + bl - 2 + 1 = al + bl - 1 := by omega
  have hV1 := digitsVal_succ (FFBI_BITS_PER_DIGIT P) ds2 (al + bl - 1)
  have hV2 := digitsVal_succ (FFBI_BITS_PER_DIGIT P) ds2 (al + bl - 2)
  rw [hn1] at hV1
  rw [hn2] at hV2
  have hlow1 := digitsVal_lt (FFBI_BITS_PER_DIGIT P) ds2 (al + bl - 1) c3
  have hlow2 := digitsVal_lt (FFBI_BITS_PER_DIGIT P) ds2 (al + bl - 2)
    (fun j hj => c3 j (by omega))
  have hpw : 2 ^ (FFBI_BITS_PER_DIGIT P * (al + bl))
      = 2 ^ (FFBI_BITS_PER_DIGIT P * al) * 2 ^ (FFBI_BITS_PER_DIGIT P * bl) := by
    rw [← Nat.pow_add, Nat.mul_add]
  have hpw1 : 2 ^ (FFBI_BITS_PER_DIGIT P * (al + bl))
      = 2 ^ FFBI_BITS_PER_DIGIT P * 2 ^ (FFBI_BITS_PER_DIGIT P * (al + bl - 1)) := by
    rw [← Nat.pow_add]; congr 1
    conv_lhs => rw [← hn1]
    rw [Nat.mul_succ]; omega
  have hpw2 : 2 ^ (FFBI_BITS_PER_DIGIT P * (al + bl - 2))
      = 2 ^ (FFBI_BITS_PER_DIGIT P * (al - 1)) * 2 ^ (FFBI_BITS_PER_DIGIT P * (bl - 1)) := by
    rw [← Nat.pow_add, ← Nat.mul_add]; congr 2; omega
  have hupper : digitsVal (FFBI_BITS_PER_DIGIT P) A al * digitsVal (FFBI_BITS_PER_DIGIT P) Bd bl
      < 2 ^ (FFBI_BITS_PER_DIGIT P * (al + bl)) := by
    rw [hpw]
    exact Nat.mul_lt_mul_of_lt_of_le hVA (Nat.le_of_lt hVB) (Nat.two_pow_pos _)
  have hlower : 2 ^ (FFBI_BITS_PER_DIGIT P * (al + bl - 2))
      ≤ digitsVal (FFBI_BITS_PER_DIGIT P) A al * digitsVal (FFBI_BITS_PER_DIGIT P) Bd bl := by
    rw [hpw2]
    exact Nat.mul_le_mul hLA hLB
  have htop : ds2.getD (al + bl - 1) 0 < 2 ^ FFBI_BITS_PER_DIGIT P := by
    by_contra hc
    have : 2 ^ FFBI_BITS_PER_DIGIT P * 2 ^ (FFBI_BITS_PER_DIGIT P * (al + bl - 1))
        ≤ ds2.getD (al + bl - 1) 0 * 2 ^ (FFBI_BITS_PER_DIGIT P * (al + bl - 1)) :=
      Nat.mul_le_mul_right _ (by omega)
    omega
  unfold mul_core
  dsimp only
  rw [modify_eq _ hg, obind_some, hg1, obind_some]
  dsimp only
  rw [m1, obind_some, Heap.put_of_get _ hg1, obind_some]
  have hwd : ∀ v, (h.upd product { xp with num_used_digits := al + bl }).upd product
      { xp with num_used_digits := al + bl, digits := v }
      = (h.upd product { xp with num_used_digits := al + bl }).withDigits product
        { xp with num_used_digits := al + bl } v := fun _ => rfl
  rw [hwd, r1, obind_some, if_neg (show ¬ al + bl = 0 by omega), c1, obind_some,
    Heap.withDigits_get _ hg1, obind_some]
  dsimp only
  rw [if_pos (show al + bl > 1 by omega), rdDigit_withDigits hg1 (by omega), obind_some]
  by_cases hz : ds2.getD (al + bl - 1) 0 = 0
  · rw [if_pos hz, modify_eq _ (Heap.withDigits_get _ hg1)]
    unfold Heap.withDigits
    rw [Heap.upd_upd, Heap.upd_upd]
    dsimp only
    rw [hz, Nat.zero_mul, Nat.add_zero] at hV1
    refine ⟨ds2, al + bl - 1, rfl, c2, ⟨by omega, by omega, c3, ?_⟩, by omega, ?_⟩
    · by_cases h1 : al + bl - 1 = 1
      · left; exact h1
      · right
        intro hz2
        have e : al + bl - 1 - 1 = al + bl - 2 := by omega
        rw [e] at hz2
        rw [hz2, Nat.zero_mul, Nat.add_zero] at hV2
        rw [← c4, hV1, hV2] at hlower
        exact absurd hlow2 (Nat.not_lt.mpr hlower)
    · rw [← hV1]; exact c4
  · rw [if_neg hz]
    unfold Heap.withDigits
    rw [Heap.upd_upd]
    refine ⟨ds2, al + bl, rfl, c2, ⟨by omega, by omega, ?_, Or.inr hz⟩, Nat.le_refl _, c4⟩
    intro i hi
    by_cases h1 : i = al + bl - 1
    · rw [h1]; exact htop
    · exact c3 i (by omega)


/-! # Zero test, creation and copy -/

theorem val_one (P : Platform) (x : FFBI) (h1 : x.num_used_digits = 1) :
    val P x = x.digits.getD 0 0 := by
  unfold val
  rw [h1]
  simp [digitsVal]

theorem val_pos_of_used (P : Platform) (x : FFBI) (c : canonical P x)
    (h1 : x.num_used_digits ≠ 1) : 0 < val P x := by
  obtain ⟨c1, _, _, c4⟩ := c
  have htop : x.digits.getD (x.num_used_digits - 1) 0 ≠ 0 := by
    rcases c4 with c4 | c4
    · exact absurd c4 h1
    · exact c4
  have := canonical_ge_pow (FFBI_BITS_PER_DIGIT P) x.digits x.num_used_digits c1 htop
  have := Nat.two_pow_pos (FFBI_BITS_PER_DIGIT P * (x.num_used_digits - 1))
  unfold val
  omega

theorem ffbi_is_zero_spec (P : Platform) {h : Heap} {p : Nat} {x : FFBI}
    (hg : h.get p = some x) (c : canonical P x) :
    ffbi_is_zero h p = some (decide (val P x = 0)) := by
  unfold ffbi_is_zero
  rw [hg, obind_some]
  by_cases h1 : x.num_used_digits = 1
  · rw [if_pos h1, rd_of_lt (by have := c.2.1; omega), obind_some, val_one P x h1]
  · rw [if_neg h1]
    have := val_pos_of_used P x c h1
    congr 1
    symm
    rw [decide_eq_false_iff_not]
    omega

theorem top_ne_zero_of_val (P : Platform) (x : FFBI) (c : canonical P x) (hv : val P x ≠ 0) :
    x.digits.getD (x.num_used_digits - 1) 0 ≠ 0 := by
  rcases c.2.2.2 with c4 | c4
  · rw [c4]
    rw [val_one P x c4] at hv
    exact hv
  · exact c4

theorem create_reserved_spec (P : Platform) (h : Heap) (digits : Nat) :
    ∃ h' arr, ffbi_create_reserved_digits P h digits = some (h.obj.length, h') ∧
      h'.get h.obj.length = some (newRecord arr (max digits FFBI_MIN_ALLOC_DIGITS) true) ∧
      arr.length = max digits FFBI_MIN_ALLOC_DIGITS ∧
      (∀ q, q < h.obj.length → h'.get q = h.get q) ∧
      h'.obj.length = h.obj.length + 1 ∧ h'.scr = h.scr := by
  have hmax : (if digits < FFBI_MIN_ALLOC_DIGITS then FFBI_MIN_ALLOC_DIGITS else digits)
      = max digits FFBI_MIN_ALLOC_DIGITS := by
    by_cases hlt : digits < FFBI_MIN_ALLOC_DIGITS
    · rw [if_pos hlt, Nat.max_eq_right (Nat.le_of_lt hlt)]
    · rw [if_neg hlt, Nat.max_eq_left (by omega)]
  have hpos : 0 < max digits FFBI_MIN_ALLOC_DIGITS :=
    Nat.lt_of_lt_of_le (by decide) (Nat.le_max_right _ _)
  unfold ffbi_create_reserved_digits
  dsimp only
  rw [hmax, wr_of_lt _ (by rw [Heap.newArr_length]; exact hpos), obind_some]
  refine ⟨_, (h.newArr (FFBI_WORD_SIZE P) (max digits FFBI_MIN_ALLOC_DIGITS)).1.set 0 0, rfl,
    ?_, ?_, ?_, ?_, rfl⟩
  · unfold Heap.get
    dsimp only
    rw [Heap.newArr_obj]
    simp
  · rw [List.length_set, Heap.newArr_length]
  · intro q hq
    unfold Heap.get
    dsimp only
    rw [Heap.newArr_obj, List.getElem?_append_left hq]
  · dsimp only
    rw [Heap.newArr_obj]
    simp

theorem canonicalDigits_congr (bits : Nat) (ds ds' : List Nat) (n : Nat)
    (hl : n ≤ ds'.length) (he : ∀ j, j < n → ds'.getD j 0 = ds.getD j 0)
    (c : canonicalDigits bits ds n) : canonicalDigits bits ds' n := by
  obtain ⟨c1, c2, c3, c4⟩ := c
  refine ⟨c1, hl, fun i hi => by rw [he i hi]; exact c3 i hi, ?_⟩
  rcases c4 with c4 | c4
  · exact Or.inl c4
  · right; rw [he _ (by omega)]; exact c4

/-- The function `ffbi_copy` between two distinct bigints: the destination receives the used
digits of the source. -/
theorem ffbi_copy_spec (P : Platform) (h : Heap) (dest src : Nat) (xd xs : FFBI)
    (hgd : h.get dest = some xd) (hgs : h.get src = some xs) (hne : dest ≠ src)
    (cs : canonical P xs) (hvs : validStorage xd)
    (hr : xd.num_allocated_digits < xs.num_used_digits → xd.reallocation_allowed = true) :
    ∃ h' xd', ffbi_copy P h dest src = some h' ∧ h'.get dest = some xd' ∧
      canonical P xd' ∧ val P xd' = val P xs ∧ xd'.cache_valid = false ∧
      xd'.num_used_digits = xs.num_used_digits ∧
      Heap.frame [dest] h h' ∧ h'.obj.length = h.obj.length ∧ h'.scr = h.scr ∧
      xd.num_allocated_digits ≤ xd'.num_allocated_digits ∧
      xd'.num_used_digits ≤ xd'.num_allocated_digits ∧ validStorage xd' ∧
      xd'.reallocation_allowed = xd.reallocation_allowed := by
  obtain ⟨h0, xd0, r1, r2, r3, r4, r5, r6, r7, r8, r9, r10, r11, r12, r13⟩ :=
    realloc_if_small P xs.num_used_digits xs.num_used_digits hgd hr hvs (Nat.le_refl _)
  have hgs0 : h0.get src = some xs :=
    Heap.frame_get r11 hgs (by simpa using fun he => hne he.symm)
  obtain ⟨ds, m1, m2, m3⟩ := @memcpy_spec xd0.digits xs.digits xs.num_used_digits cs.2.1 (by omega)
  unfold ffbi_copy
  rw [hgd, obind_some, hgs, obind_some, r1, obind_some, hgs0, obind_some, modify_eq _ r2,
    obind_some, Heap.get_upd_same _ r2, obind_some,
    Heap.get_upd_ne _ _ (fun he => hne he.symm), hgs0, obind_some]
  dsimp only
  rw [m1, obind_some, Heap.put_of_get _ (Heap.get_upd_same _ r2), Heap.upd_upd]
  have hcan : canonicalDigits (FFBI_BITS_PER_DIGIT P) ds xs.num_used_digits :=
    canonicalDigits_congr _ xs.digits ds _ (by omega)
      (fun j hj => by rw [m3 j, if_pos hj]) cs
  refine ⟨_, _, rfl, Heap.get_upd_same _ r2, hcan, ?_, rfl, rfl,
    Heap.frame_trans r11 (Heap.frame_upd _ _ _) (fun _ hq => hq),
    by rw [Heap.upd_obj_length, r12], by rw [Heap.upd_scr, r13], r5, r3, ?_, r6⟩
  · exact digitsVal_congr _ _ _ _ (fun j hj => by rw [m3 j, if_pos hj])
  · refine ⟨by dsimp only; omega, ?_⟩
    dsimp only
    rw [r7, r8]
    exact hvs.2

/-! # Multiplication: the whole function -/

/-- Correctness of `ffbi_mul` when the shorter operand has at most 64 digits: the call
succeeds for every aliasing pattern of the destination and leaves the product, in canonical
form, in the destination. -/
theorem ffbi_mul_spec (P : Platform) (h : Heap) (dest a b : Nat) (xa xb xd : FFBI)
    (hga : h.get a = some xa) (hgb : h.get b = some xb) (hgd : h.get dest = some xd)
    (wa : wellFormed P xa) (wb : wellFormed P xb)
    (hM : min xa.num_used_digits xb.num_used_digits ≤ 64)
    (hr : xd.reallocation_allowed = true ∨ (dest ≠ a ∧ dest ≠ b ∧
      xa.num_used_digits + xb.num_used_digits ≤ xd.num_allocated_digits))
    (hvs : validStorage xd) (hcap : 1 ≤ xd.num_allocated_digits) :
    ∃ h' xd', ffbi_mul P h dest a b = some h' ∧ h'.get dest = some xd' ∧
      canonical P xd' ∧ val P xd' = val P xa * val P xb ∧ xd'.cache_valid = false ∧
      Heap.frame [dest] h h' ∧ h'.scr = h.scr ∧
      xd.num_allocated_digits ≤ xd'.num_allocated_digits ∧
      xd'.num_used_digits ≤ xd'.num_allocated_digits ∧ validStorage xd' ∧
      xd'.reallocation_allowed = xd.reallocation_allowed := by
  obtain ⟨ca, hua, hsa⟩ := wa
  obtain ⟨cb, hub, hsb⟩ := wb
  unfold ffbi_mul
  rw [ffbi_is_zero_spec P hga ca, obind_some]
  have hzb : (if decide (val P xa = 0) = true then some true else ffbi_is_zero h b)
      = some (decide (val P xa = 0 ∨ val P xb = 0)) := by
    by_cases hz : val P xa = 0
    · rw [if_pos (by simpa using hz)]
      simp [hz]
    · rw [if_neg (by simpa using hz), ffbi_is_zero_spec P hgb cb]
      simp [hz]
  rw [hzb, obind_some]
  by_cases hz : val P xa = 0 ∨ val P xb = 0
  · -- a zero operand
    have hl : 0 < xd.digits.length := by have := hvs.1; omega
    rw [if_pos (by simpa using hz), modify_eq _ hgd, obind_some,
      wrDigit_eq (x := { xd with num_used_digits := 1 }) _ (Heap.get_upd_same _ hgd) hl,
      obind_some, Heap.upd_upd,
      modify_eq _ (Heap.get_upd_same _ hgd), Heap.upd_upd]
    refine ⟨_, _, rfl, Heap.get_upd_same _ hgd, ?_, ?_, rfl, Heap.frame_upd _ _ _,
      Heap.upd_scr _ _ _, Nat.le_refl _, hcap, ⟨by dsimp only; rw [List.length_set]; exact hvs.1,
        hvs.2⟩, rfl⟩
    · refine ⟨Nat.le_refl _, by dsimp only; rw [List.length_set]; omega, ?_, Or.inl rfl⟩
      intro i hi
      have hi0 : i = 0 := by dsimp only at hi; omega
      dsimp only
      rw [hi0, getD_set_same _ hl]
      exact Nat.two_pow_pos _
    · have hv0 : val P xa * val P xb = 0 := by
        rcases hz with hz | hz
        · rw [hz, Nat.zero_mul]
        · rw [hz, Nat.mul_zero]
      rw [hv0]
      unfold val
      dsimp only
      have := @getD_set_same xd.digits 0 0 hl
      simp [digitsVal]
      simpa using this
  · rw [if_neg (by simpa using hz), hga, obind_some, hgb, obind_some]
    dsimp only
    have hza : val P xa ≠ 0 := fun e => hz (Or.inl e)
    have hzb' : val P xb ≠ 0 := fun e => hz (Or.inr e)
    have hAtop := top_ne_zero_of_val P xa ca hza
    have hBtop := top_ne_zero_of_val P xb cb hzb'
    by_cases hal : dest = a ∨ dest = b
    · -- the product is built in a temporary and copied
      rw [if_pos hal]
      have hr : xd.reallocation_allowed = true := by
        rcases hr with hr | ⟨h1, h2, _⟩
        · exact hr
        · rcases hal with hal | hal
          · exact absurd hal h1
          · exact absurd hal h2
      obtain ⟨hc, arr, k1, k2, k3, k4, k5, k6⟩ := create_reserved_spec P h
        (xa.num_used_digits + xb.num_used_digits + FFBI_MIN_ALLOC_DIGITS)
      have hmx : max (xa.num_used_digits + xb.num_used_digits + FFBI_MIN_ALLOC_DIGITS)
          FFBI_MIN_ALLOC_DIGITS
          = xa.num_used_digits + xb.num_used_digits + FFBI_MIN_ALLOC_DIGITS :=
        Nat.max_eq_left (by omega)
      rw [hmx] at k2 k3
      rw [k1, obind_some]
      dsimp only
      have hla := Heap.get_lt hga
      have hlb := Heap.get_lt hgb
      have hld := Heap.get_lt hgd
      have hgac : hc.get a = some xa := by rw [k4 a hla, hga]
      have hgbc : hc.get b = some xb := by rw [k4 b hlb, hgb]
      have hgdc : hc.get dest = some xd := by rw [k4 dest hld, hgd]
      obtain ⟨ds, n', e1, e2, e3, e4, e5⟩ := mul_core_spec P hc h.obj.length a b _
        xa.digits xb.digits xa.num_used_digits xb.num_used_digits k2 (by omega) (by omega)
        (fun j hj => rdDigit_eq hgac (by have := ca.2.1; omega)) ca.2.2.1
        (fun j hj => rdDigit_eq hgbc (by have := cb.2.1; omega)) cb.2.2.1 ca.1 cb.1
        hAtop hBtop (by show _ ≤ arr.length; omega) hM
      rw [e1, obind_some]
      have hne : dest ≠ h.obj.length := by omega
      have hgd2 : (hc.upd h.obj.length { newRecord arr
          (xa.num_used_digits + xb.num_used_digits + FFBI_MIN_ALLOC_DIGITS) true with
          digits := ds, num_used_digits := n' }).get dest = some xd := by
        rw [Heap.get_upd_ne _ _ hne, hgdc]
      rw [modify_eq _ hgd2, obind_some, if_pos (fun e => hne e.symm)]
      have hgp3 : ((hc.upd h.obj.length { newRecord arr
          (xa.num_used_digits + xb.num_used_digits + FFBI_MIN_ALLOC_DIGITS) true with
          digits := ds, num_used_digits := n' }).upd dest { xd with cache_valid := false }).get
            h.obj.length = some { newRecord arr
          (xa.num_used_digits + xb.num_used_digits + FFBI_MIN_ALLOC_DIGITS) true with
          digits := ds, num_used_digits := n' } := by
        rw [Heap.get_upd_ne _ _ (fun e => hne e.symm), Heap.get_upd_same _ k2]
      obtain ⟨h4, xd4, f1, f2, f3, f4, f5, f6, f7, f8, f9, f10, f11, f12, f13⟩ :=
        ffbi_copy_spec P _ dest h.obj.length _ _ (Heap.get_upd_same _ hgd2) hgp3 hne e3 hvs
          (fun _ => hr)
      rw [f1, obind_some]
      refine ⟨_, xd4, rfl, f2, f3, ?_, f5, ?_, ?_, f10, f11, f12, f13⟩
      · rw [f4]; exact e5
      · refine ⟨by unfold ffbi_destroy; rw [f8, Heap.upd_obj_length, Heap.upd_obj_length, k5]; omega,
          ?_⟩
        intro q hq hn
        have hqd : q ≠ dest := by simpa using hn
        show h4.get q = h.get q
        rw [f7.2 q (by rw [Heap.upd_obj_length, Heap.upd_obj_length, k5]; omega) hn,
          Heap.get_upd_ne _ _ hqd, Heap.get_upd_ne _ _ (show q ≠ h.obj.length by omega), k4 q hq]
      · show h4.scr = h.scr
        rw [f9, Heap.upd_scr, Heap.upd_scr, k6]
    · -- the product is built in the destination
      rw [if_neg hal, hgd, obind_some]
      have hda : dest ≠ a := fun e => hal (Or.inl e)
      have hdb : dest ≠ b := fun e => hal (Or.inr e)
      obtain ⟨h0, xd0, r1, r2, r3, r4, r5, r6, r7, r8, r9, r10, r11, r12, r13⟩ :=
        realloc_if_small P (xa.num_used_digits + xb.num_used_digits)
          (xa.num_used_digits + xb.num_used_digits + 1) hgd
          (fun hlt => by
            rcases hr with hr | ⟨_, _, h3⟩
            · exact hr
            · omega) hvs (by omega)
      rw [r1, obind_some, obind_some]
      dsimp only
      have hga0 : h0.get a = some xa :=
        Heap.frame_get r11 hga (by simpa using fun he => hda he.symm)
      have hgb0 : h0.get b = some xb :=
        Heap.frame_get r11 hgb (by simpa using fun he => hdb he.symm)
      obtain ⟨ds, n', e1, e2, e3, e4, e5⟩ := mul_core_spec P h0 dest a b xd0
        xa.digits xb.digits xa.num_used_digits xb.num_used_digits r2
        (fun e => hda e.symm) (fun e => hdb e.symm)
        (fun j hj => rdDigit_eq hga0 (by have := ca.2.1; omega)) ca.2.2.1
        (fun j hj => rdDigit_eq hgb0 (by have := cb.2.1; omega)) cb.2.2.1 ca.1 cb.1
        hAtop hBtop (by omega) hM
      rw [e1, obind_some, modify_eq _ (Heap.get_upd_same _ r2), obind_some, Heap.upd_upd,
        if_neg (by simp)]
      refine ⟨_, _, rfl, Heap.get_upd_same _ r2, e3, e5, rfl,
        Heap.frame_trans r11 (Heap.frame_upd _ _ _) (fun _ hq => hq),
        by rw [Heap.upd_scr, r13], r5, by dsimp only; omega, ?_, r6⟩
      refine ⟨by dsimp only; omega, ?_⟩
      dsimp only
      rw [r7, r8]
      exact hvs.2

/-- C5 (the code departs from the claim): when the final carry makes `ffbi_add` grow a
destination that is a third bigint, `ffbi_reallocate_digits(dest, ..., 1)` copies only
`dest->num_used_digits` digits, which is still the length `dest` had before the call, so the
digits just computed are replaced by the indeterminate contents of the new array.  With
`a = b = 2^183 - 1` (three digits of `2^61 - 1`) and a fresh `dest` of capacity 3, the true sum
is `2^184 - 2`, while the result holds the unspecified word in digits 1 and 2: it is
`2^183 + 2^61 - 2` when the new array happens to be zero, and another value when it holds 7. -/
theorem ffbi_add_final_carry_drops_digits :
    val .gnu128 (exBig [2305843009213693951, 2305843009213693951, 2305843009213693951] 3)
      + val .gnu128 (exBig [2305843009213693951, 2305843009213693951, 2305843009213693951] 3)
      = 2 ^ 184 - 2 ∧
    (obind (ffbi_add .gnu128 (exHeap
        [exBig [2305843009213693951, 2305843009213693951, 2305843009213693951] 3,
         exBig [2305843009213693951, 2305843009213693951, 2305843009213693951] 3,
         exBig [0, 0, 0] 1] 0) 2 0 1) fun h' =>
      obind (h'.get 2) fun x => some (decide (canonical .gnu128 x), x.digits.take 4, val .gnu128 x))
      = some (true, [2305843009213693950, 0, 0, 1], 2 ^ 183 + 2 ^ 61 - 2) ∧
    (obind (ffbi_add .gnu128 (exHeap
        [exBig [2305843009213693951, 2305843009213693951, 2305843009213693951] 3,
         exBig [2305843009213693951, 2305843009213693951, 2305843009213693951] 3,
         exBig [0, 0, 0] 1] 7) 2 0 1) fun h' =>
      obind (h'.get 2) fun x => some (x.digits.take 4))
      = some [2305843009213693950, 7, 7, 1] := by
  decide

/-- C3 (the code departs from the claim): for `a = 1` the loop of `ffbi_mod_inv` is not
entered, and the function copies `t`, which still holds 0, into `dest` instead of the
coefficient `x = 1`.  With `a = 1` and `m = 5` the result is 0, so `(a * dest) mod m = 0`. -/
theorem ffbi_mod_inv_of_one_is_zero :
    Nat.gcd (val .gnu128 (exBig [1, 0, 0] 1)) (val .gnu128 (exBig [5, 0, 0] 1)) = 1 ∧
    (obind (ffbi_mod_inv .gnu128 8
        (exHeap [exBig [0, 0, 0] 1, exBig [1, 0, 0] 1, exBig [5, 0, 0] 1] 0) 0 1 2) fun h' =>
      obind (h'.get 0) fun x =>
        some (x.num_used_digits, x.digits.getD 0 0,
          val .gnu128 (exBig [1, 0, 0] 1) * val .gnu128 x % val .gnu128 (exBig [5, 0, 0] 1)))
      = some (1, 0, 0) := by
  decide


/-! # The wide-digit cache -/

theorem sameMain_refl (x : FFBI) : sameMain x x := ⟨rfl, rfl, rfl, rfl⟩

theorem sameMain_trans {x y z : FFBI} (h1 : sameMain x y) (h2 : sameMain y z) : sameMain x z :=
  ⟨h2.1.trans h1.1, h2.2.1.trans h1.2.1, h2.2.2.1.trans h1.2.2.1, h2.2.2.2.trans h1.2.2.2⟩

theorem Heap.withCache_get {h : Heap} {p : Nat} {x : FFBI} (c : List Nat)
    (hg : h.get p = some x) : (h.withCache p x c).get p = some { x with cache := some c } :=
  Heap.get_upd_same _ hg

theorem Heap.withCache_get_ne (h : Heap) {p q : Nat} (x : FFBI) (c : List Nat) (hq : q ≠ p) :
    (h.withCache p x c).get q = h.get q :=
  Heap.get_upd_ne _ _ hq

theorem rdCache_withCache {h : Heap} {p : Nat} {x : FFBI} {c : List Nat} {j : Nat}
    (hg : h.get p = some x) (hj : j < c.length) :
    rdCache (h.withCache p x c) p j = some (c.getD j 0) :=
  rdCache_eq (Heap.withCache_get c hg) rfl hj

theorem wrCache_withCache {h : Heap} {p : Nat} {x : FFBI} {c : List Nat} {i : Nat} (v : Nat)
    (hg : h.get p = some x) (hi : i < c.length) :
    wrCache (h.withCache p x c) p i v = some (h.withCache p x (c.set i v)) := by
  rw [wrCache_eq v (Heap.withCache_get c hg) rfl hi]
  unfold Heap.withCache
  rw [Heap.upd_upd]

theorem rdCache_withCache_ne (h : Heap) {p q : Nat} (x : FFBI) (c : List Nat) (j : Nat)
    (hq : q ≠ p) : rdCache (h.withCache p x c) q j = rdCache h q j := by
  unfold rdCache
  rw [Heap.withCache_get_ne h x c hq]

theorem rdCache_upd_ne (h : Heap) {p q : Nat} (y : FFBI) (j : Nat) (hq : q ≠ p) :
    rdCache (h.upd p y) q j = rdCache h q j := by
  unfold rdCache
  rw [Heap.get_upd_ne h y hq]

theorem cache_bits_word (P : Platform) :
    4 * FFBI_CACHE_DIV_BITS_PER_DIGIT P ≤ FFBI_CACHE_WORD_SIZE P := by
  cases P <;> decide

/-- The function `ffbi_cache_prepare` without retention: afterwards the bigint holds a cache
array of recorded capacity at least `n`; nothing else changes. -/
theorem cache_prepare_spec (P : Platform) {h : Heap} {p : Nat} {x : FFBI} (n : Nat)
    (hg : h.get p = some x)
    (hvs : ∀ c, x.cache = some c → x.cache_num_allocated_digits ≤ c.length) :
    ∃ h' x' c', ffbi_cache_prepare P h p n false = some h' ∧ h'.get p = some x' ∧
      cacheHolds x' c' n ∧ sameMain x x' ∧ x'.cache_valid = x.cache_valid ∧
      x'.cache_bits_per_digit = x.cache_bits_per_digit ∧
      x'.cache_num_used_digits = x.cache_num_used_digits ∧
      Heap.frame [p] h h' ∧ h'.obj.length = h.obj.length ∧
      (∀ c, x.cache = some c → n ≤ x.cache_num_allocated_digits → h' = h) := by
  unfold ffbi_cache_prepare
  rw [hg, obind_some]
  have hput : ∀ y, (h.newArr (FFBI_CACHE_WORD_SIZE P) n).2.put p y
      = some ((h.newArr (FFBI_CACHE_WORD_SIZE P) n).2.upd p y) :=
    fun y => Heap.put_of_get y (by rw [Heap.newArr_get]; exact hg)
  have hfr : ∀ y, Heap.frame [p] h ((h.newArr (FFBI_CACHE_WORD_SIZE P) n).2.upd p y) := by
    intro y
    refine ⟨by rw [Heap.upd_obj_length, Heap.newArr_obj], ?_⟩
    intro q _ hn
    rw [Heap.get_upd_ne _ _ (by simpa using hn), Heap.newArr_get]
  have hgu : ∀ y, ((h.newArr (FFBI_CACHE_WORD_SIZE P) n).2.upd p y).get p = some y :=
    fun y => Heap.get_upd_same y (by rw [Heap.newArr_get]; exact hg)
  cases hc : x.cache with
  | none =>
    dsimp only
    rw [hput]
    refine ⟨_, _, _, rfl, hgu _, ⟨rfl, Nat.le_refl _, ?_⟩, ⟨rfl, rfl, rfl, rfl⟩, rfl, rfl, rfl,
      hfr _, by rw [Heap.upd_obj_length, Heap.newArr_obj], ?_⟩
    · dsimp only; rw [Heap.newArr_length]
    · intro c h1; cases h1
  | some c =>
    dsimp only
    by_cases hlt : x.cache_num_allocated_digits < n
    · rw [if_pos hlt]
      simp only [Bool.false_eq_true, if_false, obind_some]
      rw [hput]
      refine ⟨_, _, _, rfl, hgu _, ⟨rfl, Nat.le_refl _, ?_⟩, ⟨rfl, rfl, rfl, rfl⟩, rfl, rfl, rfl,
        hfr _, by rw [Heap.upd_obj_length, Heap.newArr_obj], ?_⟩
      · dsimp only; rw [Heap.newArr_length]
      · intro c' _ h2; omega
    · rw [if_neg hlt]
      exact ⟨h, x, c, rfl, hg, ⟨hc, by omega, hvs c hc⟩, sameMain_refl x, rfl, rfl, rfl,
        Heap.frame_refl _ _, rfl, fun _ _ _ => rfl⟩

/-- The comparison `ffbi_cmp_cache` of two canonical caches. -/
theorem ffbi_cmp_cache_spec (bits : Nat) {h : Heap} {a b : Nat} {x y : FFBI} {ca cb : List Nat}
    (ha : h.get a = some x) (hb : h.get b = some y) (hca : x.cache = some ca)
    (hcb : y.cache = some cb)
    (cx : canonicalDigits bits ca x.cache_num_used_digits)
    (cy : canonicalDigits bits cb y.cache_num_used_digits) :
    ffbi_cmp_cache h a b = some (cmpVal (digitsVal bits ca x.cache_num_used_digits)
      (digitsVal bits cb y.cache_num_used_digits)) := by
  unfold ffbi_cmp_cache
  rw [ha, obind_some, hb, obind_some, hca, obind_some, hcb, obind_some]
  exact cmp_arrays_spec bits _ _ _ _ cx cy


/-! # Conversion between the digit array and the cache -/

/-- Converting a canonical digit array from `S` to `R` bits per digit gives the canonical
array of the same integer. -/
theorem convert_canonical (dstW R S : Nat) (src : List Nat) (n : Nat) (hR : 0 < R) (hS : 0 < S)
    (hRW : R ≤ dstW) (c : canonicalDigits S src n) :
    ∃ ctx, ffbi_base_convert_create R S
        ((n - 1) * S + ffbi_significant_bits (src.getD (n - 1) 0)) = some ctx ∧
      1 ≤ ctx.dst_num_digits ∧
      ∀ dst, ctx.dst_num_digits ≤ dst.length →
        ∃ dst', ffbi_base_convert_exec dstW ctx dst src = some dst' ∧ dst'.length = dst.length ∧
          canonicalDigits R dst' ctx.dst_num_digits ∧
          digitsVal R dst' ctx.dst_num_digits = digitsVal S src n := by
  obtain ⟨t1, t2, t3, t4⟩ := total_bits_spec S src n hS c
  obtain ⟨b1, b2, b3, b4⟩ := c
  generalize hT : (n - 1) * S + ffbi_significant_bits (src.getD (n - 1) 0) = T at *
  generalize hV : digitsVal S src n = V at *
  obtain ⟨ctx, hc, hn⟩ := base_convert_create_some R S T hR hS
  obtain ⟨k1, k2, k3⟩ := ceil_div_pos T R (by omega) hR
  rw [← hn] at k1 k2 k3
  refine ⟨ctx, hc, k1, ?_⟩
  intro dst hlen
  obtain ⟨ds, f1, f2, f3⟩ := base_convert_exec_spec dstW R S T V dst src ctx hc hRW t1
    (by
      intro j hj
      have hjn : j < n := by
        by_contra hc2
        have : S * n ≤ S * j := Nat.mul_le_mul_left _ (by omega)
        rw [Nat.mul_comm S n] at this
        omega
      refine ⟨by omega, ?_⟩
      rw [← hV]
      exact (digitsVal_div S src n j hjn b3).symm)
    hlen
  refine ⟨ds, f1, f2, ⟨k1, by omega, ?_, ?_⟩, ?_⟩
  · intro i hi
    rw [f3 i, if_pos hi]
    exact bitsOf_lt _ _ _
  · by_cases h1d : ctx.dst_num_digits = 1
    · exact Or.inl h1d
    · right
      rw [f3, if_pos (by omega)]
      have hVT : V < 2 ^ (R * (ctx.dst_num_digits - 1) + R) := by
        have : R * (ctx.dst_num_digits - 1) + R = R * ctx.dst_num_digits := by
          conv_rhs => rw [show ctx.dst_num_digits = (ctx.dst_num_digits - 1) + 1 by omega]
          exact (Nat.mul_succ _ _).symm
        rw [this]
        exact Nat.lt_of_lt_of_le t1 (Nat.pow_le_pow_right (by decide) k2)
      rw [bitsOf_eq_div _ _ _ hVT]
      have hVne : V ≠ 0 := by
        intro h0
        obtain ⟨z1, z2⟩ := canonical_zero_length S src n ⟨b1, b2, b3, b4⟩ (by rw [hV]; exact h0)
        subst z1
        have hs : ffbi_significant_bits (src.getD (1 - 1) 0) = 1 := by
          show ffbi_significant_bits (src.getD 0 0) = 1
          rw [z2]; rfl
        rw [hs] at hT
        have hT1 : T = 1 := by omega
        rw [hT1] at k3
        have : R * 1 ≤ R * (ctx.dst_num_digits - 1) := Nat.mul_le_mul_left _ (by omega)
        omega
      have hge := t2 hVne
      have hle : 2 ^ (R * (ctx.dst_num_digits - 1)) ≤ 2 ^ (T - 1) :=
        Nat.pow_le_pow_right (by decide) (by omega)
      have hpos : 0 < V / 2 ^ (R * (ctx.dst_num_digits - 1)) :=
        Nat.div_pos (by omega) (Nat.two_pow_pos _)
      omega
  · rw [digitsVal_of_bits R V ds ctx.dst_num_digits (fun i hi => by rw [f3 i, if_pos hi])]
    exact Nat.mod_eq_of_lt (Nat.lt_of_lt_of_le t1 (Nat.pow_le_pow_right (by decide) k2))

/-- The number of digits that a conversion produces does not exceed the length of any
canonical array, in the target width, of an integer at least as large. -/
theorem convert_num_digits_le (dstW R S : Nat) (src : List Nat) (n : Nat) (hR : 0 < R)
    (hS : 0 < S) (hRW : R ≤ dstW) (c : canonicalDigits S src n)
    (ctx : ffbi_base_convert_t)
    (hctx : ffbi_base_convert_create R S
        ((n - 1) * S + ffbi_significant_bits (src.getD (n - 1) 0)) = some ctx)
    (ds : List Nat) (m : Nat) (cd : canonicalDigits R ds m)
    (hle : digitsVal S src n ≤ digitsVal R ds m) : ctx.dst_num_digits ≤ m := by
  obtain ⟨ctx', h1, h2, h3⟩ := convert_canonical dstW R S src n hR hS hRW c
  rw [hctx] at h1
  have hcc : ctx = ctx' := Option.some.inj h1
  subst hcc
  obtain ⟨dst', e1, e2, e3, e4⟩ := h3 (List.replicate ctx.dst_num_digits 0) (by simp)
  exact nb_le_na_of_val_le R ds dst' m ctx.dst_num_digits cd e3 (by rw [e4]; exact hle)

/-- The function `ffbi_cache_update` at the division width: afterwards the bigint holds a
canonical cache of its value.  A cache that is marked valid is trusted to be coherent. -/
theorem cache_update_spec (P : Platform) {h : Heap} {p : Nat} {x : FFBI}
    (hg : h.get p = some x) (cx : canonical P x) (hvs : validStorage x)
    (hco : cacheCoherent P x) :
    ∃ h' x' c, ffbi_cache_update P h p (FFBI_CACHE_DIV_BITS_PER_DIGIT P) = some h' ∧
      h'.get p = some x' ∧ x'.cache = some c ∧ x'.cache_num_allocated_digits ≤ c.length ∧
      canonicalDigits (FFBI_CACHE_DIV_BITS_PER_DIGIT P) c x'.cache_num_used_digits ∧
      digitsVal (FFBI_CACHE_DIV_BITS_PER_DIGIT P) c x'.cache_num_used_digits = val P x ∧
      sameMain x x' ∧ x'.cache_valid = true ∧
      x'.cache_bits_per_digit = FFBI_CACHE_DIV_BITS_PER_DIGIT P ∧
      Heap.frame [p] h h' ∧ h'.obj.length = h.obj.length := by
  unfold ffbi_cache_update
  rw [hg, obind_some]
  by_cases hv : x.cache_valid = true ∧ FFBI_CACHE_DIV_BITS_PER_DIGIT P = x.cache_bits_per_digit
  · rw [if_pos hv]
    obtain ⟨c, c1, c2, c3, c4, c5⟩ := hco hv.1
    rw [← hv.2] at c2 c5
    exact ⟨h, x, c, rfl, hg, c1, c3, c2, c5, sameMain_refl x, hv.1, hv.2.symm,
      Heap.frame_refl _ _, rfl⟩
  · rw [if_neg hv, rd_of_lt (by have := cx.1; have := cx.2.1; omega), obind_some]
    dsimp only
    obtain ⟨ctx, k1, k2, k3⟩ := convert_canonical (FFBI_CACHE_WORD_SIZE P)
      (FFBI_CACHE_DIV_BITS_PER_DIGIT P) (FFBI_BITS_PER_DIGIT P) x.digits x.num_used_digits
      (cache_bits_pos P) (bits_pos P) (Nat.le_of_lt (cache_bits_lt_word P)) cx
    rw [k1, obind_some]
    have harr : ctx.dst_num_digits ≤ (cache_update_array P h x ctx.dst_num_digits).1.length ∧
        (cache_update_array P h x ctx.dst_num_digits).2.1
          ≤ (cache_update_array P h x ctx.dst_num_digits).1.length ∧
        (cache_update_array P h x ctx.dst_num_digits).2.2.get p = some x ∧
        (cache_update_array P h x ctx.dst_num_digits).2.2.obj = h.obj := by
      unfold cache_update_array
      cases hc : x.cache with
      | none =>
        dsimp only
        rw [Heap.newArr_length]
        exact ⟨Nat.le_refl _, Nat.le_refl _, hg, rfl⟩
      | some c =>
        dsimp only
        by_cases hgt : ctx.dst_num_digits > x.cache_num_allocated_digits
        · rw [if_pos hgt]
          dsimp only
          rw [Heap.newArr_length]
          exact ⟨Nat.le_refl _, Nat.le_refl _, hg, rfl⟩
        · rw [if_neg hgt]
          have := hvs.2 c hc
          exact ⟨by dsimp only; omega, this, hg, rfl⟩
    obtain ⟨a1, a2, a3, a4⟩ := harr
    obtain ⟨c', e1, e2, e3, e4⟩ := k3 _ a1
    rw [e1, obind_some, Heap.put_of_get _ a3]
    refine ⟨_, _, c', rfl, Heap.get_upd_same _ a3, rfl, by dsimp only; omega, e3, e4,
      ⟨rfl, rfl, rfl, rfl⟩, rfl, rfl, ?_, by rw [Heap.upd_obj_length, a4]⟩
    refine ⟨by rw [Heap.upd_obj_length, a4], ?_⟩
    intro q _ hn
    rw [Heap.get_upd_ne _ _ (by simpa using hn)]
    unfold Heap.get
    rw [a4]

/-- The function `ffbi_cache_retrieve`: the digits become the canonical array of the integer
held in the cache.  The bigint must be growable unless its capacity covers a canonical array
of an integer at least as large. -/
theorem cache_retrieve_spec (P : Platform) {h : Heap} {p : Nat} {x : FFBI} {c : List Nat}
    (hg : h.get p = some x) (hc : x.cache = some c)
    (cc : canonicalDigits x.cache_bits_per_digit c x.cache_num_used_digits)
    (hb : 0 < x.cache_bits_per_digit) (hvs : validStorage x)
    (hcap : x.reallocation_allowed = true ∨ ∃ ds n, canonicalDigits (FFBI_BITS_PER_DIGIT P) ds n ∧
      digitsVal x.cache_bits_per_digit c x.cache_num_used_digits
        ≤ digitsVal (FFBI_BITS_PER_DIGIT P) ds n ∧ n ≤ x.num_allocated_digits) :
    ∃ h' x', ffbi_cache_retrieve P h p = some h' ∧ h'.get p = some x' ∧ canonical P x' ∧
      val P x' = digitsVal x.cache_bits_per_digit c x.cache_num_used_digits ∧
      x'.cache_valid = true ∧ x'.cache = some c ∧
      x'.cache_num_used_digits = x.cache_num_used_digits ∧
      x'.cache_bits_per_digit = x.cache_bits_per_digit ∧
      x'.cache_num_allocated_digits = x.cache_num_allocated_digits ∧
      x'.num_used_digits ≤ x'.num_allocated_digits ∧
      x'.num_allocated_digits ≤ x'.digits.length ∧
      x.num_allocated_digits ≤ x'.num_allocated_digits ∧
      x'.reallocation_allowed = x.reallocation_allowed ∧
      Heap.frame [p] h h' ∧ h'.obj.length = h.obj.length := by
  obtain ⟨ctx, k1, k2, k3⟩ := convert_canonical (FFBI_WORD_SIZE P) (FFBI_BITS_PER_DIGIT P)
    x.cache_bits_per_digit c x.cache_num_used_digits (bits_pos P) hb
    (Nat.le_of_lt (bits_lt_word P)) cc
  unfold ffbi_cache_retrieve
  rw [hg, obind_some, hc, obind_some, rd_of_lt (by have := cc.1; have := cc.2.1; omega),
    obind_some]
  dsimp only
  rw [k1, obind_some]
  have hneed : x.num_allocated_digits < ctx.dst_num_digits → x.reallocation_allowed = true := by
    intro hlt
    rcases hcap with hr | ⟨ds, n, d1, d2, d3⟩
    · exact hr
    · have := convert_num_digits_le (FFBI_WORD_SIZE P) (FFBI_BITS_PER_DIGIT P)
        x.cache_bits_per_digit c x.cache_num_used_digits (bits_pos P) hb
        (Nat.le_of_lt (bits_lt_word P)) cc ctx k1 ds n d1 d2
      omega
  obtain ⟨h0, x0, r1, r2, r3, r4, r5, r6, r7, r8, r9, r10, r11, r12, r13⟩ :=
    realloc_if_small P ctx.dst_num_digits ctx.dst_num_digits hg hneed hvs (Nat.le_refl _)
  have r1' : (if ctx.dst_num_digits > x.num_allocated_digits then
      ffbi_reallocate_digits P h p ctx.dst_num_digits false else some h) = some h0 := r1
  rw [r1', obind_some, modify_eq _ r2, obind_some, Heap.get_upd_same _ r2, obind_some]
  dsimp only
  rw [r7, hc, obind_some]
  obtain ⟨ds, e1, e2, e3, e4⟩ := k3 x0.digits (by omega)
  rw [e1, obind_some, Heap.put_of_get _ (Heap.get_upd_same _ r2), Heap.upd_upd]
  refine ⟨_, _, rfl, Heap.get_upd_same _ r2, e3, e4, rfl, rfl, r9, r10, r8,
    by dsimp only; omega, by dsimp only; omega, r5, r6,
    Heap.frame_trans r11 (Heap.frame_upd _ _ _) (fun _ hq => hq),
    by rw [Heap.upd_obj_length, r12]⟩


/-! # Wide-digit subtraction -/

theorem two_pow_succ_le_cache_word (P : Platform) :
    2 ^ (FFBI_CACHE_DIV_BITS_PER_DIGIT P + 1) ≤ 2 ^ FFBI_CACHE_WORD_SIZE P :=
  Nat.pow_le_pow_right (by decide) (cache_bits_lt_word P)

/-- One iteration of the digit loops of `ffbi_sub_cache` at index `m + 1`.  Before it the digits
below `m` are final, digit `m` still carries its borrow bit, the digits from `m + 1` on are
untouched, and the partial difference on the low `m + 1` digits is `a - b + 2 ^ (D * (m + 1))`;
afterwards the same holds one digit further. -/
theorem sub_cache_step_spec (P : Platform) (h0 : Heap) (dest a b : Nat) (xd0 : FFBI) (C0 A Bd : List Nat)
    (na nb m : Nat) (ds : List Nat) (useB : Bool)
    (hg : h0.get dest = some xd0) (hpa : a ≠ dest) (hpb : b ≠ dest)
    (hbits : xd0.cache_bits_per_digit = FFBI_CACHE_DIV_BITS_PER_DIGIT P) (hna : na ≤ C0.length)
    (hA : ∀ j, j < na → rdCache h0 a j = some (A.getD j 0))
    (hAlt : ∀ j, j < na → A.getD j 0 < 2 ^ FFBI_CACHE_DIV_BITS_PER_DIGIT P)
    (hB : ∀ j, j < nb → rdCache h0 b j = some (Bd.getD j 0))
    (hBlt : ∀ j, j < nb → Bd.getD j 0 < 2 ^ FFBI_CACHE_DIV_BITS_PER_DIGIT P)
    (hk : m + 1 < na) (hub : useB = true ↔ m + 1 < nb)
    (i1 : ds.length = C0.length)
    (i2 : ∀ j, m + 1 ≤ j → ds.getD j 0 = C0.getD j 0)
    (i3 : ∀ j, j < m → ds.getD j 0 < 2 ^ FFBI_CACHE_DIV_BITS_PER_DIGIT P)
    (i4 : ds.getD m 0 < 2 ^ (FFBI_CACHE_DIV_BITS_PER_DIGIT P + 1))
    (i5 : digitsVal (FFBI_CACHE_DIV_BITS_PER_DIGIT P) ds (m + 1)
        + digitsVal (FFBI_CACHE_DIV_BITS_PER_DIGIT P) Bd (min (m + 1) nb)
      = digitsVal (FFBI_CACHE_DIV_BITS_PER_DIGIT P) A (m + 1) + 2 ^ (FFBI_CACHE_DIV_BITS_PER_DIGIT P * (m + 1))) :
    ∃ ds', sub_cache_step P dest a b true useB (m + 1) (h0.withCache dest xd0 ds)
        = some (h0.withCache dest xd0 ds') ∧
      ds'.length = C0.length ∧
      (∀ j, m + 2 ≤ j → ds'.getD j 0 = C0.getD j 0) ∧
      (∀ j, j < m + 1 → ds'.getD j 0 < 2 ^ FFBI_CACHE_DIV_BITS_PER_DIGIT P) ∧
      ds'.getD (m + 1) 0 < 2 ^ (FFBI_CACHE_DIV_BITS_PER_DIGIT P + 1) ∧
      digitsVal (FFBI_CACHE_DIV_BITS_PER_DIGIT P) ds' (m + 2)
          + digitsVal (FFBI_CACHE_DIV_BITS_PER_DIGIT P) Bd (min (m + 2) nb)
        = digitsVal (FFBI_CACHE_DIV_BITS_PER_DIGIT P) A (m + 2) + 2 ^ (FFBI_CACHE_DIV_BITS_PER_DIGIT P * (m + 2)) := by
  have hW := two_pow_succ_le_cache_word P
  have hD1 : 2 ^ (FFBI_CACHE_DIV_BITS_PER_DIGIT P + 1) = 2 * 2 ^ FFBI_CACHE_DIV_BITS_PER_DIGIT P := by
    rw [Nat.pow_succ]; ring
  generalize hDdef : FFBI_CACHE_DIV_BITS_PER_DIGIT P = D at *
  generalize hWdef : FFBI_CACHE_WORD_SIZE P = W at *
  generalize hraw : ds.getD m 0 = raw at *
  have hc := shr_bits_le_one i4
  have hsplit := Nat.div_add_mod raw (2 ^ D)
  have hout : raw % 2 ^ D < 2 ^ D := Nat.mod_lt _ (Nat.two_pow_pos D)
  have hAk := hAlt (m + 1) hk
  have hpowD : 0 < 2 ^ D := Nat.two_pow_pos D
  have hB2 : 2 * 2 ^ D ≤ 2 ^ W := by rw [← hD1]; exact hW
  have hthru : ∀ q, q ≠ dest → rdCache (h0.withCache dest xd0 (ds.set m (raw % 2 ^ D))) q (m + 1)
      = rdCache h0 q (m + 1) := fun q hq => rdCache_withCache_ne _ _ _ _ hq
  -- the value written at digit m + 1
  have hv : ∃ v, (if true = true then
        obind (rdCache (h0.withCache dest xd0 (ds.set m (raw % 2 ^ D))) a (m + 1)) fun ak =>
        if useB = true then
          obind (rdCache (h0.withCache dest xd0 (ds.set m (raw % 2 ^ D))) b (m + 1)) fun bk =>
          some (wsub W (wsub W (wadd W ak (cache_div_digit_max_plus_1 P)) bk) (wsub W 1 (raw >>> D)))
        else some (wsub W (wadd W ak (cache_div_digit_max_plus_1 P)) (wsub W 1 (raw >>> D)))
      else
        obind (rdCache (h0.withCache dest xd0 (ds.set m (raw % 2 ^ D))) b (m + 1)) fun bk =>
        some (wsub W (wsub W (cache_div_digit_max_plus_1 P) bk) (wsub W 1 (raw >>> D)))) = some v ∧
      v + (if m + 1 < nb then Bd.getD (m + 1) 0 else 0) + 1
        = A.getD (m + 1) 0 + 2 ^ D + raw / 2 ^ D := by
    rw [if_pos rfl, hthru a hpa, hA (m + 1) hk, obind_some, cache_div_digit_max_plus_1_eq, hDdef,
      Nat.shiftRight_eq_div_pow]
    by_cases hkb : m + 1 < nb
    · rw [if_pos (hub.mpr hkb), hthru b hpb, hB (m + 1) hkb, obind_some,
        sub_word_both hB2 hAk (hBlt (m + 1) hkb) hc]
      have hBk := hBlt (m + 1) hkb
      refine ⟨_, rfl, ?_⟩
      rw [if_pos hkb]
      generalize raw / 2 ^ D = c at *
      generalize 2 ^ D = B at *
      omega
    · have hu : ¬ useB = true := fun h => hkb (hub.mp h)
      rw [if_neg hu, sub_word_a hB2 hAk hc]
      refine ⟨_, rfl, ?_⟩
      rw [if_neg hkb]
      generalize raw / 2 ^ D = c at *
      generalize 2 ^ D = B at *
      omega
  obtain ⟨v, hv1, hv2⟩ := hv
  refine ⟨(ds.set m (raw % 2 ^ D)).set (m + 1) v, ?_, ?_, ?_, ?_, ?_, ?_⟩
  · unfold sub_cache_step
    rw [Heap.withCache_get _ hg, obind_some]
    dsimp only
    rw [Nat.add_sub_cancel, hWdef, hbits, rdCache_withCache hg (by omega), obind_some, hraw,
      wrCache_withCache _ hg (by omega), obind_some, land_cache_div_digit_max_eq, hDdef, hv1, obind_some,
      wrCache_withCache _ hg (by rw [List.length_set]; omega)]
  · rw [List.length_set, List.length_set, i1]
  · intro j hj
    rw [getD_set_ne _ _ (by omega), getD_set_ne _ _ (by omega)]
    exact i2 j (by omega)
  · intro j hj
    rw [getD_set_ne _ _ (by omega)]
    by_cases hjk : j = m
    · rw [hjk, getD_set_same _ (by omega)]
      exact hout
    · rw [getD_set_ne _ _ hjk]
      exact i3 j (by omega)
  · rw [getD_set_same _ (by rw [List.length_set]; omega), hD1]
    generalize (if m + 1 < nb then Bd.getD (m + 1) 0 else 0) = bk at *
    generalize raw / 2 ^ D = c at *
    generalize 2 ^ D = B at *
    omega
  · -- the arithmetic of one borrow step
    rw [digitsVal_succ, getD_set_same _ (by rw [List.length_set]; omega),
      digitsVal_set_ge _ _ _ _ _ (Nat.le_refl (m + 1)), digitsVal_succ,
      getD_set_same _ (by omega), digitsVal_set_ge _ _ _ _ _ (Nat.le_refl m)]
    rw [digitsVal_succ, hraw] at i5
    have e3 : 2 ^ (D * (m + 1)) = 2 ^ D * 2 ^ (D * m) := by
      rw [← Nat.pow_add]; congr 1
      rw [Nat.mul_succ]; omega
    have e4 : 2 ^ (D * (m + 2)) = 2 ^ D * 2 ^ (D * (m + 1)) := by
      rw [← Nat.pow_add]; congr 1
      rw [Nat.mul_succ]; omega
    have e5 : digitsVal D Bd (min (m + 2) nb)
        = digitsVal D Bd (min (m + 1) nb)
          + (if m + 1 < nb then Bd.getD (m + 1) 0 else 0) * 2 ^ (D * (m + 1)) := by
      by_cases hkb : m + 1 < nb
      · rw [if_pos hkb, Nat.min_eq_left (by omega), Nat.min_eq_left (by omega), digitsVal_succ]
      · rw [if_neg hkb, Nat.min_eq_right (by omega), Nat.min_eq_right (by omega)]
        simp
    rw [e5, digitsVal_succ D A, e4, e3]
    rw [e3] at i5
    generalize digitsVal D ds m = S at *
    generalize digitsVal D Bd (min (m + 1) nb) = VB at *
    generalize digitsVal D A (m + 1) = VA at *
    generalize (if m + 1 < nb then Bd.getD (m + 1) 0 else 0) = bk at *
    generalize A.getD (m + 1) 0 = ak at *
    generalize 2 ^ (D * m) = Y at *
    generalize raw / 2 ^ D = c at *
    generalize raw % 2 ^ D = out at *
    generalize 2 ^ D = B at *
    have hraw2 : raw = B * c + out := hsplit.symm
    subst hraw2
    have key : (v + bk + 1) * (B * Y) = (ak + B + c) * (B * Y) := by rw [hv2]
    linarith [key, i5]

/-- A run of iterations of a digit loop of `ffbi_sub_cache`, from index `s + 1` to `s + n`. -/
theorem sub_cache_loop_spec (P : Platform) (h0 : Heap) (dest a b : Nat) (xd0 : FFBI) (C0 A Bd : List Nat)
    (na nb : Nat) (useB : Bool)
    (hg : h0.get dest = some xd0) (hpa : a ≠ dest) (hpb : b ≠ dest)
    (hbits : xd0.cache_bits_per_digit = FFBI_CACHE_DIV_BITS_PER_DIGIT P) (hna : na ≤ C0.length)
    (hA : ∀ j, j < na → rdCache h0 a j = some (A.getD j 0))
    (hAlt : ∀ j, j < na → A.getD j 0 < 2 ^ FFBI_CACHE_DIV_BITS_PER_DIGIT P)
    (hB : ∀ j, j < nb → rdCache h0 b j = some (Bd.getD j 0))
    (hBlt : ∀ j, j < nb → Bd.getD j 0 < 2 ^ FFBI_CACHE_DIV_BITS_PER_DIGIT P)
    (n s : Nat) (ds : List Nat) (hend' : n = 0 ∨ s + n < na)
    (hub : ∀ i, s + 1 ≤ i → i < s + 1 + n → (useB = true ↔ i < nb))
    (i1 : ds.length = C0.length)
    (i2 : ∀ j, s + 1 ≤ j → ds.getD j 0 = C0.getD j 0)
    (i3 : ∀ j, j < s → ds.getD j 0 < 2 ^ FFBI_CACHE_DIV_BITS_PER_DIGIT P)
    (i4 : ds.getD s 0 < 2 ^ (FFBI_CACHE_DIV_BITS_PER_DIGIT P + 1))
    (i5 : digitsVal (FFBI_CACHE_DIV_BITS_PER_DIGIT P) ds (s + 1)
        + digitsVal (FFBI_CACHE_DIV_BITS_PER_DIGIT P) Bd (min (s + 1) nb)
      = digitsVal (FFBI_CACHE_DIV_BITS_PER_DIGIT P) A (s + 1) + 2 ^ (FFBI_CACHE_DIV_BITS_PER_DIGIT P * (s + 1))) :
    ∃ ds', forUp (sub_cache_step P dest a b true useB) n (s + 1) (h0.withCache dest xd0 ds)
        = some (h0.withCache dest xd0 ds') ∧
      ds'.length = C0.length ∧
      (∀ j, s + n + 1 ≤ j → ds'.getD j 0 = C0.getD j 0) ∧
      (∀ j, j < s + n → ds'.getD j 0 < 2 ^ FFBI_CACHE_DIV_BITS_PER_DIGIT P) ∧
      ds'.getD (s + n) 0 < 2 ^ (FFBI_CACHE_DIV_BITS_PER_DIGIT P + 1) ∧
      digitsVal (FFBI_CACHE_DIV_BITS_PER_DIGIT P) ds' (s + n + 1)
          + digitsVal (FFBI_CACHE_DIV_BITS_PER_DIGIT P) Bd (min (s + n + 1) nb)
        = digitsVal (FFBI_CACHE_DIV_BITS_PER_DIGIT P) A (s + n + 1)
          + 2 ^ (FFBI_CACHE_DIV_BITS_PER_DIGIT P * (s + n + 1)) := by
  have key := forUp_inv (sub_cache_step P dest a b true useB)
    (fun i (h : Heap) => ∃ m ds', i = m + 1 ∧ h = h0.withCache dest xd0 ds' ∧
      ds'.length = C0.length ∧
      (∀ j, m + 1 ≤ j → ds'.getD j 0 = C0.getD j 0) ∧
      (∀ j, j < m → ds'.getD j 0 < 2 ^ FFBI_CACHE_DIV_BITS_PER_DIGIT P) ∧
      ds'.getD m 0 < 2 ^ (FFBI_CACHE_DIV_BITS_PER_DIGIT P + 1) ∧
      digitsVal (FFBI_CACHE_DIV_BITS_PER_DIGIT P) ds' (m + 1)
          + digitsVal (FFBI_CACHE_DIV_BITS_PER_DIGIT P) Bd (min (m + 1) nb)
        = digitsVal (FFBI_CACHE_DIV_BITS_PER_DIGIT P) A (m + 1) + 2 ^ (FFBI_CACHE_DIV_BITS_PER_DIGIT P * (m + 1)))
    n (s + 1) (h0.withCache dest xd0 ds)
    ⟨s, ds, rfl, rfl, i1, i2, i3, i4, i5⟩
    (by
      intro i t hi1 hi2 ⟨m, ds1, e0, e1, e2, e3, e4, e5, e6⟩
      subst e0 e1
      obtain ⟨ds2, f1, f2, f3, f4, f5, f6⟩ := sub_cache_step_spec P h0 dest a b xd0 C0 A Bd na nb m ds1 useB
        hg hpa hpb hbits hna hA hAlt hB hBlt (by omega) (hub (m + 1) hi1 hi2) e2 e3 e4 e5 e6
      exact ⟨_, f1, m + 1, ds2, rfl, rfl, f2, f3, f4, f5, f6⟩)
  obtain ⟨h', hh, m, ds', e0, e1, e2, e3, e4, e5, e6⟩ := key
  have hm : m = s + n := by omega
  subst hm
  subst e1
  exact ⟨ds', hh, e2, e3, e4, e5, e6⟩

/-- The body of `ffbi_sub_cache` after the optional reallocation. -/
theorem sub_cache_core_spec (P : Platform) (h0 : Heap) (dest a b : Nat) (xd0 : FFBI) (C0 A Bd : List Nat)
    (na nb : Nat)
    (hg : h0.get dest = some xd0) (hpa : a ≠ dest) (hpb : b ≠ dest)
    (hbits : xd0.cache_bits_per_digit = FFBI_CACHE_DIV_BITS_PER_DIGIT P) (hc0 : xd0.cache = some C0)
    (hna : na ≤ C0.length)
    (hA : ∀ j, j < na → rdCache h0 a j = some (A.getD j 0))
    (hAlt : ∀ j, j < na → A.getD j 0 < 2 ^ FFBI_CACHE_DIV_BITS_PER_DIGIT P)
    (hB : ∀ j, j < nb → rdCache h0 b j = some (Bd.getD j 0))
    (hBlt : ∀ j, j < nb → Bd.getD j 0 < 2 ^ FFBI_CACHE_DIV_BITS_PER_DIGIT P)
    (hnb1 : 1 ≤ nb) (hnba : nb ≤ na)
    (hle : digitsVal (FFBI_CACHE_DIV_BITS_PER_DIGIT P) Bd nb ≤ digitsVal (FFBI_CACHE_DIV_BITS_PER_DIGIT P) A na) :
    ∃ ds n',
      (obind (rdCache h0 a 0) fun a0 =>
        obind (rdCache h0 b 0) fun b0 =>
        obind (wrCache h0 dest 0
          (wsub (FFBI_CACHE_WORD_SIZE P) (wadd (FFBI_CACHE_WORD_SIZE P) a0 (cache_div_digit_max_plus_1 P)) b0)) fun h =>
        obind (forUp (sub_cache_step P dest a b true true) (nb - 1) 1 h) fun h =>
        obind (if nb > na then
            forUp (sub_cache_step P dest a b false true) (na - (if nb > 1 then nb else 1))
              (if nb > 1 then nb else 1) h
          else
            forUp (sub_cache_step P dest a b true false) (na - (if nb > 1 then nb else 1))
              (if nb > 1 then nb else 1) h) fun h =>
        obind (rdCache h dest ((if na > (if nb > 1 then nb else 1) then na
            else (if nb > 1 then nb else 1)) - 1)) fun top =>
        obind (wrCache h dest ((if na > (if nb > 1 then nb else 1) then na
            else (if nb > 1 then nb else 1)) - 1) (top &&& cache_div_digit_max P)) fun h =>
        obind (h.get dest) fun xd =>
        obind xd.cache fun c =>
        obind (trim_loop c ((if na > (if nb > 1 then nb else 1) then na
            else (if nb > 1 then nb else 1)) - 1)) fun k =>
        modify h dest (fun x => { x with cache_num_used_digits := k + 1 }))
      = some (h0.upd dest { xd0 with cache := some ds, cache_num_used_digits := n' }) ∧
      ds.length = C0.length ∧
      canonicalDigits (FFBI_CACHE_DIV_BITS_PER_DIGIT P) ds n' ∧ n' ≤ na ∧
      digitsVal (FFBI_CACHE_DIV_BITS_PER_DIGIT P) ds n'
        = digitsVal (FFBI_CACHE_DIV_BITS_PER_DIGIT P) A na - digitsVal (FFBI_CACHE_DIV_BITS_PER_DIGIT P) Bd nb := by
  have hW := two_pow_succ_le_cache_word P
  have hD1 : 2 ^ (FFBI_CACHE_DIV_BITS_PER_DIGIT P + 1) = 2 * 2 ^ FFBI_CACHE_DIV_BITS_PER_DIGIT P := by
    rw [Nat.pow_succ]; ring
  have hk1 : (if nb > 1 then nb else 1) = nb := by
    by_cases h : nb > 1
    · rw [if_pos h]
    · rw [if_neg h]; omega
  have hk2 : (if na > nb then na else nb) = na := by
    by_cases h : na > nb
    · rw [if_pos h]
    · rw [if_neg h]; omega
  have hngt : ¬ nb > na := by omega
  rw [hk1, hk2]
  simp only [if_neg hngt]
  rw [hA 0 (by omega), obind_some, hB 0 (by omega), obind_some, cache_div_digit_max_plus_1_eq]
  have ha0 := hAlt 0 (by omega)
  have hb0 := hBlt 0 (by omega)
  have hraw0 : wsub (FFBI_CACHE_WORD_SIZE P)
      (wadd (FFBI_CACHE_WORD_SIZE P) (A.getD 0 0) (2 ^ FFBI_CACHE_DIV_BITS_PER_DIGIT P)) (Bd.getD 0 0)
      = A.getD 0 0 + 2 ^ FFBI_CACHE_DIV_BITS_PER_DIGIT P - Bd.getD 0 0 := by
    rw [wadd_eq (by omega), wsub_eq (by omega) (by omega)]
  rw [hraw0, wrCache_eq _ hg hc0 (by omega), obind_some]
  -- first loop: digits of both operands
  obtain ⟨ds1, l1, e1, e2, e3, e4, e5⟩ := sub_cache_loop_spec P h0 dest a b xd0 C0 A Bd na nb true hg hpa hpb hbits hna
    hA hAlt hB hBlt (nb - 1) 0
    (C0.set 0 (A.getD 0 0 + 2 ^ FFBI_CACHE_DIV_BITS_PER_DIGIT P - Bd.getD 0 0))
    (by omega) (fun i h1 h2 => ⟨fun _ => by omega, fun _ => rfl⟩)
    (by rw [List.length_set])
    (fun j hj => getD_set_ne _ _ (by omega))
    (fun j hj => by omega)
    (by rw [getD_set_same _ (by omega)]; omega)
    (by
      rw [Nat.min_eq_left (by omega)]
      simp only [digitsVal, Nat.zero_add, Nat.mul_zero, Nat.pow_zero, Nat.mul_one]
      rw [getD_set_same _ (by omega)]
      omega)
  have hh1 : ∀ v, h0.upd dest { xd0 with cache := some v } = h0.withCache dest xd0 v := fun _ => rfl
  rw [hh1]
  rw [Nat.zero_add] at l1 e2 e3 e4 e5
  rw [l1, obind_some]
  have hnb' : nb - 1 + 1 = nb := by omega
  rw [hnb'] at e2 e5
  -- second loop: the remaining digits of a
  obtain ⟨ds2, l2, f1, f2, f3, f4, f5⟩ := sub_cache_loop_spec P h0 dest a b xd0 C0 A Bd na nb false hg hpa hpb hbits hna
    hA hAlt hB hBlt (na - nb) (nb - 1) ds1
    (by omega) (fun i h1 h2 => ⟨fun h => Bool.noConfusion h, fun h => absurd h (by omega)⟩)
    e1 (by rw [hnb']; exact e2) e3 e4 (by rw [hnb']; exact e5)
  rw [hnb'] at l2
  rw [l2, obind_some]
  have hna' : nb - 1 + (na - nb) = na - 1 := by omega
  have hna'' : na - 1 + 1 = na := by omega
  rw [hna'] at f2 f3 f4 f5
  rw [hna''] at f2 f5
  rw [Nat.min_eq_right hnba] at f5
  -- the final mask and the trimming
  rw [rdCache_withCache hg (by omega), obind_some, wrCache_withCache _ hg (by omega), obind_some,
    Heap.withCache_get _ hg, obind_some, land_cache_div_digit_max_eq]
  dsimp only
  rw [obind_some]
  generalize hraw : ds2.getD (na - 1) 0 = raw at *
  have hlen3 : (ds2.set (na - 1) (raw % 2 ^ FFBI_CACHE_DIV_BITS_PER_DIGIT P)).length = C0.length := by
    rw [List.length_set, f1]
  obtain ⟨k', t1, t2, t3, t4⟩ := trim_loop_spec (ds2.set (na - 1) (raw % 2 ^ FFBI_CACHE_DIV_BITS_PER_DIGIT P))
    (na - 1) (by omega)
  rw [t1, obind_some, modify_eq _ (Heap.withCache_get _ hg)]
  unfold Heap.withCache
  rw [Heap.upd_upd]
  have hnorm : ∀ j, j < na →
      (ds2.set (na - 1) (raw % 2 ^ FFBI_CACHE_DIV_BITS_PER_DIGIT P)).getD j 0 < 2 ^ FFBI_CACHE_DIV_BITS_PER_DIGIT P := by
    intro j hj
    by_cases hjk : j = na - 1
    · rw [hjk, getD_set_same _ (by omega)]
      exact Nat.mod_lt _ (Nat.two_pow_pos _)
    · rw [getD_set_ne _ _ hjk]
      exact f3 j (by omega)
  have hval : digitsVal (FFBI_CACHE_DIV_BITS_PER_DIGIT P)
      (ds2.set (na - 1) (raw % 2 ^ FFBI_CACHE_DIV_BITS_PER_DIGIT P)) na
      = digitsVal (FFBI_CACHE_DIV_BITS_PER_DIGIT P) A na - digitsVal (FFBI_CACHE_DIV_BITS_PER_DIGIT P) Bd nb := by
    have hlt := digitsVal_lt _ _ na hnorm
    have hc := shr_bits_le_one f4
    have hsplit := Nat.div_add_mod raw (2 ^ FFBI_CACHE_DIV_BITS_PER_DIGIT P)
    have e6 : 2 ^ (FFBI_CACHE_DIV_BITS_PER_DIGIT P * (na - 1 + 1))
        = 2 ^ FFBI_CACHE_DIV_BITS_PER_DIGIT P * 2 ^ (FFBI_CACHE_DIV_BITS_PER_DIGIT P * (na - 1)) := by
      rw [← Nat.pow_add]; congr 1
      rw [Nat.mul_succ]; omega
    have e7 : digitsVal (FFBI_CACHE_DIV_BITS_PER_DIGIT P)
        (ds2.set (na - 1) (raw % 2 ^ FFBI_CACHE_DIV_BITS_PER_DIGIT P)) (na - 1 + 1)
        = digitsVal (FFBI_CACHE_DIV_BITS_PER_DIGIT P) ds2 (na - 1)
          + raw % 2 ^ FFBI_CACHE_DIV_BITS_PER_DIGIT P * 2 ^ (FFBI_CACHE_DIV_BITS_PER_DIGIT P * (na - 1)) := by
      rw [digitsVal_succ, getD_set_same _ (by omega), digitsVal_set_ge _ _ _ _ _ (Nat.le_refl _)]
    have e8 : digitsVal (FFBI_CACHE_DIV_BITS_PER_DIGIT P) ds2 (na - 1 + 1)
        = digitsVal (FFBI_CACHE_DIV_BITS_PER_DIGIT P) ds2 (na - 1)
          + raw * 2 ^ (FFBI_CACHE_DIV_BITS_PER_DIGIT P * (na - 1)) := by
      rw [digitsVal_succ, hraw]
    rw [hna''] at e6 e7 e8
    rw [e7] at hlt ⊢
    rw [e8, e6] at f5
    rw [e6] at hlt
    generalize digitsVal (FFBI_CACHE_DIV_BITS_PER_DIGIT P) ds2 (na - 1) = S at *
    generalize digitsVal (FFBI_CACHE_DIV_BITS_PER_DIGIT P) Bd nb = VB at *
    generalize digitsVal (FFBI_CACHE_DIV_BITS_PER_DIGIT P) A na = VA at *
    generalize 2 ^ (FFBI_CACHE_DIV_BITS_PER_DIGIT P * (na - 1)) = Y at *
    generalize raw / 2 ^ FFBI_CACHE_DIV_BITS_PER_DIGIT P = c at *
    generalize raw % 2 ^ FFBI_CACHE_DIV_BITS_PER_DIGIT P = out at *
    generalize 2 ^ FFBI_CACHE_DIV_BITS_PER_DIGIT P = B at *
    have hraw2 : raw = B * c + out := hsplit.symm
    subst hraw2
    have hc1 : c = 1 := by
      by_contra hne
      have hcz : c = 0 := by omega
      subst hcz
      have : S + out * Y + VB = VA + B * Y := by linarith [f5]
      omega
    subst hc1
    have : S + out * Y + VB = VA := by linarith [f5]
    omega
  refine ⟨_, k' + 1, rfl, hlen3, ⟨by omega, by rw [hlen3]; omega, fun i hi => hnorm i (by omega), ?_⟩,
    by omega, ?_⟩
  · rcases t4 with t4 | t4
    · left; omega
    · right; rw [Nat.add_sub_cancel]; exact t4
  · rw [← hval]
    by_cases hkn : k' + 1 = na
    · rw [hkn]
    · exact (digitsVal_trim _ _ k' na (by omega) (fun j h1 h2 => t3 j h1 (by omega))).symm

/-- The function `ffbi_sub_cache` for a destination distinct from both operands whose cache
is large enough: the destination cache receives the canonical difference. -/
theorem ffbi_sub_cache_spec (P : Platform) (h : Heap) (dest a b : Nat) (xd xa xb : FFBI)
    (cd ca cb : List Nat)
    (hgd : h.get dest = some xd) (hga : h.get a = some xa) (hgb : h.get b = some xb)
    (hda : a ≠ dest) (hdb : b ≠ dest)
    (hcd : cacheHolds xd cd xa.cache_num_used_digits)
    (hbits : xd.cache_bits_per_digit = FFBI_CACHE_DIV_BITS_PER_DIGIT P)
    (hca : xa.cache = some ca)
    (cca : canonicalDigits (FFBI_CACHE_DIV_BITS_PER_DIGIT P) ca xa.cache_num_used_digits)
    (hcb : xb.cache = some cb)
    (ccb : canonicalDigits (FFBI_CACHE_DIV_BITS_PER_DIGIT P) cb xb.cache_num_used_digits)
    (hle : digitsVal (FFBI_CACHE_DIV_BITS_PER_DIGIT P) cb xb.cache_num_used_digits
      ≤ digitsVal (FFBI_CACHE_DIV_BITS_PER_DIGIT P) ca xa.cache_num_used_digits) :
    ∃ cd' n', ffbi_sub_cache P h dest a b
        = some (h.upd dest { xd with cache := some cd', cache_num_used_digits := n' }) ∧
      cd'.length = cd.length ∧
      canonicalDigits (FFBI_CACHE_DIV_BITS_PER_DIGIT P) cd' n' ∧
      n' ≤ xa.cache_num_used_digits ∧
      digitsVal (FFBI_CACHE_DIV_BITS_PER_DIGIT P) cd' n'
        = digitsVal (FFBI_CACHE_DIV_BITS_PER_DIGIT P) ca xa.cache_num_used_digits
          - digitsVal (FFBI_CACHE_DIV_BITS_PER_DIGIT P) cb xb.cache_num_used_digits := by
  have hnba : xb.cache_num_used_digits ≤ xa.cache_num_used_digits :=
    nb_le_na_of_val_le _ _ _ _ _ cca ccb hle
  have hmax : (if xb.cache_num_used_digits > xa.cache_num_used_digits then xb.cache_num_used_digits
      else xa.cache_num_used_digits) = xa.cache_num_used_digits := if_neg (by omega)
  have hmin : (if xb.cache_num_used_digits > xa.cache_num_used_digits then xa.cache_num_used_digits
      else xb.cache_num_used_digits) = xb.cache_num_used_digits := if_neg (by omega)
  obtain ⟨d1, d2, d3⟩ := hcd
  unfold ffbi_sub_cache
  rw [hga, obind_some, hgb, obind_some]
  dsimp only
  rw [hgd, obind_some, hmax, hmin, if_neg (by omega), obind_some]
  exact sub_cache_core_spec P h dest a b xd cd ca cb xa.cache_num_used_digits
    xb.cache_num_used_digits hgd hda hdb hbits d1 (by omega)
    (fun j hj => rdCache_eq hga hca (by have := cca.2.1; omega)) cca.2.2.1
    (fun j hj => rdCache_eq hgb hcb (by have := ccb.2.1; omega)) ccb.2.2.1 ccb.1 hnba hle


/-! # Wide-digit multiplication by a single digit -/

theorem digitsVal_scale (bits p : Nat) (c d : List Nat) :
    ∀ n, (∀ j, j < n → c.getD j 0 = p * d.getD j 0) →
      digitsVal bits c n = p * digitsVal bits d n := by
  intro n
  induction n with
  | zero => intro _; simp [digitsVal]
  | succ n ih =>
    intro h
    rw [digitsVal_succ, digitsVal_succ, ih (fun j hj => h j (by omega)), h n (by omega)]
    ring

theorem cache_sq_lt_word (P : Platform) :
    2 ^ FFBI_CACHE_DIV_BITS_PER_DIGIT P * 2 ^ FFBI_CACHE_DIV_BITS_PER_DIGIT P
      < 2 ^ FFBI_CACHE_WORD_SIZE P := by
  cases P <;> decide

/-- One execution of `dest->cache[i] += a->cache[0] * b->cache[i]` in the only row. -/
theorem div_cache_mul_inner_spec (P : Platform) (hb : Heap) (dest a b : Nat) (xdb : FFBI)
    (Cb : List Nat) (bl L p : Nat)
    (hg : hb.get dest = some xdb) (hpa : a ≠ dest) (hpb : b ≠ dest)
    (hA : rdCache hb a 0 = some p) (hpB : p ≤ 2 ^ FFBI_CACHE_DIV_BITS_PER_DIGIT P)
    (hB : ∀ j, j < bl → rdCache hb b j = some (Cb.getD j 0))
    (hBlt : ∀ j, j < bl → Cb.getD j 0 < 2 ^ FFBI_CACHE_DIV_BITS_PER_DIGIT P)
    (hn : bl + 1 ≤ L) (i : Nat) (hi : i < bl) (c : List Nat)
    (i1 : c.length = L)
    (i2 : ∀ j, j < i → c.getD j 0 = p * Cb.getD j 0)
    (i3 : ∀ j, i ≤ j → j < bl + 1 → c.getD j 0 = 0) :
    ∃ c', div_cache_mul_inner P dest a b 0 i (hb.withCache dest xdb c)
        = some (hb.withCache dest xdb c') ∧
      c'.length = L ∧
      (∀ j, j < i + 1 → c'.getD j 0 = p * Cb.getD j 0) ∧
      (∀ j, i + 1 ≤ j → j < bl + 1 → c'.getD j 0 = 0) := by
  have hw := cache_sq_lt_word P
  have hbi := hBlt i hi
  have hprod : p * Cb.getD i 0 < 2 ^ FFBI_CACHE_WORD_SIZE P := by
    have : p * Cb.getD i 0 ≤ 2 ^ FFBI_CACHE_DIV_BITS_PER_DIGIT P
        * 2 ^ FFBI_CACHE_DIV_BITS_PER_DIGIT P := Nat.mul_le_mul hpB (Nat.le_of_lt hbi)
    omega
  unfold div_cache_mul_inner
  dsimp only
  rw [rdCache_withCache_ne _ _ _ _ hpa, hA, obind_some,
    rdCache_withCache_ne _ _ _ _ hpb, hB i hi, obind_some, Nat.zero_add,
    rdCache_withCache hg (by omega), obind_some, i3 i (Nat.le_refl _) (by omega),
    wmul_eq hprod, wadd_eq (by rw [Nat.zero_add]; exact hprod), Nat.zero_add,
    wrCache_withCache _ hg (by omega)]
  refine ⟨_, rfl, by rw [List.length_set, i1], ?_, ?_⟩
  · intro j hj
    by_cases hji : j = i
    · rw [hji, getD_set_same _ (by omega)]
    · rw [getD_set_ne _ _ hji]
      exact i2 j (by omega)
  · intro j h1 h2
    rw [getD_set_ne _ _ (by omega)]
    exact i3 j (by omega) h2

/-- The double loop of `ffbi_div_cache_mul` when the first operand has one digit. -/
theorem div_cache_mul_rows_spec (P : Platform) (hb : Heap) (dest a b : Nat) (xdb : FFBI)
    (Cb : List Nat) (bl L p : Nat)
    (hg : hb.get dest = some xdb) (hpa : a ≠ dest) (hpb : b ≠ dest)
    (hA : rdCache hb a 0 = some p) (hpB : p ≤ 2 ^ FFBI_CACHE_DIV_BITS_PER_DIGIT P)
    (hB : ∀ j, j < bl → rdCache hb b j = some (Cb.getD j 0))
    (hBlt : ∀ j, j < bl → Cb.getD j 0 < 2 ^ FFBI_CACHE_DIV_BITS_PER_DIGIT P)
    (hn : bl + 1 ≤ L) (c : List Nat) (i1 : c.length = L)
    (i3 : ∀ j, j < bl + 1 → c.getD j 0 = 0) :
    ∃ c', forUp (fun k h => forUp (fun i h => div_cache_mul_inner P dest a b k i h) bl 0 h) 1 0
        (hb.withCache dest xdb c) = some (hb.withCache dest xdb c') ∧
      c'.length = L ∧
      (∀ j, j < bl → c'.getD j 0 = p * Cb.getD j 0) ∧ c'.getD bl 0 = 0 := by
  obtain ⟨s', e1, c', e2, e3, e4, e5⟩ := forUp_inv
    (fun i h => div_cache_mul_inner P dest a b 0 i h)
    (fun i s => ∃ c', s = hb.withCache dest xdb c' ∧ c'.length = L ∧
      (∀ j, j < i → c'.getD j 0 = p * Cb.getD j 0) ∧
      (∀ j, i ≤ j → j < bl + 1 → c'.getD j 0 = 0))
    bl 0 (hb.withCache dest xdb c)
    ⟨c, rfl, i1, fun j hj => absurd hj (Nat.not_lt_zero j), fun j _ hj => i3 j hj⟩
    (by
      intro i t _ hi ⟨c1, t1, t2, t3, t4⟩
      subst t1
      obtain ⟨c2, u1, u2, u3, u4⟩ := div_cache_mul_inner_spec P hb dest a b xdb Cb bl L p hg hpa
        hpb hA hpB hB hBlt hn i (by omega) c1 t2 t3 t4
      exact ⟨_, u1, c2, rfl, u2, u3, u4⟩)
  subst e2
  rw [Nat.zero_add] at e4 e5
  refine ⟨c', ?_, e3, e4, e5 bl (Nat.le_refl _) (by omega)⟩
  show obind (forUp (fun i h => div_cache_mul_inner P dest a b 0 i h) bl 0
    (hb.withCache dest xdb c)) (fun s' => some s') = _
  rw [e1, obind_some]

theorem cache_carry_bound {B W di dn : Nat} (hB : 0 < B) (hw : B * B < 2 ^ W)
    (hdi : di ≤ B * B) (hdn : dn ≤ B * (B - 1)) :
    dn + di / B < 2 ^ W ∧ dn + di / B ≤ B * B := by
  have h1 : di / B ≤ B := Nat.div_le_of_le_mul hdi
  have h2 : B * B = B * (B - 1) + B := by
    obtain ⟨b, rfl⟩ : ∃ b, B = b + 1 := ⟨B - 1, by omega⟩
    rw [Nat.add_sub_cancel, Nat.mul_succ]
  generalize B * (B - 1) = Q at *
  generalize B * B = T at *
  generalize di / B = c at *
  omega

/-- One iteration of the carry pass of `ffbi_div_cache_mul`. -/
theorem div_cache_mul_carry_spec (P : Platform) (hb : Heap) (dest : Nat) (xdb : FFBI)
    (n i : Nat) (L : Nat)
    (hg : hb.get dest = some xdb) (hn : n ≤ L) (hi : i + 1 < n)
    (c : List Nat) (i1 : c.length = L)
    (i2 : ∀ j, j < i → c.getD j 0 < 2 ^ FFBI_CACHE_DIV_BITS_PER_DIGIT P)
    (i3 : c.getD i 0 ≤ 2 ^ FFBI_CACHE_DIV_BITS_PER_DIGIT P * 2 ^ FFBI_CACHE_DIV_BITS_PER_DIGIT P)
    (i4 : ∀ j, i < j → j < n → c.getD j 0
        ≤ 2 ^ FFBI_CACHE_DIV_BITS_PER_DIGIT P * (2 ^ FFBI_CACHE_DIV_BITS_PER_DIGIT P - 1)) :
    ∃ c', div_cache_mul_carry P dest i (hb.withCache dest xdb c)
        = some (hb.withCache dest xdb c') ∧
      c'.length = L ∧
      (∀ j, j < i + 1 → c'.getD j 0 < 2 ^ FFBI_CACHE_DIV_BITS_PER_DIGIT P) ∧
      c'.getD (i + 1) 0
        ≤ 2 ^ FFBI_CACHE_DIV_BITS_PER_DIGIT P * 2 ^ FFBI_CACHE_DIV_BITS_PER_DIGIT P ∧
      (∀ j, i + 1 < j → j < n → c'.getD j 0
        ≤ 2 ^ FFBI_CACHE_DIV_BITS_PER_DIGIT P * (2 ^ FFBI_CACHE_DIV_BITS_PER_DIGIT P - 1)) ∧
      digitsVal (FFBI_CACHE_DIV_BITS_PER_DIGIT P) c' n
        = digitsVal (FFBI_CACHE_DIV_BITS_PER_DIGIT P) c n := by
  obtain ⟨w1, w2⟩ := cache_carry_bound (Nat.two_pow_pos _) (cache_sq_lt_word P) i3
    (i4 (i + 1) (by omega) hi)
  unfold div_cache_mul_carry
  dsimp only
  rw [rdCache_withCache hg (by omega), obind_some, rdCache_withCache hg (by omega), obind_some,
    Nat.shiftRight_eq_div_pow, wadd_eq w1, wrCache_withCache _ hg (by omega), obind_some,
    rdCache_withCache hg (by rw [List.length_set]; omega), obind_some,
    getD_set_ne _ _ (show i ≠ i + 1 by omega), land_cache_div_digit_max_eq,
    wrCache_withCache _ hg (by rw [List.length_set]; omega)]
  refine ⟨_, rfl, by rw [List.length_set, List.length_set, i1], ?_, ?_, ?_, ?_⟩
  · intro j hj
    by_cases hji : j = i
    · rw [hji, getD_set_same _ (by rw [List.length_set]; omega)]
      exact Nat.mod_lt _ (Nat.two_pow_pos _)
    · rw [getD_set_ne _ _ hji, getD_set_ne _ _ (show j ≠ i + 1 by omega)]
      exact i2 j (by omega)
  · rw [getD_set_ne _ _ (show i + 1 ≠ i by omega), getD_set_same _ (by omega)]
    exact w2
  · intro j h1 h2
    rw [getD_set_ne _ _ (show j ≠ i by omega), getD_set_ne _ _ (show j ≠ i + 1 by omega)]
    exact i4 j (by omega) h2
  · have s1 := digitsVal_set_add (FFBI_CACHE_DIV_BITS_PER_DIGIT P) c (i + 1)
      (c.getD (i + 1) 0 + c.getD i 0 / 2 ^ FFBI_CACHE_DIV_BITS_PER_DIGIT P) (by omega) n hi
    have s2 := digitsVal_set_add (FFBI_CACHE_DIV_BITS_PER_DIGIT P)
      (c.set (i + 1) (c.getD (i + 1) 0 + c.getD i 0 / 2 ^ FFBI_CACHE_DIV_BITS_PER_DIGIT P)) i
      (c.getD i 0 % 2 ^ FFBI_CACHE_DIV_BITS_PER_DIGIT P) (by rw [List.length_set]; omega) n
      (by omega)
    rw [getD_set_ne _ _ (show i ≠ i + 1 by omega)] at s2
    have hpw : 2 ^ (FFBI_CACHE_DIV_BITS_PER_DIGIT P * (i + 1))
        = 2 ^ FFBI_CACHE_DIV_BITS_PER_DIGIT P * 2 ^ (FFBI_CACHE_DIV_BITS_PER_DIGIT P * i) := by
      rw [← Nat.pow_add]; congr 1; rw [Nat.mul_succ]; omega
    rw [hpw] at s1
    have hsplit := Nat.div_add_mod (c.getD i 0) (2 ^ FFBI_CACHE_DIV_BITS_PER_DIGIT P)
    generalize digitsVal (FFBI_CACHE_DIV_BITS_PER_DIGIT P) ((c.set (i + 1)
      (c.getD (i + 1) 0 + c.getD i 0 / 2 ^ FFBI_CACHE_DIV_BITS_PER_DIGIT P)).set i
        (c.getD i 0 % 2 ^ FFBI_CACHE_DIV_BITS_PER_DIGIT P)) n = V2 at *
    generalize digitsVal (FFBI_CACHE_DIV_BITS_PER_DIGIT P) (c.set (i + 1)
      (c.getD (i + 1) 0 + c.getD i 0 / 2 ^ FFBI_CACHE_DIV_BITS_PER_DIGIT P)) n = V1 at *
    generalize digitsVal (FFBI_CACHE_DIV_BITS_PER_DIGIT P) c n = V at *
    generalize c.getD i 0 / 2 ^ FFBI_CACHE_DIV_BITS_PER_DIGIT P = cr at *
    generalize c.getD i 0 % 2 ^ FFBI_CACHE_DIV_BITS_PER_DIGIT P = r at *
    generalize c.getD (i + 1) 0 = dn at *
    generalize 2 ^ (FFBI_CACHE_DIV_BITS_PER_DIGIT P * i) = Y at *
    generalize 2 ^ FFBI_CACHE_DIV_BITS_PER_DIGIT P = B at *
    rw [← hsplit] at s2
    have e1 : (B * cr + r) * Y = cr * (B * Y) + r * Y := by ring
    have e2 : (dn + cr) * (B * Y) = dn * (B * Y) + cr * (B * Y) := by ring
    rw [e1] at s2
    rw [e2] at s1
    omega

/-- The carry pass of `ffbi_div_cache_mul`. -/
theorem div_cache_mul_carries_spec (P : Platform) (hb : Heap) (dest : Nat) (xdb : FFBI)
    (n L : Nat) (hg : hb.get dest = some xdb) (hn : n ≤ L) (hn1 : 1 ≤ n)
    (c : List Nat) (i1 : c.length = L)
    (i4 : ∀ j, j < n → c.getD j 0
        ≤ 2 ^ FFBI_CACHE_DIV_BITS_PER_DIGIT P * (2 ^ FFBI_CACHE_DIV_BITS_PER_DIGIT P - 1)) :
    ∃ c', forUp (div_cache_mul_carry P dest) (n - 1) 0 (hb.withCache dest xdb c)
        = some (hb.withCache dest xdb c') ∧
      c'.length = L ∧
      (∀ j, j < n - 1 → c'.getD j 0 < 2 ^ FFBI_CACHE_DIV_BITS_PER_DIGIT P) ∧
      digitsVal (FFBI_CACHE_DIV_BITS_PER_DIGIT P) c' n
        = digitsVal (FFBI_CACHE_DIV_BITS_PER_DIGIT P) c n := by
  have hQT : 2 ^ FFBI_CACHE_DIV_BITS_PER_DIGIT P * (2 ^ FFBI_CACHE_DIV_BITS_PER_DIGIT P - 1)
      ≤ 2 ^ FFBI_CACHE_DIV_BITS_PER_DIGIT P * 2 ^ FFBI_CACHE_DIV_BITS_PER_DIGIT P :=
    Nat.mul_le_mul_left _ (Nat.sub_le _ _)
  obtain ⟨s', e1, c', e2, e3, e4, _, _, e7⟩ := forUp_inv (div_cache_mul_carry P dest)
    (fun i s => ∃ c', s = hb.withCache dest xdb c' ∧ c'.length = L ∧
      (∀ j, j < i → c'.getD j 0 < 2 ^ FFBI_CACHE_DIV_BITS_PER_DIGIT P) ∧
      c'.getD i 0 ≤ 2 ^ FFBI_CACHE_DIV_BITS_PER_DIGIT P * 2 ^ FFBI_CACHE_DIV_BITS_PER_DIGIT P ∧
      (∀ j, i < j → j < n → c'.getD j 0
        ≤ 2 ^ FFBI_CACHE_DIV_BITS_PER_DIGIT P * (2 ^ FFBI_CACHE_DIV_BITS_PER_DIGIT P - 1)) ∧
      digitsVal (FFBI_CACHE_DIV_BITS_PER_DIGIT P) c' n
        = digitsVal (FFBI_CACHE_DIV_BITS_PER_DIGIT P) c n)
    (n - 1) 0 (hb.withCache dest xdb c)
    ⟨c, rfl, i1, fun j hj => absurd hj (Nat.not_lt_zero j), Nat.le_trans (i4 0 (by omega)) hQT,
      fun j _ hj => i4 j hj, rfl⟩
    (by
      intro i t _ hi ⟨c1, t1, t2, t3, t4, t5, t6⟩
      subst t1
      obtain ⟨c2, u1, u2, u3, u4, u5, u6⟩ := div_cache_mul_carry_spec P hb dest xdb n i L hg hn
        (by omega) c1 t2 t3 t4 t5
      exact ⟨_, u1, c2, rfl, u2, u3, u4, u5, by rw [u6, t6]⟩)
  subst e2
  rw [Nat.zero_add] at e4
  exact ⟨c', e1, e3, e4, e7⟩

/-- The function `ffbi_div_cache_mul` for a one-digit first operand `p` with `1 ≤ p ≤ 2^bits`
(the trial quotient may equal `2^bits`): the destination cache receives the canonical product
`p * b`. -/
theorem div_cache_mul_spec (P : Platform) (h : Heap) (scratch product b : Nat) (xs xp xb : FFBI)
    (cp cb : List Nat) (p : Nat)
    (hgs : h.get scratch = some xs)
    (hvs : ∀ c, xs.cache = some c → xs.cache_num_allocated_digits ≤ c.length)
    (hgp : h.get product = some xp) (hcp : xp.cache = some cp)
    (hp1 : xp.cache_num_used_digits = 1) (hp0 : cp.getD 0 0 = p) (hpl : 0 < cp.length)
    (hgb : h.get b = some xb) (hcb : xb.cache = some cb)
    (ccb : canonicalDigits (FFBI_CACHE_DIV_BITS_PER_DIGIT P) cb xb.cache_num_used_digits)
    (hbv : digitsVal (FFBI_CACHE_DIV_BITS_PER_DIGIT P) cb xb.cache_num_used_digits ≠ 0)
    (hsp : product ≠ scratch) (hsb : b ≠ scratch)
    (hp : 1 ≤ p) (hpB : p ≤ 2 ^ FFBI_CACHE_DIV_BITS_PER_DIGIT P) :
    ∃ h' xs' cs', ffbi_div_cache_mul P h scratch product b = some h' ∧
      h'.get scratch = some xs' ∧ cacheHolds xs' cs' (xb.cache_num_used_digits + 1) ∧
      canonicalDigits (FFBI_CACHE_DIV_BITS_PER_DIGIT P) cs' xs'.cache_num_used_digits ∧
      digitsVal (FFBI_CACHE_DIV_BITS_PER_DIGIT P) cs' xs'.cache_num_used_digits
        = p * digitsVal (FFBI_CACHE_DIV_BITS_PER_DIGIT P) cb xb.cache_num_used_digits ∧
      sameMain xs xs' ∧ xs'.cache_valid = xs.cache_valid ∧
      Heap.frame [scratch] h h' ∧ h'.obj.length = h.obj.length := by
  obtain ⟨b1, b2, b3, b4⟩ := ccb
  generalize hbl : xb.cache_num_used_digits = bl at *
  obtain ⟨h1, x1, c1, q1, q2, ⟨q3, q4, q5⟩, q6, q7, q8, q9, q10, q11, _⟩ :=
    cache_prepare_spec P (1 + bl) hgs hvs
  have hx1 : x1 = { x1 with cache := some c1 } := by
    cases x1
    cases q3
    rfl
  rw [hx1] at q2
  have hgp1 : h1.get product = some xp :=
    Heap.frame_get q10 hgp (by simpa using hsp)
  have hgb1 : h1.get b = some xb := Heap.frame_get q10 hgb (by simpa using hsb)
  obtain ⟨c2, m1, m2, m3⟩ := @memset0_spec c1 (1 + bl) (by omega)
  have hgB : (h1.upd scratch { x1 with cache := some c1, cache_num_used_digits := 1 + bl, cache_bits_per_digit := FFBI_CACHE_DIV_BITS_PER_DIGIT P }).get scratch
      = some { x1 with cache := some c1, cache_num_used_digits := 1 + bl, cache_bits_per_digit := FFBI_CACHE_DIV_BITS_PER_DIGIT P } := Heap.get_upd_same _ q2
  obtain ⟨c3, r1, r2, r3, r4⟩ := div_cache_mul_rows_spec P _ scratch product b _ cb bl c1.length p
    hgB hsp hsb
    (by rw [rdCache_upd_ne _ _ _ hsp, rdCache_eq hgp1 hcp hpl, hp0]) hpB
    (fun j hj => by rw [rdCache_upd_ne _ _ _ hsb]; exact rdCache_eq hgb1 hcb (by omega)) b3
    (by omega) c2 m2 (fun j hj => by rw [m3 j, if_pos (by omega)])
  have hbound : ∀ j, j < bl + 1 → c3.getD j 0
      ≤ 2 ^ FFBI_CACHE_DIV_BITS_PER_DIGIT P * (2 ^ FFBI_CACHE_DIV_BITS_PER_DIGIT P - 1) := by
    intro j hj
    by_cases hjb : j < bl
    · rw [r3 j hjb]
      exact Nat.mul_le_mul hpB (by have := b3 j hjb; omega)
    · have : j = bl := by omega
      rw [this, r4]
      exact Nat.zero_le _
  obtain ⟨c4, k1, k2, k3, k4⟩ := div_cache_mul_carries_spec P _ scratch _ (bl + 1) c1.length hgB
    (by omega) (by omega) c3 r2 hbound
  have hval3 : digitsVal (FFBI_CACHE_DIV_BITS_PER_DIGIT P) c3 (bl + 1)
      = p * digitsVal (FFBI_CACHE_DIV_BITS_PER_DIGIT P) cb bl := by
    rw [digitsVal_succ, r4, Nat.zero_mul, Nat.add_zero]
    exact digitsVal_scale _ p c3 cb bl r3
  rw [hval3] at k4
  rw [Nat.add_sub_cancel] at k1 k3
  -- bounds on the product
  have hVB := digitsVal_lt (FFBI_CACHE_DIV_BITS_PER_DIGIT P) cb bl b3
  have htopb : cb.getD (bl - 1) 0 ≠ 0 := by
    rcases b4 with b4 | b4
    · intro h0
      apply hbv
      have e : bl - 1 = 0 := by omega
      rw [e] at h0
      rw [b4, digitsVal_succ, h0]
      simp [digitsVal]
    · exact b4
  have hLB := canonical_ge_pow (FFBI_CACHE_DIV_BITS_PER_DIGIT P) cb bl b1 htopb
  have hpw1 : 2 ^ (FFBI_CACHE_DIV_BITS_PER_DIGIT P * (bl + 1))
      = 2 ^ FFBI_CACHE_DIV_BITS_PER_DIGIT P * 2 ^ (FFBI_CACHE_DIV_BITS_PER_DIGIT P * bl) := by
    rw [← Nat.pow_add]; congr 1; rw [Nat.mul_succ]; omega
  have hupper : p * digitsVal (FFBI_CACHE_DIV_BITS_PER_DIGIT P) cb bl
      < 2 ^ FFBI_CACHE_DIV_BITS_PER_DIGIT P * 2 ^ (FFBI_CACHE_DIV_BITS_PER_DIGIT P * bl) :=
    Nat.mul_lt_mul_of_le_of_lt hpB hVB (Nat.two_pow_pos _)
  have hlower : 2 ^ (FFBI_CACHE_DIV_BITS_PER_DIGIT P * (bl - 1))
      ≤ p * digitsVal (FFBI_CACHE_DIV_BITS_PER_DIGIT P) cb bl :=
    Nat.le_trans hLB (Nat.le_mul_of_pos_left _ hp)
  have hV1 := digitsVal_succ (FFBI_CACHE_DIV_BITS_PER_DIGIT P) c4 bl
  rw [k4] at hV1
  have hlow1 := digitsVal_lt (FFBI_CACHE_DIV_BITS_PER_DIGIT P) c4 bl k3
  have htop : c4.getD bl 0 < 2 ^ FFBI_CACHE_DIV_BITS_PER_DIGIT P := by
    by_contra hc
    have : 2 ^ FFBI_CACHE_DIV_BITS_PER_DIGIT P * 2 ^ (FFBI_CACHE_DIV_BITS_PER_DIGIT P * bl)
        ≤ c4.getD bl 0 * 2 ^ (FFBI_CACHE_DIV_BITS_PER_DIGIT P * bl) :=
      Nat.mul_le_mul_right _ (by omega)
    omega
  unfold ffbi_div_cache_mul
  rw [hgp, obind_some, hgb, obind_some]
  dsimp only
  rw [hp1, hbl, q1, obind_some, modify_eq _ q2, obind_some, hgB, obind_some]
  dsimp only
  rw [obind_some, m1, obind_some, Heap.put_of_get _ hgB, obind_some]
  have hwd : ∀ v, (h1.upd scratch { x1 with cache := some c1, cache_num_used_digits := 1 + bl, cache_bits_per_digit := FFBI_CACHE_DIV_BITS_PER_DIGIT P }).upd scratch
      { x1 with cache := some v, cache_num_used_digits := 1 + bl, cache_bits_per_digit := FFBI_CACHE_DIV_BITS_PER_DIGIT P }
      = (h1.upd scratch { x1 with cache := some c1, cache_num_used_digits := 1 + bl, cache_bits_per_digit := FFBI_CACHE_DIV_BITS_PER_DIGIT P }).withCache scratch
        { x1 with cache := some c1, cache_num_used_digits := 1 + bl, cache_bits_per_digit := FFBI_CACHE_DIV_BITS_PER_DIGIT P } v := fun _ => rfl
  have h1b : 1 + bl - 1 = bl := by omega
  rw [hwd, r1, obind_some, if_neg (show ¬ 1 + bl = 0 by omega), h1b, k1, obind_some,
    Heap.withCache_get _ hgB, obind_some]
  dsimp only
  rw [if_pos (show 1 + bl > 1 by omega), rdCache_withCache hgB (by omega), obind_some]
  have hfr : ∀ y, Heap.frame [scratch] h (((h1.upd scratch { x1 with cache := some c1, cache_num_used_digits := 1 + bl, cache_bits_per_digit := FFBI_CACHE_DIV_BITS_PER_DIGIT P }).upd scratch y)) := fun y =>
    Heap.frame_trans q10 (Heap.frame_trans (Heap.frame_upd _ _ _) (Heap.frame_upd _ _ _)
      (fun _ hq => hq)) (fun _ hq => hq)
  have hb1 : 1 + bl = bl + 1 := by omega
  by_cases hz : c4.getD bl 0 = 0
  · rw [if_pos hz, modify_eq _ (Heap.withCache_get _ hgB)]
    unfold Heap.withCache
    rw [Heap.upd_upd]
    rw [hz, Nat.zero_mul, Nat.add_zero] at hV1
    refine ⟨_, _, c4, rfl, Heap.get_upd_same _ hgB, ⟨rfl, ?_, ?_⟩, ?_, ?_, q6, q7, hfr _,
      by rw [Heap.upd_obj_length, Heap.upd_obj_length, q11]⟩
    · show bl + 1 ≤ x1.cache_num_allocated_digits
      omega
    · show x1.cache_num_allocated_digits ≤ c4.length
      omega
    · show canonicalDigits (FFBI_CACHE_DIV_BITS_PER_DIGIT P) c4 (1 + bl - 1)
      rw [h1b]
      refine ⟨by omega, by omega, k3, ?_⟩
      by_cases h1 : bl = 1
      · left; exact h1
      · right
        intro hz2
        have hV2 := digitsVal_succ (FFBI_CACHE_DIV_BITS_PER_DIGIT P) c4 (bl - 1)
        rw [Nat.sub_add_cancel b1, hz2, Nat.zero_mul, Nat.add_zero] at hV2
        have hlow2 := digitsVal_lt (FFBI_CACHE_DIV_BITS_PER_DIGIT P) c4 (bl - 1)
          (fun j hj => k3 j (by omega))
        omega
    · show digitsVal (FFBI_CACHE_DIV_BITS_PER_DIGIT P) c4 (1 + bl - 1) = _
      rw [h1b]
      exact hV1.symm
  · rw [if_neg hz]
    unfold Heap.withCache
    refine ⟨_, _, c4, rfl, Heap.get_upd_same _ hgB, ⟨rfl, ?_, ?_⟩, ?_, ?_, q6, q7, hfr _,
      by rw [Heap.upd_obj_length, Heap.upd_obj_length, q11]⟩
    · show bl + 1 ≤ x1.cache_num_allocated_digits
      omega
    · show x1.cache_num_allocated_digits ≤ c4.length
      omega
    · show canonicalDigits (FFBI_CACHE_DIV_BITS_PER_DIGIT P) c4 (1 + bl)
      rw [hb1]
      refine ⟨by omega, by omega, ?_, Or.inr (by rw [Nat.add_sub_cancel]; exact hz)⟩
      intro i hi
      by_cases h1 : i = bl
      · rw [h1]; exact htop
      · exact k3 i (by omega)
    · show digitsVal (FFBI_CACHE_DIV_BITS_PER_DIGIT P) c4 (1 + bl) = _
      rw [hb1]
      exact k4


/-! # The trial quotient digit -/

theorem digitsVal_split (bits : Nat) (ds : List Nat) (m : Nat) :
    ∀ k, digitsVal bits ds (m + k)
      = digitsVal bits ds m + 2 ^ (bits * m) * digitsFrom bits ds m k := by
  intro k
  induction k with
  | zero => simp [digitsFrom]
  | succ k ih =>
    rw [← Nat.add_assoc, digitsVal_succ, ih]
    show _ = digitsVal bits ds m
      + 2 ^ (bits * m) * (digitsFrom bits ds m k + ds.getD (m + k) 0 * 2 ^ (bits * k))
    rw [Nat.mul_add bits m k, Nat.pow_add]
    ring

theorem digitsFrom_eq_div (bits : Nat) (ds : List Nat) (m k : Nat)
    (hd : ∀ i, i < m → ds.getD i 0 < 2 ^ bits) :
    digitsVal bits ds (m + k) / 2 ^ (bits * m) = digitsFrom bits ds m k := by
  rw [digitsVal_split, Nat.add_mul_div_left _ _ (Nat.two_pow_pos _),
    Nat.div_eq_of_lt (digitsVal_lt bits ds m hd), Nat.zero_add]

theorem digitsFrom_lt (bits : Nat) (ds : List Nat) (m : Nat) :
    ∀ k, (∀ i, i < k → ds.getD (m + i) 0 < 2 ^ bits) → digitsFrom bits ds m k < 2 ^ (bits * k) := by
  intro k
  induction k with
  | zero => intro _; simp [digitsFrom]
  | succ k ih =>
    intro h
    have h1 := ih (fun i hi => h i (by omega))
    have h2 := h k (by omega)
    show digitsFrom bits ds m k + ds.getD (m + k) 0 * 2 ^ (bits * k) < _
    have e : 2 ^ (bits * (k + 1)) = 2 ^ bits * 2 ^ (bits * k) := by
      rw [← Nat.pow_add]; congr 1; rw [Nat.mul_succ]; omega
    rw [e]
    have h3 : (ds.getD (m + k) 0 + 1) * 2 ^ (bits * k) ≤ 2 ^ bits * 2 ^ (bits * k) :=
      Nat.mul_le_mul_right _ h2
    rw [Nat.add_mul, Nat.one_mul] at h3
    omega

theorem digitsFrom_ge_top (bits : Nat) (ds : List Nat) (m k : Nat) :
    ds.getD (m + k) 0 * 2 ^ (bits * k) ≤ digitsFrom bits ds m (k + 1) := by
  show _ ≤ digitsFrom bits ds m k + ds.getD (m + k) 0 * 2 ^ (bits * k)
  omega

/-- The trial quotient is exact when dividend and divisor are not truncated. -/
theorem est_exact {R Bv B : Nat} (hBv : 0 < Bv) (hR : R < B * Bv) : R / Bv ≤ B := by
  have : R / Bv < B := by
    rw [Nat.div_lt_iff_lt_mul hBv]
    exact hR
  omega

/-- The trial quotient from a dividend and a divisor truncated by the same number of digits:
it is at least the true quotient digit and at most the base. -/
theorem est_trunc {R Bv B Y : Nat} (hY : 0 < Y) (hB3 : B ≤ Bv / Y) (hB : 0 < B)
    (hR : R < B * Bv) :
    R / Bv ≤ (R / Y) / (Bv / Y) ∧ (R / Y) / (Bv / Y) ≤ B := by
  have hB3pos : 0 < Bv / Y := by omega
  have hBvpos : 0 < Bv := by
    by_contra hc
    have : Bv = 0 := by omega
    rw [this, Nat.zero_div] at hB3pos
    omega
  constructor
  · rw [Nat.le_div_iff_mul_le hB3pos, Nat.le_div_iff_mul_le hY]
    calc R / Bv * (Bv / Y) * Y = R / Bv * (Bv / Y * Y) := by ring
      _ ≤ R / Bv * Bv := Nat.mul_le_mul_left _ (Nat.div_mul_le_self _ _)
      _ ≤ R := Nat.div_mul_le_self _ _
  · have h1 : Bv < (Bv / Y + 1) * Y := by
      have := Nat.lt_succ_self (Bv / Y)
      rw [Nat.div_lt_iff_lt_mul hY] at this
      exact this
    have h2 : R / Y < B * (Bv / Y + 1) := by
      rw [Nat.div_lt_iff_lt_mul hY]
      calc R < B * Bv := hR
        _ ≤ B * ((Bv / Y + 1) * Y) := Nat.mul_le_mul_left _ (Nat.le_of_lt h1)
        _ = B * (Bv / Y + 1) * Y := by ring
    have h3 : (R / Y) / (Bv / Y) < B + 1 := by
      rw [Nat.div_lt_iff_lt_mul hB3pos]
      have : B * (Bv / Y + 1) ≤ (B + 1) * (Bv / Y) := by
        have e1 : B * (Bv / Y + 1) = B * (Bv / Y) + B := by ring
        have e2 : (B + 1) * (Bv / Y) = B * (Bv / Y) + Bv / Y := by ring
        omega
      omega
    omega

theorem pack_bounds {B d1 d2 d3 : Nat} (h1 : d1 < B) (h2 : d2 < B) (h3 : d3 < B) :
    d1 * B + B ≤ B * B ∧ d2 * (B * B) + B * B ≤ B * (B * B) ∧
    d3 * (B * (B * B)) + B * (B * B) ≤ B * (B * (B * B)) ∧
    B ≤ B * B ∧ B * B ≤ B * (B * B) ∧ B * (B * B) ≤ B * (B * (B * B)) := by
  have hB : 1 ≤ B := by omega
  refine ⟨?_, ?_, ?_, ?_, ?_, ?_⟩
  · have := Nat.mul_le_mul_right B (show d1 + 1 ≤ B by omega)
    rw [Nat.add_mul, Nat.one_mul] at this
    exact this
  · have := Nat.mul_le_mul_right (B * B) (show d2 + 1 ≤ B by omega)
    rw [Nat.add_mul, Nat.one_mul] at this
    exact this
  · have := Nat.mul_le_mul_right (B * (B * B)) (show d3 + 1 ≤ B by omega)
    rw [Nat.add_mul, Nat.one_mul] at this
    exact this
  · exact Nat.le_mul_of_pos_left _ hB
  · exact Nat.le_mul_of_pos_left _ hB
  · exact Nat.le_mul_of_pos_left _ hB

theorem pack2_eq {w s d1 d0 : Nat} (hw : 2 * s ≤ w) (h1 : d1 < 2 ^ s) (h0 : d0 < 2 ^ s) :
    pack2 w s d1 d0 = d0 + d1 * 2 ^ s := by
  have hp : 2 ^ (2 * s) = 2 ^ s * 2 ^ s := by rw [← Nat.pow_add]; congr 1; omega
  have hle : 2 ^ (2 * s) ≤ 2 ^ w := Nat.pow_le_pow_right (by decide) hw
  obtain ⟨b1, _, _, _, _, _⟩ := pack_bounds h1 h1 h1
  rw [hp] at hle
  unfold pack2
  have e1 : wshl w d1 s = d1 * 2 ^ s := wshl_eq (by omega)
  rw [e1]
  generalize 2 ^ s * 2 ^ s = Q2 at *
  rw [wadd_eq (by omega)]
  omega

theorem pack3_eq {w s d2 d1 d0 : Nat} (hw : 3 * s ≤ w) (h2 : d2 < 2 ^ s) (h1 : d1 < 2 ^ s)
    (h0 : d0 < 2 ^ s) :
    pack3 w s d2 d1 d0 = d0 + d1 * 2 ^ s + d2 * 2 ^ (s * 2) := by
  have hp2 : 2 ^ (s * 2) = 2 ^ s * 2 ^ s := by rw [← Nat.pow_add]; congr 1; omega
  have hp3 : 2 ^ (3 * s) = 2 ^ s * (2 ^ s * 2 ^ s) := by
    rw [← Nat.pow_add, ← Nat.pow_add]; congr 1; omega
  have hle : 2 ^ (3 * s) ≤ 2 ^ w := Nat.pow_le_pow_right (by decide) hw
  obtain ⟨b1, b2, _, c1, c2, _⟩ := pack_bounds h1 h2 h2
  clear h2
  rw [hp3] at hle
  unfold pack3
  have e2 : wshl w d2 (s * 2) = d2 * (2 ^ s * 2 ^ s) := by
    rw [wshl_eq (by rw [hp2]; omega), hp2]
  have e1 : wshl w d1 s = d1 * 2 ^ s := wshl_eq (by omega)
  rw [e2, e1, hp2]
  generalize 2 ^ s * (2 ^ s * 2 ^ s) = Q3 at *
  generalize d2 * (2 ^ s * 2 ^ s) = X2 at *
  generalize 2 ^ s * 2 ^ s = Q2 at *
  have i1 : wadd w X2 (d1 * 2 ^ s) = X2 + d1 * 2 ^ s := wadd_eq (by omega)
  rw [i1, wadd_eq (by omega)]
  omega

theorem pack4_eq {w s d3 d2 d1 d0 : Nat} (hw : 4 * s ≤ w) (h3 : d3 < 2 ^ s) (h2 : d2 < 2 ^ s)
    (h1 : d1 < 2 ^ s) (h0 : d0 < 2 ^ s) :
    pack4 w s d3 d2 d1 d0 = d0 + d1 * 2 ^ s + d2 * 2 ^ (s * 2) + d3 * 2 ^ (s * 3) := by
  have hp2 : 2 ^ (s * 2) = 2 ^ s * 2 ^ s := by rw [← Nat.pow_add]; congr 1; omega
  have hp3 : 2 ^ (s * 3) = 2 ^ s * (2 ^ s * 2 ^ s) := by
    rw [← Nat.pow_add, ← Nat.pow_add]; congr 1; omega
  have hp4 : 2 ^ (4 * s) = 2 ^ s * (2 ^ s * (2 ^ s * 2 ^ s)) := by
    rw [← Nat.pow_add, ← Nat.pow_add, ← Nat.pow_add]; congr 1; omega
  have hle : 2 ^ (4 * s) ≤ 2 ^ w := Nat.pow_le_pow_right (by decide) hw
  obtain ⟨b1, b2, b3, c1, c2, c3⟩ := pack_bounds h1 h2 h3
  rw [hp4] at hle
  unfold pack4
  have e3 : wshl w d3 (s * 3) = d3 * (2 ^ s * (2 ^ s * 2 ^ s)) := by
    rw [wshl_eq (by rw [hp3]; omega), hp3]
  have e2 : wshl w d2 (s * 2) = d2 * (2 ^ s * 2 ^ s) := by
    rw [wshl_eq (by rw [hp2]; omega), hp2]
  have e1 : wshl w d1 s = d1 * 2 ^ s := wshl_eq (by omega)
  rw [e3, e2, e1, hp2, hp3]
  generalize 2 ^ s * (2 ^ s * (2 ^ s * 2 ^ s)) = Q4 at *
  generalize d3 * (2 ^ s * (2 ^ s * 2 ^ s)) = X3 at *
  generalize 2 ^ s * (2 ^ s * 2 ^ s) = Q3 at *
  generalize d2 * (2 ^ s * 2 ^ s) = X2 at *
  generalize 2 ^ s * 2 ^ s = Q2 at *
  have i1 : wadd w X3 X2 = X3 + X2 := wadd_eq (by omega)
  have i2 : wadd w (X3 + X2) (d1 * 2 ^ s) = X3 + X2 + d1 * 2 ^ s := wadd_eq (by omega)
  rw [i1, i2, wadd_eq (by omega)]
  omega

theorem digitsVal_one (bits : Nat) (ds : List Nat) : digitsVal bits ds 1 = ds.getD 0 0 := by
  show 0 + ds.getD 0 0 * 2 ^ (bits * 0) = _
  rw [Nat.mul_zero, Nat.pow_zero, Nat.mul_one, Nat.zero_add]

theorem digitsVal_two (bits : Nat) (ds : List Nat) :
    digitsVal bits ds 2 = ds.getD 0 0 + ds.getD 1 0 * 2 ^ bits := by
  show digitsVal bits ds 1 + ds.getD 1 0 * 2 ^ (bits * 1) = _
  rw [digitsVal_one, Nat.mul_one]

theorem digitsVal_three (bits : Nat) (ds : List Nat) :
    digitsVal bits ds 3 = ds.getD 0 0 + ds.getD 1 0 * 2 ^ bits + ds.getD 2 0 * 2 ^ (bits * 2) := by
  show digitsVal bits ds 2 + ds.getD 2 0 * 2 ^ (bits * 2) = _
  rw [digitsVal_two]

theorem digitsFrom_three (bits : Nat) (ds : List Nat) (m : Nat) :
    digitsFrom bits ds m 3
      = ds.getD m 0 + ds.getD (m + 1) 0 * 2 ^ bits + ds.getD (m + 2) 0 * 2 ^ (bits * 2) := by
  show 0 + ds.getD (m + 0) 0 * 2 ^ (bits * 0) + ds.getD (m + 1) 0 * 2 ^ (bits * 1)
    + ds.getD (m + 2) 0 * 2 ^ (bits * 2) = _
  rw [Nat.mul_zero, Nat.pow_zero, Nat.mul_one, Nat.mul_one, Nat.zero_add, Nat.add_zero]

theorem digitsFrom_four (bits : Nat) (ds : List Nat) (m : Nat) :
    digitsFrom bits ds m 4
      = ds.getD m 0 + ds.getD (m + 1) 0 * 2 ^ bits + ds.getD (m + 2) 0 * 2 ^ (bits * 2)
        + ds.getD (m + 3) 0 * 2 ^ (bits * 3) := by
  show digitsFrom bits ds m 3 + ds.getD (m + 3) 0 * 2 ^ (bits * 3) = _
  rw [digitsFrom_three]

theorem top_digit_ne_zero (bits : Nat) (ds : List Nat) (n : Nat) (c : canonicalDigits bits ds n)
    (hv : digitsVal bits ds n ≠ 0) : ds.getD (n - 1) 0 ≠ 0 := by
  rcases c.2.2.2 with c4 | c4
  · intro h0
    apply hv
    rw [c4] at h0 ⊢
    rw [digitsVal_one]
    exact h0
  · exact c4

/-- The trial dividend and divisor of the quotient-digit routines, for a running remainder of
at least two digits: their quotient is at least the true quotient digit and at most the base. -/
theorem trial_spec (w s : Nat) (rdR rdB : Int → Option Nat) (cr cb : List Nat) (rn bl : Nat)
    (hw : 4 * s ≤ w)
    (hR : ∀ (i : Int) (j : Nat), i = j → j < rn → rdR i = some (cr.getD j 0))
    (hB : ∀ (i : Int) (j : Nat), i = j → j < bl → rdB i = some (cb.getD j 0))
    (ccr : canonicalDigits s cr rn) (ccb : canonicalDigits s cb bl)
    (hrn : 2 ≤ rn) (hlen : rn = bl ∨ rn = bl + 1)
    (hbv : digitsVal s cb bl ≠ 0)
    (hlt : digitsVal s cr rn < 2 ^ s * digitsVal s cb bl) :
    ∃ D Bt, trial_dividend rdR w s rn = some D ∧ trial_divisor rdB w s rn bl = some Bt ∧
      Bt ≠ 0 ∧ digitsVal s cr rn / digitsVal s cb bl ≤ D / Bt ∧ D / Bt ≤ 2 ^ s := by
  obtain ⟨r1, r2, r3, r4⟩ := ccr
  obtain ⟨b1, b2, b3, b4⟩ := ccb
  have hbpos : 0 < digitsVal s cb bl := Nat.pos_of_ne_zero hbv
  have htopb := top_digit_ne_zero s cb bl ⟨b1, b2, b3, b4⟩ hbv
  have exact_case : ∀ D Bt, D = digitsVal s cr rn → Bt = digitsVal s cb bl →
      Bt ≠ 0 ∧ digitsVal s cr rn / digitsVal s cb bl ≤ D / Bt ∧ D / Bt ≤ 2 ^ s := by
    intro D Bt hD hBt
    subst hD hBt
    exact ⟨hbv, Nat.le_refl _, est_exact hbpos hlt⟩
  unfold trial_dividend trial_divisor
  by_cases h2 : rn = 2
  · subst h2
    rw [if_pos rfl, if_pos rfl, hR 1 1 rfl (by omega), obind_some, hR 0 0 rfl (by omega),
      obind_some]
    have hD : pack2 w s (cr.getD 1 0) (cr.getD 0 0) = digitsVal s cr 2 := by
      rw [pack2_eq (by omega) (r3 1 (by omega)) (r3 0 (by omega)), digitsVal_two]
    by_cases hb2 : bl = 2
    · subst hb2
      rw [if_pos rfl, hB 1 1 rfl (by omega), obind_some, hB 0 0 rfl (by omega), obind_some]
      refine ⟨_, _, rfl, rfl, exact_case _ _ hD ?_⟩
      rw [pack2_eq (by omega) (b3 1 (by omega)) (b3 0 (by omega)), digitsVal_two]
    · have hb1 : bl = 1 := by omega
      subst hb1
      rw [if_neg (by omega), hB 0 0 rfl (by omega)]
      exact ⟨_, _, rfl, rfl, exact_case _ _ hD (digitsVal_one s cb).symm⟩
  · rw [if_neg h2, if_neg h2]
    by_cases h3 : rn = 3
    · subst h3
      rw [if_pos rfl, if_pos rfl]
      unfold top3
      rw [hR _ 2 (by omega) (by omega), obind_some, hR _ 1 (by omega) (by omega), obind_some,
        hR _ 0 (by omega) (by omega), obind_some]
      have hD : pack3 w s (cr.getD 2 0) (cr.getD 1 0) (cr.getD 0 0) = digitsVal s cr 3 := by
        rw [pack3_eq (by omega) (r3 2 (by omega)) (r3 1 (by omega)) (r3 0 (by omega)),
          digitsVal_three]
      by_cases hb3 : 3 > bl
      · have hb2 : bl = 2 := by omega
        subst hb2
        rw [if_pos (by omega)]
        unfold top2
        rw [hB _ 1 (by omega) (by omega), obind_some, hB _ 0 (by omega) (by omega), obind_some]
        refine ⟨_, _, rfl, rfl, exact_case _ _ hD ?_⟩
        rw [pack2_eq (by omega) (b3 1 (by omega)) (b3 0 (by omega)), digitsVal_two]
      · have hb3' : bl = 3 := by omega
        subst hb3'
        rw [if_neg (by omega)]
        rw [hB _ 2 (by omega) (by omega), obind_some, hB _ 1 (by omega) (by omega), obind_some,
          hB _ 0 (by omega) (by omega), obind_some]
        refine ⟨_, _, rfl, rfl, exact_case _ _ hD ?_⟩
        rw [pack3_eq (by omega) (b3 2 (by omega)) (b3 1 (by omega)) (b3 0 (by omega)),
          digitsVal_three]
    · rw [if_neg h3, if_neg h3]
      have h4 : 4 ≤ rn := by omega
      obtain ⟨m, hm⟩ : ∃ m, rn = m + 4 := ⟨rn - 4, by omega⟩
      subst hm
      unfold top4
      rw [hR _ (m + 3) (by omega) (by omega), obind_some, hR _ (m + 2) (by omega) (by omega),
        obind_some, hR _ (m + 1) (by omega) (by omega), obind_some,
        hR _ m (by omega) (by omega), obind_some]
      have hD : pack4 w s (cr.getD (m + 3) 0) (cr.getD (m + 2) 0) (cr.getD (m + 1) 0) (cr.getD m 0)
          = digitsVal s cr (m + 4) / 2 ^ (s * m) := by
        rw [pack4_eq hw (r3 _ (by omega)) (r3 _ (by omega)) (r3 _ (by omega)) (r3 _ (by omega)),
          digitsFrom_eq_div s cr m 4 (fun i hi => r3 i (by omega)), digitsFrom_four]
      rw [hD]
      have hY : 0 < 2 ^ (s * m) := Nat.two_pow_pos _
      have hBs : 0 < 2 ^ s := Nat.two_pow_pos _
      have hsq : 2 ^ s ≤ 2 ^ (s * 2) := Nat.pow_le_pow_right (by decide) (by omega)
      by_cases hgt : m + 4 > bl
      · have hbl : bl = m + 3 := by omega
        subst hbl
        rw [if_pos hgt]
        unfold top3
        rw [hB _ (m + 2) (by omega) (by omega), obind_some, hB _ (m + 1) (by omega) (by omega),
          obind_some, hB _ m (by omega) (by omega), obind_some]
        have hBt : pack3 w s (cb.getD (m + 2) 0) (cb.getD (m + 1) 0) (cb.getD m 0)
            = digitsVal s cb (m + 3) / 2 ^ (s * m) := by
          rw [pack3_eq (by omega) (b3 _ (by omega)) (b3 _ (by omega)) (b3 _ (by omega)),
            digitsFrom_eq_div s cb m 3 (fun i hi => b3 i (by omega)), digitsFrom_three]
        rw [hBt]
        have hge : 2 ^ s ≤ digitsVal s cb (m + 3) / 2 ^ (s * m) := by
          rw [digitsFrom_eq_div s cb m 3 (fun i hi => b3 i (by omega))]
          have h1 : cb.getD (m + 2) 0 * 2 ^ (s * 2) ≤ digitsFrom s cb m 3 :=
            digitsFrom_ge_top s cb m 2
          have h2' : 2 ^ (s * 2) ≤ cb.getD (m + 2) 0 * 2 ^ (s * 2) :=
            Nat.le_mul_of_pos_left _ (Nat.pos_of_ne_zero htopb)
          omega
        obtain ⟨e1, e2⟩ := est_trunc hY hge hBs hlt
        exact ⟨_, _, rfl, rfl, by omega, e1, e2⟩
      · have hbl : bl = m + 4 := by omega
        subst hbl
        rw [if_neg hgt]
        rw [hB _ (m + 3) (by omega) (by omega), obind_some, hB _ (m + 2) (by omega) (by omega),
          obind_some, hB _ (m + 1) (by omega) (by omega), obind_some,
          hB _ m (by omega) (by omega), obind_some]
        have hBt : pack4 w s (cb.getD (m + 3) 0) (cb.getD (m + 2) 0) (cb.getD (m + 1) 0)
            (cb.getD m 0) = digitsVal s cb (m + 4) / 2 ^ (s * m) := by
          rw [pack4_eq hw (b3 _ (by omega)) (b3 _ (by omega)) (b3 _ (by omega)) (b3 _ (by omega)),
            digitsFrom_eq_div s cb m 4 (fun i hi => b3 i (by omega)), digitsFrom_four]
        rw [hBt]
        have hge : 2 ^ s ≤ digitsVal s cb (m + 4) / 2 ^ (s * m) := by
          rw [digitsFrom_eq_div s cb m 4 (fun i hi => b3 i (by omega))]
          have h1 : cb.getD (m + 3) 0 * 2 ^ (s * 3) ≤ digitsFrom s cb m 4 :=
            digitsFrom_ge_top s cb m 3
          have hcu : 2 ^ s ≤ 2 ^ (s * 3) := Nat.pow_le_pow_right (by decide) (by omega)
          have h2' : 2 ^ (s * 3) ≤ cb.getD (m + 3) 0 * 2 ^ (s * 3) :=
            Nat.le_mul_of_pos_left _ (Nat.pos_of_ne_zero htopb)
          omega
        obtain ⟨e1, e2⟩ := est_trunc hY hge hBs hlt
        exact ⟨_, _, rfl, rfl, by omega, e1, e2⟩


/-! # One quotient digit of the cache division -/

theorem rdCacheI_eq {h : Heap} {p : Nat} {x : FFBI} {c : List Nat} (hg : h.get p = some x)
    (hc : x.cache = some c) (i : Int) (j : Nat) (hi : i = j) (hj : j < c.length) :
    rdCacheI h p i = some (c.getD j 0) := by
  unfold rdCacheI
  rw [if_neg (by omega)]
  have : i.toNat = j := by omega
  rw [this]
  exact rdCache_eq hg hc hj

/-- A canonical array whose value is below `2^bits * v`, for a canonical `v` of `bl` digits, has
at most `bl + 1` digits. -/
theorem len_le_succ_of_lt (bits : Nat) (cr cb : List Nat) (rn bl : Nat)
    (ccr : canonicalDigits bits cr rn) (ccb : canonicalDigits bits cb bl)
    (hlt : digitsVal bits cr rn < 2 ^ bits * digitsVal bits cb bl) : rn ≤ bl + 1 := by
  by_contra hc
  have hrn : 2 ≤ rn := by omega
  have htop : cr.getD (rn - 1) 0 ≠ 0 := by
    rcases ccr.2.2.2 with c4 | c4
    · omega
    · exact c4
  have h1 := canonical_ge_pow bits cr rn ccr.1 htop
  have h2 := digitsVal_lt bits cb bl ccb.2.2.1
  have h3 : 2 ^ bits * digitsVal bits cb bl < 2 ^ bits * 2 ^ (bits * bl) :=
    Nat.mul_lt_mul_of_pos_left h2 (Nat.two_pow_pos _)
  have h4 : 2 ^ bits * 2 ^ (bits * bl) = 2 ^ (bits * (bl + 1)) := by
    rw [← Nat.pow_add]; congr 1; rw [Nat.mul_succ]; omega
  have h5 : 2 ^ (bits * (bl + 1)) ≤ 2 ^ (bits * (rn - 1)) :=
    Nat.pow_le_pow_right (by decide) (Nat.mul_le_mul_left _ (by omega))
  omega

/-- The estimate of `ffbi_get_quotient_digit_cache`: the trial quotient stored in
`q->cache[q_index]` is at least the true quotient digit and at most `2^bits`. -/
theorem qdc_estimate_spec (P : Platform) (h : Heap) (k q rem b : Nat) (xq xr xb : FFBI)
    (cq cr cb : List Nat)
    (hgq : h.get q = some xq) (hcq : xq.cache = some cq) (hk : k < cq.length)
    (hgr : h.get rem = some xr) (hcr : xr.cache = some cr)
    (ccr : canonicalDigits (FFBI_CACHE_DIV_BITS_PER_DIGIT P) cr xr.cache_num_used_digits)
    (hgb : h.get b = some xb) (hcb : xb.cache = some cb)
    (ccb : canonicalDigits (FFBI_CACHE_DIV_BITS_PER_DIGIT P) cb xb.cache_num_used_digits)
    (hqr : rem ≠ q) (hqb : b ≠ q)
    (hbv : digitsVal (FFBI_CACHE_DIV_BITS_PER_DIGIT P) cb xb.cache_num_used_digits ≠ 0)
    (hgt : digitsVal (FFBI_CACHE_DIV_BITS_PER_DIGIT P) cb xb.cache_num_used_digits
      < digitsVal (FFBI_CACHE_DIV_BITS_PER_DIGIT P) cr xr.cache_num_used_digits)
    (hlt : digitsVal (FFBI_CACHE_DIV_BITS_PER_DIGIT P) cr xr.cache_num_used_digits
      < 2 ^ FFBI_CACHE_DIV_BITS_PER_DIGIT P
        * digitsVal (FFBI_CACHE_DIV_BITS_PER_DIGIT P) cb xb.cache_num_used_digits) :
    ∃ qh, qdc_estimate P h k q rem b xb.cache_num_used_digits
        = some (h.upd q { xq with cache := some (cq.set k qh) }) ∧
      digitsVal (FFBI_CACHE_DIV_BITS_PER_DIGIT P) cr xr.cache_num_used_digits
        / digitsVal (FFBI_CACHE_DIV_BITS_PER_DIGIT P) cb xb.cache_num_used_digits ≤ qh ∧
      qh ≤ 2 ^ FFBI_CACHE_DIV_BITS_PER_DIGIT P := by
  have hbl_le := nb_le_na_of_val_le _ _ _ _ _ ccr ccb (Nat.le_of_lt hgt)
  have hrn_le := len_le_succ_of_lt _ _ _ _ _ ccr ccb hlt
  generalize hrn : xr.cache_num_used_digits = rn at *
  generalize hbl : xb.cache_num_used_digits = bl at *
  have hbpos : 0 < digitsVal (FFBI_CACHE_DIV_BITS_PER_DIGIT P) cb bl := Nat.pos_of_ne_zero hbv
  unfold qdc_estimate
  rw [hgr, obind_some]
  dsimp only
  rw [hrn]
  by_cases h1 : rn = 1
  · subst h1
    have hb1 : bl = 1 := by have := ccb.1; omega
    subst hb1
    rw [digitsVal_one] at hbv hgt hlt hbpos
    rw [digitsVal_one] at hgt hlt
    rw [if_pos rfl, rdCache_eq hgr hcr (by have := ccr.2.1; omega), obind_some,
      rdCache_eq hgb hcb (by have := ccb.2.1; omega), obind_some, if_neg hbv,
      wrCache_eq _ hgq hcq hk]
    refine ⟨_, rfl, ?_, est_exact hbpos hlt⟩
    rw [digitsVal_one, digitsVal_one]
  · rw [if_neg h1]
    obtain ⟨D, Bt, t1, t2, t3, t4, t5⟩ := trial_spec (FFBI_CACHE_WORD_SIZE P)
      (FFBI_CACHE_DIV_BITS_PER_DIGIT P) (rdCacheI h rem) (rdCacheI h b) cr cb rn bl
      (cache_bits_word P)
      (fun i j hi hj => rdCacheI_eq hgr hcr i j hi (by have := ccr.2.1; omega))
      (fun i j hi hj => rdCacheI_eq hgb hcb i j hi (by have := ccb.2.1; omega))
      ccr ccb (by have := ccr.1; omega) (by omega) hbv hlt
    have hfun : ∀ y, rdCacheI (h.upd q y) b = rdCacheI h b := by
      intro y
      funext i
      unfold rdCacheI
      rw [rdCache_upd_ne _ _ _ hqb]
    rw [t1, obind_some, wrCache_eq _ hgq hcq hk, obind_some, hfun, t2, obind_some,
      rdCache_eq (Heap.get_upd_same _ hgq) rfl (by rw [List.length_set]; exact hk), obind_some,
      if_neg t3, getD_set_same _ hk,
      wrCache_eq _ (Heap.get_upd_same _ hgq) rfl (by rw [List.length_set]; exact hk),
      Heap.upd_upd]
    refine ⟨D / Bt, ?_, t4, t5⟩
    dsimp only
    rw [List.set_set]


/-! # Scalar addition, cache validity, fixed-capacity bigints and the primality test: inputs on
which the code departs from its contract -/

/-- C11 (the code departs from the claim): the carry loop of `ffbi_add_u` adds the carry into
the next digit but never removes it from the digit it came out of, so a carry out of digit 1
leaves `digits[1] = 2^D`.  With `a = 2^(2D) - 1` (two digits of `2^D - 1`) and `u = 1`, aliased,
the result is `[0, 2^D, 1]` on both configurations: not canonical, and its value is `2 * 2^(2D)`
instead of `2^(2D)`. -/
theorem ffbi_add_u_carry_out_of_digit_one_not_cleared :
    (canonical .gnu128 (exBig [2305843009213693951, 2305843009213693951, 0] 2) ∧
      val .gnu128 (exBig [2305843009213693951, 2305843009213693951, 0] 2) + 1 = 2 ^ 122 ∧
      (obind (ffbi_add_u .gnu128 5
          (exHeap [exBig [2305843009213693951, 2305843009213693951, 0] 2] 0) 0 0 1) fun h' =>
        obind (h'.get 0) fun x =>
          some (x.digits, x.num_used_digits, decide (canonical .gnu128 x), val .gnu128 x))
        = some ([0, 2305843009213693952, 1], 3, false, 2 ^ 123)) ∧
    (canonical .generic64 (exBig [536870911, 536870911, 0] 2) ∧
      val .generic64 (exBig [536870911, 536870911, 0] 2) + 1 = 2 ^ 58 ∧
      (obind (ffbi_add_u .generic64 5 (exHeap [exBig [536870911, 536870911, 0] 2] 0) 0 0 1)
        fun h' => obind (h'.get 0) fun x =>
          some (x.digits, x.num_used_digits, decide (canonical .generic64 x), val .generic64 x))
        = some ([0, 536870912, 1], 3, false, 2 ^ 59)) := by
  decide

/-- C12 (the code departs from the claim): the early return of `ffbi_mod_pow` for a modulus
equal to 1 stores zero in `dest` without clearing `dest->cache_valid`.  A destination that holds
5 with a valid, coherent cache comes out with value 0 and the cache still marked valid and still
encoding 5. -/
theorem ffbi_mod_pow_modulus_one_keeps_stale_cache :
    cacheCoherent .gnu128 (exCached [5, 0, 0] 1 [5, 0, 0] 1 32) ∧
    ∃ h' x', ffbi_mod_pow .gnu128 1
        (exHeap [exCached [5, 0, 0] 1 [5, 0, 0] 1 32, exBig [3, 0, 0] 1, exBig [2, 0, 0] 1,
          exBig [1, 0, 0] 1] 0) 0 1 2 3 none = some h' ∧
      h'.get 0 = some x' ∧ canonical .gnu128 x' ∧ val .gnu128 x' = 0 ∧
      x'.cache_valid = true ∧ x'.cache = some [5, 0, 0] ∧ ¬ cacheCoherent .gnu128 x' := by
  refine ⟨fun _ => ⟨[5, 0, 0], rfl, by decide, by decide, by decide, by decide⟩,
    (exHeap [exCached [5, 0, 0] 1 [5, 0, 0] 1 32, exBig [3, 0, 0] 1, exBig [2, 0, 0] 1,
      exBig [1, 0, 0] 1] 0).upd 0 (exCached [0, 0, 0] 1 [5, 0, 0] 1 32),
    exCached [0, 0, 0] 1 [5, 0, 0] 1 32, rfl, rfl, by decide, by decide, rfl, rfl, ?_⟩
  intro hc
  obtain ⟨c, h1, _, _, _, h2⟩ := hc rfl
  have h3 : c = [5, 0, 0] := (Option.some.inj h1).symm
  subst h3
  revert h2
  decide

/-- C18 (the code departs from the claim): `ffbi_reallocate_digits` returns without effect for
a bigint that may not grow, and its callers carry on.  `dest` wraps a 48-byte buffer (3 words
of 128 bits).  `ffbi_copy(dest, src)` with a 4-digit `src`, and `ffbi_add(dest, a, a)` with
`a = 2^183 - 1`, whose sum has 4 digits, both write `digits[3]`: the model faults when the
memory ends with the buffer, and when a fourth word lies behind the buffer it is overwritten,
`num_used_digits` becomes 4 and the capacity stays 3. -/
theorem preallocated_overflow_is_not_aborted :
    (obind (ffbi_create_preallocated .gnu128 (exHeap [exBig [1, 2, 3, 4] 4] 0)
        (some [9, 9, 9]) 48) fun r => obind r fun r => obind (r.2.get r.1) fun x =>
        some (r.1, x.num_allocated_digits, x.reallocation_allowed, x.digits))
      = some (1, 3, false, [0, 9, 9]) ∧
    (obind (ffbi_create_preallocated .gnu128 (exHeap [exBig [1, 2, 3, 4] 4] 0)
        (some [9, 9, 9]) 48) fun r => obind r fun r =>
        obind (ffbi_copy .gnu128 r.2 r.1 0) fun h => some h.obj.length) = none ∧
    (obind (ffbi_create_preallocated .gnu128 (exHeap [exBig [1, 2, 3, 4] 4] 0)
        (some [9, 9, 9, 9]) 48) fun r => obind r fun r =>
        obind (ffbi_copy .gnu128 r.2 r.1 0) fun h => obind (h.get r.1) fun x =>
        some (x.num_allocated_digits, x.num_used_digits, x.digits))
      = some (3, 4, [1, 2, 3, 4]) ∧
    (obind (ffbi_create_preallocated .gnu128
        (exHeap [exBig [2305843009213693951, 2305843009213693951, 2305843009213693951] 3] 0)
        (some [9, 9, 9]) 48) fun r => obind r fun r =>
        obind (ffbi_add .gnu128 r.2 r.1 0 0) fun h => some h.obj.length) = none ∧
    (obind (ffbi_create_preallocated .gnu128
        (exHeap [exBig [2305843009213693951, 2305843009213693951, 2305843009213693951] 3] 0)
        (some [9, 9, 9, 9]) 48) fun r => obind r fun r =>
        obind (ffbi_add .gnu128 r.2 r.1 0 0) fun h => obind (h.get r.1) fun x =>
        some (x.num_allocated_digits, x.num_used_digits, x.digits))
      = some (3, 4, [2305843009213693950, 2305843009213693951, 2305843009213693951, 1]) := by
  decide

/-- C16 (the code departs from the claim): `ffbi_random_with_limit` trims a zero result to
`num_used_digits = 0`, and `ffbi_is_large_prime` passes it on.  For the prime `p = 5`, no
sieve, and a random source that returns 0, the base `a` has length 0 after `ffbi_add_u`;
`ffbi_mod_pow` then multiplies two operands of length 0, where the carry loop of `ffbi_mul`
(bound `product_len - 1` with `product_len = 0`) runs off the array: the call faults instead
of returning 1, whatever bound is put on the loops.  The same happens on both configurations;
with a random source that returns 1 the call returns 1. -/
theorem ffbi_is_large_prime_faults_on_zero_random :
    Nat.Prime 5 ∧
    (obind (ffbi_random_with_limit .gnu128
        (exHeapR [exBig [7, 0, 0] 1, exBig [2, 0, 0] 1] [] 0 (fun _ => 0)) 0 1) fun h =>
        obind (h.get 0) fun x => some (x.num_used_digits, x.digits)) = some (0, [0, 0, 0]) ∧
    (∀ fuel, (ffbi_is_large_prime .gnu128 fuel (exHeapR [exBig [5, 0, 0] 1] [] 0 (fun _ => 0))
        0 1 none none).map Prod.fst = none) ∧
    (∀ fuel, (ffbi_is_large_prime .gnu128 fuel (exHeapR [exBig [5, 0, 0] 1] [] 7 (fun _ => 0))
        0 1 none none).map Prod.fst = none) ∧
    (∀ fuel, (ffbi_is_large_prime .generic64 fuel
        (exHeapR [exBig [5, 0, 0] 1] [] 0 (fun _ => 0)) 0 1 none none).map Prod.fst = none) ∧
    (ffbi_is_large_prime .gnu128 8 (exHeapR [exBig [5, 0, 0] 1] [] 0 (fun _ => 1)) 0 1
        none none).map Prod.fst = some 1 := by
  refine ⟨by norm_num, by decide, fun fuel => ?_, fun fuel => ?_, fun fuel => ?_, by decide⟩ <;>
    cases fuel <;> rfl


/-! # Scratch arenas -/

/-- Growing a growable bigint while retaining its value. -/
theorem realloc_retain_spec (P : Platform) {h : Heap} {p : Nat} {x : FFBI} (target : Nat)
    (hg : h.get p = some x) (hx : scratchVal x) :
    ∃ h' x', ffbi_reallocate_digits P h p target true = some h' ∧ h'.get p = some x' ∧
      scratchVal x' ∧ target ≤ x'.num_allocated_digits ∧
      x'.num_used_digits = x.num_used_digits ∧
      (∀ j, j < x.num_used_digits → x'.digits.getD j 0 = x.digits.getD j 0) ∧
      (∀ q, q ≠ p → h'.get q = h.get q) ∧ h'.obj.length = h.obj.length ∧ h'.scr = h.scr := by
  obtain ⟨hr, hvs, hu⟩ := hx
  unfold ffbi_reallocate_digits
  rw [hg, obind_some, if_neg (by rw [hr]; simp)]
  simp only [if_true]
  by_cases hT : (if target < x.num_used_digits then x.num_used_digits else target)
      = x.num_allocated_digits
  · rw [if_pos hT, Heap.put_of_get _ hg]
    refine ⟨_, x, rfl, Heap.get_upd_same _ hg, ⟨hr, hvs, hu⟩, ?_, rfl, fun _ _ => rfl,
      fun q hq => Heap.get_upd_ne _ _ hq, Heap.upd_obj_length _ _ _, rfl⟩
    rw [← hT]
    split <;> omega
  · rw [if_neg hT]
    generalize hTd : (if target < x.num_used_digits then x.num_used_digits else target) = T
    have hT1 : target ≤ T ∧ x.num_used_digits ≤ T := by
      rw [← hTd]; split <;> omega
    generalize hTe : (if T < FFBI_MIN_ALLOC_DIGITS then FFBI_MIN_ALLOC_DIGITS else T) = T'
    have hT2 : T ≤ T' := by
      rw [← hTe]; split <;> omega
    obtain ⟨arr, m1, m2, m3⟩ := @memcpy_spec (h.newArr (FFBI_WORD_SIZE P) T').1 x.digits
      x.num_used_digits (by have := hvs.1; omega) (by rw [Heap.newArr_length]; omega)
    rw [m1, obind_some]
    have hg2 : (h.newArr (FFBI_WORD_SIZE P) T').2.get p = some x := hg
    rw [Heap.put_of_get _ hg2]
    refine ⟨_, _, rfl, Heap.get_upd_same _ hg2, ⟨hr, ⟨?_, hvs.2⟩, ?_⟩, ?_, rfl, ?_, ?_, ?_, rfl⟩
    · show T' ≤ arr.length
      rw [m2, Heap.newArr_length]
    · show x.num_used_digits ≤ T'
      omega
    · show target ≤ T'
      omega
    · intro j hj
      show arr.getD j 0 = _
      rw [m3 j, if_pos hj]
    · intro q hq
      rw [Heap.get_upd_ne _ _ hq]
      rfl
    · rw [Heap.upd_obj_length]
      rfl

/-- The fill loop of `ffbi_scratch_prepare` appends `n` fresh bigints of capacity
`max val_digits 3`. -/
theorem scratch_fill_spec (P : Platform) (vd : Nat) :
    ∀ (n : Nat) (vals : List Nat) (h : Heap),
      ∃ h', scratch_fill P vd n vals h = some (vals ++ List.range' h.obj.length n, h') ∧
        h'.obj.length = h.obj.length + n ∧ h'.scr = h.scr ∧
        (∀ q, q < h.obj.length → h'.get q = h.get q) ∧
        (∀ i, i < n → ∃ arr, h'.get (h.obj.length + i)
            = some (newRecord arr (max vd FFBI_MIN_ALLOC_DIGITS) true) ∧
          arr.length = max vd FFBI_MIN_ALLOC_DIGITS) := by
  intro n
  induction n with
  | zero =>
    intro vals h
    exact ⟨h, by simp [scratch_fill], rfl, rfl, fun _ _ => rfl, fun i hi => absurd hi (Nat.not_lt_zero i)⟩
  | succ n ih =>
    intro vals h
    obtain ⟨h1, arr, c1, c2, c3, c4, c5, c6⟩ := create_reserved_spec P h vd
    obtain ⟨h2, f1, f2, f3, f4, f5⟩ := ih (vals ++ [h.obj.length]) h1
    refine ⟨h2, ?_, by omega, by rw [f3, c6], ?_, ?_⟩
    · show obind (ffbi_create_reserved_digits P h vd) _ = _
      rw [c1, obind_some]
      dsimp only
      rw [f1, c5, List.append_assoc]
      rfl
    · intro q hq
      rw [f4 q (by omega), c4 q hq]
    · intro i hi
      cases i with
      | zero =>
        refine ⟨arr, ?_, c3⟩
        rw [Nat.add_zero, f4 _ (by omega), c2]
      | succ i =>
        obtain ⟨arr', g1, g2⟩ := f5 i (by omega)
        refine ⟨arr', ?_, g2⟩
        rw [← g1, c5]
        congr 1
        omega

theorem scratchVal_newRecord {arr : List Nat} {n : Nat} (hl : arr.length = n) (hn : 1 ≤ n) :
    scratchVal (newRecord arr n true) :=
  ⟨rfl, ⟨by show n ≤ arr.length; omega, fun c hc => Option.noConfusion hc⟩, hn⟩

theorem Heap.get_with_scr (h : Heap) (scr : List FFBI_SCRATCH) (q : Nat) :
    Heap.get { h with scr := scr } q = h.get q := rfl

theorem scratch_set_self {l : List FFBI_SCRATCH} {s : Nat} {sc : FFBI_SCRATCH}
    (hs : l[s]? = some sc) : l.set s { sc with val := sc.val } = l := by
  apply List.ext_getElem? fun i => ?_
  rw [List.getElem?_set]
  split
  · next he => subst he; rw [hs]; simp [(List.getElem?_eq_some.mp hs).1]
  · rfl

/-- The reallocation loop of `ffbi_scratch_prepare` over the existing values. -/
theorem scratch_grow_spec (P : Platform) (vd : Nat) (old vals : List Nat)
    (hpre : ∀ i, i < old.length → vals[i]? = old[i]?) :
    ∀ (h : Heap), (∀ q, q ∈ old → ∃ x, h.get q = some x ∧ scratchVal x) →
      ∃ h', forUp (fun i h =>
          obind vals[i]? fun p =>
          obind (h.get p) fun x =>
          if x.num_allocated_digits < vd then ffbi_reallocate_digits P h p vd true
          else some h) old.length 0 h = some h' ∧
        h'.scr = h.scr ∧ h'.obj.length = h.obj.length ∧
        (∀ q, q ∉ old → h'.get q = h.get q) ∧
        (∀ q, q ∈ old → ∃ x, h'.get q = some x ∧ scratchVal x ∧ vd ≤ x.num_allocated_digits) := by
  intro h hold
  obtain ⟨h', e1, e2, e3, e4, e5⟩ := forUp_inv
    (fun i h =>
      obind vals[i]? fun p =>
      obind (h.get p) fun x =>
      if x.num_allocated_digits < vd then ffbi_reallocate_digits P h p vd true else some h)
    (fun i h2 => h2.scr = h.scr ∧ h2.obj.length = h.obj.length ∧
      (∀ q, q ∉ old → h2.get q = h.get q) ∧
      (∀ q, q ∈ old → ∃ x, h2.get q = some x ∧ scratchVal x ∧
        ((∃ j, j < i ∧ old[j]? = some q) → vd ≤ x.num_allocated_digits)))
    old.length 0 h
    ⟨rfl, rfl, fun _ _ => rfl, fun q hq => by
      obtain ⟨x, g1, g2⟩ := hold q hq
      exact ⟨x, g1, g2, fun ⟨j, hj, _⟩ => absurd hj (Nat.not_lt_zero j)⟩⟩
    (by
      intro i t _ hi ⟨i1, i2, i3, i4⟩
      have hi' : i < old.length := by omega
      have hq : old[i]? = some (old.get ⟨i, hi'⟩) := by simp
      have hmem : old.get ⟨i, hi'⟩ ∈ old := List.get_mem _ _ _
      generalize old.get ⟨i, hi'⟩ = q at hq hmem
      obtain ⟨x, g1, g2, g3⟩ := i4 q hmem
      dsimp only
      rw [hpre i hi', hq, obind_some, g1, obind_some]
      by_cases hlt : x.num_allocated_digits < vd
      · rw [if_pos hlt]
        obtain ⟨t', x', r1, r2, r3, r4, _, _, r7, r8, r9⟩ := realloc_retain_spec P vd g1 g2
        refine ⟨t', r1, by rw [r9, i1], by rw [r8, i2], ?_, ?_⟩
        · intro q' hq'
          rw [r7 q' (fun he => hq' (he ▸ hmem)), i3 q' hq']
        · intro q' hq'
          by_cases he : q' = q
          · subst he
            exact ⟨x', r2, r3, fun _ => r4⟩
          · obtain ⟨y, k1, k2, k3⟩ := i4 q' hq'
            refine ⟨y, by rw [r7 q' he, k1], k2, fun ⟨j, hj, hjq⟩ => ?_⟩
            by_cases hji : j = i
            · subst hji
              rw [hq] at hjq
              exact absurd (Option.some.inj hjq).symm he
            · exact k3 ⟨j, by omega, hjq⟩
      · rw [if_neg hlt]
        refine ⟨t, rfl, i1, i2, i3, ?_⟩
        intro q' hq'
        obtain ⟨y, k1, k2, k3⟩ := i4 q' hq'
        refine ⟨y, k1, k2, fun ⟨j, hj, hjq⟩ => ?_⟩
        by_cases hji : j = i
        · subst hji
          rw [hq] at hjq
          have : q = q' := Option.some.inj hjq
          subst this
          rw [g1] at k1
          have : x = y := Option.some.inj k1
          subst this
          omega
        · exact k3 ⟨j, by omega, hjq⟩)
  refine ⟨h', e1, e2, e3, e4, ?_⟩
  intro q hq
  obtain ⟨x, g1, g2, g3⟩ := e5 q hq
  obtain ⟨j, hj⟩ := List.getElem_of_mem hq
  obtain ⟨hj1, hj2⟩ := hj
  exact ⟨x, g1, g2, g3 ⟨j, by omega, by rw [List.getElem?_eq_getElem hj1, hj2]⟩⟩

/-- After `ffbi_scratch_prepare(scratch, num_vals, val_digits)` the arena holds at least
`num_vals` distinct growable bigints of capacity at least `val_digits`: the old ones (grown if
needed) followed by new ones.  Bigints outside the arena are unchanged. -/
theorem scratch_prepare_spec (P : Platform) (h : Heap) (s nv vd : Nat) (sc : FFBI_SCRATCH)
    (avoid : List Nat) (hs : h.scr[s]? = some sc) (hv : arenaVals h sc.val avoid)
    (hav : ∀ q, q ∈ avoid → q < h.obj.length) :
    ∃ h' vals', ffbi_scratch_prepare P h s nv vd = some h' ∧
      h'.scr = h.scr.set s { sc with val := vals' } ∧ nv ≤ vals'.length ∧ vals'.Nodup ∧
      (∀ q, q ∈ vals' → q ∉ avoid ∧
        ∃ x, h'.get q = some x ∧ scratchVal x ∧ vd ≤ x.num_allocated_digits) ∧
      h.obj.length ≤ h'.obj.length ∧
      (∀ q, q < h.obj.length → q ∉ sc.val → h'.get q = h.get q) ∧
      (∀ i, i < sc.val.length → vals'[i]? = sc.val[i]?) ∧
      (∀ q, q ∈ vals' → q ∈ sc.val ∨ h.obj.length ≤ q) := by
  have hslt : s < h.scr.length := (List.getElem?_eq_some.mp hs).1
  have hold_lt : ∀ q, q ∈ sc.val → q < h.obj.length := fun q hq => by
    obtain ⟨_, x, g, _⟩ := hv.2 q hq
    exact Heap.get_lt g
  unfold ffbi_scratch_prepare
  rw [hs, obind_some]
  dsimp only
  by_cases h0 : sc.val.length = 0
  · rw [if_pos h0]
    obtain ⟨h1, f1, f2, f3, f4, f5⟩ := scratch_fill_spec P vd nv [] h
    rw [f1, obind_some]
    refine ⟨_, _, rfl, by dsimp only; rw [f3], by simp, ?_, ?_, ?_, ?_, ?_, ?_⟩
    · rw [List.nil_append]; exact List.nodup_range' _ _
    · intro q hq
      rw [List.nil_append, List.mem_range'_1] at hq
      refine ⟨fun hm => ?_, ?_⟩
      · have := hav q hm; omega
      · obtain ⟨arr, g1, g2⟩ := f5 (q - h.obj.length) (by omega)
        rw [show h.obj.length + (q - h.obj.length) = q by omega] at g1
        refine ⟨_, (Heap.get_with_scr _ _ _).trans g1, scratchVal_newRecord g2 ?_, ?_⟩
        · exact Nat.le_trans (by decide) (Nat.le_max_right _ _)
        · exact Nat.le_max_left _ _
    · show h.obj.length ≤ h1.obj.length
      omega
    · intro q hq _
      exact (Heap.get_with_scr _ _ _).trans (f4 q hq)
    · intro i hi
      omega
    · intro q hq
      rw [List.nil_append, List.mem_range'_1] at hq
      exact Or.inr hq.1
  · rw [if_neg h0]
    by_cases hnv : nv > sc.val.length
    · rw [if_pos hnv]
      obtain ⟨h1, f1, f2, f3, f4, f5⟩ := scratch_fill_spec P vd (nv - sc.val.length) sc.val h
      rw [f1, obind_some, obind_some]
      dsimp only
      have hsc : (h1.scr.set s { sc with val := sc.val ++ List.range' h.obj.length (nv - sc.val.length) })[s]?
          = some { sc with val := sc.val ++ List.range' h.obj.length (nv - sc.val.length) } := by
        rw [f3, List.getElem?_set_self hslt]
      rw [hsc, obind_some]
      dsimp only
      obtain ⟨h', e1, e2, e3, e4, e5⟩ := scratch_grow_spec P vd sc.val
        (sc.val ++ List.range' h.obj.length (nv - sc.val.length))
        (fun i hi => List.getElem?_append_left hi)
        { h1 with scr := h1.scr.set s { sc with val := sc.val ++ List.range' h.obj.length (nv - sc.val.length) } }
        (fun q hq => by
          obtain ⟨_, x, g1, g2⟩ := hv.2 q hq
          exact ⟨x, by rw [Heap.get_with_scr, f4 q (hold_lt q hq), g1], g2⟩)
      refine ⟨h', _, e1, by rw [e2, f3], by simp; omega, ?_, ?_, ?_, ?_, ?_, ?_⟩
      · rw [List.nodup_append]
        refine ⟨hv.1, List.nodup_range' _ _, ?_⟩
        intro q hq1 hq2
        rw [List.mem_range'_1] at hq2
        have := hold_lt q hq1
        omega
      · intro q hq
        rw [List.mem_append] at hq
        rcases hq with hq | hq
        · exact ⟨(hv.2 q hq).1, e5 q hq⟩
        · rw [List.mem_range'_1] at hq
          have hnot : q ∉ sc.val := fun hm => by have := hold_lt q hm; omega
          refine ⟨fun hm => ?_, ?_⟩
          · have := hav q hm; omega
          · obtain ⟨arr, g1, g2⟩ := f5 (q - h.obj.length) (by omega)
            rw [show h.obj.length + (q - h.obj.length) = q by omega] at g1
            refine ⟨_, by rw [e4 q hnot, Heap.get_with_scr, g1], scratchVal_newRecord g2 ?_, ?_⟩
            · exact Nat.le_trans (by decide) (Nat.le_max_right _ _)
            · exact Nat.le_max_left _ _
      · rw [e3]
        show h.obj.length ≤ h1.obj.length
        omega
      · intro q hq hn
        rw [e4 q hn, Heap.get_with_scr, f4 q hq]
      · intro i hi
        exact List.getElem?_append_left hi
      · intro q hq
        rcases List.mem_append.1 hq with hq | hq
        · exact Or.inl hq
        · rw [List.mem_range'_1] at hq
          exact Or.inr hq.1
    · rw [if_neg hnv, obind_some, hs, obind_some]
      obtain ⟨h', e1, e2, e3, e4, e5⟩ := scratch_grow_spec P vd sc.val sc.val (fun _ _ => rfl) h
        (fun q hq => (hv.2 q hq).2)
      refine ⟨h', sc.val, e1, by rw [e2, scratch_set_self hs], by omega, hv.1, ?_, by omega, ?_,
        fun _ _ => rfl, fun _ hq => Or.inl hq⟩
      · intro q hq
        exact ⟨(hv.2 q hq).1, e5 q hq⟩
      · intro q _ hn
        exact e4 q hn


/-! # Modular exponentiation: modulus 1 and exponent 0 -/

theorem one_digit_of_val_le_one (P : Platform) (x : FFBI) (c : canonical P x)
    (hv : val P x ≤ 1) : x.num_used_digits = 1 ∧ x.digits.getD 0 0 = val P x := by
  by_cases h1 : x.num_used_digits = 1
  · exact ⟨h1, (val_one P x h1).symm⟩
  · exfalso
    obtain ⟨c1, _, _, c4⟩ := c
    have htop : x.digits.getD (x.num_used_digits - 1) 0 ≠ 0 := by
      rcases c4 with c4 | c4
      · exact absurd c4 h1
      · exact c4
    have h2 := canonical_ge_pow (FFBI_BITS_PER_DIGIT P) x.digits x.num_used_digits c1 htop
    have h3 : 2 ^ 1 ≤ 2 ^ (FFBI_BITS_PER_DIGIT P * (x.num_used_digits - 1)) :=
      Nat.pow_le_pow_right (by decide) (by
        have := bits_pos P
        have : 1 ≤ x.num_used_digits - 1 := by omega
        calc 1 = 1 * 1 := rfl
          _ ≤ FFBI_BITS_PER_DIGIT P * (x.num_used_digits - 1) := Nat.mul_le_mul (by omega) this)
    unfold val at hv
    omega

theorem Heap.sameBut_refl (p : Nat) (h : Heap) : Heap.sameBut p h h :=
  ⟨fun _ _ => rfl, rfl, rfl⟩

theorem Heap.sameBut_trans {p : Nat} {h h1 h2 : Heap} (a : Heap.sameBut p h h1)
    (b : Heap.sameBut p h1 h2) : Heap.sameBut p h h2 := by
  obtain ⟨a1, a2, a3⟩ := a
  obtain ⟨b1, b2, b3⟩ := b
  exact ⟨fun q hq => (b1 q hq).trans (a1 q hq), b2.trans a2, b3.trans a3⟩

theorem Heap.sameBut_upd (h : Heap) (p : Nat) (y : FFBI) : Heap.sameBut p h (h.upd p y) :=
  ⟨fun _ hq => Heap.get_upd_ne h y hq, Heap.upd_obj_length h p y, rfl⟩

theorem sameBut_rand (p : Nat) (h : Heap) : Heap.sameBut p h (rand h).2 :=
  ⟨fun _ _ => rfl, rfl, rfl⟩

theorem Heap.sameBut_frame {p : Nat} {h h' : Heap} (a : Heap.sameBut p h h') :
    Heap.frame [p] h h' := by
  obtain ⟨a1, a2, _⟩ := a
  exact ⟨Nat.le_of_eq a2.symm, fun q _ hn => a1 q (by simpa using hn)⟩

theorem rand_get (h : Heap) (q : Nat) : (rand h).2.get q = h.get q := rfl

/-- Reading the digit that was last stored at index `i`. -/
theorem rd_set_digit {h : Heap} {p i v : Nat} {x : FFBI}
    (hg : h.get p = some { x with digits := x.digits.set i v }) (hi : i < x.digits.length) :
    rdDigit h p i = some v := by
  rw [rdDigit_eq hg (by show i < (x.digits.set i v).length; rw [List.length_set]; exact hi)]
  show some ((x.digits.set i v).getD i 0) = _
  rw [@getD_set_same x.digits i v hi]

/-- Overwriting the digit at index `i`. -/
theorem wr_set_digit {h : Heap} {p i v : Nat} {x : FFBI} (v' : Nat)
    (hg : h.get p = some { x with digits := x.digits.set i v }) (hi : i < x.digits.length) :
    ∃ h', wrDigit h p i v' = some h' ∧ h'.get p = some { x with digits := x.digits.set i v' } ∧
      Heap.sameBut p h h' := by
  refine ⟨_, wrDigit_eq v' hg
    (by show i < (x.digits.set i v).length; rw [List.length_set]; exact hi), ?_,
    Heap.sameBut_upd _ _ _⟩
  rw [Heap.get_upd_same _ hg]
  show some { x with digits := (x.digits.set i v).set i v' } = _
  rw [List.set_set]

theorem lor_top_bit (v k : Nat) (hv : v < 2 ^ (k + 1)) : v ||| 2 ^ k = v % 2 ^ k + 2 ^ k := by
  have hlo : v % 2 ^ k < 2 ^ k := Nat.mod_lt _ (Nat.two_pow_pos k)
  have h1 := lor_eq_add (v % 2 ^ k) 1 k hlo
  rw [Nat.one_mul] at h1
  have hq : v / 2 ^ k < 2 := by
    rw [Nat.div_lt_iff_lt_mul (Nat.two_pow_pos k)]
    rw [Nat.pow_succ, Nat.mul_comm] at hv
    exact hv
  have hd := Nat.mod_add_div v (2 ^ k)
  have hcases : v / 2 ^ k = 0 ∨ v / 2 ^ k = 1 := by
    generalize v / 2 ^ k = c at hq
    omega
  rcases hcases with h0 | h0
  · rw [h0, Nat.mul_zero, Nat.add_zero] at hd
    rw [← h1]
    congr 1
    exact hd.symm
  · rw [h0, Nat.mul_one] at hd
    have : v = v % 2 ^ k ||| 2 ^ k := by rw [h1]; exact hd.symm
    rw [← h1]
    conv_lhs => rw [this]
    rw [Nat.or_assoc, Nat.or_self]

theorem shift_add_lt {v r a b : Nat} (hv : v < 2 ^ a) (hr : r < 2 ^ b) :
    v * 2 ^ b + r < 2 ^ (a + b) := by
  have h1 : (v + 1) * 2 ^ b ≤ 2 ^ a * 2 ^ b := Nat.mul_le_mul_right _ hv
  rw [Nat.pow_add]
  rw [Nat.add_mul, Nat.one_mul] at h1
  omega

theorem pow_le_word (P : Platform) {a : Nat} (ha : a ≤ FFBI_BITS_PER_DIGIT P) :
    2 ^ a ≤ 2 ^ FFBI_WORD_SIZE P :=
  Nat.pow_le_pow_right (by decide) (Nat.le_trans ha (Nat.le_of_lt (bits_lt_word P)))

/-- One step `digit = (digit << b) + g(rand())` of the random digit construction, for a `g`
with values below `2^b`. -/
theorem shift_add_step (P : Platform) {h : Heap} {p i v a b : Nat} {x : FFBI} (g : Nat → Nat)
    (hg : h.get p = some { x with digits := x.digits.set i v }) (hi : i < x.digits.length)
    (hv : v < 2 ^ a) (hr : ∀ y, g y < 2 ^ b) (hab : a + b ≤ FFBI_BITS_PER_DIGIT P) :
    ∃ h1, wrDigit h p i (wshl (FFBI_WORD_SIZE P) v b) = some h1 ∧
      (∀ q, (rand h1).2.get q = h1.get q) ∧ (∀ q, q ≠ p → h1.get q = h.get q) ∧
      (rand h1).1 = h.rand h.nrand % 2 ^ 31 ∧
      ∃ h2, wrDigit (rand h1).2 p i (wadd (FFBI_WORD_SIZE P) (v * 2 ^ b) (g (rand h1).1))
          = some h2 ∧
        rdDigit (rand h1).2 p i = some (v * 2 ^ b) ∧
        h2.get p = some { x with digits := x.digits.set i (v * 2 ^ b + g (rand h1).1) } ∧
        v * 2 ^ b + g (rand h1).1 < 2 ^ (a + b) ∧ Heap.sameBut p h h2 ∧
        h2.rand = h.rand ∧ h2.nrand = h.nrand + 1 := by
  obtain ⟨h1, e1, e2, e3⟩ := wr_set_digit (wshl (FFBI_WORD_SIZE P) v b) hg hi
  have hrand : h1.rand = h.rand ∧ h1.nrand = h.nrand := by
    rw [wrDigit_eq _ hg
      (by show i < (x.digits.set i v).length; rw [List.length_set]; exact hi)] at e1
    cases e1
    exact ⟨rfl, rfl⟩
  have hlt := shift_add_lt hv (hr (rand h1).1)
  have hw := pow_le_word P hab
  have hvb : v * 2 ^ b < 2 ^ FFBI_WORD_SIZE P := by omega
  rw [wshl_eq hvb] at e2
  have e2' : (rand h1).2.get p = some { x with digits := x.digits.set i (v * 2 ^ b) } := e2
  obtain ⟨h2, f1, f2, f3⟩ :=
    wr_set_digit (wadd (FFBI_WORD_SIZE P) (v * 2 ^ b) (g (rand h1).1)) e2' hi
  have hrand2 : h2.rand = h.rand ∧ h2.nrand = h.nrand + 1 := by
    rw [wrDigit_eq _ e2'
      (by show i < (x.digits.set i (v * 2 ^ b)).length; rw [List.length_set]; exact hi)] at f1
    cases f1
    exact ⟨hrand.1, congrArg (· + 1) hrand.2⟩
  rw [wadd_eq (by omega)] at f2
  refine ⟨h1, e1, fun _ => rfl, e3.1, ?_, h2, f1, rd_set_digit e2' hi, f2, hlt,
    Heap.sameBut_trans e3 (Heap.sameBut_trans (sameBut_rand p h1) f3), hrand2.1, hrand2.2⟩
  show h1.rand h1.nrand % 2 ^ 31 = _
  rw [hrand.1, hrand.2]

/-- The statements of `ffbi_random` that build one digit leave a value below `2^bits` in
`p->digits[i]` and change nothing else. -/
theorem random_digit_spec (P : Platform) (h : Heap) (p i bits : Nat) (x : FFBI)
    (hg : h.get p = some x) (hi : i < x.digits.length) (hb : bits ≤ FFBI_BITS_PER_DIGIT P) :
    ∃ v h', random_digit P h p i bits = some h' ∧
      h'.get p = some { x with digits := x.digits.set i v } ∧ v < 2 ^ bits ∧
      Heap.sameBut p h h' := by
  have hg0 : (h.upd p { x with digits := x.digits.set i 0 }).get p
      = some { x with digits := x.digits.set i 0 } := Heap.get_upd_same _ hg
  obtain ⟨s, l1, ⟨l2, v, l3, l4, l5⟩, l6⟩ := whileLoop_inv
    (fun s : Nat × Heap => some (decide (s.1 ≥ FFBI_RAND_BITS))) (random_chunk P p i)
    (fun s => s.1 ≤ bits ∧ ∃ v, s.2.get p = some { x with digits := x.digits.set i v } ∧
      v < 2 ^ (bits - s.1) ∧ Heap.sameBut p h s.2)
    (fun s => s.1) (bits + 1) (bits, h.upd p { x with digits := x.digits.set i 0 })
    ⟨Nat.le_refl _, 0, hg0, Nat.two_pow_pos _, Heap.sameBut_upd _ _ _⟩ (Nat.lt_succ_self _)
    (fun t _ => ⟨_, rfl⟩)
    (by
      intro t ⟨t1, v, t2, t3, t4⟩ hc
      have hge : FFBI_RAND_BITS ≤ t.1 := by simpa using hc
      have h16 : 0 < FFBI_RAND_BITS := by decide
      obtain ⟨h1, e1, _, _, _, h2, e2, e3, e4, e5, e6, _⟩ := shift_add_step P
        (fun y => y % rand_max_plus_1) t2 hi t3
        (fun y => Nat.mod_lt y (Nat.two_pow_pos FFBI_RAND_BITS)) (by omega)
      refine ⟨(t.1 - FFBI_RAND_BITS, h2), ?_,
        ⟨by dsimp only; omega, _, e4, ?_, Heap.sameBut_trans t4 e6⟩, by
        dsimp only; omega⟩
      · unfold random_chunk
        dsimp only
        rw [rd_set_digit t2 hi, obind_some, e1, obind_some, e3, obind_some, e2, obind_some]
      · dsimp only
        rw [show bits - (t.1 - FFBI_RAND_BITS) = bits - t.1 + FFBI_RAND_BITS by omega]
        exact e5)
  have hlt16 : s.1 < FFBI_RAND_BITS := by simpa using l6
  have h16 : FFBI_RAND_BITS = 16 := rfl
  unfold random_digit
  dsimp only
  rw [wrDigit_eq _ hg hi, obind_some, l1, obind_some]
  by_cases hpos : s.1 > 0
  · rw [if_pos hpos]
    obtain ⟨h1, e1, _, _, _, h2, e2, e3, e4, e5, e6, _⟩ := shift_add_step P
      (fun y => y % 2 ^ s.1) l3 hi l4 (fun y => Nat.mod_lt y (Nat.two_pow_pos s.1)) (by omega)
    refine ⟨_, h2, ?_, e4, ?_, Heap.sameBut_trans l5 e6⟩
    · rw [rd_set_digit l3 hi, obind_some, e1, obind_some, e3, obind_some, e2]
    · rw [show bits - s.1 + s.1 = bits by omega] at e5
      exact e5
  · rw [if_neg hpos]
    refine ⟨v, s.2, rfl, l3, ?_, l5⟩
    rw [show bits - s.1 = bits by omega] at l4
    exact l4

theorem set_getD_self {ds : List Nat} {i : Nat} (hi : i < ds.length) :
    ds.set i (ds.getD i 0) = ds := by
  apply List.ext_getElem? fun j => ?_
  rw [List.getElem?_set]
  split
  · next he =>
    subst he
    simp [List.getD_eq_getElem?_getD, hi]
  · rfl

/-- The statement `digits[i] |= 1 << (r - 1)` on a digit below `2^r`. -/
theorem set_top_bit (P : Platform) {h : Heap} {p i v r : Nat} {x : FFBI}
    (hg : h.get p = some { x with digits := x.digits.set i v }) (hi : i < x.digits.length)
    (hv : v < 2 ^ r) (hr1 : 1 ≤ r) (hrD : r ≤ FFBI_BITS_PER_DIGIT P) :
    ∃ t h', (obind (rdDigit h p i) fun d =>
        wrDigit h p i (d ||| wshl (FFBI_WORD_SIZE P) 1 (r - 1))) = some h' ∧
      h'.get p = some { x with digits := x.digits.set i t } ∧
      2 ^ (r - 1) ≤ t ∧ t < 2 ^ r ∧ Heap.sameBut p h h' := by
  have hw : 1 * 2 ^ (r - 1) < 2 ^ FFBI_WORD_SIZE P := by
    rw [Nat.one_mul]
    exact Nat.pow_lt_pow_right (by decide) (by have := bits_lt_word P; omega)
  have hv' : v < 2 ^ (r - 1 + 1) := by rwa [Nat.sub_add_cancel hr1]
  have ht := lor_top_bit v (r - 1) hv'
  have hlo : v % 2 ^ (r - 1) < 2 ^ (r - 1) := Nat.mod_lt _ (Nat.two_pow_pos _)
  have hpow : 2 ^ r = 2 * 2 ^ (r - 1) := by
    conv_lhs => rw [← Nat.sub_add_cancel hr1]
    rw [Nat.pow_succ, Nat.mul_comm]
  obtain ⟨h', e1, e2, e3⟩ := wr_set_digit (v ||| wshl (FFBI_WORD_SIZE P) 1 (r - 1)) hg hi
  rw [wshl_eq hw, Nat.one_mul, ht] at e2
  refine ⟨_, h', ?_, e2, by omega, by omega, e3⟩
  rw [rd_set_digit hg hi, obind_some, e1]

theorem val_bounds_top (bits : Nat) (ds : List Nat) (m r : Nat)
    (hlow : ∀ j, j < m → ds.getD j 0 < 2 ^ bits) (h1 : 2 ^ (r - 1) ≤ ds.getD m 0)
    (h2 : ds.getD m 0 < 2 ^ r) (hr : 1 ≤ r) :
    2 ^ (bits * m + r - 1) ≤ digitsVal bits ds (m + 1) ∧
      digitsVal bits ds (m + 1) < 2 ^ (bits * m + r) := by
  have hl := digitsVal_lt bits ds m hlow
  rw [digitsVal_succ]
  have e1 : 2 ^ (bits * m + r - 1) = 2 ^ (r - 1) * 2 ^ (bits * m) := by
    rw [← Nat.pow_add]
    congr 1
    omega
  have e2 : 2 ^ (bits * m + r) = 2 ^ r * 2 ^ (bits * m) := by
    rw [← Nat.pow_add]
    congr 1
    omega
  have e3 : 2 ^ (r - 1) * 2 ^ (bits * m) ≤ ds.getD m 0 * 2 ^ (bits * m) :=
    Nat.mul_le_mul_right _ h1
  have e4 : (ds.getD m 0 + 1) * 2 ^ (bits * m) ≤ 2 ^ r * 2 ^ (bits * m) :=
    Nat.mul_le_mul_right _ h2
  rw [Nat.add_mul, Nat.one_mul] at e4
  rw [e1, e2]
  omega

/-- The loop of `ffbi_random` over the full digits. -/
theorem random_full_digits_spec (P : Platform) (p nf : Nat) (y : FFBI) (h1 : Heap)
    (hg : h1.get p = some y) (hnf : nf ≤ y.digits.length) :
    ∃ ds h2, forUp (fun i h => random_digit P h p i (FFBI_BITS_PER_DIGIT P)) nf 0 h1 = some h2 ∧
      h2.get p = some { y with digits := ds } ∧ ds.length = y.digits.length ∧
      (∀ j, j < nf → ds.getD j 0 < 2 ^ FFBI_BITS_PER_DIGIT P) ∧ Heap.sameBut p h1 h2 := by
  obtain ⟨h2, e1, ds, e2, e3, e4, e5⟩ := forUp_inv
    (fun i h => random_digit P h p i (FFBI_BITS_PER_DIGIT P))
    (fun k h2 => ∃ ds, h2.get p = some { y with digits := ds } ∧ ds.length = y.digits.length ∧
      (∀ j, j < k → ds.getD j 0 < 2 ^ FFBI_BITS_PER_DIGIT P) ∧ Heap.sameBut p h1 h2)
    nf 0 h1 ⟨y.digits, hg, rfl, fun j hj => absurd hj (Nat.not_lt_zero j), Heap.sameBut_refl _ _⟩
    (by
      intro i t _ hi ⟨ds, t1, t2, t3, t4⟩
      obtain ⟨v, t', r1, r2, r3, r4⟩ := random_digit_spec P t p i (FFBI_BITS_PER_DIGIT P)
        { y with digits := ds } t1 (by show i < ds.length; omega) (Nat.le_refl _)
      refine ⟨t', r1, ds.set i v, r2, by rw [List.length_set, t2], ?_, Heap.sameBut_trans t4 r4⟩
      intro j hj
      by_cases hji : j = i
      · subst hji
        rw [@getD_set_same ds j v (by omega)]
        exact r3
      · rw [getD_set_ne ds v hji]
        exact t3 j (by omega))
  rw [Nat.zero_add] at e4
  exact ⟨ds, h2, e1, e2, e3, e4, e5⟩

/-- The optional reallocation of a destination whose old value is not needed, for a record
whose recorded capacity is within its digit array (nothing is assumed about its cache). -/
theorem realloc_if_small_cap (P : Platform) {h : Heap} {dest : Nat} {xd : FFBI}
    (need target : Nat) (hgd : h.get dest = some xd)
    (hr : xd.num_allocated_digits < need → xd.reallocation_allowed = true)
    (hcap : xd.num_allocated_digits ≤ xd.digits.length) (hnt : need ≤ target) :
    ∃ h0 xd0, (if xd.num_allocated_digits < need then
          ffbi_reallocate_digits P h dest target false else some h) = some h0 ∧
      h0.get dest = some xd0 ∧ need ≤ xd0.num_allocated_digits ∧
      xd0.num_allocated_digits ≤ xd0.digits.length ∧
      xd.num_allocated_digits ≤ xd0.num_allocated_digits ∧
      xd0.reallocation_allowed = xd.reallocation_allowed ∧ xd0.cache = xd.cache ∧
      xd0.cache_num_allocated_digits = xd.cache_num_allocated_digits ∧
      xd0.cache_num_used_digits = xd.cache_num_used_digits ∧
      xd0.cache_bits_per_digit = xd.cache_bits_per_digit ∧
      Heap.frame [dest] h h0 ∧ h0.obj.length = h.obj.length ∧ h0.scr = h.scr := by
  by_cases hlt : xd.num_allocated_digits < need
  · rw [if_pos hlt]
    obtain ⟨h0, arr, e1, e2, e3, e4, e5, e6⟩ :=
      realloc_discard_spec P target hgd (hr hlt) (by omega)
    refine ⟨h0, _, e1, e3, ?_, ?_, ?_, rfl, rfl, rfl, rfl, rfl, Heap.frame_of_get_ne e5 e4,
      e5, e6⟩
    · dsimp only
      have := Nat.le_max_left target FFBI_MIN_ALLOC_DIGITS
      omega
    · dsimp only; omega
    · dsimp only
      have := Nat.le_max_left target FFBI_MIN_ALLOC_DIGITS
      omega
  · rw [if_neg hlt]
    exact ⟨h, xd, rfl, hgd, by omega, hcap, Nat.le_refl _, rfl, rfl, rfl, rfl, rfl,
      Heap.frame_refl _ _, rfl, rfl⟩

/-- `ffbi_random(p, n)` for `n >= D` and a record whose recorded capacity is within its digit
array: the result is canonical and has exactly `n` significant bits. -/
theorem ffbi_random_spec_cap (P : Platform) (h : Heap) (p n : Nat) (x : FFBI)
    (hg : h.get p = some x) (hvs : x.num_allocated_digits ≤ x.digits.length)
    (hr : x.reallocation_allowed = true ∨ n ≤ FFBI_BITS_PER_DIGIT P * x.num_allocated_digits)
    (hn : FFBI_BITS_PER_DIGIT P ≤ n) :
    ∃ h' x', ffbi_random P h p n = some h' ∧ h'.get p = some x' ∧ canonical P x' ∧
      2 ^ (n - 1) ≤ val P x' ∧ val P x' < 2 ^ n ∧ x'.cache_valid = false ∧
      Heap.frame [p] h h' ∧ x'.reallocation_allowed = x.reallocation_allowed ∧
      x'.num_allocated_digits ≤ x'.digits.length := by
  have hD := bits_pos P
  generalize hDd : FFBI_BITS_PER_DIGIT P = D at hD hn hr
  have hdiv := Nat.div_add_mod n D
  have hmod := Nat.mod_lt n hD
  generalize hnf : n / D = nf at hdiv
  generalize hrem : n % D = rem at hdiv hmod
  have hnf1 : rem = 0 → 1 ≤ nf := by
    intro h0
    rcases Nat.eq_zero_or_pos nf with hz | hz
    · rw [hz, h0] at hdiv; omega
    · exact hz
  obtain ⟨h0, x0, r1, r2, r3, r4, _, r6, _, _, _, _, r11, r12, r13⟩ := realloc_if_small_cap P
    (if rem > 0 then nf + 1 else nf) (if rem > 0 then nf + 1 else nf) hg (by
      intro hlt
      rcases hr with hr | hr
      · exact hr
      · exfalso
        have : D * (if rem > 0 then nf + 1 else nf) ≤ D * x.num_allocated_digits + D - 1 := by
          split
          · rw [Nat.mul_add, Nat.mul_one]; omega
          · omega
        have h2 : D * (x.num_allocated_digits + 1) ≤ D * (if rem > 0 then nf + 1 else nf) :=
          Nat.mul_le_mul_left _ hlt
        rw [Nat.mul_add, Nat.mul_one] at h2
        omega) hvs (Nat.le_refl _)
  have hg1 := Heap.get_upd_same { x0 with num_used_digits := if rem > 0 then nf + 1 else nf } r2
  have hnfl : nf ≤ x0.digits.length := by
    have : nf ≤ (if rem > 0 then nf + 1 else nf) := by split <;> omega
    omega
  obtain ⟨ds, h2, f1, f2, f3, f4, f5⟩ := random_full_digits_spec P p nf
    { x0 with num_used_digits := if rem > 0 then nf + 1 else nf } _ hg1 hnfl
  rw [hDd] at f1 f4
  have f3 : ds.length = x0.digits.length := f3
  have hfr : ∀ h3, Heap.sameBut p h2 h3 → ∀ y, Heap.frame [p] h (h3.upd p y) := fun h3 hs y =>
    Heap.frame_trans r11 (Heap.frame_trans (Heap.frame_upd _ _ _)
      (Heap.frame_trans (Heap.sameBut_frame (Heap.sameBut_trans f5 hs)) (Heap.frame_upd _ _ _)
        (fun _ hq => hq)) (fun _ hq => hq)) (fun _ hq => hq)
  unfold ffbi_random
  dsimp only
  rw [hDd, if_neg (by omega), hnf, hrem, hg, obind_some, r1, obind_some, modify_eq _ r2,
    obind_some, f1, obind_some]
  by_cases hpos : rem > 0
  · rw [if_pos hpos] at r3 f2 ⊢
    have hil : nf < ds.length := by omega
    obtain ⟨v, h3, g1, g2, g3, g4⟩ := random_digit_spec P h2 p nf rem _ f2 hil
      (by rw [hDd]; omega)
    obtain ⟨t, h4, k1, k2, k3, k4, k5⟩ := set_top_bit P g2 hil g3 hpos (by rw [hDd]; omega)
    rw [g1, obind_some, k1, obind_some, modify_eq _ k2]
    have hlow : ∀ j, j < nf → (ds.set nf t).getD j 0 < 2 ^ D := fun j hj => by
      rw [getD_set_ne ds t (by omega)]
      exact f4 j hj
    have htop : (ds.set nf t).getD nf 0 = t := @getD_set_same ds nf t hil
    have hvb := val_bounds_top D (ds.set nf t) nf rem hlow (by rw [htop]; exact k3)
      (by rw [htop]; exact k4) hpos
    rw [show D * nf + rem = n from hdiv] at hvb
    refine ⟨_, _, rfl, Heap.get_upd_same _ k2, ?_, ?_, ?_, rfl,
      hfr h4 (Heap.sameBut_trans g4 k5) _, r6, by
        show x0.num_allocated_digits ≤ (ds.set nf t).length
        rw [List.length_set, f3]
        exact r4⟩
    · refine ⟨by show 1 ≤ nf + 1; omega, by
        show nf + 1 ≤ (ds.set nf t).length; rw [List.length_set]; omega, ?_, Or.inr ?_⟩
      · intro j hj
        have hj' : j < nf + 1 := hj
        rw [hDd]
        by_cases hjn : j = nf
        · subst hjn
          show (ds.set j t).getD j 0 < _
          rw [htop]
          exact Nat.lt_of_lt_of_le k4 (Nat.pow_le_pow_right (by decide) (by omega))
        · exact hlow j (by omega)
      · show (ds.set nf t).getD (nf + 1 - 1) 0 ≠ 0
        rw [Nat.add_sub_cancel, htop]
        have := Nat.two_pow_pos (rem - 1)
        omega
    · show _ ≤ digitsVal (FFBI_BITS_PER_DIGIT P) (ds.set nf t) (nf + 1)
      rw [hDd]
      exact hvb.1
    · show digitsVal (FFBI_BITS_PER_DIGIT P) (ds.set nf t) (nf + 1) < _
      rw [hDd]
      exact hvb.2
  · rw [if_neg hpos] at r3 f2 ⊢
    have hrem0 : rem = 0 := by omega
    have hnf1' := hnf1 hrem0
    have hil : nf - 1 < ds.length := by omega
    have f2' : h2.get p = some { ({ x0 with num_used_digits := nf, digits := ds } : FFBI) with
        digits := ds.set (nf - 1) (ds.getD (nf - 1) 0) } := by
      rw [set_getD_self hil]
      exact f2
    obtain ⟨t, h4, k1, k2, k3, k4, k5⟩ := set_top_bit P (r := D) f2' hil (f4 (nf - 1) (by omega))
      hD (by rw [hDd])
    rw [k1, obind_some, modify_eq _ k2]
    have hlow : ∀ j, j < nf - 1 → (ds.set (nf - 1) t).getD j 0 < 2 ^ D := fun j hj => by
      rw [getD_set_ne ds t (by omega)]
      exact f4 j (by omega)
    have htop : (ds.set (nf - 1) t).getD (nf - 1) 0 = t := @getD_set_same ds (nf - 1) t hil
    have hvb := val_bounds_top D (ds.set (nf - 1) t) (nf - 1) D hlow (by rw [htop]; exact k3)
      (by rw [htop]; exact k4) hD
    have hnD : D * (nf - 1) + D = n := by
      rw [hrem0, Nat.add_zero] at hdiv
      rw [← hdiv]
      conv_rhs => rw [← Nat.sub_add_cancel hnf1', Nat.mul_add, Nat.mul_one]
    rw [hnD, Nat.sub_add_cancel hnf1'] at hvb
    refine ⟨_, _, rfl, Heap.get_upd_same _ k2, ?_, ?_, ?_, rfl, hfr h4 k5 _, r6, by
        show x0.num_allocated_digits ≤ (ds.set (nf - 1) t).length
        rw [List.length_set, f3]
        exact r4⟩
    · refine ⟨hnf1', by
        show nf ≤ (ds.set (nf - 1) t).length; rw [List.length_set]; omega, ?_, Or.inr ?_⟩
      · intro j hj
        have hj' : j < nf := hj
        rw [hDd]
        by_cases hjn : j = nf - 1
        · subst hjn
          show (ds.set (nf - 1) t).getD (nf - 1) 0 < _
          rw [htop]
          exact k4
        · exact hlow j (by omega)
      · show (ds.set (nf - 1) t).getD (nf - 1) 0 ≠ 0
        rw [htop]
        have := Nat.two_pow_pos (D - 1)
        omega
    · show _ ≤ digitsVal (FFBI_BITS_PER_DIGIT P) (ds.set (nf - 1) t) nf
      rw [hDd]
      exact hvb.1
    · show digitsVal (FFBI_BITS_PER_DIGIT P) (ds.set (nf - 1) t) nf < _
      rw [hDd]
      exact hvb.2

/-- `ffbi_random(p, n)` for `n >= D`: the result is canonical and has exactly `n` significant
bits. -/
theorem ffbi_random_spec (P : Platform) (h : Heap) (p n : Nat) (x : FFBI)
    (hg : h.get p = some x) (hvs : validStorage x)
    (hr : x.reallocation_allowed = true ∨ n ≤ FFBI_BITS_PER_DIGIT P * x.num_allocated_digits)
    (hn : FFBI_BITS_PER_DIGIT P ≤ n) :
    ∃ h' x', ffbi_random P h p n = some h' ∧ h'.get p = some x' ∧ canonical P x' ∧
      2 ^ (n - 1) ≤ val P x' ∧ val P x' < 2 ^ n ∧ x'.cache_valid = false ∧
      Heap.frame [p] h h' := by
  obtain ⟨h', x', e1, e2, e3, e4, e5, e6, e7, _⟩ := ffbi_random_spec_cap P h p n x hg hvs.1 hr hn
  exact ⟨h', x', e1, e2, e3, e4, e5, e6, e7⟩

/-- C17: for every requested width `n >= D` and every random sequence (the field `rand` of
the heap is arbitrary), `ffbi_random(p, n)` returns and leaves `p` canonical with
`2^(n-1) <= val(p) < 2^n`, provided `p` can grow or already has room for `n` bits; for
`n < D` the call changes nothing. -/
theorem ffbi_random_correct (P : Platform) (h : Heap) (p n : Nat) (x : FFBI)
    (hg : h.get p = some x) :
    (FFBI_BITS_PER_DIGIT P ≤ n → validStorage x →
      (x.reallocation_allowed = true ∨ n ≤ FFBI_BITS_PER_DIGIT P * x.num_allocated_digits) →
      ∃ h' x', ffbi_random P h p n = some h' ∧ h'.get p = some x' ∧ canonical P x' ∧
        2 ^ (n - 1) ≤ val P x' ∧ val P x' < 2 ^ n) ∧
    (n < FFBI_BITS_PER_DIGIT P → ffbi_random P h p n = some h) := by
  refine ⟨fun hn hvs hr => ?_, fun hn => ?_⟩
  · obtain ⟨h', x', e1, e2, e3, e4, e5, _⟩ := ffbi_random_spec P h p n x hg hvs hr hn
    exact ⟨h', x', e1, e2, e3, e4, e5⟩
  · unfold ffbi_random
    dsimp only
    rw [if_pos hn]

/-- Witness for C17: 130 random bits, and a request for 10 bits, on the 61-bit configuration
with the random sequence `12345 * k + 77`. -/
theorem ffbi_random_correct_witness :
    (∃ h' x', ffbi_random .gnu128
        (exHeapR [exBig [0, 0, 0] 1] [] 0 (fun k => 12345 * k + 77)) 0 130 = some h' ∧
      h'.get 0 = some x' ∧ canonical .gnu128 x' ∧
      2 ^ (130 - 1) ≤ val .gnu128 x' ∧ val .gnu128 x' < 2 ^ 130) ∧
    ffbi_random .gnu128 (exHeapR [exBig [0, 0, 0] 1] [] 0 (fun k => 12345 * k + 77)) 0 10
      = some (exHeapR [exBig [0, 0, 0] 1] [] 0 (fun k => 12345 * k + 77)) :=
  ⟨(ffbi_random_correct .gnu128 (exHeapR [exBig [0, 0, 0] 1] [] 0 (fun k => 12345 * k + 77))
      0 130 (exBig [0, 0, 0] 1) rfl).1 (by decide)
      ⟨by decide, fun c hc => Option.noConfusion hc⟩ (Or.inl rfl),
   (ffbi_random_correct .gnu128 (exHeapR [exBig [0, 0, 0] 1] [] 0 (fun k => 12345 * k + 77))
      0 10 (exBig [0, 0, 0] 1) rfl).2 (by decide)⟩


/-! # Random bigints below a limit -/

theorem chunk_split (l bl b : Nat) :
    l / 2 ^ bl = l / 2 ^ (bl + b) * 2 ^ b + l / 2 ^ bl % 2 ^ b := by
  have h := Nat.div_add_mod (l / 2 ^ bl) (2 ^ b)
  rw [Nat.div_div_eq_div_mul, ← Nat.pow_add, Nat.mul_comm] at h
  exact h.symm

theorem tail_lim (W l t : Nat) (ht : t ≤ W) : wshl W l (W - t) >>> (W - t) = l % 2 ^ t := by
  unfold wshl
  rw [Nat.shiftLeft_eq, Nat.shiftRight_eq_div_pow]
  have hW : 2 ^ W = 2 ^ t * 2 ^ (W - t) := by
    rw [← Nat.pow_add]
    congr 1
    omega
  rw [hW, Nat.mul_mod_mul_right, Nat.mul_div_cancel _ (Nat.two_pow_pos _)]

theorem digit_max_shift (P : Platform) (t : Nat) (ht : t < 16) :
    digit_max P >>> (FFBI_WORD_SIZE P - t) = 0 := by
  rw [Nat.shiftRight_eq_div_pow, digit_max_eq]
  apply Nat.div_eq_of_lt
  have h1 : 2 ^ FFBI_BITS_PER_DIGIT P ≤ 2 ^ (FFBI_WORD_SIZE P - t) :=
    Nat.pow_le_pow_right (by decide) (by cases P <;> simp [FFBI_BITS_PER_DIGIT, FFBI_WORD_SIZE] <;> omega)
  have := Nat.two_pow_pos (FFBI_BITS_PER_DIGIT P)
  omega

/-- How the flag `p_is_less` and the digit prefix evolve when `b` more bits are appended:
`v` is the prefix of the digit of `p`, `l / 2^(bl + b)` the matching prefix of the digit of
the limit, `r` the appended bits, `less0` the flag when the digit was started. -/
theorem less_step {v l b bl r : Nat} {less less0 : Bool}
    (hf : less = false → less0 = false ∧ v = l / 2 ^ (bl + b))
    (ht : less = true → less0 = true ∨ v < l / 2 ^ (bl + b))
    (hr : less = false → r ≤ l / 2 ^ bl % 2 ^ b) (hrb : r < 2 ^ b) :
    ((if less = false then decide (r < l / 2 ^ bl % 2 ^ b) else true) = false →
        less0 = false ∧ v * 2 ^ b + r = l / 2 ^ bl) ∧
    ((if less = false then decide (r < l / 2 ^ bl % 2 ^ b) else true) = true →
        less0 = true ∨ v * 2 ^ b + r < l / 2 ^ bl) := by
  have hs := chunk_split l bl b
  cases less with
  | false =>
    obtain ⟨h0, hv⟩ := hf rfl
    have hr' := hr rfl
    simp only [if_true]
    refine ⟨fun hd => ⟨h0, ?_⟩, fun hd => Or.inr ?_⟩
    · have : ¬ r < l / 2 ^ bl % 2 ^ b := by simpa using hd
      rw [hs, hv]
      omega
    · have : r < l / 2 ^ bl % 2 ^ b := by simpa using hd
      rw [hs, hv]
      omega
  | true =>
    simp only [Bool.true_eq_false, if_false]
    refine ⟨fun hd => absurd hd (by simp), fun _ => ?_⟩
    rcases ht rfl with h0 | hv
    · exact Or.inl h0
    · right
      have h1 : (v + 1) * 2 ^ b ≤ l / 2 ^ (bl + b) * 2 ^ b := Nat.mul_le_mul_right _ hv
      rw [Nat.add_mul, Nat.one_mul] at h1
      rw [hs]
      omega

theorem digitsFrom_cons (bits : Nat) (ds : List Nat) (m : Nat) :
    ∀ k, digitsFrom bits ds m (k + 1) = ds.getD m 0 + 2 ^ bits * digitsFrom bits ds (m + 1) k := by
  intro k
  induction k with
  | zero =>
    show 0 + ds.getD (m + 0) 0 * 2 ^ (bits * 0) = _ + 2 ^ bits * 0
    simp
  | succ k ih =>
    show digitsFrom bits ds m (k + 1) + ds.getD (m + (k + 1)) 0 * 2 ^ (bits * (k + 1))
      = ds.getD m 0 + 2 ^ bits * (digitsFrom bits ds (m + 1) k
          + ds.getD (m + 1 + k) 0 * 2 ^ (bits * k))
    rw [ih, show m + 1 + k = m + (k + 1) by omega, Nat.mul_add bits, Nat.mul_one, Nat.pow_add]
    ring

theorem digitsFrom_congr (bits : Nat) (ds ds' : List Nat) (m : Nat) :
    ∀ k, (∀ j, m ≤ j → j < m + k → ds.getD j 0 = ds'.getD j 0) →
      digitsFrom bits ds m k = digitsFrom bits ds' m k := by
  intro k
  induction k with
  | zero => intro _; rfl
  | succ k ih =>
    intro h
    show digitsFrom bits ds m k + ds.getD (m + k) 0 * 2 ^ (bits * k)
      = digitsFrom bits ds' m k + ds'.getD (m + k) 0 * 2 ^ (bits * k)
    rw [ih (fun j h1 h2 => h j h1 (by omega)), h (m + k) (by omega) (by omega)]

theorem digitsFrom_zero (bits : Nat) (ds : List Nat) (n : Nat) :
    digitsFrom bits ds 0 n = digitsVal bits ds n := by
  have := digitsVal_split bits ds 0 n
  rw [Nat.zero_add, Nat.mul_zero, Nat.pow_zero, Nat.one_mul] at this
  rw [this]
  show _ = 0 + _
  rw [Nat.zero_add]

theorem mod_succ_le (y n : Nat) : y % (n + 1) ≤ n :=
  Nat.lt_succ_iff.mp (Nat.mod_lt y (Nat.succ_pos n))

theorem rand_chunk_lim (l bl : Nat) :
    (l >>> bl) &&& rand_max = l / 2 ^ bl % 2 ^ FFBI_RAND_BITS := by
  rw [Nat.shiftRight_eq_div_pow]
  exact Nat.and_pow_two_sub_one_eq_mod _ _

theorem wadd_lim_one (P : Platform) {lim b : Nat} (hl : lim < 2 ^ b)
    (hb : b ≤ FFBI_BITS_PER_DIGIT P) : wadd (FFBI_WORD_SIZE P) lim 1 = lim + 1 := by
  apply wadd_eq
  have := pow_le_word P hb
  have := two_pow_succ_le_word P
  have h2 : 2 ^ b < 2 ^ (FFBI_BITS_PER_DIGIT P + 1) :=
    Nat.pow_lt_pow_right (by decide) (by omega)
  omega

/-- One iteration of the 16-bit loop of `ffbi_random_with_limit` on digit `i`. -/
theorem rwl_chunk_spec (P : Platform) {h : Heap} {p limit i v : Nat} {x xl : FFBI}
    {less less0 : Bool} (bl : Nat) (hpl : limit ≠ p)
    (hg : h.get p = some { x with digits := x.digits.set i v }) (hgl : h.get limit = some xl)
    (hi : i < x.digits.length) (hil : i < xl.digits.length)
    (hbl : FFBI_RAND_BITS ≤ bl) (hblD : bl ≤ FFBI_BITS_PER_DIGIT P)
    (hv : v < 2 ^ (FFBI_BITS_PER_DIGIT P - bl))
    (hf : less = false → less0 = false ∧ v = xl.digits.getD i 0 / 2 ^ bl)
    (ht : less = true → less0 = true ∨ v < xl.digits.getD i 0 / 2 ^ bl) :
    ∃ v' less' h', rwl_chunk P p limit i (bl, less, h) = some (bl - FFBI_RAND_BITS, less', h') ∧
      h'.get p = some { x with digits := x.digits.set i v' } ∧
      v' < 2 ^ (FFBI_BITS_PER_DIGIT P - (bl - FFBI_RAND_BITS)) ∧ Heap.sameBut p h h' ∧
      (less' = false → less0 = false ∧ v' = xl.digits.getD i 0 / 2 ^ (bl - FFBI_RAND_BITS)) ∧
      (less' = true → less0 = true ∨ v' < xl.digits.getD i 0 / 2 ^ (bl - FFBI_RAND_BITS)) := by
  have hR : 0 < FFBI_RAND_BITS := by decide
  have hRD : FFBI_RAND_BITS ≤ FFBI_BITS_PER_DIGIT P := Nat.le_trans hbl hblD
  generalize hl : xl.digits.getD i 0 = l at hf ht
  have hlim : l / 2 ^ (bl - FFBI_RAND_BITS) % 2 ^ FFBI_RAND_BITS < 2 ^ FFBI_RAND_BITS :=
    Nat.mod_lt _ (Nat.two_pow_pos _)
  have hbb : bl - FFBI_RAND_BITS + FFBI_RAND_BITS = bl := by omega
  rw [← hbb] at hf ht
  obtain ⟨h1, e1, e1a, e1b, _, h2, e2, e3, e4, e5, e6, _⟩ := shift_add_step P
    (b := FFBI_RAND_BITS) (fun y => if less = false then
        y % wadd (FFBI_WORD_SIZE P) ((l >>> (bl - FFBI_RAND_BITS)) &&& rand_max) 1
      else y % rand_max_plus_1) hg hi hv
    (fun y => by
      dsimp only
      split
      · rw [rand_chunk_lim, wadd_lim_one P hlim hRD]
        have := mod_succ_le y (l / 2 ^ (bl - FFBI_RAND_BITS) % 2 ^ FFBI_RAND_BITS)
        omega
      · exact Nat.mod_lt y (Nat.two_pow_pos _)) (by omega)
  have hgl1 : (rand h1).2.get limit = some xl := by rw [e1a, e1b limit hpl, hgl]
  have hstep := less_step hf ht
    (r := if less = false then
        (rand h1).1 % wadd (FFBI_WORD_SIZE P) ((l >>> (bl - FFBI_RAND_BITS)) &&& rand_max) 1
      else (rand h1).1 % rand_max_plus_1)
    (fun hless => by
      rw [if_pos hless, rand_chunk_lim, wadd_lim_one P hlim hRD]
      exact mod_succ_le _ _)
    (by
      split
      · rw [rand_chunk_lim, wadd_lim_one P hlim hRD]
        have := mod_succ_le (rand h1).1 (l / 2 ^ (bl - FFBI_RAND_BITS) % 2 ^ FFBI_RAND_BITS)
        omega
      · exact Nat.mod_lt _ (Nat.two_pow_pos _))
  refine ⟨_, _, h2, ?_, e4, ?_, e6, hstep.1, hstep.2⟩
  · unfold rwl_chunk
    dsimp only
    rw [rd_set_digit hg hi, obind_some, e1, obind_some]
    cases less with
    | false =>
      simp only [if_true] at e2 ⊢
      rw [rdDigit_eq hgl1 hil, obind_some, hl, obind_some, e3, obind_some, e2, obind_some,
        rand_chunk_lim]
    | true =>
      simp only [Bool.true_eq_false, if_false] at e2 ⊢
      rw [obind_some, e3, obind_some, e2, obind_some]
  · rw [show FFBI_BITS_PER_DIGIT P - (bl - FFBI_RAND_BITS)
        = FFBI_BITS_PER_DIGIT P - bl + FFBI_RAND_BITS by omega]
    exact e5

/-- The block `if (bits_left > 0)` of `ffbi_random_with_limit` on digit `i`. -/
theorem rwl_tail_spec (P : Platform) {h : Heap} {p limit i v : Nat} {x xl : FFBI}
    {less less0 : Bool} (t : Nat) (hpl : limit ≠ p)
    (hg : h.get p = some { x with digits := x.digits.set i v }) (hgl : h.get limit = some xl)
    (hi : i < x.digits.length) (hil : i < xl.digits.length)
    (ht16 : t < FFBI_RAND_BITS) (htD : t ≤ FFBI_BITS_PER_DIGIT P)
    (hv : v < 2 ^ (FFBI_BITS_PER_DIGIT P - t))
    (hf : less = false → less0 = false ∧ v = xl.digits.getD i 0 / 2 ^ t)
    (ht : less = true → less0 = true ∨ v < xl.digits.getD i 0 / 2 ^ t) :
    ∃ v' less' h', rwl_tail P p limit i (t, less, h) = some (less', h') ∧
      h'.get p = some { x with digits := x.digits.set i v' } ∧
      v' < 2 ^ FFBI_BITS_PER_DIGIT P ∧ Heap.sameBut p h h' ∧
      (less' = false → less0 = false ∧ v' = xl.digits.getD i 0) ∧
      (less' = true → less0 = true ∨ v' < xl.digits.getD i 0) := by
  generalize hl : xl.digits.getD i 0 = l at hf ht
  unfold rwl_tail
  dsimp only
  by_cases hpos : t > 0
  · rw [if_pos hpos]
    have htW : t ≤ FFBI_WORD_SIZE P := Nat.le_trans htD (Nat.le_of_lt (bits_lt_word P))
    have hlim : l % 2 ^ t < 2 ^ t := Nat.mod_lt _ (Nat.two_pow_pos _)
    have hf' : less = false → less0 = false ∧ v = l / 2 ^ (0 + t) := by rwa [Nat.zero_add]
    have ht' : less = true → less0 = true ∨ v < l / 2 ^ (0 + t) := by rwa [Nat.zero_add]
    have hdm : wadd (FFBI_WORD_SIZE P) (digit_max P >>> (FFBI_WORD_SIZE P - t)) 1 = 1 := by
      rw [digit_max_shift P t ht16]
      exact wadd_eq (Nat.one_lt_two_pow (by have := bits_lt_word P; omega))
    obtain ⟨h1, e1, e1a, e1b, _, h2, e2, e3, e4, e5, e6, _⟩ := shift_add_step P
      (b := t) (fun y => if less = false then
          y % wadd (FFBI_WORD_SIZE P)
            (wshl (FFBI_WORD_SIZE P) l (FFBI_WORD_SIZE P - t) >>> (FFBI_WORD_SIZE P - t)) 1
        else y % wadd (FFBI_WORD_SIZE P) (digit_max P >>> (FFBI_WORD_SIZE P - t)) 1) hg hi hv
      (fun y => by
        dsimp only
        split
        · rw [tail_lim _ _ _ htW, wadd_lim_one P hlim htD]
          have := mod_succ_le y (l % 2 ^ t)
          omega
        · rw [hdm, Nat.mod_one]
          exact Nat.two_pow_pos _) (by omega)
    have hgl1 : (rand h1).2.get limit = some xl := by rw [e1a, e1b limit hpl, hgl]
    have hstep := less_step hf' ht'
      (r := if less = false then
          (rand h1).1 % wadd (FFBI_WORD_SIZE P)
            (wshl (FFBI_WORD_SIZE P) l (FFBI_WORD_SIZE P - t) >>> (FFBI_WORD_SIZE P - t)) 1
        else (rand h1).1 % wadd (FFBI_WORD_SIZE P) (digit_max P >>> (FFBI_WORD_SIZE P - t)) 1)
      (fun hless => by
        rw [if_pos hless, tail_lim _ _ _ htW, wadd_lim_one P hlim htD, Nat.pow_zero, Nat.div_one]
        exact mod_succ_le _ _)
      (by
        split
        · rw [tail_lim _ _ _ htW, wadd_lim_one P hlim htD]
          have := mod_succ_le (rand h1).1 (l % 2 ^ t)
          omega
        · rw [hdm, Nat.mod_one]
          exact Nat.two_pow_pos _)
    rw [Nat.pow_zero, Nat.div_one] at hstep
    rw [show FFBI_BITS_PER_DIGIT P - t + t = FFBI_BITS_PER_DIGIT P by omega] at e5
    refine ⟨_, _, h2, ?_, e4, e5, e6, hstep.1, hstep.2⟩
    rw [rd_set_digit hg hi, obind_some, e1, obind_some]
    cases less with
    | false =>
      simp only [if_true] at e2 ⊢
      rw [rdDigit_eq hgl1 hil, obind_some, hl, obind_some, e3, obind_some, e2, obind_some,
        tail_lim _ _ _ htW]
    | true =>
      simp only [Bool.true_eq_false, if_false] at e2 ⊢
      rw [obind_some, e3, obind_some, e2, obind_some]
  · rw [if_neg hpos]
    have ht0 : t = 0 := by omega
    subst ht0
    rw [Nat.pow_zero, Nat.div_one] at hf ht
    exact ⟨v, less, h, rfl, hg, hv, Heap.sameBut_refl _ _, hf, ht⟩

/-- One iteration of the digit loop of `ffbi_random_with_limit`: digit `i` of `p` ends below
`2^D`; the flag stays clear only if the digit equals the digit of the limit, and is set only if
it was set before or the digit is smaller. -/
theorem rwl_digit_spec (P : Platform) (h : Heap) (p limit i : Nat) (x xl : FFBI) (less0 : Bool)
    (hpl : limit ≠ p) (hg : h.get p = some x) (hgl : h.get limit = some xl)
    (hi : i < x.digits.length) (hil : i < xl.digits.length)
    (hlD : xl.digits.getD i 0 < 2 ^ FFBI_BITS_PER_DIGIT P) :
    ∃ v less' h', rwl_digit P p limit i (less0, h) = some (less', h') ∧
      h'.get p = some { x with digits := x.digits.set i v } ∧
      v < 2 ^ FFBI_BITS_PER_DIGIT P ∧ Heap.sameBut p h h' ∧
      (less' = false → less0 = false ∧ v = xl.digits.getD i 0) ∧
      (less' = true → less0 = true ∨ v < xl.digits.getD i 0) := by
  have hR : 0 < FFBI_RAND_BITS := by decide
  have hg0 : (h.upd p { x with digits := x.digits.set i 0 }).get p
      = some { x with digits := x.digits.set i 0 } := Heap.get_upd_same _ hg
  have hgl0 : (h.upd p { x with digits := x.digits.set i 0 }).get limit = some xl := by
    rw [Heap.get_upd_ne _ _ hpl, hgl]
  obtain ⟨s, l1, ⟨l2, v, l3, l4, l5, l6, l7⟩, l8⟩ := whileLoop_inv
    (fun s : Nat × Bool × Heap => some (decide (s.1 ≥ FFBI_RAND_BITS))) (rwl_chunk P p limit i)
    (fun s => s.1 ≤ FFBI_BITS_PER_DIGIT P ∧
      ∃ v, s.2.2.get p = some { x with digits := x.digits.set i v } ∧
      v < 2 ^ (FFBI_BITS_PER_DIGIT P - s.1) ∧ Heap.sameBut p h s.2.2 ∧
      (s.2.1 = false → less0 = false ∧ v = xl.digits.getD i 0 / 2 ^ s.1) ∧
      (s.2.1 = true → less0 = true ∨ v < xl.digits.getD i 0 / 2 ^ s.1))
    (fun s => s.1) (FFBI_BITS_PER_DIGIT P + 1)
    (FFBI_BITS_PER_DIGIT P, less0, h.upd p { x with digits := x.digits.set i 0 })
    ⟨Nat.le_refl _, 0, hg0, Nat.two_pow_pos _, Heap.sameBut_upd _ _ _,
      fun hl => ⟨hl, (Nat.div_eq_of_lt hlD).symm⟩, fun hl => Or.inl hl⟩ (Nat.lt_succ_self _)
    (fun t _ => ⟨_, rfl⟩)
    (by
      intro t ⟨t1, v, t2, t3, t4, t5, t6⟩ hc
      have hge : FFBI_RAND_BITS ≤ t.1 := by simpa using hc
      have hglt : t.2.2.get limit = some xl := by rw [t4.1 limit hpl, hgl]
      obtain ⟨v', less', h', c1, c2, c3, c4, c5, c6⟩ :=
        rwl_chunk_spec P t.1 hpl t2 hglt hi hil hge t1 t3 t5 t6
      exact ⟨_, c1, ⟨by dsimp only; omega, v', c2, c3, Heap.sameBut_trans t4 c4, c5, c6⟩, by
        dsimp only; omega⟩)
  have hlt16 : s.1 < FFBI_RAND_BITS := by simpa using l8
  have hgls : s.2.2.get limit = some xl := by rw [l5.1 limit hpl, hgl]
  obtain ⟨v', less', h', c1, c2, c3, c4, c5, c6⟩ :=
    rwl_tail_spec P s.1 hpl l3 hgls hi hil hlt16 l2 l4 l6 l7
  refine ⟨v', less', h', ?_, c2, c3, Heap.sameBut_trans l5 c4, c5, c6⟩
  unfold rwl_digit
  dsimp only
  rw [wrDigit_eq _ hg hi, obind_some, l1, obind_some]
  exact c1

/-- The digit loop of `ffbi_random_with_limit`, from the top digit down. -/
theorem rwl_digits_spec (P : Platform) (p limit nl : Nat) (y xl : FFBI) (h1 : Heap)
    (hpl : limit ≠ p) (hg : h1.get p = some y) (hgl : h1.get limit = some xl)
    (hnl : nl ≤ y.digits.length) (hnl' : nl ≤ xl.digits.length)
    (hL : ∀ j, j < nl → xl.digits.getD j 0 < 2 ^ FFBI_BITS_PER_DIGIT P) :
    ∃ ds less h2, forDown (rwl_digit P p limit) nl (false, h1) = some (less, h2) ∧
      h2.get p = some { y with digits := ds } ∧ ds.length = y.digits.length ∧
      (∀ j, j < nl → ds.getD j 0 < 2 ^ FFBI_BITS_PER_DIGIT P) ∧
      (less = false → ∀ j, j < nl → ds.getD j 0 = xl.digits.getD j 0) ∧
      (less = true → digitsVal (FFBI_BITS_PER_DIGIT P) ds nl
        < digitsVal (FFBI_BITS_PER_DIGIT P) xl.digits nl) ∧
      Heap.sameBut p h1 h2 := by
  obtain ⟨s, e1, ds, e2, e3, e4, e5, e6, e7⟩ := forDown_inv (rwl_digit P p limit)
    (fun k s => ∃ ds, s.2.get p = some { y with digits := ds } ∧ ds.length = y.digits.length ∧
      (∀ j, k ≤ j → j < nl → ds.getD j 0 < 2 ^ FFBI_BITS_PER_DIGIT P) ∧
      (s.1 = false → ∀ j, k ≤ j → j < nl → ds.getD j 0 = xl.digits.getD j 0) ∧
      (s.1 = true → digitsFrom (FFBI_BITS_PER_DIGIT P) ds k (nl - k)
        < digitsFrom (FFBI_BITS_PER_DIGIT P) xl.digits k (nl - k)) ∧
      Heap.sameBut p h1 s.2)
    nl (false, h1)
    ⟨y.digits, hg, rfl, fun j h1 h2 => by omega, fun _ j h1 h2 => by omega,
      fun hc => Bool.noConfusion hc, Heap.sameBut_refl _ _⟩
    (by
      intro i t hi ⟨ds, t1, t2, t3, t4, t5, t6⟩
      have hglt : t.2.get limit = some xl := by rw [t6.1 limit hpl, hgl]
      obtain ⟨v, less', h', c1, c2, c3, c4, c5, c6⟩ := rwl_digit_spec P t.2 p limit i
        { y with digits := ds } xl t.1 hpl t1 hglt (by show i < ds.length; omega) (by omega)
        (hL i hi)
      have hsame : ∀ j, i + 1 ≤ j → (ds.set i v).getD j 0 = ds.getD j 0 := fun j hj =>
        getD_set_ne ds v (by omega)
      have hvi : (ds.set i v).getD i 0 = v := @getD_set_same ds i v (by omega)
      refine ⟨(less', h'), c1, ds.set i v, c2, by rw [List.length_set]; exact t2, ?_, ?_, ?_,
        Heap.sameBut_trans t6 c4⟩
      · intro j hj1 hj2
        by_cases hji : j = i
        · rw [hji, hvi]; exact c3
        · rw [hsame j (by omega)]; exact t3 j (by omega) hj2
      · intro hl j hj1 hj2
        obtain ⟨hl0, hv⟩ := c5 hl
        by_cases hji : j = i
        · rw [hji, hvi]; exact hv
        · rw [hsame j (by omega)]; exact t4 hl0 j (by omega) hj2
      · intro hl
        have hk : nl - i = (nl - (i + 1)) + 1 := by omega
        rw [hk, digitsFrom_cons, digitsFrom_cons, hvi,
          digitsFrom_congr _ (ds.set i v) ds (i + 1) _ (fun j h1 _ => hsame j h1)]
        generalize hX : digitsFrom (FFBI_BITS_PER_DIGIT P) ds (i + 1) (nl - (i + 1)) = X
        generalize hY : digitsFrom (FFBI_BITS_PER_DIGIT P) xl.digits (i + 1) (nl - (i + 1)) = Y
        generalize hB : 2 ^ FFBI_BITS_PER_DIGIT P = B at c3
        cases hless0 : t.1 with
        | true =>
          have hXY : X < Y := by
            have := t5 hless0
            rwa [hX, hY] at this
          have h1 : B * (X + 1) ≤ B * Y := Nat.mul_le_mul_left _ hXY
          rw [Nat.mul_add, Nat.mul_one] at h1
          omega
        | false =>
          have hXY : X = Y := by
            rw [← hX, ← hY]
            exact digitsFrom_congr _ _ _ _ _ (fun j h1 h2 => t4 hless0 j h1 (by omega))
          rcases c6 hl with hc | hc
          · rw [hless0] at hc; exact Bool.noConfusion hc
          · rw [hXY]; omega)
  refine ⟨ds, s.1, s.2, e1, e2, e3, fun j hj => e4 j (Nat.zero_le _) hj,
    fun hl j hj => e5 hl j (Nat.zero_le _) hj, fun hl => ?_, e7⟩
  have := e6 hl
  rwa [Nat.sub_zero, digitsFrom_zero, digitsFrom_zero] at this

/-- The loop that decrements the lowest non-zero digit. -/
theorem rwl_decrement_spec {h : Heap} {p : Nat} {y : FFBI} (ds : List Nat)
    (hg : h.get p = some { y with digits := ds }) :
    ∀ n i, i + n ≤ ds.length → (∃ j, i ≤ j ∧ j < i + n ∧ ds.getD j 0 ≠ 0) →
      ∃ i0, i0 < i + n ∧ ds.getD i0 0 ≠ 0 ∧
        rwl_decrement p n i h
          = some (h.upd p { y with digits := ds.set i0 (ds.getD i0 0 - 1) }) := by
  intro n
  induction n with
  | zero =>
    intro i _ ⟨j, h1, h2, _⟩
    omega
  | succ n ih =>
    intro i hl ⟨j, h1, h2, h3⟩
    show ∃ i0, _ ∧ _ ∧ obind (rdDigit h p i) _ = _
    rw [rdDigit_eq hg (by show i < ds.length; omega), obind_some]
    show ∃ i0, _ ∧ _ ∧ (if ds.getD i 0 > 0 then _ else _) = _
    by_cases hd : ds.getD i 0 > 0
    · rw [if_pos hd]
      refine ⟨i, by omega, by omega, ?_⟩
      rw [wrDigit_eq _ hg (by show i < ds.length; omega)]
    · rw [if_neg hd]
      have hji : j ≠ i := fun he => by rw [he] at h3; omega
      obtain ⟨i0, k1, k2, k3⟩ := ih (i + 1) (by omega) ⟨j, by omega, by omega, h3⟩
      exact ⟨i0, by omega, k2, k3⟩

theorem digitsVal_decrement (bits : Nat) (ds : List Nat) (i n : Nat) (hi : i < ds.length)
    (hin : i < n) (hd : ds.getD i 0 ≠ 0) :
    digitsVal bits (ds.set i (ds.getD i 0 - 1)) n < digitsVal bits ds n := by
  have h1 := digitsVal_set_add bits ds i (ds.getD i 0 - 1) hi n hin
  have h2 : ds.getD i 0 * 2 ^ (bits * i)
      = (ds.getD i 0 - 1) * 2 ^ (bits * i) + 2 ^ (bits * i) := by
    conv_lhs => rw [show ds.getD i 0 = ds.getD i 0 - 1 + 1 by omega]
    rw [Nat.add_mul, Nat.one_mul]
  have := Nat.two_pow_pos (bits * i)
  omega

theorem rwl_trim_spec (ds : List Nat) :
    ∀ n, n ≤ ds.length →
      ∃ n', rwl_trim ds n = some n' ∧ n' ≤ n ∧ (∀ j, n' ≤ j → j < n → ds.getD j 0 = 0) ∧
        (n' = 0 ∨ ds.getD (n' - 1) 0 ≠ 0) := by
  intro n
  induction n with
  | zero => intro _; exact ⟨0, rfl, Nat.le_refl _, fun j h1 h2 => by omega, Or.inl rfl⟩
  | succ n ih =>
    intro hl
    show ∃ n', obind (rd ds n) _ = _ ∧ _
    rw [rd_of_lt (by omega), obind_some]
    show ∃ n', (if ds.getD n 0 ≠ 0 then _ else _) = _ ∧ _
    by_cases hd : ds.getD n 0 ≠ 0
    · rw [if_pos hd]
      exact ⟨n + 1, rfl, Nat.le_refl _, fun j h1 h2 => by omega, Or.inr hd⟩
    · rw [if_neg hd]
      obtain ⟨n', k1, k2, k3, k4⟩ := ih (by omega)
      refine ⟨n', k1, by omega, fun j h1 h2 => ?_, k4⟩
      by_cases hjn : j = n
      · rw [hjn]; simpa using hd
      · exact k3 j h1 (by omega)

theorem digitsVal_trim_zero (bits : Nat) (ds : List Nat) (n' : Nat) :
    ∀ n, n' ≤ n → (∀ j, n' ≤ j → j < n → ds.getD j 0 = 0) →
      digitsVal bits ds n = digitsVal bits ds n' := by
  intro n
  induction n with
  | zero =>
    intro h _
    have : n' = 0 := by omega
    rw [this]
  | succ n ih =>
    intro h hz
    by_cases he : n' = n + 1
    · rw [he]
    · rw [digitsVal_succ, hz n (by omega) (by omega), Nat.zero_mul, Nat.add_zero]
      exact ih (by omega) (fun j h1 h2 => hz j h1 (by omega))

/-- `ffbi_random_with_limit(p, limit)` returns and leaves a value below the limit; the length
of the result may be 0 (when the value is 0). -/
theorem ffbi_random_with_limit_spec (P : Platform) (h : Heap) (p limit : Nat) (xp xl : FFBI)
    (hgp : h.get p = some xp) (hgl : h.get limit = some xl) (hpl : p ≠ limit)
    (cl : canonical P xl) (hpos : 0 < val P xl) (hvs : validStorage xp)
    (hr : xp.num_allocated_digits < xl.num_used_digits → xp.reallocation_allowed = true) :
    ∃ h' x', ffbi_random_with_limit P h p limit = some h' ∧ h'.get p = some x' ∧
      val P x' < val P xl ∧ x'.num_used_digits ≤ xl.num_used_digits ∧
      (∀ j, j < x'.num_used_digits → x'.digits.getD j 0 < 2 ^ FFBI_BITS_PER_DIGIT P) ∧
      (x'.num_used_digits = 0 ∨ x'.digits.getD (x'.num_used_digits - 1) 0 ≠ 0) ∧
      x'.cache_valid = false ∧ Heap.frame [p] h h' := by
  obtain ⟨h0, x0, r1, r2, r3, r4, _, _, _, _, _, _, r11, r12, r13⟩ := realloc_if_small P
    xl.num_used_digits xl.num_used_digits hgp hr hvs (Nat.le_refl _)
  have hgl0 : h0.get limit = some xl :=
    Heap.frame_get r11 hgl (by simpa using fun he => hpl he.symm)
  have hg1 := Heap.get_upd_same { x0 with num_used_digits := xl.num_used_digits } r2
  have hgl1 : (h0.upd p { x0 with num_used_digits := xl.num_used_digits }).get limit = some xl := by
    rw [Heap.get_upd_ne _ _ (Ne.symm hpl), hgl0]
  obtain ⟨ds, less, h2, f1, f2, f3, f4, f5, f6, f7⟩ := rwl_digits_spec P p limit
    xl.num_used_digits { x0 with num_used_digits := xl.num_used_digits } xl _ (Ne.symm hpl)
    hg1 hgl1 (by show xl.num_used_digits ≤ x0.digits.length; omega) cl.2.1 cl.2.2.1
  have f3 : ds.length = x0.digits.length := f3
  -- the state after the decrement
  obtain ⟨ds', h3, g1, g2, g3, g4, g5, g6⟩ : ∃ ds' h3,
      (if less = false then
        obind (h2.get p) fun xp => rwl_decrement p xp.num_used_digits 0 h2
        else some h2) = some h3 ∧
      h3.get p = some { x0 with num_used_digits := xl.num_used_digits, digits := ds' } ∧
      ds'.length = x0.digits.length ∧
      (∀ j, j < xl.num_used_digits → ds'.getD j 0 < 2 ^ FFBI_BITS_PER_DIGIT P) ∧
      digitsVal (FFBI_BITS_PER_DIGIT P) ds' xl.num_used_digits < val P xl ∧
      Heap.sameBut p h2 h3 := by
    cases hless : less with
    | true =>
      exact ⟨ds, h2, by simp, f2, f3, f4, f6 hless, Heap.sameBut_refl _ _⟩
    | false =>
      have heq := f5 hless
      have hval : digitsVal (FFBI_BITS_PER_DIGIT P) ds xl.num_used_digits = val P xl :=
        digitsVal_congr _ _ _ _ heq
      have hex : ∃ j, 0 ≤ j ∧ j < 0 + xl.num_used_digits ∧ ds.getD j 0 ≠ 0 := by
        by_contra hc
        have hz := digitsVal_zeros (FFBI_BITS_PER_DIGIT P) ds xl.num_used_digits (fun j hj => by
          by_contra hne
          exact hc ⟨j, Nat.zero_le _, by omega, hne⟩)
        omega
      obtain ⟨i0, k1, k2, k3⟩ := rwl_decrement_spec ds f2 xl.num_used_digits 0 (by omega) hex
      refine ⟨ds.set i0 (ds.getD i0 0 - 1), _, ?_, Heap.get_upd_same _ f2, by
        rw [List.length_set]; exact f3, ?_, ?_, Heap.sameBut_upd _ _ _⟩
      · simp only [if_true]
        rw [f2, obind_some]
        exact k3
      · intro j hj
        by_cases hji : j = i0
        · rw [hji, @getD_set_same ds i0 _ (by omega)]
          have := f4 i0 (by omega)
          omega
        · rw [getD_set_ne ds _ hji]
          exact f4 j hj
      · rw [← hval]
        exact digitsVal_decrement _ ds i0 _ (by omega) (by omega) k2
  obtain ⟨n', t1, t2, t3, htop⟩ := rwl_trim_spec ds' xl.num_used_digits (by omega)
  refine ⟨h3.upd p { x0 with num_used_digits := n', digits := ds', cache_valid := false },
    { x0 with num_used_digits := n', digits := ds', cache_valid := false }, ?_,
    Heap.get_upd_same _ g2, ?_, t2, fun j hj => g4 j (by
      have : j < n' := hj
      omega), htop, rfl, ?_⟩
  · unfold ffbi_random_with_limit
    rw [hgp, obind_some, hgl, obind_some, r1, obind_some, hgl0, obind_some, modify_eq _ r2,
      obind_some, hg1, obind_some]
    dsimp only
    rw [f1, obind_some]
    dsimp only
    rw [g1, obind_some, g2, obind_some]
    dsimp only
    rw [t1, obind_some, modify_eq _ g2]
  · show digitsVal (FFBI_BITS_PER_DIGIT P) ds' n' < _
    rw [← digitsVal_trim_zero _ ds' n' _ t2 t3]
    exact g5
  · exact Heap.frame_trans r11 (Heap.frame_trans (Heap.frame_upd _ _ _)
      (Heap.frame_trans (Heap.sameBut_frame (Heap.sameBut_trans f7 g6)) (Heap.frame_upd _ _ _)
        (fun _ hq => hq)) (fun _ hq => hq)) (fun _ hq => hq)

/-- C13: for every canonical limit `L > 0` and every random sequence (the field `rand` of the
heap is arbitrary), `ffbi_random_with_limit(p, L)` returns and leaves `val(p) < val(L)`.  `p` is
a bigint other than `L` that can grow or has room for the digits of `L`. -/
theorem ffbi_random_with_limit_below_limit (P : Platform) (h : Heap) (p limit : Nat)
    (xp xl : FFBI) (hgp : h.get p = some xp) (hgl : h.get limit = some xl) (hpl : p ≠ limit)
    (cl : canonical P xl) (hpos : 0 < val P xl) (hvs : validStorage xp)
    (hr : xp.num_allocated_digits < xl.num_used_digits → xp.reallocation_allowed = true) :
    ∃ h' x', ffbi_random_with_limit P h p limit = some h' ∧ h'.get p = some x' ∧
      val P x' < val P xl := by
  obtain ⟨h', x', e1, e2, e3, _⟩ :=
    ffbi_random_with_limit_spec P h p limit xp xl hgp hgl hpl cl hpos hvs hr
  exact ⟨h', x', e1, e2, e3⟩

/-- Witness for C13: the limit `7 * 2^61 + 5` on the 61-bit configuration with the random
sequence `12345 * k + 77`. -/
theorem ffbi_random_with_limit_below_limit_witness :
    (canonical .gnu128 (exBig [5, 7, 0] 2) ∧ 0 < val .gnu128 (exBig [5, 7, 0] 2)) ∧
    ∃ h' x', ffbi_random_with_limit .gnu128
        (exHeapR [exBig [0, 0, 0] 1, exBig [5, 7, 0] 2] [] 0 (fun k => 12345 * k + 77)) 0 1
        = some h' ∧ h'.get 0 = some x' ∧ val .gnu128 x' < val .gnu128 (exBig [5, 7, 0] 2) :=
  ⟨⟨by decide, by decide⟩,
   ffbi_random_with_limit_below_limit .gnu128
    (exHeapR [exBig [0, 0, 0] 1, exBig [5, 7, 0] 2] [] 0 (fun k => 12345 * k + 77)) 0 1
    (exBig [0, 0, 0] 1) (exBig [5, 7, 0] 2) rfl rfl (by decide) (by decide) (by decide)
    ⟨by decide, fun c hc => Option.noConfusion hc⟩ (fun _ => rfl)⟩


/-! # The sieve: the array of flags -/

theorem sieve_scan_spec (arr : List Nat) :
    ∀ cnt k, k + cnt ≤ arr.length →
      ∃ k', sieve_scan arr cnt k = some k' ∧ k ≤ k' ∧ k' ≤ k + cnt ∧
        (∀ j, k ≤ j → j < k' → arr.getD j 0 ≠ 1) ∧ (k' < k + cnt → arr.getD k' 0 = 1) := by
  intro cnt
  induction cnt with
  | zero =>
    intro k _
    exact ⟨k, rfl, Nat.le_refl _, Nat.le_refl _, fun j h1 h2 => by omega, fun h => by omega⟩
  | succ cnt ih =>
    intro k hl
    show ∃ k', obind (rd arr k) _ = _ ∧ _
    rw [rd_of_lt (by omega), obind_some]
    show ∃ k', (if arr.getD k 0 = 1 then _ else _) = _ ∧ _
    by_cases h1 : arr.getD k 0 = 1
    · rw [if_pos h1]
      exact ⟨k, rfl, Nat.le_refl _, by omega, fun j h1 h2 => by omega, fun _ => h1⟩
    · rw [if_neg h1]
      obtain ⟨k', e1, e2, e3, e4, e5⟩ := ih (k + 1) (by omega)
      refine ⟨k', e1, by omega, by omega, fun j hj1 hj2 => ?_, fun hlt => e5 (by omega)⟩
      by_cases hjk : j = k
      · rw [hjk]; exact h1
      · exact e4 j (by omega) hj2

theorem sieve_cross_spec (k n : Nat) (hk : 0 < k) :
    ∀ fuel i arr, n ≤ i + fuel → arr.length = n →
      ∃ arr', sieve_cross k n fuel i arr = some arr' ∧ arr'.length = n ∧
        (∀ m, (∃ t, m = i + t * k) → m < n → arr'.getD m 0 = 0) ∧
        (∀ m, ¬ ((∃ t, m = i + t * k) ∧ m < n) → arr'.getD m 0 = arr.getD m 0) := by
  intro fuel
  induction fuel with
  | zero =>
    intro i arr hn hl
    refine ⟨arr, ?_, hl, fun m ⟨t, ht⟩ hm => ?_, fun _ _ => rfl⟩
    · show (if i < n then none else some arr) = _
      rw [if_neg (by omega)]
    · have : i ≤ i + t * k := Nat.le_add_right _ _
      omega
  | succ fuel ih =>
    intro i arr hn hl
    show ∃ arr', (if i < n then _ else _) = _ ∧ _
    by_cases hin : i < n
    · rw [if_pos hin, wr_of_lt _ (by omega), obind_some]
      obtain ⟨arr', e1, e2, e3, e4⟩ := ih (i + k) (arr.set i 0) (by omega)
        (by rw [List.length_set]; exact hl)
      have hiff : ∀ m, m ≠ i → ((∃ t, m = i + k + t * k) ↔ ∃ t, m = i + t * k) := by
        intro m hmi
        constructor
        · rintro ⟨t, ht⟩
          exact ⟨t + 1, by rw [ht, Nat.add_mul, Nat.one_mul]; omega⟩
        · rintro ⟨t, ht⟩
          cases t with
          | zero => simp at ht; exact absurd ht hmi
          | succ t => exact ⟨t, by rw [ht, Nat.add_mul, Nat.one_mul]; omega⟩
      have hnot : ¬ ((∃ t, i = i + k + t * k) ∧ i < n) := by
        rintro ⟨⟨t, ht⟩, _⟩
        have : i + k ≤ i + k + t * k := Nat.le_add_right _ _
        omega
      refine ⟨arr', e1, e2, fun m hm1 hm2 => ?_, fun m hm => ?_⟩
      · by_cases hmi : m = i
        · subst hmi
          rw [e4 m hnot]
          exact @getD_set_same arr m 0 (by omega)
        · exact e3 m ((hiff m hmi).mpr hm1) hm2
      · have hmi : m ≠ i := fun he => hm ⟨⟨0, by simp [he]⟩, by omega⟩
        rw [e4 m (fun hc => hm ⟨(hiff m hmi).mp hc.1, hc.2⟩), getD_set_ne arr 0 hmi]
    · rw [if_neg hin]
      refine ⟨arr, rfl, hl, fun m ⟨t, ht⟩ hm => ?_, fun _ _ => rfl⟩
      have : i ≤ i + t * k := Nat.le_add_right _ _
      omega

theorem sieveInv_init (n : Nat) : sieveInv n 2 (List.replicate n 1) := by
  have hget : ∀ m, m < n → (List.replicate n 1).getD m 0 = 1 := fun m hm => by
    simp [List.getD_eq_getElem?_getD, List.getElem?_replicate, hm]
  refine ⟨List.length_replicate _ _, fun m hm => Or.inr (hget m hm), fun m _ hm => ?_⟩
  rw [hget m hm]
  constructor
  · intro h; omega
  · rintro ⟨q, hq, hq2, _⟩
    have := hq.two_le
    omega

theorem sieveInv_skip {n k : Nat} {arr : List Nat} (hI : sieveInv n k arr) (hk : 2 ≤ k)
    (hkn : k < n) (hf : arr.getD k 0 ≠ 1) : sieveInv n (k + 1) arr := by
  obtain ⟨h1, h2, h3⟩ := hI
  have h0 : arr.getD k 0 = 0 := by
    rcases h2 k hkn with h | h
    · exact h
    · exact absurd h hf
  obtain ⟨q, hq, hqk, hqd, _⟩ := (h3 k hk hkn).mp h0
  have hnp : ¬ Nat.Prime k := fun hp => by
    rcases (Nat.dvd_prime hp).mp hqd with h | h
    · have := hq.two_le; omega
    · omega
  refine ⟨h1, h2, fun m hm1 hm2 => (h3 m hm1 hm2).trans ?_⟩
  constructor
  · rintro ⟨q', a, b, c, d⟩
    exact ⟨q', a, by omega, c, d⟩
  · rintro ⟨q', a, b, c, d⟩
    have : q' ≠ k := fun he => hnp (he ▸ a)
    exact ⟨q', a, by omega, c, d⟩

theorem sieveInv_skips {n : Nat} {arr : List Nat} :
    ∀ d k, sieveInv n k arr → 2 ≤ k → k + d ≤ n →
      (∀ j, k ≤ j → j < k + d → arr.getD j 0 ≠ 1) → sieveInv n (k + d) arr := by
  intro d
  induction d with
  | zero => intro k hI _ _ _; exact hI
  | succ d ih =>
    intro k hI hk hkn hf
    have := ih (k + 1) (sieveInv_skip hI hk (by omega) (hf k (Nat.le_refl _) (by omega)))
      (by omega) (by omega) (fun j h1 h2 => hf j (by omega) (by omega))
    rwa [show k + 1 + d = k + (d + 1) by omega] at this

theorem prime_of_flag {n k : Nat} {arr : List Nat} (hI : sieveInv n k arr) (hk : 2 ≤ k)
    (hkn : k < n) (hf : arr.getD k 0 = 1) : Nat.Prime k := by
  by_contra hnp
  have hlt := (Nat.not_prime_iff_minFac_lt hk).mp hnp
  have hmp := Nat.minFac_prime (show k ≠ 1 by omega)
  have := (hI.2.2 k hk hkn).mpr ⟨k.minFac, hmp, hlt, Nat.minFac_dvd k, hlt⟩
  omega

theorem multiple_iff {k m : Nat} (hk : 0 < k) :
    (∃ t, m = k * 2 + t * k) ↔ k ∣ m ∧ k < m := by
  constructor
  · rintro ⟨t, ht⟩
    refine ⟨⟨t + 2, by rw [ht]; ring⟩, ?_⟩
    have : 0 ≤ t * k := Nat.zero_le _
    omega
  · rintro ⟨⟨c, hc⟩, hlt⟩
    have hc2 : 2 ≤ c := by
      by_contra hne
      have : c = 0 ∨ c = 1 := by omega
      rcases this with h | h
      · rw [h, Nat.mul_zero] at hc; omega
      · rw [h, Nat.mul_one] at hc; omega
    refine ⟨c - 2, ?_⟩
    rw [hc]
    obtain ⟨e, rfl⟩ : ∃ e, c = e + 2 := ⟨c - 2, by omega⟩
    rw [Nat.add_sub_cancel]
    ring

theorem sieveInv_cross {n k : Nat} {arr arr' : List Nat} (hI : sieveInv n k arr)
    (hp : Nat.Prime k) (hl : arr'.length = n)
    (h0 : ∀ m, (∃ t, m = k * 2 + t * k) → m < n → arr'.getD m 0 = 0)
    (h1 : ∀ m, ¬ ((∃ t, m = k * 2 + t * k) ∧ m < n) → arr'.getD m 0 = arr.getD m 0) :
    sieveInv n (k + 1) arr' := by
  obtain ⟨i1, i2, i3⟩ := hI
  have hk : 0 < k := hp.pos
  refine ⟨hl, fun m hm => ?_, fun m hm1 hm2 => ?_⟩
  · by_cases hc : ∃ t, m = k * 2 + t * k
    · exact Or.inl (h0 m hc hm)
    · rw [h1 m (fun h => hc h.1)]
      exact i2 m hm
  · by_cases hc : ∃ t, m = k * 2 + t * k
    · have hd := (multiple_iff hk).mp hc
      exact ⟨fun _ => ⟨k, hp, by omega, hd.1, hd.2⟩, fun _ => h0 m hc hm2⟩
    · rw [h1 m (fun h => hc h.1)]
      refine (i3 m hm1 hm2).trans ⟨?_, ?_⟩
      · rintro ⟨q, a, b, c, d⟩
        exact ⟨q, a, by omega, c, d⟩
      · rintro ⟨q, a, b, c, d⟩
        have : q ≠ k := fun he => hc ((multiple_iff hk).mpr ⟨he ▸ c, he ▸ d⟩)
        exact ⟨q, a, by omega, c, d⟩

theorem sieveInv_final {n : Nat} {arr : List Nat} (hI : sieveInv n (n / 2 + 1) arr) :
    ∀ m, 2 ≤ m → m < n → (arr.getD m 0 = 1 ↔ Nat.Prime m) := by
  intro m hm1 hm2
  obtain ⟨_, i2, i3⟩ := hI
  constructor
  · intro hf
    by_contra hnp
    have hlt := (Nat.not_prime_iff_minFac_lt hm1).mp hnp
    have hmp := Nat.minFac_prime (show m ≠ 1 by omega)
    obtain ⟨c, hc⟩ := Nat.minFac_dvd m
    have hc2 : 2 ≤ c := by
      by_contra hne
      have : c = 0 ∨ c = 1 := by omega
      rcases this with h | h
      · rw [h, Nat.mul_zero] at hc; omega
      · rw [h, Nat.mul_one] at hc; omega
    have h2 : m.minFac * 2 ≤ m := by
      conv_rhs => rw [hc]
      exact Nat.mul_le_mul_left _ hc2
    have := (i3 m hm1 hm2).mpr ⟨m.minFac, hmp, by omega, Nat.minFac_dvd m, hlt⟩
    omega
  · intro hp
    rcases i2 m hm2 with h | h
    · obtain ⟨q, a, _, c, d⟩ := (i3 m hm1 hm2).mp h
      rcases (Nat.dvd_prime hp).mp c with h' | h'
      · have := a.two_le; omega
      · omega
    · exact h

/-- The loop `while (1)` of `ffbi_get_sieve` terminates within the given bound and leaves the
flag array with all primes up to `n / 2` processed. -/
theorem sieve_outer_spec (n : Nat) (hn : 3 ≤ n) :
    ∀ fuel k arr, 2 ≤ k → k ≤ n / 2 + 1 → n / 2 + 1 - k < fuel → sieveInv n k arr →
      ∃ arr', sieve_outer n (n / 2 + 1) fuel k arr = some arr' ∧ sieveInv n (n / 2 + 1) arr' := by
  intro fuel
  induction fuel with
  | zero => intro k arr _ _ hf _; omega
  | succ fuel ih =>
    intro k arr hk hke hf hI
    obtain ⟨k', e1, e2, e3, e4, e5⟩ := sieve_scan_spec arr (n / 2 + 1 - k) k
      (by rw [hI.1]; omega)
    have hI' : sieveInv n k' arr := by
      have := sieveInv_skips (k' - k) k hI hk (by omega)
        (fun j h1 h2 => e4 j h1 (by omega))
      rwa [show k + (k' - k) = k' by omega] at this
    show ∃ arr', obind (sieve_scan arr (n / 2 + 1 - k) k) _ = _ ∧ _
    rw [e1, obind_some]
    show ∃ arr', (if k' = n / 2 + 1 then _ else _) = _ ∧ _
    by_cases hend : k' = n / 2 + 1
    · rw [if_pos hend]
      exact ⟨arr, rfl, hend ▸ hI'⟩
    · rw [if_neg hend]
      have hk'n : k' < n := by omega
      have hp := prime_of_flag hI' (by omega) hk'n (e5 (by omega))
      obtain ⟨arr1, c1, c2, c3, c4⟩ := sieve_cross_spec k' n hp.pos n (k' * 2) arr (by omega) hI.1
      rw [c1, obind_some]
      exact ih (k' + 1) arr1 (by omega) (by omega) (by omega) (sieveInv_cross hI' hp c2 c3 c4)


/-! # The sieve: counting and storing the primes -/

theorem sieve_count_spec (arr : List Nat) :
    ∀ len a c, a + len ≤ arr.length →
      forUp (fun k c => obind (rd arr k) fun v => some (if v = 1 then c + 1 else c)) len a c
        = some (c + ((List.range' a len).filter (fun k => decide (arr.getD k 0 = 1))).length) := by
  intro len
  induction len with
  | zero => intro a c _; rfl
  | succ len ih =>
    intro a c hl
    show obind (obind (rd arr a) _) _ = _
    rw [rd_of_lt (by omega), obind_some, obind_some, ih (a + 1) _ (by omega), List.range'_succ,
      List.filter_cons]
    by_cases h1 : arr.getD a 0 = 1
    · simp only [h1, if_true, decide_True, List.length_cons]
      congr 1
      omega
    · simp only [h1, if_false, decide_False]
      rfl

theorem oddPrimesBelow_succ (k : Nat) (hk : 3 ≤ k) :
    oddPrimesBelow (k + 1) = oddPrimesBelow k ++ (if Nat.Prime k then [k] else []) := by
  unfold oddPrimesBelow
  rw [show k + 1 - 3 = (k - 3) + 1 by omega, List.range'_concat, List.filter_append,
    Nat.one_mul, show 3 + (k - 3) = k by omega]
  congr 1
  by_cases hp : Nat.Prime k
  · simp [hp]
  · simp [hp]

theorem oddPrimesBelow_length_mono {a b : Nat} (ha : 3 ≤ a) (hab : a ≤ b) :
    (oddPrimesBelow a).length ≤ (oddPrimesBelow b).length := by
  unfold oddPrimesBelow
  have h := List.range'_append 3 (a - 3) (b - a) 1
  rw [Nat.one_mul, show b - a + (a - 3) = b - 3 by omega] at h
  rw [← h, List.filter_append, List.length_append]
  omega

theorem mem_oddPrimesBelow {n v : Nat} :
    v ∈ oddPrimesBelow n ↔ Nat.Prime v ∧ v % 2 = 1 ∧ v < n := by
  unfold oddPrimesBelow
  rw [List.mem_filter, List.mem_range'_1, decide_eq_true_iff]
  constructor
  · rintro ⟨⟨h1, h2⟩, hp⟩
    refine ⟨hp, ?_, by omega⟩
    rcases hp.eq_two_or_odd with h | h
    · omega
    · exact h
  · rintro ⟨hp, hodd, hlt⟩
    have := hp.two_le
    exact ⟨⟨by omega, by omega⟩, hp⟩

theorem sieve_digit_eq (P : Platform) (k j : Nat) :
    (k >>> (j * FFBI_BITS_PER_DIGIT P)) &&& digit_max P
      = bitsOf k (FFBI_BITS_PER_DIGIT P * j) (FFBI_BITS_PER_DIGIT P) := by
  rw [land_digit_max_eq, Nat.shiftRight_eq_div_pow, Nat.mul_comm]
  rfl

/-- The statements of `ffbi_get_sieve` that store the value `k` in a sieve entry: the digit
loop and the trimming loop. -/
theorem sieve_store_value (P : Platform) (h : Heap) (q k nd : Nat) (xq : FFBI)
    (hg : h.get q = some xq) (hnd : 1 ≤ nd) (hl : nd ≤ xq.digits.length)
    (hk : k < 2 ^ (FFBI_BITS_PER_DIGIT P * nd)) :
    ∃ ds j, forUp (fun j h =>
          wrDigit h q j ((k >>> (j * FFBI_BITS_PER_DIGIT P)) &&& digit_max P)) nd 0 h
        = some (h.withDigits q xq ds) ∧
      trim_loop ds (nd - 1) = some j ∧
      ds.length = xq.digits.length ∧ j + 1 ≤ nd ∧
      canonical P { xq with digits := ds, num_used_digits := j + 1 } ∧
      val P { xq with digits := ds, num_used_digits := j + 1 } = k := by
  obtain ⟨h1, e1, ds, e2, e3, e4⟩ := forUp_inv
    (fun j h => wrDigit h q j ((k >>> (j * FFBI_BITS_PER_DIGIT P)) &&& digit_max P))
    (fun j h1 => ∃ ds, h1 = h.withDigits q xq ds ∧ ds.length = xq.digits.length ∧
      ∀ i, i < j → ds.getD i 0 = bitsOf k (FFBI_BITS_PER_DIGIT P * i) (FFBI_BITS_PER_DIGIT P))
    nd 0 h ⟨xq.digits, (Heap.withDigits_self hg).symm, rfl, fun i hi => absurd hi (Nat.not_lt_zero i)⟩
    (by
      intro j t _ hj ⟨ds, t1, t2, t3⟩
      subst t1
      refine ⟨_, wrDigit_withDigits _ hg (by omega), ds.set j _, rfl, by
        rw [List.length_set]; exact t2, fun i hi => ?_⟩
      by_cases hij : i = j
      · subst hij
        rw [@getD_set_same ds i _ (by omega), sieve_digit_eq]
      · rw [getD_set_ne ds _ hij]
        exact t3 i (by omega))
  subst e2
  rw [Nat.zero_add] at e4
  obtain ⟨j, t1, t2, t3, t4⟩ := trim_loop_spec ds (nd - 1) (by omega)
  have hval : digitsVal (FFBI_BITS_PER_DIGIT P) ds (j + 1) = k := by
    rw [← digitsVal_trim (FFBI_BITS_PER_DIGIT P) ds j nd (by omega)
      (fun i h1 h2 => t3 i h1 (by omega)), digitsVal_of_bits _ k ds nd e4, Nat.mod_eq_of_lt hk]
  refine ⟨ds, j, e1, t1, e3, by omega, ⟨by show 1 ≤ j + 1; omega,
    by show j + 1 ≤ ds.length; omega, fun i hi => ?_, ?_⟩, hval⟩
  · have hi' : i < j + 1 := hi
    show ds.getD i 0 < _
    rw [e4 i (by omega)]
    exact bitsOf_lt _ _ _
  · show j + 1 = 1 ∨ ds.getD (j + 1 - 1) 0 ≠ 0
    rcases t4 with h0 | h0
    · exact Or.inl (by omega)
    · exact Or.inr (by rwa [Nat.add_sub_cancel])

/-- The loop of `ffbi_get_sieve` that stores the primes into the fresh entries. -/
theorem sieve_store_loop (P : Platform) (n np L nd : Nat) (arr : List Nat) (h1 : Heap)
    (hn : 3 ≤ n) (harr : arr.length = n)
    (hprime : ∀ m, 2 ≤ m → m < n → (arr.getD m 0 = 1 ↔ Nat.Prime m))
    (hnp : np = (oddPrimesBelow n).length) (hnd : 1 ≤ nd) (hcap : nd ≤ FFBI_MIN_ALLOC_DIGITS)
    (hbits : n ≤ 2 ^ (FFBI_BITS_PER_DIGIT P * nd))
    (hfresh : ∀ j, j < np → ∃ a, h1.get (L + j) = some (newRecord a FFBI_MIN_ALLOC_DIGITS true) ∧
      a.length = FFBI_MIN_ALLOC_DIGITS) :
    ∃ (h2 : Heap) (xs : List FFBI),
      forUp (sieve_store P (List.range' L np) arr nd) (n - 3) 3 (0, h1) = some (np, h2) ∧
      xs.length = np ∧ xs.map (val P) = oddPrimesBelow n ∧
      (∀ x, x ∈ xs → wellFormed P x ∧ x.reallocation_allowed = true ∧ x.cache_valid = false) ∧
      (∀ j, j < np → h2.get (L + j) = xs[j]?) ∧
      (∀ q, (q < L ∨ L + np ≤ q) → h2.get q = h1.get q) ∧
      h2.obj.length = h1.obj.length ∧ h2.scr = h1.scr := by
  obtain ⟨s, e1, xs, e2, e3, e4, e5, e6, e7, e8, e9⟩ := forUp_inv
    (sieve_store P (List.range' L np) arr nd)
    (fun k s => ∃ xs, xs.length = s.1 ∧ xs.map (val P) = oddPrimesBelow k ∧
      (∀ x, x ∈ xs → wellFormed P x ∧ x.reallocation_allowed = true ∧ x.cache_valid = false) ∧
      (∀ j, j < s.1 → s.2.get (L + j) = xs[j]?) ∧
      (∀ j, s.1 ≤ j → j < np →
        ∃ a, s.2.get (L + j) = some (newRecord a FFBI_MIN_ALLOC_DIGITS true) ∧
          a.length = FFBI_MIN_ALLOC_DIGITS) ∧
      (∀ q, (q < L ∨ L + np ≤ q) → s.2.get q = h1.get q) ∧
      s.2.obj.length = h1.obj.length ∧ s.2.scr = h1.scr)
    (n - 3) 3 (0, h1)
    ⟨[], rfl, rfl, fun x hx => absurd hx (List.not_mem_nil x), fun j hj => absurd hj (Nat.not_lt_zero j),
      fun j _ hj => hfresh j hj, fun _ _ => rfl, rfl, rfl⟩
    (by
      intro k t hk1 hk2 ⟨xs, t1, t2, t3, t4, t5, t6, t7, t8⟩
      have hkn : k < n := by omega
      unfold sieve_store
      rw [rd_of_lt (by omega), obind_some]
      have hsucc := oddPrimesBelow_succ k hk1
      by_cases hf : arr.getD k 0 = 1
      · have hp : Nat.Prime k := (hprime k (by omega) hkn).mp hf
        rw [if_pos hp] at hsucc
        have hi : t.1 < np := by
          have := oddPrimesBelow_length_mono (show 3 ≤ k + 1 by omega) (show k + 1 ≤ n by omega)
          rw [hsucc, List.length_append, ← t2, List.length_map, t1] at this
          rw [hnp]
          exact this
        obtain ⟨a, g1, g2⟩ := t5 t.1 (Nat.le_refl _) hi
        obtain ⟨ds, j, c1, c2, c3, c4, c5, c6⟩ := sieve_store_value P t.2 (L + t.1) k nd _ g1
          hnd (by show nd ≤ a.length; omega) (Nat.lt_of_lt_of_le hkn hbits)
        rw [if_pos hf, List.getElem?_range' L 1 hi, obind_some, Nat.one_mul, c1, obind_some,
          Heap.withDigits_get ds g1, obind_some]
        dsimp only
        rw [c2, obind_some, modify_eq _ (Heap.withDigits_get ds g1), obind_some]
        unfold Heap.withDigits
        rw [Heap.upd_upd]
        have c3 : ds.length = a.length := c3
        refine ⟨_, rfl, xs ++ [{ newRecord a FFBI_MIN_ALLOC_DIGITS true with
            digits := ds, num_used_digits := j + 1 }], ?_, ?_, ?_, ?_, ?_, ?_, ?_, ?_⟩
        · rw [List.length_append, t1]; rfl
        · rw [List.map_append, t2, hsucc]
          congr 1
          show [val P _] = [k]
          rw [c6]
        · intro x hx
          rw [List.mem_append, List.mem_singleton] at hx
          rcases hx with hx | hx
          · exact t3 x hx
          · subst hx
            refine ⟨⟨c5, ?_, ⟨?_, fun c hc => Option.noConfusion hc⟩⟩, rfl, rfl⟩
            · show j + 1 ≤ FFBI_MIN_ALLOC_DIGITS
              omega
            · show FFBI_MIN_ALLOC_DIGITS ≤ ds.length
              omega
        · intro i hi'
          have hi'' : i < t.1 + 1 := hi'
          by_cases hit : i = t.1
          · subst hit
            rw [Heap.get_upd_same _ g1, List.getElem?_append_right (by omega), t1, Nat.sub_self]
            rfl
          · rw [Heap.get_upd_ne _ _ (by omega), t4 i (by omega),
              List.getElem?_append_left (by omega)]
        · intro i hi1 hi2
          have hi1' : t.1 + 1 ≤ i := hi1
          rw [Heap.get_upd_ne _ _ (by omega)]
          exact t5 i (by omega) hi2
        · intro q' hq'
          rw [Heap.get_upd_ne _ _ (by omega)]
          exact t6 q' hq'
        · rw [Heap.upd_obj_length]; exact t7
        · exact t8
      · have hp : ¬ Nat.Prime k := fun hp => hf ((hprime k (by omega) hkn).mpr hp)
        rw [if_neg hp, List.append_nil] at hsucc
        rw [if_neg hf]
        exact ⟨t, rfl, xs, t1, by rw [hsucc]; exact t2, t3, t4, t5, t6, t7, t8⟩)
  rw [show 3 + (n - 3) = n by omega] at e3
  have hs1 : s.1 = np := by rw [hnp, ← e3, List.length_map, e2]
  refine ⟨s.2, xs, ?_, by rw [e2, hs1], e3, e4, fun j hj => e5 j (by omega), e7, e8, e9⟩
  rw [e1, ← hs1]

theorem sieve_num_digits (P : Platform) :
    1 ≤ 32 / FFBI_BITS_PER_DIGIT P + (if 32 % FFBI_BITS_PER_DIGIT P > 0 then 1 else 0) ∧
    32 / FFBI_BITS_PER_DIGIT P + (if 32 % FFBI_BITS_PER_DIGIT P > 0 then 1 else 0)
      ≤ FFBI_MIN_ALLOC_DIGITS ∧
    32 ≤ FFBI_BITS_PER_DIGIT P
      * (32 / FFBI_BITS_PER_DIGIT P + (if 32 % FFBI_BITS_PER_DIGIT P > 0 then 1 else 0)) := by
  cases P <;> decide

/-- `ffbi_get_sieve(sieve, n)` for `3 <= n < 2^31`: the arena holds new bigints whose values
are the odd primes below `n` in ascending order; the other bigints are unchanged. -/
theorem ffbi_get_sieve_spec (P : Platform) (h : Heap) (sieve n : Nat) (sc : FFBI_SCRATCH)
    (hs : h.scr[sieve]? = some sc) (hn : 3 ≤ n) (hn31 : n < 2 ^ 31) :
    ∃ (h' : Heap) (xs : List FFBI), ffbi_get_sieve P h sieve n = some h' ∧
      h'.scr = h.scr.set sieve { sc with val := List.range' h.obj.length xs.length } ∧
      h'.obj.length = h.obj.length + xs.length ∧
      (∀ q, q < h.obj.length → h'.get q = h.get q) ∧
      (∀ j, j < xs.length → h'.get (h.obj.length + j) = xs[j]?) ∧
      (∀ x, x ∈ xs → wellFormed P x ∧ x.reallocation_allowed = true ∧ x.cache_valid = false) ∧
      xs.map (val P) = oddPrimesBelow n := by
  obtain ⟨d1, d2, d3⟩ := sieve_num_digits P
  generalize hnd : 32 / FFBI_BITS_PER_DIGIT P + (if 32 % FFBI_BITS_PER_DIGIT P > 0 then 1 else 0)
    = nd at d1 d2 d3
  obtain ⟨arr, a1, a2⟩ := sieve_outer_spec n hn (n / 2 + 1 + 1) 2 (List.replicate n 1)
    (Nat.le_refl _) (by omega) (by omega) (sieveInv_init n)
  have hprime := sieveInv_final a2
  have hcount := sieve_count_spec arr (n - 3) 3 0 (by rw [a2.1]; omega)
  have hfilter : (List.range' 3 (n - 3)).filter (fun k => decide (arr.getD k 0 = 1))
      = oddPrimesBelow n := by
    unfold oddPrimesBelow
    apply List.filter_congr
    intro k hk
    rw [List.mem_range'_1] at hk
    exact decide_eq_decide.mpr (hprime k (by omega) (by omega))
  rw [hfilter, Nat.zero_add] at hcount
  have halloc : (if nd < FFBI_MIN_ALLOC_DIGITS then FFBI_MIN_ALLOC_DIGITS else nd)
      = FFBI_MIN_ALLOC_DIGITS := by
    split
    · rfl
    · omega
  obtain ⟨h1, f1, f2, f3, f4, f5⟩ := scratch_fill_spec P FFBI_MIN_ALLOC_DIGITS
    (oddPrimesBelow n).length [] h
  rw [List.nil_append] at f1
  obtain ⟨h2, xs, g1, g2, g3, g4, g5, g6, g7, g8⟩ := sieve_store_loop P n
    (oddPrimesBelow n).length h.obj.length nd arr
    { h1 with scr := h1.scr.set sieve { sc with val := List.range' h.obj.length (oddPrimesBelow n).length } }
    hn a2.1 hprime rfl d1 d2
    (Nat.le_trans (Nat.le_of_lt (Nat.lt_of_lt_of_le hn31 (by decide : 2 ^ 31 ≤ 2 ^ 32)))
      (Nat.pow_le_pow_right (by decide) d3))
    (fun j hj => by
      obtain ⟨a, k1, k2⟩ := f5 j hj
      exact ⟨a, k1, k2⟩)
  refine ⟨h2, xs, ?_, ?_, ?_, ?_, ?_, g4, g3⟩
  · unfold ffbi_get_sieve
    rw [if_neg (by omega), if_neg (by omega)]
    dsimp only
    rw [a1, obind_some, hcount, obind_some, hs, obind_some, hnd, halloc, f1, obind_some]
    dsimp only
    rw [g1, obind_some]
  · rw [g8, g2]
    show h1.scr.set sieve _ = _
    rw [f3]
  · rw [g7, g2]
    exact f2
  · intro q hq
    rw [g6 q (Or.inl hq)]
    exact f4 q hq
  · intro j hj
    exact g5 j (by omega)

/-- The sieve for a bound that fits an `int`: for every `3 <= n < 2^31`, `ffbi_get_sieve`
returns and the values of the sieve are canonical bigints in strictly ascending order, each an
odd prime below `n`, and every odd prime below `n` is among them (once, the order being
strict); for `n < 3` the call changes nothing. -/
theorem ffbi_get_sieve_correct (P : Platform) (h : Heap) (sieve n : Nat) (sc : FFBI_SCRATCH)
    (hs : h.scr[sieve]? = some sc) :
    (3 ≤ n → n < 2 ^ 31 →
      ∃ (h' : Heap) (vals : List Nat) (xs : List FFBI),
        ffbi_get_sieve P h sieve n = some h' ∧ h'.scr[sieve]? = some { sc with val := vals } ∧
        List.Forall₂ (fun q x => h'.get q = some x) vals xs ∧
        (∀ x, x ∈ xs → canonical P x) ∧
        List.Pairwise (fun a b => a < b) (xs.map (val P)) ∧
        ∀ v, v ∈ xs.map (val P) ↔ (Nat.Prime v ∧ v % 2 = 1 ∧ v < n)) ∧
    (n < 3 → ffbi_get_sieve P h sieve n = some h) := by
  refine ⟨fun hn hn31 => ?_, fun hn => ?_⟩
  · obtain ⟨h', xs, e1, e2, e3, e4, e5, e6, e7⟩ := ffbi_get_sieve_spec P h sieve n sc hs hn hn31
    refine ⟨h', List.range' h.obj.length xs.length, xs, e1, ?_, ?_, fun x hx => (e6 x hx).1.1,
      ?_, ?_⟩
    · rw [e2, List.getElem?_set_self (List.getElem?_eq_some.mp hs).1]
    · rw [List.forall₂_iff_get]
      refine ⟨List.length_range' _ _ _, fun i h1 h2 => ?_⟩
      have := e5 i h2
      rw [List.getElem?_eq_getElem h2] at this
      simpa using this
    · rw [e7]
      exact List.Pairwise.filter _ (List.pairwise_lt_range' 3 (n - 3))
    · intro v
      rw [e7]
      exact mem_oddPrimesBelow
  · unfold ffbi_get_sieve
    rw [if_pos hn]

/-- Example: the sieve for `n = 30` on the 29-bit configuration. -/
theorem ffbi_get_sieve_correct_witness :
    ∃ (h' : Heap) (vals : List Nat) (xs : List FFBI),
      ffbi_get_sieve .generic64
        (exHeapR [] [{ val := [], child := none, num_children := 0 }] 0 (fun _ => 0)) 0 30
        = some h' ∧
      h'.scr[0]? = some { val := vals, child := none, num_children := 0 } ∧
      List.Forall₂ (fun q x => h'.get q = some x) vals xs ∧
      (∀ x, x ∈ xs → canonical .generic64 x) ∧
      List.Pairwise (fun a b => a < b) (xs.map (val .generic64)) ∧
      ∀ v, v ∈ xs.map (val .generic64) ↔ (Nat.Prime v ∧ v % 2 = 1 ∧ v < 30) :=
  (ffbi_get_sieve_correct .generic64
    (exHeapR [] [{ val := [], child := none, num_children := 0 }] 0 (fun _ => 0)) 0 30
    { val := [], child := none, num_children := 0 } rfl).1 (by decide) (by decide)


/-! # Division of one digit by one digit -/

theorem one_digit_canonical (P : Platform) (x : FFBI) (hu : x.num_used_digits = 1)
    (hl : 0 < x.digits.length) (hd : x.digits.getD 0 0 < 2 ^ FFBI_BITS_PER_DIGIT P) :
    canonical P x := by
  refine ⟨by rw [hu], by rw [hu]; omega, fun i hi => ?_, Or.inl hu⟩
  have : i = 0 := by rw [hu] at hi; omega
  rw [this]
  exact hd

theorem one_digit_of_val_lt (P : Platform) (x : FFBI) (c : canonical P x)
    (hv : val P x < 2 ^ FFBI_BITS_PER_DIGIT P) :
    x.num_used_digits = 1 ∧ x.digits.getD 0 0 = val P x := by
  by_cases h1 : x.num_used_digits = 1
  · exact ⟨h1, (val_one P x h1).symm⟩
  · exfalso
    obtain ⟨c1, _, _, c4⟩ := c
    have htop : x.digits.getD (x.num_used_digits - 1) 0 ≠ 0 := by
      rcases c4 with c4 | c4
      · exact absurd c4 h1
      · exact c4
    have h2 := canonical_ge_pow (FFBI_BITS_PER_DIGIT P) x.digits x.num_used_digits c1 htop
    have h3 : 2 ^ (FFBI_BITS_PER_DIGIT P * 1)
        ≤ 2 ^ (FFBI_BITS_PER_DIGIT P * (x.num_used_digits - 1)) :=
      pow_bits_mono _ (by omega)
    rw [Nat.mul_one] at h3
    unfold val at hv
    omega

theorem cmpVal_gt {m n : Nat} (h : n < m) : cmpVal m n = 1 := by
  unfold cmpVal
  rw [if_pos h]

theorem cmpVal_ne_neg {m n : Nat} (h : n ≤ m) : cmpVal m n ≠ -1 := by
  unfold cmpVal
  split
  · decide
  · rw [if_neg (by omega)]
    decide

theorem rdDigitI_zero (h : Heap) (p : Nat) :
    rdDigitI h p (((0 : Nat) : Int) - ((0 : Nat) : Int)) = rdDigit h p 0 := rfl

theorem get_upd3 {h : Heap} {p1 p2 p3 : Nat} {x1 x2 x3 : FFBI} (y1 y2 y3 : FFBI)
    (g1 : h.get p1 = some x1) (g2 : h.get p2 = some x2) (g3 : h.get p3 = some x3)
    (h12 : p1 ≠ p2) (h13 : p1 ≠ p3) (h23 : p2 ≠ p3) :
    (((h.upd p1 y1).upd p2 y2).upd p3 y3).get p1 = some y1 ∧
    (((h.upd p1 y1).upd p2 y2).upd p3 y3).get p2 = some y2 ∧
    (((h.upd p1 y1).upd p2 y2).upd p3 y3).get p3 = some y3 ∧
    ∀ q, q ≠ p1 → q ≠ p2 → q ≠ p3 → (((h.upd p1 y1).upd p2 y2).upd p3 y3).get q = h.get q := by
  have a1 : (h.upd p1 y1).get p1 = some y1 := Heap.get_upd_same _ g1
  have a2 : (h.upd p1 y1).get p2 = some x2 := by rw [Heap.get_upd_ne _ _ (Ne.symm h12), g2]
  have a3 : (h.upd p1 y1).get p3 = some x3 := by rw [Heap.get_upd_ne _ _ (Ne.symm h13), g3]
  have b2 : ((h.upd p1 y1).upd p2 y2).get p2 = some y2 := Heap.get_upd_same _ a2
  have b3 : ((h.upd p1 y1).upd p2 y2).get p3 = some x3 := by
    rw [Heap.get_upd_ne _ _ (Ne.symm h23), a3]
  refine ⟨?_, ?_, Heap.get_upd_same _ b3, fun q n1 n2 n3 => ?_⟩
  · rw [Heap.get_upd_ne _ _ h13, Heap.get_upd_ne _ _ h12, a1]
  · rw [Heap.get_upd_ne _ _ h23, b2]
  · rw [Heap.get_upd_ne _ _ n3, Heap.get_upd_ne _ _ n2, Heap.get_upd_ne _ _ n1]

theorem whileLoop_false {σ : Type} (cond : σ → Option Bool) (body : σ → Option σ) (fuel : Nat)
    (s : σ) (hc : cond s = some false) : whileLoop cond body (fuel + 1) s = some s := by
  show obind (cond s) _ = _
  rw [hc, obind_some]
  rfl

/-- The update of the remainder at the last quotient digit, for a one-digit product. -/
theorem qd_update_last (P : Platform) (h : Heap) (r a product : Nat) (xr xa xp : FFBI)
    (hgr : h.get r = some xr) (hga : h.get a = some xa) (hgp : h.get product = some xp)
    (hrp : r ≠ product) (hra : r ≠ a)
    (hpu : xp.num_used_digits = 1) (hpl : 0 < xp.digits.length)
    (hrc : 1 ≤ xr.num_allocated_digits) (hrl : 0 < xr.digits.length)
    (hal : 0 < xa.digits.length) (hpw : xp.digits.getD 0 0 < 2 ^ FFBI_WORD_SIZE P) :
    qd_update P h 0 r a product 0
      = some (h.upd r { xr with num_used_digits := 1, digits := xr.digits.set 0 (xp.digits.getD 0 0) }) := by
  have hmul0 : ∀ d, wmul (FFBI_WORD_SIZE P) d 0 = 0 := fun d => by
    unfold wmul; rw [Nat.mul_zero]; exact Nat.zero_mod _
  unfold qd_update
  dsimp only
  rw [hgp, obind_some, if_neg (by rw [hpu]; decide), rdDigit_eq hgp hpl, obind_some]
  by_cases hnz : xp.digits.getD 0 0 > 0
  · rw [decide_eq_true hnz, obind_some, if_pos rfl, modify_eq _ hgr, obind_some, Heap.get_upd_same _ hgr,
      obind_some]
    dsimp only
    rw [hpu, if_neg (by omega), obind_some,
      wrDigit_eq (x := { xr with num_used_digits := 1 + 0 }) _ (Heap.get_upd_same _ hgr) hrl,
      obind_some, Heap.upd_upd, Heap.get_upd_ne _ _ (Ne.symm hrp), hgp, obind_some, hpu]
    show obind (obind (obind (rdDigit _ product 0) _) _) _ = _
    rw [rdDigit_eq (x := xp) (by rw [Heap.get_upd_ne _ _ (Ne.symm hrp)]; exact hgp) hpl,
      obind_some]
    dsimp only
    rw [wrDigit_eq (x := { xr with num_used_digits := 1 + 0, digits := xr.digits.set 0 0 }) _
        (Heap.get_upd_same _ hgr) (by show 0 < (xr.digits.set 0 0).length; rw [List.length_set]; exact hrl),
      obind_some, Heap.upd_upd]
    show obind (some _) _ = _
    rw [obind_some, rdDigitI_zero, rdDigit_eq (x := xa) (by rw [Heap.get_upd_ne _ _ (Ne.symm hra)]; exact hga) hal,
      obind_some]
    dsimp only
    rw [rdDigit_eq (x := { xr with num_used_digits := 1 + 0, digits := (xr.digits.set 0 0).set (0 + 0) (xp.digits.getD 0 0) })
        (Heap.get_upd_same _ hgr)
        (by show 0 < ((xr.digits.set 0 0).set (0 + 0) (xp.digits.getD 0 0)).length
            rw [List.length_set, List.length_set]; exact hrl),
      obind_some]
    dsimp only
    rw [wrDigit_eq (x := { xr with num_used_digits := 1 + 0, digits := (xr.digits.set 0 0).set (0 + 0) (xp.digits.getD 0 0) }) _
        (Heap.get_upd_same _ hgr)
        (by show 0 < ((xr.digits.set 0 0).set (0 + 0) (xp.digits.getD 0 0)).length
            rw [List.length_set, List.length_set]; exact hrl),
      Heap.upd_upd]
    dsimp only
    have e1 : ((xr.digits.set 0 0).set (0 + 0) (xp.digits.getD 0 0)).getD 0 0 = xp.digits.getD 0 0 :=
      getD_set_same _ (by rw [List.length_set]; exact hrl)
    rw [e1, hmul0, wadd_eq (by rw [Nat.add_zero]; exact hpw), Nat.add_zero]
    simp only [Nat.add_zero, List.set_set]
  · have hz : xp.digits.getD 0 0 = 0 := by omega
    rw [decide_eq_false hnz, obind_some, if_neg (by decide), modify_eq _ hgr, obind_some, rdDigitI_zero,
      rdDigit_eq (x := xa) (by rw [Heap.get_upd_ne _ _ (Ne.symm hra)]; exact hga) hal, obind_some]
    rw [wrDigit_eq (x := { xr with num_used_digits := xp.num_used_digits }) _ (Heap.get_upd_same _ hgr) hrl,
      Heap.upd_upd, hmul0, hz, hpu]
/-- The last quotient digit when the running remainder and the divisor have one digit each and
the remainder is the larger: the digit is `r0 / b0` and the new remainder `r0 % b0`. -/
theorem qd_single_spec (P : Platform) (h : Heap) (q r a b product scratch : Nat)
    (xq xr xa xb xp xs : FFBI)
    (hgq : h.get q = some xq) (hgr : h.get r = some xr) (hga : h.get a = some xa)
    (hgb : h.get b = some xb) (hgp : h.get product = some xp) (hgs : h.get scratch = some xs)
    (hqr : q ≠ r) (hqp : q ≠ product) (hqs : q ≠ scratch) (hrp : r ≠ product)
    (hrs : r ≠ scratch) (hps : product ≠ scratch)
    (hqb : q ≠ b) (hrb : r ≠ b) (hpb : product ≠ b) (hsb : scratch ≠ b)
    (hqa : q ≠ a) (hra : r ≠ a) (hpa : product ≠ a) (hsa : scratch ≠ a)
    (hql : 0 < xq.digits.length) (hal : 0 < xa.digits.length)
    (hru : xr.num_used_digits = 1) (hrc : 1 ≤ xr.num_allocated_digits) (hrv : validStorage xr)
    (wb : wellFormed P xb) (hbu : xb.num_used_digits = 1)
    (hb0 : xb.digits.getD 0 0 ≠ 0) (hgt : xb.digits.getD 0 0 < xr.digits.getD 0 0)
    (hrD : xr.digits.getD 0 0 < 2 ^ FFBI_BITS_PER_DIGIT P)
    (op : bufferOf xp 1) (os : bufferOf xs 2) :
    ∃ h' xp' xs', ffbi_get_quotient_digit P h 0 q r a b 1 product 0 scratch = some h' ∧
      h'.get q = some { xq with cache_valid := false, digits := xq.digits.set 0 (xr.digits.getD 0 0 / xb.digits.getD 0 0) } ∧
      h'.get r = some { xr with cache_valid := false, num_used_digits := 1, digits := xr.digits.set 0 (xr.digits.getD 0 0 % xb.digits.getD 0 0) } ∧
      h'.get product = some xp' ∧ h'.get scratch = some xs' ∧
      Heap.frame [q, r, product, scratch] h h' ∧ h'.scr = h.scr ∧
      validStorage xp' ∧ xp'.reallocation_allowed = xp.reallocation_allowed ∧
      xp.num_allocated_digits ≤ xp'.num_allocated_digits ∧
      validStorage xs' ∧ xs'.reallocation_allowed = xs.reallocation_allowed ∧
      xs.num_allocated_digits ≤ xs'.num_allocated_digits := by
  generalize hr0 : xr.digits.getD 0 0 = r0 at hgt hrD
  generalize hbd : xb.digits.getD 0 0 = b0 at hb0 hgt
  have hb0' : 0 < b0 := Nat.pos_of_ne_zero hb0
  have hrl : 0 < xr.digits.length := by have := hrv.1; omega
  have hbl : 0 < xb.digits.length := by have := wb.1.2.1; omega
  obtain ⟨opv, opc, _⟩ := op
  have hpl : 0 < xp.digits.length := by have := opv.1; omega
  have hqD : r0 / b0 < 2 ^ FFBI_BITS_PER_DIGIT P :=
    Nat.lt_of_le_of_lt (Nat.div_le_self _ _) hrD
  have hmodD : r0 % b0 < 2 ^ FFBI_BITS_PER_DIGIT P :=
    Nat.lt_of_le_of_lt (Nat.mod_le _ _) hrD
  have hqb0 : r0 / b0 * b0 ≤ r0 := Nat.div_mul_le_self _ _
  have hdm : r0 - r0 / b0 * b0 = r0 % b0 := by
    have := Nat.div_add_mod r0 b0
    rw [Nat.mul_comm] at this
    omega
  have cr : canonical P xr := one_digit_canonical P xr hru hrl (by rw [hr0]; exact hrD)
  have vr : val P xr = r0 := by rw [val_one P xr hru, hr0]
  have vb : val P xb = b0 := by rw [val_one P xb hbu, hbd]
  -- the heap when `ffbi_mul` is called
  obtain ⟨k5r, k5q, k5p, k5o⟩ := get_upd3 { xr with cache_valid := false }
    { xq with cache_valid := false, digits := xq.digits.set 0 (r0 / b0) }
    { xp with num_used_digits := 1, digits := xp.digits.set 0 (r0 / b0) }
    hgr hgq hgp (Ne.symm hqr) hrp hqp
  have k5b := (k5o b (Ne.symm hrb) (Ne.symm hqb) (Ne.symm hpb)).trans hgb
  have k5a := (k5o a (Ne.symm hra) (Ne.symm hqa) (Ne.symm hpa)).trans hga
  have k5s := (k5o scratch (Ne.symm hrs) (Ne.symm hqs) (Ne.symm hps)).trans hgs
  have hp0 : ({ xp with num_used_digits := 1, digits := xp.digits.set 0 (r0 / b0) } : FFBI).digits.getD 0 0
      = r0 / b0 := @getD_set_same xp.digits 0 _ hpl
  have wp : wellFormed P { xp with num_used_digits := 1, digits := xp.digits.set 0 (r0 / b0) } := by
    refine ⟨one_digit_canonical P _ rfl ?_ ?_, opc, ⟨?_, opv.2⟩⟩
    · show 0 < (xp.digits.set 0 (r0 / b0)).length
      rw [List.length_set]; exact hpl
    · rw [hp0]; exact hqD
    · show xp.num_allocated_digits ≤ (xp.digits.set 0 (r0 / b0)).length
      rw [List.length_set]; exact opv.1
  have vp : val P { xp with num_used_digits := 1, digits := xp.digits.set 0 (r0 / b0) } = r0 / b0 := by
    rw [val_one P _ rfl, hp0]
  obtain ⟨h6, xs6, m1, m2, m3, m4, _, m6, m7, m8, m9, m10, m11⟩ := ffbi_mul_spec P _ scratch
    product b _ xb xs k5p k5b k5s wp wb (by rw [hbu]; exact Nat.le_trans (Nat.min_le_right _ _) (by decide))
    (by
      by_cases hg2 : xs.num_allocated_digits < 2
      · exact Or.inl (os.2.2 hg2)
      · exact Or.inr ⟨Ne.symm hps, hsb, by show 1 + xb.num_used_digits ≤ xs.num_allocated_digits; omega⟩)
    os.1 os.2.1
  rw [vp, vb] at m4
  have hin : ∀ q', q' ≠ scratch → q' ∉ [scratch] := fun q' hq' => by simpa using hq'
  have k6r := Heap.frame_get m6 k5r (hin r hrs)
  have k6q := Heap.frame_get m6 k5q (hin q hqs)
  have k6p := Heap.frame_get m6 k5p (hin product hps)
  have k6b := Heap.frame_get m6 k5b (hin b (Ne.symm hsb))
  have k6a := Heap.frame_get m6 k5a (hin a (Ne.symm hsa))
  have cr1 : canonical P { xr with cache_valid := false } := cr
  have vr1 : val P { xr with cache_valid := false } = r0 := vr
  have hcond : correct_cond r product scratch h6 = some false := by
    unfold correct_cond
    rw [ffbi_cmp_spec P k6r m2 cr1 m3, obind_some, vr1, m4, if_neg (cmpVal_ne_neg hqb0)]
  obtain ⟨h7, xp7, s1, s2, s3, s4, _, s6, s7, s8, s9, s10, _, s12, s13⟩ := ffbi_sub_spec P h6 product
    r scratch _ xs6 _ k6r m2 k6p ⟨cr1, by show xr.num_used_digits ≤ xr.num_allocated_digits; omega, hrv⟩
    ⟨m3, m9, m10⟩ (by rw [vr1, m4]; exact hqb0)
    (Or.inr ⟨Ne.symm hrp, hps, wp.2.2, fun hlt => absurd hlt (by
      show ¬ xp.num_allocated_digits < xr.num_used_digits
      omega)⟩)
  rw [vr1, m4, hdm] at s4
  have hu7 : xp7.num_used_digits = 1 := by
    have h1 : xp7.num_used_digits ≤ 1 := by
      have : xp7.num_used_digits ≤ xr.num_used_digits := s9
      omega
    have := s3.1
    omega
  have hd7 : xp7.digits.getD 0 0 = r0 % b0 := by rw [← val_one P xp7 hu7, s4]
  have hin' : ∀ q', q' ≠ product → q' ∉ [product] := fun q' hq' => by simpa using hq'
  have k7r := Heap.frame_get s6 k6r (hin' r hrp)
  have k7q := Heap.frame_get s6 k6q (hin' q hqp)
  have k7b := Heap.frame_get s6 k6b (hin' b (Ne.symm hpb))
  have k7a := Heap.frame_get s6 k6a (hin' a (Ne.symm hpa))
  have k7s := Heap.frame_get s6 m2 (hin' scratch (Ne.symm hps))
  have hl7 : 0 < xp7.digits.length := by have := s3.2.1; omega
  -- the update of the remainder
  have hw7 : xp7.digits.getD 0 0 < 2 ^ FFBI_WORD_SIZE P := by
    rw [hd7]
    exact Nat.lt_of_lt_of_le hmodD (Nat.pow_le_pow_right (by decide) (Nat.le_of_lt (bits_lt_word P)))
  have hupd := qd_update_last P h7 r a product _ xa xp7 k7r k7a s2 hrp hra hu7 hl7 hrc hrl hal hw7
  rw [hd7] at hupd
  have cb : canonical P xb := wb.1
  have c7 : canonical P xp7 := s3
  refine ⟨h7.upd r { xr with cache_valid := false, num_used_digits := 1, digits := xr.digits.set 0 (r0 % b0) }, xp7, xs6, ?_, ?_, ?_, ?_, ?_, ?_, ?_,
    s12, s13, s10, m10, m11, m8⟩
  · unfold ffbi_get_quotient_digit
    rw [ffbi_cmp_spec P hgr hgb cr cb, obind_some, vr, vb, cmpVal_gt hgt, modify_eq _ hgr, obind_some,
      modify_eq _ (by rw [Heap.get_upd_ne _ _ hqr]; exact hgq), obind_some,
      if_neg (by decide), if_neg (by decide)]
    have g1r : ((h.upd r { xr with cache_valid := false }).upd q { xq with cache_valid := false }).get r
        = some { xr with cache_valid := false } := by
      rw [Heap.get_upd_ne _ _ (Ne.symm hqr)]; exact Heap.get_upd_same _ hgr
    have g1q : ((h.upd r { xr with cache_valid := false }).upd q { xq with cache_valid := false }).get q
        = some { xq with cache_valid := false } :=
      Heap.get_upd_same _ (by rw [Heap.get_upd_ne _ _ hqr]; exact hgq)
    have g1b : ((h.upd r { xr with cache_valid := false }).upd q { xq with cache_valid := false }).get b
        = some xb := by
      rw [Heap.get_upd_ne _ _ (Ne.symm hqb), Heap.get_upd_ne _ _ (Ne.symm hrb)]; exact hgb
    have g1p : ((h.upd r { xr with cache_valid := false }).upd q { xq with cache_valid := false }).get product
        = some xp := by
      rw [Heap.get_upd_ne _ _ (Ne.symm hqp), Heap.get_upd_ne _ _ (Ne.symm hrp)]; exact hgp
    have hest : qd_estimate P ((h.upd r { xr with cache_valid := false }).upd q { xq with cache_valid := false }) 0 q r b 1
        = some (((h.upd r { xr with cache_valid := false }).upd q { xq with cache_valid := false }).upd q { xq with cache_valid := false, digits := xq.digits.set 0 (r0 / b0) }) := by
      unfold qd_estimate
      rw [g1r, obind_some]
      dsimp only
      rw [if_pos hru, rdDigit_eq g1r hrl, obind_some, rdDigit_eq g1b hbl, obind_some, hbd,
        if_neg hb0, wrDigit_eq _ g1q hql]
      show some _ = some _
      rw [hr0]
    rw [hest, obind_some, Heap.upd_upd,
      modify_eq _ (by rw [Heap.get_upd_ne _ _ (Ne.symm hqp), Heap.get_upd_ne _ _ (Ne.symm hrp)]; exact hgp),
      obind_some, rdDigit_eq (x := { xq with cache_valid := false, digits := xq.digits.set 0 (r0 / b0) })
        (by rw [Heap.get_upd_ne _ _ hqp]; exact Heap.get_upd_same _ (by rw [Heap.get_upd_ne _ _ hqr]; exact hgq))
        (by show 0 < (xq.digits.set 0 (r0 / b0)).length; rw [List.length_set]; exact hql),
      obind_some]
    have hqd : ({ xq with cache_valid := false, digits := xq.digits.set 0 (r0 / b0) } : FFBI).digits.getD 0 0
        = r0 / b0 := @getD_set_same xq.digits 0 _ hql
    rw [hqd, wrDigit_eq (x := { xp with num_used_digits := 1 }) _
        (Heap.get_upd_same _ (by rw [Heap.get_upd_ne _ _ (Ne.symm hqp), Heap.get_upd_ne _ _ (Ne.symm hrp)]; exact hgp)) hpl,
      obind_some, Heap.upd_upd]
    show obind (ffbi_mul P _ scratch product b) _ = _
    rw [m1, obind_some, whileLoop_false _ _ _ _ hcond, obind_some, s1, obind_some,
      ffbi_cmp_spec P s2 k7b c7 cb, obind_some]
    exact hupd
  · rw [Heap.get_upd_ne _ _ hqr]; exact k7q
  · exact Heap.get_upd_same _ k7r
  · rw [Heap.get_upd_ne _ _ (Ne.symm hrp)]; exact s2
  · rw [Heap.get_upd_ne _ _ (Ne.symm hrs)]; exact k7s
  · have e1 : ∀ q', q' ∈ [r] → q' ∈ [q, r, product, scratch] := fun q' hq' => by
      rw [List.mem_singleton] at hq'; subst hq'; simp
    have e2 : ∀ q', q' ∈ [q] → q' ∈ [q, r, product, scratch] := fun q' hq' => by
      rw [List.mem_singleton] at hq'; subst hq'; simp
    have e3 : ∀ q', q' ∈ [product] → q' ∈ [q, r, product, scratch] := fun q' hq' => by
      rw [List.mem_singleton] at hq'; subst hq'; simp
    have e4 : ∀ q', q' ∈ [scratch] → q' ∈ [q, r, product, scratch] := fun q' hq' => by
      rw [List.mem_singleton] at hq'; subst hq'; simp
    have f1 := Heap.frame_mono (Heap.frame_upd h r { xr with cache_valid := false }) e1
    have f2 := Heap.frame_trans f1 (Heap.frame_mono (Heap.frame_upd _ q
      { xq with cache_valid := false, digits := xq.digits.set 0 (r0 / b0) }) e2) (fun _ hm => hm)
    have f3 := Heap.frame_trans f2 (Heap.frame_mono (Heap.frame_upd _ product
      { xp with num_used_digits := 1, digits := xp.digits.set 0 (r0 / b0) }) e3) (fun _ hm => hm)
    have f4 := Heap.frame_trans f3 (Heap.frame_mono m6 e4) (fun _ hm => hm)
    have f5 := Heap.frame_trans f4 (Heap.frame_mono s6 e3) (fun _ hm => hm)
    exact Heap.frame_trans f5 (Heap.frame_mono (Heap.frame_upd _ r _) e1) (fun _ hm => hm)
  · rw [Heap.upd_scr, s8, m7]
    rfl


/-! # The short branches of `ffbi_div_impl` -/

/-- The branch `b > a` of `ffbi_div_impl`: the quotient becomes zero and the remainder
receives the digits of `a`. -/
theorem div_small_spec (P : Platform) (h : Heap) (dest a r : Nat) (xd xa xr : FFBI)
    (hgd : h.get dest = some xd) (hga : h.get a = some xa) (hgr : h.get r = some xr)
    (hda : dest ≠ a) (hdr : dest ≠ r) (hra : r ≠ a)
    (wa : wellFormed P xa) (hdl : 0 < xd.digits.length) (hrv : validStorage xr)
    (hrg : xr.num_allocated_digits < xa.num_used_digits → xr.reallocation_allowed = true) :
    ∃ h' xr', div_small P h dest a (some r) = some h' ∧
      h'.get dest = some { xd with num_used_digits := 1, digits := xd.digits.set 0 0, cache_valid := false } ∧
      h'.get r = some xr' ∧ canonical P xr' ∧ val P xr' = val P xa ∧
      xr'.num_used_digits = xa.num_used_digits ∧ xr'.cache_valid = false ∧
      xr'.num_used_digits ≤ xr'.num_allocated_digits ∧ validStorage xr' ∧
      xr'.reallocation_allowed = xr.reallocation_allowed ∧
      Heap.frame [dest, r] h h' ∧ h'.scr = h.scr ∧
      xr.num_allocated_digits ≤ xr'.num_allocated_digits := by
  obtain ⟨ca, hua, hsa⟩ := wa
  obtain ⟨h0, xr0, r1, r2, r3, r4, r5, r6, r7, r8, r9, r10, r11, r12, r13⟩ :=
    realloc_if_small P xa.num_used_digits xa.num_used_digits hgr hrg hrv (Nat.le_refl _)
  have hin : ∀ q', q' ≠ r → q' ∉ [r] := fun q' hq' => by simpa using hq'
  have g0a : h0.get a = some xa := Heap.frame_get r11 hga (hin a (Ne.symm hra))
  have g0d : h0.get dest = some xd := Heap.frame_get r11 hgd (hin dest hdr)
  obtain ⟨ds, m1, m2, m3⟩ := @memcpy_spec xr0.digits xa.digits xa.num_used_digits
    (Nat.le_trans hua hsa.1) (Nat.le_trans r3 r4)
  have g1r : (h0.upd r { xr0 with num_used_digits := xa.num_used_digits }).get r
      = some { xr0 with num_used_digits := xa.num_used_digits } := Heap.get_upd_same _ r2
  have g1a : (h0.upd r { xr0 with num_used_digits := xa.num_used_digits }).get a = some xa := by
    rw [Heap.get_upd_ne _ _ (Ne.symm hra)]; exact g0a
  have g2d : ((h0.upd r { xr0 with num_used_digits := xa.num_used_digits }).upd r
      { xr0 with num_used_digits := xa.num_used_digits, digits := ds, cache_valid := false }).get dest
      = some xd := by
    rw [Heap.get_upd_ne _ _ hdr, Heap.get_upd_ne _ _ hdr]; exact g0d
  refine ⟨((h0.upd r { xr0 with num_used_digits := xa.num_used_digits, digits := ds, cache_valid := false }).upd dest
      { xd with num_used_digits := 1, digits := xd.digits.set 0 0, cache_valid := false }),
    { xr0 with num_used_digits := xa.num_used_digits, digits := ds, cache_valid := false },
    ?_, ?_, ?_, ?_, ?_, rfl, rfl, r3, ?_, r6, ?_, ?_, r5⟩
  · unfold div_small
    dsimp only
    rw [if_pos hra, hga, obind_some, hgr, obind_some]
    show obind (obind (if xr.num_allocated_digits < xa.num_used_digits then _ else _) _) _ = _
    rw [r1, obind_some, g0a, obind_some, modify_eq _ r2, obind_some, g1r, obind_some, g1a, obind_some]
    dsimp only
    rw [m1, obind_some, Heap.put_of_get _ g1r, obind_some, modify_eq _ g2d, obind_some,
      wrDigit_eq (x := { xd with num_used_digits := 1 }) _ (Heap.get_upd_same _ g2d) hdl, obind_some,
      Heap.upd_upd, modify_eq _ (Heap.get_upd_same _ g2d), Heap.upd_upd, Heap.upd_upd]
  · exact Heap.get_upd_same _ (by rw [Heap.get_upd_ne _ _ hdr]; exact g0d)
  · rw [Heap.get_upd_ne _ _ (Ne.symm hdr)]; exact Heap.get_upd_same _ r2
  · exact canonicalDigits_congr _ xa.digits ds _ (by rw [m2]; exact Nat.le_trans r3 r4)
      (fun j hj => by rw [m3 j, if_pos hj]) ca
  · exact digitsVal_congr _ _ _ _ (fun j hj => by rw [m3 j, if_pos hj])
  · exact ⟨by show xr0.num_allocated_digits ≤ ds.length; rw [m2]; exact r4, by
      intro c hc
      have hc' : xr.cache = some c := by rw [← r7]; exact hc
      show xr0.cache_num_allocated_digits ≤ c.length
      rw [r8]; exact hrv.2 c hc'⟩
  · have e1 : ∀ q', q' ∈ [r] → q' ∈ [dest, r] := fun q' hq' => by
      rw [List.mem_singleton] at hq'; subst hq'; simp
    have e2 : ∀ q', q' ∈ [dest] → q' ∈ [dest, r] := fun q' hq' => by
      rw [List.mem_singleton] at hq'; subst hq'; simp
    exact Heap.frame_trans (Heap.frame_trans (Heap.frame_mono r11 e1)
      (Heap.frame_mono (Heap.frame_upd _ r _) e1) (fun _ hm => hm))
      (Heap.frame_mono (Heap.frame_upd _ dest _) e2) (fun _ hm => hm)
  · rw [Heap.upd_scr, Heap.upd_scr]; exact r13

/-- The branch `b == a` of `ffbi_div_impl`: the quotient becomes one and the remainder zero. -/
theorem div_equal_spec (h : Heap) (dest r : Nat) (xd xr : FFBI)
    (hgd : h.get dest = some xd) (hgr : h.get r = some xr) (hdr : dest ≠ r)
    (hdl : 0 < xd.digits.length) (hrl : 0 < xr.digits.length) :
    div_equal h dest (some r) = some ((h.upd dest
        { xd with num_used_digits := 1, digits := xd.digits.set 0 1, cache_valid := false }).upd r
        { xr with num_used_digits := 1, digits := xr.digits.set 0 0, cache_valid := false }) := by
  have g1 : (h.upd dest { xd with num_used_digits := 1, digits := xd.digits.set 0 1, cache_valid := false }).get r
      = some xr := by
    rw [Heap.get_upd_ne _ _ (Ne.symm hdr)]; exact hgr
  unfold div_equal
  rw [modify_eq _ hgd, obind_some,
    wrDigit_eq (x := { xd with num_used_digits := 1 }) _ (Heap.get_upd_same _ hgd) hdl, obind_some,
    Heap.upd_upd, modify_eq _ (Heap.get_upd_same _ hgd), obind_some, Heap.upd_upd]
  dsimp only
  rw [modify_eq _ g1, obind_some,
    wrDigit_eq (x := { xr with num_used_digits := 1 }) _ (Heap.get_upd_same _ g1) hrl, obind_some,
    Heap.upd_upd, modify_eq _ (Heap.get_upd_same _ g1), Heap.upd_upd]

theorem forUp_one {σ : Type} (body : Nat → σ → Option σ) (k : Nat) (s s' : σ)
    (hb : body k s = some s') : forUp body 1 k s = some s' := by
  show obind (body k s) _ = _
  rw [hb]
  rfl

theorem forDown_zero {σ : Type} (body : Nat → σ → Option σ) (s : σ) : forDown body 0 s = some s :=
  rfl

/-- The single-digit path of `ffbi_div_impl` for one-digit operands with `a > b > 0`: one call of
`ffbi_get_quotient_digit` produces the quotient `a0 / b0` and the remainder `a0 % b0`. -/
theorem div_digits_single_spec (P : Platform) (h : Heap) (dest a b r s1 s2 : Nat)
    (xd xa xb xr x1 x2 : FFBI)
    (hgd : h.get dest = some xd) (hga : h.get a = some xa) (hgb : h.get b = some xb)
    (hgr : h.get r = some xr) (hg1 : h.get s1 = some x1) (hg2 : h.get s2 = some x2)
    (hdr : dest ≠ r) (hd1 : dest ≠ s1) (hd2 : dest ≠ s2) (hr1 : r ≠ s1) (hr2 : r ≠ s2)
    (h12 : s1 ≠ s2)
    (hda : dest ≠ a) (hra : r ≠ a) (h1a : s1 ≠ a) (h2a : s2 ≠ a)
    (hdb : dest ≠ b) (hrb : r ≠ b) (h1b : s1 ≠ b) (h2b : s2 ≠ b)
    (wa : wellFormed P xa) (wb : wellFormed P xb)
    (hau : xa.num_used_digits = 1) (hbu : xb.num_used_digits = 1)
    (hb0 : xb.digits.getD 0 0 ≠ 0) (hgt : xb.digits.getD 0 0 < xa.digits.getD 0 0)
    (od : bufferOf xd 1) (orr : bufferOf xr 2) (o1 : bufferOf x1 1) (o2 : bufferOf x2 2) :
    ∃ h' xr', div_digits P h dest a b (some r) s1 s2 = some h' ∧
      h'.get dest = some { xd with num_used_digits := 1, cache_valid := false, digits := xd.digits.set 0 (xa.digits.getD 0 0 / xb.digits.getD 0 0) } ∧
      h'.get r = some xr' ∧ xr'.num_used_digits = 1 ∧
      xr'.digits.getD 0 0 = xa.digits.getD 0 0 % xb.digits.getD 0 0 ∧
      0 < xr'.digits.length ∧ xr'.cache_valid = false ∧
      Heap.frame [dest, r, s1, s2] h h' ∧ h'.scr = h.scr ∧
      validStorage xr' ∧ xr'.reallocation_allowed = xr.reallocation_allowed ∧
      xr.num_allocated_digits ≤ xr'.num_allocated_digits ∧
      xr'.num_used_digits ≤ xr'.num_allocated_digits ∧
      ∃ x1' x2', h'.get s1 = some x1' ∧ h'.get s2 = some x2' ∧
        validStorage x1' ∧ x1'.reallocation_allowed = x1.reallocation_allowed ∧
        x1.num_allocated_digits ≤ x1'.num_allocated_digits ∧
        validStorage x2' ∧ x2'.reallocation_allowed = x2.reallocation_allowed ∧
        x2.num_allocated_digits ≤ x2'.num_allocated_digits := by
  obtain ⟨vd, cd, _⟩ := od
  have hdl : 0 < xd.digits.length := by have := vd.1; omega
  have hal : 0 < xa.digits.length := by have := wa.1.2.1; have := wa.1.1; omega
  have haD : xa.digits.getD 0 0 < 2 ^ FFBI_BITS_PER_DIGIT P := wa.1.2.2.1 0 (by rw [hau]; decide)
  -- the heap after the length of `dest` is set
  have g1r : (h.upd dest { xd with num_used_digits := 1 }).get r = some xr := by
    rw [Heap.get_upd_ne _ _ (Ne.symm hdr)]; exact hgr
  obtain ⟨h2, xr0, r1, r2, r3, r4, r5, r6, r7, r8, r9, r10, r11, r12, r13⟩ :=
    realloc_if_small P 2 5 g1r orr.2.2 orr.1 (by decide)
  have hin : ∀ q', q' ≠ r → q' ∉ [r] := fun q' hq' => by simpa using hq'
  have upd_get : ∀ q' x', q' ≠ dest → h.get q' = some x' →
      (h.upd dest { xd with num_used_digits := 1 }).get q' = some x' := fun q' x' hq' hx' => by
    rw [Heap.get_upd_ne _ _ hq']; exact hx'
  have g2a : h2.get a = some xa := Heap.frame_get r11 (upd_get a xa (Ne.symm hda) hga) (hin a (Ne.symm hra))
  have g2b : h2.get b = some xb := Heap.frame_get r11 (upd_get b xb (Ne.symm hdb) hgb) (hin b (Ne.symm hrb))
  have g21 : h2.get s1 = some x1 := Heap.frame_get r11 (upd_get s1 x1 (Ne.symm hd1) hg1) (hin s1 (Ne.symm hr1))
  have g22 : h2.get s2 = some x2 := Heap.frame_get r11 (upd_get s2 x2 (Ne.symm hd2) hg2) (hin s2 (Ne.symm hr2))
  have g2d : h2.get dest = some { xd with num_used_digits := 1 } :=
    Heap.frame_get r11 (Heap.get_upd_same _ hgd) (hin dest hdr)
  have hr0l : 0 < xr0.digits.length := by omega
  generalize ha0 : xa.digits.getD 0 0 = a0 at hgt haD
  -- the heap when the quotient digit is computed
  have e4 : ({ xr0 with digits := xr0.digits.set 0 a0, num_used_digits := 1 } : FFBI).digits.getD 0 0 = a0 :=
    @getD_set_same xr0.digits 0 _ hr0l
  have g4r : (h2.upd r { xr0 with digits := xr0.digits.set 0 a0, num_used_digits := 1 }).get r
      = some { xr0 with digits := xr0.digits.set 0 a0, num_used_digits := 1 } := Heap.get_upd_same _ r2
  have upd4 : ∀ q' x', q' ≠ r → h2.get q' = some x' →
      (h2.upd r { xr0 with digits := xr0.digits.set 0 a0, num_used_digits := 1 }).get q' = some x' :=
    fun q' x' hq' hx' => by rw [Heap.get_upd_ne _ _ hq']; exact hx'
  obtain ⟨h5, xp5, xs5, q1, q2, q3, q4, q5, q6, q7, q8, q9, q10, q11, q12, q13⟩ := qd_single_spec P
    (h2.upd r { xr0 with digits := xr0.digits.set 0 a0, num_used_digits := 1 }) dest r a b s1 s2
    { xd with num_used_digits := 1 } { xr0 with digits := xr0.digits.set 0 a0, num_used_digits := 1 }
    xa xb x1 x2 (upd4 _ _ hdr g2d) g4r (upd4 _ _ (Ne.symm hra) g2a) (upd4 _ _ (Ne.symm hrb) g2b)
    (upd4 _ _ (Ne.symm hr1) g21) (upd4 _ _ (Ne.symm hr2) g22)
    hdr hd1 hd2 hr1 hr2 h12 hdb hrb h1b h2b hda hra h1a h2a hdl hal rfl (by show 1 ≤ xr0.num_allocated_digits; omega)
    ⟨by show xr0.num_allocated_digits ≤ (xr0.digits.set 0 a0).length; rw [List.length_set]; exact r4,
      by
        intro c hc
        have hc' : xr.cache = some c := by rw [← r7]; exact hc
        show xr0.cache_num_allocated_digits ≤ c.length
        rw [r8]; exact orr.1.2 c hc'⟩
    wb hbu hb0 (by rw [e4]; exact hgt) (by rw [e4]; exact haD) o1 o2
  rw [e4] at q2 q3
  have g5d : h5.get dest = some { xd with num_used_digits := 1, cache_valid := false, digits := xd.digits.set 0 (a0 / xb.digits.getD 0 0) } := q2
  have g6 := get_upd3 { xd with num_used_digits := 1, cache_valid := false, digits := xd.digits.set 0 (a0 / xb.digits.getD 0 0) }
    { xp5 with cache_valid := false } { xs5 with cache_valid := false } g5d q4 q5 hd1 hd2 h12
  refine ⟨((h5.upd dest { xd with num_used_digits := 1, cache_valid := false, digits := xd.digits.set 0 (a0 / xb.digits.getD 0 0) }).upd s1
      { xp5 with cache_valid := false }).upd s2 { xs5 with cache_valid := false },
    { xr0 with cache_valid := false, num_used_digits := 1, digits := (xr0.digits.set 0 a0).set 0 (a0 % xb.digits.getD 0 0) },
    ?_, g6.1, ?_, rfl, ?_, ?_, rfl, ?_, ?_, ?_, r6, r5, by show 1 ≤ xr0.num_allocated_digits; omega,
    { xp5 with cache_valid := false }, { xs5 with cache_valid := false }, g6.2.1, g6.2.2.1,
    q8, q9, q10, q11, q12, q13⟩
  · unfold div_digits
    rw [hga, obind_some, hgb, obind_some]
    rw [hau, hbu]
    dsimp only
    rw [hgd, obind_some, if_neg (by omega), obind_some, modify_eq _ hgd, obind_some,
      g1r, obind_some, r1, obind_some, obind_some]
    dsimp only
    have hcopy : forUp (fun k h => obind (rdDigit h a (1 - 1 + k)) fun v => wrDigit h r k v) 1 0 h2
        = some (h2.upd r { xr0 with digits := xr0.digits.set 0 a0 }) :=
      forUp_one _ 0 h2 _ (by
        show obind (rdDigit h2 a 0) _ = _
        rw [rdDigit_eq g2a hal, obind_some, ha0, wrDigit_eq _ r2 hr0l])
    rw [hcopy, obind_some, modify_eq _ (Heap.get_upd_same _ r2), obind_some, Heap.upd_upd, forDown_zero, obind_some]
    rw [q1, obind_some, g5d, obind_some]
    dsimp only
    rw [if_neg (by decide), obind_some, modify_eq _ g5d, obind_some,
      modify_eq _ (by rw [Heap.get_upd_ne _ _ (Ne.symm hd1)]; exact q4), obind_some,
      modify_eq _ (by rw [Heap.get_upd_ne _ _ (Ne.symm h12), Heap.get_upd_ne _ _ (Ne.symm hd2)]; exact q5)]
  · rw [g6.2.2.2 r (Ne.symm hdr) hr1 hr2]
    exact q3
  · exact getD_set_same _ (by rw [List.length_set]; exact hr0l)
  · show 0 < ((xr0.digits.set 0 a0).set 0 (a0 % xb.digits.getD 0 0)).length
    rw [List.length_set, List.length_set]; exact hr0l
  · have e1 : ∀ q', q' ∈ [dest] → q' ∈ [dest, r, s1, s2] := fun q' hq' => by
      rw [List.mem_singleton] at hq'; subst hq'; simp
    have e2 : ∀ q', q' ∈ [r] → q' ∈ [dest, r, s1, s2] := fun q' hq' => by
      rw [List.mem_singleton] at hq'; subst hq'; simp
    have e3 : ∀ q', q' ∈ [s1] → q' ∈ [dest, r, s1, s2] := fun q' hq' => by
      rw [List.mem_singleton] at hq'; subst hq'; simp
    have e4 : ∀ q', q' ∈ [s2] → q' ∈ [dest, r, s1, s2] := fun q' hq' => by
      rw [List.mem_singleton] at hq'; subst hq'; simp
    have f1 := Heap.frame_mono (Heap.frame_upd h dest { xd with num_used_digits := 1 }) e1
    have f2 := Heap.frame_trans f1 (Heap.frame_mono r11 e2) (fun _ hm => hm)
    have f3 := Heap.frame_trans f2 (Heap.frame_mono (Heap.frame_upd h2 r
      { xr0 with digits := xr0.digits.set 0 a0, num_used_digits := 1 }) e2) (fun _ hm => hm)
    have f4 := Heap.frame_trans f3 q6 (fun _ hm => hm)
    have f5 := Heap.frame_trans f4 (Heap.frame_mono (Heap.frame_upd h5 dest
      { xd with num_used_digits := 1, cache_valid := false, digits := xd.digits.set 0 (a0 / xb.digits.getD 0 0) }) e1)
      (fun _ hm => hm)
    have f6 := Heap.frame_trans f5 (Heap.frame_mono (Heap.frame_upd _ s1 { xp5 with cache_valid := false }) e3)
      (fun _ hm => hm)
    exact Heap.frame_trans f6 (Heap.frame_mono (Heap.frame_upd _ s2 { xs5 with cache_valid := false }) e4)
      (fun _ hm => hm)
  · rw [Heap.upd_scr, Heap.upd_scr, Heap.upd_scr, q7, Heap.upd_scr, r13]
    rfl
  · refine ⟨?_, fun c hc => ?_⟩
    · show xr0.num_allocated_digits ≤ ((xr0.digits.set 0 a0).set 0 (a0 % xb.digits.getD 0 0)).length
      rw [List.length_set, List.length_set]; exact r4
    · have hc' : xr.cache = some c := by rw [← r7]; exact hc
      show xr0.cache_num_allocated_digits ≤ c.length
      rw [r8]; exact orr.1.2 c hc'


/-! # `ffbi_div_impl` on one-digit operands -/

theorem cmpVal_lt {m n : Nat} (h : m < n) : cmpVal m n = -1 := by
  unfold cmpVal
  rw [if_neg (by omega), if_pos h]

theorem cmpVal_self (m : Nat) : cmpVal m m = 0 := by
  unfold cmpVal
  rw [if_neg (by omega), if_neg (by omega)]

theorem pow_bits_gt_one (P : Platform) : 1 < 2 ^ FFBI_BITS_PER_DIGIT P := by
  cases P <;> decide

/-- The branch that `ffbi_div_impl` takes on one-digit operands: never `ffbi_div_cache`. -/
theorem div_impl_single_path (P : Platform) (h : Heap) (dest a b : Nat) (rem : Option Nat)
    (s1 s2 : Nat) (xa xb : FFBI) (hga : h.get a = some xa) (hgb : h.get b = some xb)
    (ca : canonical P xa) (cb : canonical P xb)
    (hau : xa.num_used_digits = 1) (hbu : xb.num_used_digits = 1) :
    ffbi_div_impl P h dest a b rem s1 s2
      = obind (if xa.digits.getD 0 0 < xb.digits.getD 0 0 then div_small P h dest a rem
          else if xa.digits.getD 0 0 = xb.digits.getD 0 0 then div_equal h dest rem
          else div_digits P h dest a b rem s1 s2) fun h' => some (0, h') := by
  unfold ffbi_div_impl
  rw [ffbi_cmp_spec P hgb hga cb ca, obind_some, val_one P xa hau, val_one P xb hbu]
  by_cases hlt : xa.digits.getD 0 0 < xb.digits.getD 0 0
  · rw [cmpVal_gt hlt, if_pos rfl, if_pos hlt]
  · rw [if_neg hlt]
    by_cases heq : xa.digits.getD 0 0 = xb.digits.getD 0 0
    · rw [if_pos heq, heq, cmpVal_self, if_neg (by decide), if_pos rfl]
    · rw [if_neg heq, cmpVal_lt (by omega), if_neg (by decide), if_neg (by decide), hga, obind_some,
        hgb, obind_some, if_neg (by rw [hau, hbu]; decide)]

/-- C19: for bigints `a` and `b` that each occupy exactly one digit, with `b ≠ 0`, and growable
bigints `dest`, `rem`, `scratch1`, `scratch2` that are distinct from each other and from the
operands, `ffbi_div_impl` runs `div_small`, `div_equal` or the single-digit path `div_digits`
(never `ffbi_div_cache`), returns 0, and leaves in `dest` the one-digit canonical bigint
`floor(a / b)` and in `rem` the one-digit canonical bigint `a mod b`; no other bigint than
`dest`, `rem` and the two scratch bigints is changed. -/
theorem ffbi_div_impl_single_digit (P : Platform) (h : Heap) (dest a b r s1 s2 : Nat)
    (xd xa xb xr x1 x2 : FFBI)
    (hgd : h.get dest = some xd) (hga : h.get a = some xa) (hgb : h.get b = some xb)
    (hgr : h.get r = some xr) (hg1 : h.get s1 = some x1) (hg2 : h.get s2 = some x2)
    (hdr : dest ≠ r) (hd1 : dest ≠ s1) (hd2 : dest ≠ s2) (hr1 : r ≠ s1) (hr2 : r ≠ s2)
    (h12 : s1 ≠ s2)
    (hda : dest ≠ a) (hra : r ≠ a) (h1a : s1 ≠ a) (h2a : s2 ≠ a)
    (hdb : dest ≠ b) (hrb : r ≠ b) (h1b : s1 ≠ b) (h2b : s2 ≠ b)
    (wa : wellFormed P xa) (wb : wellFormed P xb)
    (hau : xa.num_used_digits = 1) (hbu : xb.num_used_digits = 1) (hb0 : val P xb ≠ 0)
    (od : outputReady xd) (orr : outputReady xr) (o1 : outputReady x1) (o2 : outputReady x2) :
    ffbi_div_impl P h dest a b (some r) s1 s2
      = obind (if val P xa < val P xb then div_small P h dest a (some r)
          else if val P xa = val P xb then div_equal h dest (some r)
          else div_digits P h dest a b (some r) s1 s2) (fun h' => some (0, h')) ∧
    ∃ h' xq xr', ffbi_div_impl P h dest a b (some r) s1 s2 = some (0, h') ∧
      h'.get dest = some xq ∧ h'.get r = some xr' ∧
      canonical P xq ∧ xq.num_used_digits = 1 ∧ val P xq = val P xa / val P xb ∧
      canonical P xr' ∧ xr'.num_used_digits = 1 ∧ val P xr' = val P xa % val P xb ∧
      Heap.frame [dest, r, s1, s2] h h' := by
  have hpath := div_impl_single_path P h dest a b (some r) s1 s2 xa xb hga hgb wa.1 wb.1 hau hbu
  rw [val_one P xb hbu] at hb0
  rw [val_one P xa hau, val_one P xb hbu]
  refine ⟨hpath, ?_⟩
  rw [hpath]
  have bo : ∀ (x : FFBI) (n : Nat), outputReady x → bufferOf x n := fun x n o => ⟨o.2.1, o.2.2, fun _ => o.1⟩
  have hdl : 0 < xd.digits.length := by have := od.2.1.1; have := od.2.2; omega
  have hrl : 0 < xr.digits.length := by have := orr.2.1.1; have := orr.2.2; omega
  have haD : xa.digits.getD 0 0 < 2 ^ FFBI_BITS_PER_DIGIT P := wa.1.2.2.1 0 (by rw [hau]; decide)
  have e1 : ∀ q', q' ∈ [dest, r] → q' ∈ [dest, r, s1, s2] := fun q' hq' => by
    simp only [List.mem_cons, List.mem_singleton, List.not_mem_nil, or_false] at hq' ⊢
    rcases hq' with hq' | hq'
    · exact Or.inl hq'
    · exact Or.inr (Or.inl hq')
  by_cases hlt : xa.digits.getD 0 0 < xb.digits.getD 0 0
  · obtain ⟨h', xr', d1, d2, d3, d4, d5, d6, _, _, _, _, d11, _, _⟩ := div_small_spec P h dest a r xd xa xr
      hgd hga hgr hda hdr hra wa hdl orr.2.1 (fun _ => orr.1)
    refine ⟨h', _, xr', ?_, d2, d3, ?_, rfl, ?_, d4, by rw [d6, hau], ?_, Heap.frame_mono d11 e1⟩
    · rw [if_pos hlt, d1, obind_some]
    · exact one_digit_canonical P _ rfl (by show 0 < (xd.digits.set 0 0).length; rw [List.length_set]; exact hdl)
        (by rw [show ({ xd with num_used_digits := 1, digits := xd.digits.set 0 0, cache_valid := false } : FFBI).digits.getD 0 0 = 0 from @getD_set_same xd.digits 0 _ hdl]
            exact Nat.pos_pow_of_pos _ (by decide))
    · rw [val_one P _ rfl, Nat.div_eq_of_lt hlt]
      exact @getD_set_same xd.digits 0 _ hdl
    · rw [d5, val_one P xa hau, Nat.mod_eq_of_lt hlt]
  · rw [if_neg hlt]
    by_cases heq : xa.digits.getD 0 0 = xb.digits.getD 0 0
    · have g1 : (h.upd dest { xd with num_used_digits := 1, digits := xd.digits.set 0 1, cache_valid := false }).get r
          = some xr := by
        rw [Heap.get_upd_ne _ _ (Ne.symm hdr)]; exact hgr
      refine ⟨_, { xd with num_used_digits := 1, digits := xd.digits.set 0 1, cache_valid := false },
        { xr with num_used_digits := 1, digits := xr.digits.set 0 0, cache_valid := false }, ?_, ?_,
        Heap.get_upd_same _ g1, ?_, rfl, ?_, ?_, rfl, ?_, ?_⟩
      · rw [if_pos heq, div_equal_spec h dest r xd xr hgd hgr hdr hdl hrl, obind_some]
      · rw [Heap.get_upd_ne _ _ hdr]; exact Heap.get_upd_same _ hgd
      · exact one_digit_canonical P _ rfl (by show 0 < (xd.digits.set 0 1).length; rw [List.length_set]; exact hdl)
          (by rw [show ({ xd with num_used_digits := 1, digits := xd.digits.set 0 1, cache_valid := false } : FFBI).digits.getD 0 0 = 1 from @getD_set_same xd.digits 0 _ hdl]
              exact pow_bits_gt_one P)
      · rw [val_one P _ rfl, heq, Nat.div_self (Nat.pos_of_ne_zero hb0)]
        exact @getD_set_same xd.digits 0 _ hdl
      · exact one_digit_canonical P _ rfl (by show 0 < (xr.digits.set 0 0).length; rw [List.length_set]; exact hrl)
          (by rw [show ({ xr with num_used_digits := 1, digits := xr.digits.set 0 0, cache_valid := false } : FFBI).digits.getD 0 0 = 0 from @getD_set_same xr.digits 0 _ hrl]
              exact Nat.pos_pow_of_pos _ (by decide))
      · rw [val_one P _ rfl, heq, Nat.mod_self]
        exact @getD_set_same xr.digits 0 _ hrl
      · have e2 : ∀ q', q' ∈ [dest] → q' ∈ [dest, r, s1, s2] := fun q' hq' => by
          rw [List.mem_singleton] at hq'; subst hq'; simp
        have e3 : ∀ q', q' ∈ [r] → q' ∈ [dest, r, s1, s2] := fun q' hq' => by
          rw [List.mem_singleton] at hq'; subst hq'; simp
        exact Heap.frame_trans (Heap.frame_mono (Heap.frame_upd h dest _) e2)
          (Heap.frame_mono (Heap.frame_upd _ r _) e3) (fun _ hm => hm)
    · obtain ⟨h', xr', d1, d2, d3, d4, d5, d6, _, d8, _, _⟩ := div_digits_single_spec P h dest a b r s1 s2
        xd xa xb xr x1 x2 hgd hga hgb hgr hg1 hg2 hdr hd1 hd2 hr1 hr2 h12 hda hra h1a h2a hdb hrb h1b h2b
        wa wb hau hbu hb0 (by omega) (bo _ _ od) (bo _ _ orr) (bo _ _ o1) (bo _ _ o2)
      have hqD : xa.digits.getD 0 0 / xb.digits.getD 0 0 < 2 ^ FFBI_BITS_PER_DIGIT P :=
        Nat.lt_of_le_of_lt (Nat.div_le_self _ _) haD
      have hmD : xa.digits.getD 0 0 % xb.digits.getD 0 0 < 2 ^ FFBI_BITS_PER_DIGIT P :=
        Nat.lt_of_le_of_lt (Nat.mod_le _ _) haD
      refine ⟨h', _, xr', ?_, d2, d3, ?_, rfl, ?_, ?_, d4, ?_, d8⟩
      · rw [if_neg heq, d1, obind_some]
      · exact one_digit_canonical P _ rfl
          (by show 0 < (xd.digits.set 0 _).length; rw [List.length_set]; exact hdl)
          (by rw [show ({ xd with num_used_digits := 1, cache_valid := false, digits := xd.digits.set 0 (xa.digits.getD 0 0 / xb.digits.getD 0 0) } : FFBI).digits.getD 0 0 = xa.digits.getD 0 0 / xb.digits.getD 0 0 from @getD_set_same xd.digits 0 _ hdl]
              exact hqD)
      · rw [val_one P _ rfl]
        exact @getD_set_same xd.digits 0 _ hdl
      · exact one_digit_canonical P xr' d4 d6 (by rw [d5]; exact hmD)
      · rw [val_one P xr' d4, d5]

/-- Witness for C19: `17 / 5` on the 29-bit configuration takes the single-digit path and
leaves the quotient `val 17 / val 5` and the remainder `val 17 % val 5`. -/
theorem ffbi_div_impl_single_digit_witness :
    ffbi_div_impl .generic64
        (exHeap [exBig [0, 0, 0] 1, exBig [17, 0, 0] 1, exBig [5, 0, 0] 1, exBig [0, 0, 0] 1,
          exBig [0, 0, 0] 1, exBig [0, 0, 0] 1] 0) 0 1 2 (some 3) 4 5
      = obind (if val .generic64 (exBig [17, 0, 0] 1) < val .generic64 (exBig [5, 0, 0] 1) then
            div_small .generic64
              (exHeap [exBig [0, 0, 0] 1, exBig [17, 0, 0] 1, exBig [5, 0, 0] 1, exBig [0, 0, 0] 1,
                exBig [0, 0, 0] 1, exBig [0, 0, 0] 1] 0) 0 1 (some 3)
          else if val .generic64 (exBig [17, 0, 0] 1) = val .generic64 (exBig [5, 0, 0] 1) then
            div_equal
              (exHeap [exBig [0, 0, 0] 1, exBig [17, 0, 0] 1, exBig [5, 0, 0] 1, exBig [0, 0, 0] 1,
                exBig [0, 0, 0] 1, exBig [0, 0, 0] 1] 0) 0 (some 3)
          else div_digits .generic64
              (exHeap [exBig [0, 0, 0] 1, exBig [17, 0, 0] 1, exBig [5, 0, 0] 1, exBig [0, 0, 0] 1,
                exBig [0, 0, 0] 1, exBig [0, 0, 0] 1] 0) 0 1 2 (some 3) 4 5) (fun h' => some (0, h')) ∧
    ∃ h' xq xr', ffbi_div_impl .generic64
        (exHeap [exBig [0, 0, 0] 1, exBig [17, 0, 0] 1, exBig [5, 0, 0] 1, exBig [0, 0, 0] 1,
          exBig [0, 0, 0] 1, exBig [0, 0, 0] 1] 0) 0 1 2 (some 3) 4 5 = some (0, h') ∧
      h'.get 0 = some xq ∧ h'.get 3 = some xr' ∧
      canonical .generic64 xq ∧ xq.num_used_digits = 1 ∧
      val .generic64 xq = val .generic64 (exBig [17, 0, 0] 1) / val .generic64 (exBig [5, 0, 0] 1) ∧
      canonical .generic64 xr' ∧ xr'.num_used_digits = 1 ∧
      val .generic64 xr' = val .generic64 (exBig [17, 0, 0] 1) % val .generic64 (exBig [5, 0, 0] 1) ∧
      Heap.frame [0, 3, 4, 5]
        (exHeap [exBig [0, 0, 0] 1, exBig [17, 0, 0] 1, exBig [5, 0, 0] 1, exBig [0, 0, 0] 1,
          exBig [0, 0, 0] 1, exBig [0, 0, 0] 1] 0) h' :=
  ffbi_div_impl_single_digit .generic64
    (exHeap [exBig [0, 0, 0] 1, exBig [17, 0, 0] 1, exBig [5, 0, 0] 1, exBig [0, 0, 0] 1,
      exBig [0, 0, 0] 1, exBig [0, 0, 0] 1] 0) 0 1 2 3 4 5
    (exBig [0, 0, 0] 1) (exBig [17, 0, 0] 1) (exBig [5, 0, 0] 1) (exBig [0, 0, 0] 1)
    (exBig [0, 0, 0] 1) (exBig [0, 0, 0] 1) rfl rfl rfl rfl rfl rfl
    (by decide) (by decide) (by decide) (by decide) (by decide) (by decide)
    (by decide) (by decide) (by decide) (by decide) (by decide) (by decide) (by decide) (by decide)
    ⟨by decide, by decide, by decide, fun c hc => Option.noConfusion hc⟩
    ⟨by decide, by decide, by decide, fun c hc => Option.noConfusion hc⟩
    rfl rfl (by decide)
    ⟨rfl, ⟨by decide, fun c hc => Option.noConfusion hc⟩, by decide⟩
    ⟨rfl, ⟨by decide, fun c hc => Option.noConfusion hc⟩, by decide⟩
    ⟨rfl, ⟨by decide, fun c hc => Option.noConfusion hc⟩, by decide⟩
    ⟨rfl, ⟨by decide, fun c hc => Option.noConfusion hc⟩, by decide⟩


/-! # The scratch arenas are not touched by the bigint routines -/

theorem Heap.put_scr {h h' : Heap} {p : Nat} {y : FFBI} (hp : h.put p y = some h') :
    h'.scr = h.scr := by
  unfold Heap.put at hp
  by_cases hlt : p < h.obj.length
  · rw [if_pos hlt] at hp
    cases hp
    rfl
  · rw [if_neg hlt] at hp
    cases hp

theorem modify_scr {h h' : Heap} {p : Nat} {f : FFBI → FFBI} (hp : modify h p f = some h') :
    h'.scr = h.scr := by
  unfold modify at hp
  obtain ⟨x, _, hp⟩ := obind_eq_some.1 hp
  exact Heap.put_scr hp

theorem wrCache_scr {h h' : Heap} {p i v : Nat} (hp : wrCache h p i v = some h') :
    h'.scr = h.scr := by
  unfold wrCache at hp
  obtain ⟨x, _, hp⟩ := obind_eq_some.1 hp
  obtain ⟨c, _, hp⟩ := obind_eq_some.1 hp
  obtain ⟨c', _, hp⟩ := obind_eq_some.1 hp
  exact Heap.put_scr hp

theorem wrDigit_scr {h h' : Heap} {p i v : Nat} (hp : wrDigit h p i v = some h') :
    h'.scr = h.scr := by
  unfold wrDigit at hp
  obtain ⟨x, _, hp⟩ := obind_eq_some.1 hp
  obtain ⟨c', _, hp⟩ := obind_eq_some.1 hp
  exact Heap.put_scr hp

theorem forUp_scr (body : Nat → Heap → Option Heap)
    (hb : ∀ k s s', body k s = some s' → s'.scr = s.scr) :
    ∀ (n k : Nat) (s s' : Heap), forUp body n k s = some s' → s'.scr = s.scr := by
  intro n
  induction n with
  | zero =>
    intro k s s' hr
    cases hr
    rfl
  | succ n ih =>
    intro k s s' hr
    obtain ⟨t, h1, h2⟩ := obind_eq_some.1 hr
    rw [ih _ _ _ h2, hb _ _ _ h1]

theorem forDown_scr (body : Nat → Heap → Option Heap)
    (hb : ∀ k s s', body k s = some s' → s'.scr = s.scr) :
    ∀ (n : Nat) (s s' : Heap), forDown body n s = some s' → s'.scr = s.scr := by
  intro n
  induction n with
  | zero =>
    intro s s' hr
    cases hr
    rfl
  | succ n ih =>
    intro s s' hr
    obtain ⟨t, h1, h2⟩ := obind_eq_some.1 hr
    rw [ih _ _ h2, hb _ _ _ h1]

theorem whileLoop_scr (cond : Heap → Option Bool) (body : Heap → Option Heap)
    (hb : ∀ s s', body s = some s' → s'.scr = s.scr) :
    ∀ (fuel : Nat) (s s' : Heap), whileLoop cond body fuel s = some s' → s'.scr = s.scr := by
  intro fuel
  induction fuel with
  | zero =>
    intro s s' hr
    cases hr
  | succ n ih =>
    intro s s' hr
    obtain ⟨c, _, h2⟩ := obind_eq_some.1 hr
    cases c with
    | false =>
      simp only [Bool.false_eq_true, if_false] at h2
      cases h2
      rfl
    | true =>
      simp only [if_true] at h2
      obtain ⟨t, h3, h4⟩ := obind_eq_some.1 h2
      rw [ih _ _ h4, hb _ _ h3]

theorem cache_prepare_scr {P : Platform} {h h' : Heap} {p n : Nat} {r : Bool}
    (hp : ffbi_cache_prepare P h p n r = some h') : h'.scr = h.scr := by
  unfold ffbi_cache_prepare at hp
  obtain ⟨x, _, hp⟩ := obind_eq_some.1 hp
  cases hc : x.cache with
  | none =>
    rw [hc] at hp
    dsimp only at hp
    exact (Heap.put_scr hp).trans rfl
  | some c =>
    rw [hc] at hp
    dsimp only at hp
    by_cases hlt : x.cache_num_allocated_digits < n
    · rw [if_pos hlt] at hp
      obtain ⟨arr, _, hp⟩ := obind_eq_some.1 hp
      exact (Heap.put_scr hp).trans rfl
    · rw [if_neg hlt] at hp
      cases hp
      rfl

theorem reallocate_scr {P : Platform} {h h' : Heap} {p n : Nat} {r : Bool}
    (hp : ffbi_reallocate_digits P h p n r = some h') : h'.scr = h.scr := by
  unfold ffbi_reallocate_digits at hp
  obtain ⟨x, _, hp⟩ := obind_eq_some.1 hp
  by_cases hr : x.reallocation_allowed = false
  · rw [if_pos hr] at hp
    cases hp
    rfl
  · rw [if_neg hr] at hp
    cases r with
    | false =>
      simp only [Bool.false_eq_true, if_false] at hp
      split at hp
      · exact Heap.put_scr hp
      · exact (Heap.put_scr hp).trans rfl
    | true =>
      simp only [if_true] at hp
      by_cases h1 : (if n < x.num_used_digits then x.num_used_digits else n) = x.num_allocated_digits
      · rw [if_pos h1] at hp
        exact Heap.put_scr hp
      · rw [if_neg h1] at hp
        obtain ⟨arr, _, hp⟩ := obind_eq_some.1 hp
        exact (Heap.put_scr hp).trans rfl

theorem div_cache_mul_inner_scr {P : Platform} {dest a b k i : Nat} {h h' : Heap}
    (hp : div_cache_mul_inner P dest a b k i h = some h') : h'.scr = h.scr := by
  unfold div_cache_mul_inner at hp
  obtain ⟨_, _, hp⟩ := obind_eq_some.1 hp
  obtain ⟨_, _, hp⟩ := obind_eq_some.1 hp
  obtain ⟨_, _, hp⟩ := obind_eq_some.1 hp
  exact wrCache_scr hp

theorem div_cache_mul_carry_scr {P : Platform} {dest i : Nat} {h h' : Heap}
    (hp : div_cache_mul_carry P dest i h = some h') : h'.scr = h.scr := by
  unfold div_cache_mul_carry at hp
  obtain ⟨_, _, hp⟩ := obind_eq_some.1 hp
  obtain ⟨_, _, hp⟩ := obind_eq_some.1 hp
  obtain ⟨h1, e1, hp⟩ := obind_eq_some.1 hp
  obtain ⟨_, _, hp⟩ := obind_eq_some.1 hp
  rw [wrCache_scr hp, wrCache_scr e1]

theorem div_cache_mul_scr {P : Platform} {dest a b : Nat} {h h' : Heap}
    (hp : ffbi_div_cache_mul P h dest a b = some h') : h'.scr = h.scr := by
  unfold ffbi_div_cache_mul at hp
  obtain ⟨xa, _, hp⟩ := obind_eq_some.1 hp
  obtain ⟨xb, _, hp⟩ := obind_eq_some.1 hp
  obtain ⟨h1, e1, hp⟩ := obind_eq_some.1 hp
  obtain ⟨h2, e2, hp⟩ := obind_eq_some.1 hp
  obtain ⟨xd, _, hp⟩ := obind_eq_some.1 hp
  obtain ⟨c, _, hp⟩ := obind_eq_some.1 hp
  obtain ⟨c', _, hp⟩ := obind_eq_some.1 hp
  obtain ⟨h3, e3, hp⟩ := obind_eq_some.1 hp
  obtain ⟨h4, e4, hp⟩ := obind_eq_some.1 hp
  obtain ⟨h5, e5, hp⟩ := obind_eq_some.1 hp
  obtain ⟨xd5, _, hp⟩ := obind_eq_some.1 hp
  have s1 := cache_prepare_scr e1
  have s2 := modify_scr e2
  have s3 := Heap.put_scr e3
  have s4 := forUp_scr _ (fun k s s' hk => forUp_scr _ (fun i t t' hi => div_cache_mul_inner_scr hi)
    _ _ _ _ hk) _ _ _ _ e4
  have s5 : h5.scr = h4.scr := by
    split at e5
    · cases e5
    · exact forUp_scr _ (fun k s s' hk => div_cache_mul_carry_scr hk) _ _ _ _ e5
  have s6 : h'.scr = h5.scr := by
    split at hp
    · obtain ⟨top, _, hp⟩ := obind_eq_some.1 hp
      split at hp
      · exact modify_scr hp
      · cases hp
        rfl
    · cases hp
      rfl
  rw [s6, s5, s4, s3, s2, s1]

theorem cache_update_scr {P : Platform} {h h' : Heap} {p n : Nat}
    (hp : ffbi_cache_update P h p n = some h') : h'.scr = h.scr := by
  unfold ffbi_cache_update at hp
  obtain ⟨x, _, hp⟩ := obind_eq_some.1 hp
  split at hp
  · cases hp
    rfl
  · obtain ⟨top, _, hp⟩ := obind_eq_some.1 hp
    obtain ⟨ctx, _, hp⟩ := obind_eq_some.1 hp
    obtain ⟨c, _, hp⟩ := obind_eq_some.1 hp
    refine (Heap.put_scr hp).trans ?_
    unfold cache_update_array
    split
    · split
      · rfl
      · rfl
    · rfl

theorem cache_retrieve_scr {P : Platform} {h h' : Heap} {p : Nat}
    (hp : ffbi_cache_retrieve P h p = some h') : h'.scr = h.scr := by
  unfold ffbi_cache_retrieve at hp
  obtain ⟨x, _, hp⟩ := obind_eq_some.1 hp
  obtain ⟨c, _, hp⟩ := obind_eq_some.1 hp
  obtain ⟨top, _, hp⟩ := obind_eq_some.1 hp
  obtain ⟨ctx, _, hp⟩ := obind_eq_some.1 hp
  obtain ⟨h1, e1, hp⟩ := obind_eq_some.1 hp
  obtain ⟨h2, e2, hp⟩ := obind_eq_some.1 hp
  obtain ⟨x2, _, hp⟩ := obind_eq_some.1 hp
  obtain ⟨c2, _, hp⟩ := obind_eq_some.1 hp
  obtain ⟨ds, _, hp⟩ := obind_eq_some.1 hp
  have s1 : h1.scr = h.scr := by
    split at e1
    · exact reallocate_scr e1
    · cases e1
      rfl
  rw [Heap.put_scr hp, modify_scr e2, s1]


/-! # The correction loop of `ffbi_get_quotient_digit_cache` -/

theorem with_cache_self {x : FFBI} {c : List Nat} (hc : x.cache = some c) :
    { x with cache := some c } = x := by
  cases x
  simp only at hc
  subst hc
  rfl

theorem not_mem_three {z a b c : Nat} (h1 : z ≠ a) (h2 : z ≠ b) (h3 : z ≠ c) : z ∉ [a, b, c] := by
  simp only [List.mem_cons, List.mem_singleton, List.not_mem_nil, or_false]
  rintro (h | h | h)
  · exact h1 h
  · exact h2 h
  · exact h3 h

/-- The correction loop of `ffbi_get_quotient_digit_cache`: starting from a trial quotient `qh`
that is at least the true quotient digit `R / Bv` (which is at least 1), the loop decrements the
trial quotient until `scratch = product * b` no longer exceeds the remainder, and then the
quotient digit, `product->cache[0]` and `scratch` hold `R / Bv`, `R / Bv` and `(R / Bv) * Bv`. -/
theorem correct_cache_loop_spec (P : Platform) (h : Heap) (k q rem b product scratch : Nat)
    (xq xr xb xp xs : FFBI) (cq cr cb cp cs : List Nat) (qh R Bv : Nat)
    (hgq : h.get q = some xq) (hcq : xq.cache = some cq) (hk : k < cq.length)
    (hqk : cq.getD k 0 = qh)
    (hgp : h.get product = some xp) (hcp : xp.cache = some cp)
    (hp1 : xp.cache_num_used_digits = 1) (hpl : 0 < cp.length) (hp0 : cp.getD 0 0 = qh)
    (hgs : h.get scratch = some xs) (hcs : cacheHolds xs cs (xb.cache_num_used_digits + 1))
    (ccs : canonicalDigits (FFBI_CACHE_DIV_BITS_PER_DIGIT P) cs xs.cache_num_used_digits)
    (hsv : digitsVal (FFBI_CACHE_DIV_BITS_PER_DIGIT P) cs xs.cache_num_used_digits = qh * Bv)
    (hgr : h.get rem = some xr) (hcr : xr.cache = some cr)
    (ccr : canonicalDigits (FFBI_CACHE_DIV_BITS_PER_DIGIT P) cr xr.cache_num_used_digits)
    (hR : digitsVal (FFBI_CACHE_DIV_BITS_PER_DIGIT P) cr xr.cache_num_used_digits = R)
    (hgb : h.get b = some xb) (hcb : xb.cache = some cb)
    (ccb : canonicalDigits (FFBI_CACHE_DIV_BITS_PER_DIGIT P) cb xb.cache_num_used_digits)
    (hBv : digitsVal (FFBI_CACHE_DIV_BITS_PER_DIGIT P) cb xb.cache_num_used_digits = Bv)
    (hqp : q ≠ product) (hqs : q ≠ scratch) (hps : product ≠ scratch)
    (hrq : rem ≠ q) (hrp : rem ≠ product) (hrs : rem ≠ scratch)
    (hbq : b ≠ q) (hbp : b ≠ product) (hbs : b ≠ scratch)
    (hbv : Bv ≠ 0) (hge : Bv ≤ R) (hlo : R / Bv ≤ qh)
    (hhi : qh ≤ 2 ^ FFBI_CACHE_DIV_BITS_PER_DIGIT P) :
    ∃ h' xs' cs', whileLoop (correct_cache_cond rem product scratch)
        (correct_cache_body P k q b product scratch) (qh + 2) h = some h' ∧
      h'.get q = some { xq with cache := some (cq.set k (R / Bv)) } ∧
      h'.get product = some { xp with cache := some (cp.set 0 (R / Bv)) } ∧
      h'.get scratch = some xs' ∧ cacheHolds xs' cs' (xb.cache_num_used_digits + 1) ∧
      canonicalDigits (FFBI_CACHE_DIV_BITS_PER_DIGIT P) cs' xs'.cache_num_used_digits ∧
      digitsVal (FFBI_CACHE_DIV_BITS_PER_DIGIT P) cs' xs'.cache_num_used_digits = R / Bv * Bv ∧
      sameMain xs xs' ∧ xs'.cache_valid = xs.cache_valid ∧
      Heap.frame [q, product, scratch] h h' ∧ h'.obj.length = h.obj.length ∧ h'.scr = h.scr := by
  have hBpos : 0 < Bv := Nat.pos_of_ne_zero hbv
  have hq1 : 1 ≤ R / Bv := Nat.div_pos hge hBpos
  have key := whileLoop_inv (correct_cache_cond rem product scratch)
    (correct_cache_body P k q b product scratch)
    (fun t => ∃ p xs' cs', R / Bv ≤ p ∧ p ≤ qh ∧
      t.get q = some { xq with cache := some (cq.set k p) } ∧
      t.get product = some { xp with cache := some (cp.set 0 p) } ∧
      t.get scratch = some xs' ∧ cacheHolds xs' cs' (xb.cache_num_used_digits + 1) ∧
      canonicalDigits (FFBI_CACHE_DIV_BITS_PER_DIGIT P) cs' xs'.cache_num_used_digits ∧
      digitsVal (FFBI_CACHE_DIV_BITS_PER_DIGIT P) cs' xs'.cache_num_used_digits = p * Bv ∧
      sameMain xs xs' ∧ xs'.cache_valid = xs.cache_valid ∧
      Heap.frame [q, product, scratch] h t ∧ t.obj.length = h.obj.length ∧ t.scr = h.scr)
    (fun t => (rdCache t product 0).getD 0) (qh + 2) h
    ⟨qh, xs, cs, hlo, Nat.le_refl _, by rw [← hqk, set_getD_self hk, with_cache_self hcq]; exact hgq,
      by rw [← hp0, set_getD_self hpl, with_cache_self hcp]; exact hgp,
      hgs, hcs, ccs, hsv, sameMain_refl xs, rfl, Heap.frame_refl _ _, rfl, rfl⟩
    (by
      show (rdCache h product 0).getD 0 < qh + 2
      rw [rdCache_eq hgp hcp hpl, hp0]
      show qh < qh + 2
      omega)
    (by
      rintro t ⟨p, xs', cs', i1, i2, i3, i4, i5, i6, i7, i8, i9, i10, i11, i12, i13⟩
      have gr : t.get rem = some xr := Heap.frame_get i11 hgr (not_mem_three hrq hrp hrs)
      unfold correct_cache_cond
      rw [ffbi_cmp_cache_spec _ gr i5 hcr i6.1 ccr i7, obind_some,
        rdCache_eq i4 rfl (by rw [List.length_set]; exact hpl), obind_some]
      split
      · exact ⟨_, rfl⟩
      · exact ⟨_, rfl⟩)
    (by
      rintro t ⟨p, xs', cs', i1, i2, i3, i4, i5, i6, i7, i8, i9, i10, i11, i12, i13⟩ hc
      have gr : t.get rem = some xr := Heap.frame_get i11 hgr (not_mem_three hrq hrp hrs)
      have gb : t.get b = some xb := Heap.frame_get i11 hgb (not_mem_three hbq hbp hbs)
      have hlt : R < p * Bv := by
        unfold correct_cache_cond at hc
        rw [ffbi_cmp_cache_spec _ gr i5 hcr i6.1 ccr i7, obind_some, hR, i8] at hc
        by_cases hlt : R < p * Bv
        · exact hlt
        · rw [if_neg (cmpVal_ne_neg (by omega))] at hc
          cases hc
      have hp : R / Bv < p := (Nat.div_lt_iff_lt_mul hBpos).2 hlt
      have hpw : p < 2 ^ FFBI_CACHE_WORD_SIZE P :=
        Nat.lt_of_le_of_lt (Nat.le_trans i2 hhi)
          (Nat.pow_lt_pow_right (by decide) (cache_bits_lt_word P))
      have hsub : wsub (FFBI_CACHE_WORD_SIZE P) p 1 = p - 1 := wsub_eq hpw (by omega)
      have g2q : (t.upd product { xp with cache := some (cp.set 0 (p - 1)) }).get q
          = some { xq with cache := some (cq.set k p) } := by
        rw [Heap.get_upd_ne _ _ hqp]; exact i3
      have g3p : ((t.upd product { xp with cache := some (cp.set 0 (p - 1)) }).upd q
          { xq with cache := some (cq.set k (p - 1)) }).get product
          = some { xp with cache := some (cp.set 0 (p - 1)) } := by
        rw [Heap.get_upd_ne _ _ (Ne.symm hqp)]; exact Heap.get_upd_same _ i4
      have g3s : ((t.upd product { xp with cache := some (cp.set 0 (p - 1)) }).upd q
          { xq with cache := some (cq.set k (p - 1)) }).get scratch = some xs' := by
        rw [Heap.get_upd_ne _ _ (Ne.symm hqs), Heap.get_upd_ne _ _ (Ne.symm hps)]; exact i5
      have g3b : ((t.upd product { xp with cache := some (cp.set 0 (p - 1)) }).upd q
          { xq with cache := some (cq.set k (p - 1)) }).get b = some xb := by
        rw [Heap.get_upd_ne _ _ hbq, Heap.get_upd_ne _ _ hbp]; exact gb
      obtain ⟨h', xs2, cs2, m1, m2, m3, m4, m5, m6, m7, m8, m9⟩ := div_cache_mul_spec P _ scratch
        product b xs' { xp with cache := some (cp.set 0 (p - 1)) } xb (cp.set 0 (p - 1)) cb (p - 1)
        g3s (fun c hc' => by rw [i6.1] at hc'; cases hc'; exact i6.2.2) g3p rfl hp1
        (getD_set_same _ hpl) (by rw [List.length_set]; exact hpl) g3b hcb ccb (by rw [hBv]; exact hbv)
        hps hbs (by omega) (by omega)
      have hin : ∀ z, z ≠ scratch → z ∉ [scratch] := fun z hz => by simpa using hz
      refine ⟨h', ?_, ⟨p - 1, xs2, cs2, by omega, by omega, ?_, ?_, m2, m3, m4, ?_,
        sameMain_trans i9 m6, by rw [m7, i10], ?_, ?_, ?_⟩, ?_⟩
      · unfold correct_cache_body
        dsimp only
        rw [rdCache_eq i4 rfl (by rw [List.length_set]; exact hpl), obind_some,
          getD_set_same _ hpl, hsub,
          wrCache_eq _ i4 rfl (by rw [List.length_set]; exact hpl), obind_some,
          rdCache_eq (x := { xq with cache := some (cq.set k p) }) (by rw [Heap.get_upd_ne _ _ hqp]; exact i3) rfl
            (by rw [List.length_set]; exact hk), obind_some,
          getD_set_same _ hk, hsub,
          wrCache_eq (x := { xq with cache := some (cq.set k p) }) _ (by rw [Heap.get_upd_ne _ _ hqp]; exact i3) rfl
            (by rw [List.length_set]; exact hk)]
        dsimp only
        rw [List.set_set, List.set_set]
        exact m1
      · exact Heap.frame_get m8 (Heap.get_upd_same _ g2q) (hin q hqs)
      · exact Heap.frame_get m8 g3p (hin product hps)
      · rw [m5, hBv]
      · refine Heap.frame_trans (Heap.frame_trans (Heap.frame_trans i11
          (Heap.frame_mono (Heap.frame_upd t product _) ?_) (fun _ hm => hm))
          (Heap.frame_mono (Heap.frame_upd _ q _) ?_) (fun _ hm => hm))
          (Heap.frame_mono m8 ?_) (fun _ hm => hm)
        · intro z hz; rw [List.mem_singleton] at hz; subst hz; simp
        · intro z hz; rw [List.mem_singleton] at hz; subst hz; simp
        · intro z hz; rw [List.mem_singleton] at hz; subst hz; simp
      · rw [m9, Heap.upd_obj_length, Heap.upd_obj_length, i12]
      · rw [div_cache_mul_scr m1, Heap.upd_scr, Heap.upd_scr, i13]
      · show (rdCache h' product 0).getD 0 < (rdCache t product 0).getD 0
        rw [rdCache_eq (Heap.frame_get m8 g3p (hin product hps)) rfl
            (by rw [List.length_set]; exact hpl),
          rdCache_eq i4 rfl (by rw [List.length_set]; exact hpl),
          getD_set_same _ hpl, getD_set_same _ hpl]
        show p - 1 < p
        omega)
  obtain ⟨h', e1, ⟨p, xs', cs', i1, i2, i3, i4, i5, i6, i7, i8, i9, i10, i11, i12, i13⟩, e3⟩ := key
  have gr : h'.get rem = some xr := Heap.frame_get i11 hgr (not_mem_three hrq hrp hrs)
  have hpe : p = R / Bv := by
    unfold correct_cache_cond at e3
    rw [ffbi_cmp_cache_spec _ gr i5 hcr i6.1 ccr i7, obind_some, hR, i8,
      rdCache_eq i4 rfl (by rw [List.length_set]; exact hpl), obind_some,
      getD_set_same _ hpl] at e3
    by_cases hlt : R < p * Bv
    · rw [cmpVal_lt hlt, if_pos rfl] at e3
      have hp : R / Bv < p := (Nat.div_lt_iff_lt_mul hBpos).2 hlt
      have : decide (p ≠ 0) = true := decide_eq_true (by omega)
      rw [this] at e3
      cases e3
    · have : p ≤ R / Bv := (Nat.le_div_iff_mul_le hBpos).2 (by omega)
      omega
  subst hpe
  exact ⟨h', xs', cs', e1, i3, i4, i5, i6, i7, i8, i9, i10, i11, i12, i13⟩


/-! # The remainder update of `ffbi_get_quotient_digit_cache` -/

theorem digitsVal_shift (bits : Nat) (c d : List Nat) :
    ∀ n, (∀ i, i < n → c.getD (i + 1) 0 = d.getD i 0) →
      digitsVal bits c (n + 1) = c.getD 0 0 + 2 ^ bits * digitsVal bits d n := by
  intro n
  induction n with
  | zero =>
    intro _
    show 0 + c.getD 0 0 * 2 ^ (bits * 0) = c.getD 0 0 + 2 ^ bits * 0
    simp
  | succ n ih =>
    intro h
    show digitsVal bits c (n + 1) + c.getD (n + 1) 0 * 2 ^ (bits * (n + 1))
      = c.getD 0 0 + 2 ^ bits * (digitsVal bits d n + d.getD n 0 * 2 ^ (bits * n))
    rw [ih (fun i hi => h i (by omega)), h n (by omega), Nat.mul_succ, Nat.pow_add]
    ring

theorem Heap.upd_self {h : Heap} {p : Nat} {x : FFBI} (hg : h.get p = some x) : h.upd p x = h := by
  have hl : h.obj.set p x = h.obj := by
    apply List.ext_getElem? fun j => ?_
    rw [List.getElem?_set]
    split
    · next he =>
      subst he
      split
      · exact hg.symm
      · next hlt =>
        have := Heap.get_lt hg
        omega
    · rfl
  unfold Heap.upd
  rw [hl]

theorem cache_pow_lt_word (P : Platform) :
    2 ^ FFBI_CACHE_DIV_BITS_PER_DIGIT P < 2 ^ FFBI_CACHE_WORD_SIZE P :=
  Nat.pow_lt_pow_right (by decide) (cache_bits_lt_word P)

/-- The test `product->cache_num_used_digits > 1 || product->cache[0] > 0` on a canonical
cache: it holds exactly when the value is not zero. -/
theorem cache_nonzero_test (bits : Nat) {h : Heap} {p : Nat} {x : FFBI} {c : List Nat}
    (hg : h.get p = some x) (hc : x.cache = some c)
    (cc : canonicalDigits bits c x.cache_num_used_digits) :
    (if x.cache_num_used_digits > 1 then some true
      else obind (rdCache h p 0) fun p0 => some (decide (p0 > 0)))
      = some (decide (digitsVal bits c x.cache_num_used_digits ≠ 0)) := by
  by_cases h1 : x.cache_num_used_digits > 1
  · rw [if_pos h1]
    have htop : c.getD (x.cache_num_used_digits - 1) 0 ≠ 0 := by
      rcases cc.2.2.2 with c4 | c4
      · omega
      · exact c4
    have := canonical_ge_pow bits c _ cc.1 htop
    have hpos : 0 < 2 ^ (bits * (x.cache_num_used_digits - 1)) := Nat.pos_pow_of_pos _ (by decide)
    rw [decide_eq_true (by omega)]
  · have hn : x.cache_num_used_digits = 1 := by have := cc.1; omega
    rw [if_neg h1, rdCache_eq hg hc (by have := cc.2.1; omega), obind_some, hn, digitsVal_one]
    by_cases h0 : c.getD 0 0 = 0
    · rw [h0]
      rfl
    · rw [decide_eq_true (show c.getD 0 0 > 0 by omega), decide_eq_true h0]

/-- The loop of `ffbi_get_quotient_digit_cache` that copies the new remainder from `product`
into `rem`, shifted up by `nl` digits. -/
theorem qdc_copy_loop_spec (h : Heap) (rem product nl : Nat) (xr xp : FFBI) (c0 cp : List Nat)
    (n : Nat) (hgr : h.get rem = some xr) (hcr : xr.cache = some c0)
    (hgp : h.get product = some xp) (hcp : xp.cache = some cp)
    (hrp : rem ≠ product) (hnp : n ≤ cp.length) (hnr : n + nl ≤ c0.length)
    (hz : nl = 1 → c0.getD 0 0 = 0) (hnl : nl = 0 ∨ nl = 1) :
    ∃ c, forUp (fun k h => obind (rdCache h product k) fun v => wrCache h rem (k + nl) v) n 0 h
        = some (h.upd rem { xr with cache := some c }) ∧
      c.length = c0.length ∧ (∀ i, i < n → c.getD (i + nl) 0 = cp.getD i 0) ∧
      (nl = 1 → c.getD 0 0 = 0) ∧ (n = 0 → c = c0) := by
  have key := forUp_inv (fun k h => obind (rdCache h product k) fun v => wrCache h rem (k + nl) v)
    (fun j t => ∃ c, t = h.upd rem { xr with cache := some c } ∧ c.length = c0.length ∧
      (∀ i, i < j → c.getD (i + nl) 0 = cp.getD i 0) ∧ (nl = 1 → c.getD 0 0 = 0) ∧
      (j = 0 → c = c0))
    n 0 h
    ⟨c0, by rw [with_cache_self hcr, Heap.upd_self hgr], rfl, fun i hi => by omega, hz, fun _ => rfl⟩
    (by
      rintro j t _ hj ⟨c, rfl, i2, i3, i4, _⟩
      have gp : (h.upd rem { xr with cache := some c }).get product = some xp := by
        rw [Heap.get_upd_ne _ _ (Ne.symm hrp)]; exact hgp
      refine ⟨_, ?_, c.set (j + nl) (cp.getD j 0), rfl, by rw [List.length_set]; exact i2, ?_, ?_,
        fun hj0 => by omega⟩
      · dsimp only
        rw [rdCache_eq gp hcp (by omega), obind_some,
          wrCache_eq _ (Heap.get_upd_same _ hgr) rfl (by omega), Heap.upd_upd]
      · intro i hi
        by_cases hij : i = j
        · subst hij
          exact getD_set_same _ (by omega)
        · rw [getD_set_ne _ _ (by omega)]
          exact i3 i (by omega)
      · intro h1
        rw [getD_set_ne _ _ (by omega)]
        exact i4 h1)
  obtain ⟨t, e1, c, rfl, i2, i3, i4, i5⟩ := key
  exact ⟨c, e1, i2, fun i hi => i3 i (by omega), i4, fun hn => i5 (by omega)⟩

/-- The end of the branch `r > b` of `ffbi_get_quotient_digit_cache`: `rem` receives the value
`V` of `product`, shifted by one digit with the next dividend digit brought in when this is not
the last quotient digit. -/
theorem qdc_update_spec (P : Platform) (h : Heap) (k rem a product nl : Nat) (xr xa xp : FFBI)
    (cr ca cp : List Nat) (V : Nat)
    (hgr : h.get rem = some xr) (hcr : xr.cache = some cr)
    (hcap : xp.cache_num_used_digits + nl ≤ xr.cache_num_allocated_digits)
    (hrl : xr.cache_num_allocated_digits ≤ cr.length)
    (hgp : h.get product = some xp) (hcp : xp.cache = some cp)
    (ccp : canonicalDigits (FFBI_CACHE_DIV_BITS_PER_DIGIT P) cp xp.cache_num_used_digits)
    (hV : digitsVal (FFBI_CACHE_DIV_BITS_PER_DIGIT P) cp xp.cache_num_used_digits = V)
    (hga : h.get a = some xa) (hca : xa.cache = some ca)
    (hnl : nl = 0 ∨ nl = 1) (hnk : nl ≤ k) (hka : k - nl < ca.length)
    (hd : ca.getD (k - nl) 0 < 2 ^ FFBI_CACHE_DIV_BITS_PER_DIGIT P)
    (hrp : rem ≠ product) (hra : rem ≠ a) :
    ∃ cr' n', qdc_update P h k rem a product nl
        = some (h.upd rem { xr with cache := some cr', cache_num_used_digits := n' }) ∧
      cr'.length = cr.length ∧ canonicalDigits (FFBI_CACHE_DIV_BITS_PER_DIGIT P) cr' n' ∧
      digitsVal (FFBI_CACHE_DIV_BITS_PER_DIGIT P) cr' n'
        = V * 2 ^ (FFBI_CACHE_DIV_BITS_PER_DIGIT P * nl) + nl * ca.getD (k - nl) 0 := by
  generalize hdv : ca.getD (k - nl) 0 = d at *
  have hBw := cache_pow_lt_word P
  have hmul : wmul (FFBI_CACHE_WORD_SIZE P) d nl = d * nl := by
    apply wmul_eq
    rcases hnl with rfl | rfl
    · rw [Nat.mul_zero]; exact Nat.pos_pow_of_pos _ (by decide)
    · omega
  have hrd : rdCacheI h a ((k : Int) - (nl : Int)) = some d := by
    rw [rdCacheI_eq hga hca _ (k - nl) (Int.ofNat_sub hnk).symm hka, hdv]
  have hrdu : ∀ y, rdCacheI (h.upd rem y) a ((k : Int) - (nl : Int)) = some d := by
    intro y
    rw [← hrd]
    unfold rdCacheI
    rw [rdCache_upd_ne _ _ _ (Ne.symm hra)]
  unfold qdc_update
  dsimp only
  rw [hgp, obind_some, cache_nonzero_test _ hgp hcp ccp, obind_some, hV]
  generalize hn : xp.cache_num_used_digits = n at *
  obtain ⟨c1, c2, c3, c4⟩ := ccp
  by_cases hV0 : V = 0
  · -- the new remainder is zero
    obtain ⟨hn1, hp0⟩ := canonical_zero_length _ _ _ ⟨c1, c2, c3, c4⟩ (hV.trans hV0)
    subst hn1
    rw [decide_eq_false (by omega), if_neg (by decide), modify_eq _ hgr, obind_some, hrdu, obind_some,
      wrCache_eq (x := { xr with cache_num_used_digits := 1 }) _ (Heap.get_upd_same _ hgr) hcr (by omega),
      Heap.upd_upd, hmul]
    refine ⟨cr.set 0 (d * nl), 1, rfl, by rw [List.length_set], ?_, ?_⟩
    · refine ⟨Nat.le_refl _, by rw [List.length_set]; omega, ?_, Or.inl rfl⟩
      intro i hi
      have hi0 : i = 0 := by omega
      subst hi0
      rw [getD_set_same _ (by omega)]
      rcases hnl with rfl | rfl
      · rw [Nat.mul_zero]; exact Nat.pos_pow_of_pos _ (by decide)
      · omega
    · rw [digitsVal_one, getD_set_same _ (by omega), hV0, Nat.zero_mul, Nat.zero_add, Nat.mul_comm]
  · -- the new remainder is not zero
    rw [decide_eq_true hV0, if_pos rfl, modify_eq _ hgr, obind_some, Heap.get_upd_same _ hgr, obind_some]
    dsimp only
    rw [if_neg (by omega), obind_some,
      wrCache_eq (x := { xr with cache_num_used_digits := n + nl }) _ (Heap.get_upd_same _ hgr) hcr (by omega),
      obind_some, Heap.upd_upd, Heap.get_upd_ne _ _ (Ne.symm hrp), hgp, obind_some, hn]
    obtain ⟨c, l1, l2, l3, l4, _⟩ := qdc_copy_loop_spec
      (h.upd rem { xr with cache_num_used_digits := n + nl, cache := some (cr.set 0 0) }) rem product nl
      { xr with cache_num_used_digits := n + nl, cache := some (cr.set 0 0) } xp (cr.set 0 0) cp n
      (Heap.get_upd_same _ hgr) rfl (by rw [Heap.get_upd_ne _ _ (Ne.symm hrp)]; exact hgp) hcp hrp c2
      (by rw [List.length_set]; omega) (fun _ => getD_set_same _ (by omega)) hnl
    rw [List.length_set] at l2
    have hc0 : c.getD 0 0 + d * nl < 2 ^ FFBI_CACHE_WORD_SIZE P := by
      rcases hnl with rfl | rfl
      · have := l3 0 (by omega)
        have := c3 0 (by omega)
        simp only [Nat.add_zero] at *
        omega
      · rw [l4 rfl]; omega
    rw [l1, obind_some, Heap.upd_upd, hrdu, obind_some,
      rdCache_eq (x := { xr with cache_num_used_digits := n + nl, cache := some c })
        (Heap.get_upd_same _ hgr) rfl (by omega), obind_some,
      wrCache_eq (x := { xr with cache_num_used_digits := n + nl, cache := some c }) _
        (Heap.get_upd_same _ hgr) rfl (by omega), Heap.upd_upd, hmul, wadd_eq hc0]
    refine ⟨c.set 0 (c.getD 0 0 + d * nl), n + nl, rfl, by rw [List.length_set]; exact l2, ?_, ?_⟩
    · have htop : cp.getD (n - 1) 0 ≠ 0 :=
        top_digit_ne_zero _ cp n ⟨c1, c2, c3, c4⟩ (by rw [hV]; exact hV0)
      refine ⟨by omega, by rw [List.length_set]; omega, ?_, Or.inr ?_⟩
      · intro i hi
        rcases hnl with rfl | rfl
        · by_cases hi0 : i = 0
          · subst hi0
            rw [getD_set_same _ (by omega), Nat.mul_zero, Nat.add_zero]
            have := l3 0 (by omega)
            simp only [Nat.add_zero] at this
            rw [this]
            exact c3 0 (by omega)
          · rw [getD_set_ne _ _ hi0]
            have := l3 i (by omega)
            simp only [Nat.add_zero] at this
            rw [this]
            exact c3 i (by omega)
        · by_cases hi0 : i = 0
          · subst hi0
            rw [getD_set_same _ (by omega), l4 rfl]
            omega
          · rw [getD_set_ne _ _ hi0]
            have := l3 (i - 1) (by omega)
            rw [Nat.sub_add_cancel (by omega)] at this
            rw [this]
            exact c3 _ (by omega)
      · rcases hnl with rfl | rfl
        · by_cases hn1 : n = 1
          · subst hn1
            show (c.set 0 (c.getD 0 0 + d * 0)).getD (1 + 0 - 1) 0 ≠ 0
            rw [getD_set_same _ (by omega), Nat.mul_zero, Nat.add_zero]
            have := l3 0 (by omega)
            simp only [Nat.add_zero] at this
            rw [this]
            exact htop
          · rw [getD_set_ne _ _ (by omega)]
            have := l3 (n - 1) (by omega)
            simp only [Nat.add_zero] at this ⊢
            rw [this]
            exact htop
        · rw [getD_set_ne _ _ (by omega)]
          have := l3 (n - 1) (by omega)
          rw [Nat.sub_add_cancel (by omega)] at this
          show (c.getD (n + 1 - 1) 0) ≠ 0
          rw [Nat.add_sub_cancel, this]
          exact htop
    · rcases hnl with rfl | rfl
      · simp only [Nat.mul_zero, Nat.pow_zero, Nat.mul_one, Nat.zero_mul, Nat.add_zero]
        rw [← hV]
        apply digitsVal_congr
        intro i hi
        by_cases hi0 : i = 0
        · subst hi0
          rw [getD_set_same _ (by omega)]
          have := l3 0 (by omega)
          simpa using this
        · rw [getD_set_ne _ _ hi0]
          have := l3 i hi
          simpa using this
      · rw [digitsVal_shift _ _ cp n (fun i hi => by
          rw [getD_set_ne _ _ (by omega)]
          exact l3 i hi), getD_set_same _ (by omega), l4 rfl, hV, Nat.mul_one, Nat.mul_one,
          Nat.one_mul, Nat.zero_add]
        ring


/-! # The branches `r == b` and `r < b` of `ffbi_get_quotient_digit_cache` -/

/-- The branch `r == b`: the quotient digit is 1 and the remainder restarts from the next
dividend digit. -/
theorem qdc_equal_spec (P : Platform) (h : Heap) (k q rem a nl : Nat) (xq xr xa : FFBI)
    (cq cr ca : List Nat) (rn : Nat)
    (hgq : h.get q = some { xq with cache := some cq }) (hk : k < cq.length)
    (hgr : h.get rem = some { xr with cache := some cr, cache_num_used_digits := rn })
    (hrl : 0 < cr.length)
    (hga : h.get a = some xa) (hca : xa.cache = some ca)
    (hnl : (nl = 0 ∧ k = 0) ∨ (nl = 1 ∧ 0 < k)) (hka : k - nl < ca.length)
    (hd : ca.getD (k - nl) 0 < 2 ^ FFBI_CACHE_DIV_BITS_PER_DIGIT P)
    (hqr : q ≠ rem) (hqa : a ≠ q) (hra : a ≠ rem) :
    ∃ cr', qdc_equal h k q rem a
        = some ((h.upd q { xq with cache := some (cq.set k 1) }).upd rem
            { xr with cache := some cr', cache_num_used_digits := 1 }) ∧
      cr'.length = cr.length ∧ canonicalDigits (FFBI_CACHE_DIV_BITS_PER_DIGIT P) cr' 1 ∧
      digitsVal (FFBI_CACHE_DIV_BITS_PER_DIGIT P) cr' 1 = nl * ca.getD (k - nl) 0 := by
  have g1r : (h.upd q { xq with cache := some (cq.set k 1) }).get rem
      = some { xr with cache := some cr, cache_num_used_digits := rn } := by
    rw [Heap.get_upd_ne _ _ (Ne.symm hqr)]; exact hgr
  unfold qdc_equal
  rw [wrCache_eq _ hgq rfl hk, obind_some, modify_eq _ g1r, obind_some]
  rcases hnl with ⟨rfl, rfl⟩ | ⟨rfl, hk0⟩
  · rw [if_neg (by decide),
      wrCache_eq (x := { xr with cache := some cr, cache_num_used_digits := 1 }) _
        (Heap.get_upd_same _ g1r) rfl hrl, Heap.upd_upd]
    refine ⟨cr.set 0 0, rfl, by rw [List.length_set], ?_, ?_⟩
    · refine ⟨Nat.le_refl _, by rw [List.length_set]; exact hrl, ?_, Or.inl rfl⟩
      intro i hi
      have hi0 : i = 0 := by omega
      subst hi0
      rw [getD_set_same _ hrl]
      exact Nat.pos_pow_of_pos _ (by decide)
    · rw [digitsVal_one, getD_set_same _ hrl, Nat.zero_mul]
  · rw [if_pos hk0,
      rdCache_eq (x := xa) (by rw [Heap.get_upd_ne _ _ hra, Heap.get_upd_ne _ _ hqa]; exact hga) hca hka,
      obind_some,
      wrCache_eq (x := { xr with cache := some cr, cache_num_used_digits := 1 }) _
        (Heap.get_upd_same _ g1r) rfl hrl, Heap.upd_upd]
    refine ⟨cr.set 0 (ca.getD (k - 1) 0), rfl, by rw [List.length_set], ?_, ?_⟩
    · refine ⟨Nat.le_refl _, by rw [List.length_set]; exact hrl, ?_, Or.inl rfl⟩
      intro i hi
      have hi0 : i = 0 := by omega
      subst hi0
      rw [getD_set_same _ hrl]
      exact hd
    · rw [digitsVal_one, getD_set_same _ hrl, Nat.one_mul]

/-- The loop of the branch `r < b` that shifts the remainder up by one digit. -/
theorem qdc_shift_loop_spec (h : Heap) (rem : Nat) (xr : FFBI) (c0 : List Nat) (n : Nat)
    (hgr : h.get rem = some xr) (hcr : xr.cache = some c0) (hn : n + 1 ≤ c0.length) :
    ∃ c, forDown (fun k h => obind (rdCache h rem k) fun v => wrCache h rem (k + 1) v) n h
        = some (h.upd rem { xr with cache := some c }) ∧
      c.length = c0.length ∧ (∀ j, j < n → c.getD (j + 1) 0 = c0.getD j 0) := by
  have key := forDown_inv (fun k h => obind (rdCache h rem k) fun v => wrCache h rem (k + 1) v)
    (fun i t => ∃ c, t = h.upd rem { xr with cache := some c } ∧ c.length = c0.length ∧
      (∀ j, i ≤ j → j < n → c.getD (j + 1) 0 = c0.getD j 0) ∧
      (∀ j, j ≤ i → c.getD j 0 = c0.getD j 0))
    n h
    ⟨c0, by rw [with_cache_self hcr, Heap.upd_self hgr], rfl, fun j h1 h2 => by omega, fun _ _ => rfl⟩
    (by
      rintro i t hi ⟨c, rfl, i2, i3, i4⟩
      refine ⟨_, ?_, c.set (i + 1) (c.getD i 0), rfl, by rw [List.length_set]; exact i2, ?_, ?_⟩
      · dsimp only
        rw [rdCache_eq (Heap.get_upd_same _ hgr) rfl (by omega), obind_some,
          wrCache_eq _ (Heap.get_upd_same _ hgr) rfl (by omega), Heap.upd_upd]
      · intro j h1 h2
        by_cases hji : j = i
        · subst hji
          rw [getD_set_same _ (by omega)]
          exact i4 j (by omega)
        · rw [getD_set_ne _ _ (by omega)]
          exact i3 j (by omega) h2
      · intro j hj
        rw [getD_set_ne _ _ (by omega)]
        exact i4 j (by omega))
  obtain ⟨t, e1, c, rfl, i2, i3, _⟩ := key
  exact ⟨c, e1, i2, fun j hj => i3 j (by omega) hj⟩

/-- The branch `r < b`: the quotient digit is 0 and the remainder is shifted up by one digit
with the next dividend digit brought in (nothing happens at the last quotient digit). -/
theorem qdc_less_spec (P : Platform) (h : Heap) (k q rem a nl : Nat) (xq xr xa : FFBI)
    (cq cr ca : List Nat) (rn R : Nat)
    (hgq : h.get q = some { xq with cache := some cq }) (hk : k < cq.length)
    (hgr : h.get rem = some { xr with cache := some cr, cache_num_used_digits := rn })
    (hrcap : rn + 1 ≤ xr.cache_num_allocated_digits)
    (hrl : xr.cache_num_allocated_digits ≤ cr.length)
    (ccr : canonicalDigits (FFBI_CACHE_DIV_BITS_PER_DIGIT P) cr rn)
    (hR : digitsVal (FFBI_CACHE_DIV_BITS_PER_DIGIT P) cr rn = R)
    (hga : h.get a = some xa) (hca : xa.cache = some ca)
    (hnl : (nl = 0 ∧ k = 0) ∨ (nl = 1 ∧ 0 < k)) (hka : k - nl < ca.length)
    (hd : ca.getD (k - nl) 0 < 2 ^ FFBI_CACHE_DIV_BITS_PER_DIGIT P)
    (hqr : q ≠ rem) (hqa : a ≠ q) (hra : a ≠ rem) :
    ∃ cr' rn', qdc_less P h k q rem a
        = some ((h.upd q { xq with cache := some (cq.set k 0) }).upd rem
            { xr with cache := some cr', cache_num_used_digits := rn' }) ∧
      cr'.length = cr.length ∧ canonicalDigits (FFBI_CACHE_DIV_BITS_PER_DIGIT P) cr' rn' ∧
      digitsVal (FFBI_CACHE_DIV_BITS_PER_DIGIT P) cr' rn'
        = R * 2 ^ (FFBI_CACHE_DIV_BITS_PER_DIGIT P * nl) + nl * ca.getD (k - nl) 0 := by
  have g1r : (h.upd q { xq with cache := some (cq.set k 0) }).get rem
      = some { xr with cache := some cr, cache_num_used_digits := rn } := by
    rw [Heap.get_upd_ne _ _ (Ne.symm hqr)]; exact hgr
  have g1a : (h.upd q { xq with cache := some (cq.set k 0) }).get a = some xa := by
    rw [Heap.get_upd_ne _ _ hqa]; exact hga
  unfold qdc_less
  rw [wrCache_eq _ hgq rfl hk, obind_some]
  rcases hnl with ⟨rfl, rfl⟩ | ⟨rfl, hk0⟩
  · rw [if_neg (by decide)]
    refine ⟨cr, rn, by rw [Heap.upd_self g1r], rfl, ccr, ?_⟩
    rw [hR, Nat.mul_zero, Nat.pow_zero, Nat.mul_one, Nat.zero_mul, Nat.add_zero]
  · obtain ⟨c1, c2, c3, c4⟩ := ccr
    rw [if_pos hk0, g1r, obind_some,
      cache_nonzero_test (FFBI_CACHE_DIV_BITS_PER_DIGIT P)
        (x := { xr with cache := some cr, cache_num_used_digits := rn }) g1r rfl ⟨c1, c2, c3, c4⟩,
      obind_some]
    dsimp only
    rw [hR]
    by_cases hR0 : R = 0
    · obtain ⟨hn1, hp0⟩ := canonical_zero_length _ _ _ ⟨c1, c2, c3, c4⟩ (hR.trans hR0)
      subst hn1
      rw [decide_eq_false (by omega), if_neg (by decide), obind_some, rdCache_eq g1a hca hka, obind_some,
        wrCache_eq _ g1r rfl (by omega)]
      refine ⟨cr.set 0 (ca.getD (k - 1) 0), 1, rfl, by rw [List.length_set], ?_, ?_⟩
      · refine ⟨Nat.le_refl _, by rw [List.length_set]; omega, ?_, Or.inl rfl⟩
        intro i hi
        have hi0 : i = 0 := by omega
        subst hi0
        rw [getD_set_same _ (by omega)]
        exact hd
      · rw [digitsVal_one, getD_set_same _ (by omega), hR0, Nat.zero_mul, Nat.zero_add, Nat.one_mul]
    · rw [decide_eq_true hR0, if_pos rfl, modify_eq _ g1r, obind_some, Heap.get_upd_same _ g1r, obind_some]
      dsimp only
      rw [if_neg (by omega), obind_some]
      obtain ⟨c, l1, l2, l3⟩ := qdc_shift_loop_spec
        ((h.upd q { xq with cache := some (cq.set k 0) }).upd rem
          { xr with cache := some cr, cache_num_used_digits := rn + 1 }) rem
        { xr with cache := some cr, cache_num_used_digits := rn + 1 } cr rn
        (Heap.get_upd_same _ g1r) rfl (by omega)
      rw [Nat.add_sub_cancel, l1, obind_some, Heap.upd_upd,
        rdCache_eq (x := xa) (by rw [Heap.get_upd_ne _ _ hra]; exact g1a) hca hka, obind_some,
        wrCache_eq (x := { xr with cache := some c, cache_num_used_digits := rn + 1 }) _
          (Heap.get_upd_same _ g1r) rfl (by omega), Heap.upd_upd]
      have htop : cr.getD (rn - 1) 0 ≠ 0 :=
        top_digit_ne_zero _ cr rn ⟨c1, c2, c3, c4⟩ (by rw [hR]; exact hR0)
      refine ⟨c.set 0 (ca.getD (k - 1) 0), rn + 1, rfl, by rw [List.length_set]; exact l2, ?_, ?_⟩
      · refine ⟨by omega, by rw [List.length_set]; omega, ?_, Or.inr ?_⟩
        · intro i hi
          by_cases hi0 : i = 0
          · subst hi0
            rw [getD_set_same _ (by omega)]
            exact hd
          · rw [getD_set_ne _ _ hi0]
            have := l3 (i - 1) (by omega)
            rw [Nat.sub_add_cancel (by omega)] at this
            rw [this]
            exact c3 _ (by omega)
        · rw [getD_set_ne _ _ (by omega)]
          have := l3 (rn - 1) (by omega)
          rw [Nat.sub_add_cancel (by omega)] at this
          show c.getD (rn + 1 - 1) 0 ≠ 0
          rw [Nat.add_sub_cancel, this]
          exact htop
      · rw [digitsVal_shift _ _ cr rn (fun i hi => by
          rw [getD_set_ne _ _ (by omega)]
          exact l3 i hi), getD_set_same _ (by omega), hR, Nat.mul_one, Nat.one_mul]
        ring


/-! # One quotient digit of the wide-digit division -/

theorem not_mem_four {z a b c d : Nat} (h1 : z ≠ a) (h2 : z ≠ b) (h3 : z ≠ c) (h4 : z ≠ d) :
    z ∉ [a, b, c, d] := by
  simp only [List.mem_cons, List.mem_singleton, List.not_mem_nil, or_false]
  rintro (h | h | h | h)
  · exact h1 h
  · exact h2 h
  · exact h3 h
  · exact h4 h

theorem frame_one_of_four {S : List Nat} {z : Nat} (hz : z ∈ S) : ∀ q', q' ∈ [z] → q' ∈ S := by
  intro q' hq'
  rw [List.mem_singleton] at hq'
  subst hq'
  exact hz

/-- The branch `r > b` of `ffbi_get_quotient_digit_cache`. -/
theorem qdc_greater_spec (P : Platform) (h : Heap) (k q rem a b product scratch nl : Nat)
    (xq xr xa xb xp xs : FFBI) (cq cr ca cb cp : List Nat) (rn pn R Bv : Nat)
    (hgq : h.get q = some { xq with cache := some cq }) (hk : k < cq.length)
    (hgr : h.get rem = some { xr with cache := some cr, cache_num_used_digits := rn })
    (hrcap : xb.cache_num_used_digits + 1 ≤ xr.cache_num_allocated_digits)
    (hrl : xr.cache_num_allocated_digits ≤ cr.length)
    (ccr : canonicalDigits (FFBI_CACHE_DIV_BITS_PER_DIGIT P) cr rn)
    (hR : digitsVal (FFBI_CACHE_DIV_BITS_PER_DIGIT P) cr rn = R)
    (hga : h.get a = some xa) (hca : xa.cache = some ca)
    (hnl : (nl = 0 ∧ k = 0) ∨ (nl = 1 ∧ 0 < k)) (hka : k - nl < ca.length)
    (hd : ca.getD (k - nl) 0 < 2 ^ FFBI_CACHE_DIV_BITS_PER_DIGIT P)
    (hgb : h.get b = some xb) (hcb : xb.cache = some cb)
    (ccb : canonicalDigits (FFBI_CACHE_DIV_BITS_PER_DIGIT P) cb xb.cache_num_used_digits)
    (hBv : digitsVal (FFBI_CACHE_DIV_BITS_PER_DIGIT P) cb xb.cache_num_used_digits = Bv)
    (hgp : h.get product = some { xp with cache := some cp, cache_num_used_digits := pn })
    (hpcap : xb.cache_num_used_digits + 1 ≤ xp.cache_num_allocated_digits)
    (hpl : xp.cache_num_allocated_digits ≤ cp.length)
    (hpb : xp.cache_bits_per_digit = FFBI_CACHE_DIV_BITS_PER_DIGIT P)
    (hgs : h.get scratch = some xs)
    (hsv : ∀ c, xs.cache = some c → xs.cache_num_allocated_digits ≤ c.length)
    (hgt : Bv < R) (hlt : R < 2 ^ FFBI_CACHE_DIV_BITS_PER_DIGIT P * Bv)
    (hqr : q ≠ rem) (hqp : q ≠ product) (hqs : q ≠ scratch) (hrp : rem ≠ product)
    (hrs : rem ≠ scratch) (hps : product ≠ scratch)
    (haq : a ≠ q) (har : a ≠ rem) (hap : a ≠ product) (has : a ≠ scratch)
    (hbq : b ≠ q) (hbr : b ≠ rem) (hbp : b ≠ product) (hbs : b ≠ scratch) :
    ∃ h' cr' rn' cp' pn' xs',
      (obind (qdc_estimate P h k q rem b xb.cache_num_used_digits) fun h =>
        obind (modify h product (fun x => { x with cache_num_used_digits := 1 })) fun h =>
        obind (rdCache h q k) fun qd =>
        obind (wrCache h product 0 qd) fun h =>
        obind (ffbi_div_cache_mul P h scratch product b) fun h =>
        obind (whileLoop (correct_cache_cond rem product scratch)
          (correct_cache_body P k q b product scratch) (qd + 2) h) fun h =>
        obind (ffbi_sub_cache P h product rem scratch) fun h =>
        obind (ffbi_cmp_cache h product b) fun _ =>
        qdc_update P h k rem a product nl) = some h' ∧
      h'.get q = some { xq with cache := some (cq.set k (R / Bv)) } ∧
      h'.get rem = some { xr with cache := some cr', cache_num_used_digits := rn' } ∧
      cr'.length = cr.length ∧ canonicalDigits (FFBI_CACHE_DIV_BITS_PER_DIGIT P) cr' rn' ∧
      digitsVal (FFBI_CACHE_DIV_BITS_PER_DIGIT P) cr' rn'
        = R % Bv * 2 ^ (FFBI_CACHE_DIV_BITS_PER_DIGIT P * nl) + nl * ca.getD (k - nl) 0 ∧
      h'.get product = some { xp with cache := some cp', cache_num_used_digits := pn' } ∧
      cp'.length = cp.length ∧
      h'.get scratch = some xs' ∧ sameMain xs xs' ∧ xs'.cache_valid = xs.cache_valid ∧
      (∀ c, xs'.cache = some c → xs'.cache_num_allocated_digits ≤ c.length) ∧
      Heap.frame [q, rem, product, scratch] h h' ∧ h'.obj.length = h.obj.length ∧
      h'.scr = h.scr := by
  subst hR
  subst hBv
  generalize hRv : digitsVal (FFBI_CACHE_DIV_BITS_PER_DIGIT P) cr rn = R at *
  generalize hBvv : digitsVal (FFBI_CACHE_DIV_BITS_PER_DIGIT P) cb xb.cache_num_used_digits = Bv at *
  have hBpos : 0 < Bv := Nat.pos_of_ne_zero (fun h0 => by rw [h0, Nat.mul_zero] at hlt; omega)
  have hq1 : 1 ≤ R / Bv := Nat.div_pos (Nat.le_of_lt hgt) hBpos
  have hcpl : 0 < cp.length := Nat.lt_of_lt_of_le (Nat.succ_pos _) (Nat.le_trans hpcap hpl)
  have hrn : rn ≤ xb.cache_num_used_digits + 1 :=
    len_le_succ_of_lt _ cr cb rn _ ccr ccb (by rw [hRv, hBvv]; exact hlt)
  -- the estimate
  obtain ⟨qh, t1, t2, t3⟩ := qdc_estimate_spec P h k q rem b { xq with cache := some cq }
    { xr with cache := some cr, cache_num_used_digits := rn } xb cq cr cb hgq rfl hk hgr rfl ccr
    hgb hcb ccb (Ne.symm hqr) hbq (by rw [hBvv]; omega) (by rw [hBvv, hRv]; exact hgt)
    (by rw [hBvv, hRv]; exact hlt)
  rw [hRv, hBvv] at t2
  have hfs : ∀ z, z ≠ scratch → z ∉ [scratch] := fun z hz => by simpa using hz
  -- the heap when the first product is computed
  have k3q : ((h.upd q { xq with cache := some (cq.set k qh) }).upd product
      { xp with cache := some (cp.set 0 qh), cache_num_used_digits := 1 }).get q
      = some { xq with cache := some (cq.set k qh) } := by
    rw [Heap.get_upd_ne _ _ hqp]; exact Heap.get_upd_same _ hgq
  have k1p : (h.upd q { xq with cache := some (cq.set k qh) }).get product
      = some { xp with cache := some cp, cache_num_used_digits := pn } := by
    rw [Heap.get_upd_ne _ _ (Ne.symm hqp)]; exact hgp
  have k3p : ((h.upd q { xq with cache := some (cq.set k qh) }).upd product
      { xp with cache := some (cp.set 0 qh), cache_num_used_digits := 1 }).get product
      = some { xp with cache := some (cp.set 0 qh), cache_num_used_digits := 1 } :=
    Heap.get_upd_same _ k1p
  have k3o : ∀ z x, z ≠ q → z ≠ product → h.get z = some x →
      ((h.upd q { xq with cache := some (cq.set k qh) }).upd product
        { xp with cache := some (cp.set 0 qh), cache_num_used_digits := 1 }).get z = some x := by
    intro z x h1 h2 h3
    rw [Heap.get_upd_ne _ _ h2, Heap.get_upd_ne _ _ h1]; exact h3
  obtain ⟨h4, xs4, cs4, m1, m2, m3, m4, m5, m6, m7, m8, m9⟩ := div_cache_mul_spec P _ scratch
    product b xs { xp with cache := some (cp.set 0 qh), cache_num_used_digits := 1 } xb
    (cp.set 0 qh) cb qh (k3o _ _ (Ne.symm hqs) (Ne.symm hps) hgs) hsv k3p rfl rfl
    (getD_set_same _ hcpl) (by rw [List.length_set]; exact hcpl) (k3o _ _ hbq hbp hgb) hcb ccb
    (by rw [hBvv]; omega) hps hbs (by omega) t3
  rw [hBvv] at m5
  have k4q := Heap.frame_get m8 k3q (hfs q hqs)
  have k4p := Heap.frame_get m8 k3p (hfs product hps)
  have k4r := Heap.frame_get m8 (k3o _ _ (Ne.symm hqr) hrp hgr) (hfs rem hrs)
  have k4b := Heap.frame_get m8 (k3o _ _ hbq hbp hgb) (hfs b hbs)
  have k4a := Heap.frame_get m8 (k3o _ _ haq hap hga) (hfs a has)
  -- the correction loop
  obtain ⟨h5, xs5, cs5, w1, w2, w3, w4, w5, w6, w7, w8, w9, w10, w11, w12⟩ :=
    correct_cache_loop_spec P h4 k q rem b product scratch { xq with cache := some (cq.set k qh) }
      { xr with cache := some cr, cache_num_used_digits := rn } xb
      { xp with cache := some (cp.set 0 qh), cache_num_used_digits := 1 } xs4
      (cq.set k qh) cr cb (cp.set 0 qh) cs4 qh R Bv k4q rfl (by rw [List.length_set]; exact hk)
      (getD_set_same _ hk) k4p rfl rfl (by rw [List.length_set]; exact hcpl) (getD_set_same _ hcpl)
      m2 m3 m4 m5 k4r rfl ccr hRv k4b hcb ccb hBvv hqp hqs hps (Ne.symm hqr) hrp hrs hbq hbp hbs
      (by omega) (Nat.le_of_lt hgt) t2 t3
  rw [List.set_set] at w2 w3
  have k5r := Heap.frame_get w10 k4r (not_mem_three (Ne.symm hqr) hrp hrs)
  have k5b := Heap.frame_get w10 k4b (not_mem_three hbq hbp hbs)
  have k5a := Heap.frame_get w10 k4a (not_mem_three haq hap has)
  have hqb : R / Bv * Bv ≤ R := Nat.div_mul_le_self _ _
  have hdm : R - R / Bv * Bv = R % Bv := by
    have := Nat.div_add_mod R Bv
    rw [Nat.mul_comm] at this
    omega
  -- the subtraction
  obtain ⟨cp6, pn6, s1, s2, s3, s4, s5⟩ := ffbi_sub_cache_spec P h5 product rem scratch
    { xp with cache := some (cp.set 0 (R / Bv)), cache_num_used_digits := 1 }
    { xr with cache := some cr, cache_num_used_digits := rn } xs5 (cp.set 0 (R / Bv)) cr cs5
    w3 k5r w4 hrp (Ne.symm hps)
    ⟨rfl, by show rn ≤ xp.cache_num_allocated_digits; omega,
      by show xp.cache_num_allocated_digits ≤ (cp.set 0 (R / Bv)).length; rw [List.length_set]; exact hpl⟩
    hpb rfl ccr w5.1 w6 (by rw [w7, hRv]; exact hqb)
  rw [w7, hRv, hdm] at s5
  rw [List.length_set] at s2
  have hmod : R % Bv < Bv := Nat.mod_lt _ hBpos
  have hpn6 : pn6 ≤ xb.cache_num_used_digits :=
    nb_le_na_of_val_le _ cb cp6 _ _ ccb s3 (by rw [s5, hBvv]; exact Nat.le_of_lt hmod)
  have k6q : (h5.upd product { xp with cache := some cp6, cache_num_used_digits := pn6 }).get q
      = some { xq with cache := some (cq.set k (R / Bv)) } := by
    rw [Heap.get_upd_ne _ _ hqp]; exact w2
  have k6p : (h5.upd product { xp with cache := some cp6, cache_num_used_digits := pn6 }).get product
      = some { xp with cache := some cp6, cache_num_used_digits := pn6 } := Heap.get_upd_same _ w3
  have k6r : (h5.upd product { xp with cache := some cp6, cache_num_used_digits := pn6 }).get rem
      = some { xr with cache := some cr, cache_num_used_digits := rn } := by
    rw [Heap.get_upd_ne _ _ hrp]; exact k5r
  have k6b : (h5.upd product { xp with cache := some cp6, cache_num_used_digits := pn6 }).get b
      = some xb := by
    rw [Heap.get_upd_ne _ _ hbp]; exact k5b
  have k6a : (h5.upd product { xp with cache := some cp6, cache_num_used_digits := pn6 }).get a
      = some xa := by
    rw [Heap.get_upd_ne _ _ hap]; exact k5a
  have k6s : (h5.upd product { xp with cache := some cp6, cache_num_used_digits := pn6 }).get scratch
      = some xs5 := by
    rw [Heap.get_upd_ne _ _ (Ne.symm hps)]; exact w4
  -- the update of the remainder
  obtain ⟨cr7, rn7, u1, u2, u3, u4⟩ := qdc_update_spec P _ k rem a product nl
    { xr with cache := some cr, cache_num_used_digits := rn } xa
    { xp with cache := some cp6, cache_num_used_digits := pn6 } cr ca cp6 (R % Bv)
    k6r rfl (by
      show pn6 + nl ≤ xr.cache_num_allocated_digits
      rcases hnl with ⟨rfl, _⟩ | ⟨rfl, _⟩ <;> omega) hrl k6p rfl s3 s5 k6a hca
    (by rcases hnl with ⟨rfl, _⟩ | ⟨rfl, _⟩ <;> simp)
    (by rcases hnl with ⟨rfl, _⟩ | ⟨rfl, _⟩ <;> omega) hka hd hrp (Ne.symm har)
  refine ⟨_, cr7, rn7, cp6, pn6, xs5, ?_, ?_, Heap.get_upd_same _ k6r, u2, u3, u4, ?_, s2, ?_,
    sameMain_trans m6 w8, by rw [w9, m7], fun c hc => by rw [w5.1] at hc; cases hc; exact w5.2.2,
    ?_, ?_, ?_⟩
  · rw [t1, obind_some, modify_eq _ k1p, obind_some,
      rdCache_eq (x := { xq with cache := some (cq.set k qh) })
        (by rw [Heap.get_upd_ne _ _ hqp]; exact Heap.get_upd_same _ hgq) rfl
        (by rw [List.length_set]; exact hk), obind_some, getD_set_same _ hk,
      wrCache_eq (x := { xp with cache := some cp, cache_num_used_digits := 1 }) _
        (Heap.get_upd_same _ k1p) rfl hcpl, obind_some, Heap.upd_upd, m1, obind_some, w1, obind_some,
      s1, obind_some, ffbi_cmp_cache_spec (FFBI_CACHE_DIV_BITS_PER_DIGIT P) k6p k6b rfl hcb s3 ccb,
      obind_some]
    exact u1
  · rw [Heap.get_upd_ne _ _ hqr]; exact k6q
  · rw [Heap.get_upd_ne _ _ (Ne.symm hrp)]; exact k6p
  · rw [Heap.get_upd_ne _ _ (Ne.symm hrs)]; exact k6s
  · have e1 : q ∈ [q, rem, product, scratch] := by simp
    have e2 : rem ∈ [q, rem, product, scratch] := by simp
    have e3 : product ∈ [q, rem, product, scratch] := by simp
    have e4 : scratch ∈ [q, rem, product, scratch] := by simp
    have f1 := Heap.frame_mono (Heap.frame_upd h q { xq with cache := some (cq.set k qh) })
      (frame_one_of_four e1)
    have f2 := Heap.frame_trans f1 (Heap.frame_mono (Heap.frame_upd _ product
      { xp with cache := some (cp.set 0 qh), cache_num_used_digits := 1 }) (frame_one_of_four e3))
      (fun _ hm => hm)
    have f3 := Heap.frame_trans f2 (Heap.frame_mono m8 (frame_one_of_four e4)) (fun _ hm => hm)
    have f4 := Heap.frame_trans f3 (Heap.frame_mono w10 (by
      intro z hz
      simp only [List.mem_cons, List.mem_singleton, List.not_mem_nil, or_false] at hz ⊢
      rcases hz with hz | hz | hz
      · exact Or.inl hz
      · exact Or.inr (Or.inr (Or.inl hz))
      · exact Or.inr (Or.inr (Or.inr hz)))) (fun _ hm => hm)
    have f5 := Heap.frame_trans f4 (Heap.frame_mono (Heap.frame_upd h5 product
      { xp with cache := some cp6, cache_num_used_digits := pn6 }) (frame_one_of_four e3))
      (fun _ hm => hm)
    exact Heap.frame_trans f5 (Heap.frame_mono (Heap.frame_upd _ rem
      { xr with cache := some cr7, cache_num_used_digits := rn7 }) (frame_one_of_four e2))
      (fun _ hm => hm)
  · rw [Heap.upd_obj_length, Heap.upd_obj_length, w11, m9, Heap.upd_obj_length, Heap.upd_obj_length]
  · rw [Heap.upd_scr, Heap.upd_scr, w12, div_cache_mul_scr m1]
    rfl

/-- One call of `ffbi_get_quotient_digit_cache`.  The running remainder `R` is below
`2^bits * Bv`; afterwards the quotient digit `k` is `R / Bv` and the remainder is `R % Bv`,
shifted by one digit with the next dividend digit brought in unless this is the last digit. -/
theorem qdc_spec (P : Platform) (h : Heap) (k q rem a b product scratch nl : Nat)
    (xq xr xa xb xp xs : FFBI) (cq cr ca cb cp : List Nat) (rn pn R Bv : Nat)
    (hgq : h.get q = some { xq with cache := some cq }) (hk : k < cq.length)
    (hgr : h.get rem = some { xr with cache := some cr, cache_num_used_digits := rn })
    (hrcap : xb.cache_num_used_digits + 1 ≤ xr.cache_num_allocated_digits)
    (hrl : xr.cache_num_allocated_digits ≤ cr.length)
    (ccr : canonicalDigits (FFBI_CACHE_DIV_BITS_PER_DIGIT P) cr rn)
    (hR : digitsVal (FFBI_CACHE_DIV_BITS_PER_DIGIT P) cr rn = R)
    (hga : h.get a = some xa) (hca : xa.cache = some ca)
    (hnl : (nl = 0 ∧ k = 0) ∨ (nl = 1 ∧ 0 < k)) (hka : k - nl < ca.length)
    (hd : ca.getD (k - nl) 0 < 2 ^ FFBI_CACHE_DIV_BITS_PER_DIGIT P)
    (hgb : h.get b = some xb) (hcb : xb.cache = some cb)
    (ccb : canonicalDigits (FFBI_CACHE_DIV_BITS_PER_DIGIT P) cb xb.cache_num_used_digits)
    (hBv : digitsVal (FFBI_CACHE_DIV_BITS_PER_DIGIT P) cb xb.cache_num_used_digits = Bv)
    (hbv : Bv ≠ 0)
    (hgp : h.get product = some { xp with cache := some cp, cache_num_used_digits := pn })
    (hpcap : xb.cache_num_used_digits + 1 ≤ xp.cache_num_allocated_digits)
    (hpl : xp.cache_num_allocated_digits ≤ cp.length)
    (hpb : xp.cache_bits_per_digit = FFBI_CACHE_DIV_BITS_PER_DIGIT P)
    (hgs : h.get scratch = some xs)
    (hsv : ∀ c, xs.cache = some c → xs.cache_num_allocated_digits ≤ c.length)
    (hlt : R < 2 ^ FFBI_CACHE_DIV_BITS_PER_DIGIT P * Bv)
    (hqr : q ≠ rem) (hqp : q ≠ product) (hqs : q ≠ scratch) (hrp : rem ≠ product)
    (hrs : rem ≠ scratch) (hps : product ≠ scratch)
    (haq : a ≠ q) (har : a ≠ rem) (hap : a ≠ product) (has : a ≠ scratch)
    (hbq : b ≠ q) (hbr : b ≠ rem) (hbp : b ≠ product) (hbs : b ≠ scratch) :
    ∃ h' cr' rn' cp' pn' xs',
      ffbi_get_quotient_digit_cache P h k q rem a b xb.cache_num_used_digits product nl scratch
        = some h' ∧
      h'.get q = some { xq with cache := some (cq.set k (R / Bv)) } ∧
      h'.get rem = some { xr with cache := some cr', cache_num_used_digits := rn' } ∧
      cr'.length = cr.length ∧ canonicalDigits (FFBI_CACHE_DIV_BITS_PER_DIGIT P) cr' rn' ∧
      digitsVal (FFBI_CACHE_DIV_BITS_PER_DIGIT P) cr' rn'
        = R % Bv * 2 ^ (FFBI_CACHE_DIV_BITS_PER_DIGIT P * nl) + nl * ca.getD (k - nl) 0 ∧
      h'.get product = some { xp with cache := some cp', cache_num_used_digits := pn' } ∧
      cp'.length = cp.length ∧
      h'.get scratch = some xs' ∧ sameMain xs xs' ∧ xs'.cache_valid = xs.cache_valid ∧
      (∀ c, xs'.cache = some c → xs'.cache_num_allocated_digits ≤ c.length) ∧
      Heap.frame [q, rem, product, scratch] h h' ∧ h'.obj.length = h.obj.length ∧
      h'.scr = h.scr := by
  have hBpos : 0 < Bv := Nat.pos_of_ne_zero hbv
  have hcmp : ffbi_cmp_cache h rem b = some (cmpVal R Bv) := by
    rw [ffbi_cmp_cache_spec (FFBI_CACHE_DIV_BITS_PER_DIGIT P) hgr hgb rfl hcb ccr ccb, hR, hBv]
  have hcrl : 0 < cr.length := Nat.lt_of_lt_of_le (Nat.succ_pos _) (Nat.le_trans hrcap hrl)
  have e1 : q ∈ [q, rem, product, scratch] := by simp
  have e2 : rem ∈ [q, rem, product, scratch] := by simp
  have two : ∀ (y1 y2 : FFBI),
      ((h.upd q y1).upd rem y2).get q = some y1 ∧ ((h.upd q y1).upd rem y2).get rem = some y2 ∧
      ((h.upd q y1).upd rem y2).get product
        = some { xp with cache := some cp, cache_num_used_digits := pn } ∧
      ((h.upd q y1).upd rem y2).get scratch = some xs ∧
      Heap.frame [q, rem, product, scratch] h ((h.upd q y1).upd rem y2) := by
    intro y1 y2
    refine ⟨?_, ?_, ?_, ?_, ?_⟩
    · rw [Heap.get_upd_ne _ _ hqr]; exact Heap.get_upd_same _ hgq
    · exact Heap.get_upd_same _ (by rw [Heap.get_upd_ne _ _ (Ne.symm hqr)]; exact hgr)
    · rw [Heap.get_upd_ne _ _ (Ne.symm hrp), Heap.get_upd_ne _ _ (Ne.symm hqp)]; exact hgp
    · rw [Heap.get_upd_ne _ _ (Ne.symm hrs), Heap.get_upd_ne _ _ (Ne.symm hqs)]; exact hgs
    · exact Heap.frame_trans (Heap.frame_mono (Heap.frame_upd h q y1) (frame_one_of_four e1))
        (Heap.frame_mono (Heap.frame_upd _ rem y2) (frame_one_of_four e2)) (fun _ hm => hm)
  unfold ffbi_get_quotient_digit_cache
  rw [hcmp, obind_some]
  by_cases heq : R = Bv
  · -- the remainder equals the divisor
    subst heq
    rw [cmpVal_self, if_pos rfl]
    obtain ⟨cr', q1, q2, q3, q4⟩ := qdc_equal_spec P h k q rem a nl xq xr xa cq cr ca rn hgq hk hgr
      hcrl hga hca hnl hka hd hqr haq har
    obtain ⟨g1, g2, g3, g4, g5⟩ := two { xq with cache := some (cq.set k 1) }
      { xr with cache := some cr', cache_num_used_digits := 1 }
    rw [Nat.div_self hBpos, Nat.mod_self, Nat.zero_mul, Nat.zero_add]
    exact ⟨_, cr', 1, cp, pn, xs, q1, g1, g2, q2, q3, q4, g3, rfl, g4, sameMain_refl xs, rfl, hsv,
      g5, by rw [Heap.upd_obj_length, Heap.upd_obj_length], rfl⟩
  · by_cases hlt' : R < Bv
    · -- the remainder is below the divisor
      rw [cmpVal_lt hlt', if_neg (by decide), if_pos rfl]
      have hrn : rn ≤ xb.cache_num_used_digits :=
        nb_le_na_of_val_le _ cb cr _ _ ccb ccr (by rw [hR, hBv]; exact Nat.le_of_lt hlt')
      obtain ⟨cr', rn', q1, q2, q3, q4⟩ := qdc_less_spec P h k q rem a nl xq xr xa cq cr ca rn R
        hgq hk hgr (by omega) hrl ccr hR hga hca hnl hka hd hqr haq har
      obtain ⟨g1, g2, g3, g4, g5⟩ := two { xq with cache := some (cq.set k 0) }
        { xr with cache := some cr', cache_num_used_digits := rn' }
      rw [Nat.div_eq_of_lt hlt', Nat.mod_eq_of_lt hlt']
      exact ⟨_, cr', rn', cp, pn, xs, q1, g1, g2, q2, q3, q4, g3, rfl, g4, sameMain_refl xs, rfl,
        hsv, g5, by rw [Heap.upd_obj_length, Heap.upd_obj_length], rfl⟩
    · -- the remainder exceeds the divisor
      have hgt : Bv < R := by omega
      rw [cmpVal_gt hgt, if_neg (by decide), if_neg (by decide)]
      exact qdc_greater_spec P h k q rem a b product scratch nl xq xr xa xb xp xs cq cr ca cb cp
        rn pn R Bv hgq hk hgr hrcap hrl ccr hR hga hca hnl hka hd hgb hcb ccb hBv hgp hpcap hpl hpb
        hgs hsv hgt hlt hqr hqp hqs hrp hrs hps haq har hap has hbq hbr hbp hbs


/-! # The quotient-digit loop of `ffbi_div_cache` -/

theorem div_step_arith (B Bv R X c : Nat) (hBv : 0 < Bv) (hc : c < B) :
    c + B * (X * (B * Bv) + R) = (R / Bv + B * X) * (B * Bv) + (R % Bv * B + c) ∧
      R % Bv * B + c < B * Bv := by
  have hR := Nat.div_add_mod R Bv
  have hrm := Nat.mod_lt R hBv
  generalize R / Bv = qd at *
  generalize R % Bv = rm at *
  subst hR
  refine ⟨by ring, ?_⟩
  have h1 : (rm + 1) * B ≤ Bv * B := Nat.mul_le_mul_right _ hrm
  rw [Nat.add_mul, Nat.one_mul, Nat.mul_comm Bv B] at h1
  omega

theorem div_final_arith (B Bv R X A : Nat) (hBv : 0 < Bv) (hA : A = X * (B * Bv) + R) :
    A / Bv = R / Bv + B * X ∧ A % Bv = R % Bv := by
  have e : A = R + (B * X) * Bv := by rw [hA]; ring
  rw [e]
  exact ⟨Nat.add_mul_div_right _ _ hBv, Nat.add_mul_mod_self_right _ _ _⟩

theorem pow_bits_succ (bits n : Nat) : 2 ^ (bits * (n + 1)) = 2 ^ bits * 2 ^ (bits * n) := by
  rw [Nat.mul_succ, Nat.pow_add, Nat.mul_comm]

/-- The first partial dividend (the top digits of `a`, as many as `b` has) is below
`2^bits * b`. -/
theorem first_dividend_lt (bits : Nat) (ca cb : List Nat) (qi bl : Nat)
    (hca : ∀ i, i < qi + bl → ca.getD i 0 < 2 ^ bits) (ccb : canonicalDigits bits cb bl)
    (hbv : digitsVal bits cb bl ≠ 0) :
    digitsFrom bits ca qi bl < 2 ^ bits * digitsVal bits cb bl := by
  have h1 := digitsFrom_lt bits ca qi bl (fun i hi => hca _ (by omega))
  have h2 := canonical_ge_pow bits cb bl ccb.1 (top_digit_ne_zero bits cb bl ccb hbv)
  have h3 : 2 ^ (bits * bl) = 2 ^ bits * 2 ^ (bits * (bl - 1)) := by
    rw [← pow_bits_succ, Nat.sub_add_cancel ccb.1]
  have h4 : 2 ^ bits * 2 ^ (bits * (bl - 1)) ≤ 2 ^ bits * digitsVal bits cb bl :=
    Nat.mul_le_mul_left _ h2
  omega

/-- The quotient-digit loop of `ffbi_div_cache` followed by the call for the last digit: when
`rem` starts with the top digits of `a`, the cache of `dest` receives the digits of `a / b` and
the cache of `rem` the canonical digits of `a % b`. -/
theorem div_cache_loop_spec (P : Platform) (h : Heap) (dest rem a b product scratch : Nat)
    (xq xr xa xb xp xs : FFBI) (cq cr ca cb cp : List Nat) (qi rn pn : Nat)
    (hgq : h.get dest = some { xq with cache := some cq }) (hql : qi < cq.length)
    (hgr : h.get rem = some { xr with cache := some cr, cache_num_used_digits := rn })
    (hrcap : xb.cache_num_used_digits + 1 ≤ xr.cache_num_allocated_digits)
    (hrl : xr.cache_num_allocated_digits ≤ cr.length)
    (ccr : canonicalDigits (FFBI_CACHE_DIV_BITS_PER_DIGIT P) cr rn)
    (hR0 : digitsVal (FFBI_CACHE_DIV_BITS_PER_DIGIT P) cr rn
      = digitsFrom (FFBI_CACHE_DIV_BITS_PER_DIGIT P) ca qi xb.cache_num_used_digits)
    (hga : h.get a = some xa) (hca : xa.cache = some ca)
    (cca : canonicalDigits (FFBI_CACHE_DIV_BITS_PER_DIGIT P) ca xa.cache_num_used_digits)
    (hal : xa.cache_num_used_digits = qi + xb.cache_num_used_digits)
    (hgb : h.get b = some xb) (hcb : xb.cache = some cb)
    (ccb : canonicalDigits (FFBI_CACHE_DIV_BITS_PER_DIGIT P) cb xb.cache_num_used_digits)
    (hbv : digitsVal (FFBI_CACHE_DIV_BITS_PER_DIGIT P) cb xb.cache_num_used_digits ≠ 0)
    (hgp : h.get product = some { xp with cache := some cp, cache_num_used_digits := pn })
    (hpcap : xb.cache_num_used_digits + 1 ≤ xp.cache_num_allocated_digits)
    (hpl : xp.cache_num_allocated_digits ≤ cp.length)
    (hpb : xp.cache_bits_per_digit = FFBI_CACHE_DIV_BITS_PER_DIGIT P)
    (hgs : h.get scratch = some xs)
    (hsv : ∀ c, xs.cache = some c → xs.cache_num_allocated_digits ≤ c.length)
    (hqr : dest ≠ rem) (hqp : dest ≠ product) (hqs : dest ≠ scratch) (hrp : rem ≠ product)
    (hrs : rem ≠ scratch) (hps : product ≠ scratch)
    (haq : a ≠ dest) (har : a ≠ rem) (hap : a ≠ product) (has : a ≠ scratch)
    (hbq : b ≠ dest) (hbr : b ≠ rem) (hbp : b ≠ product) (hbs : b ≠ scratch) :
    ∃ h' cq' cr' rn' cp' pn' xs',
      (obind (forDown (fun k h =>
          ffbi_get_quotient_digit_cache P h (k + 1) dest rem a b xb.cache_num_used_digits product 1
            scratch) qi h) fun h =>
        ffbi_get_quotient_digit_cache P h 0 dest rem a b xb.cache_num_used_digits product 0 scratch)
        = some h' ∧
      h'.get dest = some { xq with cache := some cq' } ∧ cq'.length = cq.length ∧
      (∀ j, j ≤ qi → cq'.getD j 0 < 2 ^ FFBI_CACHE_DIV_BITS_PER_DIGIT P) ∧
      digitsVal (FFBI_CACHE_DIV_BITS_PER_DIGIT P) cq' (qi + 1)
        = digitsVal (FFBI_CACHE_DIV_BITS_PER_DIGIT P) ca xa.cache_num_used_digits
          / digitsVal (FFBI_CACHE_DIV_BITS_PER_DIGIT P) cb xb.cache_num_used_digits ∧
      h'.get rem = some { xr with cache := some cr', cache_num_used_digits := rn' } ∧
      cr'.length = cr.length ∧ canonicalDigits (FFBI_CACHE_DIV_BITS_PER_DIGIT P) cr' rn' ∧
      digitsVal (FFBI_CACHE_DIV_BITS_PER_DIGIT P) cr' rn'
        = digitsVal (FFBI_CACHE_DIV_BITS_PER_DIGIT P) ca xa.cache_num_used_digits
          % digitsVal (FFBI_CACHE_DIV_BITS_PER_DIGIT P) cb xb.cache_num_used_digits ∧
      h'.get product = some { xp with cache := some cp', cache_num_used_digits := pn' } ∧
      cp'.length = cp.length ∧
      h'.get scratch = some xs' ∧ sameMain xs xs' ∧ xs'.cache_valid = xs.cache_valid ∧
      (∀ c, xs'.cache = some c → xs'.cache_num_allocated_digits ≤ c.length) ∧
      Heap.frame [dest, rem, product, scratch] h h' ∧ h'.obj.length = h.obj.length ∧
      h'.scr = h.scr := by
  generalize hBv : digitsVal (FFBI_CACHE_DIV_BITS_PER_DIGIT P) cb xb.cache_num_used_digits = Bv at *
  generalize hbits : FFBI_CACHE_DIV_BITS_PER_DIGIT P = bits at *
  generalize hbl : xb.cache_num_used_digits = bl at *
  generalize hal' : xa.cache_num_used_digits = al at *
  have hBpos : 0 < Bv := Nat.pos_of_ne_zero hbv
  have hcad : ∀ i, i < al → ca.getD i 0 < 2 ^ bits := cca.2.2.1
  have hcal : al ≤ ca.length := cca.2.1
  have hstart : digitsVal bits cr rn < 2 ^ bits * Bv := by
    rw [hR0, ← hBv]
    exact first_dividend_lt bits ca cb qi bl (fun i hi => hcad i (by omega)) ccb (by rw [hBv]; exact hbv)
  have key := forDown_inv (fun k h =>
      ffbi_get_quotient_digit_cache P h (k + 1) dest rem a b bl product 1 scratch)
    (fun m t => ∃ cq' cr' rn' cp' pn' xs',
      t.get dest = some { xq with cache := some cq' } ∧ cq'.length = cq.length ∧
      (∀ j, m < j → j ≤ qi → cq'.getD j 0 < 2 ^ bits) ∧
      t.get rem = some { xr with cache := some cr', cache_num_used_digits := rn' } ∧
      cr'.length = cr.length ∧ canonicalDigits bits cr' rn' ∧
      digitsVal bits cr' rn' < 2 ^ bits * Bv ∧
      digitsFrom bits ca m (al - m)
        = digitsFrom bits cq' (m + 1) (qi - m) * (2 ^ bits * Bv) + digitsVal bits cr' rn' ∧
      t.get product = some { xp with cache := some cp', cache_num_used_digits := pn' } ∧
      cp'.length = cp.length ∧
      t.get scratch = some xs' ∧ sameMain xs xs' ∧ xs'.cache_valid = xs.cache_valid ∧
      (∀ c, xs'.cache = some c → xs'.cache_num_allocated_digits ≤ c.length) ∧
      Heap.frame [dest, rem, product, scratch] h t ∧ t.obj.length = h.obj.length ∧ t.scr = h.scr)
    qi h
    ⟨cq, cr, rn, cp, pn, xs, hgq, rfl, fun j h1 h2 => by omega, hgr, rfl, ccr, hstart, by
        rw [Nat.sub_self, hal, Nat.add_sub_cancel_left, hR0]
        show _ = 0 * _ + _
        rw [Nat.zero_mul, Nat.zero_add],
      hgp, rfl, hgs, sameMain_refl xs, rfl, hsv, Heap.frame_refl _ _, rfl, rfl⟩
    (by
      rintro i t hi ⟨cq1, cr1, rn1, cp1, pn1, xs1, i1, i2, i3, i4, i5, i6, i7, i8, i9, i10, i11,
        i12, i13, i14, i15, i16, i17⟩
      have ga : t.get a = some xa := Heap.frame_get i15 hga (not_mem_four haq har hap has)
      have gb : t.get b = some xb := Heap.frame_get i15 hgb (not_mem_four hbq hbr hbp hbs)
      obtain ⟨t', cr2, rn2, cp2, pn2, xs2, d1, d2, d3, d4, d5, d6, d7, d8, d9, d10, d11, d12, d13,
        d14, d15⟩ := qdc_spec P t (i + 1) dest rem a b product scratch 1 xq xr xa xb xp xs1 cq1 cr1
          ca cb cp1 rn1 pn1 (digitsVal bits cr1 rn1) Bv i1 (by omega) i4 (by omega) (by omega)
          (by rw [hbits]; exact i6) (by rw [hbits]) ga hca (Or.inr ⟨rfl, Nat.succ_pos i⟩) (by omega)
          (by rw [hbits]; exact hcad _ (by omega)) gb hcb (by rw [hbits, hbl]; exact ccb)
          (by rw [hbits, hbl]; exact hBv) hbv i9 (by omega) (by omega) (hpb.trans hbits.symm) i11 i14
          (by rw [hbits]; exact i7) hqr hqp hqs hrp hrs hps haq har hap has hbq hbr hbp hbs
      rw [hbl] at d1
      rw [hbits] at d5 d6
      rw [Nat.add_sub_cancel, Nat.mul_one, Nat.one_mul] at d6
      obtain ⟨a1, a2⟩ := div_step_arith (2 ^ bits) Bv (digitsVal bits cr1 rn1)
        (digitsFrom bits cq1 (i + 1 + 1) (qi - (i + 1))) (ca.getD i 0) hBpos (hcad i (by omega))
      refine ⟨t', d1, cq1.set (i + 1) (digitsVal bits cr1 rn1 / Bv), cr2, rn2, cp2, pn2, xs2, d2,
        by rw [List.length_set]; exact i2, ?_, d3, by rw [d4, i5], d5, by rw [d6]; exact a2, ?_,
        d7, by rw [d8, i10], d9, sameMain_trans i12 d10, by rw [d11, i13], d12,
        Heap.frame_trans i15 d13 (fun _ hm => hm), by rw [d14, i16], by rw [d15, i17]⟩
      · intro j h1 h2
        by_cases hj : j = i + 1
        · subst hj
          rw [getD_set_same _ (by omega)]
          exact Nat.div_lt_of_lt_mul (by rw [Nat.mul_comm]; exact i7)
        · rw [getD_set_ne _ _ hj]
          exact i3 j (by omega) h2
      · have e1 : al - i = (al - (i + 1)) + 1 := by omega
        have e2 : qi - i = (qi - (i + 1)) + 1 := by omega
        rw [e1, e2, digitsFrom_cons, digitsFrom_cons, i8, getD_set_same _ (by omega), d6,
          digitsFrom_congr bits (cq1.set (i + 1) (digitsVal bits cr1 rn1 / Bv)) cq1 (i + 1 + 1) _
            (fun j h1 _ => getD_set_ne _ _ (by omega))]
        exact a1)
  obtain ⟨t, e1, cq1, cr1, rn1, cp1, pn1, xs1, i1, i2, i3, i4, i5, i6, i7, i8, i9, i10, i11, i12,
    i13, i14, i15, i16, i17⟩ := key
  have ga : t.get a = some xa := Heap.frame_get i15 hga (not_mem_four haq har hap has)
  have gb : t.get b = some xb := Heap.frame_get i15 hgb (not_mem_four hbq hbr hbp hbs)
  obtain ⟨t', cr2, rn2, cp2, pn2, xs2, d1, d2, d3, d4, d5, d6, d7, d8, d9, d10, d11, d12, d13,
    d14, d15⟩ := qdc_spec P t 0 dest rem a b product scratch 0 xq xr xa xb xp xs1 cq1 cr1
      ca cb cp1 rn1 pn1 (digitsVal bits cr1 rn1) Bv i1 (by omega) i4 (by omega) (by omega)
      (by rw [hbits]; exact i6) (by rw [hbits]) ga hca (Or.inl ⟨rfl, rfl⟩)
      (by have := cca.1; omega)
      (by rw [hbits]; exact hcad _ (by have := cca.1; omega)) gb hcb (by rw [hbits, hbl]; exact ccb)
      (by rw [hbits, hbl]; exact hBv) hbv i9 (by omega) (by omega) (hpb.trans hbits.symm) i11 i14
      (by rw [hbits]; exact i7) hqr hqp hqs hrp hrs hps haq har hap has hbq hbr hbp hbs
  rw [hbl] at d1
  rw [hbits] at d5 d6
  rw [Nat.mul_zero, Nat.pow_zero, Nat.mul_one, Nat.zero_mul, Nat.add_zero] at d6
  rw [Nat.sub_zero, Nat.sub_zero, digitsFrom_zero] at i8
  obtain ⟨a1, a2⟩ := div_final_arith (2 ^ bits) Bv (digitsVal bits cr1 rn1)
    (digitsFrom bits cq1 (0 + 1) qi) (digitsVal bits ca al) hBpos i8
  refine ⟨t', cq1.set 0 (digitsVal bits cr1 rn1 / Bv), cr2, rn2, cp2, pn2, xs2, ?_, d2,
    by rw [List.length_set]; exact i2, ?_, ?_, d3, by rw [d4, i5], d5, by rw [d6, a2],
    d7, by rw [d8, i10], d9, sameMain_trans i12 d10, by rw [d11, i13], d12,
    Heap.frame_trans i15 d13 (fun _ hm => hm), by rw [d14, i16], by rw [d15, i17]⟩
  · rw [e1, obind_some]
    exact d1
  · intro j hj
    by_cases hj0 : j = 0
    · subst hj0
      rw [getD_set_same _ (by omega)]
      exact Nat.div_lt_of_lt_mul (by rw [Nat.mul_comm]; exact i7)
    · rw [getD_set_ne _ _ hj0]
      exact i3 j (by omega) hj
  · rw [← digitsFrom_zero, digitsFrom_cons, getD_set_same _ (by omega), a1,
      digitsFrom_congr bits (cq1.set 0 (digitsVal bits cr1 rn1 / Bv)) cq1 (0 + 1) _
        (fun j h1 _ => getD_set_ne _ _ (by omega))]


/-! # Preparation and completion of `ffbi_div_cache` -/

theorem digitsVal_eq_digitsFrom (bits : Nat) (c d : List Nat) (m : Nat) :
    ∀ n, (∀ i, i < n → c.getD i 0 = d.getD (m + i) 0) →
      digitsVal bits c n = digitsFrom bits d m n := by
  intro n
  induction n with
  | zero => intro _; rfl
  | succ n ih =>
    intro h
    show digitsVal bits c n + c.getD n 0 * 2 ^ (bits * n)
      = digitsFrom bits d m n + d.getD (m + n) 0 * 2 ^ (bits * n)
    rw [ih (fun i hi => h i (by omega)), h n (by omega)]

/-- The loop of `ffbi_div_cache` that fills `rem` with the top digits of `a`. -/
theorem div_fill_loop_spec (h : Heap) (rem a qi : Nat) (xr xa : FFBI) (c0 ca : List Nat)
    (n : Nat) (hgr : h.get rem = some xr) (hcr : xr.cache = some c0)
    (hga : h.get a = some xa) (hca : xa.cache = some ca)
    (hra : rem ≠ a) (hna : qi + n ≤ ca.length) (hnr : n ≤ c0.length) :
    ∃ c, forUp (fun k h => obind (rdCache h a (qi + k)) fun v => wrCache h rem k v) n 0 h
        = some (h.upd rem { xr with cache := some c }) ∧
      c.length = c0.length ∧ (∀ i, i < n → c.getD i 0 = ca.getD (qi + i) 0) := by
  have key := forUp_inv (fun k h => obind (rdCache h a (qi + k)) fun v => wrCache h rem k v)
    (fun j t => ∃ c, t = h.upd rem { xr with cache := some c } ∧ c.length = c0.length ∧
      (∀ i, i < j → c.getD i 0 = ca.getD (qi + i) 0))
    n 0 h
    ⟨c0, by rw [with_cache_self hcr, Heap.upd_self hgr], rfl, fun i hi => by omega⟩
    (by
      rintro j t _ hj ⟨c, rfl, i2, i3⟩
      have ga : (h.upd rem { xr with cache := some c }).get a = some xa := by
        rw [Heap.get_upd_ne _ _ (Ne.symm hra)]; exact hga
      refine ⟨_, ?_, c.set j (ca.getD (qi + j) 0), rfl, by rw [List.length_set]; exact i2, ?_⟩
      · dsimp only
        rw [rdCache_eq ga hca (by omega), obind_some,
          wrCache_eq _ (Heap.get_upd_same _ hgr) rfl (by omega), Heap.upd_upd]
      · intro i hi
        by_cases hij : i = j
        · subst hij
          exact getD_set_same _ (by omega)
        · rw [getD_set_ne _ _ hij]
          exact i3 i (by omega))
  obtain ⟨t, e1, c, rfl, i2, i3⟩ := key
  exact ⟨c, e1, i2, fun i hi => i3 i (by omega)⟩

/-- The quotient digits form a canonical array once a zero top digit is dropped. -/
theorem quot_canonical (bits : Nat) (cq : List Nat) (qi Q : Nat) (hl : qi < cq.length)
    (hd : ∀ j, j ≤ qi → cq.getD j 0 < 2 ^ bits) (hv : digitsVal bits cq (qi + 1) = Q)
    (hQ : 1 ≤ qi → 2 ^ (bits * (qi - 1)) ≤ Q) :
    (cq.getD qi 0 = 0 → 1 ≤ qi →
      canonicalDigits bits cq qi ∧ digitsVal bits cq qi = Q) ∧
    (¬ (cq.getD qi 0 = 0 ∧ 1 ≤ qi) → canonicalDigits bits cq (qi + 1)) := by
  constructor
  · intro h0 h1
    have hv' : digitsVal bits cq qi = Q := by
      rw [← hv]
      show _ = digitsVal bits cq qi + cq.getD qi 0 * 2 ^ (bits * qi)
      rw [h0, Nat.zero_mul, Nat.add_zero]
    refine ⟨⟨h1, by omega, fun i hi => hd i (by omega), ?_⟩, hv'⟩
    by_cases hq1 : qi = 1
    · exact Or.inl hq1
    · right
      intro htop
      have hlt := digitsVal_lt bits cq (qi - 1) (fun i hi => hd i (by omega))
      have hs : digitsVal bits cq qi = digitsVal bits cq (qi - 1)
          + cq.getD (qi - 1) 0 * 2 ^ (bits * (qi - 1)) := by
        conv_lhs => rw [show qi = (qi - 1) + 1 by omega]
        rfl
      rw [htop, Nat.zero_mul, Nat.add_zero] at hs
      have := hQ h1
      omega
  · intro hn
    refine ⟨by omega, by omega, fun i hi => hd i (by omega), ?_⟩
    by_cases hq0 : qi = 0
    · left; omega
    · right
      rw [Nat.add_sub_cancel]
      intro h0
      exact hn ⟨h0, by omega⟩

/-- The quotient of a canonical dividend of `qi + bl` digits by a canonical divisor of `bl`
digits has at least `qi` digits. -/
theorem quot_ge_pow (bits : Nat) (ca cb : List Nat) (qi bl : Nat)
    (cca : canonicalDigits bits ca (qi + bl)) (ccb : canonicalDigits bits cb bl)
    (hbv : digitsVal bits cb bl ≠ 0) (ha : digitsVal bits ca (qi + bl) ≠ 0) (hq : 1 ≤ qi) :
    2 ^ (bits * (qi - 1)) ≤ digitsVal bits ca (qi + bl) / digitsVal bits cb bl := by
  have hBpos : 0 < digitsVal bits cb bl := Nat.pos_of_ne_zero hbv
  have h1 := canonical_ge_pow bits ca (qi + bl) cca.1 (top_digit_ne_zero bits ca _ cca ha)
  have h2 := digitsVal_lt bits cb bl ccb.2.2.1
  have e : 2 ^ (bits * (qi + bl - 1)) = 2 ^ (bits * (qi - 1)) * 2 ^ (bits * bl) := by
    rw [← Nat.pow_add, ← Nat.mul_add]
    congr 2
    omega
  rw [e] at h1
  rw [Nat.le_div_iff_mul_le hBpos]
  have h3 : 2 ^ (bits * (qi - 1)) * digitsVal bits cb bl
      ≤ 2 ^ (bits * (qi - 1)) * 2 ^ (bits * bl) := Nat.mul_le_mul_left _ (Nat.le_of_lt h2)
  omega

theorem with_cache_used_self {x : FFBI} {c : List Nat} (hc : x.cache = some c) :
    { x with cache := some c, cache_num_used_digits := x.cache_num_used_digits } = x := by
  cases x
  simp only at hc
  subst hc
  rfl

/-- What `ffbi_cache_retrieve` leaves: a well-formed bigint with a coherent cache. -/
theorem cache_retrieve_wf (P : Platform) {h : Heap} {p : Nat} {x : FFBI} {c : List Nat}
    (hg : h.get p = some x) (hc : x.cache = some c)
    (cc : canonicalDigits (FFBI_CACHE_DIV_BITS_PER_DIGIT P) c x.cache_num_used_digits)
    (hb : x.cache_bits_per_digit = FFBI_CACHE_DIV_BITS_PER_DIGIT P) (hvs : validStorage x)
    (hcap : x.reallocation_allowed = true ∨ ∃ ds n, canonicalDigits (FFBI_BITS_PER_DIGIT P) ds n ∧
      digitsVal (FFBI_CACHE_DIV_BITS_PER_DIGIT P) c x.cache_num_used_digits
        ≤ digitsVal (FFBI_BITS_PER_DIGIT P) ds n ∧ n ≤ x.num_allocated_digits) :
    ∃ h' x', ffbi_cache_retrieve P h p = some h' ∧ h'.get p = some x' ∧ wellFormed P x' ∧
      cacheCoherent P x' ∧
      val P x' = digitsVal (FFBI_CACHE_DIV_BITS_PER_DIGIT P) c x.cache_num_used_digits ∧
      x'.reallocation_allowed = x.reallocation_allowed ∧
      x.num_allocated_digits ≤ x'.num_allocated_digits ∧
      Heap.frame [p] h h' ∧ h'.obj.length = h.obj.length ∧ h'.scr = h.scr := by
  obtain ⟨h', x', r1, r2, r3, r4, r5, r6, r7, r8, r9, r10, r11, r12, r13, r14, r15⟩ :=
    cache_retrieve_spec P hg hc (by rw [hb]; exact cc) (by rw [hb]; exact cache_bits_pos P) hvs
      (by rw [hb]; exact hcap)
  rw [hb] at r4 r8
  refine ⟨h', x', r1, r2, ⟨r3, r10, r11, ?_⟩, ?_, r4, r13, r12, r14, r15, cache_retrieve_scr r1⟩
  · intro c' hc'
    rw [r6] at hc'
    cases hc'
    rw [r9]
    exact hvs.2 c hc
  · intro _
    refine ⟨c, r6, by rw [r8, r7]; exact cc, by rw [r9]; exact hvs.2 c hc,
      by rw [r8]; exact cache_bits_pos P, by rw [r8, r7, r4]⟩

/-- The end of `ffbi_div_cache`: remainder and quotient are converted back from their caches
and the caches of the two scratch bigints are marked invalid. -/
theorem div_cache_finish_spec (P : Platform) (h : Heap) (dest r s1 s2 : Nat)
    (xq xr x1 x2 : FFBI) (cq cr : List Nat)
    (hgq : h.get dest = some xq) (hgr : h.get r = some xr) (hg1 : h.get s1 = some x1)
    (hg2 : h.get s2 = some x2)
    (hdr : dest ≠ r) (hd1 : dest ≠ s1) (hd2 : dest ≠ s2) (hr1 : r ≠ s1) (hr2 : r ≠ s2)
    (h12 : s1 ≠ s2)
    (hcq : xq.cache = some cq)
    (ccq : canonicalDigits (FFBI_CACHE_DIV_BITS_PER_DIGIT P) cq xq.cache_num_used_digits)
    (hbq : xq.cache_bits_per_digit = FFBI_CACHE_DIV_BITS_PER_DIGIT P) (vq : validStorage xq)
    (gq : xq.reallocation_allowed = true)
    (hcr : xr.cache = some cr)
    (ccr : canonicalDigits (FFBI_CACHE_DIV_BITS_PER_DIGIT P) cr xr.cache_num_used_digits)
    (hbr : xr.cache_bits_per_digit = FFBI_CACHE_DIV_BITS_PER_DIGIT P) (vr : validStorage xr)
    (gr : xr.reallocation_allowed = true ∨ ∃ ds n, canonicalDigits (FFBI_BITS_PER_DIGIT P) ds n ∧
      digitsVal (FFBI_CACHE_DIV_BITS_PER_DIGIT P) cr xr.cache_num_used_digits
        ≤ digitsVal (FFBI_BITS_PER_DIGIT P) ds n ∧ n ≤ xr.num_allocated_digits) :
    ∃ h' xq' xr',
      (obind (ffbi_cache_retrieve P h r) fun h =>
        obind (ffbi_cache_retrieve P h dest) fun h =>
        obind (modify h s1 (fun x => { x with cache_valid := false })) fun h =>
        modify h s2 (fun x => { x with cache_valid := false })) = some h' ∧
      h'.get dest = some xq' ∧ wellFormed P xq' ∧ cacheCoherent P xq' ∧
      val P xq' = digitsVal (FFBI_CACHE_DIV_BITS_PER_DIGIT P) cq xq.cache_num_used_digits ∧
      xq'.reallocation_allowed = xq.reallocation_allowed ∧
      xq.num_allocated_digits ≤ xq'.num_allocated_digits ∧
      h'.get r = some xr' ∧ wellFormed P xr' ∧ cacheCoherent P xr' ∧
      val P xr' = digitsVal (FFBI_CACHE_DIV_BITS_PER_DIGIT P) cr xr.cache_num_used_digits ∧
      xr'.reallocation_allowed = xr.reallocation_allowed ∧
      xr.num_allocated_digits ≤ xr'.num_allocated_digits ∧
      h'.get s1 = some { x1 with cache_valid := false } ∧
      h'.get s2 = some { x2 with cache_valid := false } ∧
      Heap.frame [dest, r, s1, s2] h h' ∧ h'.obj.length = h.obj.length ∧ h'.scr = h.scr := by
  have hin : ∀ (p z : Nat), z ≠ p → z ∉ [p] := fun p z hz => by simpa using hz
  obtain ⟨h1, xr', a1, a2, a3, a4, a5, a6, a7, a8, a9, a10⟩ :=
    cache_retrieve_wf P hgr hcr ccr hbr vr gr
  have g1q := Heap.frame_get a8 hgq (hin r dest hdr)
  obtain ⟨h2, xq', b1, b2, b3, b4, b5, b6, b7, b8, b9, b10⟩ :=
    cache_retrieve_wf P g1q hcq ccq hbq vq (Or.inl gq)
  have g2r := Heap.frame_get b8 a2 (hin dest r (Ne.symm hdr))
  have g21 := Heap.frame_get b8 (Heap.frame_get a8 hg1 (hin r s1 (Ne.symm hr1)))
    (hin dest s1 (Ne.symm hd1))
  have g22 := Heap.frame_get b8 (Heap.frame_get a8 hg2 (hin r s2 (Ne.symm hr2)))
    (hin dest s2 (Ne.symm hd2))
  have g32 : (h2.upd s1 { x1 with cache_valid := false }).get s2 = some x2 := by
    rw [Heap.get_upd_ne _ _ (Ne.symm h12)]; exact g22
  have e1 : dest ∈ [dest, r, s1, s2] := by simp
  have e2 : r ∈ [dest, r, s1, s2] := by simp
  have e3 : s1 ∈ [dest, r, s1, s2] := by simp
  have e4 : s2 ∈ [dest, r, s1, s2] := by simp
  refine ⟨(h2.upd s1 { x1 with cache_valid := false }).upd s2 { x2 with cache_valid := false },
    xq', xr', ?_, ?_, b3, b4, b5, b6, b7, ?_, a3, a4, a5, a6, a7, ?_, Heap.get_upd_same _ g32, ?_,
    ?_, ?_⟩
  · rw [a1, obind_some, b1, obind_some, modify_eq _ g21, obind_some, modify_eq _ g32]
  · rw [Heap.get_upd_ne _ _ hd2, Heap.get_upd_ne _ _ hd1]; exact b2
  · rw [Heap.get_upd_ne _ _ hr2, Heap.get_upd_ne _ _ hr1]; exact g2r
  · rw [Heap.get_upd_ne _ _ h12]; exact Heap.get_upd_same _ g21
  · exact Heap.frame_trans (Heap.frame_trans (Heap.frame_trans
      (Heap.frame_mono a8 (frame_one_of_four e2)) (Heap.frame_mono b8 (frame_one_of_four e1))
      (fun _ hm => hm)) (Heap.frame_mono (Heap.frame_upd _ s1 _) (frame_one_of_four e3))
      (fun _ hm => hm)) (Heap.frame_mono (Heap.frame_upd _ s2 _) (frame_one_of_four e4))
      (fun _ hm => hm)
  · rw [Heap.upd_obj_length, Heap.upd_obj_length, b9, a9]
  · rw [Heap.upd_scr, Heap.upd_scr, b10, a10]


/-! # The function `ffbi_div_cache` -/

theorem sameMain_val (P : Platform) {x y : FFBI} (s : sameMain x y) : val P y = val P x := by
  unfold val
  rw [s.1, s.2.1]

theorem sameMain_canonical (P : Platform) {x y : FFBI} (s : sameMain x y) (c : canonical P x) :
    canonical P y := by
  unfold canonical
  rw [s.1, s.2.1]
  exact c

theorem mem_six {z a b c d e f : Nat} (h : z = a ∨ z = b ∨ z = c ∨ z = d ∨ z = e ∨ z = f) :
    ∀ q', q' ∈ [z] → q' ∈ [a, b, c, d, e, f] := by
  intro q' hq'
  rw [List.mem_singleton] at hq'
  subst hq'
  simpa using h

/-- The removal of a zero top digit of the quotient at the end of `ffbi_div_cache`. -/
theorem div_cache_trim_spec (P : Platform) (h : Heap) (dest : Nat) (xq : FFBI) (cq : List Nat)
    (qi Q : Nat) (hgq : h.get dest = some { xq with cache := some cq, cache_num_used_digits := qi + 1 })
    (hl : qi < cq.length)
    (hd : ∀ j, j ≤ qi → cq.getD j 0 < 2 ^ FFBI_CACHE_DIV_BITS_PER_DIGIT P)
    (hv : digitsVal (FFBI_CACHE_DIV_BITS_PER_DIGIT P) cq (qi + 1) = Q)
    (hQ : 1 ≤ qi → 2 ^ (FFBI_CACHE_DIV_BITS_PER_DIGIT P * (qi - 1)) ≤ Q) :
    ∃ nq, (obind (h.get dest) fun xd =>
        if xd.cache_num_used_digits > 1 then
          obind (rdCache h dest (xd.cache_num_used_digits - 1)) fun top =>
          if top = 0 then
            modify h dest (fun x => { x with cache_num_used_digits := x.cache_num_used_digits - 1 })
          else some h
        else some h)
      = some (h.upd dest { xq with cache := some cq, cache_num_used_digits := nq }) ∧
      canonicalDigits (FFBI_CACHE_DIV_BITS_PER_DIGIT P) cq nq ∧
      digitsVal (FFBI_CACHE_DIV_BITS_PER_DIGIT P) cq nq = Q := by
  obtain ⟨k1, k2⟩ := quot_canonical _ cq qi Q hl hd hv hQ
  rw [hgq, obind_some]
  dsimp only
  by_cases hq : 1 ≤ qi
  · rw [if_pos (by omega), Nat.add_sub_cancel, rdCache_eq hgq rfl hl, obind_some]
    by_cases h0 : cq.getD qi 0 = 0
    · rw [if_pos h0, modify_eq _ hgq]
      exact ⟨qi, rfl, k1 h0 hq⟩
    · rw [if_neg h0]
      exact ⟨qi + 1, by rw [Heap.upd_self hgq], k2 (fun hc => h0 hc.1), hv⟩
  · rw [if_neg (by omega)]
    exact ⟨qi + 1, by rw [Heap.upd_self hgq], k2 (fun hc => hq hc.2), hv⟩

/-- The function `ffbi_div_cache` for `a > b > 0`: quotient and remainder are computed on the
wide-digit caches and converted back. -/
theorem ffbi_div_cache_spec (P : Platform) (h : Heap) (dest a b r s1 s2 : Nat)
    (xd xa xb xr x1 x2 : FFBI)
    (hgd : h.get dest = some xd) (hga : h.get a = some xa) (hgb : h.get b = some xb)
    (hgr : h.get r = some xr) (hg1 : h.get s1 = some x1) (hg2 : h.get s2 = some x2)
    (hdr : dest ≠ r) (hd1 : dest ≠ s1) (hd2 : dest ≠ s2) (hr1 : r ≠ s1) (hr2 : r ≠ s2)
    (h12 : s1 ≠ s2)
    (had : a ≠ dest) (har : a ≠ r) (ha1 : a ≠ s1) (ha2 : a ≠ s2)
    (hbd : b ≠ dest) (hbr : b ≠ r) (hb1 : b ≠ s1) (hb2 : b ≠ s2)
    (wa : wellFormed P xa) (coa : cacheCoherent P xa)
    (wb : wellFormed P xb) (cob : cacheCoherent P xb)
    (hlt : val P xb < val P xa) (hb0 : val P xb ≠ 0)
    (vd : validStorage xd) (gd : xd.reallocation_allowed = true)
    (vr : validStorage xr)
    (gr : xr.reallocation_allowed = true ∨ xb.num_used_digits ≤ xr.num_allocated_digits)
    (v1 : validStorage x1) (v2 : validStorage x2) :
    ∃ h' xq' xr' xa' xb' x1' x2', ffbi_div_cache P h dest a b (some r) s1 s2 = some h' ∧
      h'.get dest = some xq' ∧ wellFormed P xq' ∧ cacheCoherent P xq' ∧
      val P xq' = val P xa / val P xb ∧
      xq'.reallocation_allowed = xd.reallocation_allowed ∧
      xd.num_allocated_digits ≤ xq'.num_allocated_digits ∧
      h'.get r = some xr' ∧ wellFormed P xr' ∧ cacheCoherent P xr' ∧
      val P xr' = val P xa % val P xb ∧
      xr'.reallocation_allowed = xr.reallocation_allowed ∧
      xr.num_allocated_digits ≤ xr'.num_allocated_digits ∧
      h'.get a = some xa' ∧ sameMain xa xa' ∧ cacheCoherent P xa' ∧ validStorage xa' ∧
      h'.get b = some xb' ∧ sameMain xb xb' ∧ cacheCoherent P xb' ∧ validStorage xb' ∧
      h'.get s1 = some x1' ∧ sameMain x1 x1' ∧ x1'.cache_valid = false ∧ validStorage x1' ∧
      h'.get s2 = some x2' ∧ sameMain x2 x2' ∧ x2'.cache_valid = false ∧ validStorage x2' ∧
      Heap.frame [dest, r, s1, s2, a, b] h h' ∧ h'.obj.length = h.obj.length ∧
      h'.scr = h.scr := by
  have hin : ∀ (p z : Nat), z ≠ p → z ∉ [p] := fun p z hz => by simpa using hz
  have hab : a ≠ b := by
    intro e
    subst e
    rw [hga] at hgb
    cases hgb
    omega
  -- the caches of the operands
  obtain ⟨h1, xa1, ca, u1, u2, u3, u4, u5, u6, u7, u8, u9, u10, u11⟩ :=
    cache_update_spec P hga wa.1 wa.2.2 coa
  have g1b := Heap.frame_get u10 hgb (hin a b (Ne.symm hab))
  obtain ⟨h2, xb2, cb, v1', v2', v3, v4, v5, v6, v7, v8, v9, v10, v11⟩ :=
    cache_update_spec P g1b wb.1 wb.2.2 cob
  have g2 : ∀ z x, z ≠ a → z ≠ b → h.get z = some x → h2.get z = some x := fun z x n1 n2 hz =>
    Heap.frame_get v10 (Heap.frame_get u10 hz (hin a z n1)) (hin b z n2)
  have g2a := Heap.frame_get v10 u2 (hin b a hab)
  -- the product buffer
  have g21 := g2 s1 x1 (Ne.symm ha1) (Ne.symm hb1) hg1
  have g3 : ∀ z x, z ≠ s1 → h2.get z = some x →
      (h2.upd s1 { x1 with cache_bits_per_digit := FFBI_CACHE_DIV_BITS_PER_DIGIT P }).get z = some x :=
    fun z x n1 hz => by rw [Heap.get_upd_ne _ _ n1]; exact hz
  obtain ⟨h4, x14, c1, p1, p2, p3, p4, p5, p6, p7, p8, p9, _⟩ :=
    cache_prepare_spec P (xb2.cache_num_used_digits + 1)
      (x := { x1 with cache_bits_per_digit := FFBI_CACHE_DIV_BITS_PER_DIGIT P })
      (Heap.get_upd_same _ g21) v1.2
  have g4 : ∀ z x, z ≠ a → z ≠ b → z ≠ s1 → h.get z = some x → h4.get z = some x :=
    fun z x n1 n2 n3 hz => Heap.frame_get p8 (g3 z x n3 (g2 z x n1 n2 hz)) (hin s1 z n3)
  have g4a := Heap.frame_get p8 (g3 a _ ha1 g2a) (hin s1 a ha1)
  have g4b := Heap.frame_get p8 (g3 b _ hb1 v2') (hin s1 b hb1)
  -- the lengths
  have hA : digitsVal (FFBI_CACHE_DIV_BITS_PER_DIGIT P) ca xa1.cache_num_used_digits = val P xa := u6
  have hB : digitsVal (FFBI_CACHE_DIV_BITS_PER_DIGIT P) cb xb2.cache_num_used_digits = val P xb := v6
  have hle : xb2.cache_num_used_digits ≤ xa1.cache_num_used_digits :=
    nb_le_na_of_val_le _ ca cb _ _ u5 v5 (by rw [hA, hB]; exact Nat.le_of_lt hlt)
  generalize hqi : xa1.cache_num_used_digits - xb2.cache_num_used_digits = qi
  have hal : xa1.cache_num_used_digits = qi + xb2.cache_num_used_digits := by omega
  -- the quotient buffer
  have g4d := g4 dest xd (Ne.symm had) (Ne.symm hbd) hd1 hgd
  obtain ⟨h5, xd5, cd, q1, q2, q3, q4, q5, q6, q7, q8, q9, _⟩ :=
    cache_prepare_spec P (qi + 1) g4d vd.2
  have g6 : ∀ z x, z ≠ dest → h4.get z = some x →
      (h5.upd dest { xd5 with cache_num_used_digits := qi + 1, cache_bits_per_digit := FFBI_CACHE_DIV_BITS_PER_DIGIT P }).get z
        = some x :=
    fun z x n1 hz => by
      rw [Heap.get_upd_ne _ _ n1]
      exact Heap.frame_get q8 hz (hin dest z n1)
  -- the remainder buffer
  have g6r := g6 r xr (Ne.symm hdr) (g4 r xr (Ne.symm har) (Ne.symm hbr) hr1 hgr)
  obtain ⟨h7, xr7, cr, r1, r2, r3, r4, r5, r6, r7, r8, r9, _⟩ :=
    cache_prepare_spec P (xb2.cache_num_used_digits + 1) g6r vr.2
  have g8 : ∀ z x, z ≠ r →
      (h5.upd dest { xd5 with cache_num_used_digits := qi + 1, cache_bits_per_digit := FFBI_CACHE_DIV_BITS_PER_DIGIT P }).get z
        = some x →
      ∀ y, (h7.upd r y).get z = some x :=
    fun z x n1 hz y => by
      rw [Heap.get_upd_ne _ _ n1]
      exact Heap.frame_get r8 hz (hin r z n1)
  have g8a := g8 a xa1 har (g6 a _ had g4a)
  have g8b := g8 b xb2 hbr (g6 b _ hbd g4b)
  have hcrl : xb2.cache_num_used_digits + 1 ≤ cr.length := Nat.le_trans r3.2.1 r3.2.2
  obtain ⟨cr9, f1, f2, f3⟩ := div_fill_loop_spec
    (h7.upd r { xr7 with cache_bits_per_digit := FFBI_CACHE_DIV_BITS_PER_DIGIT P }) r a qi
    { xr7 with cache_bits_per_digit := FFBI_CACHE_DIV_BITS_PER_DIGIT P } xa1 cr ca
    xb2.cache_num_used_digits (Heap.get_upd_same _ r2) r3.1 (g8a _) u3 (Ne.symm har)
    (by have := u5.2.1; omega) (by omega)
  -- the state at the first quotient digit
  have hAne : digitsVal (FFBI_CACHE_DIV_BITS_PER_DIGIT P) ca xa1.cache_num_used_digits ≠ 0 := by
    rw [hA]; omega
  have hBne : digitsVal (FFBI_CACHE_DIV_BITS_PER_DIGIT P) cb xb2.cache_num_used_digits ≠ 0 := by
    rw [hB]; exact hb0
  have ccr9 : canonicalDigits (FFBI_CACHE_DIV_BITS_PER_DIGIT P) cr9 xb2.cache_num_used_digits := by
    refine ⟨v5.1, by rw [f2]; omega, fun i hi => ?_, Or.inr ?_⟩
    · rw [f3 i hi]
      exact u5.2.2.1 _ (by omega)
    · have := v5.1
      rw [f3 _ (by omega)]
      have ht := top_digit_ne_zero _ ca _ u5 hAne
      have e : qi + (xb2.cache_num_used_digits - 1) = xa1.cache_num_used_digits - 1 := by omega
      rw [e]
      exact ht
  have g10q : (h7.upd r { xr7 with cache_bits_per_digit := FFBI_CACHE_DIV_BITS_PER_DIGIT P, cache := some cr9, cache_num_used_digits := xb2.cache_num_used_digits }).get dest
      = some { xd5 with cache_num_used_digits := qi + 1, cache_bits_per_digit := FFBI_CACHE_DIV_BITS_PER_DIGIT P, cache := some cd } := by
    rw [g8 dest _ hdr (Heap.get_upd_same _ q2)]
    exact congrArg some (with_cache_self (x := { xd5 with cache_num_used_digits := qi + 1, cache_bits_per_digit := FFBI_CACHE_DIV_BITS_PER_DIGIT P }) q3.1).symm
  have g101 : (h7.upd r { xr7 with cache_bits_per_digit := FFBI_CACHE_DIV_BITS_PER_DIGIT P, cache := some cr9, cache_num_used_digits := xb2.cache_num_used_digits }).get s1
      = some { x14 with cache := some c1, cache_num_used_digits := x14.cache_num_used_digits } := by
    rw [g8 s1 x14 (Ne.symm hr1) (g6 s1 _ (Ne.symm hd1) p2), with_cache_used_self p3.1]
  have g102 := g8 s2 x2 (Ne.symm hr2) (g6 s2 _ (Ne.symm hd2) (g4 s2 x2 (Ne.symm ha2) (Ne.symm hb2) (Ne.symm h12) hg2))
    { xr7 with cache_bits_per_digit := FFBI_CACHE_DIV_BITS_PER_DIGIT P, cache := some cr9, cache_num_used_digits := xb2.cache_num_used_digits }
  obtain ⟨h12', cq', cr', rn', cp', pn', xs', l1, l2, l3, l4, l5, l6, l7, l8, l9, l10, l11, l12,
    l13, l14, l15, l16, l17, l18⟩ := div_cache_loop_spec P (h7.upd r { xr7 with cache_bits_per_digit := FFBI_CACHE_DIV_BITS_PER_DIGIT P, cache := some cr9, cache_num_used_digits := xb2.cache_num_used_digits }) dest r a b s1 s2
      { xd5 with cache_num_used_digits := qi + 1, cache_bits_per_digit := FFBI_CACHE_DIV_BITS_PER_DIGIT P } { xr7 with cache_bits_per_digit := FFBI_CACHE_DIV_BITS_PER_DIGIT P } xa1 xb2 x14 x2 cd cr9 ca cb c1 qi xb2.cache_num_used_digits
      x14.cache_num_used_digits g10q (by have := q3.2.1; have := q3.2.2; omega)
      (Heap.get_upd_same _ r2) r3.2.1 (by rw [f2]; exact r3.2.2) ccr9
      (digitsVal_eq_digitsFrom _ cr9 ca qi _ f3) (g8a _) u3 u5 hal (g8b _) v3 v5 hBne g101
      p3.2.1 p3.2.2 p6 g102 v2.2 hdr hd1 hd2 hr1 hr2 h12 had har ha1 ha2 hbd hbr hb1 hb2
  rw [hA, hB] at l5 l9
  -- the top digit of the quotient
  obtain ⟨nq, t1, t2, t3⟩ := div_cache_trim_spec P h12' dest { xd5 with cache_num_used_digits := qi + 1, cache_bits_per_digit := FFBI_CACHE_DIV_BITS_PER_DIGIT P } cq' qi (val P xa / val P xb)
    l2 (by rw [l3]; have := q3.2.1; have := q3.2.2; omega) l4 l5 (fun hq => by
      have := quot_ge_pow (FFBI_CACHE_DIV_BITS_PER_DIGIT P) ca cb qi xb2.cache_num_used_digits
        (by rw [← hal]; exact u5) v5 hBne (by rw [← hal]; exact hAne) hq
      rw [← hal, hA, hB] at this
      exact this)
  have g13 : ∀ z x, z ≠ dest → h12'.get z = some x →
      (h12'.upd dest { xd5 with cache_num_used_digits := nq, cache_bits_per_digit := FFBI_CACHE_DIV_BITS_PER_DIGIT P, cache := some cq' }).get z
        = some x :=
    fun z x n1 hz => by rw [Heap.get_upd_ne _ _ n1]; exact hz
  -- the conversions back
  obtain ⟨h', xq', xr', e1, e2, e3, e4, e5, e6, e7, e8, e9, e10, e11, e12, e13, e14, e15, e16, e17,
    e18⟩ := div_cache_finish_spec P _ dest r s1 s2
      { xd5 with cache_num_used_digits := nq, cache_bits_per_digit := FFBI_CACHE_DIV_BITS_PER_DIGIT P, cache := some cq' }
      { xr7 with cache_bits_per_digit := FFBI_CACHE_DIV_BITS_PER_DIGIT P, cache := some cr', cache_num_used_digits := rn' }
      { x14 with cache := some cp', cache_num_used_digits := pn' } xs' cq' cr'
      (Heap.get_upd_same _ l2) (g13 r _ (Ne.symm hdr) l6) (g13 s1 _ (Ne.symm hd1) l10)
      (g13 s2 _ (Ne.symm hd2) l12) hdr hd1 hd2 hr1 hr2 h12 rfl t2 rfl
      ⟨by
        show xd5.num_allocated_digits ≤ xd5.digits.length
        rw [q4.1, q4.2.2.1]; exact vd.1,
       fun c hc => by
        cases hc
        show xd5.cache_num_allocated_digits ≤ cq'.length
        rw [l3]; exact q3.2.2⟩
      (by show xd5.reallocation_allowed = true; rw [q4.2.2.2]; exact gd)
      rfl l8 rfl
      ⟨by
        show xr7.num_allocated_digits ≤ xr7.digits.length
        rw [r4.1, r4.2.2.1]; exact vr.1,
       fun c hc => by
        cases hc
        show xr7.cache_num_allocated_digits ≤ cr'.length
        rw [l7, f2]; exact r3.2.2⟩
      (by
        rcases gr with gr | gr
        · left
          show xr7.reallocation_allowed = true
          rw [r4.2.2.2]; exact gr
        · right
          refine ⟨xb.digits, xb.num_used_digits, wb.1, ?_, ?_⟩
          · rw [l9]
            exact Nat.le_of_lt (Nat.mod_lt _ (Nat.pos_of_ne_zero hb0))
          · show xb.num_used_digits ≤ xr7.num_allocated_digits
            rw [r4.2.2.1]; exact gr)
  obtain ⟨hmid, l1a, l1b⟩ := obind_eq_some.1 l1
  obtain ⟨xd12, t1a, t1b⟩ := obind_eq_some.1 t1
  have hrun : ffbi_div_cache P h dest a b (some r) s1 s2 = some h' := by
    unfold ffbi_div_cache
    dsimp only
    rw [u1, obind_some, v1', obind_some, modify_eq _ g21, obind_some, g3 b _ hb1 v2', obind_some,
      p1, obind_some, g4a, obind_some, g4b, obind_some, hqi, q1, obind_some, modify_eq _ q2,
      obind_some]
    unfold div_remainder
    dsimp only
    rw [obind_some, r1, obind_some, modify_eq _ r2, obind_some, f1, obind_some,
      modify_eq _ (Heap.get_upd_same _ (Heap.get_upd_same _ r2)), obind_some, Heap.upd_upd,
      Heap.upd_upd, l1a, obind_some, l1b, obind_some, t1a, obind_some, t1b, obind_some]
    exact e1
  have hfa : a ∉ [dest, r, s1, s2] := not_mem_four had har ha1 ha2
  have hfb : b ∉ [dest, r, s1, s2] := not_mem_four hbd hbr hb1 hb2
  have four : ∀ q', q' ∈ [dest, r, s1, s2] → q' ∈ [dest, r, s1, s2, a, b] := by
    intro q' hq'
    simp only [List.mem_cons, List.mem_singleton, List.not_mem_nil, or_false] at hq' ⊢
    rcases hq' with hq' | hq' | hq' | hq'
    · exact Or.inl hq'
    · exact Or.inr (Or.inl hq')
    · exact Or.inr (Or.inr (Or.inl hq'))
    · exact Or.inr (Or.inr (Or.inr (Or.inl hq')))
  refine ⟨h', xq', xr', xa1, xb2, _, _, hrun, e2, e3, e4, by rw [e5, t3],
    by rw [e6]; exact q4.2.2.2, Nat.le_trans (Nat.le_of_eq q4.2.2.1.symm) e7, e8, e9, e10,
    by rw [e11, l9], by rw [e12]; exact r4.2.2.2, Nat.le_trans (Nat.le_of_eq r4.2.2.1.symm) e13,
    Heap.frame_get e16 (g13 a _ had (Heap.frame_get l16 (g8a _) hfa)) hfa, u7, ?_, ?_,
    Heap.frame_get e16 (g13 b _ hbd (Heap.frame_get l16 (g8b _) hfb)) hfb, v7, ?_, ?_,
    e14, ⟨p4.1, p4.2.1, p4.2.2.1, p4.2.2.2⟩, rfl, ?_, e15, l13, rfl, ?_, ?_, ?_, ?_⟩
  · intro _
    exact ⟨ca, u3, by rw [u9]; exact u5, u4, by rw [u9]; exact cache_bits_pos P,
      by rw [u9, u6, sameMain_val P u7]⟩
  · exact ⟨by rw [u7.1, u7.2.2.1]; exact wa.2.2.1, fun c hc => by rw [u3] at hc; cases hc; exact u4⟩
  · intro _
    exact ⟨cb, v3, by rw [v9]; exact v5, v4, by rw [v9]; exact cache_bits_pos P,
      by rw [v9, v6, sameMain_val P v7]⟩
  · exact ⟨by rw [v7.1, v7.2.2.1]; exact wb.2.2.1, fun c hc => by rw [v3] at hc; cases hc; exact v4⟩
  · refine ⟨?_, fun c hc => ?_⟩
    · show x14.num_allocated_digits ≤ x14.digits.length
      rw [p4.1, p4.2.2.1]; exact v1.1
    · cases hc
      show x14.cache_num_allocated_digits ≤ cp'.length
      rw [l11]; exact p3.2.2
  · refine ⟨?_, l15⟩
    show xs'.num_allocated_digits ≤ xs'.digits.length
    rw [l13.1, l13.2.2.1]; exact v2.1
  · have f1 : Heap.frame [dest, r, s1, s2, a, b] h h1 :=
      Heap.frame_mono u10 (mem_six (z := a) (by simp))
    have f2 := Heap.frame_trans f1 (Heap.frame_mono v10 (mem_six (z := b) (by simp)))
      (fun _ hm => hm)
    have f3 := Heap.frame_trans f2 (Heap.frame_mono (Heap.frame_upd h2 s1
      { x1 with cache_bits_per_digit := FFBI_CACHE_DIV_BITS_PER_DIGIT P })
      (mem_six (z := s1) (by simp))) (fun _ hm => hm)
    have f4 := Heap.frame_trans f3 (Heap.frame_mono p8 (mem_six (z := s1) (by simp)))
      (fun _ hm => hm)
    have f5 := Heap.frame_trans f4 (Heap.frame_mono q8 (mem_six (z := dest) (by simp)))
      (fun _ hm => hm)
    have f6 := Heap.frame_trans f5 (Heap.frame_mono (Heap.frame_upd h5 dest
      { xd5 with cache_num_used_digits := qi + 1, cache_bits_per_digit := FFBI_CACHE_DIV_BITS_PER_DIGIT P })
      (mem_six (z := dest) (by simp))) (fun _ hm => hm)
    have f7 := Heap.frame_trans f6 (Heap.frame_mono r8 (mem_six (z := r) (by simp)))
      (fun _ hm => hm)
    have f8 := Heap.frame_trans f7 (Heap.frame_mono (Heap.frame_upd h7 r
      { xr7 with cache_bits_per_digit := FFBI_CACHE_DIV_BITS_PER_DIGIT P, cache := some cr9, cache_num_used_digits := xb2.cache_num_used_digits })
      (mem_six (z := r) (by simp))) (fun _ hm => hm)
    have f9 := Heap.frame_trans f8 (Heap.frame_mono l16 four) (fun _ hm => hm)
    have f10 := Heap.frame_trans f9 (Heap.frame_mono (Heap.frame_upd h12' dest
      { xd5 with cache_num_used_digits := nq, cache_bits_per_digit := FFBI_CACHE_DIV_BITS_PER_DIGIT P, cache := some cq' })
      (mem_six (z := dest) (by simp))) (fun _ hm => hm)
    exact Heap.frame_trans f10 (Heap.frame_mono e16 four) (fun _ hm => hm)
  · rw [e17, Heap.upd_obj_length, l17, Heap.upd_obj_length, r9, Heap.upd_obj_length, q9, p9,
      Heap.upd_obj_length, v11, u11]
  · rw [e18, Heap.upd_scr, l18, Heap.upd_scr, cache_prepare_scr r1, Heap.upd_scr,
      cache_prepare_scr q1, cache_prepare_scr p1, Heap.upd_scr, cache_update_scr v1',
      cache_update_scr u1]


/-! # The function `ffbi_div_impl` -/

/-- A bigint set to a one-digit value with its cache marked invalid. -/
theorem one_digit_wf (P : Platform) (x : FFBI) (v : Nat) (hv : v < 2 ^ FFBI_BITS_PER_DIGIT P)
    (vs : validStorage x) (h1 : 1 ≤ x.num_allocated_digits) :
    wellFormed P { x with num_used_digits := 1, digits := x.digits.set 0 v, cache_valid := false } ∧
    cacheCoherent P { x with num_used_digits := 1, digits := x.digits.set 0 v, cache_valid := false } ∧
    val P { x with num_used_digits := 1, digits := x.digits.set 0 v, cache_valid := false } = v := by
  have hl : 0 < x.digits.length := by have := vs.1; omega
  have hd : ({ x with num_used_digits := 1, digits := x.digits.set 0 v, cache_valid := false } : FFBI).digits.getD 0 0
      = v := @getD_set_same x.digits 0 _ hl
  refine ⟨⟨one_digit_canonical P _ rfl ?_ ?_, h1, ?_, vs.2⟩, ?_, ?_⟩
  · show 0 < (x.digits.set 0 v).length
    rw [List.length_set]; exact hl
  · rw [hd]; exact hv
  · show x.num_allocated_digits ≤ (x.digits.set 0 v).length
    rw [List.length_set]; exact vs.1
  · intro hc
    cases hc
  · rw [val_one P _ rfl, hd]

theorem bufferOf_mono {x : FFBI} {m n : Nat} (hb : bufferOf x n) (hmn : m ≤ n) : bufferOf x m :=
  ⟨hb.1, hb.2.1, fun hlt => hb.2.2 (by omega)⟩

theorem mem_two_of_six {a b c d e f : Nat} : ∀ q', q' ∈ [a, b] → q' ∈ [a, b, c, d, e, f] := by
  intro q' hq'
  simp only [List.mem_cons, List.mem_singleton, List.not_mem_nil, or_false] at hq' ⊢
  rcases hq' with hq' | hq'
  · exact Or.inl hq'
  · exact Or.inr (Or.inl hq')

theorem mem_four_of_six {a b c d e f : Nat} : ∀ q', q' ∈ [a, b, c, d] → q' ∈ [a, b, c, d, e, f] := by
  intro q' hq'
  simp only [List.mem_cons, List.mem_singleton, List.not_mem_nil, or_false] at hq' ⊢
  rcases hq' with hq' | hq' | hq' | hq'
  · exact Or.inl hq'
  · exact Or.inr (Or.inl hq')
  · exact Or.inr (Or.inr (Or.inl hq'))
  · exact Or.inr (Or.inr (Or.inr (Or.inl hq')))

theorem not_mem_two {z a b : Nat} (h1 : z ≠ a) (h2 : z ≠ b) : z ∉ [a, b] := by
  simp only [List.mem_cons, List.mem_singleton, List.not_mem_nil, or_false]
  rintro (h | h)
  · exact h1 h
  · exact h2 h

/-- The function `ffbi_div_impl` with a remainder bigint: for well-formed operands with
coherent caches and `b ≠ 0`, a growable quotient bigint and work buffers for `length(b) + 1`
digits, all distinct, the call returns 0 and leaves `a / b` in `dest` and `a % b` in `rem`.
The operands keep their digits, every bigint involved stays well-formed, and the scratch arenas
are not touched. -/
theorem ffbi_div_impl_spec (P : Platform) (h : Heap) (dest a b r s1 s2 : Nat)
    (xd xa xb xr x1 x2 : FFBI)
    (hgd : h.get dest = some xd) (hga : h.get a = some xa) (hgb : h.get b = some xb)
    (hgr : h.get r = some xr) (hg1 : h.get s1 = some x1) (hg2 : h.get s2 = some x2)
    (hdr : dest ≠ r) (hd1 : dest ≠ s1) (hd2 : dest ≠ s2) (hr1 : r ≠ s1) (hr2 : r ≠ s2)
    (h12 : s1 ≠ s2)
    (had : a ≠ dest) (har : a ≠ r) (ha1 : a ≠ s1) (ha2 : a ≠ s2)
    (hbd : b ≠ dest) (hbr : b ≠ r) (hb1 : b ≠ s1) (hb2 : b ≠ s2)
    (wa : wellFormed P xa) (coa : cacheCoherent P xa)
    (wb : wellFormed P xb) (cob : cacheCoherent P xb) (hb0 : val P xb ≠ 0)
    (od : outputReady xd) (orr : bufferOf xr (xb.num_used_digits + 1))
    (o1 : bufferOf x1 (xb.num_used_digits + 1)) (o2 : bufferOf x2 (xb.num_used_digits + 1)) :
    ∃ h' xq' xr' xa' xb' x1' x2', ffbi_div_impl P h dest a b (some r) s1 s2 = some (0, h') ∧
      h'.get dest = some xq' ∧ wellFormed P xq' ∧ cacheCoherent P xq' ∧
      val P xq' = val P xa / val P xb ∧
      xq'.reallocation_allowed = xd.reallocation_allowed ∧
      xd.num_allocated_digits ≤ xq'.num_allocated_digits ∧
      h'.get r = some xr' ∧ wellFormed P xr' ∧ cacheCoherent P xr' ∧
      val P xr' = val P xa % val P xb ∧
      xr'.reallocation_allowed = xr.reallocation_allowed ∧
      xr.num_allocated_digits ≤ xr'.num_allocated_digits ∧
      h'.get a = some xa' ∧ sameMain xa xa' ∧ cacheCoherent P xa' ∧ validStorage xa' ∧
      h'.get b = some xb' ∧ sameMain xb xb' ∧ cacheCoherent P xb' ∧ validStorage xb' ∧
      h'.get s1 = some x1' ∧ validStorage x1' ∧
      x1'.reallocation_allowed = x1.reallocation_allowed ∧
      x1.num_allocated_digits ≤ x1'.num_allocated_digits ∧
      h'.get s2 = some x2' ∧ validStorage x2' ∧
      x2'.reallocation_allowed = x2.reallocation_allowed ∧
      x2.num_allocated_digits ≤ x2'.num_allocated_digits ∧
      Heap.frame [dest, r, s1, s2, a, b] h h' ∧ h'.scr = h.scr := by
  have hBpos : 0 < val P xb := Nat.pos_of_ne_zero hb0
  have hdl : 0 < xd.digits.length := by have := od.2.1.1; have := od.2.2; omega
  have hrl : 0 < xr.digits.length := by have := orr.1.1; have := orr.2.1; omega
  have hD0 : 0 < 2 ^ FFBI_BITS_PER_DIGIT P := Nat.pos_pow_of_pos _ (by decide)
  unfold ffbi_div_impl
  rw [ffbi_cmp_spec P hgb hga wb.1 wa.1, obind_some]
  by_cases hlt : val P xa < val P xb
  · -- the dividend is the smaller
    have hlen : xa.num_used_digits ≤ xb.num_used_digits :=
      nb_le_na_of_val_le _ _ _ _ _ wb.1 wa.1 (Nat.le_of_lt hlt)
    obtain ⟨h', xr', d1, d2, d3, d4, d5, d6, d7, d8, d9, d10, d11, d12, d13⟩ :=
      div_small_spec P h dest a r xd xa xr hgd hga hgr (Ne.symm had) hdr (Ne.symm har) wa hdl orr.1
        (fun hl => orr.2.2 (by omega))
    obtain ⟨w1, w2, w3⟩ := one_digit_wf P xd 0 hD0 od.2.1 od.2.2
    have fr := fun z (x : FFBI) (n1 : z ≠ dest) (n2 : z ≠ r) (hz : h.get z = some x) =>
      Heap.frame_get d11 hz (not_mem_two n1 n2)
    rw [cmpVal_gt hlt, if_pos rfl, d1, obind_some]
    exact ⟨h', _, xr', xa, xb, x1, x2, rfl, d2, w1, w2, by rw [w3, Nat.div_eq_of_lt hlt], rfl,
      Nat.le_refl _, d3, ⟨d4, d8, d9⟩, (fun hc => absurd (d7.symm.trans hc) (by decide)),
      by rw [d5, Nat.mod_eq_of_lt hlt], d10, d13,
      fr a xa had har hga, sameMain_refl xa, coa, wa.2.2,
      fr b xb hbd hbr hgb, sameMain_refl xb, cob, wb.2.2,
      fr s1 x1 (Ne.symm hd1) (Ne.symm hr1) hg1, o1.1, rfl, Nat.le_refl _,
      fr s2 x2 (Ne.symm hd2) (Ne.symm hr2) hg2, o2.1, rfl, Nat.le_refl _,
      Heap.frame_mono d11 mem_two_of_six, d12⟩
  · by_cases heq : val P xa = val P xb
    · -- the operands are equal
      obtain ⟨w1, w2, w3⟩ := one_digit_wf P xd 1 (pow_bits_gt_one P) od.2.1 od.2.2
      obtain ⟨y1, y2, y3⟩ := one_digit_wf P xr 0 hD0 orr.1 orr.2.1
      have g1 : (h.upd dest { xd with num_used_digits := 1, digits := xd.digits.set 0 1, cache_valid := false }).get r
          = some xr := by
        rw [Heap.get_upd_ne _ _ (Ne.symm hdr)]; exact hgr
      have fr : ∀ z (x : FFBI), z ≠ dest → z ≠ r → h.get z = some x →
          ((h.upd dest { xd with num_used_digits := 1, digits := xd.digits.set 0 1, cache_valid := false }).upd r
            { xr with num_used_digits := 1, digits := xr.digits.set 0 0, cache_valid := false }).get z = some x :=
        fun z x n1 n2 hz => by rw [Heap.get_upd_ne _ _ n2, Heap.get_upd_ne _ _ n1]; exact hz
      rw [heq, cmpVal_self, if_neg (by decide), if_pos rfl,
        div_equal_spec h dest r xd xr hgd hgr hdr hdl hrl, obind_some]
      refine ⟨_, _, _, xa, xb, x1, x2, rfl, ?_, w1, w2, by rw [w3, Nat.div_self hBpos], rfl,
        Nat.le_refl _, Heap.get_upd_same _ g1, y1, y2, by rw [y3, Nat.mod_self], rfl, Nat.le_refl _,
        fr a xa had har hga, sameMain_refl xa, coa, wa.2.2,
        fr b xb hbd hbr hgb, sameMain_refl xb, cob, wb.2.2,
        fr s1 x1 (Ne.symm hd1) (Ne.symm hr1) hg1, o1.1, rfl, Nat.le_refl _,
        fr s2 x2 (Ne.symm hd2) (Ne.symm hr2) hg2, o2.1, rfl, Nat.le_refl _, ?_, rfl⟩
      · rw [Heap.get_upd_ne _ _ hdr]; exact Heap.get_upd_same _ hgd
      · exact Heap.frame_trans
          (Heap.frame_mono (Heap.frame_upd h dest _) (mem_six (z := dest) (by simp)))
          (Heap.frame_mono (Heap.frame_upd _ r _) (mem_six (z := r) (by simp))) (fun _ hm => hm)
    · have hgt : val P xb < val P xa := by omega
      rw [cmpVal_lt hgt, if_neg (by decide), if_neg (by decide), hga, obind_some, hgb, obind_some]
      by_cases hwide : xa.num_used_digits > 1 ∨ xb.num_used_digits > 1
      · -- the wide-digit path
        rw [if_pos hwide]
        obtain ⟨h', xq', xr', xa', xb', x1', x2', c1, c2, c3, c4, c5, c6, c7, c8, c9, c10, c11, c12,
          c13, c14, c15, c16, c17, c18, c19, c20, c21, c22, c23, c24, c25, c26, c27, c28, c29, c30,
          c31, c32⟩ := ffbi_div_cache_spec P h dest a b r s1 s2 xd xa xb xr x1 x2 hgd hga hgb hgr
            hg1 hg2 hdr hd1 hd2 hr1 hr2 h12 had har ha1 ha2 hbd hbr hb1 hb2 wa coa wb cob hgt hb0
            od.2.1 od.1 orr.1 (by
              by_cases hg : xr.num_allocated_digits < xb.num_used_digits + 1
              · exact Or.inl (orr.2.2 hg)
              · exact Or.inr (by omega)) o1.1 o2.1
        rw [c1, obind_some]
        exact ⟨h', xq', xr', xa', xb', x1', x2', rfl, c2, c3, c4, c5, c6, c7, c8, c9, c10, c11, c12,
          c13, c14, c15, c16, c17, c18, c19, c20, c21, c22, c25,
          c23.2.2.2, Nat.le_of_eq c23.2.2.1.symm, c26, c29, c27.2.2.2,
          Nat.le_of_eq c27.2.2.1.symm, c30, c32⟩
      · -- the single-digit path
        rw [if_neg hwide]
        have hau : xa.num_used_digits = 1 := by have := wa.1.1; omega
        have hbu : xb.num_used_digits = 1 := by have := wb.1.1; omega
        rw [val_one P xb hbu] at hb0
        rw [val_one P xa hau, val_one P xb hbu] at hgt ⊢
        have haD : xa.digits.getD 0 0 < 2 ^ FFBI_BITS_PER_DIGIT P := wa.1.2.2.1 0 (by rw [hau]; decide)
        rw [hbu] at orr o2 o1
        obtain ⟨h', xr', d1, d2, d3, d4, d5, d6, d7, d8, d9, d10, d11, d12, d13, x1', x2', d14, d15,
          d16, d17, d18, d19, d20, d21⟩ := div_digits_single_spec P h dest a b r s1 s2 xd xa xb xr x1
            x2 hgd hga hgb hgr hg1 hg2 hdr hd1 hd2 hr1 hr2 h12 (Ne.symm had) (Ne.symm har)
            (Ne.symm ha1) (Ne.symm ha2) (Ne.symm hbd) (Ne.symm hbr) (Ne.symm hb1) (Ne.symm hb2) wa wb
            hau hbu hb0 hgt ⟨od.2.1, od.2.2, fun _ => od.1⟩ orr (bufferOf_mono o1 (by decide)) o2
        obtain ⟨w1, w2, w3⟩ := one_digit_wf P xd (xa.digits.getD 0 0 / xb.digits.getD 0 0)
          (Nat.lt_of_le_of_lt (Nat.div_le_self _ _) haD) od.2.1 od.2.2
        have fr := fun z (x : FFBI) (n1 : z ≠ dest) (n2 : z ≠ r) (n3 : z ≠ s1) (n4 : z ≠ s2)
            (hz : h.get z = some x) => Heap.frame_get d8 hz (not_mem_four n1 n2 n3 n4)
        rw [d1, obind_some]
        exact ⟨h', _, xr', xa, xb, x1', x2', rfl, d2, w1, w2, w3, rfl, Nat.le_refl _, d3,
          ⟨one_digit_canonical P xr' d4 d6 (by
              rw [d5]; exact Nat.lt_of_le_of_lt (Nat.mod_le _ _) haD), d13, d10⟩,
          (fun hc => absurd (d7.symm.trans hc) (by decide)),
          by rw [val_one P xr' d4, d5], d11, d12,
          fr a xa had har ha1 ha2 hga, sameMain_refl xa, coa, wa.2.2,
          fr b xb hbd hbr hb1 hb2 hgb, sameMain_refl xb, cob, wb.2.2,
          d14, d16, d17, d18, d15, d19, d20, d21, Heap.frame_mono d8 mem_four_of_six, d9⟩


/-! # Division: the contract of `ffbi_div_impl` -/

/-- The division when every argument is a bigint of its own: for well-formed bigints `a` and
`b` (canonical digits within the allocated capacity, a
cache that is coherent whenever it is marked valid) with `b > 0`, a growable quotient bigint
`dest`, and a remainder bigint and two scratch bigints that are work buffers for
`length(b) + 1` digits, all of them distinct from each other and from the operands,
`ffbi_div_impl(dest, a, b, rem, scratch1, scratch2)` returns 0 and leaves `dest = q` and
`rem = r` both canonical with `val(a) = val(q) * val(b) + val(r)` and `val(r) < val(b)`. -/
theorem ffbi_div_impl_correct (P : Platform) (h : Heap) (dest a b r s1 s2 : Nat)
    (xd xa xb xr x1 x2 : FFBI)
    (hgd : h.get dest = some xd) (hga : h.get a = some xa) (hgb : h.get b = some xb)
    (hgr : h.get r = some xr) (hg1 : h.get s1 = some x1) (hg2 : h.get s2 = some x2)
    (hdr : dest ≠ r) (hd1 : dest ≠ s1) (hd2 : dest ≠ s2) (hr1 : r ≠ s1) (hr2 : r ≠ s2)
    (h12 : s1 ≠ s2)
    (had : a ≠ dest) (har : a ≠ r) (ha1 : a ≠ s1) (ha2 : a ≠ s2)
    (hbd : b ≠ dest) (hbr : b ≠ r) (hb1 : b ≠ s1) (hb2 : b ≠ s2)
    (wa : wellFormed P xa) (coa : cacheCoherent P xa)
    (wb : wellFormed P xb) (cob : cacheCoherent P xb) (hb0 : 0 < val P xb)
    (od : outputReady xd) (orr : bufferOf xr (xb.num_used_digits + 1))
    (o1 : bufferOf x1 (xb.num_used_digits + 1)) (o2 : bufferOf x2 (xb.num_used_digits + 1)) :
    ∃ h' xq xr', ffbi_div_impl P h dest a b (some r) s1 s2 = some (0, h') ∧
      h'.get dest = some xq ∧ h'.get r = some xr' ∧ canonical P xq ∧ canonical P xr' ∧
      val P xa = val P xq * val P xb + val P xr' ∧ val P xr' < val P xb := by
  obtain ⟨h', xq', xr', _, _, _, _, c1, c2, c3, _, c5, _, _, c8, c9, _, c11, _⟩ :=
    ffbi_div_impl_spec P h dest a b r s1 s2 xd xa xb xr x1 x2 hgd hga hgb hgr hg1 hg2 hdr hd1 hd2
      hr1 hr2 h12 had har ha1 ha2 hbd hbr hb1 hb2 wa coa wb cob (by omega) od orr o1 o2
  refine ⟨h', xq', xr', c1, c2, c8, c3.1, c9.1, ?_, ?_⟩
  · rw [c5, c11, Nat.mul_comm]
    exact (Nat.div_add_mod _ _).symm
  · rw [c11]
    exact Nat.mod_lt _ hb0

/-- Example: a three-digit dividend and a two-digit divisor on the 29-bit configuration
(the wide-digit path), with buffers of three digits. -/
theorem ffbi_div_impl_correct_witness :
    ∃ h' xq xr', ffbi_div_impl .generic64
        (exHeap [exBig [0, 0, 0] 1, exBig [5, 7, 9] 3, exBig [3, 2, 0] 2, exBig [0, 0, 0] 1,
          exBig [0, 0, 0] 1, exBig [0, 0, 0] 1] 0) 0 1 2 (some 3) 4 5 = some (0, h') ∧
      h'.get 0 = some xq ∧ h'.get 3 = some xr' ∧ canonical .generic64 xq ∧
      canonical .generic64 xr' ∧
      val .generic64 (exBig [5, 7, 9] 3)
        = val .generic64 xq * val .generic64 (exBig [3, 2, 0] 2) + val .generic64 xr' ∧
      val .generic64 xr' < val .generic64 (exBig [3, 2, 0] 2) :=
  ffbi_div_impl_correct .generic64
    (exHeap [exBig [0, 0, 0] 1, exBig [5, 7, 9] 3, exBig [3, 2, 0] 2, exBig [0, 0, 0] 1,
      exBig [0, 0, 0] 1, exBig [0, 0, 0] 1] 0) 0 1 2 3 4 5
    (exBig [0, 0, 0] 1) (exBig [5, 7, 9] 3) (exBig [3, 2, 0] 2) (exBig [0, 0, 0] 1)
    (exBig [0, 0, 0] 1) (exBig [0, 0, 0] 1) rfl rfl rfl rfl rfl rfl
    (by decide) (by decide) (by decide) (by decide) (by decide) (by decide)
    (by decide) (by decide) (by decide) (by decide) (by decide) (by decide) (by decide) (by decide)
    ⟨by decide, by decide, by decide, fun c hc => Option.noConfusion hc⟩
    (fun hc => Bool.noConfusion hc)
    ⟨by decide, by decide, by decide, fun c hc => Option.noConfusion hc⟩
    (fun hc => Bool.noConfusion hc) (by decide)
    ⟨rfl, ⟨by decide, fun c hc => Option.noConfusion hc⟩, by decide⟩
    ⟨⟨by decide, fun c hc => Option.noConfusion hc⟩, by decide, fun hl => absurd hl (by decide)⟩
    ⟨⟨by decide, fun c hc => Option.noConfusion hc⟩, by decide, fun hl => absurd hl (by decide)⟩
    ⟨⟨by decide, fun c hc => Option.noConfusion hc⟩, by decide, fun hl => absurd hl (by decide)⟩


theorem cmpVal_ne_one {m n : Nat} (h : m ≤ n) : cmpVal m n ≠ 1 := by
  unfold cmpVal
  rw [if_neg (by omega)]
  split <;> decide

theorem outputReady_buffer {x : FFBI} (o : outputReady x) (n : Nat) : bufferOf x n :=
  ⟨o.2.1, o.2.2, fun _ => o.1⟩

theorem not_mem_six {q a b c d e f : Nat} (h1 : q ≠ a) (h2 : q ≠ b) (h3 : q ≠ c) (h4 : q ≠ d)
    (h5 : q ≠ e) (h6 : q ≠ f) : q ∉ [a, b, c, d, e, f] := by
  simp only [List.mem_cons, List.mem_singleton, List.not_mem_nil, or_false, not_or]
  exact ⟨h1, h2, h3, h4, h5, h6⟩

/-- The sieve loop of `ffbi_is_large_prime` finds a divisor: when the sieve entries hold the
values `f d` in ascending order, none of them zero, and one of them is at most the value of `p`
and divides it, the loop ends with the flag set, and no arena has changed. -/
theorem prime_sieve_loop_spec (P : Platform) (p t1 t2 t3 c0 : Nat) (f : Nat → Nat) (v : Nat)
    (h21 : t2 ≠ t1) (h23 : t2 ≠ t3) (h20 : t2 ≠ c0) (h13 : t1 ≠ t3) (h10 : t1 ≠ c0)
    (h30 : t3 ≠ c0) (hp2 : p ≠ t2) (hp1 : p ≠ t1) (hp3 : p ≠ t3) (hp0 : p ≠ c0) :
    ∀ (ds : List Nat) (h : Heap) (xp x1 x2 x3 x0 : FFBI),
      h.get p = some xp → wellFormed P xp → cacheCoherent P xp → val P xp = v →
      h.get t1 = some x1 → outputReady x1 → h.get t2 = some x2 → outputReady x2 →
      h.get t3 = some x3 → outputReady x3 → h.get c0 = some x0 → outputReady x0 →
      (∀ d, d ∈ ds → d ≠ t1 ∧ d ≠ t2 ∧ d ≠ t3 ∧ d ≠ c0 ∧
        ∃ x, h.get d = some x ∧ wellFormed P x ∧ cacheCoherent P x ∧ val P x = f d ∧ f d ≠ 0) →
      ds.Nodup → ds.Pairwise (fun d e => f d ≤ f e) →
      (∃ d, d ∈ ds ∧ f d ≤ v ∧ f d ∣ v) →
      ∃ h', prime_sieve_loop P p t1 t2 t3 c0 ds h = some (true, h') ∧ h'.scr = h.scr := by
  intro ds
  induction ds with
  | nil =>
    intro h xp x1 x2 x3 x0 _ _ _ _ _ _ _ _ _ _ _ _ _ _ _ hex
    obtain ⟨d, hd, _⟩ := hex
    exact absurd hd (List.not_mem_nil d)
  | cons d rest ih =>
    intro h xp x1 x2 x3 x0 gp wp cp hv g1 o1 g2 o2 g3 o3 g0 o0 hds hnd hpw hex
    obtain ⟨d1, d2, d3, d0, xd, gd, wd, cd, vd, fd0⟩ := hds d (List.mem_cons_self d rest)
    have hle : f d ≤ v := by
      obtain ⟨e, he, hev, _⟩ := hex
      rcases List.mem_cons.1 he with he | he
      · rw [← he]; exact hev
      · exact Nat.le_trans (List.rel_of_pairwise_cons hpw he) hev
    obtain ⟨h', xq', xr', xa', xb', x3', x0', hrun, gq', wq', _, _, rq', aq', gr', wr', _, vr',
      rr', ar', ga', sa', ca', va', _, _, _, _, g3', v3', r3', a3', g0', v0', r0', a0', hfr, hscr⟩ :=
      ffbi_div_impl_spec P h t2 p d t1 t3 c0 x2 xp xd x1 x3 x0 g2 gp gd g1 g3 g0
        h21 h23 h20 h13 h10 h30 hp2 hp1 hp3 hp0 d2 d1 d3 d0 wp cp wd cd
        (by rw [vd]; exact fd0) o2 (outputReady_buffer o1 _) (outputReady_buffer o3 _)
        (outputReady_buffer o0 _)
    have hz := ffbi_is_zero_spec P gr' wr'.1
    unfold ffbi_is_zero at hz
    rw [gr', obind_some] at hz
    have hstep : prime_sieve_loop P p t1 t2 t3 c0 (d :: rest) h
        = if decide (v % f d = 0) = true then some (true, h')
          else prime_sieve_loop P p t1 t2 t3 c0 rest h' := by
      show obind (ffbi_cmp h d p) _ = _
      rw [ffbi_cmp_spec P gd gp wd.1 wp.1, obind_some, vd, hv, if_neg (cmpVal_ne_one hle), hrun,
        obind_some]
      dsimp only
      rw [gr', obind_some, hz, obind_some, vr', vd, hv]
    rw [hstep]
    by_cases hdv : v % f d = 0
    · rw [decide_eq_true hdv, if_pos rfl]
      exact ⟨h', rfl, hscr⟩
    · rw [decide_eq_false hdv, if_neg (by decide)]
      have hrest : ∀ e, e ∈ rest → e ≠ p → h'.get e = h.get e := fun e he ep => by
        obtain ⟨e1, e2, e3, e0, xe, ge, _⟩ := hds e (List.mem_cons_of_mem d he)
        have hed : e ≠ d := fun hc => (List.nodup_cons.1 hnd).1 (hc ▸ he)
        exact hfr.2 e (Heap.get_lt ge) (not_mem_six e2 e1 e3 e0 ep hed)
      obtain ⟨h'', hr, hs⟩ := ih h' xa' xr' xq' x3' x0' ga'
        ⟨sameMain_canonical P sa' wp.1, by rw [sa'.2.1, sa'.2.2.1]; exact wp.2.1, va'⟩ ca'
        ((sameMain_val P sa').trans hv)
        gr' ⟨rr'.trans o1.1, wr'.2.2, Nat.le_trans o1.2.2 ar'⟩
        gq' ⟨rq'.trans o2.1, wq'.2.2, Nat.le_trans o2.2.2 aq'⟩
        g3' ⟨r3'.trans o3.1, v3', Nat.le_trans o3.2.2 a3'⟩
        g0' ⟨r0'.trans o0.1, v0', Nat.le_trans o0.2.2 a0'⟩
        (fun e he => by
          obtain ⟨e1, e2, e3, e0, xe, ge, we, ce, ve, fe0⟩ := hds e (List.mem_cons_of_mem d he)
          by_cases ep : e = p
          · rw [ep] at ge ve fe0 ⊢
            have hx : xe = xp := Option.some.inj (ge.symm.trans gp)
            rw [hx, hv] at ve
            exact ⟨fun hc => hp1 hc, fun hc => hp2 hc, fun hc => hp3 hc,
              fun hc => hp0 hc, xa', ga',
              ⟨sameMain_canonical P sa' wp.1, by rw [sa'.2.1, sa'.2.2.1]; exact wp.2.1, va'⟩, ca',
              ((sameMain_val P sa').trans hv).trans ve, fe0⟩
          · exact ⟨e1, e2, e3, e0, xe, (hrest e he ep).trans ge, we, ce, ve, fe0⟩)
        (List.nodup_cons.1 hnd).2 (List.pairwise_cons.1 hpw).2
        (by
          obtain ⟨e, he, hev, hed⟩ := hex
          rcases List.mem_cons.1 he with he | he
          · rw [he] at hed
            exact absurd (Nat.mod_eq_zero_of_dvd hed) hdv
          · exact ⟨e, he, hev, hed⟩)
      exact ⟨h'', hr, hs.trans hscr⟩


theorem four_vals {l : List Nat} (hl : 4 ≤ l.length) :
    ∃ a b c d rest, l = a :: b :: c :: d :: rest := by
  rcases l with _ | ⟨a, l⟩
  · simp at hl
  rcases l with _ | ⟨b, l⟩
  · simp at hl
  rcases l with _ | ⟨c, l⟩
  · simp at hl
  rcases l with _ | ⟨d, l⟩
  · simp at hl
  exact ⟨a, b, c, d, l, rfl⟩

theorem scratch_get_set_self {l : List FFBI_SCRATCH} {s : Nat} (a : FFBI_SCRATCH)
    (hs : s < l.length) : (l.set s a)[s]? = some a := by
  rw [List.getElem?_set]
  simp [hs]

theorem scratch_get_set_ne {l : List FFBI_SCRATCH} {s q : Nat} (a : FFBI_SCRATCH)
    (hq : s ≠ q) : (l.set s a)[q]? = l[q]? := by
  rw [List.getElem?_set]
  simp [hq]

theorem scratch_get_append {l : List FFBI_SCRATCH} {q : Nat} (a : FFBI_SCRATCH)
    (hq : q < l.length) : (l ++ [a])[q]? = l[q]? :=
  List.getElem?_append_left hq

theorem scratch_get_append_last (l : List FFBI_SCRATCH) (a : FFBI_SCRATCH) :
    (l ++ [a])[l.length]? = some a := by
  simp

/-- The arena that `ffbi_is_large_prime` works with: the one passed in, or a new one. -/
theorem scratch_or_create_sieve (h : Heap) (scratch : Option Nat) (avoid : List Nat) (sv : Nat)
    (ss : FFBI_SCRATCH) (hss : h.scr[sv]? = some ss)
    (hsc : ∀ sc, scratch = some sc → sc ≠ sv ∧
      ∃ a, h.scr[sc]? = some a ∧ a.num_children = 0 ∧ arenaVals h a.val avoid) :
    ∃ s hA sA, scratch_or_create h scratch = (s, hA) ∧ hA.scr[s]? = some sA ∧
      sA.num_children = 0 ∧ arenaVals hA sA.val avoid ∧ hA.obj = h.obj ∧ s ≠ sv ∧
      hA.scr[sv]? = some ss := by
  have hsvlt : sv < h.scr.length := (List.getElem?_eq_some.mp hss).1
  cases scratch with
  | none =>
    refine ⟨h.scr.length, _, { val := [], child := none, num_children := 0 }, rfl,
      scratch_get_append_last _ _, rfl,
      ⟨List.nodup_nil, fun q hq => absurd hq (List.not_mem_nil q)⟩, rfl, by omega, ?_⟩
    exact (scratch_get_append _ hsvlt).trans hss
  | some s =>
    obtain ⟨h1, a, h2, h3, h4⟩ := hsc s rfl
    exact ⟨s, h, a, rfl, h2, h3, h4, rfl, h1, hss⟩


/-- The sieve step of `ffbi_is_large_prime`: when the sieve arena holds the values `f d` in
ascending order, none of them zero, and one of them is at most the value of `p` and divides it,
the function returns 0. -/
theorem is_large_prime_sieve_spec (P : Platform) (fuel : Nat) (h : Heap) (p num_tests sv : Nat)
    (scratch : Option Nat) (xp : FFBI) (ss : FFBI_SCRATCH) (f : Nat → Nat)
    (hn : 1 ≤ num_tests) (gp : h.get p = some xp) (wp : wellFormed P xp)
    (cp : cacheCoherent P xp) (hss : h.scr[sv]? = some ss)
    (hds : ∀ d, d ∈ ss.val →
      ∃ x, h.get d = some x ∧ wellFormed P x ∧ cacheCoherent P x ∧ val P x = f d ∧ f d ≠ 0)
    (hnd : ss.val.Nodup) (hpw : ss.val.Pairwise (fun d e => f d ≤ f e))
    (hex : ∃ d, d ∈ ss.val ∧ f d ≤ val P xp ∧ f d ∣ val P xp)
    (hsc : ∀ sc, scratch = some sc → sc ≠ sv ∧
      ∃ a, h.scr[sc]? = some a ∧ a.num_children = 0 ∧ arenaVals h a.val (p :: ss.val)) :
    ∃ h', ffbi_is_large_prime P fuel h p num_tests (some sv) scratch = some (0, h') := by
  have hsvlt : sv < h.scr.length := (List.getElem?_eq_some.mp hss).1
  obtain ⟨s, hA, sA, e1, gA, nA, aA, oA, ssv, gsvA⟩ :=
    scratch_or_create_sieve h scratch (p :: ss.val) sv ss hss hsc
  have getA : ∀ q, hA.get q = h.get q := fun q => by unfold Heap.get; rw [oA]
  have hsA : s < hA.scr.length := (List.getElem?_eq_some.mp gA).1
  have hsvA : sv < hA.scr.length := (List.getElem?_eq_some.mp gsvA).1
  have hav : ∀ q, q ∈ p :: ss.val → q < hA.obj.length := fun q hq => by
    rw [oA]
    rcases List.mem_cons.1 hq with hq | hq
    · rw [hq]; exact Heap.get_lt gp
    · obtain ⟨x, gx, _⟩ := hds q hq
      exact Heap.get_lt gx
  obtain ⟨hB, vals, eB, sB, lB, ndB, pB, oB, fB, _⟩ := scratch_prepare_spec P hA s
    FFBI_PRIME_TEST_NUM_SCRATCHES xp.num_used_digits sA (p :: ss.val) gA aA hav
  have hkeepB : ∀ q, q ∈ p :: ss.val → hB.get q = h.get q := fun q hq => by
    rw [← getA q]
    exact fB q (hav q hq) (fun hc => (aA.2 q hc).1 hq)
  have lenB : hB.scr.length = hA.scr.length := by rw [sB, List.length_set]
  have gB : hB.scr[s]? = some { sA with val := vals } := by
    rw [sB]; exact scratch_get_set_self _ hsA
  have gsvB : hB.scr[sv]? = some ss := by
    rw [sB]; exact (scratch_get_set_ne _ ssv).trans gsvA
  -- the child arena
  obtain ⟨t0, t1, t2, t3, trest, hvals⟩ := four_vals lB
  unfold ffbi_is_large_prime
  rw [if_neg (by omega)]
  dsimp only
  rw [e1]
  dsimp only
  rw [getA, gp, obind_some, eB, obind_some, gB, obind_some]
  dsimp only
  simp only [nA, if_true, decide_True]
  unfold ffbi_scratch_create
  dsimp only
  have hsB : s < (hB.scr ++ [({ val := [], child := none, num_children := 0 } : FFBI_SCRATCH)]).length := by
    rw [List.length_append, lenB]; omega
  rw [scratch_get_set_self _ hsB, obind_some]
  dsimp only
  rw [obind_some]
  obtain ⟨hC, hCdef⟩ : ∃ hC : Heap, hC = { hB with scr := (hB.scr ++ [({ val := [], child := none, num_children := 0 } : FFBI_SCRATCH)]).set s { val := vals, child := some hB.scr.length, num_children := 1 } } := ⟨_, rfl⟩
  rw [← hCdef]
  have scC : hC.scr = (hB.scr ++ [({ val := [], child := none, num_children := 0 } : FFBI_SCRATCH)]).set s { val := vals, child := some hB.scr.length, num_children := 1 } := by
    rw [hCdef]
  have getC : ∀ q, hC.get q = hB.get q := fun q => by rw [hCdef]; rfl
  have objC : hC.obj = hB.obj := by rw [hCdef]
  have gC : hC.scr[hB.scr.length]? = some { val := [], child := none, num_children := 0 } := by
    rw [scC, scratch_get_set_ne _ (by omega)]
    exact scratch_get_append_last _ _
  have gsC : hC.scr[s]? = some { val := vals, child := some hB.scr.length, num_children := 1 } := by
    rw [scC]; exact scratch_get_set_self _ hsB
  have gsvC : hC.scr[sv]? = some ss := by
    rw [scC, scratch_get_set_ne _ ssv, scratch_get_append _ (by omega)]
    exact gsvB
  have lenC : hC.scr.length = hB.scr.length + 1 := by
    rw [scC, List.length_set, List.length_append]; rfl
  have hav2 : ∀ q, q ∈ vals ++ (p :: ss.val) → q < hC.obj.length := fun q hq => by
    rw [objC]
    rcases List.mem_append.1 hq with hq | hq
    · obtain ⟨_, x, gx, _⟩ := pB q hq
      exact Heap.get_lt gx
    · exact Nat.lt_of_lt_of_le (hav q hq) oB
  obtain ⟨hD, cvals, eD, sD, lD, ndD, pD, oD, fD, _⟩ := scratch_prepare_spec P hC hB.scr.length
    FFBI_MOD_POW_NUM_SCRATCHES xp.num_used_digits { val := [], child := none, num_children := 0 }
    (vals ++ (p :: ss.val)) gC
    ⟨List.nodup_nil, fun q hq => absurd hq (List.not_mem_nil q)⟩ hav2
  have keepD : ∀ q, q ∈ vals ++ (p :: ss.val) → hD.get q = hB.get q := fun q hq => by
    rw [← getC q]
    exact fD q (hav2 q hq) (List.not_mem_nil q)
  have gD : hD.scr[hB.scr.length]? = some { val := cvals, child := none, num_children := 0 } := by
    rw [sD]; exact scratch_get_set_self _ (by omega)
  have gsD : hD.scr[s]? = some { val := vals, child := some hB.scr.length, num_children := 1 } := by
    rw [sD, scratch_get_set_ne _ (by omega)]; exact gsC
  have gsvD : hD.scr[sv]? = some ss := by
    rw [sD, scratch_get_set_ne _ (by omega)]; exact gsvC
  have lenD : hD.scr.length = hB.scr.length + 1 := by rw [sD, List.length_set, lenC]
  rw [getC, hkeepB p (List.mem_cons_self p _), gp, obind_some, eD, obind_some, gD, obind_some]
  dsimp only
  simp only [if_true]
  obtain ⟨hE, hEdef⟩ : ∃ hE : Heap, hE = { hD with scr := (hD.scr ++ [({ val := [], child := none, num_children := 0 } : FFBI_SCRATCH)]).set hB.scr.length { val := cvals, child := some hD.scr.length, num_children := 1 } } := ⟨_, rfl⟩
  rw [← hEdef]
  have getE : ∀ q, hE.get q = hD.get q := fun q => by rw [hEdef]; rfl
  have scE : hE.scr = (hD.scr ++ [({ val := [], child := none, num_children := 0 } : FFBI_SCRATCH)]).set hB.scr.length { val := cvals, child := some hD.scr.length, num_children := 1 } := by
    rw [hEdef]
  have hcD : hB.scr.length < (hD.scr ++ [({ val := [], child := none, num_children := 0 } : FFBI_SCRATCH)]).length := by
    rw [List.length_append, lenD]; omega
  obtain ⟨c0, crest, hcvals⟩ : ∃ c0 crest, cvals = c0 :: crest := by
    rcases cvals with _ | ⟨c0, crest⟩
    · exact absurd lD (by decide)
    · exact ⟨c0, crest, rfl⟩
  have hne : ¬ ss.val.length = 0 := fun hc => by
    obtain ⟨d, hd, _⟩ := hex
    rw [List.length_eq_zero.1 hc] at hd
    exact absurd hd (List.not_mem_nil d)
  have v0 : vals[0]? = some t0 := by rw [hvals]; rfl
  have v1 : vals[1]? = some t1 := by rw [hvals]; rfl
  have v2 : vals[2]? = some t2 := by rw [hvals]; rfl
  have v3 : vals[3]? = some t3 := by rw [hvals]; simp
  have m1 : t1 ∈ vals := by rw [hvals]; simp
  have m2 : t2 ∈ vals := by rw [hvals]; simp
  have m3 : t3 ∈ vals := by rw [hvals]; simp
  have m0 : c0 ∈ cvals := by rw [hcvals]; simp
  rw [v0, obind_some, v1, obind_some, v2, obind_some, v3, obind_some,
    scratch_get_set_ne _ (by omega), scratch_get_append _ (by omega), gsvD, obind_some,
    if_neg hne, scratch_get_set_self _ hcD, obind_some]
  dsimp only
  rw [show cvals[0]? = some c0 by rw [hcvals]; simp, obind_some]
  have hp1 : 1 ≤ xp.num_used_digits := wp.1.1
  have recV : ∀ q, q ∈ vals → q ≠ p ∧ (∀ d, d ∈ ss.val → d ≠ q) ∧
      ∃ x, hE.get q = some x ∧ outputReady x := fun q hq => by
    obtain ⟨na, x, gx, sx, ax⟩ := pB q hq
    refine ⟨fun hc => na (hc ▸ List.mem_cons_self p _),
      fun d hd hc => na (hc ▸ List.mem_cons_of_mem p hd), x, ?_, sx.1, sx.2.1, by omega⟩
    rw [getE, keepD q (List.mem_append_left _ hq)]
    exact gx
  obtain ⟨q1p, q1d, x1, g1, o1⟩ := recV t1 m1
  obtain ⟨q2p, q2d, x2, g2, o2⟩ := recV t2 m2
  obtain ⟨q3p, q3d, x3, g3, o3⟩ := recV t3 m3
  obtain ⟨na0, x0, g0, s0, a0⟩ := pD c0 m0
  have nd4 := ndB
  rw [hvals] at nd4
  simp only [List.nodup_cons, List.mem_cons, not_or] at nd4
  obtain ⟨h', hrun, hscr⟩ := prime_sieve_loop_spec P p t1 t2 t3 c0 f (val P xp)
    (fun hc => nd4.2.1.1 hc.symm) nd4.2.2.1.1 (fun hc => na0 (hc ▸ List.mem_append_left _ m2))
    nd4.2.1.2.1 (fun hc => na0 (hc ▸ List.mem_append_left _ m1))
    (fun hc => na0 (hc ▸ List.mem_append_left _ m3))
    (fun hc => q2p hc.symm) (fun hc => q1p hc.symm) (fun hc => q3p hc.symm)
    (fun hc => na0 (hc ▸ List.mem_append_right _ (List.mem_cons_self p _)))
    ss.val hE xp x1 x2 x3 x0
    (by rw [getE, keepD p (List.mem_append_right _ (List.mem_cons_self p _)),
      hkeepB p (List.mem_cons_self p _)]; exact gp) wp cp rfl
    g1 o1 g2 o2 g3 o3 (by rw [getE]; exact g0) ⟨s0.1, s0.2.1, by omega⟩
    (fun d hd => by
      obtain ⟨x, gx, rest⟩ := hds d hd
      refine ⟨q1d d hd, q2d d hd, q3d d hd,
        fun hc => na0 (hc ▸ List.mem_append_right _ (List.mem_cons_of_mem p hd)), x, ?_, rest⟩
      rw [getE, keepD d (List.mem_append_right _ (List.mem_cons_of_mem p hd)),
        hkeepB d (List.mem_cons_of_mem p hd)]
      exact gx)
    hnd hpw hex
  rw [hrun, obind_some]
  dsimp only
  rw [if_pos rfl, obind_some]
  dsimp only
  by_cases hfs : scratch.isNone = true
  · rw [if_pos hfs]
    exact ⟨_, rfl⟩
  · rw [if_neg hfs, hscr, scE, scratch_get_set_ne _ (by omega),
      scratch_get_append _ (by omega), gsD, obind_some]
    exact ⟨_, rfl⟩


/-- One execution of `product->digits[k+i] += a->digits[k] * b->digits[i]`, the stored word
being the exact column sum modulo `2 ^ W`. -/
theorem mul_inner_wrap (P : Platform) (h1 : Heap) (product a b : Nat) (xp1 : FFBI)
    (A Bd : List Nat) (al bl Q : Nat)
    (hg : h1.get product = some xp1) (hpa : a ≠ product) (hpb : b ≠ product)
    (hA : ∀ j, j < al → rdDigit h1 a j = some (A.getD j 0))
    (hB : ∀ j, j < bl → rdDigit h1 b j = some (Bd.getD j 0))
    (hQ : ∀ k i, k < al → i < bl → A.getD k 0 * Bd.getD i 0 = Q)
    (hn : al + bl ≤ xp1.digits.length)
    (k i : Nat) (hk : k < al) (hi : i < bl) (ds es : List Nat)
    (i1 : ds.length = xp1.digits.length) (i5 : es.length = xp1.digits.length)
    (i2 : digitsVal (FFBI_BITS_PER_DIGIT P) es (al + bl)
      = digitsVal (FFBI_BITS_PER_DIGIT P) A k * digitsVal (FFBI_BITS_PER_DIGIT P) Bd bl
        + A.getD k 0 * 2 ^ (FFBI_BITS_PER_DIGIT P * k) * digitsVal (FFBI_BITS_PER_DIGIT P) Bd i)
    (i3 : ∀ j, j < al + bl → es.getD j 0 = mulCount bl k i j * Q)
    (i4 : ∀ j, j < al + bl → ds.getD j 0 = es.getD j 0 % 2 ^ FFBI_WORD_SIZE P) :
    ∃ ds' es', mul_inner P product a b k i (h1.withDigits product xp1 ds)
        = some (h1.withDigits product xp1 ds') ∧
      ds'.length = xp1.digits.length ∧ es'.length = xp1.digits.length ∧
      digitsVal (FFBI_BITS_PER_DIGIT P) es' (al + bl)
        = digitsVal (FFBI_BITS_PER_DIGIT P) A k * digitsVal (FFBI_BITS_PER_DIGIT P) Bd bl
          + A.getD k 0 * 2 ^ (FFBI_BITS_PER_DIGIT P * k)
            * digitsVal (FFBI_BITS_PER_DIGIT P) Bd (i + 1) ∧
      (∀ j, j < al + bl → es'.getD j 0 = mulCount bl k (i + 1) j * Q) ∧
      (∀ j, j < al + bl → ds'.getD j 0 = es'.getD j 0 % 2 ^ FFBI_WORD_SIZE P) := by
  have hcs := mulCount_step bl k i (k + i)
  rw [if_pos rfl] at hcs
  unfold mul_inner
  dsimp only
  rw [rdDigit_withDigits_ne _ _ _ _ hpa, hA k hk, obind_some,
    rdDigit_withDigits_ne _ _ _ _ hpb, hB i hi, obind_some,
    rdDigit_withDigits hg (by omega), obind_some, wrDigit_withDigits _ hg (by omega)]
  refine ⟨_, es.set (k + i) (es.getD (k + i) 0 + A.getD k 0 * Bd.getD i 0), rfl,
    by rw [List.length_set, i1], by rw [List.length_set, i5], ?_, ?_, ?_⟩
  · have hs := digitsVal_set_add (FFBI_BITS_PER_DIGIT P) es (k + i)
      (es.getD (k + i) 0 + A.getD k 0 * Bd.getD i 0) (by omega) (al + bl) (by omega)
    have hpw : 2 ^ (FFBI_BITS_PER_DIGIT P * (k + i))
        = 2 ^ (FFBI_BITS_PER_DIGIT P * k) * 2 ^ (FFBI_BITS_PER_DIGIT P * i) := by
      rw [← Nat.pow_add, Nat.mul_add]
    rw [digitsVal_succ]
    rw [hpw, Nat.add_mul] at hs
    have key : digitsVal (FFBI_BITS_PER_DIGIT P)
        (es.set (k + i) (es.getD (k + i) 0 + A.getD k 0 * Bd.getD i 0)) (al + bl)
        = digitsVal (FFBI_BITS_PER_DIGIT P) es (al + bl) + A.getD k 0 * Bd.getD i 0
          * (2 ^ (FFBI_BITS_PER_DIGIT P * k) * 2 ^ (FFBI_BITS_PER_DIGIT P * i)) := by
      omega
    rw [key, i2]
    ring
  · intro j hj
    by_cases hjk : j = k + i
    · rw [hjk, getD_set_same _ (by omega), hcs, i3 (k + i) (by omega), hQ k i hk hi]
      ring
    · rw [getD_set_ne _ _ hjk, mulCount_step bl k i j, if_neg hjk]
      exact i3 j hj
  · intro j hj
    by_cases hjk : j = k + i
    · rw [hjk, getD_set_same _ (by omega), getD_set_same _ (by omega), i4 (k + i) (by omega)]
      unfold wadd wmul
      rw [← Nat.add_mod]
    · rw [getD_set_ne _ _ hjk, getD_set_ne _ _ hjk]
      exact i4 j hj

/-- The inner loop of `ffbi_mul` for one digit `a->digits[k]`, words modulo `2 ^ W`. -/
theorem mul_row_wrap (P : Platform) (h1 : Heap) (product a b : Nat) (xp1 : FFBI)
    (A Bd : List Nat) (al bl Q : Nat)
    (hg : h1.get product = some xp1) (hpa : a ≠ product) (hpb : b ≠ product)
    (hA : ∀ j, j < al → rdDigit h1 a j = some (A.getD j 0))
    (hB : ∀ j, j < bl → rdDigit h1 b j = some (Bd.getD j 0))
    (hQ : ∀ k i, k < al → i < bl → A.getD k 0 * Bd.getD i 0 = Q)
    (hn : al + bl ≤ xp1.digits.length)
    (k : Nat) (hk : k < al) (ds es : List Nat)
    (i1 : ds.length = xp1.digits.length) (i5 : es.length = xp1.digits.length)
    (i2 : digitsVal (FFBI_BITS_PER_DIGIT P) es (al + bl)
      = digitsVal (FFBI_BITS_PER_DIGIT P) A k * digitsVal (FFBI_BITS_PER_DIGIT P) Bd bl)
    (i3 : ∀ j, j < al + bl → es.getD j 0 = mulCount bl k 0 j * Q)
    (i4 : ∀ j, j < al + bl → ds.getD j 0 = es.getD j 0 % 2 ^ FFBI_WORD_SIZE P) :
    ∃ ds' es', forUp (fun i h => mul_inner P product a b k i h) bl 0
        (h1.withDigits product xp1 ds) = some (h1.withDigits product xp1 ds') ∧
      ds'.length = xp1.digits.length ∧ es'.length = xp1.digits.length ∧
      digitsVal (FFBI_BITS_PER_DIGIT P) es' (al + bl)
        = digitsVal (FFBI_BITS_PER_DIGIT P) A (k + 1) * digitsVal (FFBI_BITS_PER_DIGIT P) Bd bl ∧
      (∀ j, j < al + bl → es'.getD j 0 = mulCount bl (k + 1) 0 j * Q) ∧
      (∀ j, j < al + bl → ds'.getD j 0 = es'.getD j 0 % 2 ^ FFBI_WORD_SIZE P) := by
  obtain ⟨s', e1, ds', es', e2, e3, e4, e5, e6, e7⟩ :=
    forUp_inv (fun i h => mul_inner P product a b k i h)
    (fun i s => ∃ ds' es', s = h1.withDigits product xp1 ds' ∧
      ds'.length = xp1.digits.length ∧ es'.length = xp1.digits.length ∧
      digitsVal (FFBI_BITS_PER_DIGIT P) es' (al + bl)
        = digitsVal (FFBI_BITS_PER_DIGIT P) A k * digitsVal (FFBI_BITS_PER_DIGIT P) Bd bl
          + A.getD k 0 * 2 ^ (FFBI_BITS_PER_DIGIT P * k)
            * digitsVal (FFBI_BITS_PER_DIGIT P) Bd i ∧
      (∀ j, j < al + bl → es'.getD j 0 = mulCount bl k i j * Q) ∧
      (∀ j, j < al + bl → ds'.getD j 0 = es'.getD j 0 % 2 ^ FFBI_WORD_SIZE P))
    bl 0 (h1.withDigits product xp1 ds)
    ⟨ds, es, rfl, i1, i5, by rw [i2]; simp [digitsVal], i3, i4⟩
    (by
      intro i t _ hi ⟨ds1, es1, t1, t2, t3, t4, t5, t6⟩
      subst t1
      obtain ⟨ds2, es2, u1, u2, u3, u4, u5, u6⟩ := mul_inner_wrap P h1 product a b xp1 A Bd al bl
        Q hg hpa hpb hA hB hQ hn k i hk (by omega) ds1 es1 t2 t3 t4 t5 t6
      exact ⟨_, u1, ds2, es2, rfl, u2, u3, u4, u5, u6⟩)
  subst e2
  rw [Nat.zero_add] at e5 e6
  refine ⟨ds', es', e1, e3, e4, ?_, ?_, e7⟩
  · rw [e5, digitsVal_succ]; ring
  · intro j hj
    rw [← mulCount_row]
    exact e6 j hj

/-- The schoolbook double loop of `ffbi_mul` on a zeroed product array, words modulo `2 ^ W`:
column `j` ends with the number of its products times `Q`, reduced modulo `2 ^ W`, and the
exact columns add up to the product of the operands. -/
theorem mul_rows_wrap (P : Platform) (h1 : Heap) (product a b : Nat) (xp1 : FFBI)
    (A Bd : List Nat) (al bl Q : Nat)
    (hg : h1.get product = some xp1) (hpa : a ≠ product) (hpb : b ≠ product)
    (hA : ∀ j, j < al → rdDigit h1 a j = some (A.getD j 0))
    (hB : ∀ j, j < bl → rdDigit h1 b j = some (Bd.getD j 0))
    (hQ : ∀ k i, k < al → i < bl → A.getD k 0 * Bd.getD i 0 = Q)
    (hn : al + bl ≤ xp1.digits.length)
    (ds : List Nat) (i1 : ds.length = xp1.digits.length)
    (i2 : ∀ j, j < al + bl → ds.getD j 0 = 0) :
    ∃ ds' es', forUp (fun k h => forUp (fun i h => mul_inner P product a b k i h) bl 0 h) al 0
        (h1.withDigits product xp1 ds) = some (h1.withDigits product xp1 ds') ∧
      ds'.length = xp1.digits.length ∧ es'.length = xp1.digits.length ∧
      digitsVal (FFBI_BITS_PER_DIGIT P) es' (al + bl)
        = digitsVal (FFBI_BITS_PER_DIGIT P) A al * digitsVal (FFBI_BITS_PER_DIGIT P) Bd bl ∧
      (∀ j, j < al + bl → es'.getD j 0 = mulCount bl al 0 j * Q) ∧
      (∀ j, j < al + bl → ds'.getD j 0 = es'.getD j 0 % 2 ^ FFBI_WORD_SIZE P) := by
  obtain ⟨s', e1, ds', es', e2, e3, e4, e5, e6, e7⟩ := forUp_inv
    (fun k h => forUp (fun i h => mul_inner P product a b k i h) bl 0 h)
    (fun k s => ∃ ds' es', s = h1.withDigits product xp1 ds' ∧
      ds'.length = xp1.digits.length ∧ es'.length = xp1.digits.length ∧
      digitsVal (FFBI_BITS_PER_DIGIT P) es' (al + bl)
        = digitsVal (FFBI_BITS_PER_DIGIT P) A k * digitsVal (FFBI_BITS_PER_DIGIT P) Bd bl ∧
      (∀ j, j < al + bl → es'.getD j 0 = mulCount bl k 0 j * Q) ∧
      (∀ j, j < al + bl → ds'.getD j 0 = es'.getD j 0 % 2 ^ FFBI_WORD_SIZE P))
    al 0 (h1.withDigits product xp1 ds)
    ⟨ds, ds, rfl, i1, i1, by rw [digitsVal_zeros _ _ _ i2]; simp [digitsVal],
      fun j hj => by rw [i2 j hj, mulCount_zero, Nat.zero_mul],
      fun j hj => by rw [i2 j hj]; rfl⟩
    (by
      intro k t _ hk ⟨ds1, es1, t1, t2, t3, t4, t5, t6⟩
      subst t1
      obtain ⟨ds2, es2, u1, u2, u3, u4, u5, u6⟩ := mul_row_wrap P h1 product a b xp1 A Bd al bl Q
        hg hpa hpb hA hB hQ hn k (by omega) ds1 es1 t2 t3 t4 t5 t6
      exact ⟨_, u1, ds2, es2, rfl, u2, u3, u4, u5, u6⟩)
  subst e2
  rw [Nat.zero_add] at e5 e6
  exact ⟨ds', es', e1, e3, e4, e5, e6, e7⟩


/-! # Modular inverse: the documented examples -/

/-- With a modulus equal to 1, `ffbi_mod_inv` stores the canonical zero in `dest` and returns
before it reads `a`. -/
theorem mod_inv_modulus_one (P : Platform) (fuel : Nat) (h : Heap) (dest a m : Nat)
    (xd xm : FFBI) (hgd : h.get dest = some xd) (hgm : h.get m = some xm)
    (cm : canonical P xm) (hm1 : val P xm = 1) (hcap : 1 ≤ xd.num_allocated_digits)
    (hdl : 0 < xd.digits.length) :
    ∃ h' xd', ffbi_mod_inv P fuel h dest a m = some h' ∧ h'.get dest = some xd' ∧
      canonical P xd' ∧ val P xd' = 0 ∧ xd'.num_used_digits = 1 ∧ xd'.digits.getD 0 0 = 0 ∧
      xd'.cache_valid = false := by
  obtain ⟨h1, h2⟩ := one_digit_of_val_le_one P xm cm (by omega)
  have hd0 : ({ xd with num_used_digits := 1, digits := xd.digits.set 0 0, cache_valid := false } : FFBI).digits.getD 0 0
      = 0 := @getD_set_same xd.digits 0 0 hdl
  refine ⟨h.upd dest { xd with num_used_digits := 1, digits := xd.digits.set 0 0, cache_valid := false }, _, ?_,
    Heap.get_upd_same _ hgd, ?_, ?_, rfl, hd0, rfl⟩
  · unfold ffbi_mod_inv
    rw [hgd, obind_some, hgm, obind_some, if_neg (by omega), obind_some, hgm, obind_some,
      if_pos h1, rdDigit_eq hgm (by have := cm.2.1; omega), obind_some, h2, hm1]
    simp only [decide_True, if_true, obind_some]
    rw [modify_eq _ hgd, obind_some,
      wrDigit_eq (x := { xd with num_used_digits := 1 }) _ (Heap.get_upd_same _ hgd) hdl,
      obind_some, Heap.upd_upd, modify_eq _ (Heap.get_upd_same _ hgd), Heap.upd_upd]
  · refine ⟨Nat.le_refl 1, by show 1 ≤ (xd.digits.set 0 0).length; rw [List.length_set]; omega,
      ?_, Or.inl rfl⟩
    intro i hi
    have hi0 : i = 0 := by
      have : i < 1 := hi
      omega
    subst hi0
    rw [hd0]
    exact Nat.two_pow_pos _
  · rw [val_one P _ rfl, hd0]

/-- C21: `ffbi_mod_inv` leaves 4 in `dest` for `(a, m) = (3, 11)` and 23 for `(a, m) = (7, 40)`,
on both word configurations (the runs below need 3 and 4 iterations of the loop); and for every
heap, every `a` and a canonical modulus equal to 1 it leaves the canonical zero in `dest`, a
bigint with at least one allocated digit. -/
theorem ffbi_mod_inv_examples :
    (obind (ffbi_mod_inv .gnu128 8
        (exHeap [exBig [0, 0, 0] 1, exBig [3, 0, 0] 1, exBig [11, 0, 0] 1] 0) 0 1 2) fun h' =>
      obind (h'.get 0) fun x => some (decide (canonical .gnu128 x), val .gnu128 x))
      = some (true, 4) ∧
    (obind (ffbi_mod_inv .generic64 8
        (exHeap [exBig [0, 0, 0] 1, exBig [3, 0, 0] 1, exBig [11, 0, 0] 1] 0) 0 1 2) fun h' =>
      obind (h'.get 0) fun x => some (decide (canonical .generic64 x), val .generic64 x))
      = some (true, 4) ∧
    (obind (ffbi_mod_inv .gnu128 8
        (exHeap [exBig [0, 0, 0] 1, exBig [7, 0, 0] 1, exBig [40, 0, 0] 1] 0) 0 1 2) fun h' =>
      obind (h'.get 0) fun x => some (decide (canonical .gnu128 x), val .gnu128 x))
      = some (true, 23) ∧
    (obind (ffbi_mod_inv .generic64 8
        (exHeap [exBig [0, 0, 0] 1, exBig [7, 0, 0] 1, exBig [40, 0, 0] 1] 0) 0 1 2) fun h' =>
      obind (h'.get 0) fun x => some (decide (canonical .generic64 x), val .generic64 x))
      = some (true, 23) ∧
    ∀ (P : Platform) (fuel : Nat) (h : Heap) (dest a m : Nat) (xd xm : FFBI),
      h.get dest = some xd → h.get m = some xm → canonical P xm → val P xm = 1 →
      1 ≤ xd.num_allocated_digits → 0 < xd.digits.length →
      ∃ h' xd', ffbi_mod_inv P fuel h dest a m = some h' ∧ h'.get dest = some xd' ∧
        canonical P xd' ∧ val P xd' = 0 ∧ xd'.num_used_digits = 1 ∧
        xd'.digits.getD 0 0 = 0 :=
  ⟨by decide, by decide, by decide, by decide,
   fun P fuel h dest a m xd xm hgd hgm cm hm1 hcap hdl => by
    obtain ⟨h', xd', e1, e2, e3, e4, e5, e6, _⟩ :=
      mod_inv_modulus_one P fuel h dest a m xd xm hgd hgm cm hm1 hcap hdl
    exact ⟨h', xd', e1, e2, e3, e4, e5, e6⟩⟩

/-- Witness for C21: the modulus 1 with `a = 9` on the 29-bit configuration. -/
theorem ffbi_mod_inv_examples_witness :
    ∃ h' xd', ffbi_mod_inv .generic64 0
        (exHeap [exBig [5, 0, 0] 1, exBig [9, 0, 0] 1, exBig [1, 0, 0] 1] 0) 0 1 2 = some h' ∧
      h'.get 0 = some xd' ∧ canonical .generic64 xd' ∧ val .generic64 xd' = 0 ∧
      xd'.num_used_digits = 1 ∧ xd'.digits.getD 0 0 = 0 :=
  ffbi_mod_inv_examples.2.2.2.2 .generic64 0
    (exHeap [exBig [5, 0, 0] 1, exBig [9, 0, 0] 1, exBig [1, 0, 0] 1] 0) 0 1 2
    (exBig [5, 0, 0] 1) (exBig [1, 0, 0] 1) rfl rfl (by decide) (by decide) (by decide)
    (by decide)


/-! # Addition and scalar addition into a destination other than the operand -/

/-- C22 (the code departs from the claim): for `k = 3` digits all equal to `2^D - 1` and a
fresh `dest` (as `ffbi_create` returns it: capacity 3, length 1), `ffbi_add(dest, a, 1)` has to
grow `dest` for the final carry and calls `ffbi_reallocate_digits` with `retain_value = 1`
while `dest->num_used_digits` is still 1, so the digits 1 and 2 just computed are replaced by
the contents of the new array: with the indeterminate word 7 the result is `[0, 7, 7, 1]`, not
`[0, 0, 0, 1]`, on both configurations.  The instance `D = 29`, `k = 2` of the claim does hold,
for a fresh `dest` and for `dest = a`, and so does `k = 3` with `dest = a`. -/
theorem ffbi_add_fresh_dest_carry_loses_digits :
    (canonical .generic64 (exBig [536870911, 536870911, 536870911] 3) ∧
      (obind (ffbi_create .generic64
          (exHeap [exBig [536870911, 536870911, 536870911] 3, exBig [1, 0, 0] 1] 7)) fun r =>
        obind (r.2.get r.1) fun x => some (r.1, x.num_allocated_digits, x.num_used_digits))
        = some (2, 3, 1) ∧
      (obind (ffbi_create .generic64
          (exHeap [exBig [536870911, 536870911, 536870911] 3, exBig [1, 0, 0] 1] 7)) fun r =>
        obind (ffbi_add .generic64 r.2 r.1 0 1) fun h' => obind (h'.get 2) fun x =>
          some (x.num_used_digits, x.digits.take 4, decide (val .generic64 x = 2 ^ 87)))
        = some (4, [0, 7, 7, 1], false)) ∧
    (obind (ffbi_create .gnu128
        (exHeap [exBig [2305843009213693951, 2305843009213693951, 2305843009213693951] 3,
          exBig [1, 0, 0] 1] 7)) fun r =>
      obind (ffbi_add .gnu128 r.2 r.1 0 1) fun h' => obind (h'.get 2) fun x =>
        some (x.num_used_digits, x.digits.take 4, decide (val .gnu128 x = 2 ^ 183)))
      = some (4, [0, 7, 7, 1], false) ∧
    (obind (ffbi_create .generic64
        (exHeap [exBig [536870911, 536870911, 0] 2, exBig [1, 0, 0] 1] 7)) fun r =>
      obind (ffbi_add .generic64 r.2 r.1 0 1) fun h' => obind (h'.get 2) fun x =>
        some (x.num_used_digits, x.digits.take 3)) = some (3, [0, 0, 1]) ∧
    (obind (ffbi_add .generic64
        (exHeap [exBig [536870911, 536870911, 0] 2, exBig [1, 0, 0] 1] 7) 0 0 1) fun h' =>
      obind (h'.get 0) fun x => some (x.num_used_digits, x.digits.take 3))
      = some (3, [0, 0, 1]) ∧
    (obind (ffbi_add .generic64
        (exHeap [exBig [536870911, 536870911, 536870911] 3, exBig [1, 0, 0] 1] 7) 0 0 1)
      fun h' => obind (h'.get 0) fun x => some (x.num_used_digits, x.digits.take 4))
      = some (4, [0, 0, 0, 1]) := by
  decide

/-- C23 (the code departs from the claim): with `dest` another bigint than `a`,
`ffbi_add_u(dest, a, u)` sets `dest->num_used_digits = a->num_used_digits` and writes the
digits 0 and 1 only; the digits of `a` from index 2 on are never copied.  For `a = [1, 2, 3]`
(3 digits), `u = 0` and a fresh `dest` the result has length 3 and digits `[1, 2, w]` with `w`
what the array of `dest` held: `[1, 2, 0]` (a leading zero, value `1 + 2 * 2^D`) for `w = 0`,
`[1, 2, 7]` for `w = 7`; `a` itself is unchanged.  On the 29-bit configuration a `u >= 2^D`
is added wrongly as well: the block for the high half overwrites `digits[1]` with
`a->digits[1] + hi` and so drops the carry out of digit 0 (`(2^29 - 1 + 5 * 2^29) + (2^29 + 1)`
comes out as `6 * 2^29` instead of `7 * 2^29`). -/
theorem ffbi_add_u_other_dest_drops_digits :
    (canonical .generic64 (exBig [1, 2, 3] 3) ∧
      (obind (ffbi_create .generic64 (exHeap [exBig [1, 2, 3] 3] 0)) fun r =>
        obind (ffbi_add_u .generic64 5 r.2 r.1 0 0) fun h' => obind (h'.get 1) fun x =>
          some (x.num_used_digits, x.digits, decide (canonical .generic64 x),
            decide (val .generic64 x = val .generic64 (exBig [1, 2, 3] 3) + 0)))
        = some (3, [1, 2, 0], false, false) ∧
      (obind (ffbi_create .generic64 (exHeap [exBig [1, 2, 3] 3] 0)) fun r =>
        obind (ffbi_add_u .generic64 5 r.2 r.1 0 0) fun h' => obind (h'.get 0) fun xa =>
          some (xa.num_used_digits, xa.digits)) = some (3, [1, 2, 3])) ∧
    (obind (ffbi_create .generic64 (exHeap [exBig [1, 2, 3] 3] 7)) fun r =>
      obind (ffbi_add_u .generic64 5 r.2 r.1 0 0) fun h' => obind (h'.get 1) fun x =>
        some (x.num_used_digits, x.digits,
          decide (val .generic64 x = val .generic64 (exBig [1, 2, 3] 3) + 0)))
      = some (3, [1, 2, 7], false) ∧
    (obind (ffbi_create .gnu128 (exHeap [exBig [1, 2, 3] 3] 0)) fun r =>
      obind (ffbi_add_u .gnu128 5 r.2 r.1 0 0) fun h' => obind (h'.get 1) fun x =>
        some (x.num_used_digits, x.digits, decide (canonical .gnu128 x),
          decide (val .gnu128 x = val .gnu128 (exBig [1, 2, 3] 3) + 0)))
      = some (3, [1, 2, 0], false, false) ∧
    (canonical .generic64 (exBig [536870911, 5, 0] 2) ∧
      val .generic64 (exBig [536870911, 5, 0] 2) + (2 ^ 29 + 1) = 7 * 2 ^ 29 ∧
      (obind (ffbi_create .generic64 (exHeap [exBig [536870911, 5, 0] 2] 0)) fun r =>
        obind (ffbi_add_u .generic64 5 r.2 r.1 0 (2 ^ 29 + 1)) fun h' =>
          obind (h'.get 1) fun x => some (x.num_used_digits, x.digits, val .generic64 x))
        = some (2, [0, 6, 0], 6 * 2 ^ 29)) := by
  decide


/-! # Invariants of `ffbi_random_with_limit` and `ffbi_create_preallocated`; small primes -/

/-- When `ffbi_random_with_limit` samples the value 0 it leaves `num_used_digits = 0`: for a
limit of value 1 this is so for every heap, hence for every random sequence. -/
theorem random_with_limit_one (P : Platform) (h : Heap) (p limit : Nat) (xp xl : FFBI)
    (hgp : h.get p = some xp) (hgl : h.get limit = some xl) (hpl : p ≠ limit)
    (cl : canonical P xl) (hL : val P xl = 1) (hvs : validStorage xp)
    (hr : xp.num_allocated_digits < xl.num_used_digits → xp.reallocation_allowed = true) :
    ∃ h' x', ffbi_random_with_limit P h p limit = some h' ∧ h'.get p = some x' ∧
      val P x' = 0 ∧ x'.num_used_digits = 0 ∧ ¬ canonical P x' := by
  obtain ⟨h', x', e1, e2, e3, _, _, e6, _, _⟩ :=
    ffbi_random_with_limit_spec P h p limit xp xl hgp hgl hpl cl (by omega) hvs hr
  have hv0 : val P x' = 0 := by omega
  have hu0 : x'.num_used_digits = 0 := by
    rcases e6 with e6 | e6
    · exact e6
    · by_contra hne
      have := canonical_ge_pow (FFBI_BITS_PER_DIGIT P) x'.digits x'.num_used_digits (by omega) e6
      have hp := Nat.two_pow_pos (FFBI_BITS_PER_DIGIT P * (x'.num_used_digits - 1))
      unfold val at hv0
      omega
  exact ⟨h', x', e1, e2, hv0, hu0, fun hc => by have := hc.1; omega⟩

/-- C25 (the code departs from the claim): the final loop of `ffbi_random_with_limit`,
`for (i = used - 1; i >= 0; i--) if (digits[i] != 0) break;` followed by
`num_used_digits = i + 1`, leaves `num_used_digits = 0` when every digit is 0.  With the limit
5 and a random source that returns 0 (29-bit configuration) or 6 (61-bit configuration; the
sample is taken modulo 5 + 1), `p` ends with length 0, which is not the canonical zero; and
for a limit of value 1 this happens for every heap and every random sequence. -/
theorem ffbi_random_with_limit_zero_has_length_zero :
    (obind (ffbi_random_with_limit .generic64
        (exHeapR [exBig [7, 0, 0] 1, exBig [5, 0, 0] 1] [] 0 (fun _ => 0)) 0 1) fun h =>
        obind (h.get 0) fun x =>
          some (x.num_used_digits, x.digits, decide (canonical .generic64 x)))
      = some (0, [0, 0, 0], false) ∧
    (obind (ffbi_random_with_limit .gnu128
        (exHeapR [exBig [7, 0, 0] 1, exBig [5, 0, 0] 1] [] 0 (fun _ => 6)) 0 1) fun h =>
        obind (h.get 0) fun x =>
          some (x.num_used_digits, x.digits, decide (canonical .gnu128 x)))
      = some (0, [0, 0, 0], false) ∧
    ∀ (P : Platform) (h : Heap) (p limit : Nat) (xp xl : FFBI),
      h.get p = some xp → h.get limit = some xl → p ≠ limit → canonical P xl →
      val P xl = 1 → validStorage xp →
      (xp.num_allocated_digits < xl.num_used_digits → xp.reallocation_allowed = true) →
      ∃ h' x', ffbi_random_with_limit P h p limit = some h' ∧ h'.get p = some x' ∧
        val P x' = 0 ∧ x'.num_used_digits = 0 ∧ ¬ canonical P x' :=
  ⟨by decide, by decide, random_with_limit_one⟩

/-- Witness for C25: the limit 1 on the 61-bit configuration with a random source that
returns 12345. -/
theorem ffbi_random_with_limit_zero_has_length_zero_witness :
    ∃ h' x', ffbi_random_with_limit .gnu128
        (exHeapR [exBig [7, 0, 0] 1, exBig [1, 0, 0] 1] [] 0 (fun _ => 12345)) 0 1 = some h' ∧
      h'.get 0 = some x' ∧ val .gnu128 x' = 0 ∧ x'.num_used_digits = 0 ∧
      ¬ canonical .gnu128 x' :=
  ffbi_random_with_limit_zero_has_length_zero.2.2 .gnu128
    (exHeapR [exBig [7, 0, 0] 1, exBig [1, 0, 0] 1] [] 0 (fun _ => 12345)) 0 1
    (exBig [7, 0, 0] 1) (exBig [1, 0, 0] 1) rfl rfl (by decide) (by decide) (by decide)
    ⟨by decide, fun c hc => Option.noConfusion hc⟩ (fun hl => absurd hl (by decide))

/-- C26 (the code departs from the claim): `ffbi_create_preallocated` compares `size_bytes` with
`FFBI_MIN_ALLOC_DIGITS * sizeof(uint32_t) = 12`, not with the size of a digit word.  On the
61-bit configuration a word has 16 bytes, so `size_bytes = 12` is accepted and the capacity
`size_bytes / sizeof(ffbi_word_t)` is 0 while the length is 1; the store `digits[0] = 0` writes
16 bytes into the 12-byte buffer (the model faults when no word lies behind the buffer, and
returns the record with capacity 0 when one does).  On the 29-bit configuration (8-byte words)
the same call gives capacity 1.  `buffer == NULL` and `size_bytes = 11` give `NULL`. -/
theorem ffbi_create_preallocated_capacity_zero :
    (obind (ffbi_create_preallocated .gnu128 (exHeap [] 0) (some [7]) 12) fun r =>
        obind r fun r => obind (r.2.get r.1) fun x =>
          some (x.num_allocated_digits, x.num_used_digits, x.reallocation_allowed,
            decide (x.num_used_digits ≤ x.num_allocated_digits))) = some (0, 1, false, false) ∧
    (ffbi_create_preallocated .gnu128 (exHeap [] 0) (some []) 12).isNone = true ∧
    (obind (ffbi_create_preallocated .generic64 (exHeap [] 0) (some [7]) 12) fun r =>
        obind r fun r => obind (r.2.get r.1) fun x =>
          some (x.num_allocated_digits, x.num_used_digits, x.reallocation_allowed, x.digits))
      = some (1, 1, false, [0]) ∧
    (ffbi_create_preallocated .gnu128 (exHeap [] 0) none 48).map Option.isNone = some true ∧
    (ffbi_create_preallocated .gnu128 (exHeap [] 0) (some [7, 7, 7]) 11).map Option.isNone
      = some true := by
  decide

set_option maxRecDepth 100000 in
/-- C27 (the code departs from the claim): `ffbi_is_large_prime` has no test of the size of
`p`; the sentence of `ffbi.h` about `p < 16^8` has no counterpart in the code.  For `p = 7`,
one test and a random source that returns 1 (the base is then `1 + 2 = 3`, and
`3^6 mod 7 = 1`) the call returns 1 on both configurations, without a sieve and with the
sieve for `n = 4` (whose only entry, 3, does not divide 7); for `p = 13` and three tests it
returns 1 as well. -/
theorem ffbi_is_large_prime_accepts_small_primes :
    val .generic64 (exBig [7, 0, 0] 1) < 16 ^ 8 ∧
    (ffbi_is_large_prime .generic64 8 (exHeapR [exBig [7, 0, 0] 1] [] 0 (fun _ => 1)) 0 1
        none none).map Prod.fst = some 1 ∧
    (ffbi_is_large_prime .gnu128 8 (exHeapR [exBig [7, 0, 0] 1] [] 0 (fun _ => 1)) 0 1
        none none).map Prod.fst = some 1 ∧
    (ffbi_is_large_prime .gnu128 8 (exHeapR [exBig [13, 0, 0] 1] [] 0 (fun _ => 1)) 0 3
        none none).map Prod.fst = some 1 ∧
    (obind (ffbi_get_sieve .generic64
        (exHeapR [exBig [7, 0, 0] 1] [{ val := [], child := none, num_children := 0 }] 0
          (fun _ => 1)) 0 4) fun h =>
      obind (ffbi_is_large_prime .generic64 8 h 0 1 (some 0) none) fun r =>
        obind h.scr[0]? fun s => some (r.1, s.val.length)) = some (1, 1) := by
  decide


/-! # The values that `ffbi_random_with_limit` can produce -/

theorem bits_mod_rand (P : Platform) : FFBI_BITS_PER_DIGIT P % 16 = 13 := by
  cases P <;> rfl

/-- The block `if (bits_left > 0)` of `ffbi_random_with_limit` appends `t` bits `r` to the
digit; once the flag `p_is_less` is set the appended bits are 0, because the modulus
`(_digit_max >> (FFBI_WORD_SIZE - bits_left)) + 1` is 1. -/
theorem rwl_tail_shape (P : Platform) {h : Heap} {p limit i v : Nat} {x xl : FFBI}
    {less : Bool} (t : Nat) (hpl : limit ≠ p)
    (hg : h.get p = some { x with digits := x.digits.set i v }) (hgl : h.get limit = some xl)
    (hi : i < x.digits.length) (hil : i < xl.digits.length)
    (ht0 : 0 < t) (ht16 : t < FFBI_RAND_BITS) (htD : t ≤ FFBI_BITS_PER_DIGIT P)
    (hv : v < 2 ^ (FFBI_BITS_PER_DIGIT P - t)) :
    ∃ r less' h', rwl_tail P p limit i (t, less, h) = some (less', h') ∧
      h'.get p = some { x with digits := x.digits.set i (v * 2 ^ t + r) } ∧
      r < 2 ^ t ∧ (less = true → r = 0) := by
  generalize hl : xl.digits.getD i 0 = l
  have htW : t ≤ FFBI_WORD_SIZE P := Nat.le_trans htD (Nat.le_of_lt (bits_lt_word P))
  have hlim : l % 2 ^ t < 2 ^ t := Nat.mod_lt _ (Nat.two_pow_pos _)
  have hdm : wadd (FFBI_WORD_SIZE P) (digit_max P >>> (FFBI_WORD_SIZE P - t)) 1 = 1 := by
    rw [digit_max_shift P t ht16]
    exact wadd_eq (Nat.one_lt_two_pow (by have := bits_lt_word P; omega))
  have hgb : ∀ y, (fun y => if less = false then
        y % wadd (FFBI_WORD_SIZE P)
          (wshl (FFBI_WORD_SIZE P) l (FFBI_WORD_SIZE P - t) >>> (FFBI_WORD_SIZE P - t)) 1
      else y % wadd (FFBI_WORD_SIZE P) (digit_max P >>> (FFBI_WORD_SIZE P - t)) 1) y
      < 2 ^ t := fun y => by
    dsimp only
    split
    · rw [tail_lim _ _ _ htW, wadd_lim_one P hlim htD]
      have := mod_succ_le y (l % 2 ^ t)
      omega
    · rw [hdm, Nat.mod_one]
      exact Nat.two_pow_pos _
  obtain ⟨h1, e1, e1a, e1b, _, h2, e2, e3, e4, _, _, _⟩ := shift_add_step P
    (b := t) (fun y => if less = false then
        y % wadd (FFBI_WORD_SIZE P)
          (wshl (FFBI_WORD_SIZE P) l (FFBI_WORD_SIZE P - t) >>> (FFBI_WORD_SIZE P - t)) 1
      else y % wadd (FFBI_WORD_SIZE P) (digit_max P >>> (FFBI_WORD_SIZE P - t)) 1) hg hi hv
    hgb (by omega)
  have hgl1 : (rand h1).2.get limit = some xl := by rw [e1a, e1b limit hpl, hgl]
  have hrun : ∃ less', rwl_tail P p limit i (t, less, h) = some (less', h2) := by
    unfold rwl_tail
    dsimp only
    rw [if_pos ht0, rd_set_digit hg hi, obind_some, e1, obind_some]
    cases less with
    | false =>
      simp only [if_true] at e2 ⊢
      rw [rdDigit_eq hgl1 hil, obind_some, hl, obind_some, e3, obind_some, e2, obind_some]
      exact ⟨_, rfl⟩
    | true =>
      simp only [Bool.true_eq_false, if_false] at e2 ⊢
      rw [obind_some, e3, obind_some, e2, obind_some]
      exact ⟨_, rfl⟩
  obtain ⟨less', hrun⟩ := hrun
  refine ⟨_, less', h2, hrun, e4, hgb _, ?_⟩
  intro hless
  rw [if_neg (by rw [hless]; decide), hdm, Nat.mod_one]

theorem set_digit_inj {ds : List Nat} {i v w : Nat} (hi : i < ds.length)
    (he : ds.set i v = ds.set i w) : v = w := by
  have h1 := @getD_set_same ds i v hi
  rw [he, @getD_set_same ds i w hi] at h1
  exact h1.symm

/-- One iteration of the digit loop of `ffbi_random_with_limit`, as `rwl_digit_spec` describes
it, and in addition: the low `D mod 16 = 13` bits of the digit are 0 (the flag was set before
they were drawn), or the bits above them are those of the digit of the limit. -/
theorem rwl_digit_shape (P : Platform) (h : Heap) (p limit i : Nat) (x xl : FFBI) (less0 : Bool)
    (hpl : limit ≠ p) (hg : h.get p = some x) (hgl : h.get limit = some xl)
    (hi : i < x.digits.length) (hil : i < xl.digits.length)
    (hlD : xl.digits.getD i 0 < 2 ^ FFBI_BITS_PER_DIGIT P) :
    ∃ v less' h', rwl_digit P p limit i (less0, h) = some (less', h') ∧
      h'.get p = some { x with digits := x.digits.set i v } ∧
      v < 2 ^ FFBI_BITS_PER_DIGIT P ∧ Heap.sameBut p h h' ∧
      (less' = false → less0 = false ∧ v = xl.digits.getD i 0) ∧
      (less' = true → less0 = true ∨ v < xl.digits.getD i 0) ∧
      (v % 2 ^ 13 = 0 ∨ v / 2 ^ 13 = xl.digits.getD i 0 / 2 ^ 13) := by
  have hR : FFBI_RAND_BITS = 16 := rfl
  have hD13 := bits_mod_rand P
  obtain ⟨v, less', h', c1, c2, c3, c4, c5, c6⟩ :=
    rwl_digit_spec P h p limit i x xl less0 hpl hg hgl hi hil hlD
  refine ⟨v, less', h', c1, c2, c3, c4, c5, c6, ?_⟩
  have hg0 : (h.upd p { x with digits := x.digits.set i 0 }).get p
      = some { x with digits := x.digits.set i 0 } := Heap.get_upd_same _ hg
  have hgl0 : (h.upd p { x with digits := x.digits.set i 0 }).get limit = some xl := by
    rw [Heap.get_upd_ne _ _ hpl, hgl]
  obtain ⟨s, l1, ⟨l2, l2', u, l3, l4, l5, l6, l7⟩, l8⟩ := whileLoop_inv
    (fun s : Nat × Bool × Heap => some (decide (s.1 ≥ FFBI_RAND_BITS))) (rwl_chunk P p limit i)
    (fun s => s.1 ≤ FFBI_BITS_PER_DIGIT P ∧ s.1 % 16 = 13 ∧
      ∃ v, s.2.2.get p = some { x with digits := x.digits.set i v } ∧
      v < 2 ^ (FFBI_BITS_PER_DIGIT P - s.1) ∧ Heap.sameBut p h s.2.2 ∧
      (s.2.1 = false → less0 = false ∧ v = xl.digits.getD i 0 / 2 ^ s.1) ∧
      (s.2.1 = true → less0 = true ∨ v < xl.digits.getD i 0 / 2 ^ s.1))
    (fun s => s.1) (FFBI_BITS_PER_DIGIT P + 1)
    (FFBI_BITS_PER_DIGIT P, less0, h.upd p { x with digits := x.digits.set i 0 })
    ⟨Nat.le_refl _, hD13, 0, hg0, Nat.two_pow_pos _, Heap.sameBut_upd _ _ _,
      fun hl => ⟨hl, (Nat.div_eq_of_lt hlD).symm⟩, fun hl => Or.inl hl⟩ (Nat.lt_succ_self _)
    (fun t _ => ⟨_, rfl⟩)
    (by
      intro t ⟨t1, t1', v, t2, t3, t4, t5, t6⟩ hc
      have hge : FFBI_RAND_BITS ≤ t.1 := by simpa using hc
      have hglt : t.2.2.get limit = some xl := by rw [t4.1 limit hpl, hgl]
      obtain ⟨v', less', h', c1, c2, c3, c4, c5, c6⟩ :=
        rwl_chunk_spec P t.1 hpl t2 hglt hi hil hge t1 t3 t5 t6
      exact ⟨_, c1, ⟨by dsimp only; omega, by dsimp only; omega, v', c2, c3,
        Heap.sameBut_trans t4 c4, c5, c6⟩, by dsimp only; omega⟩)
  have hlt16 : s.1 < FFBI_RAND_BITS := by simpa using l8
  have hs13 : s.1 = 13 := by omega
  have hgls : s.2.2.get limit = some xl := by rw [l5.1 limit hpl, hgl]
  obtain ⟨r, less2, h2, d1, d2, d3, d4⟩ := @rwl_tail_shape P _ _ _ _ _ _ _ s.2.1 s.1 hpl l3 hgls hi hil
    (by omega) hlt16 l2 l4
  unfold rwl_digit at c1
  dsimp only at c1
  rw [wrDigit_eq _ hg hi, obind_some, l1, obind_some, d1] at c1
  have hh : h2 = h' := congrArg Prod.snd (Option.some.inj c1)
  rw [hh, c2] at d2
  have hv : v = u * 2 ^ s.1 + r :=
    set_digit_inj hi (congrArg FFBI.digits (Option.some.inj d2))
  rw [hs13] at hv d3 l6
  cases hless : s.2.1 with
  | true =>
    left
    rw [hv, d4 hless, Nat.add_zero]
    exact Nat.mul_mod_left _ _
  | false =>
    right
    rw [hv, ← (l6 hless).2, Nat.add_comm, Nat.add_mul_div_right _ _ (Nat.two_pow_pos 13),
      Nat.div_eq_of_lt d3, Nat.zero_add]


theorem forDown_one {σ : Type} (body : Nat → σ → Option σ) (s s' : σ)
    (hb : body 0 s = some s') : forDown body 1 s = some s' := by
  show obind (body 0 s) _ = _
  rw [hb]
  rfl

/-- The results of `ffbi_random_with_limit` for a limit of one digit: the value is below the
limit, and its low 13 bits are 0, or its bits above them are those of the limit, or it is the
limit minus 1 (the sample was equal to the limit and has been decremented). -/
theorem rwl_one_digit_shape (P : Platform) (h : Heap) (p limit : Nat) (xp xl : FFBI)
    (hgp : h.get p = some xp) (hgl : h.get limit = some xl) (hpl : p ≠ limit)
    (cl : canonical P xl) (hu : xl.num_used_digits = 1) (hpos : 0 < val P xl)
    (hvs : validStorage xp)
    (hr : xp.num_allocated_digits < xl.num_used_digits → xp.reallocation_allowed = true) :
    ∃ h' x', ffbi_random_with_limit P h p limit = some h' ∧ h'.get p = some x' ∧
      val P x' < val P xl ∧
      (val P x' % 2 ^ 13 = 0 ∨ val P x' / 2 ^ 13 = val P xl / 2 ^ 13 ∨
        val P x' + 1 = val P xl) := by
  obtain ⟨h0, x0, r1, r2, r3, r4, _, _, _, _, _, _, r11, _, _⟩ := realloc_if_small P
    xl.num_used_digits xl.num_used_digits hgp hr hvs (Nat.le_refl _)
  have hgl0 : h0.get limit = some xl :=
    Heap.frame_get r11 hgl (by simpa using fun he => hpl he.symm)
  have hg1 := Heap.get_upd_same { x0 with num_used_digits := xl.num_used_digits } r2
  have hgl1 : (h0.upd p { x0 with num_used_digits := xl.num_used_digits }).get limit = some xl := by
    rw [Heap.get_upd_ne _ _ (Ne.symm hpl), hgl0]
  have hx0 : 0 < x0.digits.length := by omega
  have hxl : 0 < xl.digits.length := by have := cl.2.1; omega
  have hvl : val P xl = xl.digits.getD 0 0 := val_one P xl hu
  rw [hvl] at hpos ⊢
  generalize hl : xl.digits.getD 0 0 = l at hpos
  obtain ⟨v, less, h2, c1, c2, c3, c4, c5, c6, c7⟩ := rwl_digit_shape P _ p limit 0
    { x0 with num_used_digits := xl.num_used_digits } xl false (Ne.symm hpl) hg1 hgl1 hx0 hxl
    (cl.2.2.1 0 (by omega))
  rw [hl] at c5 c6 c7
  have f1 : forDown (rwl_digit P p limit) xl.num_used_digits
      (false, h0.upd p { x0 with num_used_digits := xl.num_used_digits }) = some (less, h2) := by
    have h1 := forDown_one (rwl_digit P p limit) _ _ c1
    rwa [← hu] at h1
  -- the state after the decrement
  obtain ⟨w, h3, g1, g2, g3, g4⟩ : ∃ w h3,
      (if less = false then
        obind (h2.get p) fun xp => rwl_decrement p xp.num_used_digits 0 h2
        else some h2) = some h3 ∧
      h3.get p = some { x0 with num_used_digits := xl.num_used_digits, digits := x0.digits.set 0 w } ∧
      w < l ∧ (w % 2 ^ 13 = 0 ∨ w / 2 ^ 13 = l / 2 ^ 13 ∨ w + 1 = l) := by
    cases hless : less with
    | true =>
      rcases c6 hless with hc | hc
      · exact Bool.noConfusion hc
      · refine ⟨v, h2, by simp, c2, hc, ?_⟩
        rcases c7 with c7 | c7
        · exact Or.inl c7
        · exact Or.inr (Or.inl c7)
    | false =>
      have hv : v = l := (c5 hless).2
      obtain ⟨h3, k1, k2, _⟩ := wr_set_digit (l - 1) c2 hx0
      refine ⟨l - 1, h3, ?_, k2, by omega, Or.inr (Or.inr (by omega))⟩
      simp only [if_true]
      rw [c2, obind_some]
      dsimp only
      rw [hu]
      show obind (rdDigit h2 p 0) _ = _
      rw [rd_set_digit c2 hx0, obind_some, hv]
      show (if l > 0 then _ else _) = _
      rw [if_pos hpos]
      exact k1
  have hlen : 1 ≤ (x0.digits.set 0 w).length := by rw [List.length_set]; omega
  obtain ⟨n', t1, t2, t3, _⟩ := rwl_trim_spec (x0.digits.set 0 w) 1 hlen
  have hval : digitsVal (FFBI_BITS_PER_DIGIT P) (x0.digits.set 0 w) n' = w := by
    rw [← digitsVal_trim_zero _ (x0.digits.set 0 w) n' 1 t2 t3]
    show 0 + (x0.digits.set 0 w).getD 0 0 * 2 ^ (FFBI_BITS_PER_DIGIT P * 0) = w
    rw [@getD_set_same x0.digits 0 w hx0]
    simp
  refine ⟨h3.upd p { x0 with num_used_digits := n', digits := x0.digits.set 0 w, cache_valid := false },
    { x0 with num_used_digits := n', digits := x0.digits.set 0 w, cache_valid := false }, ?_,
    Heap.get_upd_same _ g2, ?_, ?_⟩
  · unfold ffbi_random_with_limit
    rw [hgp, obind_some, hgl, obind_some, r1, obind_some, hgl0, obind_some, modify_eq _ r2,
      obind_some, hg1, obind_some]
    dsimp only
    rw [f1, obind_some]
    dsimp only
    rw [g1, obind_some, g2, obind_some]
    dsimp only
    rw [hu, t1, obind_some, modify_eq _ g2]
  · show digitsVal (FFBI_BITS_PER_DIGIT P) (x0.digits.set 0 w) n' < l
    rw [hval]
    exact g3
  · show digitsVal (FFBI_BITS_PER_DIGIT P) (x0.digits.set 0 w) n' % 2 ^ 13 = 0 ∨
      digitsVal (FFBI_BITS_PER_DIGIT P) (x0.digits.set 0 w) n' / 2 ^ 13 = l / 2 ^ 13 ∨
      digitsVal (FFBI_BITS_PER_DIGIT P) (x0.digits.set 0 w) n' + 1 = l
    rw [hval]
    exact g4

/-- C24 (the code departs from the claim): once `p_is_less` is set, the low-order chunk of a
digit is drawn as `rand() % ((_digit_max >> (FFBI_WORD_SIZE - bits_left)) + 1)`; the shift
count `W - 13` exceeds `D`, so the modulus is 1 and the chunk is always 0.  For the one-digit
limit `L = 8193 = 2^13 + 1`, on both configurations and for every heap, hence for every random
sequence, the call returns and leaves `val(p) = 0` or `val(p) = 8192`: the value `v = 1`, which
satisfies `0 <= v < val(L)`, is never produced. -/
theorem ffbi_random_with_limit_misses_values (P : Platform) (h : Heap) (p limit : Nat)
    (xp xl : FFBI) (hgp : h.get p = some xp) (hgl : h.get limit = some xl) (hpl : p ≠ limit)
    (cl : canonical P xl) (hu : xl.num_used_digits = 1) (hL : val P xl = 8193)
    (hvs : validStorage xp)
    (hr : xp.num_allocated_digits < xl.num_used_digits → xp.reallocation_allowed = true) :
    ∃ h' x', ffbi_random_with_limit P h p limit = some h' ∧ h'.get p = some x' ∧
      (val P x' = 0 ∨ val P x' = 8192) ∧ val P x' ≠ 1 ∧ 1 < val P xl := by
  obtain ⟨h', x', e1, e2, e3, e4⟩ :=
    rwl_one_digit_shape P h p limit xp xl hgp hgl hpl cl hu (by omega) hvs hr
  rw [hL] at e3 e4
  have hcases : val P x' = 0 ∨ val P x' = 8192 := by
    generalize val P x' = w at e3 e4
    omega
  refine ⟨h', x', e1, e2, hcases, ?_, by omega⟩
  rcases hcases with hc | hc <;> omega

/-- Witness for C24: the limit 8193 on the 29-bit configuration with the random sequence
`12345 * k + 77`. -/
theorem ffbi_random_with_limit_misses_values_witness :
    ∃ h' x', ffbi_random_with_limit .generic64
        (exHeapR [exBig [0, 0, 0] 1, exBig [8193, 0, 0] 1] [] 0 (fun k => 12345 * k + 77)) 0 1
        = some h' ∧ h'.get 0 = some x' ∧
      (val .generic64 x' = 0 ∨ val .generic64 x' = 8192) ∧ val .generic64 x' ≠ 1 ∧
      1 < val .generic64 (exBig [8193, 0, 0] 1) :=
  ffbi_random_with_limit_misses_values .generic64
    (exHeapR [exBig [0, 0, 0] 1, exBig [8193, 0, 0] 1] [] 0 (fun k => 12345 * k + 77)) 0 1
    (exBig [0, 0, 0] 1) (exBig [8193, 0, 0] 1) rfl rfl (by decide) (by decide) rfl (by decide)
    ⟨by decide, fun c hc => Option.noConfusion hc⟩ (fun _ => rfl)


/-! ## The bit cursor at a byte boundary -/

theorem be32_length (v : Nat) : (be32 v).length = 4 := rfl

theorem leBytes_length (v n : Nat) : (leBytes v n).length = n := by
  unfold leBytes
  simp

theorem leBytes_getD (v n i : Nat) (hi : i < n) : (leBytes v n).getD i 0 = v / 256 ^ i % 256 := by
  unfold leBytes
  rw [List.getD_eq_getElem?_getD, List.getElem?_map, List.getElem?_range hi]
  rfl

theorem or_eq_add_of_lt (a b k : Nat) (hb : b < 2 ^ k) (ha : 2 ^ k ∣ a) : a ||| b = a + b := by
  obtain ⟨c, rfl⟩ := ha
  exact (Nat.mul_add_lt_is_or hb c).symm

/-- Writing a 32-bit field at a byte boundary stores its four bytes, most significant first,
and advances the cursor by four bytes. -/
theorem ffbit_write_32 (pre post : List Nat) (b0 b1 b2 b3 v : Nat) (hv : v < 2 ^ 32) :
    ffbit_write (pre ++ b0 :: b1 :: b2 :: b3 :: post) { p := pre.length, bit_index := 0 } 32 v =
      some (pre ++ be32 v ++ post, { p := pre.length + 4, bit_index := 0 }) := by
  have hm : ∀ x : Nat, x &&& 255 = x % 256 := fun x => Nat.and_pow_two_sub_one_eq_mod x 8
  have hv64 : v % 2 ^ 64 = v := Nat.mod_eq_of_lt (by omega)
  unfold ffbit_write
  simp only [hv64, hm, Nat.shiftRight_eq_div_pow, rd, wr, memcpy_at, ffbit_skip, be32]
  simp [obind, List.getElem?_append_right, List.set_append_right, Nat.shiftLeft_eq]
  rw [if_pos (by omega)]
  have e1 : (pre ++ 0 :: b1 :: b2 :: b3 :: post)[pre.length]? = some 0 := by
    rw [List.getElem?_append_right (Nat.le_refl _)]
    simp
  have e2 : ∀ hh : pre.length < (pre ++ 0 :: b1 :: b2 :: b3 :: post).length,
      (pre ++ 0 :: b1 :: b2 :: b3 :: post)[pre.length] = 0 := by
    intro hh
    have e := List.getElem?_eq_getElem hh
    rw [e1] at e
    exact (Option.some.inj e).symm
  rw [e2, Nat.zero_or]
  have e3 : ∀ x : Nat, List.take (pre.length + 1) (pre ++ x :: b1 :: b2 :: b3 :: post) =
      pre ++ [x] := by
    intro x
    rw [List.take_append_eq_append_take]
    simp
  have e4 : ∀ x : Nat, List.drop (pre.length + 1 + 3) (pre ++ x :: b1 :: b2 :: b3 :: post) =
      post := by
    intro x
    rw [show pre.length + 1 + 3 = pre.length + 4 from rfl, List.drop_append]
    rfl
  rw [e3, e4]
  simp
theorem whileLoop_true {σ : Type} (cond : σ → Option Bool) (body : σ → Option σ) (fuel : Nat)
    (s s' : σ) (hc : cond s = some true) (hb : body s = some s') :
    whileLoop cond body (fuel + 1) s = whileLoop cond body fuel s' := by
  show obind (cond s) _ = _
  rw [hc, obind_some, if_pos rfl, hb, obind_some]

theorem ffbit_read_step_byte (buf : List Nat) (off ret i nb b : Nat) (hb : buf[off + i]? = some b)
    (hb8 : b < 256) (h8 : 8 ≤ nb) (h64 : nb < 72) :
    ffbit_read_step buf off (ret, i, nb, 0) =
      some (ret ||| (b * 2 ^ (nb - 8)) % 2 ^ 64, i + 1, nb - 8, 0) := by
  have hm : ∀ x : Nat, x &&& 255 = x % 256 := fun x => Nat.and_pow_two_sub_one_eq_mod x 8
  unfold ffbit_read_step
  have w8 : wsub 32 8 0 = 8 := by decide
  have wm : wsub 32 (wshl 32 1 8) 1 = 255 := by decide
  have hbl : (if nb < 8 then nb else 8) = 8 := if_neg (by omega)
  simp only [w8, hbl]
  rw [if_neg (by omega)]
  simp only [wm, rd, hb, obind_some]
  rw [if_neg (by omega), if_neg (by omega)]
  simp [hm, wshl, Nat.shiftLeft_eq, Nat.mod_eq_of_lt hb8]

theorem ffbit_read_loop_step (buf : List Nat) (off fuel ret i nb b : Nat)
    (hb : buf[off + i]? = some b) (hb8 : b < 256) (h8 : 8 ≤ nb) (h64 : nb < 72) :
    whileLoop (fun s : Nat × Nat × Nat × Nat => some (decide (s.2.2.1 > 0)))
        (ffbit_read_step buf off) (fuel + 1) (ret, i, nb, 0) =
      whileLoop (fun s : Nat × Nat × Nat × Nat => some (decide (s.2.2.1 > 0)))
        (ffbit_read_step buf off) fuel (ret ||| (b * 2 ^ (nb - 8)) % 2 ^ 64, i + 1, nb - 8, 0) :=
  whileLoop_true _ _ _ _ _ (by simp; omega) (ffbit_read_step_byte buf off ret i nb b hb hb8 h8 h64)

theorem ffbit_read_loop_done (buf : List Nat) (off fuel ret i : Nat) :
    whileLoop (fun s : Nat × Nat × Nat × Nat => some (decide (s.2.2.1 > 0)))
        (ffbit_read_step buf off) (fuel + 1) (ret, i, 0, 0) = some (ret, i, 0, 0) :=
  whileLoop_false _ _ _ _ rfl

/-- Reading a 32-bit field at a byte boundary combines four bytes, most significant first,
and advances the cursor by four bytes. -/
theorem ffbit_read_32 (pre post : List Nat) (b0 b1 b2 b3 : Nat) (h0 : b0 < 256) (h1 : b1 < 256)
    (h2 : b2 < 256) (h3 : b3 < 256) :
    ffbit_read (pre ++ b0 :: b1 :: b2 :: b3 :: post) { p := pre.length, bit_index := 0 } 32 =
      some (b0 * 2 ^ 24 + b1 * 2 ^ 16 + b2 * 2 ^ 8 + b3, { p := pre.length + 4, bit_index := 0 }) := by
  have g0 : (pre ++ b0 :: b1 :: b2 :: b3 :: post)[pre.length + 0]? = some b0 := by
    rw [List.getElem?_append_right (by omega)]
    simp
  have g1 : (pre ++ b0 :: b1 :: b2 :: b3 :: post)[pre.length + 1]? = some b1 := by
    rw [List.getElem?_append_right (by omega)]
    simp
  have g2 : (pre ++ b0 :: b1 :: b2 :: b3 :: post)[pre.length + 2]? = some b2 := by
    rw [List.getElem?_append_right (by omega)]
    simp
  have g3 : (pre ++ b0 :: b1 :: b2 :: b3 :: post)[pre.length + 3]? = some b3 := by
    rw [List.getElem?_append_right (by omega)]
    simp
  have hor : (((0 ||| (b0 * 2 ^ (32 - 8)) % 2 ^ 64) ||| (b1 * 2 ^ (24 - 8)) % 2 ^ 64) |||
      (b2 * 2 ^ (16 - 8)) % 2 ^ 64) ||| (b3 * 2 ^ (8 - 8)) % 2 ^ 64 =
      b0 * 2 ^ 24 + b1 * 2 ^ 16 + b2 * 2 ^ 8 + b3 := by
    have m0 : b0 * 2 ^ 24 % 2 ^ 64 = b0 * 2 ^ 24 := Nat.mod_eq_of_lt (by omega)
    have m1 : b1 * 2 ^ 16 % 2 ^ 64 = b1 * 2 ^ 16 := Nat.mod_eq_of_lt (by omega)
    have m2 : b2 * 2 ^ 8 % 2 ^ 64 = b2 * 2 ^ 8 := Nat.mod_eq_of_lt (by omega)
    have m3 : b3 % 2 ^ 64 = b3 := Nat.mod_eq_of_lt (by omega)
    have e1 := or_eq_add_of_lt (b0 * 2 ^ 24) (b1 * 2 ^ 16) 24 (by omega) ⟨b0, by ring⟩
    have e2 := or_eq_add_of_lt (b0 * 2 ^ 24 + b1 * 2 ^ 16) (b2 * 2 ^ 8) 16 (by omega)
      ⟨b0 * 2 ^ 8 + b1, by ring⟩
    have e3 := or_eq_add_of_lt (b0 * 2 ^ 24 + b1 * 2 ^ 16 + b2 * 2 ^ 8) b3 8 (by omega)
      ⟨b0 * 2 ^ 16 + b1 * 2 ^ 8 + b2, by ring⟩
    rw [Nat.zero_or, show 32 - 8 = 24 from rfl, show 24 - 8 = 16 from rfl,
      show 16 - 8 = 8 from rfl, show 8 - 8 = 0 from rfl, pow_zero, mul_one, m0, m1, m2, m3,
      e1, e2, e3]
  unfold ffbit_read
  have hrun : whileLoop (fun s : Nat × Nat × Nat × Nat => some (decide (s.2.2.1 > 0)))
      (ffbit_read_step (pre ++ b0 :: b1 :: b2 :: b3 :: post) pre.length) (32 + 1)
      (0, 0, 32 % 2 ^ 32, 0) =
      some (b0 * 2 ^ 24 + b1 * 2 ^ 16 + b2 * 2 ^ 8 + b3, 4, 0, 0) := by
    rw [← hor]
    exact (ffbit_read_loop_step _ _ 32 0 0 32 b0 g0 h0 (by omega) (by omega)).trans
      ((ffbit_read_loop_step _ _ 31 _ 1 24 b1 g1 h1 (by omega) (by omega)).trans
      ((ffbit_read_loop_step _ _ 30 _ 2 16 b2 g2 h2 (by omega) (by omega)).trans
      ((ffbit_read_loop_step _ _ 29 _ 3 8 b3 g3 h3 (by omega) (by omega)).trans
        (ffbit_read_loop_done _ _ 28 _ 4))))
  rw [hrun, obind_some]


/-! ## The public key buffer -/

theorem list_eq_of_getD (a b : List Nat) (hl : a.length = b.length)
    (h : ∀ i, a.getD i 0 = b.getD i 0) : a = b := by
  apply List.ext_getElem hl
  intro i h1 h2
  have e := h i
  rw [List.getD_eq_getElem?_getD, List.getD_eq_getElem?_getD, List.getElem?_eq_getElem h1,
    List.getElem?_eq_getElem h2] at e
  exact e

theorem getD_drop (l : List Nat) (n i : Nat) : (l.drop n).getD i 0 = l.getD (n + i) 0 := by
  rw [List.getD_eq_getElem?_getD, List.getD_eq_getElem?_getD, List.getElem?_drop]

theorem split_four (l : List Nat) (off : Nat) (h : off + 4 ≤ l.length) :
    ∃ a b c d, l = l.take off ++ a :: b :: c :: d :: l.drop (off + 4) := by
  have e : l.drop off = (l.drop off).take 4 ++ (l.drop off).drop 4 := (List.take_append_drop 4 _).symm
  have hl : ((l.drop off).take 4).length = 4 := by
    rw [List.length_take, List.length_drop]
    omega
  rw [List.drop_drop] at e
  match hm : (l.drop off).take 4, hl with
  | [a, b, c, d], _ =>
    refine ⟨a, b, c, d, ?_⟩
    rw [hm] at e
    conv_lhs => rw [← List.take_append_drop off l, e]
    rfl

theorem ffbit_write_32_at (buf : List Nat) (off v : Nat) (hv : v < 2 ^ 32)
    (hb : off + 4 ≤ buf.length) :
    ffbit_write buf { p := off, bit_index := 0 } 32 v =
      some (buf.take off ++ be32 v ++ buf.drop (off + 4), { p := off + 4, bit_index := 0 }) := by
  obtain ⟨a, b, c, d, e⟩ := split_four buf off hb
  have hl : (buf.take off).length = off := by
    rw [List.length_take]
    omega
  have w := ffbit_write_32 (buf.take off) (buf.drop (off + 4)) a b c d v hv
  rw [← e, hl] at w
  exact w

theorem be32_lt (v : Nat) : ∀ b ∈ be32 v, b < 256 := by
  intro b hb
  unfold be32 at hb
  simp only [List.mem_cons, List.mem_singleton, List.not_mem_nil, or_false] at hb
  omega

theorem ffbit_read_32_at (pre post : List Nat) (v : Nat) (hv : v < 2 ^ 32) :
    ffbit_read (pre ++ be32 v ++ post) { p := pre.length, bit_index := 0 } 32 =
      some (v, { p := pre.length + 4, bit_index := 0 }) := by
  have r := ffbit_read_32 pre post (v / 2 ^ 24 % 256) (v / 2 ^ 16 % 256) (v / 2 ^ 8 % 256) (v % 256)
    (Nat.mod_lt _ (by decide)) (Nat.mod_lt _ (by decide)) (Nat.mod_lt _ (by decide))
    (Nat.mod_lt _ (by decide))
  have e : v / 2 ^ 24 % 256 * 2 ^ 24 + v / 2 ^ 16 % 256 * 2 ^ 16 + v / 2 ^ 8 % 256 * 2 ^ 8 +
      v % 256 = v := by omega
  rw [e] at r
  rw [List.append_assoc]
  exact r

/-- Serialization writes the bytes of the value, least significant first, and leaves the rest
of the buffer alone. -/
theorem serialize_bytes (P : Platform) {h : Heap} {p : Nat} {x : FFBI} (buffer : List Nat)
    (n : Nat) (hg : h.get p = some x) (cx : canonical P x)
    (hn : ffbi_get_serialized_size P h p = some n) (hb : n ≤ buffer.length) :
    ffbi_serialize P h p buffer n = some ((n : Int), leBytes (val P x) n ++ buffer.drop n) := by
  have hb32 := bit_count_of_size P hg cx hn
  obtain ⟨T, e1, e2, e3, e4, e5, e6⟩ := significant_bits_canonical P hg cx hb32
  have hn2 : n = (T + 7) / 8 := by
    unfold ffbi_get_serialized_size at hn
    rw [e1, obind_some, ceil_div_eight] at hn
    exact (Option.some.inj hn).symm
  obtain ⟨bytes, f1, f2, f3⟩ := serialize_spec P buffer n hg cx hb32
    (by rw [← e6, hn2]) (by rw [← e6, ← hn2]; exact hb)
  rw [← e6, ← hn2] at f1 f3
  rw [f1]
  congr 2
  apply list_eq_of_getD
  · rw [f2, List.length_append, leBytes_length, List.length_drop]
    omega
  · intro i
    rw [f3 i]
    by_cases hi : i < n
    · rw [if_pos hi, List.getD_append _ _ _ _ (by rw [leBytes_length]; exact hi),
        leBytes_getD _ _ _ hi, bitsOf_byte]
    · rw [if_neg hi, List.getD_append_right _ _ _ _ (by rw [leBytes_length]; omega),
        leBytes_length, getD_drop]
      congr 1
      omega

theorem serialized_size_pos (P : Platform) {h : Heap} {p : Nat} {x : FFBI} {n : Nat}
    (hg : h.get p = some x) (cx : canonical P x)
    (hn : ffbi_get_serialized_size P h p = some n) : 1 ≤ n := by
  obtain ⟨T, e1, e2, e3, e4, e5, e6⟩ := significant_bits_canonical P hg cx
    (bit_count_of_size P hg cx hn)
  unfold ffbi_get_serialized_size at hn
  rw [e1, obind_some, ceil_div_eight] at hn
  have := Option.some.inj hn
  omega

theorem toInt32_small (x : Nat) (hx : x < 2 ^ 31) : toInt32 x = (x : Int) := by
  unfold toInt32
  rw [Nat.mod_eq_of_lt (by omega), if_pos hx]

theorem atOffset_eq {α : Type} (pre buf : List Nat) (f : List Nat → Option (α × List Nat))
    (r : α) (out : List Nat) (hf : f buf = some (r, out)) :
    atOffset (pre ++ buf) pre.length f = some (r, pre ++ out) := by
  unfold atOffset
  rw [if_neg (by rw [List.length_append]; omega), List.drop_left, hf, obind_some, List.take_left]

/-- The buffer that `ffrsa_get_public_key` fills when the size test passes. -/
theorem get_public_key_spec (P : Platform) (h : Heap) (rsa : ffrsa_t) (pe pn : Nat) (xe xn : FFBI)
    (key : List Nat) (size_bytes : Int) (es ns : Nat)
    (he : rsa.e = some pe) (hn : rsa.n = some pn)
    (hge : h.get pe = some xe) (hgn : h.get pn = some xn)
    (ce : canonical P xe) (cn : canonical P xn)
    (hes : ffbi_get_serialized_size P h pe = some es)
    (hns : ffbi_get_serialized_size P h pn = some ns)
    (hsmall : es + ns + 8 < 2 ^ 31) (hsz : ((es + ns + 8 : Nat) : Int) ≤ size_bytes)
    (hlen : es + ns + 8 ≤ key.length) :
    ffrsa_get_public_key P h rsa key size_bytes =
      some (((es + ns + 8 : Nat) : Int),
        be32 es ++ leBytes (val P xe) es ++ be32 ns ++ leBytes (val P xn) ns ++
          key.drop (es + ns + 8)) := by
  have me : es % 2 ^ 32 = es := Nat.mod_eq_of_lt (by omega)
  have mn : ns % 2 ^ 32 = ns := Nat.mod_eq_of_lt (by omega)
  unfold ffrsa_get_public_key
  rw [he, obind_some, hn, obind_some, hes, obind_some, hns, obind_some]
  simp only [me, mn]
  rw [toInt32_small _ hsmall, if_neg (by omega)]
  -- the length field of e
  have w1 := ffbit_write_32_at key 0 es (by omega) (by omega)
  rw [List.take_zero, List.nil_append] at w1
  rw [show ffbit_create 0 = { p := 0, bit_index := 0 } from rfl, w1, obind_some]
  -- the bytes of e
  have s1 := serialize_bytes P (key.drop 4) es hge ce hes (by rw [List.length_drop]; omega)
  rw [List.drop_drop] at s1
  have a1 := atOffset_eq (be32 es) (key.drop 4) (fun b => ffbi_serialize P h pe b es) _ _ s1
  rw [be32_length] at a1
  rw [a1, obind_some]
  -- the length field of n
  have hl2 : (be32 es ++ leBytes (val P xe) es).length = 4 + es := by
    rw [List.length_append, be32_length, leBytes_length]
  have w2 := ffbit_write_32_at (be32 es ++ (leBytes (val P xe) es ++ key.drop (4 + es))) (4 + es) ns
    (by omega) (by
      rw [List.length_append, List.length_append, be32_length, leBytes_length, List.length_drop]
      omega)
  rw [← List.append_assoc, List.take_left' hl2,
    show 4 + es + 4 = (4 + es) + 4 from rfl, ← hl2, List.drop_append, hl2, List.drop_drop] at w2
  rw [show ffbit_set (4 + es) 0 = { p := 4 + es, bit_index := 0 } from rfl,
    ← List.append_assoc, w2, obind_some]
  -- the bytes of n
  have s2 := serialize_bytes P (key.drop (4 + es + 4)) ns hgn cn hns
    (by rw [List.length_drop]; omega)
  rw [List.drop_drop] at s2
  have hl3 : (be32 es ++ leBytes (val P xe) es ++ be32 ns).length = 4 + es + 4 := by
    rw [List.length_append, hl2, be32_length]
  have a2 := atOffset_eq (be32 es ++ leBytes (val P xe) es ++ be32 ns) (key.drop (4 + es + 4))
    (fun b => ffbi_serialize P h pn b ns) _ _ s2
  rw [hl3] at a2
  rw [a2, obind_some]
  rw [show 4 + es + 4 + ns = es + ns + 8 by omega]
  simp only [List.append_assoc]

/-! ## Creating a key from a public key buffer -/

theorem create_reserved_bits_spec (P : Platform) (h : Heap) (bits : Nat) :
    ∃ o h', ffbi_create_reserved_bits P h bits = some (o, h') ∧
      (∀ q, q < h.obj.length → h'.get q = h.get q) ∧ h.obj.length ≤ h'.obj.length ∧
      (FFBI_MIN_ALLOC_DIGITS ≤ bits % 2 ^ 32 / FFBI_BITS_PER_DIGIT P +
          (if bits % 2 ^ 32 % FFBI_BITS_PER_DIGIT P ≠ 0 then 1 else 0) →
        ∃ arr, o = some h.obj.length ∧
          h'.get h.obj.length = some (newRecord arr (bits % 2 ^ 32 / FFBI_BITS_PER_DIGIT P +
            (if bits % 2 ^ 32 % FFBI_BITS_PER_DIGIT P ≠ 0 then 1 else 0)) true) ∧
          arr.length = bits % 2 ^ 32 / FFBI_BITS_PER_DIGIT P +
            (if bits % 2 ^ 32 % FFBI_BITS_PER_DIGIT P ≠ 0 then 1 else 0) ∧
          h'.obj.length = h.obj.length + 1) := by
  unfold ffbi_create_reserved_bits
  dsimp only
  generalize bits % 2 ^ 32 / FFBI_BITS_PER_DIGIT P +
    (if bits % 2 ^ 32 % FFBI_BITS_PER_DIGIT P ≠ 0 then 1 else 0) = nd
  by_cases hlt : nd < FFBI_MIN_ALLOC_DIGITS
  · rw [if_pos hlt]
    exact ⟨none, h, rfl, fun q _ => rfl, Nat.le_refl _, fun hge => absurd hlt (by omega)⟩
  · rw [if_neg hlt]
    have h3 : 3 ≤ nd := by
      unfold FFBI_MIN_ALLOC_DIGITS at hlt
      omega
    rw [wr_of_lt _ (by rw [Heap.newArr_length]; omega), obind_some]
    refine ⟨_, _, rfl, ?_, ?_, fun _ => ⟨(h.newArr (FFBI_WORD_SIZE P) nd).1.set 0 0, ?_, ?_, ?_, ?_⟩⟩
    · intro q hq
      unfold Heap.get
      dsimp only
      rw [Heap.newArr_obj, List.getElem?_append_left hq]
    · dsimp only
      rw [Heap.newArr_obj]
      simp
    · rw [Heap.newArr_obj]
    · unfold Heap.get
      dsimp only
      rw [Heap.newArr_obj]
      simp
    · rw [List.length_set, Heap.newArr_length]
    · dsimp only
      rw [Heap.newArr_obj]
      simp

theorem significant_bits_of_get (P : Platform) (h h' : Heap) (p q : Nat)
    (e : h'.get q = h.get p) :
    ffbi_get_significant_bits P h' q = ffbi_get_significant_bits P h p := by
  unfold ffbi_get_significant_bits
  rw [e]

/-- The function `ffrsa_init` for a public key: it allocates the work values and the padding
vectors, and leaves `e`, `n` and the stored result as they are. -/
theorem ffrsa_init_public (P : Platform) (fuel : Nat) (h : Heap) (ret : ffrsa_t) (bits pn : Nat)
    (x : FFBI) (hn : ret.n = some pn) (hg : h.get pn = some x) (cx : canonical P x)
    (hb : (x.num_used_digits - 1) * FFBI_BITS_PER_DIGIT P +
      ffbi_significant_bits (x.digits.getD (x.num_used_digits - 1) 0) < 2 ^ 32) :
    ∃ h' ret', ffrsa_init P fuel h ret bits 0 = some (h', ret') ∧ ret'.e = ret.e ∧
      ret'.n = ret.n ∧ ret'.is_private = 0 ∧ ret'.result = ret.result ∧
      ret'.rsa_usable_size < 2 ^ 31 ∧ (∀ q, q < h.obj.length → h'.get q = h.get q) := by
  have hp := Heap.get_lt hg
  obtain ⟨o1, h1, e1, k1, l1, _⟩ := create_reserved_bits_spec P h bits
  obtain ⟨o2, h2, e2, k2, l2, _⟩ := create_reserved_bits_spec P h1 bits
  obtain ⟨o3, h3, e3, k3, l3, _⟩ := create_reserved_bits_spec P h2 bits
  obtain ⟨T, t1, _⟩ := significant_bits_canonical P hg cx hb
  have t1b : ffbi_get_significant_bits P h1 pn = some T := by
    rw [significant_bits_of_get P h h1 pn pn (k1 pn hp), t1]
  unfold ffrsa_init
  rw [e1, obind_some, hn, obind_some]
  dsimp only
  rw [t1b, obind_some, e2, obind_some, e3, obind_some]
  dsimp only
  rw [if_neg (by decide)]
  refine ⟨_, _, rfl, rfl, rfl, rfl, rfl, ?_, ?_⟩
  · dsimp only
    have : (T + (2 ^ 32 - 1)) % 2 ^ 32 < 2 ^ 32 := Nat.mod_lt _ (by decide)
    omega
  · intro q hq
    unfold ffbi_scratch_create
    dsimp only
    rw [Heap.get_with_scr, k3 q (by omega), k2 q (by omega), k1 q hq]

theorem canonicalDigits_append (bits : Nat) (a b : List Nat) (n : Nat)
    (c : canonicalDigits bits a n) : canonicalDigits bits (a ++ b) n := by
  have hl := c.2.1
  refine canonicalDigits_congr bits a (a ++ b) n (by rw [List.length_append]; omega) ?_ c
  intro j hj
  exact List.getD_append _ _ _ _ (by omega)

theorem digitsVal_append (bits : Nat) (a b : List Nat) (n : Nat) (hl : n ≤ a.length) :
    digitsVal bits (a ++ b) n = digitsVal bits a n :=
  digitsVal_congr bits (a ++ b) a n (fun j hj => List.getD_append _ _ _ _ (by omega))

theorem validStorage_newRecord (arr : List Nat) (n : Nat) (hl : arr.length = n) :
    validStorage (newRecord arr n true) :=
  ⟨by show n ≤ arr.length; omega, fun c hc => Option.noConfusion hc⟩

theorem reserved_digits_default (P : Platform) :
    FFBI_MIN_ALLOC_DIGITS ≤ FFRSA_DEFAULT_KEY_RESERVED_BITS % 2 ^ 32 / FFBI_BITS_PER_DIGIT P +
      (if FFRSA_DEFAULT_KEY_RESERVED_BITS % 2 ^ 32 % FFBI_BITS_PER_DIGIT P ≠ 0 then 1 else 0) := by
  cases P <;> decide

/-- The function `ffrsa_create_from_public_key` on a buffer of the form
`[length of e][bytes of e][length of n][bytes of n]`: the key record holds two new bigints with
the values of the two byte blocks, and is a public key without a stored result. -/
theorem create_from_public_key_spec (P : Platform) (fuel : Nat) (h : Heap)
    (eb nb rest : List Nat) (ce : canonicalDigits 8 eb eb.length)
    (cn : canonicalDigits 8 nb nb.length) (hes : eb.length < 2 ^ 31) (hns : nb.length < 2 ^ 31)
    (hbe : (eb.length - 1) * 8 + ffbi_significant_bits (eb.getD (eb.length - 1) 0) < 2 ^ 32)
    (hbn : (nb.length - 1) * 8 + ffbi_significant_bits (nb.getD (nb.length - 1) 0) < 2 ^ 32) :
    ∃ h' rsa xe xn,
      ffrsa_create_from_public_key P fuel h
        (be32 eb.length ++ eb ++ be32 nb.length ++ nb ++ rest) = some (h', rsa) ∧
      rsa.e = some h.obj.length ∧ rsa.n = some (h.obj.length + 1) ∧
      h'.get h.obj.length = some xe ∧ h'.get (h.obj.length + 1) = some xn ∧
      canonical P xe ∧ canonical P xn ∧
      val P xe = digitsVal 8 eb eb.length ∧ val P xn = digitsVal 8 nb nb.length ∧
      rsa.is_private = 0 ∧ rsa.result = none ∧ rsa.rsa_usable_size < 2 ^ 31 := by
  -- the two bigints
  obtain ⟨h1, arr1, c1, g1, al1, k1, l1, _⟩ := create_reserved_spec P h 3
  obtain ⟨o2, h2, c2, k2, _, big2⟩ :=
    create_reserved_bits_spec P h1 FFRSA_DEFAULT_KEY_RESERVED_BITS
  obtain ⟨arr2, eo2, g2, al2, l2⟩ := big2 (reserved_digits_default P)
  subst eo2
  rw [l1] at g2
  have g1b : h2.get h.obj.length = some (newRecord arr1 (max 3 FFBI_MIN_ALLOC_DIGITS) true) := by
    rw [k2 _ (by omega), g1]
  -- the bytes of e
  have key1 : be32 eb.length ++ eb ++ be32 nb.length ++ nb ++ rest =
      [] ++ be32 eb.length ++ (eb ++ be32 nb.length ++ nb ++ rest) := by
    simp only [List.nil_append, List.append_assoc]
  have r1 := ffbit_read_32_at [] (eb ++ be32 nb.length ++ nb ++ rest) eb.length (by omega)
  have key1d : (be32 eb.length ++ eb ++ be32 nb.length ++ nb ++ rest).drop 4 =
      eb ++ (be32 nb.length ++ nb ++ rest) := by
    rw [key1, List.nil_append, List.drop_left' (be32_length _)]
    simp only [List.append_assoc]
  obtain ⟨h3, xe, d1, g3, cxe, vxe, _, k3⟩ := deserialize_spec P (eb ++ (be32 nb.length ++ nb ++ rest))
    eb.length g1b rfl (validStorage_newRecord _ _ al1) (canonicalDigits_append 8 _ _ _ ce)
    (by rw [List.getD_append _ _ _ _ (by have := ce.1; omega)]; exact hbe)
  rw [digitsVal_append 8 _ _ _ (Nat.le_refl _)] at vxe
  have g2b : h3.get (h.obj.length + 1) = h2.get (h.obj.length + 1) := k3 _ (by omega)
  -- the bytes of n
  have key2 : be32 eb.length ++ eb ++ be32 nb.length ++ nb ++ rest =
      (be32 eb.length ++ eb) ++ be32 nb.length ++ (nb ++ rest) := by
    simp only [List.append_assoc]
  have hl2 : (be32 eb.length ++ eb).length = 4 + eb.length := by
    rw [List.length_append, be32_length]
  have r2 := ffbit_read_32_at (be32 eb.length ++ eb) (nb ++ rest) nb.length (by omega)
  rw [hl2] at r2
  have key2d : (be32 eb.length ++ eb ++ be32 nb.length ++ nb ++ rest).drop (4 + eb.length + 4) =
      nb ++ rest := by
    have hl3 : (be32 eb.length ++ eb ++ be32 nb.length).length = 4 + eb.length + 4 := by
      rw [List.length_append, hl2, be32_length]
    rw [List.append_assoc _ nb rest, List.drop_left' hl3]
  obtain ⟨h4, xn, d2, g4, cxn, vxn, _, k4⟩ := deserialize_spec P (nb ++ rest) nb.length
    (g2b.trans g2) rfl (validStorage_newRecord _ _ al2) (canonicalDigits_append 8 _ _ _ cn)
    (by rw [List.getD_append _ _ _ _ (by have := cn.1; omega)]; exact hbn)
  rw [digitsVal_append 8 _ _ _ (Nat.le_refl _)] at vxn
  have g3b : h4.get h.obj.length = some xe := by
    rw [k4 _ (by omega), g3]
  have hbxn : (xn.num_used_digits - 1) * FFBI_BITS_PER_DIGIT P +
      ffbi_significant_bits (xn.digits.getD (xn.num_used_digits - 1) 0) < 2 ^ 32 := by
    obtain ⟨u1, _, _, u4⟩ := total_bits_spec 8 nb nb.length (by decide) cn
    exact Nat.lt_of_le_of_lt (bit_count_le P cxn (by omega) (by rw [vxn]; exact u1)) hbn
  obtain ⟨T, t1, _⟩ := significant_bits_canonical P g4 cxn hbxn
  obtain ⟨h5, rsa, i1, i2, i3, i4, i5, i6, k5⟩ := ffrsa_init_public P fuel h4
    { ffrsa_zero with e := some h.obj.length, n := some (h.obj.length + 1) } T
    (h.obj.length + 1) xn rfl g4 cxn hbxn
  have lt4 := Heap.get_lt g4
  refine ⟨h5, rsa, xe, xn, ?_, i2, i3, by rw [k5 _ (by omega), g3b], by rw [k5 _ lt4, g4],
    cxe, cxn, vxe, vxn, i4, i5, i6⟩
  unfold ffrsa_create_from_public_key
  rw [show ffbi_create P h = ffbi_create_reserved_digits P h 3 from rfl, c1, obind_some]
  dsimp only
  rw [c2, obind_some]
  dsimp only
  rw [show ffbit_create 0 = { p := ([] : List Nat).length, bit_index := 0 } from rfl]
  conv_lhs => rw [key1]
  rw [r1, obind_some]
  dsimp only
  rw [Nat.mod_eq_of_lt (by omega : eb.length < 2 ^ 32), toInt32_small _ hes,
    if_neg (by omega), if_neg (by simp [be32_length]), ← key1, key1d, d1, obind_some]
  rw [show ffbit_set (4 + eb.length) 0 = { p := 4 + eb.length, bit_index := 0 } from rfl]
  conv_lhs => rw [key2]
  rw [r2, obind_some]
  dsimp only
  rw [Nat.mod_eq_of_lt (by omega : nb.length < 2 ^ 32), toInt32_small _ hns,
    if_neg (by omega), if_neg (by simp [be32_length]; omega), obind_some, ← key2, key2d, l1,
    d2, obind_some, t1, obind_some]
  exact i1

/-! ## The public key: layout, round trip and return value -/

/-- The serialized bytes of a canonical bigint form a canonical base-256 number of the same
value. -/
theorem leBytes_canonical (P : Platform) {h : Heap} {p : Nat} {x : FFBI} {n : Nat}
    (hg : h.get p = some x) (cx : canonical P x)
    (hn : ffbi_get_serialized_size P h p = some n) :
    canonicalDigits 8 (leBytes (val P x) n) (leBytes (val P x) n).length ∧
      digitsVal 8 (leBytes (val P x) n) (leBytes (val P x) n).length = val P x := by
  obtain ⟨T, e1, e2, e3, e4, e5, e6⟩ := significant_bits_canonical P hg cx
    (bit_count_of_size P hg cx hn)
  have hn2 : n = (T + 7) / 8 := by
    unfold ffbi_get_serialized_size at hn
    rw [e1, obind_some, ceil_div_eight] at hn
    exact (Option.some.inj hn).symm
  rw [leBytes_length]
  have hbits : ∀ i, i < n → (leBytes (val P x) n).getD i 0 = bitsOf (val P x) (8 * i) 8 := by
    intro i hi
    rw [leBytes_getD _ _ _ hi, bitsOf_byte]
  have hn1 : 1 ≤ n := by omega
  have hT8 : T ≤ 8 * n := by omega
  constructor
  · refine ⟨hn1, by rw [leBytes_length], ?_, ?_⟩
    · intro i hi
      rw [hbits i hi]
      exact bitsOf_lt _ _ _
    · by_cases h1 : n = 1
      · exact Or.inl h1
      · right
        rw [hbits (n - 1) (by omega)]
        have hlt : val P x < 2 ^ (8 * (n - 1) + 8) :=
          Nat.lt_of_lt_of_le e3 (Nat.pow_le_pow_right (by decide) (by omega))
        rw [bitsOf_eq_div _ _ _ hlt]
        have hne : val P x ≠ 0 := by
          intro h0
          have := e5 h0
          omega
        have hge := e4 hne
        have hle : 2 ^ (8 * (n - 1)) ≤ 2 ^ (T - 1) := Nat.pow_le_pow_right (by decide) (by omega)
        have hpos : 0 < val P x / 2 ^ (8 * (n - 1)) := Nat.div_pos (by omega) (Nat.two_pow_pos _)
        omega
  · rw [digitsVal_of_bits 8 (val P x) _ n hbits]
    exact Nat.mod_eq_of_lt (Nat.lt_of_lt_of_le e3 (Nat.pow_le_pow_right (by decide) hT8))

/-- The serialized bytes of a canonical bigint hold fewer than `2^32` bits. -/
theorem leBytes_total_bits (P : Platform) {h : Heap} {p : Nat} {x : FFBI} {n : Nat}
    (hg : h.get p = some x) (cx : canonical P x)
    (hn : ffbi_get_serialized_size P h p = some n) :
    ((leBytes (val P x) n).length - 1) * 8 + ffbi_significant_bits
      ((leBytes (val P x) n).getD ((leBytes (val P x) n).length - 1) 0) < 2 ^ 32 := by
  obtain ⟨c8, v8⟩ := leBytes_canonical P hg cx hn
  have hb32 := bit_count_of_size P hg cx hn
  obtain ⟨T, e1, e2, e3, e4, e5, e6⟩ := significant_bits_canonical P hg cx hb32
  have hT : T < 2 ^ 32 := by rw [e6]; exact hb32
  exact Nat.lt_of_le_of_lt (total_bits_le 8 _ _ T (by decide) c8 e2 (by rw [v8]; exact e3)) hT

/-- C28: for an RSA key whose `e` and `n` are canonical and a buffer of `size_bytes` bytes that
is large enough, `ffrsa_get_public_key` fills the buffer with the concatenation of the
serialized size of `e` as a 32-bit field (most significant byte first), the serialized `e`,
the serialized size of `n` as a 32-bit field and the serialized `n`, where the serialized
forms `eb` and `nb` are the bytes that `ffbi_serialize` writes; and
`ffrsa_create_from_public_key` on that buffer returns a key whose `e` and `n` are canonical
bigints with the values of the original `e` and `n`. -/
theorem ffrsa_public_key_roundtrip (P : Platform) (fuel : Nat) (h h2 : Heap) (rsa : ffrsa_t)
    (pe pn : Nat) (xe xn : FFBI) (key : List Nat) (size_bytes : Int) (es ns : Nat)
    (he : rsa.e = some pe) (hn : rsa.n = some pn)
    (hge : h.get pe = some xe) (hgn : h.get pn = some xn)
    (ce : canonical P xe) (cn : canonical P xn)
    (hes : ffbi_get_serialized_size P h pe = some es)
    (hns : ffbi_get_serialized_size P h pn = some ns)
    (hsz : ((es + ns + 8 : Nat) : Int) ≤ size_bytes) (hint : size_bytes < 2 ^ 31)
    (hlen : size_bytes ≤ (key.length : Int)) :
    ∃ eb nb key' h' rsa' pe' pn' xe' xn',
      (∀ buf, buf.length = es → ffbi_serialize P h pe buf es = some ((es : Int), eb)) ∧
      (∀ buf, buf.length = ns → ffbi_serialize P h pn buf ns = some ((ns : Int), nb)) ∧
      ffrsa_get_public_key P h rsa key size_bytes = some (((es + ns + 8 : Nat) : Int), key') ∧
      key' = be32 es ++ eb ++ be32 ns ++ nb ++ key.drop (es + ns + 8) ∧
      ffrsa_create_from_public_key P fuel h2 key' = some (h', rsa') ∧
      rsa'.e = some pe' ∧ rsa'.n = some pn' ∧
      h'.get pe' = some xe' ∧ h'.get pn' = some xn' ∧
      canonical P xe' ∧ canonical P xn' ∧ val P xe' = val P xe ∧ val P xn' = val P xn := by
  have hsmall : es + ns + 8 < 2 ^ 31 := by omega
  have hk : es + ns + 8 ≤ key.length := by omega
  obtain ⟨ce8, ve8⟩ := leBytes_canonical P hge ce hes
  obtain ⟨cn8, vn8⟩ := leBytes_canonical P hgn cn hns
  have le := leBytes_length (val P xe) es
  have ln := leBytes_length (val P xn) ns
  obtain ⟨h', rsa', xe', xn', r1, r2, r3, r4, r5, r6, r7, r8, r9, _⟩ :=
    create_from_public_key_spec P fuel h2 (leBytes (val P xe) es) (leBytes (val P xn) ns)
      (key.drop (es + ns + 8)) ce8 cn8 (by omega) (by omega)
      (leBytes_total_bits P hge ce hes) (leBytes_total_bits P hgn cn hns)
  rw [le, ln] at r1
  refine ⟨leBytes (val P xe) es, leBytes (val P xn) ns, _, h', rsa', _, _, xe', xn', ?_, ?_,
    get_public_key_spec P h rsa pe pn xe xn key size_bytes es ns he hn hge hgn ce cn hes hns
      hsmall hsz hk, rfl, r1, r2, r3, r4, r5, r6, r7, by rw [r8, ve8], by rw [r9, vn8]⟩
  · intro buf hb
    rw [serialize_bytes P buf es hge ce hes (by omega), List.drop_eq_nil_of_le (by omega),
      List.append_nil]
  · intro buf hb
    rw [serialize_bytes P buf ns hgn cn hns (by omega), List.drop_eq_nil_of_le (by omega),
      List.append_nil]

/-- Witness for C28: the key with `e = 65537` and `n = 123456789 + 77 * 2^29 + 5 * 2^58`,
written into a buffer of 24 bytes and read back into an empty heap. -/
theorem ffrsa_public_key_roundtrip_witness :
    (canonical .generic64 (exBig [65537, 0, 0] 1) ∧
      canonical .generic64 (exBig [123456789, 77, 5] 3) ∧
      ffbi_get_serialized_size .generic64
        (exHeap [exBig [65537, 0, 0] 1, exBig [123456789, 77, 5] 3] 7) 0 = some 3 ∧
      ffbi_get_serialized_size .generic64
        (exHeap [exBig [65537, 0, 0] 1, exBig [123456789, 77, 5] 3] 7) 1 = some 8) ∧
    ∃ eb nb key' h' rsa' pe' pn' xe' xn',
      (∀ buf, buf.length = 3 → ffbi_serialize .generic64
        (exHeap [exBig [65537, 0, 0] 1, exBig [123456789, 77, 5] 3] 7) 0 buf 3 =
          some (((3 : Nat) : Int), eb)) ∧
      (∀ buf, buf.length = 8 → ffbi_serialize .generic64
        (exHeap [exBig [65537, 0, 0] 1, exBig [123456789, 77, 5] 3] 7) 1 buf 8 =
          some (((8 : Nat) : Int), nb)) ∧
      ffrsa_get_public_key .generic64
        (exHeap [exBig [65537, 0, 0] 1, exBig [123456789, 77, 5] 3] 7)
        { ffrsa_zero with e := some 0, n := some 1 } (List.replicate 24 9) 24 =
          some (((3 + 8 + 8 : Nat) : Int), key') ∧
      key' = be32 3 ++ eb ++ be32 8 ++ nb ++ (List.replicate 24 9).drop (3 + 8 + 8) ∧
      ffrsa_create_from_public_key .generic64 0 (exHeap [] 7) key' = some (h', rsa') ∧
      rsa'.e = some pe' ∧ rsa'.n = some pn' ∧
      h'.get pe' = some xe' ∧ h'.get pn' = some xn' ∧
      canonical .generic64 xe' ∧ canonical .generic64 xn' ∧
      val .generic64 xe' = val .generic64 (exBig [65537, 0, 0] 1) ∧
      val .generic64 xn' = val .generic64 (exBig [123456789, 77, 5] 3) :=
  ⟨⟨by decide, by decide, by decide, by decide⟩,
   ffrsa_public_key_roundtrip .generic64 0
    (exHeap [exBig [65537, 0, 0] 1, exBig [123456789, 77, 5] 3] 7) (exHeap [] 7)
    { ffrsa_zero with e := some 0, n := some 1 } 0 1 (exBig [65537, 0, 0] 1)
    (exBig [123456789, 77, 5] 3) (List.replicate 24 9) 24 3 8 rfl rfl rfl rfl (by decide)
    (by decide) (by decide) (by decide) (by decide) (by decide) (by decide)⟩

/-- C29: for an RSA key whose `e` and `n` are canonical, `ffrsa_get_public_key_size(rsa)` is
`8 + serialized_size(e) + serialized_size(n)`; `ffrsa_get_public_key(rsa, key, size_bytes)`
returns -1 exactly when `size_bytes` is below that size, and then the buffer is unchanged;
otherwise it returns that size, and the buffer afterwards is a written block of that many
bytes followed by the old bytes of the buffer behind it. -/
theorem ffrsa_get_public_key_result (P : Platform) (h : Heap) (rsa : ffrsa_t) (pe pn : Nat)
    (xe xn : FFBI) (key : List Nat) (size_bytes : Int) (es ns : Nat) (total : Int)
    (he : rsa.e = some pe) (hn : rsa.n = some pn)
    (hge : h.get pe = some xe) (hgn : h.get pn = some xn)
    (ce : canonical P xe) (cn : canonical P xn)
    (hes : ffbi_get_serialized_size P h pe = some es)
    (hns : ffbi_get_serialized_size P h pn = some ns)
    (htot : ffrsa_get_public_key_size P h rsa = some total)
    (hlen : size_bytes ≤ (key.length : Int)) :
    total = 8 + (es : Int) + (ns : Int) ∧
    ∃ r key', ffrsa_get_public_key P h rsa key size_bytes = some (r, key') ∧
      (r = -1 ↔ size_bytes < total) ∧
      (size_bytes < total → key' = key) ∧
      (¬ size_bytes < total → r = total ∧
        ∃ written : List Nat, (written.length : Int) = total ∧
          written = be32 es ++ leBytes (val P xe) es ++ be32 ns ++ leBytes (val P xn) ns ∧
          key' = written ++ key.drop written.length) := by
  unfold ffrsa_get_public_key_size at htot
  rw [he, obind_some, hn, obind_some, hes, obind_some, hns, obind_some] at htot
  have hsmall : es + ns + 8 < 2 ^ 31 := by
    by_contra hc
    rw [if_neg hc] at htot
    exact Option.noConfusion htot
  rw [if_pos hsmall] at htot
  have ht : total = (es : Int) + (ns : Int) + 8 := (Option.some.inj htot).symm
  refine ⟨by omega, ?_⟩
  by_cases hlt : size_bytes < total
  · refine ⟨-1, key, ?_, ⟨fun _ => hlt, fun _ => rfl⟩, fun _ => rfl, fun hc => absurd hlt hc⟩
    unfold ffrsa_get_public_key
    rw [he, obind_some, hn, obind_some, hes, obind_some, hns, obind_some]
    dsimp only
    rw [Nat.mod_eq_of_lt (by omega : es < 2 ^ 32), Nat.mod_eq_of_lt (by omega : ns < 2 ^ 32),
      toInt32_small _ hsmall, if_pos (by omega)]
  · have hl : (be32 es ++ leBytes (val P xe) es ++ be32 ns ++ leBytes (val P xn) ns).length =
        es + ns + 8 := by
      simp only [List.length_append, be32_length, leBytes_length]
      omega
    refine ⟨((es + ns + 8 : Nat) : Int), _,
      get_public_key_spec P h rsa pe pn xe xn key size_bytes es ns he hn hge hgn ce cn hes hns
        hsmall (by omega) (by omega), ⟨fun e => by omega, fun e => absurd e hlt⟩,
      fun e => absurd e hlt, fun _ => ⟨by omega, _, ?_, rfl, ?_⟩⟩
    · rw [hl]
      omega
    · rw [hl]

/-- Witness for C29: the key with `e = 65537` and an `n` of 8 bytes needs 19 bytes; the call
is made with a buffer of exactly 19 bytes. -/
theorem ffrsa_get_public_key_result_witness :
    (canonical .generic64 (exBig [65537, 0, 0] 1) ∧
      canonical .generic64 (exBig [123456789, 77, 5] 3) ∧
      ffrsa_get_public_key_size .generic64
        (exHeap [exBig [65537, 0, 0] 1, exBig [123456789, 77, 5] 3] 7)
        { ffrsa_zero with e := some 0, n := some 1 } = some 19) ∧
    ((19 : Int) = 8 + ((3 : Nat) : Int) + ((8 : Nat) : Int) ∧
    ∃ r key', ffrsa_get_public_key .generic64
        (exHeap [exBig [65537, 0, 0] 1, exBig [123456789, 77, 5] 3] 7)
        { ffrsa_zero with e := some 0, n := some 1 } (List.replicate 19 9) 19 = some (r, key') ∧
      (r = -1 ↔ (19 : Int) < 19) ∧
      ((19 : Int) < 19 → key' = List.replicate 19 9) ∧
      (¬ (19 : Int) < 19 → r = 19 ∧
        ∃ written : List Nat, (written.length : Int) = 19 ∧
          written = be32 3 ++ leBytes (val .generic64 (exBig [65537, 0, 0] 1)) 3 ++ be32 8 ++
            leBytes (val .generic64 (exBig [123456789, 77, 5] 3)) 8 ∧
          key' = written ++ (List.replicate 19 9).drop written.length)) :=
  ⟨⟨by decide, by decide, by decide⟩,
   ffrsa_get_public_key_result .generic64
    (exHeap [exBig [65537, 0, 0] 1, exBig [123456789, 77, 5] 3] 7)
    { ffrsa_zero with e := some 0, n := some 1 } 0 1 (exBig [65537, 0, 0] 1)
    (exBig [123456789, 77, 5] 3) (List.replicate 19 9) 19 3 8 19 rfl rfl rfl rfl (by decide)
    (by decide) (by decide) (by decide) (by decide) (by decide)⟩

/-! ## Fields of the key record that the operations keep -/

theorem usable_bound (sig : Nat) : (sig + (2 ^ 32 - 1)) % 2 ^ 32 / 8 < 2 ^ 31 := by
  have : (sig + (2 ^ 32 - 1)) % 2 ^ 32 < 2 ^ 32 := Nat.mod_lt _ (by decide)
  omega

/-- The record that `ffrsa_init` returns: the flag `is_private` is the argument, the usable
size fits an `int`, and the stored result is the one passed in. -/
theorem ffrsa_init_fields (P : Platform) (fuel : Nat) (h h' : Heap) (ret ret' : ffrsa_t)
    (bits ip : Nat) (hr : ffrsa_init P fuel h ret bits ip = some (h', ret')) :
    ret'.is_private = ip % 256 ∧ ret'.rsa_usable_size < 2 ^ 31 ∧ ret'.result = ret.result := by
  unfold ffrsa_init at hr
  obtain ⟨t, _, hr⟩ := obind_eq_some.mp hr
  obtain ⟨n, _, hr⟩ := obind_eq_some.mp hr
  obtain ⟨sig, _, hr⟩ := obind_eq_some.mp hr
  obtain ⟨t2, _, hr⟩ := obind_eq_some.mp hr
  obtain ⟨t3, _, hr⟩ := obind_eq_some.mp hr
  dsimp only at hr
  by_cases hp : ip % 256 ≠ 0
  · rw [if_pos hp] at hr
    obtain ⟨m1, _, hr⟩ := obind_eq_some.mp hr
    obtain ⟨m2, _, hr⟩ := obind_eq_some.mp hr
    obtain ⟨hh, _, hr⟩ := obind_eq_some.mp hr
    obtain ⟨m1_inc, _, hr⟩ := obind_eq_some.mp hr
    obtain ⟨pinc, _, hr⟩ := obind_eq_some.mp hr
    obtain ⟨pq, _, hr⟩ := obind_eq_some.mp hr
    obtain ⟨pp, _, hr⟩ := obind_eq_some.mp hr
    obtain ⟨pm1, _, hr⟩ := obind_eq_some.mp hr
    obtain ⟨pm2, _, hr⟩ := obind_eq_some.mp hr
    obtain ⟨r, _, hr⟩ := obind_eq_some.mp hr
    obtain ⟨ha, _, hr⟩ := obind_eq_some.mp hr
    obtain ⟨hm, _, hr⟩ := obind_eq_some.mp hr
    have e := congrArg Prod.snd (Option.some.inj hr)
    dsimp only at e
    subst e
    exact ⟨rfl, usable_bound sig, rfl⟩
  · rw [if_neg hp] at hr
    have e := congrArg Prod.snd (Option.some.inj hr)
    dsimp only at e
    subst e
    exact ⟨rfl, usable_bound sig, rfl⟩

/-- A key made by `ffrsa_create_from_public_key` is not private, its usable size fits an
`int`, and it has no stored result yet. -/
theorem create_from_public_key_fields (P : Platform) (fuel : Nat) (h h' : Heap) (key : List Nat)
    (rsa : ffrsa_t) (hr : ffrsa_create_from_public_key P fuel h key = some (h', rsa)) :
    rsa.is_private = 0 ∧ rsa.rsa_usable_size < 2 ^ 31 ∧ rsa.result = none := by
  unfold ffrsa_create_from_public_key at hr
  obtain ⟨e, _, hr⟩ := obind_eq_some.mp hr
  obtain ⟨n, _, hr⟩ := obind_eq_some.mp hr
  obtain ⟨r1, _, hr⟩ := obind_eq_some.mp hr
  dsimp only at hr
  split at hr
  · exact Option.noConfusion hr
  split at hr
  · exact Option.noConfusion hr
  obtain ⟨h1, _, hr⟩ := obind_eq_some.mp hr
  obtain ⟨r2, _, hr⟩ := obind_eq_some.mp hr
  split at hr
  · exact Option.noConfusion hr
  split at hr
  · exact Option.noConfusion hr
  obtain ⟨pn, _, hr⟩ := obind_eq_some.mp hr
  obtain ⟨h2, _, hr⟩ := obind_eq_some.mp hr
  obtain ⟨bits, _, hr⟩ := obind_eq_some.mp hr
  exact ffrsa_init_fields P fuel _ _ _ _ _ 0 hr
theorem ffrsa_mgf1_fields (digest : List Nat → List Nat) (rsa rsa' : ffrsa_t)
    (mask seed m : List Nat) (off : Nat) (sl dl : Int)
    (hr : ffrsa_mgf1 digest rsa mask seed off sl dl = some (rsa', m)) :
    rsa'.is_private = rsa.is_private ∧ rsa'.rsa_usable_size = rsa.rsa_usable_size ∧
      rsa'.max_msg_size = rsa.max_msg_size := by
  unfold ffrsa_mgf1 at hr
  split at hr
  · exact Option.noConfusion hr
  obtain ⟨ps, _, hr⟩ := obind_eq_some.mp hr
  obtain ⟨ps2, _, hr⟩ := obind_eq_some.mp hr
  obtain ⟨s, _, hr⟩ := obind_eq_some.mp hr
  have e := congrArg Prod.fst (Option.some.inj hr)
  dsimp only at e
  subst e
  exact ⟨rfl, rfl, rfl⟩

theorem ffrsa_pad_fields (digest : List Nat → List Nat) (h h' : Heap) (rsa rsa' : ffrsa_t)
    (msg out : List Nat) (ml dl : Int)
    (hr : ffrsa_pad digest h rsa msg ml dl = some (h', rsa', out)) :
    rsa'.is_private = rsa.is_private ∧ rsa'.rsa_usable_size = rsa.rsa_usable_size ∧
      rsa'.max_msg_size = rsa.max_msg_size := by
  unfold ffrsa_pad at hr
  dsimp only at hr
  split at hr
  · have e := congrArg (fun r => r.2.1) (Option.some.inj hr)
    dsimp only at e
    subst e
    exact ⟨rfl, rfl, rfl⟩
  split at hr
  · exact Option.noConfusion hr
  obtain ⟨ps2, _, hr⟩ := obind_eq_some.mp hr
  split at hr
  · exact Option.noConfusion hr
  obtain ⟨ps2b, _, hr⟩ := obind_eq_some.mp hr
  obtain ⟨ps2c, _, hr⟩ := obind_eq_some.mp hr
  obtain ⟨seed, _, hr⟩ := obind_eq_some.mp hr
  obtain ⟨hs, _, hr⟩ := obind_eq_some.mp hr
  obtain ⟨mask, _, hr⟩ := obind_eq_some.mp hr
  obtain ⟨m1, hm1, hr⟩ := obind_eq_some.mp hr
  obtain ⟨ps2d, _, hr⟩ := obind_eq_some.mp hr
  obtain ⟨m2, hm2, hr⟩ := obind_eq_some.mp hr
  obtain ⟨seed2, _, hr⟩ := obind_eq_some.mp hr
  obtain ⟨out1, _, hr⟩ := obind_eq_some.mp hr
  obtain ⟨out2, _, hr⟩ := obind_eq_some.mp hr
  have e := congrArg (fun r => r.2.1) (Option.some.inj hr)
  dsimp only at e
  subst e
  obtain ⟨a1, a2, a3⟩ := ffrsa_mgf1_fields digest _ _ _ _ _ _ _ _ hm1
  obtain ⟨b1, b2, b3⟩ := ffrsa_mgf1_fields digest _ _ _ _ _ _ _ _ hm2
  exact ⟨b1.trans a1, b2.trans a2, b3.trans a3⟩

theorem ffrsa_pad_loop_fields (digest : List Nat → List Nat) (msg : List Nat) (ml : Int) :
    ∀ (fuel : Nat) (h h' : Heap) (rsa rsa' : ffrsa_t),
      ffrsa_pad_loop digest msg ml fuel h rsa = some (h', rsa') →
      rsa'.is_private = rsa.is_private ∧ rsa'.rsa_usable_size = rsa.rsa_usable_size ∧
        rsa'.max_msg_size = rsa.max_msg_size := by
  intro fuel
  induction fuel with
  | zero =>
    intro h h' rsa rsa' hr
    exact Option.noConfusion hr
  | succ k ih =>
    intro h h' rsa rsa' hr
    unfold ffrsa_pad_loop at hr
    obtain ⟨r, hp, hr⟩ := obind_eq_some.mp hr
    obtain ⟨last, _, hr⟩ := obind_eq_some.mp hr
    obtain ⟨a1, a2, a3⟩ := ffrsa_pad_fields digest h r.1 rsa r.2.1 msg r.2.2 ml _ hp
    split at hr
    · have e := congrArg Prod.snd (Option.some.inj hr)
      dsimp only at e
      subst e
      exact ⟨a1, a2, a3⟩
    · obtain ⟨b1, b2, b3⟩ := ih _ _ _ _ hr
      exact ⟨b1.trans a1, b2.trans a2, b3.trans a3⟩

theorem ffrsa_update_result_fields (P : Platform) (h h' : Heap) (rsa rsa' : ffrsa_t) (v : Nat)
    (hr : ffrsa_update_result P h rsa v = some (h', rsa')) :
    rsa'.is_private = rsa.is_private ∧ rsa'.rsa_usable_size = rsa.rsa_usable_size ∧
      rsa'.max_msg_size = rsa.max_msg_size := by
  unfold ffrsa_update_result at hr
  obtain ⟨sz, _, hr⟩ := obind_eq_some.mp hr
  dsimp only at hr
  obtain ⟨res, _, hr⟩ := obind_eq_some.mp hr
  obtain ⟨s, _, hr⟩ := obind_eq_some.mp hr
  have e := congrArg Prod.snd (Option.some.inj hr)
  dsimp only at e
  subst e
  cases hres : rsa.result with
  | none => exact ⟨rfl, rfl, rfl⟩
  | some r0 =>
    dsimp only
    split <;> exact ⟨rfl, rfl, rfl⟩

/-- The function `ffrsa_encrypt` keeps the flag `is_private` and the two size limits of the
key. -/
theorem ffrsa_encrypt_fields (digest : List Nat → List Nat) (P : Platform) (fuel : Nat)
    (h h' : Heap) (rsa rsa' : ffrsa_t) (src : List Nat) (ml r : Int)
    (hr : ffrsa_encrypt digest P fuel h rsa src ml = some (r, h', rsa')) :
    rsa'.is_private = rsa.is_private ∧ rsa'.rsa_usable_size = rsa.rsa_usable_size ∧
      rsa'.max_msg_size = rsa.max_msg_size := by
  unfold ffrsa_encrypt at hr
  split at hr
  · have e := congrArg (fun r => r.2.2) (Option.some.inj hr)
    dsimp only at e
    subst e
    exact ⟨rfl, rfl, rfl⟩
  obtain ⟨ps3, _, hr⟩ := obind_eq_some.mp hr
  obtain ⟨lp, hlp, hr⟩ := obind_eq_some.mp hr
  obtain ⟨ps3b, _, hr⟩ := obind_eq_some.mp hr
  obtain ⟨temp, _, hr⟩ := obind_eq_some.mp hr
  obtain ⟨temp2, _, hr⟩ := obind_eq_some.mp hr
  obtain ⟨e, _, hr⟩ := obind_eq_some.mp hr
  obtain ⟨n, _, hr⟩ := obind_eq_some.mp hr
  split at hr
  · exact Option.noConfusion hr
  obtain ⟨h1, _, hr⟩ := obind_eq_some.mp hr
  obtain ⟨h2, _, hr⟩ := obind_eq_some.mp hr
  obtain ⟨u, hu, hr⟩ := obind_eq_some.mp hr
  have e := congrArg (fun r => r.2.2) (Option.some.inj hr)
  dsimp only at e
  subst e
  obtain ⟨a1, a2, a3⟩ := ffrsa_pad_loop_fields digest src ml fuel _ _ _ _ hlp
  obtain ⟨b1, b2, b3⟩ := ffrsa_update_result_fields P _ _ _ _ _ hu
  exact ⟨b1.trans a1, b2.trans a2, b3.trans a3⟩


/-- C30: `ffrsa_encrypt` returns 1 when `msg_len` exceeds `ffrsa_get_max_msg_len(rsa)`, and
`ffrsa_decrypt` returns 1 when `msg_len` exceeds `rsa_usable_size + 1` or when the key is not
private; in each case the heap and the whole key record, the stored result with it, are
returned as they were.  A key made by `ffrsa_create_from_public_key` is not private and its
usable size fits an `int`, and `ffrsa_encrypt` changes neither the flag nor the usable size, so
the key stays rejected by `ffrsa_decrypt` after any number of encryptions. -/
theorem ffrsa_encrypt_decrypt_reject (digest : List Nat → List Nat) (P : Platform) :
    (∀ (fuel : Nat) (h : Heap) (rsa : ffrsa_t) (src : List Nat) (msg_len : Int),
      msg_len > ffrsa_get_max_msg_len rsa →
      ffrsa_encrypt digest P fuel h rsa src msg_len = some (1, h, rsa)) ∧
    (∀ (fuel : Nat) (h : Heap) (rsa : ffrsa_t) (src : List Nat) (msg_len : Int),
      rsa.rsa_usable_size < 2 ^ 31 → msg_len > (rsa.rsa_usable_size : Int) + 1 →
      ffrsa_decrypt digest P fuel h rsa src msg_len = some (1, h, rsa)) ∧
    (∀ (fuel : Nat) (h : Heap) (rsa : ffrsa_t) (src : List Nat) (msg_len : Int),
      rsa.is_private = 0 →
      ffrsa_decrypt digest P fuel h rsa src msg_len = some (1, h, rsa)) ∧
    (∀ (fuel : Nat) (h0 h : Heap) (key : List Nat) (rsa : ffrsa_t),
      ffrsa_create_from_public_key P fuel h0 key = some (h, rsa) →
      rsa.is_private = 0 ∧ rsa.rsa_usable_size < 2 ^ 31) ∧
    (∀ (fuel : Nat) (h h' : Heap) (rsa rsa' : ffrsa_t) (src : List Nat) (msg_len r : Int),
      ffrsa_encrypt digest P fuel h rsa src msg_len = some (r, h', rsa') →
      rsa'.is_private = rsa.is_private ∧ rsa'.rsa_usable_size = rsa.rsa_usable_size) := by
  refine ⟨?_, ?_, ?_, ?_, ?_⟩
  · intro fuel h rsa src msg_len hgt
    unfold ffrsa_encrypt
    exact if_pos hgt
  · intro fuel h rsa src msg_len hu hgt
    unfold ffrsa_decrypt
    rw [toInt32_small _ hu, if_pos hgt]
  · intro fuel h rsa src msg_len hp
    unfold ffrsa_decrypt
    by_cases hgt : msg_len > toInt32 rsa.rsa_usable_size + 1
    · exact if_pos hgt
    · exact (if_neg hgt).trans (if_pos hp)
  · intro fuel h0 h key rsa hr
    obtain ⟨a1, a2, _⟩ := create_from_public_key_fields P fuel h0 h key rsa hr
    exact ⟨a1, a2⟩
  · intro fuel h h' rsa rsa' src msg_len r hr
    obtain ⟨a1, a2, _⟩ := ffrsa_encrypt_fields digest P fuel h h' rsa rsa' src msg_len r hr
    exact ⟨a1, a2⟩

/-- Witness for C30: the public key with `e = 5` and `n = 7` on `gnu128`, whose size limits
are 0, with the identity as digest function. -/
theorem ffrsa_encrypt_decrypt_reject_witness :
    ((1 : Int) > ffrsa_get_max_msg_len exPublicKey ∧
      ffrsa_encrypt (fun x => x) .gnu128 9 exPublicKeyHeap exPublicKey [1, 2, 3] 1 =
        some (1, exPublicKeyHeap, exPublicKey)) ∧
    ((exPublicKey.rsa_usable_size < 2 ^ 31 ∧ (5 : Int) > (exPublicKey.rsa_usable_size : Int) + 1) ∧
      ffrsa_decrypt (fun x => x) .gnu128 9 exPublicKeyHeap exPublicKey [1, 2, 3, 4, 5] 5 =
        some (1, exPublicKeyHeap, exPublicKey)) ∧
    (exPublicKey.is_private = 0 ∧
      ffrsa_decrypt (fun x => x) .gnu128 9 exPublicKeyHeap exPublicKey [1] 1 =
        some (1, exPublicKeyHeap, exPublicKey)) ∧
    (ffrsa_create_from_public_key .gnu128 0 (exHeap [] 7) [0, 0, 0, 1, 5, 0, 0, 0, 1, 7] =
        some (exPublicKeyHeap, exPublicKey) ∧
      exPublicKey.is_private = 0 ∧ exPublicKey.rsa_usable_size < 2 ^ 31) ∧
    (ffrsa_encrypt (fun x => x) .gnu128 9 exPublicKeyHeap exPublicKey [1, 2, 3] 1 =
        some (1, exPublicKeyHeap, exPublicKey) ∧
      exPublicKey.is_private = exPublicKey.is_private ∧
      exPublicKey.rsa_usable_size = exPublicKey.rsa_usable_size) :=
  ⟨⟨by decide, (ffrsa_encrypt_decrypt_reject (fun x => x) .gnu128).1 9 exPublicKeyHeap exPublicKey
      [1, 2, 3] 1 (by decide)⟩,
   ⟨⟨by decide, by decide⟩, (ffrsa_encrypt_decrypt_reject (fun x => x) .gnu128).2.1 9
      exPublicKeyHeap exPublicKey [1, 2, 3, 4, 5] 5 (by decide) (by decide)⟩,
   ⟨rfl, (ffrsa_encrypt_decrypt_reject (fun x => x) .gnu128).2.2.1 9 exPublicKeyHeap exPublicKey
      [1] 1 rfl⟩,
   ⟨rfl, (ffrsa_encrypt_decrypt_reject (fun x => x) .gnu128).2.2.2.1 0 (exHeap [] 7)
      exPublicKeyHeap [0, 0, 0, 1, 5, 0, 0, 0, 1, 7] exPublicKey rfl⟩,
   ⟨rfl, (ffrsa_encrypt_decrypt_reject (fun x => x) .gnu128).2.2.2.2 9 exPublicKeyHeap
      exPublicKeyHeap exPublicKey exPublicKey [1, 2, 3] 1 1 rfl⟩⟩

/-! ## Deserialization of blocks with zero top bytes; the padding round trip -/

/-- C37 (the code departs from the claim): a block whose last bytes are zero deserializes to
a bigint with a leading zero digit.  For the five bytes `1, 0, 0, 0, 0` the bit count is
`4 * 8 + 1 = 33`, which is two digits of 29 bits: `p` gets length 2 and digits `1, 0`, which
is not canonical, while its value is the value 1 of the bytes.  With digits of 61 bits the
same happens for the nine bytes `1, 0, 0, 0, 0, 0, 0, 0, 0`.  With one zero byte less the
result is canonical. -/
theorem ffbi_deserialize_zero_top_bytes_not_canonical :
    (obind (ffbi_deserialize .generic64 (exHeap [exBig [0, 0, 0] 1] 7) 0 [1, 0, 0, 0, 0] 5) fun h =>
      obind (h.get 0) fun x =>
      some (x.digits, x.num_used_digits, decide (canonical .generic64 x), val .generic64 x)) =
        some ([1, 0, 0], 2, false, 1) ∧
    (obind (ffbi_deserialize .gnu128 (exHeap [exBig [0, 0, 0] 1] 7) 0
        [1, 0, 0, 0, 0, 0, 0, 0, 0] 9) fun h =>
      obind (h.get 0) fun x =>
      some (x.digits, x.num_used_digits, decide (canonical .gnu128 x), val .gnu128 x)) =
        some ([1, 0, 0], 2, false, 1) ∧
    (obind (ffbi_deserialize .generic64 (exHeap [exBig [0, 0, 0] 1] 7) 0 [1, 0, 0, 0] 4) fun h =>
      obind (h.get 0) fun x =>
      some (x.digits, x.num_used_digits, decide (canonical .generic64 x), val .generic64 x)) =
        some ([1, 0, 0], 1, true, 1) := by
  decide

set_option maxRecDepth 100000 in
/-- C38 (the code departs from the claim): the loop of `ffrsa_unpad` looks for the separator
byte 1 only at the indices `64 <= i < L - 32` and keeps the last index where it finds the
value 1, while `ffrsa_pad` puts the separator at index `L - len(msg) - 1`.  For a message
shorter than 32 bytes the separator is outside the searched range: with `L = 66` and the
one-byte message `5`, `ffrsa_unpad` on the 66 bytes that `ffrsa_pad` produced returns the empty
vector (first and second part, for two digest functions and two random sequences).  For a
message of 35 bytes whose second byte is 1, with `L = 100`, the search finds that byte after
the separator and `ffrsa_unpad` returns the message without its first two bytes (third
part).  A message of 32 bytes without the value 1 comes back unchanged (fourth part). -/
theorem ffrsa_unpad_of_pad_loses_message :
    (obind (ffrsa_pad (fun x => x) (exHeapR [] [] 0 fun k => 37 * k + 11) exPublicKey [5] 1 66)
      fun r => obind (ffrsa_unpad (fun x => x) r.2.1 r.2.2 66) fun u =>
        some (r.2.2.length, u.2)) = some (66, []) ∧
    (obind (ffrsa_pad (fun _ => []) (exHeapR [] [] 0 fun _ => 0) exPublicKey [5] 1 66)
      fun r => obind (ffrsa_unpad (fun _ => []) r.2.1 r.2.2 66) fun u =>
        some (r.2.2.length, u.2)) = some (66, []) ∧
    (obind (ffrsa_pad (fun x => x) (exHeapR [] [] 0 fun k => 37 * k + 11) exPublicKey
        [2, 1, 3, 4, 5, 6, 7, 8, 9, 10, 11, 12, 13, 14, 15, 16, 17, 18, 19, 20, 21, 22, 23, 24,
          25, 26, 27, 28, 29, 30, 31, 32, 33, 34, 35] 35 100)
      fun r => obind (ffrsa_unpad (fun x => x) r.2.1 r.2.2 100) fun u =>
        some (r.2.2.length, u.2)) =
      some (100, [3, 4, 5, 6, 7, 8, 9, 10, 11, 12, 13, 14, 15, 16, 17, 18, 19, 20, 21, 22, 23,
        24, 25, 26, 27, 28, 29, 30, 31, 32, 33, 34, 35]) ∧
    (obind (ffrsa_pad (fun x => x) (exHeapR [] [] 0 fun k => 37 * k + 11) exPublicKey
        [2, 3, 4, 5, 6, 7, 8, 9, 10, 11, 12, 13, 14, 15, 16, 17, 18, 19, 20, 21, 22, 23, 24,
          25, 26, 27, 28, 29, 30, 31, 32, 33] 32 100)
      fun r => obind (ffrsa_unpad (fun x => x) r.2.1 r.2.2 100) fun u =>
        some (r.2.2.length, u.2)) =
      some (100, [2, 3, 4, 5, 6, 7, 8, 9, 10, 11, 12, 13, 14, 15, 16, 17, 18, 19, 20, 21, 22, 23,
        24, 25, 26, 27, 28, 29, 30, 31, 32, 33]) := by
  decide

/-! ## Deserialization of an arbitrary byte block -/

theorem total_bits_upper (bits : Nat) (ds : List Nat) (n : Nat) (hn1 : 1 ≤ n)
    (c3 : ∀ i, i < n → ds.getD i 0 < 2 ^ bits) :
    digitsVal bits ds n < 2 ^ ((n - 1) * bits + ffbi_significant_bits (ds.getD (n - 1) 0)) := by
  obtain ⟨s1, s2, s3⟩ := ffbi_significant_bits_spec (ds.getD (n - 1) 0)
  generalize ffbi_significant_bits (ds.getD (n - 1) 0) = sig at *
  have hn : n = (n - 1) + 1 := by omega
  have hlow := digitsVal_lt bits ds (n - 1) (fun i hi => c3 i (by omega))
  have hv : digitsVal bits ds n
      = digitsVal bits ds (n - 1) + ds.getD (n - 1) 0 * 2 ^ (bits * (n - 1)) := by
    conv_lhs => rw [hn]
    rfl
  have hcomm : (n - 1) * bits = bits * (n - 1) := Nat.mul_comm _ _
  rw [hv, Nat.pow_add, hcomm]
  have : (ds.getD (n - 1) 0 + 1) * 2 ^ (bits * (n - 1)) ≤ 2 ^ sig * 2 ^ (bits * (n - 1)) :=
    Nat.mul_le_mul_right _ s2
  rw [Nat.mul_comm (2 ^ (bits * (n - 1)))]
  have h2 : (ds.getD (n - 1) 0 + 1) * 2 ^ (bits * (n - 1))
      = ds.getD (n - 1) 0 * 2 ^ (bits * (n - 1)) + 2 ^ (bits * (n - 1)) := by ring
  omega

/-- Deserialization of any non-empty block of fewer than `2^29` bytes: the bigint receives the
value of the bytes, with every digit below `2 ^ D`; its length is the digit count of the bit
count `8 * (n - 1) + sigbits(last byte)`, whether or not the top digits are zero. -/
theorem deserialize_value_spec (P : Platform) {h : Heap} {p : Nat} {y : FFBI} (buffer : List Nat)
    (n : Nat) (hp : h.get p = some y) (hy : y.reallocation_allowed = true) (hys : validStorage y)
    (b1 : 1 ≤ n) (b2 : n ≤ buffer.length) (b3 : ∀ i, i < n → buffer.getD i 0 < 2 ^ 8)
    (hb32 : 8 * n < 2 ^ 32) :
    ∃ h' y', ffbi_deserialize P h p buffer n = some h' ∧ h'.get p = some y' ∧
      val P y' = digitsVal 8 buffer n ∧ 1 ≤ y'.num_used_digits ∧
      y'.num_used_digits ≤ y'.digits.length ∧
      (∀ i, i < y'.num_used_digits → y'.digits.getD i 0 < 2 ^ FFBI_BITS_PER_DIGIT P) ∧
      y'.num_used_digits =
        ((n - 1) * 8 + ffbi_significant_bits (buffer.getD (n - 1) 0)) / FFBI_BITS_PER_DIGIT P +
          (if ((n - 1) * 8 + ffbi_significant_bits (buffer.getD (n - 1) 0)) %
            FFBI_BITS_PER_DIGIT P > 0 then 1 else 0) ∧
      y'.cache_valid = false ∧ (∀ q, q ≠ p → h'.get q = h.get q) := by
  have t1 := total_bits_upper 8 buffer n b1 b3
  have t4 : 1 ≤ ffbi_significant_bits (buffer.getD (n - 1) 0) :=
    (ffbi_significant_bits_spec _).1
  have t3 : ffbi_significant_bits (buffer.getD (n - 1) 0) ≤ 8 :=
    ffbi_significant_bits_le _ 8 (by decide) (b3 (n - 1) (by omega))
  generalize hT : (n - 1) * 8 + ffbi_significant_bits (buffer.getD (n - 1) 0) = T at *
  generalize hV : digitsVal 8 buffer n = V at *
  have hD := bits_pos P
  have hDW := bits_lt_word P
  obtain ⟨ctx, hc, hn⟩ := base_convert_create_some (FFBI_BITS_PER_DIGIT P) 8 T hD (by decide)
  obtain ⟨k1, k2, k3⟩ := ceil_div_pos T (FFBI_BITS_PER_DIGIT P) (by omega) hD
  rw [← hn] at k1 k2 k3
  unfold ffbi_deserialize
  rw [if_neg (by omega), rd_of_lt (by omega), obind_some]
  dsimp only
  rw [hT, if_neg (by omega), hc, obind_some, hp, obind_some]
  have hre : ∃ h1 y1, (if ctx.dst_num_digits > y.num_allocated_digits then
        ffbi_reallocate_digits P h p ctx.dst_num_digits false else some h) = some h1 ∧
      h1.get p = some y1 ∧ ctx.dst_num_digits ≤ y1.digits.length ∧
      (∀ q, q ≠ p → h1.get q = h.get q) := by
    by_cases hgt : ctx.dst_num_digits > y.num_allocated_digits
    · rw [if_pos hgt]
      obtain ⟨h1, arr, e1, e2, e3, e4, _, _⟩ := realloc_discard_spec P ctx.dst_num_digits hp hy
        (by omega)
      exact ⟨h1, _, e1, e3, by dsimp only; rw [e2]; exact Nat.le_max_left _ _, e4⟩
    · rw [if_neg hgt]
      exact ⟨h, y, rfl, hp, by have := hys.1; omega, fun _ _ => rfl⟩
  obtain ⟨h1, y1, e1, e2, e3, e4⟩ := hre
  rw [e1, obind_some, modify_eq _ e2, obind_some, Heap.get_upd_same _ e2, obind_some]
  dsimp only
  obtain ⟨ds, f1, f2, f3⟩ := base_convert_exec_spec (FFBI_WORD_SIZE P) (FFBI_BITS_PER_DIGIT P) 8 T V
    y1.digits buffer ctx hc (Nat.le_of_lt hDW) t1
    (by
      intro j hj
      have hjn : j < n := by omega
      refine ⟨by omega, ?_⟩
      rw [← hV]
      exact (digitsVal_div 8 buffer n j hjn b3).symm)
    e3
  have hg3 : (h1.upd p { y1 with num_used_digits := ctx.dst_num_digits }).get p
      = some { y1 with num_used_digits := ctx.dst_num_digits } := Heap.get_upd_same _ e2
  rw [f1, obind_some, Heap.put_of_get _ hg3]
  refine ⟨_, _, rfl, Heap.get_upd_same _ hg3, ?_, k1, ?_, ?_, hn, rfl, ?_⟩
  · show digitsVal (FFBI_BITS_PER_DIGIT P) ds ctx.dst_num_digits = V
    rw [digitsVal_of_bits (FFBI_BITS_PER_DIGIT P) V ds ctx.dst_num_digits
      (fun i hi => by rw [f3 i, if_pos hi])]
    exact Nat.mod_eq_of_lt (Nat.lt_of_lt_of_le t1 (Nat.pow_le_pow_right (by decide) k2))
  · dsimp only
    omega
  · intro i hi
    dsimp only at hi ⊢
    rw [f3 i, if_pos hi]
    exact bitsOf_lt _ _ _
  · intro q hq
    rw [Heap.get_upd_ne _ _ hq, Heap.get_upd_ne _ _ hq]
    exact e4 q hq

/-! ## The usable size of a key -/

/-- The two size limits that `ffrsa_init` stores. -/
theorem ffrsa_init_sizes (P : Platform) (fuel : Nat) (h h' : Heap) (ret ret' : ffrsa_t)
    (bits ip pn T : Nat) (x : FFBI) (hn : ret.n = some pn) (hg : h.get pn = some x)
    (hT : ffbi_get_significant_bits P h pn = some T)
    (hr : ffrsa_init P fuel h ret bits ip = some (h', ret')) :
    ret'.rsa_usable_size = (T + (2 ^ 32 - 1)) % 2 ^ 32 / 8 ∧
      ret'.max_msg_size = (if 65 > ret'.rsa_usable_size then 0 else ret'.rsa_usable_size - 65) := by
  have hp := Heap.get_lt hg
  obtain ⟨o1, h1, e1, k1, _, _⟩ := create_reserved_bits_spec P h bits
  have t1b : ffbi_get_significant_bits P h1 pn = some T := by
    rw [significant_bits_of_get P h h1 pn pn (k1 pn hp), hT]
  unfold ffrsa_init at hr
  rw [e1, obind_some, hn, obind_some, t1b, obind_some] at hr
  obtain ⟨t2, _, hr⟩ := obind_eq_some.mp hr
  obtain ⟨t3, _, hr⟩ := obind_eq_some.mp hr
  dsimp only at hr
  by_cases hq : ip % 256 ≠ 0
  · rw [if_pos hq] at hr
    obtain ⟨m1, _, hr⟩ := obind_eq_some.mp hr
    obtain ⟨m2, _, hr⟩ := obind_eq_some.mp hr
    obtain ⟨hh, _, hr⟩ := obind_eq_some.mp hr
    obtain ⟨m1_inc, _, hr⟩ := obind_eq_some.mp hr
    obtain ⟨pinc, _, hr⟩ := obind_eq_some.mp hr
    obtain ⟨pq, _, hr⟩ := obind_eq_some.mp hr
    obtain ⟨pp, _, hr⟩ := obind_eq_some.mp hr
    obtain ⟨pm1, _, hr⟩ := obind_eq_some.mp hr
    obtain ⟨pm2, _, hr⟩ := obind_eq_some.mp hr
    obtain ⟨r, _, hr⟩ := obind_eq_some.mp hr
    obtain ⟨ha, _, hr⟩ := obind_eq_some.mp hr
    obtain ⟨hm, _, hr⟩ := obind_eq_some.mp hr
    have e := congrArg Prod.snd (Option.some.inj hr)
    dsimp only at e
    subst e
    exact ⟨rfl, rfl⟩
  · rw [if_neg hq] at hr
    have e := congrArg Prod.snd (Option.some.inj hr)
    dsimp only at e
    subst e
    exact ⟨rfl, rfl⟩

/-- C40 (counterexample to the claim as stated): for a modulus below 256 the usable size that
`ffrsa_init` stores is 0, and `ffbi_deserialize` applied to the block of 0 bytes does not
return a value (it reads `buffer[size_bytes - 1]` first; a fault in the model), shown for
`n = 7`; for `n = 0` the usable size is 0 as well, and the value 0 of the empty block is not
below the modulus. -/
theorem ffrsa_usable_size_zero_block :
    (obind (ffrsa_init .generic64 0 (exHeap [exBig [7, 0, 0] 1] 7)
        { ffrsa_zero with n := some 0 } 3 0) fun r =>
      some (r.2.rsa_usable_size, r.2.max_msg_size,
        (ffbi_deserialize .generic64 r.1 0 [] r.2.rsa_usable_size).isNone)) = some (0, 0, true) ∧
    (obind (ffrsa_init .generic64 0 (exHeap [exBig [0, 0, 0] 1] 7)
        { ffrsa_zero with n := some 0 } 3 0) fun r =>
      some (r.2.rsa_usable_size, r.2.max_msg_size,
        (ffbi_deserialize .generic64 r.1 0 [] r.2.rsa_usable_size).isNone)) = some (0, 0, true) ∧
    ¬ digitsVal 8 [] 0 < val .generic64 (exBig [0, 0, 0] 1) := by
  decide

/-- C40 (amended): for a canonical modulus `n` of `T` significant bits (`T` within a
`uint32_t`), `ffrsa_init` stores `rsa_usable_size = (T - 1) / 8` and `max_msg_size =
rsa_usable_size - 65` when `rsa_usable_size >= 65`, and 0 otherwise; and when
`rsa_usable_size >= 1`, `ffbi_deserialize` applied to any block of exactly `rsa_usable_size`
bytes returns a bigint whose value is the little-endian value of the block and is strictly
below `val(n)`. -/
theorem ffrsa_usable_block_below_modulus (P : Platform) (fuel : Nat) (h h' : Heap)
    (ret ret' : ffrsa_t) (bits ip pn T : Nat) (xn : FFBI)
    (hn : ret.n = some pn) (hg : h.get pn = some xn) (cn : canonical P xn)
    (hT : ffbi_get_significant_bits P h pn = some T) (hT32 : T < 2 ^ 32)
    (hr : ffrsa_init P fuel h ret bits ip = some (h', ret')) :
    ret'.rsa_usable_size = (T - 1) / 8 ∧
    ret'.max_msg_size = (if ret'.rsa_usable_size ≥ 65 then ret'.rsa_usable_size - 65 else 0) ∧
    ∀ (h2 : Heap) (p : Nat) (y : FFBI) (block : List Nat),
      h2.get p = some y → y.reallocation_allowed = true → validStorage y →
      block.length = ret'.rsa_usable_size → (∀ i, i < block.length → block.getD i 0 < 256) →
      1 ≤ ret'.rsa_usable_size →
      ∃ h3 y', ffbi_deserialize P h2 p block ret'.rsa_usable_size = some h3 ∧
        h3.get p = some y' ∧ val P y' = digitsVal 8 block block.length ∧
        val P y' < val P xn := by
  obtain ⟨T', e1, e2, e3, e4, e5, _⟩ := significant_bits_canonical P hg cn
    (by rw [← (get_significant_bits_some P hg cn hT).1]; exact hT32)
  rw [hT] at e1
  have hTT := Option.some.inj e1
  subst hTT
  obtain ⟨s1, s2⟩ := ffrsa_init_sizes P fuel h h' ret ret' bits ip pn T xn hn hg hT hr
  have hu : ret'.rsa_usable_size = (T - 1) / 8 := by
    rw [s1]
    have : (T + (2 ^ 32 - 1)) % 2 ^ 32 = T - 1 := by omega
    rw [this]
  refine ⟨hu, ?_, ?_⟩
  · rw [s2]
    by_cases h65 : 65 > ret'.rsa_usable_size
    · rw [if_pos h65, if_neg (by omega)]
    · rw [if_neg h65, if_pos (by omega)]
  · intro h2 p y block hp hy hys hl hb h1
    obtain ⟨h3, y', d1, d2, d3, _⟩ := deserialize_value_spec P block ret'.rsa_usable_size hp hy hys
      h1 (by omega) (fun i hi => hb i (by omega)) (by omega)
    rw [← hl] at d3
    refine ⟨h3, y', d1, d2, d3, ?_⟩
    rw [d3]
    have hlt := digitsVal_lt 8 block block.length hb
    have hne : val P xn ≠ 0 := by
      intro h0
      have := e5 h0
      omega
    have hge := e4 hne
    have hle : 2 ^ (8 * block.length) ≤ 2 ^ (T - 1) :=
      Nat.pow_le_pow_right (by decide) (by omega)
    omega

/-- Witness for C40: the modulus `123456789 + 77 * 2^29 + 5 * 2^58` has 61 significant bits
and the usable size 7. -/
theorem ffrsa_usable_block_below_modulus_witness :
    (canonical .generic64 (exBig [123456789, 77, 5] 3) ∧
      ffbi_get_significant_bits .generic64
        (exHeap [exBig [65537, 0, 0] 1, exBig [123456789, 77, 5] 3] 7) 1 = some 61 ∧
      ffrsa_init .generic64 0 (exHeap [exBig [65537, 0, 0] 1, exBig [123456789, 77, 5] 3] 7)
        { ffrsa_zero with e := some 0, n := some 1 } 61 0 =
        some ({ obj := [exBig [65537, 0, 0] 1, exBig [123456789, 77, 5] 3, exBig [0, 7, 7] 1,
                  exBig [0, 7, 7] 1, exBig [0, 7, 7] 1],
                scr := [{ val := [], child := none, num_children := 0 }],
                fresh := fun _ _ => 7, nalloc := 3, rand := fun _ => 0, nrand := 0 },
          { exPublicKey with
            temp := some 2, temp2 := some 3, temp3 := some 4, rsa_usable_size := 7 })) ∧
    ((7 : Nat) = (61 - 1) / 8 ∧
    (0 : Nat) = (if (7 : Nat) ≥ 65 then 7 - 65 else 0) ∧
    ∀ (h2 : Heap) (p : Nat) (y : FFBI) (block : List Nat),
      h2.get p = some y → y.reallocation_allowed = true → validStorage y →
      block.length = 7 → (∀ i, i < block.length → block.getD i 0 < 256) →
      1 ≤ 7 →
      ∃ h3 y', ffbi_deserialize .generic64 h2 p block 7 = some h3 ∧
        h3.get p = some y' ∧ val .generic64 y' = digitsVal 8 block block.length ∧
        val .generic64 y' < val .generic64 (exBig [123456789, 77, 5] 3)) :=
  ⟨⟨by decide, by decide, rfl⟩,
   ffrsa_usable_block_below_modulus .generic64 0
    (exHeap [exBig [65537, 0, 0] 1, exBig [123456789, 77, 5] 3] 7)
    { obj := [exBig [65537, 0, 0] 1, exBig [123456789, 77, 5] 3, exBig [0, 7, 7] 1,
        exBig [0, 7, 7] 1, exBig [0, 7, 7] 1],
      scr := [{ val := [], child := none, num_children := 0 }],
      fresh := fun _ _ => 7, nalloc := 3, rand := fun _ => 0, nrand := 0 }
    { ffrsa_zero with e := some 0, n := some 1 }
    { exPublicKey with
      temp := some 2, temp2 := some 3, temp3 := some 4, rsa_usable_size := 7 }
    61 0 1 61 (exBig [123456789, 77, 5] 3) rfl rfl (by decide) (by decide) (by decide) rfl⟩

/-! ## The estimate branch of the wide-digit quotient digit -/

/-- The branch `r > b` of `ffbi_get_quotient_digit_cache` up to the test of the new remainder:
the trial quotient `qh` is not below the true digit `R / Bv`; the correction loop leaves the
true digit in `q->cache[q_index]`; the subtraction leaves `R % Bv` in `product`; and the
comparison of `product` with `b` gives -1. -/
theorem qdc_greater_prefix_spec (P : Platform) (h : Heap) (k q rem b product scratch : Nat)
    (xq xr xb xp xs : FFBI) (cq cr cb cp : List Nat) (rn pn R Bv : Nat)
    (hgq : h.get q = some { xq with cache := some cq }) (hk : k < cq.length)
    (hgr : h.get rem = some { xr with cache := some cr, cache_num_used_digits := rn })
    (ccr : canonicalDigits (FFBI_CACHE_DIV_BITS_PER_DIGIT P) cr rn)
    (hR : digitsVal (FFBI_CACHE_DIV_BITS_PER_DIGIT P) cr rn = R)
    (hgb : h.get b = some xb) (hcb : xb.cache = some cb)
    (ccb : canonicalDigits (FFBI_CACHE_DIV_BITS_PER_DIGIT P) cb xb.cache_num_used_digits)
    (hBv : digitsVal (FFBI_CACHE_DIV_BITS_PER_DIGIT P) cb xb.cache_num_used_digits = Bv)
    (hgp : h.get product = some { xp with cache := some cp, cache_num_used_digits := pn })
    (hpcap : xb.cache_num_used_digits + 1 ≤ xp.cache_num_allocated_digits)
    (hpl : xp.cache_num_allocated_digits ≤ cp.length)
    (hpb : xp.cache_bits_per_digit = FFBI_CACHE_DIV_BITS_PER_DIGIT P)
    (hgs : h.get scratch = some xs)
    (hsv : ∀ c, xs.cache = some c → xs.cache_num_allocated_digits ≤ c.length)
    (hgt : Bv < R) (hlt : R < 2 ^ FFBI_CACHE_DIV_BITS_PER_DIGIT P * Bv)
    (hqr : q ≠ rem) (hqp : q ≠ product) (hqs : q ≠ scratch) (hrp : rem ≠ product)
    (hrs : rem ≠ scratch) (hps : product ≠ scratch)
    (hbq : b ≠ q) (hbp : b ≠ product) (hbs : b ≠ scratch) :
    ∃ qh h5 h6 cp6 pn6,
      qdc_estimate P h k q rem b xb.cache_num_used_digits
        = some (h.upd q { xq with cache := some (cq.set k qh) }) ∧
      R / Bv ≤ qh ∧ qh ≤ 2 ^ FFBI_CACHE_DIV_BITS_PER_DIGIT P ∧
      (obind (qdc_estimate P h k q rem b xb.cache_num_used_digits) fun h =>
        obind (modify h product (fun x => { x with cache_num_used_digits := 1 })) fun h =>
        obind (rdCache h q k) fun qd =>
        obind (wrCache h product 0 qd) fun h =>
        obind (ffbi_div_cache_mul P h scratch product b) fun h =>
        whileLoop (correct_cache_cond rem product scratch)
          (correct_cache_body P k q b product scratch) (qd + 2) h) = some h5 ∧
      h5.get q = some { xq with cache := some (cq.set k (R / Bv)) } ∧
      (obind (qdc_estimate P h k q rem b xb.cache_num_used_digits) fun h =>
        obind (modify h product (fun x => { x with cache_num_used_digits := 1 })) fun h =>
        obind (rdCache h q k) fun qd =>
        obind (wrCache h product 0 qd) fun h =>
        obind (ffbi_div_cache_mul P h scratch product b) fun h =>
        obind (whileLoop (correct_cache_cond rem product scratch)
          (correct_cache_body P k q b product scratch) (qd + 2) h) fun h =>
        obind (ffbi_sub_cache P h product rem scratch) fun h =>
        obind (ffbi_cmp_cache h product b) fun c => some (c, h)) = some (-1, h6) ∧
      h6.get q = some { xq with cache := some (cq.set k (R / Bv)) } ∧
      h6.get product = some { xp with cache := some cp6, cache_num_used_digits := pn6 } ∧
      canonicalDigits (FFBI_CACHE_DIV_BITS_PER_DIGIT P) cp6 pn6 ∧
      digitsVal (FFBI_CACHE_DIV_BITS_PER_DIGIT P) cp6 pn6 = R % Bv := by
  subst hR
  subst hBv
  generalize hRv : digitsVal (FFBI_CACHE_DIV_BITS_PER_DIGIT P) cr rn = R at *
  generalize hBvv : digitsVal (FFBI_CACHE_DIV_BITS_PER_DIGIT P) cb xb.cache_num_used_digits = Bv at *
  have hBpos : 0 < Bv := Nat.pos_of_ne_zero (fun h0 => by rw [h0, Nat.mul_zero] at hlt; omega)
  have hq1 : 1 ≤ R / Bv := Nat.div_pos (Nat.le_of_lt hgt) hBpos
  have hcpl : 0 < cp.length := Nat.lt_of_lt_of_le (Nat.succ_pos _) (Nat.le_trans hpcap hpl)
  have hrn : rn ≤ xb.cache_num_used_digits + 1 :=
    len_le_succ_of_lt _ cr cb rn _ ccr ccb (by rw [hRv, hBvv]; exact hlt)
  obtain ⟨qh, t1, t2, t3⟩ := qdc_estimate_spec P h k q rem b { xq with cache := some cq }
    { xr with cache := some cr, cache_num_used_digits := rn } xb cq cr cb hgq rfl hk hgr rfl ccr
    hgb hcb ccb (Ne.symm hqr) hbq (by rw [hBvv]; omega) (by rw [hBvv, hRv]; exact hgt)
    (by rw [hBvv, hRv]; exact hlt)
  rw [hRv, hBvv] at t2
  have hfs : ∀ z, z ≠ scratch → z ∉ [scratch] := fun z hz => by simpa using hz
  have k3q : ((h.upd q { xq with cache := some (cq.set k qh) }).upd product
      { xp with cache := some (cp.set 0 qh), cache_num_used_digits := 1 }).get q
      = some { xq with cache := some (cq.set k qh) } := by
    rw [Heap.get_upd_ne _ _ hqp]; exact Heap.get_upd_same _ hgq
  have k1p : (h.upd q { xq with cache := some (cq.set k qh) }).get product
      = some { xp with cache := some cp, cache_num_used_digits := pn } := by
    rw [Heap.get_upd_ne _ _ (Ne.symm hqp)]; exact hgp
  have k3p : ((h.upd q { xq with cache := some (cq.set k qh) }).upd product
      { xp with cache := some (cp.set 0 qh), cache_num_used_digits := 1 }).get product
      = some { xp with cache := some (cp.set 0 qh), cache_num_used_digits := 1 } :=
    Heap.get_upd_same _ k1p
  have k3o : ∀ z x, z ≠ q → z ≠ product → h.get z = some x →
      ((h.upd q { xq with cache := some (cq.set k qh) }).upd product
        { xp with cache := some (cp.set 0 qh), cache_num_used_digits := 1 }).get z = some x := by
    intro z x h1 h2 h3
    rw [Heap.get_upd_ne _ _ h2, Heap.get_upd_ne _ _ h1]; exact h3
  obtain ⟨h4, xs4, cs4, m1, m2, m3, m4, m5, m6, m7, m8, m9⟩ := div_cache_mul_spec P _ scratch
    product b xs { xp with cache := some (cp.set 0 qh), cache_num_used_digits := 1 } xb
    (cp.set 0 qh) cb qh (k3o _ _ (Ne.symm hqs) (Ne.symm hps) hgs) hsv k3p rfl rfl
    (getD_set_same _ hcpl) (by rw [List.length_set]; exact hcpl) (k3o _ _ hbq hbp hgb) hcb ccb
    (by rw [hBvv]; omega) hps hbs (by omega) t3
  rw [hBvv] at m5
  have k4q := Heap.frame_get m8 k3q (hfs q hqs)
  have k4p := Heap.frame_get m8 k3p (hfs product hps)
  have k4r := Heap.frame_get m8 (k3o _ _ (Ne.symm hqr) hrp hgr) (hfs rem hrs)
  have k4b := Heap.frame_get m8 (k3o _ _ hbq hbp hgb) (hfs b hbs)
  obtain ⟨h5, xs5, cs5, w1, w2, w3, w4, w5, w6, w7, w8, w9, w10, w11, w12⟩ :=
    correct_cache_loop_spec P h4 k q rem b product scratch { xq with cache := some (cq.set k qh) }
      { xr with cache := some cr, cache_num_used_digits := rn } xb
      { xp with cache := some (cp.set 0 qh), cache_num_used_digits := 1 } xs4
      (cq.set k qh) cr cb (cp.set 0 qh) cs4 qh R Bv k4q rfl (by rw [List.length_set]; exact hk)
      (getD_set_same _ hk) k4p rfl rfl (by rw [List.length_set]; exact hcpl) (getD_set_same _ hcpl)
      m2 m3 m4 m5 k4r rfl ccr hRv k4b hcb ccb hBvv hqp hqs hps (Ne.symm hqr) hrp hrs hbq hbp hbs
      (by omega) (Nat.le_of_lt hgt) t2 t3
  rw [List.set_set] at w2 w3
  have k5r := Heap.frame_get w10 k4r (not_mem_three (Ne.symm hqr) hrp hrs)
  have k5b := Heap.frame_get w10 k4b (not_mem_three hbq hbp hbs)
  have hqb : R / Bv * Bv ≤ R := Nat.div_mul_le_self _ _
  have hdm : R - R / Bv * Bv = R % Bv := by
    have := Nat.div_add_mod R Bv
    rw [Nat.mul_comm] at this
    omega
  obtain ⟨cp6, pn6, s1, s2, s3, s4, s5⟩ := ffbi_sub_cache_spec P h5 product rem scratch
    { xp with cache := some (cp.set 0 (R / Bv)), cache_num_used_digits := 1 }
    { xr with cache := some cr, cache_num_used_digits := rn } xs5 (cp.set 0 (R / Bv)) cr cs5
    w3 k5r w4 hrp (Ne.symm hps)
    ⟨rfl, by show rn ≤ xp.cache_num_allocated_digits; omega,
      by show xp.cache_num_allocated_digits ≤ (cp.set 0 (R / Bv)).length; rw [List.length_set]; exact hpl⟩
    hpb rfl ccr w5.1 w6 (by rw [w7, hRv]; exact hqb)
  rw [w7, hRv, hdm] at s5
  have hmod : R % Bv < Bv := Nat.mod_lt _ hBpos
  have k6q : (h5.upd product { xp with cache := some cp6, cache_num_used_digits := pn6 }).get q
      = some { xq with cache := some (cq.set k (R / Bv)) } := by
    rw [Heap.get_upd_ne _ _ hqp]; exact w2
  have k6p : (h5.upd product { xp with cache := some cp6, cache_num_used_digits := pn6 }).get product
      = some { xp with cache := some cp6, cache_num_used_digits := pn6 } := Heap.get_upd_same _ w3
  have k6b : (h5.upd product { xp with cache := some cp6, cache_num_used_digits := pn6 }).get b
      = some xb := by
    rw [Heap.get_upd_ne _ _ hbp]; exact k5b
  have hpre : (obind (qdc_estimate P h k q rem b xb.cache_num_used_digits) fun h =>
        obind (modify h product (fun x => { x with cache_num_used_digits := 1 })) fun h =>
        obind (rdCache h q k) fun qd =>
        obind (wrCache h product 0 qd) fun h =>
        obind (ffbi_div_cache_mul P h scratch product b) fun h =>
        whileLoop (correct_cache_cond rem product scratch)
          (correct_cache_body P k q b product scratch) (qd + 2) h) = some h5 := by
    rw [t1, obind_some, modify_eq _ k1p, obind_some,
      rdCache_eq (x := { xq with cache := some (cq.set k qh) })
        (by rw [Heap.get_upd_ne _ _ hqp]; exact Heap.get_upd_same _ hgq) rfl
        (by rw [List.length_set]; exact hk), obind_some, getD_set_same _ hk,
      wrCache_eq (x := { xp with cache := some cp, cache_num_used_digits := 1 }) _
        (Heap.get_upd_same _ k1p) rfl hcpl, obind_some, Heap.upd_upd, m1, obind_some, w1]
  refine ⟨qh, h5, _, cp6, pn6, t1, t2, t3, hpre, w2, ?_, k6q, k6p, s3, s5⟩
  rw [t1, obind_some, modify_eq _ k1p, obind_some,
    rdCache_eq (x := { xq with cache := some (cq.set k qh) })
      (by rw [Heap.get_upd_ne _ _ hqp]; exact Heap.get_upd_same _ hgq) rfl
      (by rw [List.length_set]; exact hk), obind_some, getD_set_same _ hk,
    wrCache_eq (x := { xp with cache := some cp, cache_num_used_digits := 1 }) _
      (Heap.get_upd_same _ k1p) rfl hcpl, obind_some, Heap.upd_upd, m1, obind_some, w1, obind_some,
    s1, obind_some, ffbi_cmp_cache_spec (FFBI_CACHE_DIV_BITS_PER_DIGIT P) k6p k6b rfl hcb s3 ccb,
    obind_some, s5, hBvv, cmpVal_lt hmod]

/-- C34: in `ffbi_get_quotient_digit_cache`, when the running remainder (value `R`) and the
divisor (value `Bv`) are canonical in the cache width with `Bv < R < Bv * 2^W_D`, the trial
quotient that the estimate stores in `q->cache[q_index]` is not below the true quotient digit
`R / Bv`, and the correction loop, started from it, ends with the true digit in
`q->cache[q_index]`. -/
theorem ffbi_get_quotient_digit_cache_trial_not_below (P : Platform) (h : Heap)
    (k q rem b product scratch : Nat) (xq xr xb xp xs : FFBI) (cq cr cb cp : List Nat)
    (rn pn R Bv : Nat)
    (hgq : h.get q = some { xq with cache := some cq }) (hk : k < cq.length)
    (hgr : h.get rem = some { xr with cache := some cr, cache_num_used_digits := rn })
    (ccr : canonicalDigits (FFBI_CACHE_DIV_BITS_PER_DIGIT P) cr rn)
    (hR : digitsVal (FFBI_CACHE_DIV_BITS_PER_DIGIT P) cr rn = R)
    (hgb : h.get b = some xb) (hcb : xb.cache = some cb)
    (ccb : canonicalDigits (FFBI_CACHE_DIV_BITS_PER_DIGIT P) cb xb.cache_num_used_digits)
    (hBv : digitsVal (FFBI_CACHE_DIV_BITS_PER_DIGIT P) cb xb.cache_num_used_digits = Bv)
    (hgp : h.get product = some { xp with cache := some cp, cache_num_used_digits := pn })
    (hpcap : xb.cache_num_used_digits + 1 ≤ xp.cache_num_allocated_digits)
    (hpl : xp.cache_num_allocated_digits ≤ cp.length)
    (hpb : xp.cache_bits_per_digit = FFBI_CACHE_DIV_BITS_PER_DIGIT P)
    (hgs : h.get scratch = some xs)
    (hsv : ∀ c, xs.cache = some c → xs.cache_num_allocated_digits ≤ c.length)
    (hgt : Bv < R) (hlt : R < 2 ^ FFBI_CACHE_DIV_BITS_PER_DIGIT P * Bv)
    (hqr : q ≠ rem) (hqp : q ≠ product) (hqs : q ≠ scratch) (hrp : rem ≠ product)
    (hrs : rem ≠ scratch) (hps : product ≠ scratch)
    (hbq : b ≠ q) (hbp : b ≠ product) (hbs : b ≠ scratch) :
    ∃ qh h1 h5,
      qdc_estimate P h k q rem b xb.cache_num_used_digits = some h1 ∧
      rdCache h1 q k = some qh ∧ R / Bv ≤ qh ∧
      (obind (qdc_estimate P h k q rem b xb.cache_num_used_digits) fun h =>
        obind (modify h product (fun x => { x with cache_num_used_digits := 1 })) fun h =>
        obind (rdCache h q k) fun qd =>
        obind (wrCache h product 0 qd) fun h =>
        obind (ffbi_div_cache_mul P h scratch product b) fun h =>
        whileLoop (correct_cache_cond rem product scratch)
          (correct_cache_body P k q b product scratch) (qd + 2) h) = some h5 ∧
      rdCache h5 q k = some (R / Bv) := by
  obtain ⟨qh, h5, h6, cp6, pn6, t1, t2, t3, hpre, w2, _⟩ := qdc_greater_prefix_spec P h k q rem b
    product scratch xq xr xb xp xs cq cr cb cp rn pn R Bv hgq hk hgr ccr hR hgb hcb ccb hBv hgp
    hpcap hpl hpb hgs hsv hgt hlt hqr hqp hqs hrp hrs hps hbq hbp hbs
  refine ⟨qh, _, h5, t1, ?_, t2, hpre, ?_⟩
  · rw [rdCache_eq (x := { xq with cache := some (cq.set k qh) }) (Heap.get_upd_same _ hgq) rfl
      (by rw [List.length_set]; exact hk), getD_set_same _ hk]
  · rw [rdCache_eq (x := { xq with cache := some (cq.set k (R / Bv)) }) w2 rfl
      (by rw [List.length_set]; exact hk), getD_set_same _ hk]

/-- Witness for C34: remainder `5 + 7 * 2^16`, divisor `3 + 2 * 2^16`, 16-bit cache digits. -/
theorem ffbi_get_quotient_digit_cache_trial_not_below_witness :
    (canonicalDigits (FFBI_CACHE_DIV_BITS_PER_DIGIT .generic64) [5, 7, 0] 2 ∧
      canonicalDigits (FFBI_CACHE_DIV_BITS_PER_DIGIT .generic64) [3, 2] 2 ∧
      131075 < 458757 ∧ 458757 < 2 ^ FFBI_CACHE_DIV_BITS_PER_DIGIT .generic64 * 131075) ∧
    ∃ qh h1 h5,
      qdc_estimate .generic64 exQuotientHeap 0 0 1 2 2 = some h1 ∧
      rdCache h1 0 0 = some qh ∧ 458757 / 131075 ≤ qh ∧
      (obind (qdc_estimate .generic64 exQuotientHeap 0 0 1 2 2) fun h =>
        obind (modify h 3 (fun x => { x with cache_num_used_digits := 1 })) fun h =>
        obind (rdCache h 0 0) fun qd =>
        obind (wrCache h 3 0 qd) fun h =>
        obind (ffbi_div_cache_mul .generic64 h 4 3 2) fun h =>
        whileLoop (correct_cache_cond 1 3 4)
          (correct_cache_body .generic64 0 0 2 3 4) (qd + 2) h) = some h5 ∧
      rdCache h5 0 0 = some (458757 / 131075) :=
  ⟨⟨by decide, by decide, by decide, by decide⟩,
   ffbi_get_quotient_digit_cache_trial_not_below .generic64 exQuotientHeap 0 0 1 2 3 4
    (exCached [0, 0, 0] 1 [0, 0, 0] 1 16) (exCached [0, 0, 0] 1 [5, 7, 0] 2 16)
    (exCached [0, 0, 0] 1 [3, 2] 2 16) (exCached [0, 0, 0] 1 [0, 0, 0, 0] 1 16)
    (exCached [0, 0, 0] 1 [0, 0, 0, 0] 1 16) [0, 0, 0] [5, 7, 0] [3, 2] [0, 0, 0, 0] 2 1
    458757 131075 rfl (by decide) rfl (by decide) (by decide) rfl rfl (by decide) (by decide)
    rfl (by decide) (by decide) rfl rfl
    (fun c hc => by cases hc; decide) (by decide) (by decide) (by decide) (by decide)
    (by decide) (by decide) (by decide) (by decide) (by decide) (by decide) (by decide)⟩

/-- C33: in the estimate branch of `ffbi_get_quotient_digit_cache` (running remainder of value
`R`, divisor of value `Bv`, both canonical in the cache width, `Bv < R < Bv * 2^W_D`), after
the correction loop and the subtraction the stored quotient digit `qd` satisfies
`qd < 2^W_D` and `Bv * qd <= R`, the new partial remainder held in `product` is
`R - Bv * qd`, which is below `Bv`, and the comparison of `product` with `b` that guards the
message `r greater than b` returns -1. -/
theorem ffbi_get_quotient_digit_cache_postcondition (P : Platform) (h : Heap)
    (k q rem b product scratch : Nat) (xq xr xb xp xs : FFBI) (cq cr cb cp : List Nat)
    (rn pn R Bv : Nat)
    (hgq : h.get q = some { xq with cache := some cq }) (hk : k < cq.length)
    (hgr : h.get rem = some { xr with cache := some cr, cache_num_used_digits := rn })
    (ccr : canonicalDigits (FFBI_CACHE_DIV_BITS_PER_DIGIT P) cr rn)
    (hR : digitsVal (FFBI_CACHE_DIV_BITS_PER_DIGIT P) cr rn = R)
    (hgb : h.get b = some xb) (hcb : xb.cache = some cb)
    (ccb : canonicalDigits (FFBI_CACHE_DIV_BITS_PER_DIGIT P) cb xb.cache_num_used_digits)
    (hBv : digitsVal (FFBI_CACHE_DIV_BITS_PER_DIGIT P) cb xb.cache_num_used_digits = Bv)
    (hgp : h.get product = some { xp with cache := some cp, cache_num_used_digits := pn })
    (hpcap : xb.cache_num_used_digits + 1 ≤ xp.cache_num_allocated_digits)
    (hpl : xp.cache_num_allocated_digits ≤ cp.length)
    (hpb : xp.cache_bits_per_digit = FFBI_CACHE_DIV_BITS_PER_DIGIT P)
    (hgs : h.get scratch = some xs)
    (hsv : ∀ c, xs.cache = some c → xs.cache_num_allocated_digits ≤ c.length)
    (hgt : Bv < R) (hlt : R < 2 ^ FFBI_CACHE_DIV_BITS_PER_DIGIT P * Bv)
    (hqr : q ≠ rem) (hqp : q ≠ product) (hqs : q ≠ scratch) (hrp : rem ≠ product)
    (hrs : rem ≠ scratch) (hps : product ≠ scratch)
    (hbq : b ≠ q) (hbp : b ≠ product) (hbs : b ≠ scratch) :
    ∃ qd h6 xp6 cp6,
      (obind (qdc_estimate P h k q rem b xb.cache_num_used_digits) fun h =>
        obind (modify h product (fun x => { x with cache_num_used_digits := 1 })) fun h =>
        obind (rdCache h q k) fun qd =>
        obind (wrCache h product 0 qd) fun h =>
        obind (ffbi_div_cache_mul P h scratch product b) fun h =>
        obind (whileLoop (correct_cache_cond rem product scratch)
          (correct_cache_body P k q b product scratch) (qd + 2) h) fun h =>
        obind (ffbi_sub_cache P h product rem scratch) fun h =>
        obind (ffbi_cmp_cache h product b) fun c => some (c, h)) = some (-1, h6) ∧
      rdCache h6 q k = some qd ∧ qd < 2 ^ FFBI_CACHE_DIV_BITS_PER_DIGIT P ∧ Bv * qd ≤ R ∧
      R - Bv * qd < Bv ∧
      h6.get product = some xp6 ∧ xp6.cache = some cp6 ∧
      canonicalDigits (FFBI_CACHE_DIV_BITS_PER_DIGIT P) cp6 xp6.cache_num_used_digits ∧
      digitsVal (FFBI_CACHE_DIV_BITS_PER_DIGIT P) cp6 xp6.cache_num_used_digits = R - Bv * qd := by
  obtain ⟨qh, h5, h6, cp6, pn6, _, _, _, _, _, hrun, k6q, k6p, s3, s5⟩ :=
    qdc_greater_prefix_spec P h k q rem b product scratch xq xr xb xp xs cq cr cb cp rn pn R Bv
      hgq hk hgr ccr hR hgb hcb ccb hBv hgp hpcap hpl hpb hgs hsv hgt hlt hqr hqp hqs hrp hrs hps
      hbq hbp hbs
  have hBpos : 0 < Bv :=
    Nat.pos_of_ne_zero (fun h0 => by rw [h0, Nat.mul_zero] at hlt; omega)
  have hmul : Bv * (R / Bv) ≤ R := Nat.mul_div_le R Bv
  have hdm : R - Bv * (R / Bv) = R % Bv := by
    have := Nat.div_add_mod R Bv
    omega
  refine ⟨R / Bv, h6, _, cp6, hrun, ?_, ?_, hmul, ?_, k6p, rfl, s3, ?_⟩
  · rw [rdCache_eq (x := { xq with cache := some (cq.set k (R / Bv)) }) k6q rfl
      (by rw [List.length_set]; exact hk), getD_set_same _ hk]
  · rw [Nat.div_lt_iff_lt_mul hBpos]
    exact hlt
  · rw [hdm]
    exact Nat.mod_lt _ hBpos
  · rw [hdm]
    exact s5

/-- Witness for C33: remainder `5 + 7 * 2^16`, divisor `3 + 2 * 2^16`, 16-bit cache digits. -/
theorem ffbi_get_quotient_digit_cache_postcondition_witness :
    (canonicalDigits (FFBI_CACHE_DIV_BITS_PER_DIGIT .generic64) [5, 7, 0] 2 ∧
      canonicalDigits (FFBI_CACHE_DIV_BITS_PER_DIGIT .generic64) [3, 2] 2 ∧
      131075 < 458757 ∧ 458757 < 2 ^ FFBI_CACHE_DIV_BITS_PER_DIGIT .generic64 * 131075) ∧
    ∃ qd h6 xp6 cp6,
      (obind (qdc_estimate .generic64 exQuotientHeap 0 0 1 2 2) fun h =>
        obind (modify h 3 (fun x => { x with cache_num_used_digits := 1 })) fun h =>
        obind (rdCache h 0 0) fun qd =>
        obind (wrCache h 3 0 qd) fun h =>
        obind (ffbi_div_cache_mul .generic64 h 4 3 2) fun h =>
        obind (whileLoop (correct_cache_cond 1 3 4)
          (correct_cache_body .generic64 0 0 2 3 4) (qd + 2) h) fun h =>
        obind (ffbi_sub_cache .generic64 h 3 1 4) fun h =>
        obind (ffbi_cmp_cache h 3 2) fun c => some (c, h)) = some (-1, h6) ∧
      rdCache h6 0 0 = some qd ∧ qd < 2 ^ FFBI_CACHE_DIV_BITS_PER_DIGIT .generic64 ∧
      131075 * qd ≤ 458757 ∧ 458757 - 131075 * qd < 131075 ∧
      h6.get 3 = some xp6 ∧ xp6.cache = some cp6 ∧
      canonicalDigits (FFBI_CACHE_DIV_BITS_PER_DIGIT .generic64) cp6 xp6.cache_num_used_digits ∧
      digitsVal (FFBI_CACHE_DIV_BITS_PER_DIGIT .generic64) cp6 xp6.cache_num_used_digits =
        458757 - 131075 * qd :=
  ⟨⟨by decide, by decide, by decide, by decide⟩,
   ffbi_get_quotient_digit_cache_postcondition .generic64 exQuotientHeap 0 0 1 2 3 4
    (exCached [0, 0, 0] 1 [0, 0, 0] 1 16) (exCached [0, 0, 0] 1 [5, 7, 0] 2 16)
    (exCached [0, 0, 0] 1 [3, 2] 2 16) (exCached [0, 0, 0] 1 [0, 0, 0, 0] 1 16)
    (exCached [0, 0, 0] 1 [0, 0, 0, 0] 1 16) [0, 0, 0] [5, 7, 0] [3, 2] [0, 0, 0, 0] 2 1
    458757 131075 rfl (by decide) rfl (by decide) (by decide) rfl rfl (by decide) (by decide)
    rfl (by decide) (by decide) rfl rfl
    (fun c hc => by cases hc; decide) (by decide) (by decide) (by decide) (by decide)
    (by decide) (by decide) (by decide) (by decide) (by decide) (by decide) (by decide)⟩

/-! ## The packed trial dividend and divisor -/

theorem digitsFrom_one (bits : Nat) (ds : List Nat) (m : Nat) :
    digitsFrom bits ds m 1 = ds.getD m 0 := by
  show 0 + ds.getD (m + 0) 0 * 2 ^ (bits * 0) = _
  rw [Nat.mul_zero, Nat.pow_zero, Nat.mul_one, Nat.zero_add, Nat.add_zero]

theorem digitsFrom_two (bits : Nat) (ds : List Nat) (m : Nat) :
    digitsFrom bits ds m 2 = ds.getD m 0 + ds.getD (m + 1) 0 * 2 ^ bits := by
  show digitsFrom bits ds m 1 + ds.getD (m + 1) 0 * 2 ^ (bits * 1) = _
  rw [digitsFrom_one, Nat.mul_one]

theorem rdDigitI_eq {h : Heap} {p : Nat} {x : FFBI} (hg : h.get p = some x) (i : Int) (j : Nat)
    (hi : i = j) (hj : j < x.digits.length) : rdDigitI h p i = some (x.digits.getD j 0) := by
  unfold rdDigitI
  rw [if_neg (by omega)]
  have : i.toNat = j := by omega
  rw [this]
  exact rdDigit_eq hg hj

/-- The trial dividend is the integer formed by the top `min rn 4` digits of the remainder,
and the trial divisor the integer formed by the matching top digits of the divisor, when that
many digits fit in the word. -/
theorem trial_exact (w s : Nat) (rdR rdB : Int → Option Nat) (cr cb : List Nat) (rn bl : Nat)
    (hw : min rn 4 * s ≤ w)
    (hR : ∀ (i : Int) (j : Nat), i = j → j < rn → rdR i = some (cr.getD j 0))
    (hB : ∀ (i : Int) (j : Nat), i = j → j < bl → rdB i = some (cb.getD j 0))
    (r3 : ∀ i, i < rn → cr.getD i 0 < 2 ^ s) (b3 : ∀ i, i < bl → cb.getD i 0 < 2 ^ s)
    (hrn : 2 ≤ rn) (hlen : rn = bl ∨ rn = bl + 1) :
    trial_dividend rdR w s rn = some (digitsFrom s cr (rn - min rn 4) (min rn 4)) ∧
    trial_divisor rdB w s rn bl =
      some (digitsFrom s cb (rn - min rn 4) (min rn 4 - (rn - bl))) := by
  unfold trial_dividend trial_divisor
  by_cases h2 : rn = 2
  · subst h2
    have hm : min 2 4 = 2 := by decide
    rw [hm] at hw ⊢
    rw [if_pos rfl, if_pos rfl, hR 1 1 rfl (by omega), obind_some, hR 0 0 rfl (by omega),
      obind_some, pack2_eq (by omega) (r3 1 (by omega)) (r3 0 (by omega))]
    refine ⟨by rw [digitsFrom_two], ?_⟩
    by_cases hb2 : bl = 2
    · subst hb2
      rw [if_pos rfl, hB 1 1 rfl (by omega), obind_some, hB 0 0 rfl (by omega), obind_some,
        pack2_eq (by omega) (b3 1 (by omega)) (b3 0 (by omega))]
      show _ = some (digitsFrom s cb 0 2)
      rw [digitsFrom_two]
    · have hb1 : bl = 1 := by omega
      subst hb1
      rw [if_neg (by omega), hB 0 0 rfl (by omega)]
      show _ = some (digitsFrom s cb 0 1)
      rw [digitsFrom_one]
  · rw [if_neg h2, if_neg h2]
    by_cases h3 : rn = 3
    · subst h3
      have hm : min 3 4 = 3 := by decide
      rw [hm] at hw ⊢
      rw [if_pos rfl, if_pos rfl]
      unfold top3
      rw [hR _ 2 (by omega) (by omega), obind_some, hR _ 1 (by omega) (by omega), obind_some,
        hR _ 0 (by omega) (by omega), obind_some,
        pack3_eq (by omega) (r3 2 (by omega)) (r3 1 (by omega)) (r3 0 (by omega))]
      refine ⟨by rw [digitsFrom_three], ?_⟩
      by_cases hb3 : 3 > bl
      · have hb2 : bl = 2 := by omega
        subst hb2
        rw [if_pos (by omega)]
        unfold top2
        rw [hB _ 1 (by omega) (by omega), obind_some, hB _ 0 (by omega) (by omega), obind_some,
          pack2_eq (by omega) (b3 1 (by omega)) (b3 0 (by omega))]
        show _ = some (digitsFrom s cb 0 2)
        rw [digitsFrom_two]
      · have hb3b : bl = 3 := by omega
        subst hb3b
        rw [if_neg (by omega)]
        rw [hB _ 2 (by omega) (by omega), obind_some, hB _ 1 (by omega) (by omega), obind_some,
          hB _ 0 (by omega) (by omega), obind_some,
          pack3_eq (by omega) (b3 2 (by omega)) (b3 1 (by omega)) (b3 0 (by omega))]
        show _ = some (digitsFrom s cb 0 3)
        rw [digitsFrom_three]
    · rw [if_neg h3, if_neg h3]
      obtain ⟨m, hm⟩ : ∃ m, rn = m + 4 := ⟨rn - 4, by omega⟩
      subst hm
      have hmin : min (m + 4) 4 = 4 := by omega
      rw [hmin] at hw ⊢
      have hsub : m + 4 - 4 = m := by omega
      rw [hsub]
      unfold top4
      rw [hR _ (m + 3) (by omega) (by omega), obind_some, hR _ (m + 2) (by omega) (by omega),
        obind_some, hR _ (m + 1) (by omega) (by omega), obind_some,
        hR _ m (by omega) (by omega), obind_some,
        pack4_eq hw (r3 _ (by omega)) (r3 _ (by omega)) (r3 _ (by omega)) (r3 _ (by omega))]
      refine ⟨by rw [digitsFrom_four], ?_⟩
      by_cases hgt : m + 4 > bl
      · have hbl : bl = m + 3 := by omega
        subst hbl
        rw [if_pos hgt]
        unfold top3
        rw [hB _ (m + 2) (by omega) (by omega), obind_some, hB _ (m + 1) (by omega) (by omega),
          obind_some, hB _ m (by omega) (by omega), obind_some,
          pack3_eq (by omega) (b3 _ (by omega)) (b3 _ (by omega)) (b3 _ (by omega))]
        have : 4 - (m + 4 - (m + 3)) = 3 := by omega
        rw [this, digitsFrom_three]
      · have hbl : bl = m + 4 := by omega
        subst hbl
        rw [if_neg hgt]
        rw [hB _ (m + 3) (by omega) (by omega), obind_some, hB _ (m + 2) (by omega) (by omega),
          obind_some, hB _ (m + 1) (by omega) (by omega), obind_some,
          hB _ m (by omega) (by omega), obind_some,
          pack4_eq hw (b3 _ (by omega)) (b3 _ (by omega)) (b3 _ (by omega)) (b3 _ (by omega))]
        have : 4 - (m + 4 - (m + 4)) = 4 := by omega
        rw [this, digitsFrom_four]

theorem two_bits_le_word (P : Platform) : 2 * FFBI_BITS_PER_DIGIT P ≤ FFBI_WORD_SIZE P := by
  cases P <;> decide

/-- C32 (the code departs from the claim): in the canonical-digit routine
`ffbi_get_quotient_digit` three digits do not fit in the word (`3 * 29 > 64`,
`3 * 61 > 128`).  For the remainder digits `123, 456, 2^28 + 7` (29-bit digits) the packed trial
dividend is `7 * 2^58 + 456 * 2^29 + 123`: the bit 28 of the top digit is shifted out, and the
word differs from the integer formed by the three digits (first part); likewise for the digits
`123, 456, 2^60 + 7` with 61-bit digits (second part).  For the remainder `128 * 2^58` and the
divisor `3 + 2^58` the packed dividend is 0, the routine stores the quotient digit 0 where the
true digit is 127, and leaves the remainder as it was (third part). -/
theorem ffbi_get_quotient_digit_packing_overflow :
    (trial_dividend (rdDigitI (exHeap [exBig [0, 0, 0, 0] 1, exBig [123, 456, 268435463, 0] 3] 0) 1)
        (FFBI_WORD_SIZE .generic64) (FFBI_BITS_PER_DIGIT .generic64) 3 =
        some 2017612877875118203 ∧
      digitsFrom (FFBI_BITS_PER_DIGIT .generic64) [123, 456, 268435463, 0] 0 3 =
        77371254472949145056313467) ∧
    (trial_dividend
        (rdDigitI (exHeap [exBig [0, 0, 0, 0] 1, exBig [123, 456, 1152921504606846983, 0] 3] 0) 1)
        (FFBI_WORD_SIZE .gnu128) (FFBI_BITS_PER_DIGIT .gnu128) 3 =
        some 37218383881977645492771009889294090363 ∧
      digitsFrom (FFBI_BITS_PER_DIGIT .gnu128) [123, 456, 1152921504606846983, 0] 0 3 =
        6129982163463555470651771990578882227245966378028499067) ∧
    (trial_dividend
        (rdDigitI (exHeap [exBig [0, 0, 0, 0] 1, exBig [0, 0, 128, 0] 3, exBig [0, 0, 128, 0] 3,
          exBig [3, 0, 1] 3, exBig [0, 0, 0, 0, 0, 0, 0, 0] 1,
          exBig [0, 0, 0, 0, 0, 0, 0, 0] 1] 0) 1)
        (FFBI_WORD_SIZE .generic64) (FFBI_BITS_PER_DIGIT .generic64) 3 = some 0 ∧
      (obind (ffbi_get_quotient_digit .generic64
          (exHeap [exBig [0, 0, 0, 0] 1, exBig [0, 0, 128, 0] 3, exBig [0, 0, 128, 0] 3,
            exBig [3, 0, 1] 3, exBig [0, 0, 0, 0, 0, 0, 0, 0] 1,
            exBig [0, 0, 0, 0, 0, 0, 0, 0] 1] 0) 0 0 1 2 3 3 4 0 5) fun h =>
        obind (rdDigit h 0 0) fun qd =>
        obind (h.get 1) fun xr => some (qd, xr.digits, xr.num_used_digits)) =
        some (0, [0, 0, 128, 0], 3) ∧
      digitsVal 29 [0, 0, 128, 0] 3 / digitsVal 29 [3, 0, 1] 3 = 127) := by
  decide

/-- Where the packing is exact: in the wide-digit routine `ffbi_get_quotient_digit_cache`, for every running
remainder of 2, 3 or at least 4 cache digits, the packed trial dividend is the integer formed by
its top `min(r_len, 4)` digits and the packed trial divisor the integer formed by the matching
top digits of the divisor; in the canonical-digit routine `ffbi_get_quotient_digit` the same
holds for a running remainder of 2 digits, where the packed words are the values of the
remainder and of the divisor. -/
theorem ffbi_quotient_digit_trial_values_exact (P : Platform) (h : Heap) (rem b : Nat)
    (xr xb : FFBI) (hgr : h.get rem = some xr) (hgb : h.get b = some xb) :
    (∀ cr cb, xr.cache = some cr → xb.cache = some cb →
      canonicalDigits (FFBI_CACHE_DIV_BITS_PER_DIGIT P) cr xr.cache_num_used_digits →
      canonicalDigits (FFBI_CACHE_DIV_BITS_PER_DIGIT P) cb xb.cache_num_used_digits →
      2 ≤ xr.cache_num_used_digits →
      (xr.cache_num_used_digits = xb.cache_num_used_digits ∨
        xr.cache_num_used_digits = xb.cache_num_used_digits + 1) →
      trial_dividend (rdCacheI h rem) (FFBI_CACHE_WORD_SIZE P) (FFBI_CACHE_DIV_BITS_PER_DIGIT P)
          xr.cache_num_used_digits =
        some (digitsFrom (FFBI_CACHE_DIV_BITS_PER_DIGIT P) cr
          (xr.cache_num_used_digits - min xr.cache_num_used_digits 4)
          (min xr.cache_num_used_digits 4)) ∧
      trial_divisor (rdCacheI h b) (FFBI_CACHE_WORD_SIZE P) (FFBI_CACHE_DIV_BITS_PER_DIGIT P)
          xr.cache_num_used_digits xb.cache_num_used_digits =
        some (digitsFrom (FFBI_CACHE_DIV_BITS_PER_DIGIT P) cb
          (xr.cache_num_used_digits - min xr.cache_num_used_digits 4)
          (min xr.cache_num_used_digits 4 -
            (xr.cache_num_used_digits - xb.cache_num_used_digits)))) ∧
    (canonical P xr → canonical P xb → xr.num_used_digits = 2 →
      (xb.num_used_digits = 2 ∨ xb.num_used_digits = 1) →
      trial_dividend (rdDigitI h rem) (FFBI_WORD_SIZE P) (FFBI_BITS_PER_DIGIT P)
          xr.num_used_digits = some (val P xr) ∧
      trial_divisor (rdDigitI h b) (FFBI_WORD_SIZE P) (FFBI_BITS_PER_DIGIT P)
          xr.num_used_digits xb.num_used_digits = some (val P xb)) := by
  constructor
  · intro cr cb hcr hcb ccr ccb h2 hlen
    have hw : min xr.cache_num_used_digits 4 * FFBI_CACHE_DIV_BITS_PER_DIGIT P
        ≤ FFBI_CACHE_WORD_SIZE P := by
      have := cache_bits_word P
      have hm : min xr.cache_num_used_digits 4 ≤ 4 := Nat.min_le_right _ _
      have := Nat.mul_le_mul_right (FFBI_CACHE_DIV_BITS_PER_DIGIT P) hm
      omega
    exact trial_exact _ _ _ _ cr cb _ _ hw
      (fun i j hi hj => rdCacheI_eq hgr hcr i j hi (by have := ccr.2.1; omega))
      (fun i j hi hj => rdCacheI_eq hgb hcb i j hi (by have := ccb.2.1; omega))
      ccr.2.2.1 ccb.2.2.1 h2 hlen
  · intro cr cb h2 hb
    have hw : min xr.num_used_digits 4 * FFBI_BITS_PER_DIGIT P ≤ FFBI_WORD_SIZE P := by
      rw [h2]
      have := two_bits_le_word P
      have hm : min 2 4 = 2 := by decide
      rw [hm]
      exact this
    have hlen : xr.num_used_digits = xb.num_used_digits ∨
        xr.num_used_digits = xb.num_used_digits + 1 := by
      rcases hb with hb | hb <;> omega
    obtain ⟨e1, e2⟩ := trial_exact (FFBI_WORD_SIZE P) (FFBI_BITS_PER_DIGIT P) (rdDigitI h rem)
      (rdDigitI h b) xr.digits xb.digits xr.num_used_digits xb.num_used_digits hw
      (fun i j hi hj => rdDigitI_eq hgr i j hi (by have := cr.2.1; omega))
      (fun i j hi hj => rdDigitI_eq hgb i j hi (by have := cb.2.1; omega))
      cr.2.2.1 cb.2.2.1 (by omega) hlen
    rw [e1, e2]
    have hm : min xr.num_used_digits 4 = 2 := by rw [h2]; decide
    rw [hm, h2]
    constructor
    · unfold val
      rw [h2, ← digitsFrom_eq_div _ _ 0 2 (fun i hi => absurd hi (Nat.not_lt_zero _))]
      simp
    · unfold val
      rcases hb with hb | hb
      · rw [hb, ← digitsFrom_eq_div _ _ 0 2 (fun i hi => absurd hi (Nat.not_lt_zero _))]
        simp
      · rw [hb, ← digitsFrom_eq_div _ _ 0 1 (fun i hi => absurd hi (Nat.not_lt_zero _))]
        simp

/-- Example: cache digits `5, 7` over `3, 2` (16 bits each), and the canonical digits
`5, 7` over `3, 2` (29 bits each). -/
theorem ffbi_quotient_digit_trial_values_exact_witness :
    (trial_dividend (rdCacheI exQuotientHeap 1) (FFBI_CACHE_WORD_SIZE .generic64)
        (FFBI_CACHE_DIV_BITS_PER_DIGIT .generic64) 2 =
        some (digitsFrom (FFBI_CACHE_DIV_BITS_PER_DIGIT .generic64) [5, 7, 0] (2 - min 2 4)
          (min 2 4)) ∧
      trial_divisor (rdCacheI exQuotientHeap 2) (FFBI_CACHE_WORD_SIZE .generic64)
        (FFBI_CACHE_DIV_BITS_PER_DIGIT .generic64) 2 2 =
        some (digitsFrom (FFBI_CACHE_DIV_BITS_PER_DIGIT .generic64) [3, 2] (2 - min 2 4)
          (min 2 4 - (2 - 2)))) ∧
    (trial_dividend (rdDigitI (exHeap [exBig [5, 7, 0] 2, exBig [3, 2, 0] 2] 0) 0)
        (FFBI_WORD_SIZE .generic64) (FFBI_BITS_PER_DIGIT .generic64) 2 =
        some (val .generic64 (exBig [5, 7, 0] 2)) ∧
      trial_divisor (rdDigitI (exHeap [exBig [5, 7, 0] 2, exBig [3, 2, 0] 2] 0) 1)
        (FFBI_WORD_SIZE .generic64) (FFBI_BITS_PER_DIGIT .generic64) 2 2 =
        some (val .generic64 (exBig [3, 2, 0] 2))) :=
  ⟨(ffbi_quotient_digit_trial_values_exact .generic64 exQuotientHeap 1 2
      (exCached [0, 0, 0] 1 [5, 7, 0] 2 16) (exCached [0, 0, 0] 1 [3, 2] 2 16) rfl rfl).1
      [5, 7, 0] [3, 2] rfl rfl (by decide) (by decide) (by decide) (by decide),
   (ffbi_quotient_digit_trial_values_exact .generic64
      (exHeap [exBig [5, 7, 0] 2, exBig [3, 2, 0] 2] 0) 0 1 (exBig [5, 7, 0] 2)
      (exBig [3, 2, 0] 2) rfl rfl).2 (by decide) (by decide) rfl (by decide)⟩

/-! # C31: a column of `ffbi_mul` wraps for operands of 65 digits -/

/-- The bound `2 ^ W` on a word is reached by 65 products of two maximal digits. -/
theorem sixty_five_products_overflow (P : Platform) :
    2 ^ FFBI_WORD_SIZE P ≤ 65 * (digit_max P * digit_max P) ∧
      65 * (digit_max P * digit_max P) < 2 * 2 ^ FFBI_WORD_SIZE P := by
  cases P <;> decide

/-- Claim C31 (code departs): in the schoolbook double loop of `ffbi_mul` for two operands of
65 digits that are all `2 ^ D - 1`, started on the zeroed product array, the column
`product->digits[64]` receives 65 partial products whose exact sum `65 * (2 ^ D - 1) ^ 2`
is at least `2 ^ W`; the loop ends with that sum minus `2 ^ W` in the column, so the
accumulator has wrapped around. -/
theorem ffbi_mul_column_accumulator_wraps (P : Platform) (h1 : Heap) (product a b : Nat)
    (xp1 : FFBI) (ds : List Nat)
    (hg : h1.get product = some xp1) (hpa : a ≠ product) (hpb : b ≠ product)
    (hA : ∀ j, j < 65 → rdDigit h1 a j = some (digit_max P))
    (hB : ∀ j, j < 65 → rdDigit h1 b j = some (digit_max P))
    (hn : 130 ≤ xp1.digits.length) (i1 : ds.length = xp1.digits.length)
    (i2 : ∀ j, j < 130 → ds.getD j 0 = 0) :
    ∃ ds', forUp (fun k h => forUp (fun i h => mul_inner P product a b k i h) 65 0 h) 65 0
        (h1.withDigits product xp1 ds) = some (h1.withDigits product xp1 ds') ∧
      2 ^ FFBI_WORD_SIZE P ≤ 65 * (digit_max P * digit_max P) ∧
      ds'.getD 64 0 = 65 * (digit_max P * digit_max P) - 2 ^ FFBI_WORD_SIZE P := by
  have hgetD : ∀ j, j < 65 → (List.replicate 65 (digit_max P)).getD j 0 = digit_max P := by
    intro j hj
    rw [List.getD_eq_getElem?_getD, List.getElem?_replicate, if_pos hj]
    rfl
  obtain ⟨ds', es', e1, _, _, _, e5, e6⟩ := mul_rows_wrap P h1 product a b xp1
    (List.replicate 65 (digit_max P)) (List.replicate 65 (digit_max P)) 65 65
    (digit_max P * digit_max P) hg hpa hpb
    (fun j hj => by rw [hgetD j hj]; exact hA j hj)
    (fun j hj => by rw [hgetD j hj]; exact hB j hj)
    (fun k i hk hi => by rw [hgetD k hk, hgetD i hi])
    hn ds i1 i2
  have hb := sixty_five_products_overflow P
  have hc : mulCount 65 65 0 64 = 65 := by decide
  refine ⟨ds', e1, hb.1, ?_⟩
  rw [e6 64 (by omega), e5 64 (by omega), hc]
  have hm : (65 * (digit_max P * digit_max P)) % 2 ^ FFBI_WORD_SIZE P
      = 65 * (digit_max P * digit_max P) - 2 ^ FFBI_WORD_SIZE P := by
    rw [Nat.mod_eq_sub_mod hb.1, Nat.mod_eq_of_lt (by omega)]
  exact hm

set_option maxRecDepth 100000 in
/-- The column of `ffbi_mul_column_accumulator_wraps` on the 29-bit configuration: operands
at 0 and 1 with 65 digits `2 ^ 29 - 1`, the zeroed product of 130 digits at 2. -/
theorem ffbi_mul_column_accumulator_wraps_witness :
    ∃ ds', forUp (fun k h => forUp (fun i h => mul_inner .generic64 2 0 1 k i h) 65 0 h) 65 0
        ((exHeap [exBig (List.replicate 65 536870911) 65, exBig (List.replicate 65 536870911) 65,
          exBig (List.replicate 130 0) 130] 0).withDigits 2 (exBig (List.replicate 130 0) 130)
          (List.replicate 130 0))
        = some ((exHeap [exBig (List.replicate 65 536870911) 65,
          exBig (List.replicate 65 536870911) 65,
          exBig (List.replicate 130 0) 130] 0).withDigits 2 (exBig (List.replicate 130 0) 130) ds') ∧
      2 ^ FFBI_WORD_SIZE .generic64 ≤ 65 * (digit_max .generic64 * digit_max .generic64) ∧
      ds'.getD 64 0 = 65 * (digit_max .generic64 * digit_max .generic64)
        - 2 ^ FFBI_WORD_SIZE .generic64 :=
  ffbi_mul_column_accumulator_wraps .generic64
    (exHeap [exBig (List.replicate 65 536870911) 65, exBig (List.replicate 65 536870911) 65,
      exBig (List.replicate 130 0) 130] 0) 2 0 1 (exBig (List.replicate 130 0) 130)
    (List.replicate 130 0) rfl (by decide) (by decide) (by decide) (by decide) (by decide)
    (by decide) (by decide)

/-! # Bigints that a routine does not write keep their digits

The lemmas of this part follow the routines of the library through every store they make:
a bigint that is not among the written ones keeps its digit array, length, capacity and growth
flag, whatever the routine computes.  The wide-digit cache of any bigint may change. -/

theorem Heap.keeps_refl (S : Nat → Prop) (h : Heap) : h.keeps S h :=
  ⟨Nat.le_refl _, rfl, fun _ x _ hg => ⟨x, hg, sameMain_refl x⟩⟩

theorem Heap.keeps.trans {S : Nat → Prop} {h h1 h2 : Heap} (a : h.keeps S h1)
    (b : h1.keeps S h2) : h.keeps S h2 := by
  refine ⟨Nat.le_trans a.1 b.1, b.2.1.trans a.2.1, fun q x hq hg => ?_⟩
  obtain ⟨x1, g1, s1⟩ := a.2.2 q x hq hg
  obtain ⟨x2, g2, s2⟩ := b.2.2 q x1 hq g1
  exact ⟨x2, g2, sameMain_trans s1 s2⟩

theorem Heap.keeps.lt {S : Nat → Prop} {h h' : Heap} (a : h.keeps S h')
    (hS : ∀ q, S q → q < h.obj.length) : ∀ q, S q → q < h'.obj.length :=
  fun q hq => Nat.lt_of_lt_of_le (hS q hq) a.1

theorem Heap.keeps.main {S : Nat → Prop} {h h' : Heap} (a : h.keeps S h') : h.keepsMain S h' :=
  ⟨a.1, a.2.2⟩

theorem Heap.keepsMain_refl (S : Nat → Prop) (h : Heap) : h.keepsMain S h :=
  ⟨Nat.le_refl _, fun _ x _ hg => ⟨x, hg, sameMain_refl x⟩⟩

theorem Heap.keepsMain.andThen {S : Nat → Prop} {h h1 h2 : Heap} (a : h.keepsMain S h1)
    (b : h1.keepsMain S h2) : h.keepsMain S h2 := by
  refine ⟨Nat.le_trans a.1 b.1, fun q x hq hg => ?_⟩
  obtain ⟨x1, g1, s1⟩ := a.2 q x hq hg
  obtain ⟨x2, g2, s2⟩ := b.2 q x1 hq g1
  exact ⟨x2, g2, sameMain_trans s1 s2⟩

theorem Heap.keepsMain.below {S : Nat → Prop} {h h' : Heap} (a : h.keepsMain S h')
    (hS : ∀ q, S q → q < h.obj.length) : ∀ q, S q → q < h'.obj.length :=
  fun q hq => Nat.lt_of_lt_of_le (hS q hq) a.1

theorem arenaAvoids_of_scr {S : Nat → Prop} {h h' : Heap} {s : Nat} (e : h'.scr = h.scr)
    (a : arenaAvoids S h s) : arenaAvoids S h' s := by
  intro sr hs
  rw [e] at hs
  exact a sr hs

theorem Heap.keeps.avoid {S : Nat → Prop} {h h' : Heap} {s : Nat} (k : h.keeps S h')
    (a : arenaAvoids S h s) : arenaAvoids S h' s :=
  arenaAvoids_of_scr k.2.1 a

/-- A store of the record `y` at `p`: the selected bigints keep their digits if `p` is not
selected or `y` has the main part of the record it replaces. -/
theorem put_keeps {S : Nat → Prop} {h h' : Heap} {p : Nat} {y : FFBI}
    (hy : S p → ∀ x, h.get p = some x → sameMain x y) (hp : h.put p y = some h') :
    h.keeps S h' := by
  unfold Heap.put at hp
  by_cases hlt : p < h.obj.length
  · rw [if_pos hlt] at hp
    cases hp
    refine ⟨by simp, rfl, fun q x hq hg => ?_⟩
    by_cases hqp : q = p
    · subst hqp
      refine ⟨y, ?_, hy hq x hg⟩
      exact Heap.get_upd_same y hg
    · exact ⟨x, (Heap.get_upd_ne h y hqp).trans hg, sameMain_refl x⟩
  · rw [if_neg hlt] at hp
    cases hp

theorem newArr_put_keeps {S : Nat → Prop} {h h' : Heap} {p w n : Nat} {y : FFBI}
    (hy : S p → ∀ x, h.get p = some x → sameMain x y)
    (hp : (h.newArr w n).2.put p y = some h') : h.keeps S h' :=
  put_keeps (h := (h.newArr w n).2) hy hp

theorem modify_keeps {S : Nat → Prop} {h h' : Heap} {p : Nat} {f : FFBI → FFBI}
    (hd : ¬ S p) (hp : modify h p f = some h') : h.keeps S h' := by
  unfold modify at hp
  obtain ⟨x, _, hp⟩ := obind_eq_some.1 hp
  exact put_keeps (fun hs => absurd hs hd) hp

theorem modify_keeps_main {S : Nat → Prop} {h h' : Heap} {p : Nat} {f : FFBI → FFBI}
    (hp : modify h p f = some h') (hf : ∀ x, sameMain x (f x)) : h.keeps S h' := by
  unfold modify at hp
  obtain ⟨x, hx, hp⟩ := obind_eq_some.1 hp
  refine put_keeps (fun _ x' hx' => ?_) hp
  rw [hx] at hx'
  cases hx'
  exact hf x

theorem wrDigit_keeps {S : Nat → Prop} {h h' : Heap} {p i v : Nat}
    (hd : ¬ S p) (hp : wrDigit h p i v = some h') : h.keeps S h' := by
  unfold wrDigit at hp
  obtain ⟨x, _, hp⟩ := obind_eq_some.1 hp
  obtain ⟨c', _, hp⟩ := obind_eq_some.1 hp
  exact put_keeps (fun hs => absurd hs hd) hp

theorem wrCache_keeps {S : Nat → Prop} {h h' : Heap} {p i v : Nat}
    (hp : wrCache h p i v = some h') : h.keeps S h' := by
  unfold wrCache at hp
  obtain ⟨x, hx, hp⟩ := obind_eq_some.1 hp
  obtain ⟨c, _, hp⟩ := obind_eq_some.1 hp
  obtain ⟨c', _, hp⟩ := obind_eq_some.1 hp
  refine put_keeps (fun _ x' hx' => ?_) hp
  rw [hx] at hx'
  cases hx'
  exact ⟨rfl, rfl, rfl, rfl⟩

/-- A conditional step `if c then f h else some h`. -/
theorem ite_keeps {S : Nat → Prop} {h h' : Heap} {c : Prop} [Decidable c] {x : Option Heap}
    (hr : (if c then x else some h) = some h') (k : x = some h' → h.keeps S h') :
    h.keeps S h' := by
  by_cases hc : c
  · rw [if_pos hc] at hr
    exact k hr
  · rw [if_neg hc] at hr
    cases hr
    exact Heap.keeps_refl S h

theorem forUp_keeps {S : Nat → Prop} {σ : Type} (proj : σ → Heap) (body : Nat → σ → Option σ)
    (hb : ∀ k s s', body k s = some s' → (proj s).keeps S (proj s')) :
    ∀ (n k : Nat) (s s' : σ), forUp body n k s = some s' → (proj s).keeps S (proj s') := by
  intro n
  induction n with
  | zero =>
    intro k s s' hr
    cases hr
    exact Heap.keeps_refl S _
  | succ n ih =>
    intro k s s' hr
    obtain ⟨t, h1, h2⟩ := obind_eq_some.1 hr
    exact (hb _ _ _ h1).trans (ih _ _ _ h2)

theorem forDown_keeps {S : Nat → Prop} {σ : Type} (proj : σ → Heap) (body : Nat → σ → Option σ)
    (hb : ∀ k s s', body k s = some s' → (proj s).keeps S (proj s')) :
    ∀ (n : Nat) (s s' : σ), forDown body n s = some s' → (proj s).keeps S (proj s') := by
  intro n
  induction n with
  | zero =>
    intro s s' hr
    cases hr
    exact Heap.keeps_refl S _
  | succ n ih =>
    intro s s' hr
    obtain ⟨t, h1, h2⟩ := obind_eq_some.1 hr
    exact (hb _ _ _ h1).trans (ih _ _ h2)

theorem whileLoop_keeps {S : Nat → Prop} {σ : Type} (proj : σ → Heap) (cond : σ → Option Bool)
    (body : σ → Option σ)
    (hb : ∀ s s', body s = some s' → (proj s).keeps S (proj s')) :
    ∀ (fuel : Nat) (s s' : σ), whileLoop cond body fuel s = some s' →
      (proj s).keeps S (proj s') := by
  intro fuel
  induction fuel with
  | zero =>
    intro s s' hr
    cases hr
  | succ n ih =>
    intro s s' hr
    obtain ⟨c, _, h2⟩ := obind_eq_some.1 hr
    cases c with
    | false =>
      simp only [Bool.false_eq_true, if_false] at h2
      cases h2
      exact Heap.keeps_refl S _
    | true =>
      simp only [if_true] at h2
      obtain ⟨t, h3, h4⟩ := obind_eq_some.1 h2
      exact (hb _ _ h3).trans (ih _ _ h4)

theorem cache_prepare_keeps {S : Nat → Prop} {P : Platform} {h h' : Heap} {p n : Nat} {r : Bool}
    (hp : ffbi_cache_prepare P h p n r = some h') : h.keeps S h' := by
  unfold ffbi_cache_prepare at hp
  obtain ⟨x, hx, hp⟩ := obind_eq_some.1 hp
  have hsm : ∀ (c : Option (List Nat)) (m : Nat) (x' : FFBI), h.get p = some x' →
      sameMain x' { x with cache := c, cache_num_allocated_digits := m } := by
    intro c m x' hx'
    rw [hx] at hx'
    cases hx'
    exact ⟨rfl, rfl, rfl, rfl⟩
  cases hc : x.cache with
  | none =>
    rw [hc] at hp
    dsimp only at hp
    exact newArr_put_keeps (fun _ x' hx' => hsm _ _ x' hx') hp
  | some c =>
    rw [hc] at hp
    dsimp only at hp
    by_cases hlt : x.cache_num_allocated_digits < n
    · rw [if_pos hlt] at hp
      obtain ⟨arr, _, hp⟩ := obind_eq_some.1 hp
      exact newArr_put_keeps (fun _ x' hx' => hsm _ _ x' hx') hp
    · rw [if_neg hlt] at hp
      cases hp
      exact Heap.keeps_refl S h

theorem reallocate_keeps {S : Nat → Prop} {P : Platform} {h h' : Heap} {p n : Nat} {r : Bool}
    (hd : ¬ S p) (hp : ffbi_reallocate_digits P h p n r = some h') : h.keeps S h' := by
  have hy : ∀ y : FFBI, S p → ∀ x, h.get p = some x → sameMain x y := fun _ hs => absurd hs hd
  unfold ffbi_reallocate_digits at hp
  obtain ⟨x, _, hp⟩ := obind_eq_some.1 hp
  by_cases hr : x.reallocation_allowed = false
  · rw [if_pos hr] at hp
    cases hp
    exact Heap.keeps_refl S h
  · rw [if_neg hr] at hp
    cases r with
    | false =>
      simp only [Bool.false_eq_true, if_false] at hp
      split at hp
      · exact put_keeps (hy _) hp
      · exact newArr_put_keeps (hy _) hp
    | true =>
      simp only [if_true] at hp
      by_cases h1 : (if n < x.num_used_digits then x.num_used_digits else n) = x.num_allocated_digits
      · rw [if_pos h1] at hp
        exact put_keeps (hy _) hp
      · rw [if_neg h1] at hp
        obtain ⟨arr, _, hp⟩ := obind_eq_some.1 hp
        exact newArr_put_keeps (hy _) hp

/-- The routine `ffbi_create_reserved_digits` returns the first unused pointer and keeps every
bigint there is. -/
theorem create_reserved_keeps {S : Nat → Prop} {P : Platform} {h : Heap} {n : Nat}
    {r : Nat × Heap} (hp : ffbi_create_reserved_digits P h n = some r) :
    h.keeps S r.2 ∧ r.1 = h.obj.length := by
  unfold ffbi_create_reserved_digits at hp
  obtain ⟨arr, _, hp⟩ := obind_eq_some.1 hp
  cases hp
  refine ⟨⟨by simp [Heap.newArr], rfl, fun q x _ hg => ⟨x, ?_, sameMain_refl x⟩⟩, rfl⟩
  have hq := Heap.get_lt hg
  unfold Heap.get at hg ⊢
  simp only [Heap.newArr]
  rw [List.getElem?_append_left hq]
  exact hg

theorem ffbi_copy_keeps {S : Nat → Prop} {P : Platform} {h h' : Heap} {dest src : Nat}
    (hd : ¬ S dest) (hr : ffbi_copy P h dest src = some h') : h.keeps S h' := by
  unfold ffbi_copy at hr
  obtain ⟨xd, _, hr⟩ := obind_eq_some.1 hr
  obtain ⟨xs, _, hr⟩ := obind_eq_some.1 hr
  obtain ⟨h1, e1, hr⟩ := obind_eq_some.1 hr
  obtain ⟨xs1, _, hr⟩ := obind_eq_some.1 hr
  obtain ⟨h2, e2, hr⟩ := obind_eq_some.1 hr
  obtain ⟨xd2, _, hr⟩ := obind_eq_some.1 hr
  obtain ⟨xs2, _, hr⟩ := obind_eq_some.1 hr
  obtain ⟨ds, _, hr⟩ := obind_eq_some.1 hr
  exact ((ite_keeps e1 (reallocate_keeps hd)).trans (modify_keeps hd e2)).trans
    (put_keeps (fun hs => absurd hs hd) hr)


/-! # The wide-digit routines write caches only -/

theorem keeps_of_obj_eq {S : Nat → Prop} {h h1 : Heap} (ho : h1.obj = h.obj)
    (hs : h1.scr = h.scr) : h.keeps S h1 := by
  refine ⟨by rw [ho], hs, fun q x _ hg => ⟨x, ?_, sameMain_refl x⟩⟩
  unfold Heap.get at hg ⊢
  rw [ho]
  exact hg

theorem cache_update_array_obj (P : Platform) (h : Heap) (x : FFBI) (n : Nat) :
    (cache_update_array P h x n).2.2.obj = h.obj ∧ (cache_update_array P h x n).2.2.scr = h.scr := by
  unfold cache_update_array
  cases x.cache with
  | none => exact ⟨rfl, rfl⟩
  | some c =>
    dsimp only
    split
    · exact ⟨rfl, rfl⟩
    · exact ⟨rfl, rfl⟩

theorem cache_update_keeps {S : Nat → Prop} {P : Platform} {h h' : Heap} {p n : Nat}
    (hp : ffbi_cache_update P h p n = some h') : h.keeps S h' := by
  unfold ffbi_cache_update at hp
  obtain ⟨x, hx, hp⟩ := obind_eq_some.1 hp
  split at hp
  · cases hp
    exact Heap.keeps_refl S h
  · obtain ⟨top, _, hp⟩ := obind_eq_some.1 hp
    obtain ⟨ctx, _, hp⟩ := obind_eq_some.1 hp
    obtain ⟨c, _, hp⟩ := obind_eq_some.1 hp
    have ho := cache_update_array_obj P h x ctx.dst_num_digits
    refine (keeps_of_obj_eq ho.1 ho.2).trans (put_keeps (fun _ x' hx' => ?_) hp)
    have hx2 : h.get p = some x' := by
      unfold Heap.get at hx' ⊢
      rw [← ho.1]
      exact hx'
    rw [hx] at hx2
    cases hx2
    exact ⟨rfl, rfl, rfl, rfl⟩

theorem cache_retrieve_keeps {S : Nat → Prop} {P : Platform} {h h' : Heap} {p : Nat}
    (hd : ¬ S p) (hp : ffbi_cache_retrieve P h p = some h') : h.keeps S h' := by
  unfold ffbi_cache_retrieve at hp
  obtain ⟨x, _, hp⟩ := obind_eq_some.1 hp
  obtain ⟨c, _, hp⟩ := obind_eq_some.1 hp
  obtain ⟨top, _, hp⟩ := obind_eq_some.1 hp
  obtain ⟨ctx, _, hp⟩ := obind_eq_some.1 hp
  obtain ⟨h1, e1, hp⟩ := obind_eq_some.1 hp
  obtain ⟨h2, e2, hp⟩ := obind_eq_some.1 hp
  obtain ⟨x2, _, hp⟩ := obind_eq_some.1 hp
  obtain ⟨c2, _, hp⟩ := obind_eq_some.1 hp
  obtain ⟨ds, _, hp⟩ := obind_eq_some.1 hp
  exact ((ite_keeps e1 (reallocate_keeps hd)).trans (modify_keeps hd e2)).trans
    (put_keeps (fun hs => absurd hs hd) hp)

theorem sub_cache_step_keeps {S : Nat → Prop} {P : Platform} {dest a b k : Nat} {ua ub : Bool}
    {h h' : Heap} (hp : sub_cache_step P dest a b ua ub k h = some h') : h.keeps S h' := by
  unfold sub_cache_step at hp
  obtain ⟨xd, _, hp⟩ := obind_eq_some.1 hp
  obtain ⟨prev, _, hp⟩ := obind_eq_some.1 hp
  obtain ⟨h1, e1, hp⟩ := obind_eq_some.1 hp
  obtain ⟨v, _, hp⟩ := obind_eq_some.1 hp
  exact (wrCache_keeps e1).trans (wrCache_keeps hp)

theorem sub_cache_keeps {S : Nat → Prop} {P : Platform} {dest a b : Nat} {h h' : Heap}
    (hp : ffbi_sub_cache P h dest a b = some h') : h.keeps S h' := by
  unfold ffbi_sub_cache at hp
  obtain ⟨xa, _, hp⟩ := obind_eq_some.1 hp
  obtain ⟨xb, _, hp⟩ := obind_eq_some.1 hp
  obtain ⟨xd, _, hp⟩ := obind_eq_some.1 hp
  obtain ⟨h1, e1, hp⟩ := obind_eq_some.1 hp
  obtain ⟨a0, _, hp⟩ := obind_eq_some.1 hp
  obtain ⟨b0, _, hp⟩ := obind_eq_some.1 hp
  obtain ⟨h2, e2, hp⟩ := obind_eq_some.1 hp
  obtain ⟨h3, e3, hp⟩ := obind_eq_some.1 hp
  obtain ⟨h4, e4, hp⟩ := obind_eq_some.1 hp
  obtain ⟨top, _, hp⟩ := obind_eq_some.1 hp
  obtain ⟨h5, e5, hp⟩ := obind_eq_some.1 hp
  obtain ⟨xd5, _, hp⟩ := obind_eq_some.1 hp
  obtain ⟨c5, _, hp⟩ := obind_eq_some.1 hp
  obtain ⟨k5, _, hp⟩ := obind_eq_some.1 hp
  have k1 : h.keeps S h1 := ite_keeps e1 cache_prepare_keeps
  have k2 : h1.keeps S h2 := wrCache_keeps e2
  have k3 : h2.keeps S h3 :=
    forUp_keeps id _ (fun _ _ _ hk => sub_cache_step_keeps hk) _ _ _ _ e3
  have k4 : h3.keeps S h4 := by
    split at e4
    · exact forUp_keeps id _ (fun _ _ _ hk => sub_cache_step_keeps hk) _ _ _ _ e4
    · exact forUp_keeps id _ (fun _ _ _ hk => sub_cache_step_keeps hk) _ _ _ _ e4
  have k5 : h4.keeps S h5 := wrCache_keeps e5
  have k6 : h5.keeps S h' := modify_keeps_main hp (fun _ => ⟨rfl, rfl, rfl, rfl⟩)
  exact k1.trans (k2.trans (k3.trans (k4.trans (k5.trans k6))))

theorem div_cache_mul_inner_keeps {S : Nat → Prop} {P : Platform} {dest a b k i : Nat}
    {h h' : Heap} (hp : div_cache_mul_inner P dest a b k i h = some h') : h.keeps S h' := by
  unfold div_cache_mul_inner at hp
  obtain ⟨_, _, hp⟩ := obind_eq_some.1 hp
  obtain ⟨_, _, hp⟩ := obind_eq_some.1 hp
  obtain ⟨_, _, hp⟩ := obind_eq_some.1 hp
  exact wrCache_keeps hp

theorem div_cache_mul_carry_keeps {S : Nat → Prop} {P : Platform} {dest i : Nat} {h h' : Heap}
    (hp : div_cache_mul_carry P dest i h = some h') : h.keeps S h' := by
  unfold div_cache_mul_carry at hp
  obtain ⟨_, _, hp⟩ := obind_eq_some.1 hp
  obtain ⟨_, _, hp⟩ := obind_eq_some.1 hp
  obtain ⟨h1, e1, hp⟩ := obind_eq_some.1 hp
  obtain ⟨_, _, hp⟩ := obind_eq_some.1 hp
  exact (wrCache_keeps e1).trans (wrCache_keeps hp)

theorem div_cache_mul_keeps {S : Nat → Prop} {P : Platform} {dest a b : Nat} {h h' : Heap}
    (hp : ffbi_div_cache_mul P h dest a b = some h') : h.keeps S h' := by
  unfold ffbi_div_cache_mul at hp
  obtain ⟨xa, _, hp⟩ := obind_eq_some.1 hp
  obtain ⟨xb, _, hp⟩ := obind_eq_some.1 hp
  obtain ⟨h1, e1, hp⟩ := obind_eq_some.1 hp
  obtain ⟨h2, e2, hp⟩ := obind_eq_some.1 hp
  obtain ⟨xd, hxd, hp⟩ := obind_eq_some.1 hp
  obtain ⟨c, _, hp⟩ := obind_eq_some.1 hp
  obtain ⟨c', _, hp⟩ := obind_eq_some.1 hp
  obtain ⟨h3, e3, hp⟩ := obind_eq_some.1 hp
  obtain ⟨h4, e4, hp⟩ := obind_eq_some.1 hp
  obtain ⟨h5, e5, hp⟩ := obind_eq_some.1 hp
  obtain ⟨xd5, _, hp⟩ := obind_eq_some.1 hp
  have k1 : h.keeps S h1 := cache_prepare_keeps e1
  have k2 : h1.keeps S h2 := modify_keeps_main e2 (fun _ => ⟨rfl, rfl, rfl, rfl⟩)
  have k3 : h2.keeps S h3 := by
    refine put_keeps (fun _ x' hx' => ?_) e3
    rw [hxd] at hx'
    cases hx'
    exact ⟨rfl, rfl, rfl, rfl⟩
  have k4 : h3.keeps S h4 :=
    forUp_keeps id _ (fun _ _ _ hk =>
      forUp_keeps id _ (fun _ _ _ hi => div_cache_mul_inner_keeps hi) _ _ _ _ hk) _ _ _ _ e4
  have k5 : h4.keeps S h5 := by
    split at e5
    · cases e5
    · exact forUp_keeps id _ (fun _ _ _ hk => div_cache_mul_carry_keeps hk) _ _ _ _ e5
  have k6 : h5.keeps S h' := by
    split at hp
    · obtain ⟨top, _, hp⟩ := obind_eq_some.1 hp
      split at hp
      · exact modify_keeps_main hp (fun _ => ⟨rfl, rfl, rfl, rfl⟩)
      · cases hp
        exact Heap.keeps_refl S _
    · cases hp
      exact Heap.keeps_refl S _
  exact k1.trans (k2.trans (k3.trans (k4.trans (k5.trans k6))))

theorem correct_cache_body_keeps {S : Nat → Prop} {P : Platform} {k q b product scratch : Nat}
    {h h' : Heap} (hp : correct_cache_body P k q b product scratch h = some h') :
    h.keeps S h' := by
  unfold correct_cache_body at hp
  obtain ⟨_, _, hp⟩ := obind_eq_some.1 hp
  obtain ⟨h1, e1, hp⟩ := obind_eq_some.1 hp
  obtain ⟨_, _, hp⟩ := obind_eq_some.1 hp
  obtain ⟨h2, e2, hp⟩ := obind_eq_some.1 hp
  exact (wrCache_keeps e1).trans ((wrCache_keeps e2).trans (div_cache_mul_keeps hp))

theorem qdc_equal_keeps {S : Nat → Prop} {k q rem a : Nat} {h h' : Heap}
    (hp : qdc_equal h k q rem a = some h') : h.keeps S h' := by
  unfold qdc_equal at hp
  obtain ⟨h1, e1, hp⟩ := obind_eq_some.1 hp
  obtain ⟨h2, e2, hp⟩ := obind_eq_some.1 hp
  have k3 : h2.keeps S h' := by
    split at hp
    · obtain ⟨_, _, hp⟩ := obind_eq_some.1 hp
      exact wrCache_keeps hp
    · exact wrCache_keeps hp
  exact (wrCache_keeps e1).trans
    ((modify_keeps_main e2 (fun _ => ⟨rfl, rfl, rfl, rfl⟩)).trans k3)

theorem qdc_less_keeps {S : Nat → Prop} {P : Platform} {k q rem a : Nat} {h h' : Heap}
    (hp : qdc_less P h k q rem a = some h') : h.keeps S h' := by
  unfold qdc_less at hp
  obtain ⟨h1, e1, hp⟩ := obind_eq_some.1 hp
  refine (wrCache_keeps e1).trans ?_
  split at hp
  · obtain ⟨xr, _, hp⟩ := obind_eq_some.1 hp
    obtain ⟨nz, _, hp⟩ := obind_eq_some.1 hp
    obtain ⟨h2, e2, hp⟩ := obind_eq_some.1 hp
    obtain ⟨_, _, hp⟩ := obind_eq_some.1 hp
    refine Heap.keeps.trans ?_ (wrCache_keeps hp)
    split at e2
    · obtain ⟨h3, e3, e2⟩ := obind_eq_some.1 e2
      obtain ⟨xr3, _, e2⟩ := obind_eq_some.1 e2
      obtain ⟨h4, e4, e2⟩ := obind_eq_some.1 e2
      refine (modify_keeps_main e3 (fun _ => ⟨rfl, rfl, rfl, rfl⟩)).trans
        ((ite_keeps e4 cache_prepare_keeps).trans ?_)
      refine forDown_keeps id _ (fun _ _ _ hk => ?_) _ _ _ e2
      obtain ⟨_, _, hk⟩ := obind_eq_some.1 hk
      exact wrCache_keeps hk
    · cases e2
      exact Heap.keeps_refl S _
  · cases hp
    exact Heap.keeps_refl S _

theorem qdc_estimate_keeps {S : Nat → Prop} {P : Platform} {k q rem b bl : Nat} {h h' : Heap}
    (hp : qdc_estimate P h k q rem b bl = some h') : h.keeps S h' := by
  unfold qdc_estimate at hp
  obtain ⟨xr, _, hp⟩ := obind_eq_some.1 hp
  dsimp only at hp
  split at hp
  · obtain ⟨_, _, hp⟩ := obind_eq_some.1 hp
    obtain ⟨_, _, hp⟩ := obind_eq_some.1 hp
    split at hp
    · cases hp
    · exact wrCache_keeps hp
  · obtain ⟨_, _, hp⟩ := obind_eq_some.1 hp
    obtain ⟨h1, e1, hp⟩ := obind_eq_some.1 hp
    obtain ⟨_, _, hp⟩ := obind_eq_some.1 hp
    obtain ⟨_, _, hp⟩ := obind_eq_some.1 hp
    split at hp
    · cases hp
    · exact (wrCache_keeps e1).trans (wrCache_keeps hp)

theorem qdc_update_keeps {S : Nat → Prop} {P : Platform} {k rem a product nl : Nat} {h h' : Heap}
    (hp : qdc_update P h k rem a product nl = some h') : h.keeps S h' := by
  unfold qdc_update at hp
  obtain ⟨xp, _, hp⟩ := obind_eq_some.1 hp
  obtain ⟨nz, _, hp⟩ := obind_eq_some.1 hp
  split at hp
  · obtain ⟨h1, e1, hp⟩ := obind_eq_some.1 hp
    obtain ⟨xr, _, hp⟩ := obind_eq_some.1 hp
    obtain ⟨h2, e2, hp⟩ := obind_eq_some.1 hp
    obtain ⟨h3, e3, hp⟩ := obind_eq_some.1 hp
    obtain ⟨xp3, _, hp⟩ := obind_eq_some.1 hp
    obtain ⟨h4, e4, hp⟩ := obind_eq_some.1 hp
    obtain ⟨_, _, hp⟩ := obind_eq_some.1 hp
    obtain ⟨_, _, hp⟩ := obind_eq_some.1 hp
    have k4 : h3.keeps S h4 := by
      refine forUp_keeps id _ (fun _ _ _ hk => ?_) _ _ _ _ e4
      obtain ⟨_, _, hk⟩ := obind_eq_some.1 hk
      exact wrCache_keeps hk
    exact (modify_keeps_main e1 (fun _ => ⟨rfl, rfl, rfl, rfl⟩)).trans
      ((ite_keeps e2 cache_prepare_keeps).trans ((wrCache_keeps e3).trans
        (k4.trans (wrCache_keeps hp))))
  · obtain ⟨h1, e1, hp⟩ := obind_eq_some.1 hp
    obtain ⟨_, _, hp⟩ := obind_eq_some.1 hp
    exact (modify_keeps_main e1 (fun _ => ⟨rfl, rfl, rfl, rfl⟩)).trans (wrCache_keeps hp)

theorem quotient_digit_cache_keeps {S : Nat → Prop} {P : Platform}
    {k q rem a b bl product nl scratch : Nat} {h h' : Heap}
    (hp : ffbi_get_quotient_digit_cache P h k q rem a b bl product nl scratch = some h') :
    h.keeps S h' := by
  unfold ffbi_get_quotient_digit_cache at hp
  obtain ⟨cmp, _, hp⟩ := obind_eq_some.1 hp
  split at hp
  · exact qdc_equal_keeps hp
  · split at hp
    · exact qdc_less_keeps hp
    · obtain ⟨h1, e1, hp⟩ := obind_eq_some.1 hp
      obtain ⟨h2, e2, hp⟩ := obind_eq_some.1 hp
      obtain ⟨qd, _, hp⟩ := obind_eq_some.1 hp
      obtain ⟨h3, e3, hp⟩ := obind_eq_some.1 hp
      obtain ⟨h4, e4, hp⟩ := obind_eq_some.1 hp
      obtain ⟨h5, e5, hp⟩ := obind_eq_some.1 hp
      obtain ⟨h6, e6, hp⟩ := obind_eq_some.1 hp
      obtain ⟨_, _, hp⟩ := obind_eq_some.1 hp
      have k5 : h4.keeps S h5 :=
        whileLoop_keeps id _ _ (fun _ _ hk => correct_cache_body_keeps hk) _ _ _ e5
      exact (qdc_estimate_keeps e1).trans
        ((modify_keeps_main e2 (fun _ => ⟨rfl, rfl, rfl, rfl⟩)).trans
        ((wrCache_keeps e3).trans ((div_cache_mul_keeps e4).trans (k5.trans
        ((sub_cache_keeps e6).trans (qdc_update_keeps hp))))))

/-! # Addition, subtraction and multiplication write their destination only -/

theorem add_step_keeps {S : Nat → Prop} {P : Platform} {dest src1 k : Nat} {src2 : Option Nat}
    {h h' : Heap} (hd : ¬ S dest) (hp : add_step P dest src1 src2 k h = some h') :
    h.keeps S h' := by
  unfold add_step at hp
  obtain ⟨_, _, hp⟩ := obind_eq_some.1 hp
  obtain ⟨_, _, hp⟩ := obind_eq_some.1 hp
  obtain ⟨_, _, hp⟩ := obind_eq_some.1 hp
  obtain ⟨h1, e1, hp⟩ := obind_eq_some.1 hp
  obtain ⟨_, _, hp⟩ := obind_eq_some.1 hp
  exact (wrDigit_keeps hd e1).trans (wrDigit_keeps hd hp)

theorem add_finish_keeps {S : Nat → Prop} {P : Platform} {dest m k : Nat}
    {h h' : Heap} (hd : ¬ S dest) (hp : add_finish P dest m k h = some h') :
    h.keeps S h' := by
  unfold add_finish at hp
  obtain ⟨top, _, hp⟩ := obind_eq_some.1 hp
  split at hp
  · obtain ⟨xd, _, hp⟩ := obind_eq_some.1 hp
    obtain ⟨h1, e1, hp⟩ := obind_eq_some.1 hp
    obtain ⟨_, _, hp⟩ := obind_eq_some.1 hp
    obtain ⟨h2, e2, hp⟩ := obind_eq_some.1 hp
    obtain ⟨h3, e3, hp⟩ := obind_eq_some.1 hp
    exact (ite_keeps e1 (reallocate_keeps hd)).trans ((wrDigit_keeps hd e2).trans
      ((wrDigit_keeps hd e3).trans (modify_keeps hd hp)))
  · exact modify_keeps hd hp

theorem ffbi_add_keeps {S : Nat → Prop} {P : Platform} {dest a b : Nat} {h h' : Heap}
    (hd : ¬ S dest) (hp : ffbi_add P h dest a b = some h') : h.keeps S h' := by
  unfold ffbi_add at hp
  obtain ⟨xa, _, hp⟩ := obind_eq_some.1 hp
  obtain ⟨xb, _, hp⟩ := obind_eq_some.1 hp
  obtain ⟨xd, _, hp⟩ := obind_eq_some.1 hp
  obtain ⟨h1, e1, hp⟩ := obind_eq_some.1 hp
  obtain ⟨_, _, hp⟩ := obind_eq_some.1 hp
  obtain ⟨_, _, hp⟩ := obind_eq_some.1 hp
  obtain ⟨h2, e2, hp⟩ := obind_eq_some.1 hp
  obtain ⟨h3, e3, hp⟩ := obind_eq_some.1 hp
  obtain ⟨h4, e4, hp⟩ := obind_eq_some.1 hp
  have k1 : h.keeps S h1 := by
    refine ite_keeps e1 (fun e => ?_)
    split at e
    · exact reallocate_keeps hd e
    · exact reallocate_keeps hd e
  have k3 : h2.keeps S h3 := forUp_keeps id _ (fun _ _ _ hk => add_step_keeps hd hk) _ _ _ _ e3
  have k4 : h3.keeps S h4 := forUp_keeps id _ (fun _ _ _ hk => add_step_keeps hd hk) _ _ _ _ e4
  exact k1.trans ((wrDigit_keeps hd e2).trans (k3.trans (k4.trans (add_finish_keeps hd hp))))

theorem add_u_carry_keeps {S : Nat → Prop} {P : Platform} {dest : Nat}
    {s s' : Nat × Nat × Heap} (hd : ¬ S dest) (hp : add_u_carry P dest s = some s') :
    s.2.2.keeps S s'.2.2 := by
  unfold add_u_carry at hp
  obtain ⟨xd, _, hp⟩ := obind_eq_some.1 hp
  obtain ⟨h1, e1, hp⟩ := obind_eq_some.1 hp
  obtain ⟨_, _, hp⟩ := obind_eq_some.1 hp
  obtain ⟨h2, e2, hp⟩ := obind_eq_some.1 hp
  obtain ⟨_, _, hp⟩ := obind_eq_some.1 hp
  cases hp
  refine Heap.keeps.trans ?_ (wrDigit_keeps hd e2)
  refine ite_keeps e1 (fun e => ?_)
  obtain ⟨h3, e3, e⟩ := obind_eq_some.1 e
  obtain ⟨xd3, _, e⟩ := obind_eq_some.1 e
  obtain ⟨h4, e4, e⟩ := obind_eq_some.1 e
  exact (modify_keeps hd e3).trans ((ite_keeps e4 (reallocate_keeps hd)).trans
    (wrDigit_keeps hd e))

theorem add_u_low_keeps {S : Nat → Prop} {P : Platform} {dest a b : Nat} {h h' : Heap}
    (hd : ¬ S dest) (hp : add_u_low P h dest a b = some h') : h.keeps S h' := by
  unfold add_u_low at hp
  obtain ⟨_, _, hp⟩ := obind_eq_some.1 hp
  obtain ⟨h1, e1, hp⟩ := obind_eq_some.1 hp
  obtain ⟨xa, _, hp⟩ := obind_eq_some.1 hp
  obtain ⟨h2, e2, hp⟩ := obind_eq_some.1 hp
  obtain ⟨_, _, hp⟩ := obind_eq_some.1 hp
  have k2 : h1.keeps S h2 := by
    split at e2
    · obtain ⟨_, _, e2⟩ := obind_eq_some.1 e2
      obtain ⟨h3, e3, e2⟩ := obind_eq_some.1 e2
      obtain ⟨_, _, e2⟩ := obind_eq_some.1 e2
      exact (wrDigit_keeps hd e3).trans (modify_keeps hd e2)
    · obtain ⟨_, _, e2⟩ := obind_eq_some.1 e2
      obtain ⟨_, _, e2⟩ := obind_eq_some.1 e2
      exact wrDigit_keeps hd e2
  exact (wrDigit_keeps hd e1).trans (k2.trans (wrDigit_keeps hd hp))

theorem add_u_hi_keeps {S : Nat → Prop} {P : Platform} {dest a b : Nat} {h h' : Heap}
    (hd : ¬ S dest) (hp : add_u_hi P h dest a b = some h') : h.keeps S h' := by
  unfold add_u_hi at hp
  refine ite_keeps hp (fun e => ?_)
  dsimp only at e
  refine ite_keeps e (fun e => ?_)
  obtain ⟨_, _, e⟩ := obind_eq_some.1 e
  obtain ⟨h1, e1, e⟩ := obind_eq_some.1 e
  obtain ⟨xd, _, e⟩ := obind_eq_some.1 e
  exact (wrDigit_keeps hd e1).trans (ite_keeps e (modify_keeps hd))

theorem ffbi_add_u_keeps {S : Nat → Prop} {P : Platform} {fuel dest a b : Nat} {h h' : Heap}
    (hd : ¬ S dest) (hp : ffbi_add_u P fuel h dest a b = some h') : h.keeps S h' := by
  unfold ffbi_add_u at hp
  obtain ⟨h1, e1, hp⟩ := obind_eq_some.1 hp
  obtain ⟨h2, e2, hp⟩ := obind_eq_some.1 hp
  obtain ⟨h3, e3, hp⟩ := obind_eq_some.1 hp
  obtain ⟨d1, _, hp⟩ := obind_eq_some.1 hp
  obtain ⟨s, e4, hp⟩ := obind_eq_some.1 hp
  have k1 : h.keeps S h1 := by
    refine ite_keeps e1 (fun e => ?_)
    obtain ⟨xd, _, e⟩ := obind_eq_some.1 e
    obtain ⟨xa, _, e⟩ := obind_eq_some.1 e
    obtain ⟨h5, e5, e⟩ := obind_eq_some.1 e
    obtain ⟨xa5, _, e⟩ := obind_eq_some.1 e
    exact (ite_keeps e5 (reallocate_keeps hd)).trans (modify_keeps hd e)
  have k4 : h3.keeps S s.2.2 :=
    whileLoop_keeps (fun t : Nat × Nat × Heap => t.2.2) _ _
      (fun _ _ hk => add_u_carry_keeps hd hk) _ _ _ e4
  exact k1.trans ((add_u_low_keeps hd e2).trans ((add_u_hi_keeps hd e3).trans
    (k4.trans (modify_keeps hd hp))))

theorem sub_step_keeps {S : Nat → Prop} {P : Platform} {dest a b k : Nat} {ua ub : Bool}
    {h h' : Heap} (hd : ¬ S dest) (hp : sub_step P dest a b ua ub k h = some h') :
    h.keeps S h' := by
  unfold sub_step at hp
  obtain ⟨prev, _, hp⟩ := obind_eq_some.1 hp
  obtain ⟨h1, e1, hp⟩ := obind_eq_some.1 hp
  obtain ⟨v, _, hp⟩ := obind_eq_some.1 hp
  exact (wrDigit_keeps hd e1).trans (wrDigit_keeps hd hp)

theorem ffbi_sub_keeps {S : Nat → Prop} {P : Platform} {dest a b : Nat} {h h' : Heap}
    (hd : ¬ S dest) (hp : ffbi_sub P h dest a b = some h') : h.keeps S h' := by
  unfold ffbi_sub at hp
  obtain ⟨xa, _, hp⟩ := obind_eq_some.1 hp
  obtain ⟨xb, _, hp⟩ := obind_eq_some.1 hp
  obtain ⟨xd, _, hp⟩ := obind_eq_some.1 hp
  obtain ⟨h1, e1, hp⟩ := obind_eq_some.1 hp
  obtain ⟨a0, _, hp⟩ := obind_eq_some.1 hp
  obtain ⟨b0, _, hp⟩ := obind_eq_some.1 hp
  obtain ⟨h2, e2, hp⟩ := obind_eq_some.1 hp
  obtain ⟨h3, e3, hp⟩ := obind_eq_some.1 hp
  obtain ⟨h4, e4, hp⟩ := obind_eq_some.1 hp
  obtain ⟨top, _, hp⟩ := obind_eq_some.1 hp
  obtain ⟨h5, e5, hp⟩ := obind_eq_some.1 hp
  obtain ⟨xd5, _, hp⟩ := obind_eq_some.1 hp
  obtain ⟨k5, _, hp⟩ := obind_eq_some.1 hp
  have k1 : h.keeps S h1 := by
    refine ite_keeps e1 (fun e => ?_)
    split at e
    · exact reallocate_keeps hd e
    · exact reallocate_keeps hd e
  have k3 : h2.keeps S h3 := forUp_keeps id _ (fun _ _ _ hk => sub_step_keeps hd hk) _ _ _ _ e3
  have k4 : h3.keeps S h4 := by
    split at e4
    · exact forUp_keeps id _ (fun _ _ _ hk => sub_step_keeps hd hk) _ _ _ _ e4
    · exact forUp_keeps id _ (fun _ _ _ hk => sub_step_keeps hd hk) _ _ _ _ e4
  exact k1.trans ((wrDigit_keeps hd e2).trans (k3.trans (k4.trans
    ((wrDigit_keeps hd e5).trans (modify_keeps hd hp)))))

theorem mul_inner_keeps {S : Nat → Prop} {P : Platform} {product a b k i : Nat} {h h' : Heap}
    (hd : ¬ S product) (hp : mul_inner P product a b k i h = some h') : h.keeps S h' := by
  unfold mul_inner at hp
  obtain ⟨_, _, hp⟩ := obind_eq_some.1 hp
  obtain ⟨_, _, hp⟩ := obind_eq_some.1 hp
  obtain ⟨_, _, hp⟩ := obind_eq_some.1 hp
  exact wrDigit_keeps hd hp

theorem mul_carry_keeps {S : Nat → Prop} {P : Platform} {product i : Nat} {h h' : Heap}
    (hd : ¬ S product) (hp : mul_carry P product i h = some h') : h.keeps S h' := by
  unfold mul_carry at hp
  obtain ⟨_, _, hp⟩ := obind_eq_some.1 hp
  obtain ⟨_, _, hp⟩ := obind_eq_some.1 hp
  obtain ⟨h1, e1, hp⟩ := obind_eq_some.1 hp
  obtain ⟨_, _, hp⟩ := obind_eq_some.1 hp
  exact (wrDigit_keeps hd e1).trans (wrDigit_keeps hd hp)

theorem mul_core_keeps {S : Nat → Prop} {P : Platform} {product a b al bl : Nat} {h h' : Heap}
    (hd : ¬ S product) (hp : mul_core P h product a b al bl = some h') : h.keeps S h' := by
  unfold mul_core at hp
  obtain ⟨h1, e1, hp⟩ := obind_eq_some.1 hp
  obtain ⟨xp, _, hp⟩ := obind_eq_some.1 hp
  obtain ⟨ds, _, hp⟩ := obind_eq_some.1 hp
  obtain ⟨h2, e2, hp⟩ := obind_eq_some.1 hp
  obtain ⟨h3, e3, hp⟩ := obind_eq_some.1 hp
  obtain ⟨h4, e4, hp⟩ := obind_eq_some.1 hp
  obtain ⟨xp4, _, hp⟩ := obind_eq_some.1 hp
  have k3 : h2.keeps S h3 :=
    forUp_keeps id _ (fun _ _ _ hk =>
      forUp_keeps id _ (fun _ _ _ hi => mul_inner_keeps hd hi) _ _ _ _ hk) _ _ _ _ e3
  have k4 : h3.keeps S h4 := by
    split at e4
    · cases e4
    · exact forUp_keeps id _ (fun _ _ _ hk => mul_carry_keeps hd hk) _ _ _ _ e4
  have k5 : h4.keeps S h' := by
    refine ite_keeps hp (fun e => ?_)
    obtain ⟨top, _, e⟩ := obind_eq_some.1 e
    exact ite_keeps e (modify_keeps hd)
  exact (modify_keeps hd e1).trans ((put_keeps (fun hs => absurd hs hd) e2).trans
    (k3.trans (k4.trans k5)))

/-- The routine `ffbi_mul` writes `dest` and, when `dest` is an operand, a bigint that it
creates. -/
theorem ffbi_mul_keeps {S : Nat → Prop} {P : Platform} {dest a b : Nat} {h h' : Heap}
    (hS : ∀ q, S q → q < h.obj.length) (hd : ¬ S dest)
    (hp : ffbi_mul P h dest a b = some h') : h.keeps S h' := by
  unfold ffbi_mul at hp
  obtain ⟨za, _, hp⟩ := obind_eq_some.1 hp
  obtain ⟨zb, _, hp⟩ := obind_eq_some.1 hp
  split at hp
  · obtain ⟨h1, e1, hp⟩ := obind_eq_some.1 hp
    obtain ⟨h2, e2, hp⟩ := obind_eq_some.1 hp
    exact (modify_keeps hd e1).trans ((wrDigit_keeps hd e2).trans (modify_keeps hd hp))
  · obtain ⟨xa, _, hp⟩ := obind_eq_some.1 hp
    obtain ⟨xb, _, hp⟩ := obind_eq_some.1 hp
    obtain ⟨r, e1, hp⟩ := obind_eq_some.1 hp
    obtain ⟨h2, e2, hp⟩ := obind_eq_some.1 hp
    obtain ⟨h3, e3, hp⟩ := obind_eq_some.1 hp
    have k1 : h.keeps S r.2 ∧ ¬ S r.1 := by
      split at e1
      · have c := create_reserved_keeps (S := S) e1
        refine ⟨c.1, fun hs => ?_⟩
        have := hS _ hs
        omega
      · obtain ⟨xd, _, e1⟩ := obind_eq_some.1 e1
        obtain ⟨h4, e4, e1⟩ := obind_eq_some.1 e1
        cases e1
        exact ⟨ite_keeps e4 (reallocate_keeps hd), hd⟩
    have k4 : h3.keeps S h' := by
      split at hp
      · obtain ⟨h5, e5, hp⟩ := obind_eq_some.1 hp
        cases hp
        exact ffbi_copy_keeps hd e5
      · cases hp
        exact Heap.keeps_refl S _
    exact k1.1.trans ((mul_core_keeps k1.2 e2).trans ((modify_keeps hd e3).trans k4))

/-! # Division writes its quotient, remainder and work values only -/

theorem forUp_keeps_lt {S : Nat → Prop} {σ : Type} (proj : σ → Heap)
    (body : Nat → σ → Option σ)
    (hb : ∀ k s s', (∀ q, S q → q < (proj s).obj.length) → body k s = some s' →
      (proj s).keeps S (proj s')) :
    ∀ (n k : Nat) (s s' : σ), (∀ q, S q → q < (proj s).obj.length) →
      forUp body n k s = some s' → (proj s).keeps S (proj s') := by
  intro n
  induction n with
  | zero =>
    intro k s s' _ hr
    cases hr
    exact Heap.keeps_refl S _
  | succ n ih =>
    intro k s s' hS hr
    obtain ⟨t, h1, h2⟩ := obind_eq_some.1 hr
    have k1 := hb _ _ _ hS h1
    exact k1.trans (ih _ _ _ (k1.lt hS) h2)

theorem forDown_keeps_lt {S : Nat → Prop} {σ : Type} (proj : σ → Heap)
    (body : Nat → σ → Option σ)
    (hb : ∀ k s s', (∀ q, S q → q < (proj s).obj.length) → body k s = some s' →
      (proj s).keeps S (proj s')) :
    ∀ (n : Nat) (s s' : σ), (∀ q, S q → q < (proj s).obj.length) →
      forDown body n s = some s' → (proj s).keeps S (proj s') := by
  intro n
  induction n with
  | zero =>
    intro s s' _ hr
    cases hr
    exact Heap.keeps_refl S _
  | succ n ih =>
    intro s s' hS hr
    obtain ⟨t, h1, h2⟩ := obind_eq_some.1 hr
    have k1 := hb _ _ _ hS h1
    exact k1.trans (ih _ _ (k1.lt hS) h2)

theorem whileLoop_keeps_lt {S : Nat → Prop} {σ : Type} (proj : σ → Heap)
    (cond : σ → Option Bool) (body : σ → Option σ)
    (hb : ∀ s s', (∀ q, S q → q < (proj s).obj.length) → body s = some s' →
      (proj s).keeps S (proj s')) :
    ∀ (fuel : Nat) (s s' : σ), (∀ q, S q → q < (proj s).obj.length) →
      whileLoop cond body fuel s = some s' → (proj s).keeps S (proj s') := by
  intro fuel
  induction fuel with
  | zero =>
    intro s s' _ hr
    cases hr
  | succ n ih =>
    intro s s' hS hr
    obtain ⟨c, _, h2⟩ := obind_eq_some.1 hr
    cases c with
    | false =>
      simp only [Bool.false_eq_true, if_false] at h2
      cases h2
      exact Heap.keeps_refl S _
    | true =>
      simp only [if_true] at h2
      obtain ⟨t, h3, h4⟩ := obind_eq_some.1 h2
      have k1 := hb _ _ hS h3
      exact k1.trans (ih _ _ (k1.lt hS) h4)

theorem correct_body_keeps {S : Nat → Prop} {P : Platform} {k q b product scratch : Nat}
    {h h' : Heap} (hS : ∀ q, S q → q < h.obj.length) (hq : ¬ S q) (hpr : ¬ S product)
    (hsc : ¬ S scratch) (hp : correct_body P k q b product scratch h = some h') :
    h.keeps S h' := by
  unfold correct_body at hp
  obtain ⟨_, _, hp⟩ := obind_eq_some.1 hp
  obtain ⟨h1, e1, hp⟩ := obind_eq_some.1 hp
  obtain ⟨_, _, hp⟩ := obind_eq_some.1 hp
  obtain ⟨h2, e2, hp⟩ := obind_eq_some.1 hp
  have k1 := wrDigit_keeps (S := S) hpr e1
  have k2 := wrDigit_keeps (S := S) hq e2
  exact k1.trans (k2.trans (ffbi_mul_keeps (k2.lt (k1.lt hS)) hsc hp))

theorem qd_equal_keeps {S : Nat → Prop} {k q r a : Nat} {h h' : Heap}
    (hq : ¬ S q) (hr : ¬ S r) (hp : qd_equal h k q r a = some h') : h.keeps S h' := by
  unfold qd_equal at hp
  obtain ⟨h1, e1, hp⟩ := obind_eq_some.1 hp
  obtain ⟨h2, e2, hp⟩ := obind_eq_some.1 hp
  have k3 : h2.keeps S h' := by
    split at hp
    · obtain ⟨_, _, hp⟩ := obind_eq_some.1 hp
      exact wrDigit_keeps hr hp
    · exact wrDigit_keeps hr hp
  exact (wrDigit_keeps hq e1).trans ((modify_keeps hr e2).trans k3)

theorem qd_less_keeps {S : Nat → Prop} {P : Platform} {k q r a : Nat} {h h' : Heap}
    (hq : ¬ S q) (hr : ¬ S r) (hp : qd_less P h k q r a = some h') : h.keeps S h' := by
  unfold qd_less at hp
  obtain ⟨h1, e1, hp⟩ := obind_eq_some.1 hp
  refine (wrDigit_keeps hq e1).trans ?_
  split at hp
  · obtain ⟨xr, _, hp⟩ := obind_eq_some.1 hp
    obtain ⟨nz, _, hp⟩ := obind_eq_some.1 hp
    obtain ⟨h2, e2, hp⟩ := obind_eq_some.1 hp
    obtain ⟨_, _, hp⟩ := obind_eq_some.1 hp
    refine Heap.keeps.trans ?_ (wrDigit_keeps hr hp)
    split at e2
    · obtain ⟨h3, e3, e2⟩ := obind_eq_some.1 e2
      obtain ⟨xr3, _, e2⟩ := obind_eq_some.1 e2
      obtain ⟨h4, e4, e2⟩ := obind_eq_some.1 e2
      obtain ⟨xr4, _, e2⟩ := obind_eq_some.1 e2
      refine (modify_keeps hr e3).trans ((ite_keeps e4 (reallocate_keeps hr)).trans ?_)
      refine forDown_keeps id _ (fun _ _ _ hk => ?_) _ _ _ e2
      obtain ⟨_, _, hk⟩ := obind_eq_some.1 hk
      exact wrDigit_keeps hr hk
    · cases e2
      exact Heap.keeps_refl S _
  · cases hp
    exact Heap.keeps_refl S _

theorem qd_estimate_keeps {S : Nat → Prop} {P : Platform} {k q r b bl : Nat} {h h' : Heap}
    (hq : ¬ S q) (hp : qd_estimate P h k q r b bl = some h') : h.keeps S h' := by
  unfold qd_estimate at hp
  obtain ⟨xr, _, hp⟩ := obind_eq_some.1 hp
  dsimp only at hp
  split at hp
  · obtain ⟨_, _, hp⟩ := obind_eq_some.1 hp
    obtain ⟨_, _, hp⟩ := obind_eq_some.1 hp
    split at hp
    · cases hp
    · exact wrDigit_keeps hq hp
  · obtain ⟨_, _, hp⟩ := obind_eq_some.1 hp
    obtain ⟨h1, e1, hp⟩ := obind_eq_some.1 hp
    obtain ⟨_, _, hp⟩ := obind_eq_some.1 hp
    obtain ⟨_, _, hp⟩ := obind_eq_some.1 hp
    split at hp
    · cases hp
    · exact (wrDigit_keeps hq e1).trans (wrDigit_keeps hq hp)

theorem qd_update_keeps {S : Nat → Prop} {P : Platform} {k r a product nl : Nat} {h h' : Heap}
    (hr : ¬ S r) (hp : qd_update P h k r a product nl = some h') : h.keeps S h' := by
  unfold qd_update at hp
  obtain ⟨xp, _, hp⟩ := obind_eq_some.1 hp
  obtain ⟨nz, _, hp⟩ := obind_eq_some.1 hp
  split at hp
  · obtain ⟨h1, e1, hp⟩ := obind_eq_some.1 hp
    obtain ⟨xr, _, hp⟩ := obind_eq_some.1 hp
    obtain ⟨h2, e2, hp⟩ := obind_eq_some.1 hp
    obtain ⟨h3, e3, hp⟩ := obind_eq_some.1 hp
    obtain ⟨xp3, _, hp⟩ := obind_eq_some.1 hp
    obtain ⟨h4, e4, hp⟩ := obind_eq_some.1 hp
    obtain ⟨_, _, hp⟩ := obind_eq_some.1 hp
    obtain ⟨_, _, hp⟩ := obind_eq_some.1 hp
    have k4 : h3.keeps S h4 := by
      refine forUp_keeps id _ (fun _ _ _ hk => ?_) _ _ _ _ e4
      obtain ⟨_, _, hk⟩ := obind_eq_some.1 hk
      exact wrDigit_keeps hr hk
    exact (modify_keeps hr e1).trans
      ((ite_keeps e2 (reallocate_keeps hr)).trans ((wrDigit_keeps hr e3).trans
        (k4.trans (wrDigit_keeps hr hp))))
  · obtain ⟨h1, e1, hp⟩ := obind_eq_some.1 hp
    obtain ⟨_, _, hp⟩ := obind_eq_some.1 hp
    exact (modify_keeps hr e1).trans (wrDigit_keeps hr hp)

theorem quotient_digit_keeps {S : Nat → Prop} {P : Platform}
    {k q r a b bl product nl scratch : Nat} {h h' : Heap}
    (hS : ∀ q, S q → q < h.obj.length) (hq : ¬ S q) (hr : ¬ S r) (hpr : ¬ S product)
    (hsc : ¬ S scratch)
    (hp : ffbi_get_quotient_digit P h k q r a b bl product nl scratch = some h') :
    h.keeps S h' := by
  unfold ffbi_get_quotient_digit at hp
  obtain ⟨cmp, _, hp⟩ := obind_eq_some.1 hp
  obtain ⟨ha, ea, hp⟩ := obind_eq_some.1 hp
  obtain ⟨hb, eb, hp⟩ := obind_eq_some.1 hp
  have ka := modify_keeps (S := S) hr ea
  have kb := modify_keeps (S := S) hq eb
  refine ka.trans (kb.trans ?_)
  have hSb := kb.lt (ka.lt hS)
  split at hp
  · exact qd_equal_keeps hq hr hp
  · split at hp
    · exact qd_less_keeps hq hr hp
    · obtain ⟨h1, e1, hp⟩ := obind_eq_some.1 hp
      obtain ⟨h2, e2, hp⟩ := obind_eq_some.1 hp
      obtain ⟨qd, _, hp⟩ := obind_eq_some.1 hp
      obtain ⟨h3, e3, hp⟩ := obind_eq_some.1 hp
      obtain ⟨h4, e4, hp⟩ := obind_eq_some.1 hp
      obtain ⟨h5, e5, hp⟩ := obind_eq_some.1 hp
      obtain ⟨h6, e6, hp⟩ := obind_eq_some.1 hp
      obtain ⟨_, _, hp⟩ := obind_eq_some.1 hp
      have k1 := qd_estimate_keeps (S := S) hq e1
      have k2 := modify_keeps (S := S) hpr e2
      have k3 := wrDigit_keeps (S := S) hpr e3
      have hS3 := k3.lt (k2.lt (k1.lt hSb))
      have k4 := ffbi_mul_keeps hS3 hsc e4
      have k5 : h4.keeps S h5 :=
        whileLoop_keeps_lt id _ _ (fun _ _ hs hk => correct_body_keeps hs hq hpr hsc hk)
          _ _ _ (k4.lt hS3) e5
      exact k1.trans (k2.trans (k3.trans (k4.trans (k5.trans
        ((ffbi_sub_keeps hpr e6).trans (qd_update_keeps hr hp))))))

theorem div_cache_keeps {S : Nat → Prop} {P : Platform} {dest a b s1 s2 : Nat}
    {rem : Option Nat} {h h' : Heap}
    (hd : ¬ S dest) (hrem : ∀ r, rem = some r → ¬ S r)
    (hp : ffbi_div_cache P h dest a b rem s1 s2 = some h') : h.keeps S h' := by
  unfold ffbi_div_cache at hp
  obtain ⟨h1, e1, hp⟩ := obind_eq_some.1 hp
  obtain ⟨h2, e2, hp⟩ := obind_eq_some.1 hp
  obtain ⟨h3, e3, hp⟩ := obind_eq_some.1 hp
  obtain ⟨xb, _, hp⟩ := obind_eq_some.1 hp
  obtain ⟨h4, e4, hp⟩ := obind_eq_some.1 hp
  obtain ⟨xa4, _, hp⟩ := obind_eq_some.1 hp
  obtain ⟨xb4, _, hp⟩ := obind_eq_some.1 hp
  obtain ⟨h5, e5, hp⟩ := obind_eq_some.1 hp
  obtain ⟨h6, e6, hp⟩ := obind_eq_some.1 hp
  obtain ⟨rh, e7, hp⟩ := obind_eq_some.1 hp
  obtain ⟨h8, e8, hp⟩ := obind_eq_some.1 hp
  obtain ⟨h9, e9, hp⟩ := obind_eq_some.1 hp
  obtain ⟨h10, e10, hp⟩ := obind_eq_some.1 hp
  obtain ⟨h11, e11, hp⟩ := obind_eq_some.1 hp
  obtain ⟨h12, e12, hp⟩ := obind_eq_some.1 hp
  obtain ⟨h13, e13, hp⟩ := obind_eq_some.1 hp
  obtain ⟨xd, _, hp⟩ := obind_eq_some.1 hp
  obtain ⟨h14, e14, hp⟩ := obind_eq_some.1 hp
  obtain ⟨h15, e15, hp⟩ := obind_eq_some.1 hp
  obtain ⟨h16, e16, hp⟩ := obind_eq_some.1 hp
  obtain ⟨h17, e17, hp⟩ := obind_eq_some.1 hp
  have k1 : h.keeps S h1 := cache_update_keeps e1
  have k2 : h1.keeps S h2 := cache_update_keeps e2
  have k3 : h2.keeps S h3 := modify_keeps_main e3 (fun _ => ⟨rfl, rfl, rfl, rfl⟩)
  have k4 : h3.keeps S h4 := cache_prepare_keeps e4
  have k5 : h4.keeps S h5 := cache_prepare_keeps e5
  have k6 : h5.keeps S h6 := modify_keeps_main e6 (fun _ => ⟨rfl, rfl, rfl, rfl⟩)
  have k7 : h6.keeps S rh.2 := by
    unfold div_remainder at e7
    cases rem with
    | none => exact (create_reserved_keeps e7).1
    | some r =>
      cases e7
      exact Heap.keeps_refl S _
  have k8 : rh.2.keeps S h8 := cache_prepare_keeps e8
  have k9 : h8.keeps S h9 := modify_keeps_main e9 (fun _ => ⟨rfl, rfl, rfl, rfl⟩)
  have k10 : h9.keeps S h10 := by
    refine forUp_keeps id _ (fun _ _ _ hk => ?_) _ _ _ _ e10
    obtain ⟨_, _, hk⟩ := obind_eq_some.1 hk
    exact wrCache_keeps hk
  have k11 : h10.keeps S h11 := modify_keeps_main e11 (fun _ => ⟨rfl, rfl, rfl, rfl⟩)
  have k12 : h11.keeps S h12 :=
    forDown_keeps id _ (fun _ _ _ hk => quotient_digit_cache_keeps hk) _ _ _ e12
  have k13 : h12.keeps S h13 := quotient_digit_cache_keeps e13
  have k14 : h13.keeps S h14 := by
    refine ite_keeps e14 (fun e => ?_)
    obtain ⟨top, _, e⟩ := obind_eq_some.1 e
    exact ite_keeps e (fun e' => modify_keeps_main e' (fun _ => ⟨rfl, rfl, rfl, rfl⟩))
  have k15 : h14.keeps S h15 := by
    cases rem with
    | none =>
      cases e15
      exact Heap.keeps_refl S _
    | some r => exact cache_retrieve_keeps (hrem r rfl) e15
  have k16 : h15.keeps S h16 := cache_retrieve_keeps hd e16
  have k17 : h16.keeps S h17 := modify_keeps_main e17 (fun _ => ⟨rfl, rfl, rfl, rfl⟩)
  have k18 : h17.keeps S h' := modify_keeps_main hp (fun _ => ⟨rfl, rfl, rfl, rfl⟩)
  exact k1.trans (k2.trans (k3.trans (k4.trans (k5.trans (k6.trans (k7.trans (k8.trans
    (k9.trans (k10.trans (k11.trans (k12.trans (k13.trans (k14.trans (k15.trans (k16.trans
    (k17.trans k18))))))))))))))))

theorem div_small_keeps {S : Nat → Prop} {P : Platform} {dest a : Nat}
    {rem : Option Nat} {h h' : Heap}
    (hd : ¬ S dest) (hrem : ∀ r, rem = some r → ¬ S r)
    (hp : div_small P h dest a rem = some h') : h.keeps S h' := by
  unfold div_small at hp
  obtain ⟨h1, e1, hp⟩ := obind_eq_some.1 hp
  obtain ⟨h2, e2, hp⟩ := obind_eq_some.1 hp
  obtain ⟨h3, e3, hp⟩ := obind_eq_some.1 hp
  have k1 : h.keeps S h1 := by
    cases rem with
    | none =>
      cases e1
      exact Heap.keeps_refl S _
    | some r =>
      have hr := hrem r rfl
      dsimp only at e1
      refine ite_keeps e1 (fun e => ?_)
      obtain ⟨xa, _, e⟩ := obind_eq_some.1 e
      obtain ⟨xr, _, e⟩ := obind_eq_some.1 e
      obtain ⟨h4, e4, e⟩ := obind_eq_some.1 e
      obtain ⟨xa4, _, e⟩ := obind_eq_some.1 e
      obtain ⟨h5, e5, e⟩ := obind_eq_some.1 e
      obtain ⟨xr5, _, e⟩ := obind_eq_some.1 e
      obtain ⟨xa5, _, e⟩ := obind_eq_some.1 e
      obtain ⟨ds, _, e⟩ := obind_eq_some.1 e
      exact (ite_keeps e4 (reallocate_keeps hr)).trans ((modify_keeps hr e5).trans
        (put_keeps (fun hs => absurd hs hr) e))
  exact k1.trans ((modify_keeps hd e2).trans ((wrDigit_keeps hd e3).trans (modify_keeps hd hp)))

theorem div_equal_keeps {S : Nat → Prop} {dest : Nat} {rem : Option Nat} {h h' : Heap}
    (hd : ¬ S dest) (hrem : ∀ r, rem = some r → ¬ S r)
    (hp : div_equal h dest rem = some h') : h.keeps S h' := by
  unfold div_equal at hp
  obtain ⟨h1, e1, hp⟩ := obind_eq_some.1 hp
  obtain ⟨h2, e2, hp⟩ := obind_eq_some.1 hp
  obtain ⟨h3, e3, hp⟩ := obind_eq_some.1 hp
  refine (modify_keeps hd e1).trans ((wrDigit_keeps hd e2).trans ((modify_keeps hd e3).trans ?_))
  cases rem with
  | none =>
    cases hp
    exact Heap.keeps_refl S _
  | some r =>
    have hr := hrem r rfl
    dsimp only at hp
    obtain ⟨h4, e4, hp⟩ := obind_eq_some.1 hp
    obtain ⟨h5, e5, hp⟩ := obind_eq_some.1 hp
    exact (modify_keeps hr e4).trans ((wrDigit_keeps hr e5).trans (modify_keeps hr hp))

theorem div_digits_keeps {S : Nat → Prop} {P : Platform} {dest a b s1 s2 : Nat}
    {rem : Option Nat} {h h' : Heap}
    (hS : ∀ q, S q → q < h.obj.length) (hd : ¬ S dest) (hrem : ∀ r, rem = some r → ¬ S r)
    (h1s : ¬ S s1) (h2s : ¬ S s2)
    (hp : div_digits P h dest a b rem s1 s2 = some h') : h.keeps S h' := by
  unfold div_digits at hp
  obtain ⟨xa, _, hp⟩ := obind_eq_some.1 hp
  obtain ⟨xb, _, hp⟩ := obind_eq_some.1 hp
  obtain ⟨xd, _, hp⟩ := obind_eq_some.1 hp
  obtain ⟨h1, e1, hp⟩ := obind_eq_some.1 hp
  obtain ⟨h2, e2, hp⟩ := obind_eq_some.1 hp
  obtain ⟨rh, e3, hp⟩ := obind_eq_some.1 hp
  obtain ⟨h4, e4, hp⟩ := obind_eq_some.1 hp
  obtain ⟨h5, e5, hp⟩ := obind_eq_some.1 hp
  obtain ⟨h6, e6, hp⟩ := obind_eq_some.1 hp
  obtain ⟨h7, e7, hp⟩ := obind_eq_some.1 hp
  obtain ⟨xd7, _, hp⟩ := obind_eq_some.1 hp
  obtain ⟨h8, e8, hp⟩ := obind_eq_some.1 hp
  obtain ⟨h9, e9, hp⟩ := obind_eq_some.1 hp
  obtain ⟨h10, e10, hp⟩ := obind_eq_some.1 hp
  have k1 : h.keeps S h1 := ite_keeps e1 (reallocate_keeps hd)
  have k2 : h1.keeps S h2 := modify_keeps hd e2
  have hS2 := k2.lt (k1.lt hS)
  have k3 : h2.keeps S rh.2 ∧ ¬ S rh.1 := by
    cases rem with
    | none =>
      have c := create_reserved_keeps (S := S) e3
      refine ⟨c.1, fun hs => ?_⟩
      have := hS2 _ hs
      omega
    | some r =>
      have hr := hrem r rfl
      dsimp only at e3
      obtain ⟨xr, _, e3⟩ := obind_eq_some.1 e3
      obtain ⟨h11, e11, e3⟩ := obind_eq_some.1 e3
      cases e3
      exact ⟨ite_keeps e11 (reallocate_keeps hr), hr⟩
  have hr := k3.2
  have k4 : rh.2.keeps S h4 := by
    refine forUp_keeps id _ (fun _ _ _ hk => ?_) _ _ _ _ e4
    obtain ⟨_, _, hk⟩ := obind_eq_some.1 hk
    exact wrDigit_keeps hr hk
  have k5 : h4.keeps S h5 := modify_keeps hr e5
  have hS5 := k5.lt (k4.lt (k3.1.lt hS2))
  have k6 : h5.keeps S h6 :=
    forDown_keeps_lt id _ (fun _ _ _ hs hk => quotient_digit_keeps hs hd hr h1s h2s hk)
      _ _ _ hS5 e6
  have k7 : h6.keeps S h7 := quotient_digit_keeps (k6.lt hS5) hd hr h1s h2s e7
  have k8 : h7.keeps S h8 := by
    refine ite_keeps e8 (fun e => ?_)
    obtain ⟨top, _, e⟩ := obind_eq_some.1 e
    exact ite_keeps e (modify_keeps hd)
  have k9 : h8.keeps S h9 := by
    cases rem with
    | none => exact modify_keeps hd e9
    | some r => exact modify_keeps hd e9
  exact k1.trans (k2.trans (k3.1.trans (k4.trans (k5.trans (k6.trans (k7.trans (k8.trans
    (k9.trans ((modify_keeps h1s e10).trans (modify_keeps h2s hp))))))))))

/-- The routine `ffbi_div_impl` writes the quotient, the remainder and the two work values;
every other bigint keeps its digits (the caches of the operands may change). -/
theorem ffbi_div_impl_keeps {S : Nat → Prop} {P : Platform} {dest a b s1 s2 : Nat}
    {rem : Option Nat} {h : Heap} {r : Int × Heap}
    (hS : ∀ q, S q → q < h.obj.length) (hd : ¬ S dest) (hrem : ∀ r, rem = some r → ¬ S r)
    (h1s : ¬ S s1) (h2s : ¬ S s2)
    (hp : ffbi_div_impl P h dest a b rem s1 s2 = some r) : h.keeps S r.2 := by
  unfold ffbi_div_impl at hp
  obtain ⟨cmp, _, hp⟩ := obind_eq_some.1 hp
  split at hp
  · obtain ⟨h1, e1, hp⟩ := obind_eq_some.1 hp
    cases hp
    exact div_small_keeps hd hrem e1
  · split at hp
    · obtain ⟨h1, e1, hp⟩ := obind_eq_some.1 hp
      cases hp
      exact div_equal_keeps hd hrem e1
    · obtain ⟨xa, _, hp⟩ := obind_eq_some.1 hp
      obtain ⟨xb, _, hp⟩ := obind_eq_some.1 hp
      split at hp
      · obtain ⟨h1, e1, hp⟩ := obind_eq_some.1 hp
        cases hp
        exact div_cache_keeps hd hrem e1
      · obtain ⟨h1, e1, hp⟩ := obind_eq_some.1 hp
        cases hp
        exact div_digits_keeps hS hd hrem h1s h2s e1

/-! # Scratch arenas and modular exponentiation keep the bigints outside the arenas -/

theorem keepsMain_of_obj_eq {S : Nat → Prop} {h h1 : Heap} (ho : h1.obj = h.obj) :
    h.keepsMain S h1 := by
  refine ⟨by rw [ho], fun q x _ hg => ⟨x, ?_, sameMain_refl x⟩⟩
  unfold Heap.get at hg ⊢
  rw [ho]
  exact hg

/-- Replacing the values of arena `s` by values that avoid `S` keeps every arena clear
of `S`. -/
theorem arenaAvoids_set {S : Nat → Prop} {h : Heap} {s : Nat} {c : FFBI_SCRATCH}
    (hv : ∀ v, v ∈ c.val → ¬ S v) (t : Nat) (a : arenaAvoids S h t) :
    arenaAvoids S { h with scr := h.scr.set s c } t := by
  intro sr hsr
  by_cases hts : s = t
  · subst hts
    have hsr' : (h.scr.set s c)[s]? = some sr := hsr
    rw [List.getElem?_set] at hsr'
    simp only [if_true] at hsr'
    split at hsr'
    · cases hsr'
      exact hv
    · cases hsr'
  · have hsr' : (h.scr.set s c)[t]? = some sr := hsr
    rw [scratch_get_set_ne c hts] at hsr'
    exact a sr hsr'

theorem mem_of_get_some {l : List Nat} {i v : Nat} (hv : l[i]? = some v) : v ∈ l := by
  obtain ⟨hi, he⟩ := List.getElem?_eq_some.mp hv
  rw [← he]
  exact List.getElem_mem hi

theorem scratch_fill_keeps {S : Nat → Prop} {P : Platform} {vd n : Nat} {vals : List Nat}
    {h : Heap} {r : List Nat × Heap} (hp : scratch_fill P vd n vals h = some r) :
    h.keeps S r.2 ∧ ∀ v, v ∈ r.1 → v ∈ vals ∨ h.obj.length ≤ v := by
  obtain ⟨h', f1, f2, f3, f4, _⟩ := scratch_fill_spec P vd n vals h
  rw [f1] at hp
  cases hp
  refine ⟨⟨by dsimp only; omega, f3, fun q x _ hg => ⟨x, ?_, sameMain_refl x⟩⟩, fun v hv => ?_⟩
  · exact (f4 q (Heap.get_lt hg)).trans hg
  · rcases List.mem_append.mp hv with h1 | h1
    · exact Or.inl h1
    · exact Or.inr (List.mem_range'_1.mp h1).1

/-- The routine `ffbi_scratch_prepare` on an arena whose values avoid `S` keeps the bigints
selected by `S`, and every arena that avoided `S` still does. -/
theorem scratch_prepare_keeps {S : Nat → Prop} {P : Platform} {s nv vd : Nat} {h h' : Heap}
    (hS : ∀ q, S q → q < h.obj.length) (ha : arenaAvoids S h s)
    (hp : ffbi_scratch_prepare P h s nv vd = some h') :
    h.keepsMain S h' ∧ ∀ t, arenaAvoids S h t → arenaAvoids S h' t := by
  have fresh : ∀ v, h.obj.length ≤ v → ¬ S v := fun v hv hs => by
    have := hS v hs
    omega
  unfold ffbi_scratch_prepare at hp
  obtain ⟨sc, hsc, hp⟩ := obind_eq_some.1 hp
  dsimp only at hp
  split at hp
  · obtain ⟨r, e1, hp⟩ := obind_eq_some.1 hp
    cases hp
    have f := scratch_fill_keeps (S := S) e1
    refine ⟨f.1.main.andThen (keepsMain_of_obj_eq rfl), fun t at0 => ?_⟩
    refine arenaAvoids_set (h := r.2) (c := { sc with val := r.1 }) (fun v hv => ?_) t
      (f.1.avoid at0)
    rcases f.2 v hv with h1 | h1
    · exact absurd h1 (List.not_mem_nil v)
    · exact fresh v h1
  · obtain ⟨h1, e1, hp⟩ := obind_eq_some.1 hp
    obtain ⟨sc1, hsc1, hp⟩ := obind_eq_some.1 hp
    have k1 : h.keepsMain S h1 ∧ ∀ t, arenaAvoids S h t → arenaAvoids S h1 t := by
      split at e1
      · obtain ⟨r, e2, e1⟩ := obind_eq_some.1 e1
        cases e1
        have f := scratch_fill_keeps (S := S) e2
        refine ⟨f.1.main.andThen (keepsMain_of_obj_eq rfl), fun t at0 => ?_⟩
        refine arenaAvoids_set (h := r.2) (c := { sc with val := r.1 }) (fun v hv => ?_) t
          (f.1.avoid at0)
        rcases f.2 v hv with h1 | h1
        · exact ha sc hsc v h1
        · exact fresh v h1
      · cases e1
        exact ⟨Heap.keepsMain_refl S h, fun _ a => a⟩
    have hv1 : ∀ v, v ∈ sc1.val → ¬ S v := k1.2 s ha sc1 hsc1
    have k2 : h1.keeps S h' := by
      refine forUp_keeps id _ (fun i t t' hk => ?_) _ _ _ _ hp
      obtain ⟨p, hpv, hk⟩ := obind_eq_some.1 hk
      obtain ⟨x, _, hk⟩ := obind_eq_some.1 hk
      have hpm : p ∈ sc1.val := mem_of_get_some hpv
      exact ite_keeps hk (reallocate_keeps (hv1 p hpm))
    exact ⟨k1.1.andThen k2.main, fun t at0 => k2.avoid (k1.2 t at0)⟩

theorem scratch_or_create_keeps {S : Nat → Prop} (h : Heap) (scratch : Option Nat)
    (hsc : ∀ s, scratch = some s → arenaAvoids S h s) :
    h.keepsMain S (scratch_or_create h scratch).2 ∧
      arenaAvoids S (scratch_or_create h scratch).2 (scratch_or_create h scratch).1 ∧
      ∀ t, arenaAvoids S h t → arenaAvoids S (scratch_or_create h scratch).2 t := by
  cases scratch with
  | some s => exact ⟨Heap.keepsMain_refl S h, hsc s rfl, fun _ a => a⟩
  | none =>
    refine ⟨keepsMain_of_obj_eq rfl, ?_, fun t at0 => ?_⟩
    · intro sr hsr
      have hsr' : (h.scr ++ [{ val := [], child := none, num_children := 0 }])[h.scr.length]?
          = some sr := hsr
      rw [scratch_get_append_last] at hsr'
      cases hsr'
      exact fun v hv => absurd hv (List.not_mem_nil v)
    · intro sr hsr
      have hsr' : (h.scr ++ [{ val := [], child := none, num_children := 0 }])[t]?
          = some sr := hsr
      by_cases htl : t < h.scr.length
      · rw [scratch_get_append _ htl] at hsr'
        exact at0 sr hsr'
      · have hte : t = h.scr.length := by
          have := (List.getElem?_eq_some.mp hsr').1
          simp at this
          omega
        subst hte
        rw [scratch_get_append_last] at hsr'
        cases hsr'
        exact fun v hv => absurd hv (List.not_mem_nil v)

theorem mod_pow_shift_keeps {S : Nat → Prop} {P : Platform} {x i : Nat} {s s' : Nat × Heap}
    (hx : ¬ S x) (hp : mod_pow_shift P x i s = some s') : s.2.keeps S s'.2 := by
  unfold mod_pow_shift at hp
  obtain ⟨_, _, hp⟩ := obind_eq_some.1 hp
  obtain ⟨h1, e1, hp⟩ := obind_eq_some.1 hp
  obtain ⟨_, _, hp⟩ := obind_eq_some.1 hp
  obtain ⟨h2, e2, hp⟩ := obind_eq_some.1 hp
  cases hp
  exact (wrDigit_keeps hx e1).trans (wrDigit_keeps hx e2)

theorem mod_pow_body_keeps {S : Nat → Prop} {P : Platform} {ret m x apow v2 v3 v4 v5 : Nat}
    {h h' : Heap} (hS : ∀ q, S q → q < h.obj.length) (hret : ¬ S ret) (hx : ¬ S x)
    (hap : ¬ S apow) (h2 : ¬ S v2) (h3 : ¬ S v3) (h4 : ¬ S v4) (h5 : ¬ S v5)
    (hp : mod_pow_body P ret m x apow v2 v3 v4 v5 h = some h') : h.keeps S h' := by
  unfold mod_pow_body at hp
  obtain ⟨x0, _, hp⟩ := obind_eq_some.1 hp
  obtain ⟨h1, e1, hp⟩ := obind_eq_some.1 hp
  obtain ⟨xx, _, hp⟩ := obind_eq_some.1 hp
  obtain ⟨s, e2, hp⟩ := obind_eq_some.1 hp
  obtain ⟨xx2, _, hp⟩ := obind_eq_some.1 hp
  obtain ⟨h3', e3, hp⟩ := obind_eq_some.1 hp
  obtain ⟨h4', e4, hp⟩ := obind_eq_some.1 hp
  obtain ⟨r, e5, hp⟩ := obind_eq_some.1 hp
  cases hp
  have hsome : ∀ r', some ret = some r' → ¬ S r' := fun r' e => by cases e; exact hret
  have hsomea : ∀ r', some apow = some r' → ¬ S r' := fun r' e => by cases e; exact hap
  have k1 : h.keeps S h1 := by
    refine ite_keeps e1 (fun e => ?_)
    obtain ⟨h6, e6, e⟩ := obind_eq_some.1 e
    obtain ⟨r6, e7, e⟩ := obind_eq_some.1 e
    cases e
    have km := ffbi_mul_keeps hS h2 e6
    exact km.trans (ffbi_div_impl_keeps (km.lt hS) h5 hsome h3 h4 e7)
  have k2 : h1.keeps S s.2 :=
    forDown_keeps (fun t : Nat × Heap => t.2) _ (fun _ _ _ hk => mod_pow_shift_keeps hx hk)
      _ _ _ e2
  have k3 : s.2.keeps S h3' := by
    refine ite_keeps e3 (fun e => ?_)
    obtain ⟨top, _, e⟩ := obind_eq_some.1 e
    split at e
    · exact modify_keeps hx e
    · cases e
      exact Heap.keeps_refl S _
  have hS3 := k3.lt (k2.lt (k1.lt hS))
  have k4 := ffbi_mul_keeps hS3 h2 e4
  have k5 := ffbi_div_impl_keeps (k4.lt hS3) h5 hsomea h3 h4 e5
  exact k1.trans (k2.trans (k3.trans (k4.trans k5)))

/-- The routine `ffbi_mod_pow` writes `dest` and the values of its arena; when the arena it
is given avoids `S` (a new arena always does), the bigints selected by `S` keep their digits
and every arena that avoided `S` still does. -/
theorem ffbi_mod_pow_keeps {S : Nat → Prop} {P : Platform} {fuel dest n e m : Nat}
    {scratch : Option Nat} {h h' : Heap}
    (hS : ∀ q, S q → q < h.obj.length) (hd : ¬ S dest)
    (hsc : ∀ s, scratch = some s → arenaAvoids S h s)
    (hp : ffbi_mod_pow P fuel h dest n e m scratch = some h') :
    h.keepsMain S h' ∧ ∀ t, arenaAvoids S h t → arenaAvoids S h' t := by
  unfold ffbi_mod_pow at hp
  obtain ⟨xm, _, hp⟩ := obind_eq_some.1 hp
  obtain ⟨one, _, hp⟩ := obind_eq_some.1 hp
  split at hp
  · obtain ⟨h1, e1, hp⟩ := obind_eq_some.1 hp
    have k := (modify_keeps (S := S) hd e1).trans (wrDigit_keeps hd hp)
    exact ⟨k.main, fun t a => k.avoid a⟩
  · dsimp only at hp
    have c := scratch_or_create_keeps (S := S) h scratch hsc
    generalize scratch_or_create h scratch = sh at hp c
    obtain ⟨xn, _, hp⟩ := obind_eq_some.1 hp
    obtain ⟨h1, e1, hp⟩ := obind_eq_some.1 hp
    obtain ⟨xr, _, hp⟩ := obind_eq_some.1 hp
    obtain ⟨h2, e2, hp⟩ := obind_eq_some.1 hp
    obtain ⟨h3, e3, hp⟩ := obind_eq_some.1 hp
    obtain ⟨h4, e4, hp⟩ := obind_eq_some.1 hp
    obtain ⟨h5, e5, hp⟩ := obind_eq_some.1 hp
    obtain ⟨sc, hsc5, hp⟩ := obind_eq_some.1 hp
    obtain ⟨x, hx, hp⟩ := obind_eq_some.1 hp
    obtain ⟨apow, hapow, hp⟩ := obind_eq_some.1 hp
    obtain ⟨v2, hv2, hp⟩ := obind_eq_some.1 hp
    obtain ⟨v3, hv3, hp⟩ := obind_eq_some.1 hp
    obtain ⟨v4, hv4, hp⟩ := obind_eq_some.1 hp
    obtain ⟨v5, hv5, hp⟩ := obind_eq_some.1 hp
    obtain ⟨h6, e6, hp⟩ := obind_eq_some.1 hp
    obtain ⟨h7, e7, hp⟩ := obind_eq_some.1 hp
    obtain ⟨h8, e8, hp⟩ := obind_eq_some.1 hp
    have hS0 := c.1.below hS
    have p1 := scratch_prepare_keeps hS0 c.2.1 e1
    have hS1 := p1.1.below hS0
    have k2 : h1.keeps S h2 := ite_keeps e2 (reallocate_keeps hd)
    have k3 : h2.keeps S h3 := modify_keeps hd e3
    have k4 : h3.keeps S h4 := wrDigit_keeps hd e4
    have k5 : h4.keeps S h5 := modify_keeps hd e5
    have k25 := k2.trans (k3.trans (k4.trans k5))
    have av5 : arenaAvoids S h5 sh.1 := k25.avoid (p1.2 _ c.2.1)
    have hval : ∀ v, v ∈ sc.val → ¬ S v := av5 sc hsc5
    have nx := hval x (mem_of_get_some hx)
    have nap := hval apow (mem_of_get_some hapow)
    have n2 := hval v2 (mem_of_get_some hv2)
    have n3 := hval v3 (mem_of_get_some hv3)
    have n4 := hval v4 (mem_of_get_some hv4)
    have n5 := hval v5 (mem_of_get_some hv5)
    have k6 : h5.keeps S h6 := ffbi_copy_keeps nx e6
    have k7 : h6.keeps S h7 := ffbi_copy_keeps nap e7
    have hS7 := k7.lt (k6.lt (k25.lt hS1))
    have k8 : h7.keeps S h8 :=
      whileLoop_keeps_lt id _ _
        (fun _ _ hs hk => mod_pow_body_keeps hs hd nx nap n2 n3 n4 n5 hk) _ _ _ hS7 e8
    have k9 : h8.keeps S h' := modify_keeps nx hp
    have kk := k25.trans (k6.trans (k7.trans (k8.trans k9)))
    exact ⟨c.1.andThen (p1.1.andThen kk.main), fun t a => kk.avoid (p1.2 t (c.2.2 t a))⟩

/-! # C35: `ffbi_mod_pow` leaves its operands as they were -/

/-- Claim C35: when `ffbi_mod_pow(dest, n, e, m, scratch)` returns, with `dest` distinct from
`n`, `e` and `m` and a scratch arena (if one is passed) whose values are not the operands, the
bigints `n`, `e` and `m` have the digit array, length, capacity and growth flag they had before
the call: the exponent is halved in the arena's copy only. -/
theorem ffbi_mod_pow_leaves_operands (P : Platform) (fuel : Nat) (h h' : Heap)
    (dest n e m : Nat) (scratch : Option Nat) (xn xe xm : FFBI)
    (hn : h.get n = some xn) (he : h.get e = some xe) (hm : h.get m = some xm)
    (hdn : dest ≠ n) (hde : dest ≠ e) (hdm : dest ≠ m)
    (hsc : ∀ s sr, scratch = some s → h.scr[s]? = some sr →
      n ∉ sr.val ∧ e ∉ sr.val ∧ m ∉ sr.val)
    (hr : ffbi_mod_pow P fuel h dest n e m scratch = some h') :
    ∃ yn ye ym, h'.get n = some yn ∧ h'.get e = some ye ∧ h'.get m = some ym ∧
      sameMain xn yn ∧ sameMain xe ye ∧ sameMain xm ym := by
  have hS : ∀ q, (q = n ∨ q = e ∨ q = m) → q < h.obj.length := by
    intro q hq
    rcases hq with hq | hq | hq
    · rw [hq]; exact Heap.get_lt hn
    · rw [hq]; exact Heap.get_lt he
    · rw [hq]; exact Heap.get_lt hm
  have hd : ¬ (dest = n ∨ dest = e ∨ dest = m) := fun hq => by
    rcases hq with hq | hq | hq
    · exact hdn hq
    · exact hde hq
    · exact hdm hq
  have ha : ∀ s, scratch = some s → arenaAvoids (fun q => q = n ∨ q = e ∨ q = m) h s := by
    intro s hs sr hsr v hv hq
    obtain ⟨a1, a2, a3⟩ := hsc s sr hs hsr
    rcases hq with hq | hq | hq
    · exact a1 (hq ▸ hv)
    · exact a2 (hq ▸ hv)
    · exact a3 (hq ▸ hv)
  have k := (ffbi_mod_pow_keeps (S := fun q => q = n ∨ q = e ∨ q = m) hS hd ha hr).1
  obtain ⟨yn, g1, s1⟩ := k.2 n xn (Or.inl rfl) hn
  obtain ⟨ye, g2, s2⟩ := k.2 e xe (Or.inr (Or.inl rfl)) he
  obtain ⟨ym, g3, s3⟩ := k.2 m xm (Or.inr (Or.inr rfl)) hm
  exact ⟨yn, ye, ym, g1, g2, g3, s1, s2, s3⟩

set_option maxRecDepth 100000 in
/-- The call `mod_pow(4, 13, 497)` on the 29-bit configuration without an arena returns with
445 in `dest`, and the three operands are as before. -/
theorem ffbi_mod_pow_leaves_operands_witness :
    ∃ h', ffbi_mod_pow .generic64 8
        (exHeap [exBig [0, 0, 0] 1, exBig [4, 0, 0] 1, exBig [13, 0, 0] 1,
          exBig [497, 0, 0] 1] 0) 0 1 2 3 none = some h' ∧
      (obind (h'.get 0) fun x => some (val .generic64 x)) = some 445 ∧
      ∃ yn ye ym, h'.get 1 = some yn ∧ h'.get 2 = some ye ∧ h'.get 3 = some ym ∧
        sameMain (exBig [4, 0, 0] 1) yn ∧ sameMain (exBig [13, 0, 0] 1) ye ∧
        sameMain (exBig [497, 0, 0] 1) ym := by
  have hv : (obind (ffbi_mod_pow .generic64 8
      (exHeap [exBig [0, 0, 0] 1, exBig [4, 0, 0] 1, exBig [13, 0, 0] 1,
        exBig [497, 0, 0] 1] 0) 0 1 2 3 none) fun h' =>
      obind (h'.get 0) fun x => some (val .generic64 x)) = some 445 := by decide
  obtain ⟨h', hq, hv'⟩ := obind_eq_some.1 hv
  exact ⟨h', hq, hv', ffbi_mod_pow_leaves_operands .generic64 8
    (exHeap [exBig [0, 0, 0] 1, exBig [4, 0, 0] 1, exBig [13, 0, 0] 1, exBig [497, 0, 0] 1] 0)
    h' 0 1 2 3 none (exBig [4, 0, 0] 1) (exBig [13, 0, 0] 1) (exBig [497, 0, 0] 1) rfl rfl rfl
    (by decide) (by decide) (by decide) (fun _ _ hs => Option.noConfusion hs) hq⟩

/-! # The random routines and the primality test keep the bigints outside the arenas -/

theorem rand_keeps (S : Nat → Prop) (h : Heap) : h.keeps S (rand h).2 :=
  keeps_of_obj_eq rfl rfl

theorem random_chunk_keeps {S : Nat → Prop} {P : Platform} {p i : Nat} {s s' : Nat × Heap}
    (hd : ¬ S p) (hp : random_chunk P p i s = some s') : s.2.keeps S s'.2 := by
  unfold random_chunk at hp
  obtain ⟨_, _, hp⟩ := obind_eq_some.1 hp
  obtain ⟨h1, e1, hp⟩ := obind_eq_some.1 hp
  obtain ⟨_, _, hp⟩ := obind_eq_some.1 hp
  obtain ⟨h2, e2, hp⟩ := obind_eq_some.1 hp
  cases hp
  exact (wrDigit_keeps hd e1).trans ((rand_keeps S h1).trans (wrDigit_keeps hd e2))

theorem random_digit_keeps {S : Nat → Prop} {P : Platform} {p i bits : Nat} {h h' : Heap}
    (hd : ¬ S p) (hp : random_digit P h p i bits = some h') : h.keeps S h' := by
  unfold random_digit at hp
  obtain ⟨h1, e1, hp⟩ := obind_eq_some.1 hp
  obtain ⟨s, e2, hp⟩ := obind_eq_some.1 hp
  have k2 : h1.keeps S s.2 :=
    whileLoop_keeps (fun t : Nat × Heap => t.2) _ _ (fun _ _ hk => random_chunk_keeps hd hk)
      _ _ _ e2
  refine (wrDigit_keeps hd e1).trans (k2.trans ?_)
  split at hp
  · obtain ⟨_, _, hp⟩ := obind_eq_some.1 hp
    obtain ⟨h3, e3, hp⟩ := obind_eq_some.1 hp
    obtain ⟨_, _, hp⟩ := obind_eq_some.1 hp
    exact (wrDigit_keeps hd e3).trans ((rand_keeps S h3).trans (wrDigit_keeps hd hp))
  · cases hp
    exact Heap.keeps_refl S _

theorem ffbi_random_keeps {S : Nat → Prop} {P : Platform} {p n : Nat} {h h' : Heap}
    (hd : ¬ S p) (hp : ffbi_random P h p n = some h') : h.keeps S h' := by
  unfold ffbi_random at hp
  dsimp only at hp
  split at hp
  · cases hp
    exact Heap.keeps_refl S _
  · obtain ⟨x, _, hp⟩ := obind_eq_some.1 hp
    obtain ⟨h1, e1, hp⟩ := obind_eq_some.1 hp
    obtain ⟨h2, e2, hp⟩ := obind_eq_some.1 hp
    obtain ⟨h3, e3, hp⟩ := obind_eq_some.1 hp
    obtain ⟨h4, e4, hp⟩ := obind_eq_some.1 hp
    have k3 : h2.keeps S h3 :=
      forUp_keeps id _ (fun _ _ _ hk => random_digit_keeps hd hk) _ _ _ _ e3
    have k4 : h3.keeps S h4 := by
      split at e4
      · obtain ⟨h5, e5, e4⟩ := obind_eq_some.1 e4
        obtain ⟨_, _, e4⟩ := obind_eq_some.1 e4
        exact (random_digit_keeps hd e5).trans (wrDigit_keeps hd e4)
      · obtain ⟨_, _, e4⟩ := obind_eq_some.1 e4
        exact wrDigit_keeps hd e4
    exact (ite_keeps e1 (reallocate_keeps hd)).trans ((modify_keeps hd e2).trans
      (k3.trans (k4.trans (modify_keeps hd hp))))

theorem rwl_chunk_keeps {S : Nat → Prop} {P : Platform} {p limit i : Nat}
    {s s' : Nat × Bool × Heap} (hd : ¬ S p) (hp : rwl_chunk P p limit i s = some s') :
    s.2.2.keeps S s'.2.2 := by
  unfold rwl_chunk at hp
  obtain ⟨_, _, hp⟩ := obind_eq_some.1 hp
  obtain ⟨h1, e1, hp⟩ := obind_eq_some.1 hp
  obtain ⟨_, _, hp⟩ := obind_eq_some.1 hp
  obtain ⟨_, _, hp⟩ := obind_eq_some.1 hp
  obtain ⟨h2, e2, hp⟩ := obind_eq_some.1 hp
  cases hp
  exact (wrDigit_keeps hd e1).trans ((rand_keeps S h1).trans (wrDigit_keeps hd e2))

theorem rwl_tail_keeps {S : Nat → Prop} {P : Platform} {p limit i : Nat}
    {s : Nat × Bool × Heap} {s' : Bool × Heap} (hd : ¬ S p)
    (hp : rwl_tail P p limit i s = some s') : s.2.2.keeps S s'.2 := by
  unfold rwl_tail at hp
  dsimp only at hp
  split at hp
  · obtain ⟨_, _, hp⟩ := obind_eq_some.1 hp
    obtain ⟨h1, e1, hp⟩ := obind_eq_some.1 hp
    obtain ⟨_, _, hp⟩ := obind_eq_some.1 hp
    obtain ⟨_, _, hp⟩ := obind_eq_some.1 hp
    obtain ⟨h2, e2, hp⟩ := obind_eq_some.1 hp
    cases hp
    exact (wrDigit_keeps hd e1).trans ((rand_keeps S h1).trans (wrDigit_keeps hd e2))
  · cases hp
    exact Heap.keeps_refl S _

theorem rwl_digit_keeps {S : Nat → Prop} {P : Platform} {p limit i : Nat}
    {s s' : Bool × Heap} (hd : ¬ S p) (hp : rwl_digit P p limit i s = some s') :
    s.2.keeps S s'.2 := by
  unfold rwl_digit at hp
  obtain ⟨h1, e1, hp⟩ := obind_eq_some.1 hp
  obtain ⟨t, e2, hp⟩ := obind_eq_some.1 hp
  have k2 : h1.keeps S t.2.2 :=
    whileLoop_keeps (fun t : Nat × Bool × Heap => t.2.2) _ _
      (fun _ _ hk => rwl_chunk_keeps hd hk) _ _ _ e2
  exact (wrDigit_keeps hd e1).trans (k2.trans (rwl_tail_keeps hd hp))

theorem rwl_decrement_keeps {S : Nat → Prop} {p : Nat} (hd : ¬ S p) :
    ∀ (n i : Nat) (h h' : Heap), rwl_decrement p n i h = some h' → h.keeps S h' := by
  intro n
  induction n with
  | zero =>
    intro i h h' hp
    cases hp
    exact Heap.keeps_refl S _
  | succ n ih =>
    intro i h h' hp
    obtain ⟨d, _, hp⟩ := obind_eq_some.1 hp
    split at hp
    · exact wrDigit_keeps hd hp
    · exact ih _ _ _ hp

theorem random_with_limit_keeps {S : Nat → Prop} {P : Platform} {p limit : Nat} {h h' : Heap}
    (hd : ¬ S p) (hp : ffbi_random_with_limit P h p limit = some h') : h.keeps S h' := by
  unfold ffbi_random_with_limit at hp
  obtain ⟨xp, _, hp⟩ := obind_eq_some.1 hp
  obtain ⟨xl, _, hp⟩ := obind_eq_some.1 hp
  obtain ⟨h1, e1, hp⟩ := obind_eq_some.1 hp
  obtain ⟨xl1, _, hp⟩ := obind_eq_some.1 hp
  obtain ⟨h2, e2, hp⟩ := obind_eq_some.1 hp
  obtain ⟨xp2, _, hp⟩ := obind_eq_some.1 hp
  obtain ⟨s, e3, hp⟩ := obind_eq_some.1 hp
  obtain ⟨h4, e4, hp⟩ := obind_eq_some.1 hp
  obtain ⟨xp4, _, hp⟩ := obind_eq_some.1 hp
  obtain ⟨n, _, hp⟩ := obind_eq_some.1 hp
  have k3 : h2.keeps S s.2 :=
    forDown_keeps (fun t : Bool × Heap => t.2) _ (fun _ _ _ hk => rwl_digit_keeps hd hk)
      _ _ _ e3
  have k4 : s.2.keeps S h4 := by
    refine ite_keeps e4 (fun e => ?_)
    obtain ⟨xp5, _, e⟩ := obind_eq_some.1 e
    exact rwl_decrement_keeps hd _ _ _ _ e
  exact (ite_keeps e1 (reallocate_keeps hd)).trans ((modify_keeps hd e2).trans
    (k3.trans (k4.trans (modify_keeps hd hp))))

theorem prime_sieve_loop_keeps {S : Nat → Prop} {P : Platform} {p t1 t2 t3 c0 : Nat}
    (h1 : ¬ S t1) (h2 : ¬ S t2) (h3 : ¬ S t3) (hc : ¬ S c0) :
    ∀ (l : List Nat) (h : Heap) (r : Bool × Heap), (∀ q, S q → q < h.obj.length) →
      prime_sieve_loop P p t1 t2 t3 c0 l h = some r → h.keeps S r.2 := by
  intro l
  induction l with
  | nil =>
    intro h r _ hp
    cases hp
    exact Heap.keeps_refl S _
  | cons d rest ih =>
    intro h r hS hp
    unfold prime_sieve_loop at hp
    obtain ⟨c, _, hp⟩ := obind_eq_some.1 hp
    split at hp
    · cases hp
      exact Heap.keeps_refl S _
    · obtain ⟨r1, e1, hp⟩ := obind_eq_some.1 hp
      obtain ⟨x1, _, hp⟩ := obind_eq_some.1 hp
      obtain ⟨z, _, hp⟩ := obind_eq_some.1 hp
      have k1 := ffbi_div_impl_keeps hS h2 (fun r' e => by cases e; exact h1) h3 hc e1
      split at hp
      · cases hp
        exact k1
      · exact k1.trans (ih _ _ (k1.lt hS) hp)

theorem prime_fermat_loop_keeps {S : Nat → Prop} {P : Platform}
    {fuel p pm1 t1 a dest child : Nat} (ha : ¬ S a) (hd : ¬ S dest) :
    ∀ (k : Nat) (h : Heap) (r : Nat × Heap), (∀ q, S q → q < h.obj.length) →
      (∀ t, arenaAvoids S h t) →
      prime_fermat_loop P fuel p pm1 t1 a dest child k h = some r →
      h.keepsMain S r.2 ∧ (∀ t, arenaAvoids S r.2 t) ∧ (r.1 = 0 ∨ r.1 = 1) := by
  intro k
  induction k with
  | zero =>
    intro h r _ hav hp
    cases hp
    exact ⟨Heap.keepsMain_refl S _, hav, Or.inr rfl⟩
  | succ k ih =>
    intro h r hS hav hp
    unfold prime_fermat_loop at hp
    obtain ⟨h1, e1, hp⟩ := obind_eq_some.1 hp
    obtain ⟨h2, e2, hp⟩ := obind_eq_some.1 hp
    obtain ⟨h3, e3, hp⟩ := obind_eq_some.1 hp
    obtain ⟨xd, _, hp⟩ := obind_eq_some.1 hp
    obtain ⟨fail, _, hp⟩ := obind_eq_some.1 hp
    have k1 := random_with_limit_keeps (S := S) ha e1
    have k2 := ffbi_add_u_keeps (S := S) ha e2
    have k12 := k1.trans k2
    have hS2 := k12.lt hS
    have hav2 : ∀ t, arenaAvoids S h2 t := fun t => k12.avoid (hav t)
    have k3 := ffbi_mod_pow_keeps hS2 hd (fun s _ => hav2 s) e3
    have km : h.keepsMain S h3 := k12.main.andThen k3.1
    have hav3 : ∀ t, arenaAvoids S h3 t := fun t => k3.2 t (hav2 t)
    split at hp
    · cases hp
      exact ⟨km, hav3, Or.inl rfl⟩
    · obtain ⟨r1, r2, r3⟩ := ih _ _ (km.below hS) hav3 hp
      exact ⟨km.andThen r1, r2, r3⟩

theorem scratch_create_avoid {S : Nat → Prop} {h : Heap} (hav : ∀ t, arenaAvoids S h t) :
    ∀ t, arenaAvoids S (ffbi_scratch_create h).2 t := by
  intro t
  exact (scratch_or_create_keeps (S := S) h none (fun _ e => Option.noConfusion e)).2.2 t
    (hav t)

theorem arenas_set_avoid {S : Nat → Prop} {h : Heap} {s : Nat} {c : FFBI_SCRATCH}
    (hav : ∀ t, arenaAvoids S h t) (hv : ∀ v, v ∈ c.val → ¬ S v) :
    ∀ t, arenaAvoids S { h with scr := h.scr.set s c } t :=
  fun t => arenaAvoids_set hv t (hav t)

/-! # The primality test keeps its candidate -/

/-- Marking an arena (its child pointer and child count) keeps every arena clear of `S`. -/
theorem arenas_mark_avoid {S : Nat → Prop} {h : Heap} {s : Nat} {sc : FFBI_SCRATCH}
    (hav : ∀ t, arenaAvoids S h t) (hsc : h.scr[s]? = some sc) (c : Option Nat) (n : Nat) :
    ∀ t, arenaAvoids S
      { h with scr := h.scr.set s { sc with child := c, num_children := n } } t :=
  arenas_set_avoid hav (hav s sc hsc)

/-- The optional creation of a child arena in `ffbi_is_large_prime`. -/
theorem child_create_keeps {S : Nat → Prop} {h : Heap} {s : Nat} {sc : FFBI_SCRATCH}
    (hav : ∀ t, arenaAvoids S h t) (hsc : h.scr[s]? = some sc) :
    h.keepsMain S (if sc.num_children = 0 then
        { (ffbi_scratch_create h).2 with
          scr := (ffbi_scratch_create h).2.scr.set s
            { sc with child := some (ffbi_scratch_create h).1, num_children := 1 } }
      else h) ∧
    ∀ t, arenaAvoids S (if sc.num_children = 0 then
        { (ffbi_scratch_create h).2 with
          scr := (ffbi_scratch_create h).2.scr.set s
            { sc with child := some (ffbi_scratch_create h).1, num_children := 1 } }
      else h) t := by
  split
  · refine ⟨keepsMain_of_obj_eq rfl, ?_⟩
    exact arenas_set_avoid (scratch_create_avoid hav) (hav s sc hsc)
  · exact ⟨Heap.keepsMain_refl S h, hav⟩

/-- The routine `ffbi_is_large_prime` writes the values of its arenas only: when no arena
holds a bigint selected by `S`, the selected bigints keep their digits, the arenas still
avoid `S`, and the result is 0 or 1. -/
theorem is_large_prime_keeps {S : Nat → Prop} {P : Platform} {fuel p nt : Nat}
    {sieve scratch : Option Nat} {h : Heap} {r : Nat × Heap}
    (hS : ∀ q, S q → q < h.obj.length) (hav : ∀ t, arenaAvoids S h t)
    (hp : ffbi_is_large_prime P fuel h p nt sieve scratch = some r) :
    h.keepsMain S r.2 ∧ (∀ t, arenaAvoids S r.2 t) ∧ (r.1 = 0 ∨ r.1 = 1) := by
  unfold ffbi_is_large_prime at hp
  split at hp
  · cases hp
    exact ⟨Heap.keepsMain_refl S h, hav, Or.inl rfl⟩
  · dsimp only at hp
    have c := scratch_or_create_keeps (S := S) h scratch (fun s _ => hav s)
    have hav0 : ∀ t, arenaAvoids S (scratch_or_create h scratch).2 t := fun t => c.2.2 t (hav t)
    have hS0 := c.1.below hS
    generalize scratch_or_create h scratch = sh at hp c hav0 hS0
    obtain ⟨xp, _, hp⟩ := obind_eq_some.1 hp
    obtain ⟨h1, e1, hp⟩ := obind_eq_some.1 hp
    obtain ⟨s, hs, hp⟩ := obind_eq_some.1 hp
    have p1 := scratch_prepare_keeps hS0 (hav0 sh.1) e1
    have hav1 : ∀ t, arenaAvoids S h1 t := fun t => p1.2 t (hav0 t)
    have hS1 := p1.1.below hS0
    have ntemp : ∀ v, v ∈ s.val → ¬ S v := hav1 sh.1 s hs
    have cc := child_create_keeps hav1 hs
    generalize (if s.num_children = 0 then
        { (ffbi_scratch_create h1).2 with
          scr := (ffbi_scratch_create h1).2.scr.set sh.1
            { s with child := some (ffbi_scratch_create h1).1, num_children := 1 } }
      else h1) = h2 at hp cc
    have hS2 := cc.1.below hS1
    obtain ⟨s2, hs2, hp⟩ := obind_eq_some.1 hp
    obtain ⟨child, _, hp⟩ := obind_eq_some.1 hp
    obtain ⟨xp2, _, hp⟩ := obind_eq_some.1 hp
    obtain ⟨h3, e3, hp⟩ := obind_eq_some.1 hp
    obtain ⟨sc, hsc, hp⟩ := obind_eq_some.1 hp
    have p3 := scratch_prepare_keeps hS2 (cc.2 child) e3
    have hav3 : ∀ t, arenaAvoids S h3 t := fun t => p3.2 t (cc.2 t)
    have hS3 := p3.1.below hS2
    have c4 := child_create_keeps hav3 hsc
    generalize (if sc.num_children = 0 then
        { (ffbi_scratch_create h3).2 with
          scr := (ffbi_scratch_create h3).2.scr.set child
            { sc with child := some (ffbi_scratch_create h3).1, num_children := 1 } }
      else h3) = h4 at hp c4
    have hp4 := hp
    clear hp
    have hS4 := c4.1.below hS3
    obtain ⟨t0, ht0, hp4⟩ := obind_eq_some.1 hp4
    obtain ⟨t1, ht1, hp4⟩ := obind_eq_some.1 hp4
    obtain ⟨t2, ht2, hp4⟩ := obind_eq_some.1 hp4
    obtain ⟨t3, ht3, hp4⟩ := obind_eq_some.1 hp4
    obtain ⟨r5, e5, hp4⟩ := obind_eq_some.1 hp4
    obtain ⟨r6, e6, hp4⟩ := obind_eq_some.1 hp4
    have n0 := ntemp t0 (mem_of_get_some ht0)
    have n1 := ntemp t1 (mem_of_get_some ht1)
    have n2 := ntemp t2 (mem_of_get_some ht2)
    have n3 := ntemp t3 (mem_of_get_some ht3)
    have k5 : h4.keeps S r5.2 := by
      cases sieve with
      | none =>
        cases e5
        exact Heap.keeps_refl S _
      | some sv =>
        dsimp only at e5
        obtain ⟨ss, _, e5⟩ := obind_eq_some.1 e5
        split at e5
        · cases e5
          exact Heap.keeps_refl S _
        · obtain ⟨sc', hsc', e5⟩ := obind_eq_some.1 e5
          obtain ⟨c0, hc0, e5⟩ := obind_eq_some.1 e5
          have nc0 := c4.2 child sc' hsc' c0 (mem_of_get_some hc0)
          exact prime_sieve_loop_keeps n1 n2 n3 nc0 _ _ _ hS4 e5
    have hS5 := k5.lt hS4
    have hav5 : ∀ t, arenaAvoids S r5.2 t := fun t => k5.avoid (c4.2 t)
    have k6 : r5.2.keepsMain S r6.2 ∧ (∀ t, arenaAvoids S r6.2 t) ∧ (r6.1 = 0 ∨ r6.1 = 1) := by
      split at e6
      · cases e6
        exact ⟨Heap.keepsMain_refl S _, hav5, Or.inl rfl⟩
      · obtain ⟨g1, f1, e6⟩ := obind_eq_some.1 e6
        obtain ⟨g2, f2, e6⟩ := obind_eq_some.1 e6
        obtain ⟨g3, f3, e6⟩ := obind_eq_some.1 e6
        obtain ⟨g4, f4, e6⟩ := obind_eq_some.1 e6
        obtain ⟨g5, f5, e6⟩ := obind_eq_some.1 e6
        obtain ⟨g6, f6, e6⟩ := obind_eq_some.1 e6
        have kk : r5.2.keeps S g6 :=
          (modify_keeps n1 f1).trans ((wrDigit_keeps n1 f2).trans
          ((ffbi_sub_keeps n0 f3).trans ((modify_keeps n2 f4).trans
          ((wrDigit_keeps n2 f5).trans (ffbi_sub_keeps n1 f6)))))
        obtain ⟨q1, q2, q3⟩ := prime_fermat_loop_keeps n2 n3 _ _ _ (kk.lt hS5)
          (fun t => kk.avoid (hav5 t)) e6
        exact ⟨kk.main.andThen q1, q2, q3⟩
    have km : h.keepsMain S r6.2 :=
      c.1.andThen (p1.1.andThen (cc.1.andThen (p3.1.andThen (c4.1.andThen (k5.main.andThen k6.1)))))
    split at hp4
    · cases hp4
      exact ⟨km, k6.2.1, k6.2.2⟩
    · split at hp4
      · obtain ⟨s7, hs7, hp4⟩ := obind_eq_some.1 hp4
        cases hp4
        exact ⟨km.andThen (keepsMain_of_obj_eq rfl), arenas_mark_avoid k6.2.1 hs7 none 0, k6.2.2⟩
      · split at hp4
        · obtain ⟨s7, hs7, hp4⟩ := obind_eq_some.1 hp4
          cases hp4
          exact ⟨km.andThen (keepsMain_of_obj_eq rfl), arenas_mark_avoid k6.2.1 hs7 none 0,
            k6.2.2⟩
        · cases hp4
          exact ⟨km, k6.2.1, k6.2.2⟩

/-! # C36: the bigint returned by `ffbi_create_random_large_prime` -/

theorem lor_one_eq (d : Nat) : d ||| 1 = 2 * (d / 2) + 1 := by
  have h1 : (d ||| 1) % 2 = 1 := Nat.or_mod_two_eq_one.mpr (Or.inr rfl)
  have h2 : (d ||| 1) / 2 = d / 2 := by
    rw [Nat.or_div_two]
    simp
  have h3 := Nat.div_add_mod (d ||| 1) 2
  omega

theorem val_mod_two (P : Platform) (x : FFBI) (cx : canonical P x) :
    val P x % 2 = x.digits.getD 0 0 % 2 := by
  have hm := digitsVal_mod (FFBI_BITS_PER_DIGIT P) x.digits x.num_used_digits 1 cx.1 cx.2.2.1
  rw [digitsVal_one, Nat.mul_one] at hm
  have hdvd : 2 ∣ 2 ^ FFBI_BITS_PER_DIGIT P := dvd_pow_self 2 (Nat.pos_iff_ne_zero.mp (bits_pos P))
  unfold val
  rw [← hm, Nat.mod_mod_of_dvd _ hdvd]

/-- The statement `ret->digits[0] |= 1` on a canonical bigint with exactly `bits` significant
bits leaves an odd canonical bigint with exactly `bits` significant bits. -/
theorem low_bit_candidate (P : Platform) (x : FFBI) (bits : Nat) (cx : canonical P x)
    (lo : 2 ^ (bits - 1) ≤ val P x) (hi : val P x < 2 ^ bits) (hb : 1 ≤ bits) :
    canonical P { x with digits := x.digits.set 0 (x.digits.getD 0 0 ||| 1) } ∧
      2 ^ (bits - 1) ≤ val P { x with digits := x.digits.set 0 (x.digits.getD 0 0 ||| 1) } ∧
      val P { x with digits := x.digits.set 0 (x.digits.getD 0 0 ||| 1) } < 2 ^ bits ∧
      val P { x with digits := x.digits.set 0 (x.digits.getD 0 0 ||| 1) } % 2 = 1 := by
  obtain ⟨c1, c2, c3, c4⟩ := cx
  have hlen : 0 < x.digits.length := by omega
  have hor := lor_one_eq (x.digits.getD 0 0)
  have hd0 := c3 0 (by omega)
  have hdm := Nat.div_add_mod (x.digits.getD 0 0) 2
  have hcx' : canonical P { x with digits := x.digits.set 0 (x.digits.getD 0 0 ||| 1) } := by
    refine ⟨c1, by show x.num_used_digits ≤ (x.digits.set 0 _).length; rw [List.length_set]; exact c2,
      fun i hi' => ?_, ?_⟩
    · show (x.digits.set 0 _).getD i 0 < _
      by_cases hi0 : i = 0
      · subst hi0
        rw [getD_set_same _ hlen]
        exact Nat.or_lt_two_pow hd0 (Nat.one_lt_two_pow (Nat.pos_iff_ne_zero.mp (bits_pos P)))
      · rw [getD_set_ne _ _ hi0]
        exact c3 i hi'
    · rcases c4 with c4 | c4
      · exact Or.inl c4
      · by_cases h1 : x.num_used_digits = 1
        · exact Or.inl h1
        · refine Or.inr ?_
          show (x.digits.set 0 _).getD (x.num_used_digits - 1) 0 ≠ 0
          rw [getD_set_ne _ _ (by omega)]
          exact c4
  have hv := digitsVal_set_add (FFBI_BITS_PER_DIGIT P) x.digits 0 (x.digits.getD 0 0 ||| 1) hlen
    x.num_used_digits (by omega)
  rw [Nat.mul_zero, Nat.pow_zero, Nat.mul_one, Nat.mul_one] at hv
  have hpar := val_mod_two P x ⟨c1, c2, c3, c4⟩
  have hpar' := val_mod_two P _ hcx'
  have hg0 : ({ x with digits := x.digits.set 0 (x.digits.getD 0 0 ||| 1) } : FFBI).digits.getD 0 0
      = x.digits.getD 0 0 ||| 1 := getD_set_same _ hlen
  rw [hg0] at hpar'
  have hv' : val P { x with digits := x.digits.set 0 (x.digits.getD 0 0 ||| 1) }
      + x.digits.getD 0 0 = val P x + (x.digits.getD 0 0 ||| 1) := hv
  have hpow : 2 ^ bits = 2 * 2 ^ (bits - 1) := by
    rw [← Nat.pow_succ', Nat.succ_eq_add_one, Nat.sub_add_cancel hb]
  refine ⟨hcx', by omega, by omega, by omega⟩

/-- The candidate loop of `ffbi_create_random_large_prime`: when it returns, the last candidate
drawn was accepted by `ffbi_is_large_prime`, and the test left its digits as drawn. -/
theorem random_prime_loop_spec (P : Platform) (fuel ret bits nt : Nat) (sieve : Option Nat)
    (scratch : Nat) (hD : FFBI_BITS_PER_DIGIT P ≤ bits) :
    ∀ (k : Nat) (h h' : Heap) (x : FFBI), h.get ret = some x → x.reallocation_allowed = true →
      x.num_allocated_digits ≤ x.digits.length → (∀ t, arenaAvoids (fun q => q = ret) h t) →
      random_prime_loop P fuel ret bits nt sieve scratch k h = some h' →
      ∃ h0 h1 d0 hc xc x', ffbi_random P h0 ret bits = some h1 ∧ rdDigit h1 ret 0 = some d0 ∧
        wrDigit h1 ret 0 (d0 ||| 1) = some hc ∧ hc.get ret = some xc ∧ canonical P xc ∧
        2 ^ (bits - 1) ≤ val P xc ∧ val P xc < 2 ^ bits ∧ val P xc % 2 = 1 ∧
        ffbi_is_large_prime P fuel hc ret nt sieve (some scratch) = some (1, h') ∧
        h'.get ret = some x' ∧ sameMain xc x' := by
  intro k
  induction k with
  | zero =>
    intro h h' x _ _ _ _ hp
    cases hp
  | succ k ih =>
    intro h h' x hg hgrow hcap hav hp
    unfold random_prime_loop at hp
    obtain ⟨h1, e1, hp2⟩ := obind_eq_some.1 hp
    obtain ⟨d0, e2, hp3⟩ := obind_eq_some.1 hp2
    obtain ⟨hc, e3, hp4⟩ := obind_eq_some.1 hp3
    obtain ⟨r, e4, hp5⟩ := obind_eq_some.1 hp4
    have hp' : (if r.1 = 0 then random_prime_loop P fuel ret bits nt sieve scratch k r.2
        else some r.2) = some h' := hp5
    clear hp hp2 hp3 hp4 hp5
    obtain ⟨h1', x1, s1, s2, s3, s4, s5, _, _, s8, s9⟩ :=
      ffbi_random_spec_cap P h ret bits x hg hcap (Or.inl hgrow) hD
    rw [e1] at s1
    cases s1
    have hlen : 0 < x1.digits.length := by
      have := s3.1
      have := s3.2.1
      omega
    have hd0 : d0 = x1.digits.getD 0 0 := by
      rw [rdDigit_eq s2 hlen] at e2
      cases e2
      rfl
    subst hd0
    rw [wrDigit_eq _ s2 hlen] at e3
    have hgc : hc.get ret = some { x1 with digits := x1.digits.set 0 (x1.digits.getD 0 0 ||| 1) } := by
      rw [← Option.some.inj e3]
      exact Heap.get_upd_same _ s2
    have hb : 1 ≤ bits := Nat.le_trans (bits_pos P) hD
    obtain ⟨c1, c2, c3, c4⟩ := low_bit_candidate P x1 bits s3 s4 s5 hb
    have kr := ffbi_random_keeps (S := fun _ => False) (fun hf => hf) e1
    have hscr : hc.scr = h.scr := by
      rw [← Option.some.inj e3]
      exact kr.2.1
    have havc : ∀ t, arenaAvoids (fun q => q = ret) hc t :=
      fun t => arenaAvoids_of_scr hscr (hav t)
    have hSc : ∀ q, q = ret → q < hc.obj.length := fun q hq => by
      rw [hq]
      exact Heap.get_lt hgc
    obtain ⟨m1, m2, m3⟩ := is_large_prime_keeps hSc havc e4
    obtain ⟨x', g', sm⟩ := m1.2 ret _ rfl hgc
    by_cases hz : r.1 = 0
    · rw [if_pos hz] at hp'
      refine ih r.2 h' x' g' ?_ ?_ m2 hp'
      · rw [sm.2.2.2]
        exact s8.trans hgrow
      · rw [sm.2.2.1, sm.1]
        show x1.num_allocated_digits ≤ (x1.digits.set 0 _).length
        rw [List.length_set]
        exact s9
    · rw [if_neg hz] at hp'
      cases hp'
      have hr1 : r.1 = 1 := by
        rcases m3 with m3 | m3
        · exact absurd m3 hz
        · exact m3
      have e4' : ffbi_is_large_prime P fuel hc ret nt sieve (some scratch) = some (1, r.2) := by
        rw [e4, ← hr1]
      exact ⟨h, h1, _, hc, _, x', e1, e2, by rw [wrDigit_eq _ s2 hlen]; exact e3, hgc, c1, c2, c3,
        c4, e4', g', sm⟩

/-- The two outcomes of `ffbi_create_reserved_bits`: `NULL` with the heap unchanged when the
bits need fewer than three digits, else the first unused pointer with a growable zero of
exactly the digits needed. -/
theorem create_reserved_bits_inv {P : Platform} {h h1 : Heap} {bits : Nat} {o : Option Nat}
    (hb : bits < 2 ^ 32) (hp : ffbi_create_reserved_bits P h bits = some (o, h1)) :
    (bits / FFBI_BITS_PER_DIGIT P + (if bits % FFBI_BITS_PER_DIGIT P ≠ 0 then 1 else 0)
        < FFBI_MIN_ALLOC_DIGITS ∧ o = none ∧ h1 = h) ∨
    (FFBI_MIN_ALLOC_DIGITS ≤ bits / FFBI_BITS_PER_DIGIT P +
        (if bits % FFBI_BITS_PER_DIGIT P ≠ 0 then 1 else 0) ∧ o = some h.obj.length ∧
      h1.scr = h.scr ∧ h1.obj.length = h.obj.length + 1 ∧
      ∃ arr, h1.get h.obj.length = some (newRecord arr (bits / FFBI_BITS_PER_DIGIT P +
          (if bits % FFBI_BITS_PER_DIGIT P ≠ 0 then 1 else 0)) true) ∧
        arr.length = bits / FFBI_BITS_PER_DIGIT P +
          (if bits % FFBI_BITS_PER_DIGIT P ≠ 0 then 1 else 0)) := by
  unfold ffbi_create_reserved_bits at hp
  dsimp only at hp
  rw [Nat.mod_eq_of_lt hb] at hp
  generalize bits / FFBI_BITS_PER_DIGIT P +
    (if bits % FFBI_BITS_PER_DIGIT P ≠ 0 then 1 else 0) = nd at hp ⊢
  by_cases hlt : nd < FFBI_MIN_ALLOC_DIGITS
  · rw [if_pos hlt] at hp
    cases hp
    exact Or.inl ⟨hlt, rfl, rfl⟩
  · rw [if_neg hlt] at hp
    obtain ⟨arr, ha, hp⟩ := obind_eq_some.1 hp
    cases hp
    refine Or.inr ⟨by omega, ?_, rfl, ?_, arr, ?_, ?_⟩
    · rw [Heap.newArr_obj]
    · dsimp only
      rw [Heap.newArr_obj]
      simp
    · unfold Heap.get
      dsimp only
      rw [Heap.newArr_obj]
      simp
    · obtain ⟨_, e⟩ := wr_eq_some ha
      rw [e, List.length_set, Heap.newArr_length]

/-- Claim C36: `ffbi_create_random_large_prime(bits, num_tests, sieve)` returns `NULL`, leaving
the heap as it was, when `bits` needs fewer than 3 digits.  Whenever it returns a bigint `p`,
`bits` needs at least 3 digits, `p` is canonical and odd with exactly `bits` significant bits,
and it is the last candidate drawn: `ffbi_random(p, bits)` followed by `p->digits[0] |= 1`
produced its digits, and `ffbi_is_large_prime` returned 1 for it in the state that
the generator returns.  The arenas of the heap hold allocated bigints only. -/
theorem ffbi_create_random_large_prime_result (P : Platform) (fuel candidates : Nat) (h : Heap)
    (bits num_tests : Nat) (sieve : Option Nat) (hb : bits < 2 ^ 32)
    (hwf : ∀ (s : Nat) (sr : FFBI_SCRATCH), h.scr[s]? = some sr →
      ∀ v, v ∈ sr.val → v < h.obj.length) :
    (bits / FFBI_BITS_PER_DIGIT P + (if bits % FFBI_BITS_PER_DIGIT P ≠ 0 then 1 else 0)
        < FFBI_MIN_ALLOC_DIGITS →
      ffbi_create_random_large_prime P fuel candidates h bits num_tests sieve
        = some (none, h)) ∧
    ∀ p h', ffbi_create_random_large_prime P fuel candidates h bits num_tests sieve
        = some (some p, h') →
      FFBI_MIN_ALLOC_DIGITS ≤ bits / FFBI_BITS_PER_DIGIT P +
        (if bits % FFBI_BITS_PER_DIGIT P ≠ 0 then 1 else 0) ∧
      ∃ x, h'.get p = some x ∧ canonical P x ∧ val P x % 2 = 1 ∧
        ffbi_get_significant_bits P h' p = some bits ∧
        ∃ scratch h0 h1 d0 hc xc, ffbi_random P h0 p bits = some h1 ∧
          rdDigit h1 p 0 = some d0 ∧ wrDigit h1 p 0 (d0 ||| 1) = some hc ∧
          hc.get p = some xc ∧ sameMain xc x ∧
          ffbi_is_large_prime P fuel hc p (toInt32 num_tests).toNat sieve (some scratch)
            = some (1, h') := by
  constructor
  · intro hlt
    have e : ffbi_create_reserved_bits P h bits = some (none, h) := by
      unfold ffbi_create_reserved_bits
      dsimp only
      rw [Nat.mod_eq_of_lt hb, if_pos hlt]
    unfold ffbi_create_random_large_prime
    rw [e, obind_some]
  · intro p h' hp
    unfold ffbi_create_random_large_prime at hp
    obtain ⟨r, e0, hp⟩ := obind_eq_some.1 hp
    obtain ⟨o, ha⟩ := r
    rcases create_reserved_bits_inv hb e0 with ⟨_, ho, _⟩ | ⟨hnd, ho, hscr, hlen, arr, hga, harr⟩
    · subst ho
      cases hp
    · subst ho
      dsimp only at hp
      rw [Nat.mod_eq_of_lt hb] at hp
      have hS : ∀ q, q = h.obj.length → q < ha.obj.length := fun q hq => by omega
      have hav : ∀ t, arenaAvoids (fun q => q = h.obj.length) ha t := by
        intro t sr hsr v hv hq
        rw [hscr] at hsr
        have := hwf t sr hsr v hv
        omega
      have hav1 := scratch_create_avoid hav
      have hS1 : ∀ q, q = h.obj.length → q < (ffbi_scratch_create ha).2.obj.length := hS
      have hg1 : (ffbi_scratch_create ha).2.get h.obj.length = some
          (newRecord arr (bits / FFBI_BITS_PER_DIGIT P +
            (if bits % FFBI_BITS_PER_DIGIT P ≠ 0 then 1 else 0)) true) := hga
      generalize ffbi_scratch_create ha = s1 at hp hav1 hS1 hg1
      obtain ⟨xr, _, hp⟩ := obind_eq_some.1 hp
      obtain ⟨h2, e2, hp⟩ := obind_eq_some.1 hp
      obtain ⟨sc2, hsc2, hp⟩ := obind_eq_some.1 hp
      have p2 := scratch_prepare_keeps hS1 (hav1 s1.1) e2
      have hav2 : ∀ t, arenaAvoids (fun q => q = h.obj.length) h2 t := fun t => p2.2 t (hav1 t)
      have hav3 := scratch_create_avoid
        (arenas_set_avoid (c := { sc2 with num_children := 1 }) (s := s1.1) hav2
          (hav2 s1.1 sc2 hsc2))
      have km3 : h2.keepsMain (fun q => q = h.obj.length) (ffbi_scratch_create
          { h2 with scr := h2.scr.set s1.1 { sc2 with num_children := 1 } }).2 :=
        keepsMain_of_obj_eq rfl
      generalize ffbi_scratch_create
          { h2 with scr := h2.scr.set s1.1 { sc2 with num_children := 1 } } = c3 at hp hav3 km3
      obtain ⟨sc3, hsc3, hp⟩ := obind_eq_some.1 hp
      have hav4 := arenas_mark_avoid hav3 hsc3 (some c3.1) sc3.num_children
      have km4 : c3.2.keepsMain (fun q => q = h.obj.length)
          { c3.2 with scr := c3.2.scr.set s1.1 { sc3 with child := some c3.1 } } :=
        keepsMain_of_obj_eq rfl
      generalize ({ c3.2 with scr := c3.2.scr.set s1.1 { sc3 with child := some c3.1 } } : Heap)
        = h4 at hp hav4 km4
      obtain ⟨xr4, _, hp⟩ := obind_eq_some.1 hp
      obtain ⟨h5, e5, hp⟩ := obind_eq_some.1 hp
      obtain ⟨sc5, hsc5, hp⟩ := obind_eq_some.1 hp
      obtain ⟨child, _, hp⟩ := obind_eq_some.1 hp
      have km04 := p2.1.andThen (km3.andThen km4)
      have hS4 := km04.below hS1
      have p5 := scratch_prepare_keeps hS4 (hav4 s1.1) e5
      have hav5 : ∀ t, arenaAvoids (fun q => q = h.obj.length) h5 t := fun t => p5.2 t (hav4 t)
      have hav6 := scratch_create_avoid hav5
      have km6 : h5.keepsMain (fun q => q = h.obj.length) (ffbi_scratch_create h5).2 :=
        keepsMain_of_obj_eq rfl
      generalize ffbi_scratch_create h5 = c6 at hp hav6 km6
      obtain ⟨sc6, hsc6, hp⟩ := obind_eq_some.1 hp
      have hav7 := arenas_mark_avoid hav6 hsc6 (some c6.1) 1
      have km7 : c6.2.keepsMain (fun q => q = h.obj.length)
          { c6.2 with
            scr := c6.2.scr.set child { sc6 with child := some c6.1, num_children := 1 } } :=
        keepsMain_of_obj_eq rfl
      generalize ({ c6.2 with
          scr := c6.2.scr.set child { sc6 with child := some c6.1, num_children := 1 } } : Heap)
        = h7 at hp hav7 km7
      obtain ⟨h8, e8, hp⟩ := obind_eq_some.1 hp
      cases hp
      have km07 := km04.andThen (p5.1.andThen (km6.andThen km7))
      obtain ⟨x7, g7, sm7⟩ := km07.2 h.obj.length _ rfl hg1
      have hD : FFBI_BITS_PER_DIGIT P ≤ bits := by
        have h1 := Nat.div_mul_le_self bits (FFBI_BITS_PER_DIGIT P)
        have h2 : 2 ≤ bits / FFBI_BITS_PER_DIGIT P := by
          unfold FFBI_MIN_ALLOC_DIGITS at hnd
          split at hnd <;> omega
        have h3 : 2 * FFBI_BITS_PER_DIGIT P ≤ bits / FFBI_BITS_PER_DIGIT P * FFBI_BITS_PER_DIGIT P :=
          Nat.mul_le_mul_right _ h2
        omega
      obtain ⟨h0, h1, d0, hc, xc, x', f1, f2, f3, f4, f5, f6, f7, f8, f9, f10, f11⟩ :=
        random_prime_loop_spec P fuel h.obj.length bits (toInt32 num_tests).toNat sieve s1.1 hD
          candidates h7 _ x7 g7 (by rw [sm7.2.2.2]; rfl)
          (by rw [sm7.2.2.1, sm7.1]; show _ ≤ arr.length; rw [harr]; exact Nat.le_refl _)
          hav7 e8
      have cx' := sameMain_canonical P f11 f5
      have hv' := sameMain_val P f11
      have hg' : (ffbi_scratch_destroy h8 s1.1).get h.obj.length = some x' := f10
      refine ⟨hnd, x', hg', cx', by rw [hv']; exact f8, ?_, s1.1, h0, h1, d0, hc, xc, f1, f2, f3,
        f4, f11, f9⟩
      have hb1 : 1 ≤ bits := Nat.le_trans (bits_pos P) hD
      obtain ⟨T, t1, t2, t3, t4, t5, _⟩ := significant_bits_canonical P hg' cx'
        (Nat.lt_of_le_of_lt (bit_count_le P cx' hb1 (by rw [hv']; exact f7)) hb)
      rw [t1]
      congr 1
      have hpos : 0 < 2 ^ (bits - 1) := Nat.two_pow_pos _
      rw [hv'] at t3 t4 t5
      exact significant_bits_unique (val P xc) T bits t3 t4 f7 (fun _ => f6) t2 hb1
        (fun h0 => by omega)

set_option maxHeartbeats 4000000 in
set_option maxRecDepth 1000000 in
/-- Two calls on the 29-bit configuration in an empty heap: for 10 bits the generator returns
`NULL`; for 59 bits, one Fermat test and the random sequence 14882, 8133, 50894, 1785, 0, 0,
0, 1, 0, 331, 0 it returns the prime 512065513724338117 (the base of the test is
4398049222658, whose square is -1 modulo that prime). -/
theorem ffbi_create_random_large_prime_result_witness :
    ffbi_create_random_large_prime .generic64 64 1
        (exHeapR [] [] 0
          (fun k => [14882, 8133, 50894, 1785, 0, 0, 0, 1, 0, 331, 0].getD k 0))
        10 1 none
      = some (none, exHeapR [] [] 0
          (fun k => [14882, 8133, 50894, 1785, 0, 0, 0, 1, 0, 331, 0].getD k 0)) ∧
    ∃ h', ffbi_create_random_large_prime .generic64 64 1
        (exHeapR [] [] 0
          (fun k => [14882, 8133, 50894, 1785, 0, 0, 0, 1, 0, 331, 0].getD k 0))
        59 1 none = some (some 0, h') ∧
      ∃ x, h'.get 0 = some x ∧ val .generic64 x = 512065513724338117 ∧
        canonical .generic64 x ∧ val .generic64 x % 2 = 1 ∧
        ffbi_get_significant_bits .generic64 h' 0 = some 59 := by
  have hwf : ∀ (s : Nat) (sr : FFBI_SCRATCH), (exHeapR [] [] 0
      (fun k => [14882, 8133, 50894, 1785, 0, 0, 0, 1, 0, 331, 0].getD k 0)).scr[s]? = some sr →
      ∀ v, v ∈ sr.val → v < (exHeapR [] [] 0
        (fun k => [14882, 8133, 50894, 1785, 0, 0, 0, 1, 0, 331, 0].getD k 0)).obj.length :=
    fun s sr hs => by simp [exHeapR] at hs
  have hrun : (obind (ffbi_create_random_large_prime .generic64 64 1
      (exHeapR [] [] 0 (fun k => [14882, 8133, 50894, 1785, 0, 0, 0, 1, 0, 331, 0].getD k 0))
      59 1 none) fun r =>
      obind r.1 fun p => obind (r.2.get p) fun x => some (p, val .generic64 x))
      = some (0, 512065513724338117) := by decide
  obtain ⟨⟨o, h'⟩, hr, hrun⟩ := obind_eq_some.1 hrun
  obtain ⟨p, hp, hrun⟩ := obind_eq_some.1 hrun
  obtain ⟨x0, hx0, hrun⟩ := obind_eq_some.1 hrun
  have hp' : o = some p := hp
  have hx0' : h'.get p = some x0 := hx0
  have hpv : p = 0 ∧ val .generic64 x0 = 512065513724338117 := by
    have := Option.some.inj hrun
    exact ⟨congrArg Prod.fst this, congrArg Prod.snd this⟩
  obtain ⟨hp0, hv0⟩ := hpv
  subst hp0
  subst hp'
  have hq := (ffbi_create_random_large_prime_result .generic64 64 1
    (exHeapR [] [] 0 (fun k => [14882, 8133, 50894, 1785, 0, 0, 0, 1, 0, 331, 0].getD k 0))
    59 1 none (by decide) hwf).2 0 h' hr
  obtain ⟨_, x, g1, g2, g3, g4, _⟩ := hq
  have hxe : x0 = x := Option.some.inj (hx0'.symm.trans g1)
  subst hxe
  exact ⟨(ffbi_create_random_large_prime_result .generic64 64 1
    (exHeapR [] [] 0 (fun k => [14882, 8133, 50894, 1785, 0, 0, 0, 1, 0, 331, 0].getD k 0))
    10 1 none (by decide) hwf).1 (by decide), h', hr, x0, g1, hv0, g2, g3, g4⟩

/-! # C39: the product of two operands of 65 maximal digits -/

theorem digitsVal_all_max (bits : Nat) (ds : List Nat) :
    ∀ n, (∀ j, j < n → ds.getD j 0 = 2 ^ bits - 1) → digitsVal bits ds n = 2 ^ (bits * n) - 1 := by
  intro n
  induction n with
  | zero => intro _; simp [digitsVal]
  | succ n ih =>
    intro hd
    rw [digitsVal_succ, ih (fun j hj => hd j (by omega)), hd n (by omega), Nat.mul_succ,
      Nat.pow_add]
    have h1 := Nat.two_pow_pos bits
    have h2 := Nat.two_pow_pos (bits * n)
    have h3 : (2 ^ bits - 1) * 2 ^ (bits * n) = 2 ^ (bits * n) * 2 ^ bits - 2 ^ (bits * n) := by
      rw [Nat.sub_mul, Nat.one_mul, Nat.mul_comm]
    have h4 : 2 ^ (bits * n) ≤ 2 ^ (bits * n) * 2 ^ bits := Nat.le_mul_of_pos_right _ h1
    omega

/-- Numerical facts about the square of `2 ^ (65 D) - 1` and the lost term. -/
theorem wrap_value_bounds (P : Platform) :
    2 ^ (FFBI_BITS_PER_DIGIT P * 129) + 2 ^ (FFBI_WORD_SIZE P + FFBI_BITS_PER_DIGIT P * 64)
      ≤ (2 ^ (FFBI_BITS_PER_DIGIT P * 65) - 1) * (2 ^ (FFBI_BITS_PER_DIGIT P * 65) - 1) := by
  have e1 : FFBI_WORD_SIZE P + FFBI_BITS_PER_DIGIT P * 64 ≤ FFBI_BITS_PER_DIGIT P * 129 := by
    cases P <;> decide
  have e2 : FFBI_BITS_PER_DIGIT P * 65 + 1 ≤ FFBI_BITS_PER_DIGIT P * 129 := by
    cases P <;> decide
  have e3 : FFBI_BITS_PER_DIGIT P * 129 + 2 ≤ FFBI_BITS_PER_DIGIT P * 65 + FFBI_BITS_PER_DIGIT P * 65 := by
    cases P <;> decide
  have p1 := Nat.pow_le_pow_right (show 0 < 2 by decide) e1
  have p2 := Nat.pow_le_pow_right (show 0 < 2 by decide) e2
  have p3 := Nat.pow_le_pow_right (show 0 < 2 by decide) e3
  rw [Nat.pow_add, Nat.pow_add] at p3
  rw [Nat.pow_succ] at p2
  have hX := Nat.two_pow_pos (FFBI_BITS_PER_DIGIT P * 65)
  generalize 2 ^ (FFBI_BITS_PER_DIGIT P * 65) = X at p2 p3 hX ⊢
  generalize 2 ^ (FFBI_BITS_PER_DIGIT P * 129) = A at p1 p2 p3 ⊢
  generalize 2 ^ (FFBI_WORD_SIZE P + FFBI_BITS_PER_DIGIT P * 64) = B at p1 ⊢
  obtain ⟨y, rfl⟩ : ∃ y, X = y + 1 := ⟨X - 1, by omega⟩
  rw [Nat.add_sub_cancel]
  have hsq : (y + 1) * (y + 1) = y * y + 2 * y + 1 := by ring
  rw [hsq] at p3
  norm_num at p3
  omega

theorem mulCount_sixty_five (j : Nat) (hj : j ≠ 64) : mulCount 65 65 0 j ≤ 64 := by
  unfold mulCount
  simp only [Nat.lt_irrefl, Nat.add_zero]
  split <;> omega

/-- The schoolbook part of `ffbi_mul` for two operands of 65 digits `2 ^ D - 1`: it returns
130 digits whose value is the product less `2 ^ (W + 64 D)`. -/
theorem mul_core_wrap (P : Platform) (h : Heap) (product a b : Nat) (xp : FFBI)
    (hg : h.get product = some xp) (hpa : a ≠ product) (hpb : b ≠ product)
    (hA : ∀ j, j < 65 → rdDigit h a j = some (digit_max P))
    (hB : ∀ j, j < 65 → rdDigit h b j = some (digit_max P))
    (hn : 130 ≤ xp.digits.length) :
    ∃ ds, mul_core P h product a b 65 65
        = some (h.upd product { xp with digits := ds, num_used_digits := 130 }) ∧
      ds.length = xp.digits.length ∧
      digitsVal (FFBI_BITS_PER_DIGIT P) ds 130
          + 2 ^ (FFBI_WORD_SIZE P + FFBI_BITS_PER_DIGIT P * 64)
        = (2 ^ (FFBI_BITS_PER_DIGIT P * 65) - 1) * (2 ^ (FFBI_BITS_PER_DIGIT P * 65) - 1) := by
  have hg1 : (h.upd product { xp with num_used_digits := 65 + 65 }).get product
      = some { xp with num_used_digits := 65 + 65 } := Heap.get_upd_same _ hg
  obtain ⟨ds0, m1, m2, m3⟩ := memset0_spec (n := 65 + 65) hn
  have hgetD : ∀ j, j < 65 → (List.replicate 65 (digit_max P)).getD j 0 = digit_max P := by
    intro j hj
    rw [List.getD_eq_getElem?_getD, List.getElem?_replicate, if_pos hj]
    rfl
  obtain ⟨ds1, es1, r1, r2, r3, r4, r5, r6⟩ := mul_rows_wrap P
    (h.upd product { xp with num_used_digits := 65 + 65 }) product a b
    { xp with num_used_digits := 65 + 65 }
    (List.replicate 65 (digit_max P)) (List.replicate 65 (digit_max P)) 65 65
    (digit_max P * digit_max P) hg1 hpa hpb
    (fun j hj => by rw [rdDigit_upd_ne _ _ _ hpa, hgetD j hj]; exact hA j hj)
    (fun j hj => by rw [rdDigit_upd_ne _ _ _ hpb, hgetD j hj]; exact hB j hj)
    (fun k i hk hi => by rw [hgetD k hk, hgetD i hi])
    hn ds0 m2 (fun j hj => by rw [m3 j, if_pos hj])
  have hov := sixty_five_products_overflow P
  have hwb := mul_word_bound P
  have hdm := digit_max_eq P
  have hQ : digit_max P * digit_max P
      ≤ (2 ^ FFBI_BITS_PER_DIGIT P - 1) * 2 ^ FFBI_BITS_PER_DIGIT P := by
    rw [hdm]
    exact Nat.mul_le_mul_left _ (Nat.sub_le _ _)
  have hc64 : mulCount 65 65 0 64 = 65 := by decide
  -- the stored columns
  have hcol : ∀ j, j < 65 + 65 → j ≠ 64 → ds1.getD j 0 = es1.getD j 0 := by
    intro j hj hne
    rw [r6 j hj, r5 j hj]
    apply Nat.mod_eq_of_lt
    have := mulCount_sixty_five j hne
    calc mulCount 65 65 0 j * (digit_max P * digit_max P)
        ≤ 64 * (digit_max P * digit_max P) := Nat.mul_le_mul_right _ this
      _ ≤ 64 * ((2 ^ FFBI_BITS_PER_DIGIT P - 1) * 2 ^ FFBI_BITS_PER_DIGIT P) :=
          Nat.mul_le_mul_left _ hQ
      _ < 2 ^ FFBI_WORD_SIZE P := hwb
  have hc : ds1.getD 64 0 = 65 * (digit_max P * digit_max P) - 2 ^ FFBI_WORD_SIZE P := by
    rw [r6 64 (by omega), r5 64 (by omega), hc64, Nat.mod_eq_sub_mod hov.1,
      Nat.mod_eq_of_lt (by omega)]
  have he64 : es1.getD 64 0 = 65 * (digit_max P * digit_max P) := by
    rw [r5 64 (by omega), hc64]
  have hbound : ∀ j, j < 65 + 65 → ds1.getD j 0
      ≤ 64 * ((2 ^ FFBI_BITS_PER_DIGIT P - 1) * (2 ^ FFBI_BITS_PER_DIGIT P - 1)) := by
    intro j hj
    rw [← hdm]
    by_cases hne : j = 64
    · rw [hne, hc]
      have : digit_max P * digit_max P < 2 ^ FFBI_WORD_SIZE P := by omega
      omega
    · rw [hcol j hj hne, r5 j hj]
      exact Nat.mul_le_mul_right _ (mulCount_sixty_five j hne)
  have hes : 64 < es1.length := by
    have : es1.length = xp.digits.length := r3
    omega
  have hval1 : digitsVal (FFBI_BITS_PER_DIGIT P) ds1 (65 + 65)
      + 2 ^ FFBI_WORD_SIZE P * 2 ^ (FFBI_BITS_PER_DIGIT P * 64)
      = digitsVal (FFBI_BITS_PER_DIGIT P) es1 (65 + 65) := by
    have hcg := digitsVal_congr (FFBI_BITS_PER_DIGIT P) ds1
      (es1.set 64 (65 * (digit_max P * digit_max P) - 2 ^ FFBI_WORD_SIZE P)) (65 + 65)
      (fun j hj => by
        by_cases hne : j = 64
        · rw [hne, getD_set_same _ hes, hc]
        · rw [getD_set_ne _ _ hne, hcol j hj hne])
    have hsa := digitsVal_set_add (FFBI_BITS_PER_DIGIT P) es1 64
      (65 * (digit_max P * digit_max P) - 2 ^ FFBI_WORD_SIZE P) hes (65 + 65) (by omega)
    rw [he64] at hsa
    rw [hcg]
    have hsplit : 65 * (digit_max P * digit_max P) * 2 ^ (FFBI_BITS_PER_DIGIT P * 64)
        = (65 * (digit_max P * digit_max P) - 2 ^ FFBI_WORD_SIZE P)
            * 2 ^ (FFBI_BITS_PER_DIGIT P * 64)
          + 2 ^ FFBI_WORD_SIZE P * 2 ^ (FFBI_BITS_PER_DIGIT P * 64) := by
      rw [← Nat.add_mul, Nat.sub_add_cancel hov.1]
    omega
  have hmax : ∀ j, j < 65 → (List.replicate 65 (digit_max P)).getD j 0
      = 2 ^ FFBI_BITS_PER_DIGIT P - 1 := fun j hj => by rw [hgetD j hj, hdm]
  have hAv := digitsVal_all_max (FFBI_BITS_PER_DIGIT P) (List.replicate 65 (digit_max P)) 65 hmax
  rw [hAv] at r4
  obtain ⟨ds2, c1, c2, c3, c4⟩ := mul_carries_spec P
    (h.upd product { xp with num_used_digits := 65 + 65 }) product
    { xp with num_used_digits := 65 + 65 } (65 + 65) hg1 hn (by omega) ds1 r2 hbound
  have c2 : ds2.length = xp.digits.length := c2
  have hV : digitsVal (FFBI_BITS_PER_DIGIT P) ds2 (65 + 65)
      + 2 ^ (FFBI_WORD_SIZE P + FFBI_BITS_PER_DIGIT P * 64)
      = (2 ^ (FFBI_BITS_PER_DIGIT P * 65) - 1) * (2 ^ (FFBI_BITS_PER_DIGIT P * 65) - 1) := by
    rw [c4, Nat.pow_add, ← r4]
    exact hval1
  have hV1 : digitsVal (FFBI_BITS_PER_DIGIT P) ds2 130
      = digitsVal (FFBI_BITS_PER_DIGIT P) ds2 129
        + ds2.getD 129 0 * 2 ^ (FFBI_BITS_PER_DIGIT P * 129) :=
    digitsVal_succ (FFBI_BITS_PER_DIGIT P) ds2 129
  have hlow := digitsVal_lt (FFBI_BITS_PER_DIGIT P) ds2 129 c3
  have hwv := wrap_value_bounds P
  have htop : ds2.getD (65 + 65 - 1) 0 ≠ 0 := by
    intro hz
    have hz' : ds2.getD 129 0 = 0 := hz
    rw [hz', Nat.zero_mul, Nat.add_zero] at hV1
    have hV' : digitsVal (FFBI_BITS_PER_DIGIT P) ds2 130
        + 2 ^ (FFBI_WORD_SIZE P + FFBI_BITS_PER_DIGIT P * 64)
        = (2 ^ (FFBI_BITS_PER_DIGIT P * 65) - 1) * (2 ^ (FFBI_BITS_PER_DIGIT P * 65) - 1) := hV
    have hwv' := hwv
    generalize (2 ^ (FFBI_BITS_PER_DIGIT P * 65) - 1) * (2 ^ (FFBI_BITS_PER_DIGIT P * 65) - 1)
      = X at hV' hwv'
    clear hV c4 hval1 r4 hbound hcol hc he64
    omega
  unfold mul_core
  dsimp only
  rw [modify_eq _ hg, obind_some, hg1, obind_some]
  dsimp only
  rw [m1, obind_some, Heap.put_of_get _ hg1, obind_some]
  have hwd : ∀ v, (h.upd product { xp with num_used_digits := 65 + 65 }).upd product
      { xp with num_used_digits := 65 + 65, digits := v }
      = (h.upd product { xp with num_used_digits := 65 + 65 }).withDigits product
        { xp with num_used_digits := 65 + 65 } v := fun _ => rfl
  rw [hwd, r1, obind_some, if_neg (show ¬ 65 + 65 = 0 by omega), c1, obind_some,
    Heap.withDigits_get _ hg1, obind_some]
  dsimp only
  rw [if_pos (show 65 + 65 > 1 by omega), rdDigit_withDigits hg1 (by omega), obind_some,
    if_neg htop]
  unfold Heap.withDigits
  rw [Heap.upd_upd]
  exact ⟨ds2, rfl, c2, hV⟩

/-- Claim C39 (code departs): the multiplication `ffbi_mul(temp2, m1, qinv)` of the CRT
recombination, for `m1` and `qinv` of 65 digits that are all `2 ^ D - 1` (the value
`2 ^ (65 D) - 1`) and a growable `temp2` distinct from both, returns with 130 digits in `temp2`
whose value is the product `m1 * qinv` less `2 ^ (W + 64 D)`: column 64 of the schoolbook loop
wrapped around. -/
theorem ffrsa_decrypt_crt_product_wraps (P : Platform) (h : Heap) (temp2 m1 qinv : Nat)
    (x1 xq xt : FFBI)
    (hg1 : h.get m1 = some x1) (hgq : h.get qinv = some xq) (hgt : h.get temp2 = some xt)
    (ht1 : temp2 ≠ m1) (htq : temp2 ≠ qinv)
    (hu1 : x1.num_used_digits = 65) (hl1 : 65 ≤ x1.digits.length)
    (hd1 : ∀ j, j < 65 → x1.digits.getD j 0 = digit_max P)
    (huq : xq.num_used_digits = 65) (hlq : 65 ≤ xq.digits.length)
    (hdq : ∀ j, j < 65 → xq.digits.getD j 0 = digit_max P)
    (hr : xt.reallocation_allowed = true) (hvs : validStorage xt) :
    ∃ h' y, ffbi_mul P h temp2 m1 qinv = some h' ∧ h'.get temp2 = some y ∧
      y.num_used_digits = 130 ∧
      val P x1 = 2 ^ (FFBI_BITS_PER_DIGIT P * 65) - 1 ∧
      val P xq = 2 ^ (FFBI_BITS_PER_DIGIT P * 65) - 1 ∧
      val P y + 2 ^ (FFBI_WORD_SIZE P + FFBI_BITS_PER_DIGIT P * 64) = val P x1 * val P xq := by
  have hdm := digit_max_eq P
  have hD := bits_pos P
  have hpos : 1 < 2 ^ FFBI_BITS_PER_DIGIT P := Nat.one_lt_two_pow (Nat.pos_iff_ne_zero.mp hD)
  have can : ∀ x : FFBI, x.num_used_digits = 65 → 65 ≤ x.digits.length →
      (∀ j, j < 65 → x.digits.getD j 0 = digit_max P) →
      canonical P x ∧ val P x = 2 ^ (FFBI_BITS_PER_DIGIT P * 65) - 1 := by
    intro x hu hl hd
    refine ⟨⟨by omega, by omega, fun i hi => ?_, Or.inr ?_⟩, ?_⟩
    · rw [hd i (by omega), hdm]
      omega
    · rw [hu, hd 64 (by omega), hdm]
      omega
    · unfold val
      rw [hu]
      exact digitsVal_all_max _ _ 65 (fun j hj => by rw [hd j hj, hdm])
  obtain ⟨c1, v1⟩ := can x1 hu1 hl1 hd1
  obtain ⟨cq, vq⟩ := can xq huq hlq hdq
  have hnz : 2 ^ (FFBI_BITS_PER_DIGIT P * 65) - 1 ≠ 0 := by
    have : 2 ^ FFBI_BITS_PER_DIGIT P ≤ 2 ^ (FFBI_BITS_PER_DIGIT P * 65) :=
      Nat.pow_le_pow_right (by decide) (by omega)
    omega
  unfold ffbi_mul
  rw [ffbi_is_zero_spec P hg1 c1, obind_some, v1,
    if_neg (by simpa using hnz), ffbi_is_zero_spec P hgq cq, obind_some, vq,
    if_neg (by simpa using hnz), hg1, obind_some, hgq, obind_some]
  dsimp only
  rw [hu1, huq, if_neg (fun e => by
    rcases e with e | e
    · exact ht1 e
    · exact htq e), hgt, obind_some]
  obtain ⟨h0, xd0, r1, r2, r3, r4, r5, r6, r7, r8, r9, r10, r11, r12, r13⟩ :=
    realloc_if_small P (65 + 65) (65 + 65 + 1) hgt (fun _ => hr) hvs (by omega)
  rw [r1, obind_some, obind_some]
  dsimp only
  have hg10 : h0.get m1 = some x1 :=
    Heap.frame_get r11 hg1 (by simpa using fun he => ht1 he.symm)
  have hgq0 : h0.get qinv = some xq :=
    Heap.frame_get r11 hgq (by simpa using fun he => htq he.symm)
  obtain ⟨ds, e1, e2, e3⟩ := mul_core_wrap P h0 temp2 m1 qinv xd0 r2
    (fun e => ht1 e.symm) (fun e => htq e.symm)
    (fun j hj => by rw [rdDigit_eq hg10 (by omega), hd1 j hj])
    (fun j hj => by rw [rdDigit_eq hgq0 (by omega), hdq j hj])
    (by omega)
  rw [e1, obind_some, modify_eq _ (Heap.get_upd_same _ r2), obind_some, Heap.upd_upd,
    if_neg (by simp)]
  refine ⟨_, _, rfl, Heap.get_upd_same _ r2, rfl, rfl, rfl, ?_⟩
  exact e3

set_option maxRecDepth 100000 in
/-- The product of `ffrsa_decrypt_crt_product_wraps` on the 29-bit configuration: `m1` and
`qinv` (pointers 1 and 2) hold `2 ^ 1885 - 1`, and `temp2` (pointer 0) has room for 131
digits. -/
theorem ffrsa_decrypt_crt_product_wraps_witness :
    ∃ h' y, ffbi_mul .generic64
        (exHeap [exBig (List.replicate 131 0) 1, exBig (List.replicate 65 536870911) 65,
          exBig (List.replicate 65 536870911) 65] 0) 0 1 2 = some h' ∧
      h'.get 0 = some y ∧ y.num_used_digits = 130 ∧
      val .generic64 (exBig (List.replicate 65 536870911) 65)
        = 2 ^ (FFBI_BITS_PER_DIGIT .generic64 * 65) - 1 ∧
      val .generic64 (exBig (List.replicate 65 536870911) 65)
        = 2 ^ (FFBI_BITS_PER_DIGIT .generic64 * 65) - 1 ∧
      val .generic64 y
          + 2 ^ (FFBI_WORD_SIZE .generic64 + FFBI_BITS_PER_DIGIT .generic64 * 64)
        = val .generic64 (exBig (List.replicate 65 536870911) 65)
          * val .generic64 (exBig (List.replicate 65 536870911) 65) :=
  ffrsa_decrypt_crt_product_wraps .generic64
    (exHeap [exBig (List.replicate 131 0) 1, exBig (List.replicate 65 536870911) 65,
      exBig (List.replicate 65 536870911) 65] 0) 0 1 2
    (exBig (List.replicate 65 536870911) 65) (exBig (List.replicate 65 536870911) 65)
    (exBig (List.replicate 131 0) 1) rfl rfl rfl (by decide) (by decide) rfl (by decide)
    (by decide) rfl (by decide) (by decide) rfl
    ⟨by decide, fun c hc => Option.noConfusion hc⟩

/-- After `ffbi_get_sieve(sieve, n)` with `3 <= n < 2^31` the arena holds a sieve for `n`. -/
theorem holdsSieve_of_get_sieve (P : Platform) (h0 h : Heap) (sv n : Nat) (ss0 : FFBI_SCRATCH)
    (hsv0 : h0.scr[sv]? = some ss0) (hn : 3 ≤ n) (hn31 : n < 2 ^ 31)
    (hbuild : ffbi_get_sieve P h0 sv n = some h) : holdsSieve P h sv n := by
  obtain ⟨h1, xs, e1, sc1, _, _, ent1, wf1, vals1⟩ := ffbi_get_sieve_spec P h0 sv n ss0 hsv0 hn hn31
  have hh : h1 = h := Option.some.inj (e1.symm.trans hbuild)
  subst hh
  have hlen : xs.length = (oddPrimesBelow n).length := by rw [← vals1, List.length_map]
  refine ⟨{ ss0 with val := List.range' h0.obj.length xs.length }, ?_, ?_, ?_⟩
  · rw [sc1]
    exact scratch_get_set_self _ (List.getElem?_eq_some.mp hsv0).1
  · dsimp only
    rw [List.length_range', hlen]
  · intro i hi
    dsimp only at hi ⊢
    rw [List.length_range'] at hi
    have hg := ent1 i hi
    rw [List.getElem?_eq_getElem hi] at hg
    obtain ⟨w1, _, w3⟩ := wf1 _ (List.getElem_mem hi)
    refine ⟨xs[i], ?_, w1, fun hc => absurd (w3.symm.trans hc) (by decide), ?_⟩
    · rw [List.getD_eq_getElem _ _ (by rw [List.length_range']; exact hi), List.getElem_range']
      simpa using hg
    · rw [List.getD_eq_getElem _ _ (by omega)]
      simp only [← vals1, List.getElem_map]

/-- A sieve stays a sieve while the arena and the bigints of its entries are unchanged:
bigints and arenas created or changed elsewhere do not matter. -/
theorem holdsSieve_frame (P : Platform) (h h' : Heap) (sv n : Nat) (hs : holdsSieve P h sv n)
    (hscr : h'.scr[sv]? = h.scr[sv]?)
    (hget : ∀ ss q, h.scr[sv]? = some ss → q ∈ ss.val → h'.get q = h.get q) :
    holdsSieve P h' sv n := by
  obtain ⟨ss, g, l, e⟩ := hs
  refine ⟨ss, hscr.trans g, l, fun i hi => ?_⟩
  obtain ⟨x, gx, rest⟩ := e i hi
  refine ⟨x, ?_, rest⟩
  rw [hget ss _ g (by rw [List.getD_eq_getElem _ _ hi]; exact List.getElem_mem hi)]
  exact gx

set_option maxRecDepth 100000 in
/-- C1 (the code departs from the claim): the remainder argument may be the dividend itself;
the function tests `rem != a` in its first branch and `ffbi.h` forbids aliasing only for
`dest`.  With `a = 2^29 + 1` (digits 1, 1), `b = 3`, `rem = a`, a growable quotient and two
scratch bigints of three digits on the 29-bit configuration, every condition of the claim
holds, the call returns 0, and it leaves the quotient 178956970 and the remainder 2, where
`2^29 + 1 = 178956971 * 3 + 0`: the cached path moves the top cache digit of `a` into the
remainder, which is `a`, and then reads the digits of `a` that it has overwritten.  With a
remainder bigint of its own the same call gives 178956971 and 0.  On the 61-bit configuration
the call with `a = 2^61 + 1` and `rem = a` leaves 768614336404564650 and 2, where
`2^61 + 1 = 768614336404564651 * 3`. -/
theorem ffbi_div_impl_remainder_alias_wrong :
    canonical .generic64 (exBig [1, 1, 0] 2) ∧ val .generic64 (exBig [1, 1, 0] 2) = 2 ^ 29 + 1 ∧
    canonical .generic64 (exBig [3, 0, 0] 1) ∧ val .generic64 (exBig [3, 0, 0] 1) = 3 ∧
    (obind (ffbi_div_impl .generic64
        (exHeap [exBig [0, 0, 0] 1, exBig [1, 1, 0] 2, exBig [3, 0, 0] 1, exBig [0, 0, 0] 1,
          exBig [0, 0, 0] 1] 0) 0 1 2 (some 1) 3 4) fun r =>
      obind (r.2.get 0) fun xq => obind (r.2.get 1) fun xr =>
      some (r.1, val .generic64 xq, val .generic64 xr)) = some (0, 178956970, 2) ∧
    2 ^ 29 + 1 ≠ 178956970 * 3 + 2 ∧
    (obind (ffbi_div_impl .generic64
        (exHeap [exBig [0, 0, 0] 1, exBig [1, 1, 0] 2, exBig [3, 0, 0] 1, exBig [0, 0, 0] 1,
          exBig [0, 0, 0] 1, exBig [0, 0, 0] 1] 0) 0 1 2 (some 5) 3 4) fun r =>
      obind (r.2.get 0) fun xq => obind (r.2.get 5) fun xr =>
      some (r.1, val .generic64 xq, val .generic64 xr)) = some (0, 178956971, 0) ∧
    (obind (ffbi_div_impl .gnu128
        (exHeap [exBig [0, 0, 0] 1, exBig [1, 1, 0] 2, exBig [3, 0, 0] 1, exBig [0, 0, 0] 1,
          exBig [0, 0, 0] 1] 0) 0 1 2 (some 1) 3 4) fun r =>
      obind (r.2.get 0) fun xq => obind (r.2.get 1) fun xr =>
      some (r.1, val .gnu128 xq, val .gnu128 xr)) = some (0, 768614336404564650, 2) ∧
    val .gnu128 (exBig [1, 1, 0] 2) = 768614336404564651 * 3 := by
  refine ⟨by decide, by decide, by decide, by decide, by decide, by decide, by decide,
    by decide, by decide⟩

/-- C14 (the code departs from the claim): a bound of `2^31` or more, as a `uint32_t`, does
not fit the `int` count of `ffmem_alloc_arr`; the flag array is not allocated and the `memset`
that follows writes through a null pointer, so the call does not return a sieve. -/
theorem ffbi_get_sieve_fault_large_bound (P : Platform) (h : Heap) (sieve n : Nat)
    (hn : 2 ^ 31 ≤ n) (hn32 : n < 2 ^ 32) : ffbi_get_sieve P h sieve n = none := by
  unfold ffbi_get_sieve
  rw [if_neg (by omega), if_pos (by rw [Nat.mod_eq_of_lt hn32]; exact hn)]

/-- Witness for C14: the bound `2^31` on the 29-bit configuration. -/
theorem ffbi_get_sieve_fault_large_bound_witness :
    ffbi_get_sieve .generic64
      (exHeapR [] [{ val := [], child := none, num_children := 0 }] 0 (fun _ => 0)) 0 (2 ^ 31)
      = none :=
  ffbi_get_sieve_fault_large_bound .generic64
    (exHeapR [] [{ val := [], child := none, num_children := 0 }] 0 (fun _ => 0)) 0 (2 ^ 31)
    (by decide) (by decide)


end FFRSA
